import Mathlib

/-!
# NVMeVirt conventional FTL: a shallow embedding

The definitions below follow `src/conv_ftl.c`, `src/pqueue/pqueue.c`, `src/ssd.h` and
`src/ssd.c` function by function and keep their names.

Modelling conventions.

* C arrays are total functions on `Nat`; pointers to `struct line` are indices into
  `lm.lines`, and a `NULL` pointer is `none`.
* `NVMEV_ASSERT` is `BUG_ON`: a failed assertion, a `NULL` dereference and an access outside
  the NAND arrays built by `ssd_init` all end the run; the model returns `none` there.
* Unsigned counters that the source decrements wrap modulo their width (`dec_u32`,
  `dec_u64`).  The `int` counters `vpc`, `ipc` are only decremented behind an assertion that
  they are positive, so they are natural numbers.
* `ktime_get_ns()` and `get_random_u32()` are inputs (`now`, `r`).
* `ssd_advance_nand` changes only the per-LUN and per-channel timing fields, which no function
  of the translation layer reads; that part of the state is kept apart from `conv_ftl` and the
  calls are left out of the state transformers below.
* Loops whose trip count is not a `for` bound (`bubble_up`, `percolate_down`) take a fuel
  argument that their callers set from the heap size; running out of fuel returns `none`, so
  every theorem concluding `= some _` also shows the fuel was enough.
-/

set_option autoImplicit false

namespace NVMeVirt

/-! ## `ssd.h` -/

/-- `INVALID_LPN`, the all-ones 64-bit word. -/
def INVALID_LPN : Nat := 18446744073709551615

/-- `USER_IO` of the anonymous enum in `ssd.h`. -/
def USER_IO : Nat := 0

/-- `GC_IO` of the anonymous enum in `ssd.h`. -/
def GC_IO : Nat := 1

/-- Page status: `PG_FREE`, `PG_INVALID`, `PG_VALID`. -/
inductive pg_status where
  | PG_FREE
  | PG_INVALID
  | PG_VALID
  deriving DecidableEq, Repr

open pg_status

/-- `struct ppa`: the bit-fields of the 64-bit word (`pg:16 blk:16 pl:8 lun:8 ch:8 rsv:16`). -/
structure ppa where
  pg : Nat
  blk : Nat
  pl : Nat
  lun : Nat
  ch : Nat
  rsv : Nat
  deriving DecidableEq, Repr

/-- `UNMAPPED_PPA`: every bit set, so every bit-field at its maximum. -/
def UNMAPPED_PPA : ppa :=
  { pg := 65535, blk := 65535, pl := 255, lun := 255, ch := 255, rsv := 65535 }

/-- `struct nand_page` (the sector array is never read by the conventional FTL). -/
structure nand_page where
  nsecs : Nat
  status : pg_status
  deriving DecidableEq, Repr

/-- `struct nand_block`; `pg` is the page array. -/
structure nand_block where
  pg : Nat → nand_page
  npgs : Nat
  ipc : Nat
  vpc : Nat
  erase_cnt : Nat
  wp : Nat

/-- `struct ssdparams`: the fields the translation layer and the timing model read. -/
structure ssdparams where
  secsz : Nat := 512
  secs_per_pg : Nat
  pgsz : Nat
  pgs_per_flashpg : Nat
  flashpgs_per_blk : Nat
  pgs_per_oneshotpg : Nat
  oneshotpgs_per_blk : Nat
  pgs_per_blk : Nat
  blks_per_pl : Nat
  pls_per_lun : Nat
  luns_per_ch : Nat
  nchs : Nat
  cell_mode : Nat := 1
  write_unit_size : Nat := 512
  write_early_completion : Bool := true
  pg_4kb_rd_lat : Nat → Nat := fun _ => 0
  pg_rd_lat : Nat → Nat := fun _ => 0
  pg_wr_lat : Nat := 0
  blk_er_lat : Nat := 0
  max_ch_xfer_size : Nat := 16384
  fw_4kb_rd_lat : Nat := 0
  fw_rd_lat : Nat := 0
  fw_wbuf_lat0 : Nat := 0
  fw_wbuf_lat1 : Nat := 0
  fw_ch_xfer_lat : Nat := 0
  ch_bandwidth : Nat := 0
  pcie_bandwidth : Nat := 0
  pgs_per_pl : Nat
  pgs_per_lun : Nat
  pgs_per_ch : Nat
  tt_pgs : Nat
  blks_per_lun : Nat
  blks_per_ch : Nat
  tt_blks : Nat
  pgs_per_line : Nat
  blks_per_line : Nat
  tt_lines : Nat
  tt_luns : Nat
  write_buffer_size : Nat := 0

/-- `struct ssd`: parameters and the NAND hierarchy `ch[c].lun[l].pl[p].blk[b]`, whose
extents `ssd_init` takes from `sp`. -/
structure ssd where
  sp : ssdparams
  blk : Nat → Nat → Nat → Nat → nand_block

/-! ## `conv_ftl.h` -/

/-- `struct convparams`. -/
structure convparams where
  gc_thres_lines : Nat
  gc_thres_lines_high : Nat
  enable_gc_delay : Bool
  pba_pcent : Nat

/-- `struct line`. -/
structure line where
  id : Nat
  ipc : Nat
  vpc : Nat
  pos : Nat
  last_modified_time : Nat
  deriving DecidableEq, Repr

/-- `struct write_pointer`; `curline` is the index of the open line. -/
structure write_pointer where
  curline : Nat
  ch : Nat
  lun : Nat
  pg : Nat
  blk : Nat
  pl : Nat
  deriving DecidableEq, Repr

/-- `pqueue_t` (`pqueue.h`): sizes, the five hooks and the array `d` of item pointers. -/
structure pqueue_t where
  size : Nat
  avail : Nat
  step : Nat
  cmppri : Nat → Nat → Bool
  getpri : line → Nat
  setpri : line → Nat → line
  getpos : line → Nat
  setpos : line → Nat → line
  d : Nat → Option Nat

/-- The policy installed in `lm->select_victim` by `init_lines`
(`GC_MODE_GREEDY`, `GC_MODE_COST_BENEFIT`, `GC_MODE_RANDOM`). -/
inductive victim_select_fn where
  | GC_MODE_GREEDY
  | GC_MODE_COST_BENEFIT
  | GC_MODE_RANDOM
  deriving DecidableEq, Repr

open victim_select_fn

/-- `struct line_mgmt`; the two kernel lists hold line indices, head first. -/
structure line_mgmt where
  lines : Nat → line
  free_line_list : List Nat
  victim_line_pq : pqueue_t
  select_victim : victim_select_fn
  full_line_list : List Nat
  tt_lines : Nat
  free_line_cnt : Nat
  victim_line_cnt : Nat
  full_line_cnt : Nat

/-- `struct write_flow_control` (both fields are `uint32_t`). -/
structure write_flow_control where
  write_credits : Nat
  credits_to_refill : Nat
  deriving DecidableEq, Repr

/-- The file-scope variables of `conv_ftl.c`. -/
structure globals where
  debug_mode : Bool
  total_gc_cnt : Nat
  hot_gc_cnt : Nat
  cold_gc_cnt : Nat
  victim_total_age : Nat
  victim_chosen_cnt : Nat
  deriving DecidableEq, Repr

/-- `struct conv_ftl` together with the file-scope variables (`glob`). -/
structure conv_ftl where
  ssd : ssd
  cp : convparams
  maptbl : Nat → ppa
  rmap : Nat → Nat
  wp : write_pointer
  gc_wp : write_pointer
  lm : line_mgmt
  wfc : write_flow_control
  gc_count : Nat
  gc_copied_pages : Nat
  glob : globals

/-- Decrement of a `uint32_t`. -/
def dec_u32 (n : Nat) : Nat := if n = 0 then 4294967295 else n - 1

/-- Decrement of a `size_t` / `uint64_t`. -/
def dec_u64 (n : Nat) : Nat := if n = 0 then 18446744073709551615 else n - 1

/-! ## `pqueue.c`

The queue of this repository always holds pointers to the lines of one `line_mgmt`, and its
hooks read and write those lines, so the operations act on the `line_mgmt` that owns both. -/

/-- `q->getpri(p)` for an item pointer `p`. -/
def pq_getpri (lm : line_mgmt) (p : Option Nat) : Option Nat :=
  match p with
  | none => none
  | some k => some (lm.victim_line_pq.getpri (lm.lines k))

/-- `q->setpos(p, i)` for an item pointer `p`. -/
def pq_setpos (lm : line_mgmt) (p : Option Nat) (i : Nat) : Option line_mgmt :=
  match p with
  | none => none
  | some k =>
    some { lm with lines := Function.update lm.lines k (lm.victim_line_pq.setpos (lm.lines k) i) }

/-- `q->d[i] = p`. -/
def pq_set_d (lm : line_mgmt) (i : Nat) (p : Option Nat) : line_mgmt :=
  { lm with victim_line_pq :=
      { lm.victim_line_pq with d := Function.update lm.victim_line_pq.d i p } }

/-- `q->size = n`. -/
def pq_set_size (lm : line_mgmt) (n : Nat) : line_mgmt :=
  { lm with victim_line_pq := { lm.victim_line_pq with size := n } }

/-- `pqueue_init`. The array comes from `kmalloc`, so its contents `d0` are arbitrary. -/
def pqueue_init (n : Nat) (cmppri : Nat → Nat → Bool) (getpri : line → Nat)
    (setpri : line → Nat → line) (getpos : line → Nat) (setpos : line → Nat → line)
    (d0 : Nat → Option Nat) : pqueue_t :=
  { size := 1, avail := n + 1, step := n + 1, cmppri := cmppri, getpri := getpri,
    setpri := setpri, getpos := getpos, setpos := setpos, d := d0 }

/-- `pqueue_size`. -/
def pqueue_size (q : pqueue_t) : Nat := q.size - 1

/-- The `for` loop of `bubble_up`: returns the state and the final index `i`. -/
def bubble_up_loop (moving_pri : Nat) : Nat → line_mgmt → Nat → Option (line_mgmt × Nat)
  | 0, _, _ => none
  | fuel + 1, lm, i =>
    if 1 < i then
      match pq_getpri lm (lm.victim_line_pq.d (i / 2)) with
      | none => none
      | some parent_pri =>
        if lm.victim_line_pq.cmppri parent_pri moving_pri then
          match pq_setpos (pq_set_d lm i (lm.victim_line_pq.d (i / 2)))
              (lm.victim_line_pq.d (i / 2)) i with
          | none => none
          | some lm2 => bubble_up_loop moving_pri fuel lm2 (i / 2)
        else some (lm, i)
    else some (lm, i)

/-- `bubble_up`. -/
def bubble_up (lm : line_mgmt) (i : Nat) : Option line_mgmt :=
  let moving_node := lm.victim_line_pq.d i
  match pq_getpri lm moving_node with
  | none => none
  | some moving_pri =>
    match bubble_up_loop moving_pri (i + 1) lm i with
    | none => none
    | some (lm1, j) => pq_setpos (pq_set_d lm1 j moving_node) moving_node j

/-- `maxchild`. -/
def maxchild (lm : line_mgmt) (i : Nat) : Option Nat :=
  let child_node := 2 * i
  if lm.victim_line_pq.size ≤ child_node then some 0
  else if child_node + 1 < lm.victim_line_pq.size then
    match pq_getpri lm (lm.victim_line_pq.d child_node),
      pq_getpri lm (lm.victim_line_pq.d (child_node + 1)) with
    | some a, some b => if lm.victim_line_pq.cmppri a b then some (child_node + 1) else some child_node
    | _, _ => none
  else some child_node

/-- The `while` loop of `percolate_down`: returns the state and the final index `i`. -/
def percolate_down_loop (moving_pri : Nat) : Nat → line_mgmt → Nat → Option (line_mgmt × Nat)
  | 0, _, _ => none
  | fuel + 1, lm, i =>
    match maxchild lm i with
    | none => none
    | some child_node =>
      if child_node ≠ 0 then
        match pq_getpri lm (lm.victim_line_pq.d child_node) with
        | none => none
        | some child_pri =>
          if lm.victim_line_pq.cmppri moving_pri child_pri then
            match pq_setpos (pq_set_d lm i (lm.victim_line_pq.d child_node))
                (lm.victim_line_pq.d child_node) i with
            | none => none
            | some lm2 => percolate_down_loop moving_pri fuel lm2 child_node
          else some (lm, i)
      else some (lm, i)

/-- `percolate_down`. -/
def percolate_down (lm : line_mgmt) (i : Nat) : Option line_mgmt :=
  let moving_node := lm.victim_line_pq.d i
  match pq_getpri lm moving_node with
  | none => none
  | some moving_pri =>
    match percolate_down_loop moving_pri (lm.victim_line_pq.size + 2) lm i with
    | none => none
    | some (lm1, j) => pq_setpos (pq_set_d lm1 j moving_node) moving_node j

/-- `pqueue_insert`: returns the new state and the return code. A full array is only logged
(`NVMEV_ERROR`), the insertion goes on. -/
def pqueue_insert (lm : line_mgmt) (d : Option Nat) : Option (line_mgmt × Nat) :=
  let i := lm.victim_line_pq.size
  match bubble_up (pq_set_d (pq_set_size lm (i + 1)) i d) i with
  | none => none
  | some lm1 => some (lm1, 0)

/-- `pqueue_change_priority`. -/
def pqueue_change_priority (lm : line_mgmt) (new_pri : Nat) (d : Option Nat) : Option line_mgmt :=
  match d with
  | none => none
  | some k =>
    let old_pri := lm.victim_line_pq.getpri (lm.lines k)
    let lm1 : line_mgmt :=
      { lm with lines := Function.update lm.lines k (lm.victim_line_pq.setpri (lm.lines k) new_pri) }
    let posn := lm1.victim_line_pq.getpos (lm1.lines k)
    if lm1.victim_line_pq.cmppri old_pri new_pri then bubble_up lm1 posn
    else percolate_down lm1 posn

/-- `pqueue_remove`: returns the new state and the return code. -/
def pqueue_remove (lm : line_mgmt) (d : Option Nat) : Option (line_mgmt × Nat) :=
  match d with
  | none => none
  | some k =>
    let posn := lm.victim_line_pq.getpos (lm.lines k)
    let size1 := dec_u64 lm.victim_line_pq.size
    let lm1 := pq_set_d (pq_set_size lm size1) posn (lm.victim_line_pq.d size1)
    match pq_getpri lm1 (lm1.victim_line_pq.d posn) with
    | none => none
    | some pri =>
      match (if lm1.victim_line_pq.cmppri (lm1.victim_line_pq.getpri (lm1.lines k)) pri
             then bubble_up lm1 posn else percolate_down lm1 posn) with
      | none => none
      | some lm2 => some (lm2, 0)

/-- `pqueue_pop`: returns the new state and the popped pointer (`none` is `NULL`). -/
def pqueue_pop (lm : line_mgmt) : Option (line_mgmt × Option Nat) :=
  if lm.victim_line_pq.size = 1 then some (lm, none)
  else
    let head := lm.victim_line_pq.d 1
    let size1 := dec_u64 lm.victim_line_pq.size
    match percolate_down (pq_set_d (pq_set_size lm size1) 1 (lm.victim_line_pq.d size1)) 1 with
    | none => none
    | some lm1 => some (lm1, head)

/-- `pqueue_peek`. -/
def pqueue_peek (lm : line_mgmt) : Option Nat :=
  if lm.victim_line_pq.size = 1 then none else lm.victim_line_pq.d 1


/-- One of the two `if` blocks of `subtree_is_valid`, for the child at index `child`; `rec`
is the recursive call. -/
def subtree_check (lm : line_mgmt) (rec : Nat → Option Bool) (pos child : Nat) : Option Bool :=
  if child < lm.victim_line_pq.size then
    match pq_getpri lm (lm.victim_line_pq.d pos), pq_getpri lm (lm.victim_line_pq.d child) with
    | some a, some b => if lm.victim_line_pq.cmppri a b then some false else rec child
    | _, _ => none
  else some true

/-- `subtree_is_valid`, with the depth of the recursion bounded by `fuel`. -/
def subtree_is_valid (lm : line_mgmt) : Nat → Nat → Option Bool
  | 0, _ => none
  | fuel + 1, pos =>
    match subtree_check lm (subtree_is_valid lm fuel) pos (2 * pos) with
    | none => none
    | some false => some false
    | some true => subtree_check lm (subtree_is_valid lm fuel) pos (2 * pos + 1)

/-- `pqueue_is_valid`: the recursion from the root is no deeper than `size`. -/
def pqueue_is_valid (lm : line_mgmt) : Option Bool :=
  subtree_is_valid lm (lm.victim_line_pq.size + 1) 1

/-! ## `conv_ftl.c` -/

/-- `NVMEV_ASSERT(c)`, that is `BUG_ON(!c)`. -/
def NVMEV_ASSERT (c : Prop) [Decidable c] : Option Unit := if c then some () else none

/-- A counted `for (i = start; ...; i++)` loop with `n` iterations left. -/
def for_loop_from {σ : Type} (body : Nat → σ → Option σ) : Nat → Nat → σ → Option σ
  | 0, _, s => some s
  | n + 1, i, s =>
    match body i s with
    | none => none
    | some s1 => for_loop_from body n (i + 1) s1

/-- `for (i = 0; i < n; i++) body`. -/
def for_loop {σ : Type} (n : Nat) (body : Nat → σ → Option σ) (s : σ) : Option σ :=
  for_loop_from body n 0 s

/-- `HOT_REGION_LPN_LIMIT`. -/
def HOT_REGION_LPN_LIMIT : Nat := 38400

/-- `last_pg_in_wordline`. -/
def last_pg_in_wordline (s : conv_ftl) (p : ppa) : Bool :=
  decide (p.pg % s.ssd.sp.pgs_per_oneshotpg = s.ssd.sp.pgs_per_oneshotpg - 1)

/-- `should_gc`. -/
def should_gc (s : conv_ftl) : Bool := decide (s.lm.free_line_cnt ≤ s.cp.gc_thres_lines)

/-- `should_gc_high`. -/
def should_gc_high (s : conv_ftl) : Bool :=
  decide (s.lm.free_line_cnt ≤ s.cp.gc_thres_lines_high)

/-- `get_maptbl_ent`. -/
def get_maptbl_ent (s : conv_ftl) (lpn : Nat) : ppa := s.maptbl lpn

/-- `set_maptbl_ent`. -/
def set_maptbl_ent (s : conv_ftl) (lpn : Nat) (p : ppa) : Option conv_ftl :=
  if lpn < s.ssd.sp.tt_pgs then some { s with maptbl := Function.update s.maptbl lpn p }
  else none

/-- The index computed by `ppa2pgidx`, before its range assertion. -/
def pgidx_of (spp : ssdparams) (p : ppa) : Nat :=
  p.ch * spp.pgs_per_ch + p.lun * spp.pgs_per_lun + p.pl * spp.pgs_per_pl +
    p.blk * spp.pgs_per_blk + p.pg

/-- `ppa2pgidx`. -/
def ppa2pgidx (s : conv_ftl) (p : ppa) : Option Nat :=
  if pgidx_of s.ssd.sp p < s.ssd.sp.tt_pgs then some (pgidx_of s.ssd.sp p) else none

/-- `get_rmap_ent`. -/
def get_rmap_ent (s : conv_ftl) (p : ppa) : Option Nat :=
  match ppa2pgidx s p with
  | none => none
  | some pgidx => some (s.rmap pgidx)

/-- `set_rmap_ent`. -/
def set_rmap_ent (s : conv_ftl) (lpn : Nat) (p : ppa) : Option conv_ftl :=
  match ppa2pgidx s p with
  | none => none
  | some pgidx => some { s with rmap := Function.update s.rmap pgidx lpn }

/-- `get_pri_greedy`. -/
def get_pri_greedy (a : line) : Nat := a.vpc

/-- `cmp_pri_greedy`. -/
def cmp_pri_greedy (next curr : Nat) : Bool := decide (curr < next)

/-- `get_pri_dummy`. -/
def get_pri_dummy (_a : line) : Nat := 0

/-- `cmp_pri_dummy`. -/
def cmp_pri_dummy (_next _curr : Nat) : Bool := false

/-- `victim_line_set_pri`. -/
def victim_line_set_pri (a : line) (pri : Nat) : line := { a with vpc := pri }

/-- `victim_line_get_pos`. -/
def victim_line_get_pos (a : line) : Nat := a.pos

/-- `victim_line_set_pos`. -/
def victim_line_set_pos (a : line) (pos : Nat) : line := { a with pos := pos }

/-- `consume_write_credit`. -/
def consume_write_credit (s : conv_ftl) : conv_ftl :=
  { s with wfc := { s.wfc with write_credits := dec_u32 s.wfc.write_credits } }

/-- `lm->lines[k].pos = 0`. -/
def clear_pos (lm : line_mgmt) (k : Nat) : line_mgmt :=
  { lm with lines := Function.update lm.lines k { lm.lines k with pos := 0 } }

/-- The statistics update `victim_total_age += age_ms; victim_chosen_cnt++` (both `uint64_t`). -/
def note_victim (g : globals) (age_ms : Nat) : globals :=
  { g with victim_total_age := (g.victim_total_age + age_ms) % 18446744073709551616,
           victim_chosen_cnt := (g.victim_chosen_cnt + 1) % 18446744073709551616 }

/-- Subtraction of two `uint64_t`. -/
def sub_u64 (a b : Nat) : Nat := (a + 18446744073709551616 - b) % 18446744073709551616

/-- `select_victim_greedy`: returns the new state and the victim pointer. -/
def select_victim_greedy (s : conv_ftl) (now : Nat) (force : Bool) :
    Option (conv_ftl × Option Nat) :=
  match pqueue_peek s.lm with
  | none => some (s, none)
  | some v =>
    if !force && decide (s.ssd.sp.pgs_per_line / 8 < (s.lm.lines v).vpc) then some (s, none)
    else
      let g := note_victim s.glob (sub_u64 now (s.lm.lines v).last_modified_time / 1000000)
      match pqueue_pop s.lm with
      | none => none
      | some (lm1, _) =>
        let lm2 := clear_pos lm1 v
        some ({ s with glob := g,
                       lm := { lm2 with victim_line_cnt := dec_u32 lm2.victim_line_cnt } }, some v)

/-- `select_victim_random`; `r` is the value of `get_random_u32()`. -/
def select_victim_random (s : conv_ftl) (r : Nat) (_force : Bool) :
    Option (conv_ftl × Option Nat) :=
  if s.lm.victim_line_pq.size = 0 then some (s, none)
  else
    let rand_idx := r % s.lm.victim_line_pq.size + 1
    let victim_line := s.lm.victim_line_pq.d rand_idx
    match pqueue_remove s.lm victim_line, victim_line with
    | some (lm1, _), some v =>
      let lm2 := clear_pos lm1 v
      some ({ s with lm := { lm2 with victim_line_cnt := dec_u32 lm2.victim_line_cnt } }, some v)
    | _, _ => none

/-- `THRESHOLD_VERY_HOT`. -/
def THRESHOLD_VERY_HOT : Nat := 100 * 1000000

/-- `THRESHOLD_HOT`. -/
def THRESHOLD_HOT : Nat := 5 * 1000000000

/-- `THRESHOLD_WARM`. -/
def THRESHOLD_WARM : Nat := 60 * 1000000000

/-- `get_age_weight`. -/
def get_age_weight (age_ns : Nat) : Nat :=
  if age_ns < THRESHOLD_VERY_HOT then 1
  else if age_ns < THRESHOLD_HOT then 5
  else if age_ns < THRESHOLD_WARM then 20
  else 100

/-- The locals `best_victim`, `max_score`, `victim_age` of `select_victim_cb`. -/
structure cb_scan where
  best_victim : Option Nat
  max_score : Nat
  victim_age : Nat
  deriving DecidableEq, Repr

/-- The age of a candidate in `select_victim_cb`. -/
def cb_age (now : Nat) (cand : line) : Nat :=
  if cand.last_modified_time < now then now - cand.last_modified_time else 0

/-- The score of a candidate in `select_victim_cb`. -/
def cb_score (now : Nat) (cand : line) : Nat :=
  get_age_weight (cb_age now cand) * cand.ipc / (cand.vpc + 1)

/-- One iteration of the scan of `select_victim_cb`, at array index `i`. -/
def select_victim_cb_step (lm : line_mgmt) (now : Nat) (acc : cb_scan) (i : Nat) : cb_scan :=
  match lm.victim_line_pq.d i with
  | none => acc
  | some c =>
    if acc.max_score < cb_score now (lm.lines c) then
      { best_victim := some c, max_score := cb_score now (lm.lines c),
        victim_age := cb_age now (lm.lines c) }
    else acc

/-- `select_victim_cb`: the scan runs over `i = 1 .. q->size`. -/
def select_victim_cb (s : conv_ftl) (now : Nat) (_force : Bool) :
    Option (conv_ftl × Option Nat) :=
  if s.lm.victim_line_pq.size = 0 then some (s, none)
  else
    let acc := (List.range' 1 s.lm.victim_line_pq.size).foldl
      (select_victim_cb_step s.lm now) { best_victim := none, max_score := 0, victim_age := 0 }
    match acc.best_victim with
    | none => some (s, none)
    | some b =>
      match pqueue_remove s.lm (some b) with
      | none => none
      | some (lm1, _) =>
        let lm2 := clear_pos lm1 b
        some ({ s with glob := note_victim s.glob (acc.victim_age / 1000000),
                       lm := { lm2 with victim_line_cnt := dec_u32 lm2.victim_line_cnt } }, some b)

/-- The call `conv_ftl->lm.select_victim(conv_ftl, force)`. -/
def select_victim (s : conv_ftl) (now r : Nat) (force : Bool) : Option (conv_ftl × Option Nat) :=
  match s.lm.select_victim with
  | GC_MODE_GREEDY => select_victim_greedy s now force
  | GC_MODE_COST_BENEFIT => select_victim_cb s now force
  | GC_MODE_RANDOM => select_victim_random s r force

/-- The totals `ssd_init_params` computes from the basic geometry (`ssd.c`, under "Total
Counts" and the line sizes), over the unbounded naturals. -/
def ssd_init_totals (sp : ssdparams) : ssdparams :=
  { sp with pgs_per_pl := sp.pgs_per_blk * sp.blks_per_pl,
            pgs_per_lun := sp.pgs_per_blk * sp.blks_per_pl * sp.pls_per_lun,
            pgs_per_ch := sp.pgs_per_blk * sp.blks_per_pl * sp.pls_per_lun * sp.luns_per_ch,
            tt_pgs := sp.pgs_per_blk * sp.blks_per_pl * sp.pls_per_lun * sp.luns_per_ch * sp.nchs,
            blks_per_lun := sp.blks_per_pl * sp.pls_per_lun,
            blks_per_ch := sp.blks_per_pl * sp.pls_per_lun * sp.luns_per_ch,
            tt_blks := sp.blks_per_pl * sp.pls_per_lun * sp.luns_per_ch * sp.nchs,
            tt_luns := sp.luns_per_ch * sp.nchs,
            blks_per_line := sp.luns_per_ch * sp.nchs,
            pgs_per_line := sp.luns_per_ch * sp.nchs * sp.pgs_per_blk,
            tt_lines := sp.blks_per_pl * sp.pls_per_lun }

/-- `ssd_init`: every page free, every counter zero. -/
def ssd_init (spp : ssdparams) : ssd :=
  { sp := spp,
    blk := fun _ _ _ _ =>
      { pg := fun _ => { nsecs := spp.secs_per_pg, status := PG_FREE },
        npgs := spp.pgs_per_blk, ipc := 0, vpc := 0, erase_cnt := 0, wp := 0 } }

/-- `init_lines`; `gc_mode` is the module parameter and `d0` the fresh heap array. -/
def init_lines (spp : ssdparams) (gc_mode : Nat) (d0 : Nat → Option Nat) : Option line_mgmt :=
  let sel : victim_select_fn :=
    if gc_mode = 2 then GC_MODE_RANDOM else if gc_mode = 1 then GC_MODE_COST_BENEFIT
    else GC_MODE_GREEDY
  let cmp_func : Nat → Nat → Bool :=
    match sel with
    | GC_MODE_GREEDY => cmp_pri_greedy
    | _ => cmp_pri_dummy
  let get_func : line → Nat :=
    match sel with
    | GC_MODE_GREEDY => get_pri_greedy
    | _ => get_pri_dummy
  if spp.blks_per_pl = spp.tt_lines then
    some { lines := fun i => { id := i, ipc := 0, vpc := 0, pos := 0, last_modified_time := 0 },
           free_line_list := List.range spp.blks_per_pl,
           victim_line_pq := pqueue_init spp.tt_lines cmp_func get_func victim_line_set_pri
             victim_line_get_pos victim_line_set_pos d0,
           select_victim := sel,
           full_line_list := [],
           tt_lines := spp.blks_per_pl,
           free_line_cnt := spp.blks_per_pl,
           victim_line_cnt := 0,
           full_line_cnt := 0 }
  else none

/-- `init_write_flow_control`. -/
def init_write_flow_control (spp : ssdparams) : write_flow_control :=
  { write_credits := spp.pgs_per_line, credits_to_refill := spp.pgs_per_line }

/-- `check_addr`. -/
def check_addr (a max : Nat) : Option Unit := NVMEV_ASSERT (a < max)

/-- `get_next_free_line`: returns the new manager and the line taken (`none` is `NULL`). -/
def get_next_free_line (lm : line_mgmt) : line_mgmt × Option Nat :=
  match lm.free_line_list with
  | [] => (lm, none)
  | curline :: rest =>
    ({ lm with free_line_list := rest, free_line_cnt := dec_u32 lm.free_line_cnt }, some curline)

/-- `__get_wp`. -/
def __get_wp (s : conv_ftl) (io_type : Nat) : Option write_pointer :=
  if io_type = USER_IO then some s.wp
  else if io_type = GC_IO then some s.gc_wp
  else none

/-- Store through the pointer returned by `__get_wp`. -/
def set_wp (s : conv_ftl) (io_type : Nat) (w : write_pointer) : conv_ftl :=
  if io_type = USER_IO then { s with wp := w } else { s with gc_wp := w }

/-- `prepare_write_pointer`. -/
def prepare_write_pointer (s : conv_ftl) (io_type : Nat) : Option conv_ftl :=
  match __get_wp s io_type, get_next_free_line s.lm with
  | some _, (lm1, some curline) =>
    some (set_wp { s with lm := lm1 } io_type
      { curline := curline, ch := 0, lun := 0, pg := 0, blk := (lm1.lines curline).id, pl := 0 })
  | _, _ => none

/-- The block "move current line to {victim,full} line list" of `advance_write_pointer`. -/
def advance_write_pointer_close (spp : ssdparams) (lm : line_mgmt) (curline : Nat) :
    Option line_mgmt :=
  if (lm.lines curline).vpc = spp.pgs_per_line then do
    NVMEV_ASSERT ((lm.lines curline).ipc = 0)
    pure { lm with full_line_list := lm.full_line_list ++ [curline],
                   full_line_cnt := lm.full_line_cnt + 1 }
  else do
    NVMEV_ASSERT ((lm.lines curline).vpc < spp.pgs_per_line)
    NVMEV_ASSERT (0 < (lm.lines curline).ipc)
    let r ← pqueue_insert lm (some curline)
    pure { r.1 with victim_line_cnt := r.1.victim_line_cnt + 1 }

/-- The tail of `advance_write_pointer`, reached when the open line is used up. -/
def advance_write_pointer_newline (s : conv_ftl) (io_type : Nat) (w : write_pointer) :
    Option conv_ftl := do
  let spp := s.ssd.sp
  let wpp : write_pointer := { w with pg := 0 }
  let lm1 ← advance_write_pointer_close spp s.lm wpp.curline
  check_addr wpp.blk spp.blks_per_pl
  match get_next_free_line lm1 with
  | (_, none) => none
  | (lm2, some curline) =>
    let wpp2 : write_pointer := { wpp with curline := curline, blk := (lm2.lines curline).id }
    check_addr wpp2.blk spp.blks_per_pl
    NVMEV_ASSERT (wpp2.pg = 0)
    NVMEV_ASSERT (wpp2.lun = 0)
    NVMEV_ASSERT (wpp2.ch = 0)
    NVMEV_ASSERT (wpp2.pl = 0)
    pure (set_wp { s with lm := lm2 } io_type wpp2)

/-- `advance_write_pointer`. -/
def advance_write_pointer (s : conv_ftl) (io_type : Nat) : Option conv_ftl := do
  let spp := s.ssd.sp
  let wpp ← __get_wp s io_type
  check_addr wpp.pg spp.pgs_per_blk
  NVMEV_ASSERT (spp.pgs_per_oneshotpg ≠ 0)
  let w1 : write_pointer := { wpp with pg := wpp.pg + 1 }
  if w1.pg % spp.pgs_per_oneshotpg ≠ 0 then pure (set_wp s io_type w1)
  else do
    let w2 : write_pointer := { w1 with pg := w1.pg - spp.pgs_per_oneshotpg }
    check_addr w2.ch spp.nchs
    let w3 : write_pointer := { w2 with ch := w2.ch + 1 }
    if w3.ch ≠ spp.nchs then pure (set_wp s io_type w3)
    else do
      let w4 : write_pointer := { w3 with ch := 0 }
      check_addr w4.lun spp.luns_per_ch
      let w5 : write_pointer := { w4 with lun := w4.lun + 1 }
      if w5.lun ≠ spp.luns_per_ch then pure (set_wp s io_type w5)
      else do
        let w6 : write_pointer := { w5 with lun := 0, pg := w5.pg + spp.pgs_per_oneshotpg }
        if w6.pg ≠ spp.pgs_per_blk then pure (set_wp s io_type w6)
        else advance_write_pointer_newline s io_type w6

/-- `get_new_page`: the cursor fields are stored into the bit-fields of a zeroed word. -/
def get_new_page (s : conv_ftl) (io_type : Nat) : Option ppa := do
  let wp ← __get_wp s io_type
  let p : ppa := { ch := wp.ch % 256, lun := wp.lun % 256, pg := wp.pg % 65536,
                   blk := wp.blk % 65536, pl := wp.pl % 256, rsv := 0 }
  NVMEV_ASSERT (p.pl = 0)
  pure p

/-- `valid_ppa`. -/
def valid_ppa (s : conv_ftl) (p : ppa) : Bool :=
  decide (p.ch < s.ssd.sp.nchs) && decide (p.lun < s.ssd.sp.luns_per_ch) &&
    decide (p.pl < s.ssd.sp.pls_per_lun) && decide (p.blk < s.ssd.sp.blks_per_pl) &&
    decide (p.pg < s.ssd.sp.pgs_per_blk)

/-- `valid_lpn`. -/
def valid_lpn (s : conv_ftl) (lpn : Nat) : Bool := decide (lpn < s.ssd.sp.tt_pgs)

/-- `mapped_ppa`: the bit-fields are all ones exactly when the word is `UNMAPPED_PPA`. -/
def mapped_ppa (p : ppa) : Bool := !decide (p = UNMAPPED_PPA)

/-- `get_line`. -/
def get_line (_s : conv_ftl) (p : ppa) : Nat := p.blk

/-- `get_blk` (`ssd.h`); an address outside the arrays built by `ssd_init` has no block. -/
def get_blk (d : ssd) (p : ppa) : Option nand_block :=
  if p.ch < d.sp.nchs ∧ p.lun < d.sp.luns_per_ch ∧ p.pl < d.sp.pls_per_lun ∧
      p.blk < d.sp.blks_per_pl then some (d.blk p.ch p.lun p.pl p.blk)
  else none

/-- `get_pg` (`ssd.h`). -/
def get_pg (d : ssd) (p : ppa) : Option nand_page :=
  match get_blk d p with
  | none => none
  | some b => if p.pg < d.sp.pgs_per_blk then some (b.pg p.pg) else none

/-- Store through the pointer returned by `get_blk`. -/
def set_blk (d : ssd) (p : ppa) (b : nand_block) : ssd :=
  { d with blk := fun c l pl k =>
      if c = p.ch ∧ l = p.lun ∧ pl = p.pl ∧ k = p.blk then b else d.blk c l pl k }

/-- `blk->pg[i].status = st`. -/
def set_pg_status (b : nand_block) (i : Nat) (st : pg_status) : nand_block :=
  { b with pg := Function.update b.pg i { b.pg i with status := st } }

/-- The decrement of `line->vpc` in `mark_page_invalid`: through `pqueue_change_priority`
when the line is in the victim heap (`line->pos` non-zero), directly otherwise. -/
def mark_page_invalid_vpc (lm : line_mgmt) (k : Nat) : Option line_mgmt :=
  if (lm.lines k).pos ≠ 0 then
    pqueue_change_priority lm ((lm.lines k).vpc - 1) (some k)
  else
    let lv : line := { lm.lines k with vpc := (lm.lines k).vpc - 1 }
    some { lm with lines := Function.update lm.lines k lv }

/-- The branch `if (was_full_line)` of `mark_page_invalid`: `list_del_init`, which unlinks the
line from the list it is on, then `pqueue_insert`. -/
def mark_page_invalid_move (lm : line_mgmt) (k : Nat) : Option line_mgmt := do
  let lmd : line_mgmt :=
    { lm with free_line_list := lm.free_line_list.erase k,
              full_line_list := lm.full_line_list.erase k,
              full_line_cnt := dec_u32 lm.full_line_cnt }
  let r ← pqueue_insert lmd (some k)
  pure { r.1 with victim_line_cnt := r.1.victim_line_cnt + 1 }

/-- The stores `line->ipc = ipc` and `line->last_modified_time = t` on line `k`. -/
def line_set_ipc_time (lm : line_mgmt) (k ipc t : Nat) : line_mgmt :=
  let ln : line := { lm.lines k with ipc := ipc, last_modified_time := t }
  { lm with lines := Function.update lm.lines k ln }

/-- The part of `mark_page_invalid` under "update corresponding line status", for the line
`k = get_line(ppa)`; `now` is `ktime_get_ns()`. -/
def mark_page_invalid_line (spp : ssdparams) (lm : line_mgmt) (now k : Nat) :
    Option line_mgmt := do
  NVMEV_ASSERT ((lm.lines k).ipc < spp.pgs_per_line)
  let was_full_line := decide ((lm.lines k).vpc = spp.pgs_per_line)
  NVMEV_ASSERT (was_full_line = true → (lm.lines k).ipc = 0)
  let lm1 := line_set_ipc_time lm k ((lm.lines k).ipc + 1) (lm.lines k).last_modified_time
  NVMEV_ASSERT (0 < (lm1.lines k).vpc ∧ (lm1.lines k).vpc ≤ spp.pgs_per_line)
  let lm2 ← mark_page_invalid_vpc lm1 k
  let lm3 ← (if was_full_line then mark_page_invalid_move lm2 k else some lm2)
  pure (line_set_ipc_time lm3 k (lm3.lines k).ipc now)

/-- `mark_page_invalid`; `now` is `ktime_get_ns()`. -/
def mark_page_invalid (s : conv_ftl) (now : Nat) (p : ppa) : Option conv_ftl := do
  let spp := s.ssd.sp
  let pg ← get_pg s.ssd p
  NVMEV_ASSERT (pg.status = PG_VALID)
  let blk ← get_blk s.ssd p
  let blk := set_pg_status blk p.pg PG_INVALID
  NVMEV_ASSERT (blk.ipc < spp.pgs_per_blk)
  let blk := { blk with ipc := blk.ipc + 1 }
  NVMEV_ASSERT (0 < blk.vpc ∧ blk.vpc ≤ spp.pgs_per_blk)
  let blk := { blk with vpc := blk.vpc - 1 }
  let lm1 ← mark_page_invalid_line spp s.lm now (get_line s p)
  pure { s with ssd := set_blk s.ssd p blk, lm := lm1 }

/-- `mark_page_valid`. -/
def mark_page_valid (s : conv_ftl) (p : ppa) : Option conv_ftl := do
  let spp := s.ssd.sp
  let pg ← get_pg s.ssd p
  NVMEV_ASSERT (pg.status = PG_FREE)
  let blk ← get_blk s.ssd p
  let blk := set_pg_status blk p.pg PG_VALID
  NVMEV_ASSERT (blk.vpc < spp.pgs_per_blk)
  let blk := { blk with vpc := blk.vpc + 1 }
  let k := get_line s p
  NVMEV_ASSERT ((s.lm.lines k).vpc < spp.pgs_per_line)
  let ln : line := { s.lm.lines k with vpc := (s.lm.lines k).vpc + 1 }
  pure { s with ssd := set_blk s.ssd p blk,
                lm := { s.lm with lines := Function.update s.lm.lines k ln } }

/-- `mark_block_free`. -/
def mark_block_free (s : conv_ftl) (p : ppa) : Option conv_ftl := do
  let spp := s.ssd.sp
  let blk ← get_blk s.ssd p
  let blk ← for_loop spp.pgs_per_blk
    (fun i b => do
      NVMEV_ASSERT ((b.pg i).nsecs = spp.secs_per_pg)
      pure (set_pg_status b i PG_FREE)) blk
  NVMEV_ASSERT (blk.npgs = spp.pgs_per_blk)
  pure { s with ssd := set_blk s.ssd p
                  { blk with ipc := 0, vpc := 0, erase_cnt := blk.erase_cnt + 1 } }

/-- `gc_write_page`. -/
def gc_write_page (s : conv_ftl) (old_ppa : ppa) : Option conv_ftl := do
  let lpn ← get_rmap_ent s old_ppa
  NVMEV_ASSERT (valid_lpn s lpn = true)
  let new_ppa ← get_new_page s GC_IO
  let s1 ← set_maptbl_ent s lpn new_ppa
  let s2 ← set_rmap_ent s1 lpn new_ppa
  let s3 ← mark_page_valid s2 new_ppa
  advance_write_pointer { s3 with gc_copied_pages := s3.gc_copied_pages + 1 } GC_IO

/-- `ppa_copy.g.pg++` on the 16-bit field. -/
def ppa_next_pg (p : ppa) : ppa := { p with pg := (p.pg + 1) % 65536 }

/-- First loop of `clean_one_flashpg`: counts the valid pages, `n` pages left. -/
def clean_one_flashpg_count (s : conv_ftl) : Nat → ppa → Nat → Option Nat
  | 0, _, cnt => some cnt
  | n + 1, ppa_copy, cnt =>
    match get_pg s.ssd ppa_copy with
    | none => none
    | some pg_iter =>
      if pg_iter.status = PG_FREE then none
      else clean_one_flashpg_count s n (ppa_next_pg ppa_copy)
        (if pg_iter.status = PG_VALID then cnt + 1 else cnt)

/-- Second loop of `clean_one_flashpg`: copies the valid pages, `n` pages left. -/
def clean_one_flashpg_copy : Nat → conv_ftl → ppa → Option conv_ftl
  | 0, s, _ => some s
  | n + 1, s, ppa_copy =>
    match get_pg s.ssd ppa_copy with
    | none => none
    | some pg_iter =>
      if pg_iter.status = PG_VALID then
        match gc_write_page s ppa_copy with
        | none => none
        | some s1 => clean_one_flashpg_copy n s1 (ppa_next_pg ppa_copy)
      else clean_one_flashpg_copy n s (ppa_next_pg ppa_copy)

/-- `clean_one_flashpg`. -/
def clean_one_flashpg (s : conv_ftl) (p : ppa) : Option conv_ftl :=
  match clean_one_flashpg_count s s.ssd.sp.pgs_per_flashpg p 0 with
  | none => none
  | some cnt =>
    if cnt = 0 then some s
    else clean_one_flashpg_copy s.ssd.sp.pgs_per_flashpg s p

/-- `mark_line_free`. -/
def mark_line_free (s : conv_ftl) (p : ppa) : conv_ftl :=
  let k := get_line s p
  { s with lm :=
      { s.lm with lines := Function.update s.lm.lines k { s.lm.lines k with ipc := 0, vpc := 0 },
                  free_line_list := s.lm.free_line_list ++ [k],
                  free_line_cnt := s.lm.free_line_cnt + 1 } }

/-- The search loop of `count_gc_victim_type`: the first LPN other than `INVALID_LPN` in the
reverse map of block `p` on channel 0, LUN 0, from page `i`, with `n` pages left. -/
def count_gc_victim_type_scan (s : conv_ftl) (p : ppa) : Nat → Nat → Option Nat
  | 0, _ => some INVALID_LPN
  | n + 1, i =>
    match get_rmap_ent s { p with pg := i % 65536 } with
    | none => none
    | some check_lpn =>
      if check_lpn ≠ INVALID_LPN then some check_lpn
      else count_gc_victim_type_scan s p n (i + 1)

/-- `count_gc_victim_type`; `rsv` stands for the uninitialised bits of the local `ppa`. -/
def count_gc_victim_type (s : conv_ftl) (victim : Nat) : Option conv_ftl :=
  let g := s.glob
  if (s.lm.lines victim).vpc = 0 then
    some { s with glob := { g with hot_gc_cnt := g.hot_gc_cnt + 1,
                                   total_gc_cnt := g.total_gc_cnt + 1 } }
  else
    let p : ppa := { ch := 0, lun := 0, pl := 0, blk := (s.lm.lines victim).id % 65536,
                     pg := 0, rsv := 0 }
    match count_gc_victim_type_scan s p s.ssd.sp.pgs_per_blk 0 with
    | none => none
    | some check_lpn =>
      if check_lpn = INVALID_LPN then some s
      else if check_lpn < HOT_REGION_LPN_LIMIT then
        some { s with glob := { g with total_gc_cnt := g.total_gc_cnt + 1,
                                       hot_gc_cnt := g.hot_gc_cnt + 1 } }
      else
        some { s with glob := { g with total_gc_cnt := g.total_gc_cnt + 1,
                                       cold_gc_cnt := g.cold_gc_cnt + 1 } }

/-- The address `do_gc` hands to `clean_one_flashpg` for stripe `flashpg` of block `blk`. -/
def gc_ppa (spp : ssdparams) (blk flashpg ch lun : Nat) : ppa :=
  { ch := ch % 256, lun := lun % 256, pl := 0, blk := blk % 65536,
    pg := (flashpg * spp.pgs_per_flashpg) % 65536, rsv := 0 }

/-- Body of the innermost loop of `do_gc`. -/
def do_gc_lun (blk flashpg ch lun : Nat) (s : conv_ftl) : Option conv_ftl := do
  let spp := s.ssd.sp
  let s1 ← clean_one_flashpg s (gc_ppa spp blk flashpg ch lun)
  if flashpg = spp.flashpgs_per_blk - 1 then mark_block_free s1 (gc_ppa spp blk flashpg ch lun)
  else pure s1

/-- The copy-back sweep of `do_gc` over the line with block number `blk`. -/
def do_gc_sweep (blk : Nat) (s : conv_ftl) : Option conv_ftl :=
  for_loop s.ssd.sp.flashpgs_per_blk (fun flashpg s1 =>
    for_loop s1.ssd.sp.nchs (fun ch s2 =>
      for_loop s2.ssd.sp.luns_per_ch (fun lun s3 => do_gc_lun blk flashpg ch lun s3) s2) s1) s

/-- `do_gc`: returns the new state and the return value (`-1` or `0`). -/
def do_gc (s : conv_ftl) (now r : Nat) (force : Bool) : Option (conv_ftl × Int) :=
  match select_victim s now r force with
  | none => none
  | some (s1, none) => some (s1, -1)
  | some (s1, some victim_line) => do
    let s2 ← if s1.glob.debug_mode then count_gc_victim_type s1 victim_line else pure s1
    let s3 : conv_ftl := { s2 with gc_count := s2.gc_count + 1 }
    let blk := (s3.lm.lines victim_line).id
    let s4 : conv_ftl :=
      { s3 with wfc := { s3.wfc with credits_to_refill := (s3.lm.lines victim_line).ipc } }
    let s5 ← do_gc_sweep blk s4
    pure (mark_line_free s5
      (gc_ppa s5.ssd.sp blk (s5.ssd.sp.flashpgs_per_blk - 1) (s5.ssd.sp.nchs - 1)
        (s5.ssd.sp.luns_per_ch - 1)), 0)

/-- `foreground_gc`. -/
def foreground_gc (s : conv_ftl) (now r : Nat) : Option conv_ftl :=
  if should_gc_high s then
    match do_gc s now r true with
    | none => none
    | some (s1, _) => some s1
  else some s

/-- `check_and_refill_write_credit`. -/
def check_and_refill_write_credit (s : conv_ftl) (now r : Nat) : Option conv_ftl :=
  if s.wfc.write_credits ≤ 0 then
    match foreground_gc s now r with
    | none => none
    | some s1 =>
      some { s1 with wfc := { s1.wfc with write_credits :=
        (s1.wfc.write_credits + s1.wfc.credits_to_refill) % 4294967296 } }
  else some s

/-- `conv_init_ftl`. -/
def conv_init_ftl (cpp : convparams) (d : ssd) (gc_mode : Nat) (debug_mode : Bool)
    (d0 : Nat → Option Nat) : Option conv_ftl := do
  let lm ← init_lines d.sp gc_mode d0
  let s0 : conv_ftl :=
    { ssd := d, cp := cpp, maptbl := fun _ => UNMAPPED_PPA, rmap := fun _ => INVALID_LPN,
      wp := { curline := 0, ch := 0, lun := 0, pg := 0, blk := 0, pl := 0 },
      gc_wp := { curline := 0, ch := 0, lun := 0, pg := 0, blk := 0, pl := 0 },
      lm := lm, wfc := { write_credits := 0, credits_to_refill := 0 },
      gc_count := 0, gc_copied_pages := 0,
      glob := { debug_mode := debug_mode, total_gc_cnt := 0, hot_gc_cnt := 0, cold_gc_cnt := 0,
                victim_total_age := 0, victim_chosen_cnt := 0 } }
  let s1 ← prepare_write_pointer s0 USER_IO
  let s2 ← prepare_write_pointer s1 GC_IO
  pure { s2 with wfc := init_write_flow_control d.sp }

/-- Lines 1325-1330 of `conv_write`: a mapped old page is invalidated and its reverse-map
entry cleared. -/
def conv_write_invalidate (s : conv_ftl) (now : Nat) (old : ppa) : Option conv_ftl :=
  if mapped_ppa old then do
    let a ← mark_page_invalid s now old
    set_rmap_ent a INVALID_LPN old
  else pure s

/-- Lines 1322-1343 of `conv_write`: the mapping update for one local LPN of one instance;
returns the new state and the page the cursor supplied. -/
def conv_write_map (s : conv_ftl) (now local_lpn : Nat) : Option (conv_ftl × ppa) := do
  let old := get_maptbl_ent s local_lpn
  let s1 ← conv_write_invalidate s now old
  let p ← get_new_page s1 USER_IO
  let s2 ← set_maptbl_ent s1 local_lpn p
  let s3 ← set_rmap_ent s2 local_lpn p
  let s4 ← mark_page_valid s3 p
  let s5 ← advance_write_pointer s4 USER_IO
  pure (s5, p)

/-- The part of `struct nvmev_ns` the handlers use: the FTL instances. -/
structure nvmev_ns where
  nr_parts : Nat
  ftls : Nat → conv_ftl

/-- The body of the `for` loop of `conv_write` for one instance, without the timing calls:
mapping update, `consume_write_credit`, `check_and_refill_write_credit`. -/
def conv_write_lpn (s : conv_ftl) (now r local_lpn : Nat) : Option conv_ftl := do
  let m ← conv_write_map s now local_lpn
  check_and_refill_write_credit (consume_write_credit m.1) now r

/-! ## Example configurations -/

/-- A small geometry: one channel, one LUN, `nblk` blocks of two pages (one page per flash
page and per one-shot group), so a line is one block of two pages. -/
def tiny_params (nblk : Nat) : ssdparams :=
  { secs_per_pg := 8, pgsz := 4096, pgs_per_flashpg := 1, flashpgs_per_blk := 2,
    pgs_per_oneshotpg := 1, oneshotpgs_per_blk := 2, pgs_per_blk := 2, blks_per_pl := nblk,
    pls_per_lun := 1, luns_per_ch := 1, nchs := 1, pgs_per_pl := 2 * nblk,
    pgs_per_lun := 2 * nblk, pgs_per_ch := 2 * nblk, tt_pgs := 2 * nblk, blks_per_lun := nblk,
    blks_per_ch := nblk, tt_blks := nblk, pgs_per_line := 2, blks_per_line := 1,
    tt_lines := nblk, tt_luns := 1 }

/-- The parameters set by `conv_init_params`. -/
def conv_params : convparams :=
  { gc_thres_lines := 2, gc_thres_lines_high := 2, enable_gc_delay := true, pba_pcent := 107 }

/-- A freshly initialised instance over `tiny_params nblk` with policy `gc_mode`. -/
def tiny_ftl (nblk gc_mode : Nat) : Option conv_ftl :=
  conv_init_ftl conv_params (ssd_init (tiny_params nblk)) gc_mode false (fun _ => none)

/-- An instance with empty tables, used where a run of the example configurations has to
be read as a plain state. -/
def blank_ftl : conv_ftl :=
  { ssd := ssd_init (tiny_params 0), cp := conv_params, maptbl := fun _ => UNMAPPED_PPA,
    rmap := fun _ => INVALID_LPN,
    wp := { curline := 0, ch := 0, lun := 0, pg := 0, blk := 0, pl := 0 },
    gc_wp := { curline := 0, ch := 0, lun := 0, pg := 0, blk := 0, pl := 0 },
    lm := { lines := fun i => { id := i, ipc := 0, vpc := 0, pos := 0, last_modified_time := 0 },
            free_line_list := [],
            victim_line_pq := pqueue_init 0 cmp_pri_greedy get_pri_greedy victim_line_set_pri
              victim_line_get_pos victim_line_set_pos (fun _ => none),
            select_victim := GC_MODE_GREEDY, full_line_list := [], tt_lines := 0,
            free_line_cnt := 0, victim_line_cnt := 0, full_line_cnt := 0 },
    wfc := { write_credits := 0, credits_to_refill := 0 },
    gc_count := 0, gc_copied_pages := 0,
    glob := { debug_mode := false, total_gc_cnt := 0, hot_gc_cnt := 0, cold_gc_cnt := 0,
              victim_total_age := 0, victim_chosen_cnt := 0 } }

/-- `wfc->write_credits += wfc->credits_to_refill` on the `uint32_t` fields. -/
def refill_credits (s : conv_ftl) : conv_ftl :=
  { s with wfc := { s.wfc with write_credits :=
      (s.wfc.write_credits + s.wfc.credits_to_refill) % 4294967296 } }

/-- Six lines, Greedy; LPN 0 written twice, both credits consumed: the first line is a victim
candidate, three lines are free and no credit is left. -/
def credits_spent_state : Option conv_ftl := do
  let s ← tiny_ftl 6 0
  let a ← conv_write_map s 5 0
  let b ← conv_write_map (consume_write_credit a.1) 6 0
  pure (consume_write_credit b.1)

/-! ## Predicates on the victim heap -/

/-- The `setpri`, `getpos`, `setpos` hooks `init_lines` installs in every mode. -/
def line_hooks (q : pqueue_t) : Prop :=
  q.setpri = victim_line_set_pri ∧ q.getpos = victim_line_get_pos ∧
    q.setpos = victim_line_set_pos

/-- The hooks of the Greedy mode. -/
def greedy_hooks (q : pqueue_t) : Prop :=
  line_hooks q ∧ q.cmppri = cmp_pri_greedy ∧ q.getpri = get_pri_greedy

/-- The hooks of the Cost-Benefit and Random modes. -/
def dummy_hooks (q : pqueue_t) : Prop :=
  line_hooks q ∧ q.cmppri = cmp_pri_dummy ∧ q.getpri = get_pri_dummy

/-- The manager `lm` with new line contents and a new heap array, everything else kept. -/
def pq_with (lm : line_mgmt) (l : Nat → line) (d : Nat → Option Nat) : line_mgmt :=
  { lm with lines := l, victim_line_pq := { lm.victim_line_pq with d := d } }

/-- Line `k` is in the heap: its pointer is stored at an index in `[1, size)`. -/
def pq_member (lm : line_mgmt) (k : Nat) : Prop :=
  ∃ i, 1 ≤ i ∧ i < lm.victim_line_pq.size ∧ lm.victim_line_pq.d i = some k

/-- Every index in `[1, size)` holds a pointer. -/
def pq_filled (lm : line_mgmt) : Prop :=
  ∀ i, 1 ≤ i → i < lm.victim_line_pq.size → ∃ k, lm.victim_line_pq.d i = some k

/-- Positional handles (P4): index `i` in `[1, size)` holds a line whose `pos` is `i`. -/
def pq_handles (lm : line_mgmt) : Prop :=
  ∀ i, 1 ≤ i → i < lm.victim_line_pq.size →
    ∃ k, lm.victim_line_pq.d i = some k ∧ (lm.lines k).pos = i

/-- Heap validity (P3) for the ordering of the Greedy hooks: no item has a smaller priority
than its parent. -/
def pq_valid (lm : line_mgmt) : Prop :=
  ∀ i a b, 2 ≤ i → i < lm.victim_line_pq.size → lm.victim_line_pq.d (i / 2) = some a →
    lm.victim_line_pq.d i = some b →
    lm.victim_line_pq.getpri (lm.lines a) ≤ lm.victim_line_pq.getpri (lm.lines b)

/-- The queue `q2` has the hooks of `q`. -/
def same_hooks (q q2 : pqueue_t) : Prop :=
  q2.cmppri = q.cmppri ∧ q2.getpri = q.getpri ∧ q2.setpri = q.setpri ∧
    q2.getpos = q.getpos ∧ q2.setpos = q.setpos

/-- The line table `l2` has the `id` and `ipc` fields of `l`. -/
def same_id_ipc (l l2 : Nat → line) : Prop :=
  ∀ k, (l2 k).id = (l k).id ∧ (l2 k).ipc = (l k).ipc

/-- The line table `l2` differs from `l` at most in the `pos` fields. -/
def same_but_pos (l l2 : Nat → line) : Prop :=
  ∀ k, l2 k = { l k with pos := (l2 k).pos }

/-- Six lines, Greedy: LPN 0 written twice, so the first line (one valid, one invalid page)
is the only member of the victim heap. -/
def one_victim_state : conv_ftl := credits_spent_state.getD blank_ftl

/-- Six lines, Cost-Benefit: LPN 0 written at times 5 and 6, so the first line (one valid, one
invalid page, last invalidated at time 6) is the only member of the victim heap. -/
def cb_fresh_victim_state : conv_ftl :=
  (do
    let s ← tiny_ftl 6 1
    let a ← conv_write_map s 5 0
    let b ← conv_write_map a.1 6 0
    pure b.1).getD blank_ftl

/-- Scenario 4 of the specification, at time 200 s: the heap holds line 0 (candidate B:
`ipc = 50`, `vpc = 100`, modified 50 ms ago) at index 1 and line 1 (candidate A: `ipc = 10`,
`vpc = 100`, modified 200 s ago) at index 2; the next slot is `NULL`. -/
def cb_example_state : conv_ftl :=
  { blank_ftl with
    lm := { blank_ftl.lm with
      lines := fun k =>
        if k = 0 then
          { id := 0, ipc := 50, vpc := 100, pos := 1, last_modified_time := 199950000000 }
        else if k = 1 then { id := 1, ipc := 10, vpc := 100, pos := 2, last_modified_time := 0 }
        else { id := k, ipc := 0, vpc := 0, pos := 0, last_modified_time := 0 },
      victim_line_pq :=
        { size := 3, avail := 9, step := 9, cmppri := cmp_pri_dummy, getpri := get_pri_dummy,
          setpri := victim_line_set_pri, getpos := victim_line_get_pos,
          setpos := victim_line_set_pos,
          d := fun i => if i = 1 then some 0 else if i = 2 then some 1 else none },
      select_victim := GC_MODE_COST_BENEFIT,
      victim_line_cnt := 2 } }

/-- Six lines, Random. Writes to LPN 0, 0, 1, 1, 2 with the credit check after each (the
random source returns 0, 0, 0, 1, 0): the first GC run removes line 0, the second removes
line 2, which was the last heap entry, so its pointer stays in the array slot behind the one
remaining member (line 3 is not yet a member). Then LPN 3 is written and its credit consumed:
the state in which `check_and_refill_write_credit` starts the next GC run. -/
def random_stale_state : conv_ftl :=
  (do
    let s ← tiny_ftl 6 2
    let s ← conv_write_lpn s 10 0 0
    let s ← conv_write_lpn s 11 0 0
    let s ← conv_write_lpn s 12 0 1
    let s ← conv_write_lpn s 13 1 1
    let s ← conv_write_lpn s 14 0 2
    let m ← conv_write_map s 15 3
    pure (consume_write_credit m.1)).getD blank_ftl

/-! ## Predicates on the mapping tables and the NAND state -/

/-- The relations between the totals that `ssd_init_params` computes. -/
def params_consistent (sp : ssdparams) : Prop :=
  sp.pgs_per_pl = sp.pgs_per_blk * sp.blks_per_pl ∧
  sp.pgs_per_lun = sp.pgs_per_pl * sp.pls_per_lun ∧
  sp.pgs_per_ch = sp.pgs_per_lun * sp.luns_per_ch ∧
  sp.tt_pgs = sp.pgs_per_ch * sp.nchs

/-- Two addresses name the same NAND page (the reserved bits are not part of the address). -/
def same_page (p q : ppa) : Prop :=
  p.ch = q.ch ∧ p.lun = q.lun ∧ p.pl = q.pl ∧ p.blk = q.blk ∧ p.pg = q.pg

instance same_page_decidable (p q : ppa) : Decidable (same_page p q) := by
  unfold same_page
  infer_instance

/-- The status of the NAND page at `p`, if `p` lies inside the NAND arrays. -/
def page_status (s : conv_ftl) (p : ppa) : Option pg_status :=
  (get_pg s.ssd p).map (fun pg => pg.status)

/-- Map consistency (P1): every local LPN is unmapped, or the reverse map at its page gives
the LPN back and that page is VALID. -/
def map_consistent (s : conv_ftl) : Prop :=
  ∀ L, L < s.ssd.sp.tt_pgs →
    mapped_ppa (s.maptbl L) = false ∨
      (get_rmap_ent s (s.maptbl L) = some L ∧ page_status s (s.maptbl L) = some PG_VALID)

instance params_consistent_decidable (sp : ssdparams) : Decidable (params_consistent sp) := by
  unfold params_consistent
  infer_instance

instance map_consistent_decidable (s : conv_ftl) : Decidable (map_consistent s) := by
  unfold map_consistent
  infer_instance

/-- Six lines, Greedy, freshly initialised. -/
def fresh_state : conv_ftl := (tiny_ftl 6 0).getD blank_ftl

/-- A namespace of two freshly initialised six-line instances. -/
def fresh_ns : nvmev_ns := { nr_parts := 2, ftls := fun _ => fresh_state }

/-- Six lines, Greedy: LPN 0 written once at time 5. -/
def written_once_state : conv_ftl :=
  (((tiny_ftl 6 0).bind (fun s => conv_write_map s 5 0)).map Prod.fst).getD blank_ftl

/-- The address with page index `i`: the digits of `i` in the mixed radix of the geometry. -/
def pgidx2ppa (sp : ssdparams) (i : Nat) : ppa :=
  { ch := i / sp.pgs_per_ch,
    lun := i % sp.pgs_per_ch / sp.pgs_per_lun,
    pl := i % sp.pgs_per_ch % sp.pgs_per_lun / sp.pgs_per_pl,
    blk := i % sp.pgs_per_ch % sp.pgs_per_lun % sp.pgs_per_pl / sp.pgs_per_blk,
    pg := i % sp.pgs_per_ch % sp.pgs_per_lun % sp.pgs_per_pl % sp.pgs_per_blk,
    rsv := 0 }

/-- A line manager whose heap was created by `pqueue_init(1)` (one line, Greedy) and already
holds one item, line 0. -/
def full_heap_lm : Option line_mgmt :=
  ((init_lines (tiny_params 1) 0 (fun _ => none)).bind
    (fun lm => pqueue_insert lm (some 0))).map Prod.fst

/-- The state after `n` calls of `advance_write_pointer` for the cursor of kind `io`. -/
def advance_n (io : Nat) : Nat → conv_ftl → Option conv_ftl
  | 0, s => some s
  | n + 1, s => (advance_n io n s).bind (fun t => advance_write_pointer t io)

/-- The striping formula (P7): the cursor `w0` moved to the `k`-th position of its line, with
`P = pgs_per_oneshotpg`: `pg = (k / (P * nchs * luns_per_ch)) * P + k % P`,
`ch = (k / P) % nchs`, `lun = (k / (P * nchs)) % luns_per_ch`. -/
def stripe_pos (sp : ssdparams) (w0 : write_pointer) (k : Nat) : write_pointer :=
  { w0 with pg := k / (sp.pgs_per_oneshotpg * sp.nchs * sp.luns_per_ch) * sp.pgs_per_oneshotpg
              + k % sp.pgs_per_oneshotpg,
            ch := k / sp.pgs_per_oneshotpg % sp.nchs,
            lun := k / (sp.pgs_per_oneshotpg * sp.nchs) % sp.luns_per_ch }

/-- The sizes of `ssd_init_params` the striping order depends on. -/
def stripe_geometry (sp : ssdparams) : Prop :=
  0 < sp.pgs_per_oneshotpg ∧ 0 < sp.nchs ∧ 0 < sp.luns_per_ch ∧
  sp.pgs_per_blk = sp.pgs_per_oneshotpg * sp.oneshotpgs_per_blk ∧
  sp.pgs_per_line = sp.luns_per_ch * sp.nchs * sp.pgs_per_blk

instance stripe_geometry_decidable (sp : ssdparams) : Decidable (stripe_geometry sp) := by
  unfold stripe_geometry
  infer_instance

/-- A geometry with two channels, two LUNs per channel, two pages per one-shot group and two
groups per block (four pages per block, sixteen per line), four lines; the totals are those
of `ssd_init_totals`. -/
def stripe_params : ssdparams :=
  ssd_init_totals
    { secs_per_pg := 8, pgsz := 4096, pgs_per_flashpg := 1, flashpgs_per_blk := 4,
      pgs_per_oneshotpg := 2, oneshotpgs_per_blk := 2, pgs_per_blk := 4, blks_per_pl := 4,
      pls_per_lun := 1, luns_per_ch := 2, nchs := 2, pgs_per_pl := 0, pgs_per_lun := 0,
      pgs_per_ch := 0, tt_pgs := 0, blks_per_lun := 0, blks_per_ch := 0, tt_blks := 0,
      pgs_per_line := 0, blks_per_line := 0, tt_lines := 0, tt_luns := 0 }

/-- A freshly initialised Greedy instance over `stripe_params`. -/
def stripe_state : conv_ftl :=
  (conv_init_ftl conv_params (ssd_init stripe_params) 0 false (fun _ => none)).getD blank_ftl

/-- Positional handles around a hole: every index of `[1, size)` other than `i` holds a line
whose `pos` is that index and which is not the moving item `m`. -/
def hole_handles (lm : line_mgmt) (i m : Nat) : Prop :=
  ∀ x, 1 ≤ x → x < lm.victim_line_pq.size → x ≠ i →
    ∃ k, lm.victim_line_pq.d x = some k ∧ (lm.lines k).pos = x ∧ k ≠ m

/-- P4 as a statement about the items: every member `x` has `d[pos(x)] = x` with
`1 ≤ pos(x) ≤ n`, `n` the number of items. -/
def pq_positions (lm : line_mgmt) : Prop :=
  ∀ k, pq_member lm k →
    lm.victim_line_pq.d (lm.lines k).pos = some k ∧ 1 ≤ (lm.lines k).pos ∧
      (lm.lines k).pos ≤ pqueue_size lm.victim_line_pq

/-- The item at index `x` has a `vpc` no larger than the item at index `y`. -/
def pri_le (lm : line_mgmt) (x y : Nat) : Prop :=
  ∀ a b, lm.victim_line_pq.d x = some a → lm.victim_line_pq.d y = some b →
    (lm.lines a).vpc ≤ (lm.lines b).vpc

/-- Heap order around a hole at index `i`: every parent-child pair that does not involve `i`
is ordered, and the parent of `i` is no larger than the children of `i`. -/
def hole_valid (lm : line_mgmt) (i : Nat) : Prop :=
  (∀ x, 2 ≤ x → x < lm.victim_line_pq.size → x ≠ i → x / 2 ≠ i → pri_le lm (x / 2) x) ∧
  (∀ x, 2 ≤ i → x < lm.victim_line_pq.size → x / 2 = i → pri_le lm (i / 2) x)

/-- The priority `mp` is no larger than that of the children of index `i`. -/
def le_children (lm : line_mgmt) (i mp : Nat) : Prop :=
  ∀ x b, x < lm.victim_line_pq.size → x / 2 = i → lm.victim_line_pq.d x = some b →
    mp ≤ (lm.lines b).vpc

/-- The parent of index `i`, if there is one, has a priority no larger than `mp`. -/
def parent_le (lm : line_mgmt) (i mp : Nat) : Prop :=
  2 ≤ i → ∀ a, lm.victim_line_pq.d (i / 2) = some a → (lm.lines a).vpc ≤ mp

/-! ## Line accounting (P2) -/

/-- The number of indices below `n` at which `f` holds. -/
def count_upto (f : Nat → Bool) : Nat → Nat
  | 0 => 0
  | n + 1 => count_upto f n + (if f n then 1 else 0)

/-- The sum of `g` over the indices below `n`. -/
def sum_upto (g : Nat → Nat) : Nat → Nat
  | 0 => 0
  | n + 1 => sum_upto g n + g n

/-- The number of pages of block `b` with status `st`. -/
def blk_count (sp : ssdparams) (b : nand_block) (st : pg_status) : Nat :=
  count_upto (fun i => decide ((b.pg i).status = st)) sp.pgs_per_blk

/-- The number of pages with status `st` in the blocks numbered `blk` on every channel, LUN
and plane. -/
def line_count (d : ssd) (blk : Nat) (st : pg_status) : Nat :=
  sum_upto (fun ch => sum_upto (fun lun => sum_upto (fun pl =>
    blk_count d.sp (d.blk ch lun pl blk) st) d.sp.pls_per_lun) d.sp.luns_per_ch) d.sp.nchs

/-- Line accounting (P2): every line's `vpc` and `ipc` count the VALID and INVALID pages of
the blocks numbered `line.id`, and every block's `vpc` and `ipc` count its own pages. -/
def line_accounting (s : conv_ftl) : Prop :=
  (∀ k, k < s.lm.tt_lines →
    (s.lm.lines k).vpc = line_count s.ssd (s.lm.lines k).id PG_VALID ∧
    (s.lm.lines k).ipc = line_count s.ssd (s.lm.lines k).id PG_INVALID) ∧
  (∀ ch, ch < s.ssd.sp.nchs → ∀ lun, lun < s.ssd.sp.luns_per_ch →
    ∀ pl, pl < s.ssd.sp.pls_per_lun → ∀ blk, blk < s.ssd.sp.blks_per_pl →
      (s.ssd.blk ch lun pl blk).vpc = blk_count s.ssd.sp (s.ssd.blk ch lun pl blk) PG_VALID ∧
      (s.ssd.blk ch lun pl blk).ipc = blk_count s.ssd.sp (s.ssd.blk ch lun pl blk) PG_INVALID)

instance line_accounting_decidable (s : conv_ftl) : Decidable (line_accounting s) := by
  unfold line_accounting
  infer_instance

/-- The `id` of every line is its index in `lm->lines`, as `init_lines` sets it. -/
def line_ids (lm : line_mgmt) : Prop := ∀ k, (lm.lines k).id = k

/-! ## Predicates for the garbage-collection invariants -/

/-- Line `k`'s counters count the VALID and INVALID pages of the blocks numbered `line.id`. -/
def line_acct (s : conv_ftl) (k : Nat) : Prop :=
  (s.lm.lines k).vpc = line_count s.ssd (s.lm.lines k).id PG_VALID ∧
  (s.lm.lines k).ipc = line_count s.ssd (s.lm.lines k).id PG_INVALID

/-- Every block's `vpc` and `ipc` count its own VALID and INVALID pages. -/
def blks_acct (s : conv_ftl) : Prop :=
  ∀ ch, ch < s.ssd.sp.nchs → ∀ lun, lun < s.ssd.sp.luns_per_ch →
    ∀ pl, pl < s.ssd.sp.pls_per_lun → ∀ blk, blk < s.ssd.sp.blks_per_pl →
      (s.ssd.blk ch lun pl blk).vpc = blk_count s.ssd.sp (s.ssd.blk ch lun pl blk) PG_VALID ∧
      (s.ssd.blk ch lun pl blk).ipc = blk_count s.ssd.sp (s.ssd.blk ch lun pl blk) PG_INVALID

/-- The sizes the sweep of `do_gc` relies on: one plane per LUN, at least one flash page per
block, and channel, LUN and block numbers that fit the bit-fields of `struct ppa`. -/
def gc_geometry (sp : ssdparams) : Prop :=
  sp.pls_per_lun = 1 ∧ 0 < sp.flashpgs_per_blk ∧ sp.nchs ≤ 256 ∧ sp.luns_per_ch ≤ 256 ∧
  sp.blks_per_pl ≤ 65536

instance gc_geometry_decidable (sp : ssdparams) : Decidable (gc_geometry sp) := by
  unfold gc_geometry
  infer_instance

/-- The manager `lm2` differs from `lm` only inside the victim heap: the lists, the list
counters, the hooks and every line field other than `pos` are those of `lm`. -/
def same_outside_heap (lm lm2 : line_mgmt) : Prop :=
  lm2.free_line_list = lm.free_line_list ∧ lm2.full_line_list = lm.full_line_list ∧
  lm2.free_line_cnt = lm.free_line_cnt ∧ lm2.full_line_cnt = lm.full_line_cnt ∧
  lm2.tt_lines = lm.tt_lines ∧ lm2.select_victim = lm.select_victim ∧
  same_hooks lm.victim_line_pq lm2.victim_line_pq ∧ same_but_pos lm.lines lm2.lines

/-- The sweep invariant behind line accounting, for the victim line `v`: every line other than
`v` and every block is accounted, `v` is not on the free-line list and the GC cursor does not
write into the blocks numbered `v`. -/
def gc_acct (sp : ssdparams) (v n : Nat) (t : conv_ftl) : Prop :=
  t.ssd.sp = sp ∧ line_hooks t.lm.victim_line_pq ∧ line_ids t.lm ∧ t.lm.tt_lines = n ∧
  (∀ k, k < n → k ≠ v → line_acct t k) ∧ blks_acct t ∧
  v ∉ t.lm.free_line_list ∧ t.gc_wp.blk % 65536 ≠ v

/-- The block numbered `v` on channel `c`, LUN `l`, plane 0 holds no VALID and no INVALID
page. -/
def blk_clean (sp : ssdparams) (v c l : Nat) (t : conv_ftl) : Prop :=
  blk_count sp (t.ssd.blk c l 0 v) PG_VALID = 0 ∧ blk_count sp (t.ssd.blk c l 0 v) PG_INVALID = 0

/-! ## The invariant of the reachable states -/

/-- The sizes the invariants rely on: those of the striping order and of the sweep of
`do_gc`, a non-empty block, and page numbers that fit the bit-field of `struct ppa`. -/
def ftl_geometry (sp : ssdparams) : Prop :=
  stripe_geometry sp ∧ gc_geometry sp ∧ 0 < sp.pgs_per_blk ∧ sp.pgs_per_blk ≤ 65536

instance ftl_geometry_decidable (sp : ssdparams) : Decidable (ftl_geometry sp) := by
  unfold ftl_geometry
  infer_instance

/-- The line manager is well formed. The ghost function `tag` names the container of every
line: 1 free-line list, 2 full-line list, 3 victim heap, 4 open line of the user cursor
(`uc`), 5 open line of the GC cursor (`gcc`), 6 the victim of a GC run in progress (`limbo`),
0 no line of the device. -/
structure lm_inv (sp : ssdparams) (limbo : Option Nat) (tag : Nat → Nat) (lm : line_mgmt)
    (uc gcc : Nat) : Prop where
  hooks : line_hooks lm.victim_line_pq
  mode : lm.select_victim = GC_MODE_GREEDY
  ids : line_ids lm
  tt : lm.tt_lines = sp.blks_per_pl
  size_pos : 1 ≤ lm.victim_line_pq.size
  handles : pq_handles lm
  pos0 : ∀ k, ¬ pq_member lm k → (lm.lines k).pos = 0
  free_nodup : lm.free_line_list.Nodup
  full_nodup : lm.full_line_list.Nodup
  t_free : ∀ k, k ∈ lm.free_line_list ↔ tag k = 1
  t_full : ∀ k, k ∈ lm.full_line_list ↔ tag k = 2
  t_heap : ∀ k, pq_member lm k ↔ tag k = 3
  t_user : ∀ k, k = uc ↔ tag k = 4
  t_gc : ∀ k, k = gcc ↔ tag k = 5
  t_limbo : ∀ k, limbo = some k ↔ tag k = 6
  t_range : ∀ k, k < sp.blks_per_pl ↔ (1 ≤ tag k ∧ tag k ≤ 6)
  c_free : lm.free_line_cnt = lm.free_line_list.length
  c_full : lm.full_line_cnt = lm.full_line_list.length
  c_heap : lm.victim_line_cnt = lm.victim_line_pq.size - 1
  c_sum : lm.free_line_list.length + lm.full_line_list.length + (lm.victim_line_pq.size - 1)
    + 2 + (if limbo.isSome then 1 else 0) = sp.blks_per_pl
  free_zero : ∀ k, k ∈ lm.free_line_list → (lm.lines k).vpc = 0 ∧ (lm.lines k).ipc = 0
  heap_lt : ∀ k, pq_member lm k → (lm.lines k).vpc < sp.pgs_per_line

/-- The cursor `w` is at a position `k` of the striping order of its open line, the pages of
the line from position `k` on are FREE, and `k` pages of the line have been written. -/
def open_ok (sp : ssdparams) (s : conv_ftl) (w : write_pointer) : Prop :=
  w.pl = 0 ∧ w.blk = w.curline ∧
  ∃ k, k < sp.pgs_per_line ∧ stripe_pos sp w k = w ∧
    (s.lm.lines w.curline).vpc + (s.lm.lines w.curline).ipc = k ∧
    ∀ j, k ≤ j → j < sp.pgs_per_line →
      ((s.ssd.blk (stripe_pos sp w j).ch (stripe_pos sp w j).lun 0 w.blk).pg
        (stripe_pos sp w j).pg).status = PG_FREE

/-- The invariant in terms of one cursor `w` and the other cursor `o`: the geometry is that
of `sp`, the manager is well formed, every line outside a GC run and every block is
accounted, and both cursors are at a FREE page of their open line. -/
structure ftl_core (sp : ssdparams) (limbo : Option Nat) (tag : Nat → Nat) (s : conv_ftl)
    (w o : write_pointer) : Prop where
  sp_eq : s.ssd.sp = sp
  lm_ok : lm_inv sp limbo tag s.lm w.curline o.curline
  acct : ∀ k, k < sp.blks_per_pl → limbo ≠ some k → line_acct s k
  bacct : blks_acct s
  this_open : open_ok sp s w
  other_open : open_ok sp s o

/-- The invariant of the states between two operations (`limbo = none`) and inside a GC run
on the victim `v` (`limbo = some v`). -/
def ftl_inv (sp : ssdparams) (limbo : Option Nat) (tag : Nat → Nat) (s : conv_ftl) : Prop :=
  ftl_core sp limbo tag s s.wp s.gc_wp

/-- The cursor `w` between `mark_page_valid` on its page and `advance_write_pointer`: the
page at its position `k` is written, the pages behind position `k` are FREE. -/
def open_written (sp : ssdparams) (s : conv_ftl) (w : write_pointer) : Prop :=
  w.pl = 0 ∧ w.blk = w.curline ∧
  ∃ k, k < sp.pgs_per_line ∧ stripe_pos sp w k = w ∧
    (s.lm.lines w.curline).vpc + (s.lm.lines w.curline).ipc = k + 1 ∧
    ∀ j, k < j → j < sp.pgs_per_line →
      ((s.ssd.blk (stripe_pos sp w j).ch (stripe_pos sp w j).lun 0 w.blk).pg
        (stripe_pos sp w j).pg).status = PG_FREE

/-- The invariant between `mark_page_valid` on the page of the cursor `w` and
`advance_write_pointer`. -/
structure ftl_mid (sp : ssdparams) (limbo : Option Nat) (tag : Nat → Nat) (s : conv_ftl)
    (w o : write_pointer) : Prop where
  sp_eq : s.ssd.sp = sp
  lm_ok : lm_inv sp limbo tag s.lm w.curline o.curline
  acct : ∀ k, k < sp.blks_per_pl → limbo ≠ some k → line_acct s k
  bacct : blks_acct s
  this_open : open_written sp s w
  other_open : open_ok sp s o

/-- The states reachable from `conv_init_ftl` on a fresh device by page writes
(`conv_write_map`), complete GC runs (`do_gc`) and the write-credit steps of `conv_write`. -/
inductive reachable (cpp : convparams) (spp : ssdparams) (gc_mode : Nat) (dbg : Bool)
    (d0 : Nat → Option Nat) : conv_ftl → Prop
  | init {s : conv_ftl} :
      conv_init_ftl cpp (ssd_init spp) gc_mode dbg d0 = some s → reachable cpp spp gc_mode dbg d0 s
  | write {s s2 : conv_ftl} {now lpn : Nat} {p : ppa} :
      reachable cpp spp gc_mode dbg d0 s → conv_write_map s now lpn = some (s2, p) →
      reachable cpp spp gc_mode dbg d0 s2
  | gc {s s2 : conv_ftl} {now r : Nat} {force : Bool} {rc : Int} :
      reachable cpp spp gc_mode dbg d0 s → do_gc s now r force = some (s2, rc) →
      reachable cpp spp gc_mode dbg d0 s2
  | credit {s : conv_ftl} :
      reachable cpp spp gc_mode dbg d0 s → reachable cpp spp gc_mode dbg d0 (consume_write_credit s)
  | refill {s s2 : conv_ftl} {now r : Nat} :
      reachable cpp spp gc_mode dbg d0 s → check_and_refill_write_credit s now r = some s2 →
      reachable cpp spp gc_mode dbg d0 s2

/-- The number of places that hold line `k`: its entries in the free-line list and in the
full-line list, the heap slots of `[1, size)` that point to it, and the two cursors whose
`curline` it is. -/
def line_places (s : conv_ftl) (k : Nat) : Nat :=
  s.lm.free_line_list.count k + s.lm.full_line_list.count k +
  count_upto (fun i => decide (1 ≤ i ∧ s.lm.victim_line_pq.d i = some k))
    s.lm.victim_line_pq.size +
  (if s.wp.curline = k then 1 else 0) + (if s.gc_wp.curline = k then 1 else 0)

/-- The address `get_new_page` builds from the cursor `w`. -/
def wp_ppa (w : write_pointer) : ppa :=
  { ch := w.ch % 256, lun := w.lun % 256, pg := w.pg % 65536, blk := w.blk % 65536,
    pl := w.pl % 256, rsv := 0 }

/-- The write-pointer invariant (W1) for the cursor `w`: `blk` is the `id` of the open line,
the cursor lies inside the geometry on plane 0, and the page it addresses is FREE. -/
def wp_invariant (s : conv_ftl) (w : write_pointer) : Prop :=
  w.blk = (s.lm.lines w.curline).id ∧ w.ch < s.ssd.sp.nchs ∧ w.lun < s.ssd.sp.luns_per_ch ∧
  w.pg < s.ssd.sp.pgs_per_blk ∧ w.pl = 0 ∧ page_status s (wp_ppa w) = some PG_FREE

instance wp_invariant_decidable (s : conv_ftl) (w : write_pointer) :
    Decidable (wp_invariant s w) := by
  unfold wp_invariant
  infer_instance

/-! ## The invariant of the reachable states of every GC mode -/

/-- The sizes the invariant of every mode relies on: those of `ftl_geometry`, and the flash
pages of a block cover its pages (`ssd_init_params` computes both from the same sizes). -/
def sweep_geometry (sp : ssdparams) : Prop :=
  ftl_geometry sp ∧ sp.pgs_per_blk = sp.flashpgs_per_blk * sp.pgs_per_flashpg

instance sweep_geometry_decidable (sp : ssdparams) : Decidable (sweep_geometry sp) := by
  unfold sweep_geometry
  infer_instance

/-- The cursor `w` is at a position `k` of the striping order of its line, on plane 0 of the
blocks numbered like the line, and every page from that position on is FREE. -/
def open_free (sp : ssdparams) (s : conv_ftl) (w : write_pointer) : Prop :=
  w.pl = 0 ∧ w.blk = w.curline ∧ w.curline < sp.blks_per_pl ∧
  ∃ k, k < sp.pgs_per_line ∧ stripe_pos sp w k = w ∧
    ∀ j, k ≤ j → j < sp.pgs_per_line →
      ((s.ssd.blk (stripe_pos sp w j).ch (stripe_pos sp w j).lun 0 w.blk).pg
        (stripe_pos sp w j).pg).status = PG_FREE

/-- Every page of the block numbered `v` on channel `c`, LUN `l`, plane 0 is FREE. -/
def blk_free (sp : ssdparams) (v c l : Nat) (s : conv_ftl) : Prop :=
  ∀ pg, pg < sp.pgs_per_blk → ((s.ssd.blk c l 0 v).pg pg).status = PG_FREE

/-- Every page of the line `k` is FREE. -/
def line_free (sp : ssdparams) (s : conv_ftl) (k : Nat) : Prop :=
  ∀ c, c < sp.nchs → ∀ l, l < sp.luns_per_ch → blk_free sp k c l s

/-- The part of the state every GC mode keeps well formed, for the cursors `w` and `o`
(either order); `limbo` is the line a GC run in progress is collecting, whose counters are
not accounted until `mark_line_free`. Nothing is said about the victim heap. -/
structure wf_core (sp : ssdparams) (limbo : Option Nat) (s : conv_ftl)
    (w o : write_pointer) : Prop where
  sp_eq : s.ssd.sp = sp
  hooks : line_hooks s.lm.victim_line_pq
  ids : line_ids s.lm
  tt : s.lm.tt_lines = sp.blks_per_pl
  acct : ∀ k, k < sp.blks_per_pl → limbo ≠ some k → line_acct s k
  bacct : blks_acct s
  free_nodup : s.lm.free_line_list.Nodup
  free_lt : ∀ k, k ∈ s.lm.free_line_list → k < sp.blks_per_pl
  free_pages : ∀ k, k ∈ s.lm.free_line_list → line_free sp s k
  this_free : w.curline ∉ s.lm.free_line_list
  other_free : o.curline ∉ s.lm.free_line_list
  distinct : w.curline ≠ o.curline
  this_open : open_free sp s w
  other_open : open_free sp s o

/-- The invariant of the reachable states of every GC mode. -/
def wf_inv (sp : ssdparams) (limbo : Option Nat) (s : conv_ftl) : Prop :=
  wf_core sp limbo s s.wp s.gc_wp

/-- The sweep of `do_gc` at the loop counters `(fp, ch, lun)` has not yet read the flash page
of the page under `w`: the loops run over the flash pages, then the channels, then the
LUNs. -/
def not_read (sp : ssdparams) (fp ch lun : Nat) (w : write_pointer) : Prop :=
  fp < w.pg / sp.pgs_per_flashpg ∨
  (fp = w.pg / sp.pgs_per_flashpg ∧ (ch < w.ch ∨ (ch = w.ch ∧ lun ≤ w.lun)))

/-- When the cursor `w` is on the line `v` the sweep of `do_gc` is collecting, the sweep has
not yet read any page from the position of `w` on. -/
def unread_ahead (sp : ssdparams) (v fp ch lun : Nat) (w : write_pointer) : Prop :=
  w.curline = v → ∀ k j, k < sp.pgs_per_line → stripe_pos sp w k = w → k ≤ j →
    j < sp.pgs_per_line → not_read sp fp ch lun (stripe_pos sp w j)

/-- The invariant of the sweep of `do_gc` over the line `v` at the loop counters
`(fp, ch, lun)`: the state is well formed up to the counters of `v`, `v` is a line of the
device that is not on the free-line list once a page was read, no cursor on `v` has a read page ahead, and the blocks
`mark_block_free` has passed are FREE. -/
def sweep_inv (sp : ssdparams) (v fp ch lun : Nat) (t : conv_ftl) : Prop :=
  wf_core sp (some v) t t.gc_wp t.wp ∧
  (¬(fp = 0 ∧ ch = 0 ∧ lun = 0) → v ∉ t.lm.free_line_list ∧ v < sp.blks_per_pl) ∧
  unread_ahead sp v fp ch lun t.gc_wp ∧ unread_ahead sp v fp ch lun t.wp ∧
  (fp + 1 = sp.flashpgs_per_blk → ∀ c l, c < sp.nchs → l < sp.luns_per_ch →
    (c < ch ∨ (c = ch ∧ l < lun)) → blk_free sp v c l t) ∧
  (sp.flashpgs_per_blk ≤ fp → ∀ c l, c < sp.nchs → l < sp.luns_per_ch → blk_free sp v c l t)

/-- The invariant inside the loop body of the sweep of `do_gc`, between the counting loop of
`clean_one_flashpg` at the counters `(fp, ch, lun)` and `mark_block_free`. -/
def sweep_mid (sp : ssdparams) (v fp ch lun : Nat) (t : conv_ftl) : Prop :=
  wf_core sp (some v) t t.gc_wp t.wp ∧ v ∉ t.lm.free_line_list ∧ v < sp.blks_per_pl ∧
  unread_ahead sp v fp ch (lun + 1) t.gc_wp ∧ unread_ahead sp v fp ch (lun + 1) t.wp ∧
  (fp + 1 = sp.flashpgs_per_blk → ∀ c l, c < sp.nchs → l < sp.luns_per_ch →
    (c < ch ∨ (c = ch ∧ l < lun)) → blk_free sp v c l t)

/-! ## `ssd.c`: the write buffer and the timing model

`channel_model.c` is not part of the sources read here, so `chmodel_request` is a parameter:
a function from the model's state, the request time and the length to the completion time and
the model's next state.  The clocks (`cpu_clock`, `local_clock`) are inputs as well: the
`n`-th read of the dispatcher's CPU clock returns `cpu_clock n`. -/

/-- Reduction of a sum or product to a `uint64_t`. -/
def u64 (n : Nat) : Nat := n % 18446744073709551616

/-- `struct buffer`; the spin lock is free whenever a sequential run reaches it. -/
structure buffer where
  size : Nat
  remaining : Nat
  deriving DecidableEq, Repr

/-- `buffer_allocate`: the buffer afterwards and the `uint32_t` return value. -/
def buffer_allocate (buf : buffer) (size : Nat) : Option (buffer × Nat) := do
  NVMEV_ASSERT (size ≤ buf.size)
  let size := if buf.remaining < size then 0 else size
  pure ({ buf with remaining := sub_u64 buf.remaining size }, size % 4294967296)

/-- `buffer_release`: the buffer afterwards and the return value. -/
def buffer_release (buf : buffer) (size : Nat) : buffer × Bool :=
  ({ buf with remaining := u64 (buf.remaining + size) }, true)

/-- `buffer_refill`. -/
def buffer_refill (buf : buffer) : buffer := { buf with remaining := buf.size }

/-- `NAND_READ`. -/
def NAND_READ : Nat := 0

/-- `NAND_WRITE`. -/
def NAND_WRITE : Nat := 1

/-- `NAND_ERASE`. -/
def NAND_ERASE : Nat := 2

/-- `NAND_NOP`. -/
def NAND_NOP : Nat := 3

/-- `MAX_CELL_TYPES`, the length of the arrays `pg_4kb_rd_lat` and `pg_rd_lat`. -/
def MAX_CELL_TYPES : Nat := 3

/-- `NVME_SC_SUCCESS` (Linux `nvme.h`). -/
def NVME_SC_SUCCESS : Nat := 0

/-- `NVME_RW_FUA` (Linux `nvme.h`): bit 14 of the control word. -/
def NVME_RW_FUA : Nat := 16384

/-- `struct nand_cmd`; `ppa` is the address the pointer refers to. -/
structure nand_cmd where
  type : Nat
  cmd : Nat
  xfer_size : Nat
  stime : Nat
  interleave_pci_dma : Bool
  ppa : ppa
  deriving DecidableEq, Repr

/-- The timing fields of `struct nand_lun`. -/
structure nand_lun where
  next_lun_avail_time : Nat
  gc_endtime : Nat
  deriving DecidableEq, Repr

/-- The collaborators of the timing model that are not in these sources: `chmodel_request`
on a channel model of type `χ`, and the values `cpu_clock` returns read by read. -/
structure timing_env (χ : Type) where
  chmodel_request : χ → Nat → Nat → Nat × χ
  cpu_clock : Nat → Nat

/-- The timing state of a namespace: the LUNs and channel models of every partition's
`struct ssd` (`lun p c l`, `perf_model p c`), the PCIe model and the write buffer all
partitions share, and the number of clock reads so far. -/
structure dev_time (χ : Type) where
  lun : Nat → Nat → Nat → nand_lun
  perf_model : Nat → Nat → χ
  pcie : χ
  write_buffer : buffer
  clock_reads : Nat

/-- `lun->next_lun_avail_time = t` for LUN `l` of channel `c` of partition `p`. -/
def set_next_lun_avail_time {χ : Type} (T : dev_time χ) (p c l t : Nat) : dev_time χ :=
  { T with lun := Function.update T.lun p (Function.update (T.lun p) c
      (Function.update (T.lun p c) l { T.lun p c l with next_lun_avail_time := t })) }

/-- `lunp->gc_endtime = lunp->next_lun_avail_time`. -/
def set_gc_endtime {χ : Type} (T : dev_time χ) (p c l : Nat) : dev_time χ :=
  { T with lun := Function.update T.lun p (Function.update (T.lun p) c
      (Function.update (T.lun p c) l
        { T.lun p c l with gc_endtime := (T.lun p c l).next_lun_avail_time })) }

/-- `__get_ioclock`. -/
def __get_ioclock {χ : Type} (E : timing_env χ) (T : dev_time χ) : Nat × dev_time χ :=
  (E.cpu_clock T.clock_reads, { T with clock_reads := T.clock_reads + 1 })

/-- `ssd_advance_pcie`. -/
def ssd_advance_pcie {χ : Type} (E : timing_env χ) (T : dev_time χ) (request_time length : Nat) :
    Nat × dev_time χ :=
  ((E.chmodel_request T.pcie request_time length).1,
   { T with pcie := (E.chmodel_request T.pcie request_time length).2 })

/-- `chmodel_request(ch->perf_model, ...)` on channel `c` of partition `p`. -/
def ch_request {χ : Type} (E : timing_env χ) (T : dev_time χ) (p c request_time length : Nat) :
    Nat × dev_time χ :=
  ((E.chmodel_request (T.perf_model p c) request_time length).1,
   { T with perf_model := Function.update T.perf_model p (Function.update (T.perf_model p) c
      (E.chmodel_request (T.perf_model p c) request_time length).2) })

/-- `DIV_ROUND_UP` on `uint64_t`. -/
def DIV_ROUND_UP (n d : Nat) : Nat := u64 (n + d - 1) / d

/-- `ssd_advance_write_buffer`. -/
def ssd_advance_write_buffer {χ : Type} (E : timing_env χ) (sp : ssdparams) (T : dev_time χ)
    (request_time length : Nat) : Nat × dev_time χ :=
  let nsecs_latest := u64 (request_time + sp.fw_wbuf_lat0)
  let nsecs_latest := u64 (nsecs_latest + u64 (sp.fw_wbuf_lat1 * DIV_ROUND_UP length 4096))
  ssd_advance_pcie E T nsecs_latest length

/-- The `while (remaining)` loop of the `NAND_READ` case of `ssd_advance_nand`, entered with
`remaining > 0`: returns `chnl_etime`, `completed_time` and the state.  Each round takes at
least one byte off `remaining` unless `max_ch_xfer_size` is 0, so `remaining` rounds of fuel
are enough whenever the loop ends. -/
def nand_read_loop {χ : Type} (E : timing_env χ) (sp : ssdparams) (p c : Nat)
    (interleave_pci_dma : Bool) : Nat → dev_time χ → Nat → Nat → Option (Nat × Nat × dev_time χ)
  | 0, _, _, _ => none
  | fuel + 1, T, remaining, chnl_stime =>
    let xfer_size := min remaining sp.max_ch_xfer_size
    let r := ch_request E T p c chnl_stime xfer_size
    let chnl_etime := r.1
    let d := if interleave_pci_dma then ssd_advance_pcie E r.2 chnl_etime xfer_size
             else (chnl_etime, r.2)
    let remaining := remaining - xfer_size
    if remaining = 0 then some (chnl_etime, d.1, d.2)
    else nand_read_loop E sp p c interleave_pci_dma fuel d.2 remaining chnl_etime

/-- `ssd_advance_nand` on the `struct ssd` of partition `p`, whose parameters are `sp`:
the completion time and the state.  `none` where the C function has no defined result: a
channel or LUN outside the arrays `ssd_init` built, a division by zero in `get_cell`, a cell
index outside the latency arrays, a read of no bytes (its result is never assigned) and a
read loop that does not end. -/
def ssd_advance_nand {χ : Type} (E : timing_env χ) (sp : ssdparams) (p : Nat) (T : dev_time χ)
    (ncmd : nand_cmd) : Option (Nat × dev_time χ) :=
  let c := ncmd.cmd
  let t := if ncmd.stime = 0 then __get_ioclock E T else (ncmd.stime, T)
  let cmd_stime := t.1
  let T := t.2
  if ncmd.ppa = UNMAPPED_PPA then some (cmd_stime, T)
  else if ¬ (ncmd.ppa.ch < sp.nchs ∧ ncmd.ppa.lun < sp.luns_per_ch) then none
  else if sp.pgs_per_flashpg = 0 ∨ sp.cell_mode = 0 then none
  else
    let ch := ncmd.ppa.ch
    let l := ncmd.ppa.lun
    let lun := T.lun p ch l
    let cell := (ncmd.ppa.pg / sp.pgs_per_flashpg) % sp.cell_mode
    if c = NAND_READ then
      if MAX_CELL_TYPES ≤ cell then none
      else
        let nand_stime := max lun.next_lun_avail_time cmd_stime
        let nand_etime :=
          if ncmd.xfer_size = 4096 then u64 (nand_stime + sp.pg_4kb_rd_lat cell)
          else u64 (nand_stime + sp.pg_rd_lat cell)
        if ncmd.xfer_size = 0 then none
        else
          match nand_read_loop E sp p ch ncmd.interleave_pci_dma ncmd.xfer_size T
              ncmd.xfer_size nand_etime with
          | none => none
          | some (chnl_etime, completed_time, T1) =>
            some (completed_time, set_next_lun_avail_time T1 p ch l chnl_etime)
    else if c = NAND_WRITE then
      let chnl_stime := max lun.next_lun_avail_time cmd_stime
      let r := ch_request E T p ch chnl_stime ncmd.xfer_size
      let nand_etime := u64 (r.1 + sp.pg_wr_lat)
      some (nand_etime, set_next_lun_avail_time r.2 p ch l nand_etime)
    else if c = NAND_ERASE then
      let nand_stime := max lun.next_lun_avail_time cmd_stime
      let nand_etime := u64 (nand_stime + sp.blk_er_lat)
      some (nand_etime, set_next_lun_avail_time T p ch l nand_etime)
    else if c = NAND_NOP then
      let nand_stime := max lun.next_lun_avail_time cmd_stime
      some (nand_stime, set_next_lun_avail_time T p ch l nand_stime)
    else some (0, T)

/-- The maximum of `latest` and `next_lun_avail_time` over the LUNs `0 .. nluns - 1` of
channel `c` of partition `p`. -/
def lun_max {χ : Type} (T : dev_time χ) (p c : Nat) : Nat → Nat → Nat
  | 0, latest => latest
  | n + 1, latest => max (lun_max T p c n latest) (T.lun p c n).next_lun_avail_time

/-- The maximum of `latest` and `next_lun_avail_time` over the LUNs of the channels
`0 .. nchs - 1` of partition `p`. -/
def ch_max {χ : Type} (T : dev_time χ) (p nluns : Nat) : Nat → Nat → Nat
  | 0, latest => latest
  | n + 1, latest => lun_max T p n nluns (ch_max T p nluns n latest)

/-- `ssd_next_idle_time`. -/
def ssd_next_idle_time {χ : Type} (E : timing_env χ) (sp : ssdparams) (p : Nat)
    (T : dev_time χ) : Nat × dev_time χ :=
  let t := __get_ioclock E T
  (ch_max t.2 p sp.luns_per_ch sp.nchs t.1, t.2)

/-! ## `conv_ftl.c`: garbage collection with its NAND commands

The functions below are the collection path again, now with the calls of `ssd_advance_nand`
that `enable_gc_delay` switches on; `p` is the partition whose `struct ssd` they time. -/

/-- `gc_write_page`, with the `NAND_NOP` or `NAND_WRITE` command it issues. -/
def gc_write_page_timed {χ : Type} (E : timing_env χ) (p : Nat) (s : conv_ftl) (T : dev_time χ)
    (old_ppa : ppa) : Option (conv_ftl × dev_time χ) := do
  let lpn ← get_rmap_ent s old_ppa
  NVMEV_ASSERT (valid_lpn s lpn = true)
  let new_ppa ← get_new_page s GC_IO
  let s1 ← set_maptbl_ent s lpn new_ppa
  let s2 ← set_rmap_ent s1 lpn new_ppa
  let s3 ← mark_page_valid s2 new_ppa
  let s4 ← advance_write_pointer { s3 with gc_copied_pages := s3.gc_copied_pages + 1 } GC_IO
  if s4.cp.enable_gc_delay then
    let gcw : nand_cmd :=
      if last_pg_in_wordline s4 new_ppa then
        { type := GC_IO, cmd := NAND_WRITE, stime := 0, interleave_pci_dma := false,
          ppa := new_ppa, xfer_size := s4.ssd.sp.pgsz * s4.ssd.sp.pgs_per_oneshotpg }
      else
        { type := GC_IO, cmd := NAND_NOP, stime := 0, interleave_pci_dma := false,
          ppa := new_ppa, xfer_size := 0 }
    let r ← ssd_advance_nand E s4.ssd.sp p T gcw
    pure (s4, r.2)
  else pure (s4, T)

/-- Second loop of `clean_one_flashpg` with the commands of `gc_write_page`. -/
def clean_one_flashpg_copy_timed {χ : Type} (E : timing_env χ) (p : Nat) :
    Nat → conv_ftl → dev_time χ → ppa → Option (conv_ftl × dev_time χ)
  | 0, s, T, _ => some (s, T)
  | n + 1, s, T, ppa_copy =>
    match get_pg s.ssd ppa_copy with
    | none => none
    | some pg_iter =>
      if pg_iter.status = PG_VALID then
        match gc_write_page_timed E p s T ppa_copy with
        | none => none
        | some (s1, T1) => clean_one_flashpg_copy_timed E p n s1 T1 (ppa_next_pg ppa_copy)
      else clean_one_flashpg_copy_timed E p n s T (ppa_next_pg ppa_copy)

/-- `clean_one_flashpg`, with the aggregated `NAND_READ` it issues. -/
def clean_one_flashpg_timed {χ : Type} (E : timing_env χ) (p : Nat) (s : conv_ftl)
    (T : dev_time χ) (a : ppa) : Option (conv_ftl × dev_time χ) :=
  match clean_one_flashpg_count s s.ssd.sp.pgs_per_flashpg a 0 with
  | none => none
  | some cnt =>
    if cnt = 0 then some (s, T)
    else do
      let T1 ←
        if s.cp.enable_gc_delay then
          (ssd_advance_nand E s.ssd.sp p T
            { type := GC_IO, cmd := NAND_READ, stime := 0, xfer_size := s.ssd.sp.pgsz * cnt,
              interleave_pci_dma := false, ppa := a }).map Prod.snd
        else some T
      clean_one_flashpg_copy_timed E p s.ssd.sp.pgs_per_flashpg s T1 a

/-- Body of the innermost loop of `do_gc`, with the `NAND_ERASE` of the last stripe. -/
def do_gc_lun_timed {χ : Type} (E : timing_env χ) (p blk flashpg ch lun : Nat)
    (st : conv_ftl × dev_time χ) : Option (conv_ftl × dev_time χ) := do
  let spp := st.1.ssd.sp
  let a := gc_ppa spp blk flashpg ch lun
  let r ← clean_one_flashpg_timed E p st.1 st.2 a
  if flashpg = spp.flashpgs_per_blk - 1 then
    let s2 ← mark_block_free r.1 a
    let T2 ←
      if s2.cp.enable_gc_delay then
        (ssd_advance_nand E s2.ssd.sp p r.2
          { type := GC_IO, cmd := NAND_ERASE, stime := 0, xfer_size := 0,
            interleave_pci_dma := false, ppa := a }).map Prod.snd
      else some r.2
    pure (s2, set_gc_endtime T2 p a.ch a.lun)
  else pure r

/-- The copy-back sweep of `do_gc` with its NAND commands. -/
def do_gc_sweep_timed {χ : Type} (E : timing_env χ) (p blk : Nat)
    (st : conv_ftl × dev_time χ) : Option (conv_ftl × dev_time χ) :=
  for_loop st.1.ssd.sp.flashpgs_per_blk (fun flashpg s1 =>
    for_loop s1.1.ssd.sp.nchs (fun ch s2 =>
      for_loop s2.1.ssd.sp.luns_per_ch (fun lun s3 =>
        do_gc_lun_timed E p blk flashpg ch lun s3) s2) s1) st

/-- `do_gc` with its NAND commands. -/
def do_gc_timed {χ : Type} (E : timing_env χ) (p : Nat) (s : conv_ftl) (T : dev_time χ)
    (now r : Nat) (force : Bool) : Option (conv_ftl × dev_time χ × Int) :=
  match select_victim s now r force with
  | none => none
  | some (s1, none) => some (s1, T, -1)
  | some (s1, some victim_line) => do
    let s2 ← if s1.glob.debug_mode then count_gc_victim_type s1 victim_line else pure s1
    let s3 : conv_ftl := { s2 with gc_count := s2.gc_count + 1 }
    let blk := (s3.lm.lines victim_line).id
    let s4 : conv_ftl :=
      { s3 with wfc := { s3.wfc with credits_to_refill := (s3.lm.lines victim_line).ipc } }
    let s5 ← do_gc_sweep_timed E p blk (s4, T)
    pure (mark_line_free s5.1
      (gc_ppa s5.1.ssd.sp blk (s5.1.ssd.sp.flashpgs_per_blk - 1) (s5.1.ssd.sp.nchs - 1)
        (s5.1.ssd.sp.luns_per_ch - 1)), s5.2, 0)

/-- `foreground_gc` with its NAND commands. -/
def foreground_gc_timed {χ : Type} (E : timing_env χ) (p : Nat) (s : conv_ftl)
    (T : dev_time χ) (now r : Nat) : Option (conv_ftl × dev_time χ) :=
  if should_gc_high s then
    match do_gc_timed E p s T now r true with
    | none => none
    | some (s1, T1, _) => some (s1, T1)
  else some (s, T)

/-- `check_and_refill_write_credit` with the NAND commands of the collection. -/
def check_and_refill_write_credit_timed {χ : Type} (E : timing_env χ) (p : Nat) (s : conv_ftl)
    (T : dev_time χ) (now r : Nat) : Option (conv_ftl × dev_time χ) :=
  if s.wfc.write_credits ≤ 0 then
    match foreground_gc_timed E p s T now r with
    | none => none
    | some (s1, T1) =>
      some ({ s1 with wfc := { s1.wfc with write_credits :=
        (s1.wfc.write_credits + s1.wfc.credits_to_refill) % 4294967296 } }, T1)
  else some (s, T)

/-! ## `conv_ftl.c`: the command handlers

The handlers act on the instances of the namespace (`ns`), the file-scope variables (`g`, one
copy for all instances) and the timing state.  `ktime_get_ns()` and `get_random_u32()` are
inputs, one value for each round of the write loop. -/

/-- The fields of `cmd->rw` the handlers read (`__le64 slba`, `__le16 length`,
`__le16 control`). -/
structure nvme_rw_command where
  slba : Nat
  length : Nat
  control : Nat
  deriving DecidableEq, Repr

/-- `struct nvmev_request`. -/
structure nvmev_request where
  cmd : nvme_rw_command
  sq_id : Nat
  nsecs_start : Nat
  deriving DecidableEq, Repr

/-- `struct nvmev_result`. -/
structure nvmev_result where
  status : Nat
  nsecs_target : Nat
  deriving DecidableEq, Repr

/-- `LBA_TO_BYTE` (`LBA_BITS` is 9). -/
def LBA_TO_BYTE (lba : Nat) : Nat := u64 (lba * 512)

/-- A NAND command a handler handed to `ssd_advance_nand`: partition, command, completion
time returned. -/
structure issued_cmd where
  part : Nat
  ncmd : nand_cmd
  completed : Nat
  deriving DecidableEq, Repr

/-- `is_same_flash_page`; `blk_in_ssd` is the bit-fields `blk`, `pl`, `lun`, `ch` together. -/
def is_same_flash_page (s : conv_ftl) (ppa1 ppa2 : ppa) : Option Bool :=
  if s.ssd.sp.pgs_per_flashpg = 0 then none
  else some (decide (ppa1.blk = ppa2.blk ∧ ppa1.pl = ppa2.pl ∧ ppa1.lun = ppa2.lun ∧
    ppa1.ch = ppa2.ch) &&
    decide (ppa1.pg / s.ssd.sp.pgs_per_flashpg = ppa2.pg / s.ssd.sp.pgs_per_flashpg))

/-- The variables of `conv_read` that change in its loops, and the commands issued so far. -/
structure read_pass (χ : Type) where
  T : dev_time χ
  nsecs_latest : Nat
  xfer_size : Nat
  prev_ppa : ppa
  issued : List issued_cmd

/-- The two places of `conv_read` that issue the aggregated read: `if (xfer_size > 0)`, a
`NAND_READ` of `xfer_size` bytes at `prev_ppa`, and `nsecs_latest` takes the maximum. -/
def conv_read_issue {χ : Type} (E : timing_env χ) (ns : nvmev_ns) (part stime : Nat)
    (st : read_pass χ) : Option (read_pass χ) :=
  if 0 < st.xfer_size then
    let srd : nand_cmd :=
      { type := USER_IO, cmd := NAND_READ, stime := stime, interleave_pci_dma := true,
        xfer_size := st.xfer_size, ppa := st.prev_ppa }
    match ssd_advance_nand E (ns.ftls part).ssd.sp part st.T srd with
    | none => none
    | some (nsecs_completed, T1) =>
      some { st with T := T1, nsecs_latest := max nsecs_completed st.nsecs_latest,
                     issued := st.issued ++
                       [{ part := part, ncmd := srd, completed := nsecs_completed }] }
  else some st

/-- Body of the inner loop of `conv_read` for the global LPN `lpn` of instance `part`;
`xfer_size` is a `uint32_t`. -/
def conv_read_lpn {χ : Type} (E : timing_env χ) (ns : nvmev_ns) (part stime lpn : Nat)
    (st : read_pass χ) : Option (read_pass χ) :=
  let conv_ftl := ns.ftls part
  let spp := (ns.ftls 0).ssd.sp
  let cur_ppa := get_maptbl_ent conv_ftl (lpn / ns.nr_parts)
  if !mapped_ppa cur_ppa || !valid_ppa conv_ftl cur_ppa then some st
  else
    match (if mapped_ppa st.prev_ppa then is_same_flash_page conv_ftl cur_ppa st.prev_ppa
           else some false) with
    | none => none
    | some true => some { st with xfer_size := (st.xfer_size + spp.pgsz) % 4294967296 }
    | some false =>
      match conv_read_issue E ns part stime st with
      | none => none
      | some st1 => some { st1 with xfer_size := spp.pgsz % 4294967296, prev_ppa := cur_ppa }

/-- One round of the outer loop of `conv_read`, entered with `start_lpn = first`: the LPNs
`first, first + nr_parts, ...` up to `end_lpn` of instance `first % nr_parts`, then the
remaining read. -/
def conv_read_pass {χ : Type} (E : timing_env χ) (ns : nvmev_ns) (stime end_lpn first : Nat)
    (st : read_pass χ) : Option (read_pass χ) :=
  let part := first % ns.nr_parts
  let st0 : read_pass χ :=
    { st with xfer_size := 0,
              prev_ppa := get_maptbl_ent (ns.ftls part) (first / ns.nr_parts) }
  match for_loop ((end_lpn - first) / ns.nr_parts + 1)
      (fun k st1 => conv_read_lpn E ns part stime (first + k * ns.nr_parts) st1) st0 with
  | none => none
  | some st2 => conv_read_issue E ns part stime st2

/-- What a handler leaves behind: its return value, `*ret` if it was written, the instances,
the file-scope variables, the timing state, the NAND commands the handler itself issued and
the calls of `schedule_internal_operation` (`sq_id`, time, bytes to release). -/
structure outcome (χ : Type) where
  ok : Bool
  ret : Option nvmev_result
  ns : nvmev_ns
  g : globals
  T : dev_time χ
  issued : List issued_cmd
  scheduled : List (Nat × Nat × Nat)

/-- `conv_read`.  A zero `secs_per_pg` or `nr_parts` is a division by zero.  The loop
counters are `uint64_t`; the rounds are counted here, which is the same unless a counter
passes `2^64`, and such a command has no result in this model. -/
def conv_read {χ : Type} (E : timing_env χ) (ns : nvmev_ns) (g : globals) (T : dev_time χ)
    (req : nvmev_request) : Option (outcome χ) :=
  let spp := (ns.ftls 0).ssd.sp
  if spp.secs_per_pg = 0 ∨ ns.nr_parts = 0 then none
  else
    let lba := req.cmd.slba
    let nr_lba := req.cmd.length + 1
    let start_lpn := lba / spp.secs_per_pg
    let end_lpn := u64 (lba + nr_lba - 1) / spp.secs_per_pg
    if spp.tt_pgs ≤ end_lpn / ns.nr_parts then
      some { ok := false, ret := none, ns := ns, g := g, T := T, issued := [], scheduled := [] }
    else if 18446744073709551616 ≤ end_lpn + ns.nr_parts then none
    else
      let stime :=
        if LBA_TO_BYTE nr_lba ≤ (4096 * ns.nr_parts) % 4294967296 then
          u64 (req.nsecs_start + spp.fw_4kb_rd_lat)
        else u64 (req.nsecs_start + spp.fw_rd_lat)
      let st0 : read_pass χ :=
        { T := T, nsecs_latest := req.nsecs_start, xfer_size := 0, prev_ppa := UNMAPPED_PPA,
          issued := [] }
      match for_loop (min ns.nr_parts (end_lpn + 1 - start_lpn))
          (fun i st => conv_read_pass E ns stime end_lpn (start_lpn + i) st) st0 with
      | none => none
      | some st =>
        some { ok := true,
               ret := some { status := NVME_SC_SUCCESS, nsecs_target := st.nsecs_latest },
               ns := ns, g := g, T := st.T, issued := st.issued, scheduled := [] }

/-- The variables of `conv_write` that change in its loop. -/
structure write_pass (χ : Type) where
  ns : nvmev_ns
  g : globals
  T : dev_time χ
  nsecs_latest : Nat
  issued : List issued_cmd
  scheduled : List (Nat × Nat × Nat)

/-- Body of the loop of `conv_write` for the global LPN `lpn`: the mapping update on instance
`lpn % nr_parts`, the `NAND_WRITE` and the scheduled buffer release when the page closes a
wordline, `consume_write_credit`, `check_and_refill_write_credit`. -/
def conv_write_step {χ : Type} (E : timing_env χ) (sq_id stime now r lpn : Nat)
    (st : write_pass χ) : Option (write_pass χ) := do
  let part := lpn % st.ns.nr_parts
  let spp := (st.ns.ftls 0).ssd.sp
  let m ← conv_write_map { st.ns.ftls part with glob := st.g } now (lpn / st.ns.nr_parts)
  let st1 ←
    if last_pg_in_wordline m.1 m.2 then
      let swr : nand_cmd :=
        { type := USER_IO, cmd := NAND_WRITE, interleave_pci_dma := false,
          xfer_size := spp.pgsz * spp.pgs_per_oneshotpg, stime := stime, ppa := m.2 }
      match ssd_advance_nand E m.1.ssd.sp part st.T swr with
      | none => none
      | some (nsecs_completed, T1) =>
        some { st with T := T1, nsecs_latest := max nsecs_completed st.nsecs_latest,
                       issued := st.issued ++
                         [{ part := part, ncmd := swr, completed := nsecs_completed }],
                       scheduled := st.scheduled ++
                         [(sq_id, nsecs_completed, spp.pgs_per_oneshotpg * spp.pgsz)] }
    else some st
  let c ← check_and_refill_write_credit_timed E part (consume_write_credit m.1) st1.T now r
  pure { st1 with ns := { st1.ns with ftls := Function.update st1.ns.ftls part c.1 },
                  g := c.1.glob, T := c.2 }

/-- `conv_write`; `now k` and `r k` are the clock and the random number of round `k` of the
loop.  Division by zero and the loop counter are treated as in `conv_read`. -/
def conv_write {χ : Type} (E : timing_env χ) (ns : nvmev_ns) (g : globals) (T : dev_time χ)
    (req : nvmev_request) (now r : Nat → Nat) : Option (outcome χ) :=
  let spp := (ns.ftls 0).ssd.sp
  if spp.secs_per_pg = 0 ∨ ns.nr_parts = 0 then none
  else
    let lba := req.cmd.slba
    let nr_lba := req.cmd.length + 1
    let start_lpn := lba / spp.secs_per_pg
    let end_lpn := u64 (lba + nr_lba - 1) / spp.secs_per_pg
    if spp.tt_pgs ≤ end_lpn / ns.nr_parts then
      some { ok := false, ret := none, ns := ns, g := g, T := T, issued := [], scheduled := [] }
    else
      match buffer_allocate T.write_buffer (LBA_TO_BYTE nr_lba) with
      | none => none
      | some (wbuf, allocated_buf_size) =>
        let T0 : dev_time χ := { T with write_buffer := wbuf }
        if allocated_buf_size < LBA_TO_BYTE nr_lba then
          some { ok := false, ret := none, ns := ns, g := g, T := T0, issued := [],
                 scheduled := [] }
        else if 18446744073709551616 ≤ end_lpn + 1 then none
        else
          let w := ssd_advance_write_buffer E spp T0 req.nsecs_start (LBA_TO_BYTE nr_lba)
          let nsecs_xfer_completed := w.1
          let st0 : write_pass χ :=
            { ns := ns, g := g, T := w.2, nsecs_latest := w.1, issued := [], scheduled := [] }
          match for_loop (end_lpn + 1 - start_lpn)
              (fun k st => conv_write_step E req.sq_id nsecs_xfer_completed (now k) (r k)
                (start_lpn + k) st) st0 with
          | none => none
          | some st =>
            some { ok := true,
                   ret := some
                     { status := NVME_SC_SUCCESS,
                       nsecs_target :=
                         if req.cmd.control &&& NVME_RW_FUA ≠ 0 ∨
                             spp.write_early_completion = false then st.nsecs_latest
                         else nsecs_xfer_completed },
                   ns := st.ns, g := st.g, T := st.T, issued := st.issued,
                   scheduled := st.scheduled }

/-- The loop of `conv_flush` over the partitions `0 .. n - 1`: `latest` and the state. -/
def conv_flush_idle {χ : Type} (E : timing_env χ) (ns : nvmev_ns) :
    Nat → Nat × dev_time χ → Nat × dev_time χ
  | 0, st => st
  | n + 1, st =>
    let a := conv_flush_idle E ns n st
    let b := ssd_next_idle_time E (ns.ftls n).ssd.sp n a.2
    (max a.1 b.1, b.2)

/-- `conv_flush`; `start` is the value of `local_clock()`.  With `debug_mode` set and
`total_gc_cnt > 0` the statistics printout divides by `victim_chosen_cnt`. -/
def conv_flush {χ : Type} (E : timing_env χ) (ns : nvmev_ns) (g : globals) (T : dev_time χ)
    (start : Nat) : Option (outcome χ) :=
  let st := conv_flush_idle E ns ns.nr_parts (start, T)
  if g.debug_mode = true ∧ 0 < g.total_gc_cnt ∧ g.victim_chosen_cnt = 0 then none
  else
    some { ok := true, ret := some { status := NVME_SC_SUCCESS, nsecs_target := st.1 },
           ns := ns, g := g, T := st.2, issued := [], scheduled := [] }

/-! ## The timing rules in the words of the specification -/

/-- Size of the `i`-th channel transfer (counted from 0) of a read of `xfer_size` bytes as the
read timing rule describes it: `max_ch_xfer_size` bytes each, the rest in the last one. -/
def read_chunk (sp : ssdparams) (xfer_size i : Nat) : Nat :=
  min (xfer_size - i * sp.max_ch_xfer_size) sp.max_ch_xfer_size

/-- The read timing rule after `k` channel transfers on channel `c` of partition `p`: each
transfer is requested at the end of the previous one, the first at `nand_etime`, and is
followed by its PCIe transfer when `interleave_pci_dma` is set.  The value is the end of the
last channel transfer, the completion of the last chunk, and the timing state. -/
def read_transfers {χ : Type} (E : timing_env χ) (sp : ssdparams) (p c : Nat)
    (interleave_pci_dma : Bool) (xfer_size nand_etime : Nat) (T : dev_time χ) :
    Nat → Nat × Nat × dev_time χ
  | 0 => (nand_etime, nand_etime, T)
  | k + 1 =>
    let a := read_transfers E sp p c interleave_pci_dma xfer_size nand_etime T k
    let r := ch_request E a.2.2 p c a.1 (read_chunk sp xfer_size k)
    let d := if interleave_pci_dma then ssd_advance_pcie E r.2 r.1 (read_chunk sp xfer_size k)
             else (r.1, r.2)
    (r.1, d.1, d.2)

/-! ## Read aggregation in the words of the specification -/

/-- The flash page an address lies in: channel, LUN, plane, block and `pg / pgs_per_flashpg`. -/
def flash_page (sp : ssdparams) (a : ppa) : Nat × Nat × Nat × Nat × Nat :=
  (a.ch, a.lun, a.pl, a.blk, a.pg / sp.pgs_per_flashpg)

/-- The maximal runs of successive addresses of a list that lie in the same flash page: the
first address and the length of each run, in order. -/
def flash_page_runs (sp : ssdparams) : List ppa → List (ppa × Nat)
  | [] => []
  | a :: rest =>
    match flash_page_runs sp rest with
    | [] => [(a, 1)]
    | (b, k) :: tail =>
      if flash_page sp a = flash_page sp b then (a, k + 1) :: tail
      else (a, 1) :: (b, k) :: tail

/-- The address instance `first % nr_parts` maps the `k`-th LPN of its stride to, counted from
the global LPN `first`: global LPN `first + k * nr_parts`, local LPN `lpn / nr_parts`. -/
def stride_ppa (ns : nvmev_ns) (first k : Nat) : ppa :=
  get_maptbl_ent (ns.ftls (first % ns.nr_parts)) ((first + k * ns.nr_parts) / ns.nr_parts)

/-- The addresses of the mapped LPNs among the first `n` LPNs of the stride that starts at
`first`, unmapped LPNs skipped. -/
def stride_mapped (ns : nvmev_ns) (first : Nat) : Nat → List ppa
  | 0 => []
  | n + 1 =>
    if mapped_ppa (stride_ppa ns first n) &&
        valid_ppa (ns.ftls (first % ns.nr_parts)) (stride_ppa ns first n) then
      stride_mapped ns first n ++ [stride_ppa ns first n]
    else stride_mapped ns first n

/-- The number of LPNs the stride that starts at `first` has up to `end_lpn`. -/
def stride_len (ns : nvmev_ns) (end_lpn first : Nat) : Nat := (end_lpn - first) / ns.nr_parts + 1

/-- The NAND read the aggregation rule asks for a run (first address, length) of the stride
that starts at `first`: a `NAND_READ` of `length * pgsz` bytes at the first address, on the
partition that owns the stride. -/
def run_read (ns : nvmev_ns) (stime first : Nat) (run : ppa × Nat) : Nat × nand_cmd :=
  (first % ns.nr_parts,
    { type := USER_IO, cmd := NAND_READ, stime := stime, interleave_pci_dma := true,
      xfer_size := run.2 * (ns.ftls 0).ssd.sp.pgsz, ppa := run.1 })

/-- The NAND reads the aggregation rule asks for the stride that starts at `first`: one for
each maximal run of mapped LPNs in one flash page. -/
def stride_reads (ns : nvmev_ns) (stime end_lpn first : Nat) : List (Nat × nand_cmd) :=
  (flash_page_runs (ns.ftls (first % ns.nr_parts)).ssd.sp
    (stride_mapped ns first (stride_len ns end_lpn first))).map (run_read ns stime first)

/-- The NAND reads of the strides that start at `start_lpn, ..., start_lpn + n - 1`. -/
def expected_reads (ns : nvmev_ns) (stime start_lpn end_lpn : Nat) : Nat → List (Nat × nand_cmd)
  | 0 => []
  | n + 1 => expected_reads ns stime start_lpn end_lpn n ++
      stride_reads ns stime end_lpn (start_lpn + n)

/-- The number of mapped LPNs of the strides that start at `start_lpn, ..., start_lpn + n - 1`. -/
def mapped_lpns (ns : nvmev_ns) (start_lpn end_lpn : Nat) : Nat → Nat
  | 0 => 0
  | n + 1 => mapped_lpns ns start_lpn end_lpn n +
      (stride_mapped ns (start_lpn + n) (stride_len ns end_lpn (start_lpn + n))).length

/-- The number of strides of a read: one for each instance, and no more than there are LPNs. -/
def stride_count (ns : nvmev_ns) (start_lpn end_lpn : Nat) : Nat :=
  min ns.nr_parts (end_lpn + 1 - start_lpn)

/-- The sizes `ssd_advance_nand` needs for a read to have a result. -/
def read_geometry (sp : ssdparams) : Prop :=
  0 < sp.pgs_per_flashpg ∧ 0 < sp.cell_mode ∧ sp.cell_mode ≤ MAX_CELL_TYPES ∧
  0 < sp.max_ch_xfer_size

instance read_geometry_decidable (sp : ssdparams) : Decidable (read_geometry sp) := by
  unfold read_geometry
  infer_instance

/-- The command and the partition of an issued command, without its completion time. -/
def issued_key (c : issued_cmd) : Nat × nand_cmd := (c.part, c.ncmd)

/-- What holds in the inner loop of `conv_read` after `j` LPNs of the stride that starts at
`first`: the commands issued so far are `issued0` followed by the reads of the closed runs,
and the open run, if any, is held in `prev_ppa` and `xfer_size`. -/
def read_pass_inv {χ : Type} (ns : nvmev_ns) (stime first : Nat)
    (issued0 : List (Nat × nand_cmd)) (lat0 j : Nat) (st : read_pass χ) : Prop :=
  lat0 ≤ st.nsecs_latest ∧
  ∃ front pend,
    flash_page_runs (ns.ftls (first % ns.nr_parts)).ssd.sp (stride_mapped ns first j) =
      front ++ pend ∧
    st.issued.map issued_key = issued0 ++ front.map (run_read ns stime first) ∧
    ((pend = [] ∧ stride_mapped ns first j = [] ∧ st.xfer_size = 0 ∧
        st.prev_ppa = stride_ppa ns first 0 ∧ (0 < j → mapped_ppa st.prev_ppa = false)) ∨
      ∃ b k, pend = [(b, k)] ∧ st.prev_ppa = b ∧ st.xfer_size = k * (ns.ftls 0).ssd.sp.pgsz ∧
        0 < k ∧ k ≤ j ∧ mapped_ppa b = true ∧
        valid_ppa (ns.ftls (first % ns.nr_parts)) b = true)

/-- `start_lpn` of a command: `slba / secs_per_pg`. -/
def start_lpn_of (ns : nvmev_ns) (req : nvmev_request) : Nat :=
  req.cmd.slba / (ns.ftls 0).ssd.sp.secs_per_pg

/-- `end_lpn` of a command: `(slba + nr_lba - 1) / secs_per_pg` with `nr_lba = length + 1`. -/
def end_lpn_of (ns : nvmev_ns) (req : nvmev_request) : Nat :=
  u64 (req.cmd.slba + (req.cmd.length + 1) - 1) / (ns.ftls 0).ssd.sp.secs_per_pg

/-- The request time of the NAND reads of a command: `nsecs_start` plus `fw_4kb_rd_lat` when
the payload is at most 4 KiB for each partition, plus `fw_rd_lat` otherwise. -/
def read_stime (ns : nvmev_ns) (req : nvmev_request) : Nat :=
  if LBA_TO_BYTE (req.cmd.length + 1) ≤ (4096 * ns.nr_parts) % 4294967296 then
    u64 (req.nsecs_start + (ns.ftls 0).ssd.sp.fw_4kb_rd_lat)
  else u64 (req.nsecs_start + (ns.ftls 0).ssd.sp.fw_rd_lat)

/-- The conditions under which a read is followed here: sizes that are not zero, the range
check passed, counters and transfer sizes within their width, read timing defined on every
partition, and the first map entry of every stride either unmapped or a valid address. -/
def read_ready (ns : nvmev_ns) (req : nvmev_request) : Prop :=
  0 < (ns.ftls 0).ssd.sp.secs_per_pg ∧ 0 < ns.nr_parts ∧
  end_lpn_of ns req / ns.nr_parts < (ns.ftls 0).ssd.sp.tt_pgs ∧
  end_lpn_of ns req + ns.nr_parts < 18446744073709551616 ∧
  0 < (ns.ftls 0).ssd.sp.pgsz ∧
  (end_lpn_of ns req - start_lpn_of ns req + 1) * (ns.ftls 0).ssd.sp.pgsz < 4294967296 ∧
  (∀ i, i < ns.nr_parts → read_geometry (ns.ftls i).ssd.sp) ∧
  ∀ i, i < stride_count ns (start_lpn_of ns req) (end_lpn_of ns req) →
    mapped_ppa (stride_ppa ns (start_lpn_of ns req + i) 0) = true →
    valid_ppa (ns.ftls ((start_lpn_of ns req + i) % ns.nr_parts))
      (stride_ppa ns (start_lpn_of ns req + i) 0) = true

instance read_ready_decidable (ns : nvmev_ns) (req : nvmev_request) :
    Decidable (read_ready ns req) := by
  unfold read_ready
  infer_instance

/-- A timing environment for examples: a transfer of `n` bytes requested at `t` on a model
that is busy until `m` ends at `max t m + n`; every clock read returns 5. -/
def example_env : timing_env Nat :=
  { chmodel_request := fun m t n => (max t m + n, max t m + n), cpu_clock := fun _ => 5 }

/-- An idle timing state for examples, with a write buffer of `size` bytes. -/
def idle_time (size : Nat) : dev_time Nat :=
  { lun := fun _ _ _ => { next_lun_avail_time := 0, gc_endtime := 0 },
    perf_model := fun _ _ => 0, pcie := 0,
    write_buffer := { size := size, remaining := size }, clock_reads := 0 }

/-- A read of 40000 bytes at page 0 of block 0, requested at time 100 with the PCIe transfer
interleaved. -/
def example_read : nand_cmd :=
  { type := USER_IO, cmd := NAND_READ, xfer_size := 40000, stime := 100,
    interleave_pci_dma := true,
    ppa := { pg := 0, blk := 0, pl := 0, lun := 0, ch := 0, rsv := 0 } }

/-- A command of kind `cmd` for 4096 bytes at page 0 of block 0, requested at time 100. -/
def example_cmd (cmd : Nat) : nand_cmd :=
  { type := USER_IO, cmd := cmd, xfer_size := 4096, stime := 100,
    interleave_pci_dma := false,
    ppa := { pg := 0, blk := 0, pl := 0, lun := 0, ch := 0, rsv := 0 } }

/-- One instance over `stripe_params` (two channels of two LUNs). -/
def flush_ns : nvmev_ns := { nr_parts := 1, ftls := fun _ => stripe_state }

/-- LUN 0 of channel 0 is available at 1 000 000 ns, LUN 1 at 1 400 000 ns, every other LUN
at 0. -/
def flush_time : dev_time Nat :=
  { idle_time 0 with
    lun := fun _ c l =>
      { next_lun_avail_time :=
          if c = 0 ∧ l = 0 then 1000000 else if c = 0 ∧ l = 1 then 1400000 else 0,
        gc_endtime := 0 } }

/-- An idle timing state whose write buffer of 8192 bytes has 4096 bytes remaining. -/
def short_time : dev_time Nat :=
  { idle_time 8192 with write_buffer := { size := 8192, remaining := 4096 } }

/-- A write of `nlb + 1` sectors at LBA 0 with control word `control`, received at time 100
on queue 1. -/
def example_write (nlb control : Nat) : nvmev_request :=
  { cmd := { slba := 0, length := nlb, control := control }, sq_id := 1, nsecs_start := 100 }

/-- The small geometry with both pages of a block in one flash page. -/
def pair_params : ssdparams :=
  { tiny_params 6 with pgs_per_flashpg := 2, flashpgs_per_blk := 1 }

/-- A fresh instance over `pair_params` after writes to the local LPNs 0 and 1, which land in
the two pages of one flash page. -/
def pair_state : conv_ftl :=
  ((conv_init_ftl conv_params (ssd_init pair_params) 0 false (fun _ => none)).bind
    (fun s => (conv_write_map s 5 0).bind (fun a => (conv_write_map a.1 6 1).map Prod.fst))).getD
    blank_ftl

/-- Four partitions, each in `pair_state`. -/
def pair_ns : nvmev_ns := { nr_parts := 4, ftls := fun _ => pair_state }

/-- A read of `nlb + 1` sectors at LBA 0, received at time 100 on queue 1. -/
def example_read_req (nlb : Nat) : nvmev_request :=
  { cmd := { slba := 0, length := nlb, control := 0 }, sq_id := 1, nsecs_start := 100 }

/-! ## Host writes on one instance -/

/-- A sequence of host page writes on one instance: `conv_write_lpn` for each local LPN of
the list in turn; `now i` and `r i` are the clock and the random number of the write numbered
`i`, counted from the second argument. -/
def write_lpns (now r : Nat → Nat) : List Nat → Nat → conv_ftl → Option conv_ftl
  | [], _, s => some s
  | l :: ls, i, s =>
    match conv_write_lpn s (now i) (r i) l with
    | none => none
    | some s1 => write_lpns now r ls (i + 1) s1

/-- The states reachable from `conv_init_ftl` on a fresh device by host page writes, each
followed by `consume_write_credit` and `check_and_refill_write_credit`. -/
inductive host_reachable (cpp : convparams) (spp : ssdparams) (gc_mode : Nat) (dbg : Bool)
    (d0 : Nat → Option Nat) : conv_ftl → Prop
  | init {s : conv_ftl} :
      conv_init_ftl cpp (ssd_init spp) gc_mode dbg d0 = some s →
      host_reachable cpp spp gc_mode dbg d0 s
  | write {s s2 : conv_ftl} {now r lpn : Nat} :
      host_reachable cpp spp gc_mode dbg d0 s → conv_write_lpn s now r lpn = some s2 →
      host_reachable cpp spp gc_mode dbg d0 s2

/-- The number of FREE pages of the line open at the cursor `w` from position `k` of the
striping order on. -/
def free_ahead (sp : ssdparams) (s : conv_ftl) (w : write_pointer) (k : Nat) : Nat :=
  count_upto (fun j => decide (k ≤ j ∧
    ((s.ssd.blk (stripe_pos sp w j).ch (stripe_pos sp w j).lun 0 w.blk).pg
      (stripe_pos sp w j).pg).status = PG_FREE)) sp.pgs_per_line

/-- Credit conservation (P6): with `write_credits > 0`, the open user line has at least
`write_credits` FREE pages from the position of the user write pointer on, or the free-line
list is not empty. -/
def credit_conservation (sp : ssdparams) (s : conv_ftl) : Prop :=
  0 < s.wfc.write_credits →
    (∃ k, k < sp.pgs_per_line ∧ (stripe_pos sp s.wp k = s.wp ∧
      s.wfc.write_credits ≤ free_ahead sp s s.wp k)) ∨
    s.lm.free_line_list ≠ []

instance credit_conservation_decidable (sp : ssdparams) (s : conv_ftl) :
    Decidable (credit_conservation sp s) := by
  unfold credit_conservation
  infer_instance

/-- What holds after `i` host writes to distinct, unmapped LPNs (`written`) on the fresh
instance `s0`, while the first line is not yet used up: the user cursor is at position `i` of
that line, which holds `i` VALID pages; no line has an invalid page, the lists and counters of
the line manager are those of `s0`, no GC run has taken place, and only the LPNs of
`written` are mapped. -/
structure fill_inv (sp : ssdparams) (s0 s : conv_ftl) (i : Nat) (written : List Nat) :
    Prop where
  wf : wf_inv sp none s
  pos : stripe_pos sp s.wp i = s.wp
  line : s.wp.curline = s0.wp.curline
  vpc : (s.lm.lines s0.wp.curline).vpc = i
  ipc : ∀ k, (s.lm.lines k).ipc = 0
  free : s.lm.free_line_list = s0.lm.free_line_list
  free_cnt : s.lm.free_line_cnt = s0.lm.free_line_cnt
  full : s.lm.full_line_list = []
  full_cnt : s.lm.full_line_cnt = 0
  victim_cnt : s.lm.victim_line_cnt = 0
  gc : s.gc_count = 0
  credits : s.wfc.write_credits = sp.pgs_per_line - i
  cp : s.cp = s0.cp
  map : ∀ L, mapped_ppa (s.maptbl L) = true → L ∈ written

/-- The outcome of the sequential fill of the first line of the fresh instance `s0`: that
line is the one entry of the full-line list with every page VALID, no line is a victim
candidate, the user cursor is at the first page of the line that headed the free-line list of
`s0`, no GC run has taken place and no line has an invalid page. -/
structure fill_done (sp : ssdparams) (s0 s : conv_ftl) : Prop where
  full : s.lm.full_line_list = [s0.wp.curline]
  vpc : (s.lm.lines s0.wp.curline).vpc = sp.pgs_per_line
  full_cnt : s.lm.full_line_cnt = 1
  victim_cnt : s.lm.victim_line_cnt = 0
  line : s0.lm.free_line_list = s.wp.curline :: s.lm.free_line_list
  ch : s.wp.ch = 0
  lun : s.wp.lun = 0
  pg : s.wp.pg = 0
  gc : s.gc_count = 0
  ipc : ∀ k, (s.lm.lines k).ipc = 0

/-- A small geometry: one channel, one LUN, `nblk` blocks of three pages, so a line is one
block of three pages. -/
def tri_params (nblk : Nat) : ssdparams :=
  { secs_per_pg := 8, pgsz := 4096, pgs_per_flashpg := 1, flashpgs_per_blk := 3,
    pgs_per_oneshotpg := 1, oneshotpgs_per_blk := 3, pgs_per_blk := 3, blks_per_pl := nblk,
    pls_per_lun := 1, luns_per_ch := 1, nchs := 1, pgs_per_pl := 3 * nblk,
    pgs_per_lun := 3 * nblk, pgs_per_ch := 3 * nblk, tt_pgs := 3 * nblk, blks_per_lun := nblk,
    blks_per_ch := nblk, tt_blks := nblk, pgs_per_line := 3, blks_per_line := 1,
    tt_lines := nblk, tt_luns := 1 }

/-- Four lines of three pages, Greedy: LPN 0 written three times, then LPNs 1 to 8 once
each. -/
def credit_overrun_run : Option conv_ftl :=
  (conv_init_ftl conv_params (ssd_init (tri_params 4)) 0 false (fun _ => none)).bind
    (write_lpns (fun i => 100 + i) (fun _ => 0) [0, 0, 0, 1, 2, 3, 4, 5, 6, 7, 8] 0)

/-- The state at the end of `credit_overrun_run`. -/
def credit_overrun_state : conv_ftl := credit_overrun_run.getD blank_ftl

/-- A freshly initialised Greedy instance over `tri_params 6`. -/
def tri_fresh : Option conv_ftl :=
  conv_init_ftl conv_params (ssd_init (tri_params 6)) 0 false (fun _ => none)

/-- The state of `tri_fresh`. -/
def tri_fresh_state : conv_ftl := tri_fresh.getD blank_ftl

/-- The run of two host writes, to the local LPNs 0 and 1, on `tri_fresh`. -/
def tri_two_run : Option conv_ftl :=
  tri_fresh.bind (write_lpns (fun i => 100 + i) (fun _ => 0) [0, 1] 0)

/-- The state at the end of `tri_two_run`. -/
def tri_two_state : conv_ftl := tri_two_run.getD blank_ftl

/-! ## The LPN walks of `conv_read` and `conv_write` -/

/-- The inner loop of `conv_read`, `for (lpn = start_lpn; lpn <= end_lpn; lpn += nr_parts)`,
on the instance `part`, with `fuel` rounds left: the global LPN, the instance and the local
LPN `lpn / nr_parts` of every round. The counter is a `uint64_t`. -/
def read_inner (nr_parts end_lpn part : Nat) : Nat → Nat → List (Nat × Nat × Nat)
  | 0, _ => []
  | fuel + 1, lpn =>
    if lpn ≤ end_lpn then
      (lpn, part, lpn / nr_parts) :: read_inner nr_parts end_lpn part fuel (u64 (lpn + nr_parts))
    else []

/-- The outer loop of `conv_read`,
`for (i = 0; (i < nr_parts) && (start_lpn <= end_lpn); i++, start_lpn++)`, with `fuel` rounds
left: the instance is `start_lpn % nr_parts`, and the inner loop has at most `end_lpn + 1`
rounds. -/
def read_outer (nr_parts end_lpn : Nat) : Nat → Nat → Nat → List (Nat × Nat × Nat)
  | 0, _, _ => []
  | fuel + 1, i, start_lpn =>
    if i < nr_parts ∧ start_lpn ≤ end_lpn then
      read_inner nr_parts end_lpn (start_lpn % nr_parts) (end_lpn + 1) start_lpn ++
        read_outer nr_parts end_lpn fuel (i + 1) (u64 (start_lpn + 1))
    else []

/-- The LPNs `conv_read` looks up, in the order of its nested loops, each with its instance
and local LPN; the outer loop has at most `nr_parts` rounds. -/
def read_walk (nr_parts start_lpn end_lpn : Nat) : List (Nat × Nat × Nat) :=
  read_outer nr_parts end_lpn nr_parts 0 start_lpn

/-- The loop of `conv_write`, `for (lpn = start_lpn; lpn <= end_lpn; lpn++)`, with `fuel`
rounds left: the global LPN, the instance `lpn % nr_parts` and the local LPN
`lpn / nr_parts` of every round. -/
def write_loop (nr_parts end_lpn : Nat) : Nat → Nat → List (Nat × Nat × Nat)
  | 0, _ => []
  | fuel + 1, lpn =>
    if lpn ≤ end_lpn then
      (lpn, lpn % nr_parts, lpn / nr_parts) ::
        write_loop nr_parts end_lpn fuel (u64 (lpn + 1))
    else []

/-- The LPNs `conv_write` updates, in the order of its loop; the loop has at most
`end_lpn + 1` rounds. -/
def write_walk (nr_parts start_lpn end_lpn : Nat) : List (Nat × Nat × Nat) :=
  write_loop nr_parts end_lpn (end_lpn + 1) start_lpn

/-! ## `ssd_init_params` and the addresses of the sweep of `do_gc` -/

/-- The address `p` is a page of the line with block number `blk`: plane 0 of the block
numbered `blk` on a channel and a LUN of the device, a page of the block. -/
def line_page (spp : ssdparams) (blk : Nat) (p : ppa) : Prop :=
  p.ch < spp.nchs ∧ p.lun < spp.luns_per_ch ∧ p.pl = 0 ∧ p.blk = blk ∧
  p.pg < spp.pgs_per_blk ∧ p.rsv = 0

instance line_page_decidable (spp : ssdparams) (blk : Nat) (p : ppa) :
    Decidable (line_page spp blk p) := by
  unfold line_page
  infer_instance

/-- A Cost-Benefit heap of two candidates: line 0 with no VALID page (`ipc = 2`, `vpc = 0`,
last modified at `t0`) at index 1 and line 1 with one VALID page (`ipc = 1`, `vpc = 1`, last
modified at `t1`) at index 2; the next slot is `NULL`. -/
def cb_pair_state (t0 t1 : Nat) : conv_ftl :=
  { blank_ftl with
    lm := { blank_ftl.lm with
      lines := fun k =>
        if k = 0 then { id := 0, ipc := 2, vpc := 0, pos := 1, last_modified_time := t0 }
        else if k = 1 then { id := 1, ipc := 1, vpc := 1, pos := 2, last_modified_time := t1 }
        else { id := k, ipc := 0, vpc := 0, pos := 0, last_modified_time := 0 },
      victim_line_pq :=
        { size := 3, avail := 9, step := 9, cmppri := cmp_pri_dummy, getpri := get_pri_dummy,
          setpri := victim_line_set_pri, getpos := victim_line_get_pos,
          setpos := victim_line_set_pos,
          d := fun i => if i = 1 then some 0 else if i = 2 then some 1 else none },
      select_victim := GC_MODE_COST_BENEFIT,
      victim_line_cnt := 2 } }

/-- Five lines, Random. Writes to LPN 0, 0, 1, 1 with the credit check after each (the random
source returns 0): the GC runs have collected both victims, so the heap is empty and its
slot 1 still holds the pointer of line 2, which is back on the free-line list. Then LPN 2 is
written and its credit consumed: the state in which `check_and_refill_write_credit` starts
the next GC run. -/
def random_empty_state : conv_ftl :=
  (do
    let s ← tiny_ftl 5 2
    let s ← conv_write_lpn s 10 0 0
    let s ← conv_write_lpn s 11 0 0
    let s ← conv_write_lpn s 12 0 1
    let s ← conv_write_lpn s 13 0 1
    let m ← conv_write_map s 14 2
    pure (consume_write_credit m.1)).getD blank_ftl

/-- Six lines of two pages, Greedy: the local LPNs 0 and 1 written once each, so that line 0
is on the full-line list. -/
def full_line_run : Option conv_ftl :=
  (tiny_ftl 6 0).bind (write_lpns (fun i => 100 + i) (fun _ => 0) [0, 1] 0)

/-- The state at the end of `full_line_run`. -/
def full_line_state : conv_ftl := full_line_run.getD blank_ftl

/-- Six lines of two pages, Greedy: the state of `conv_write_map` just before its call of
`advance_write_pointer` when LPN 0, written once, is overwritten: page 0 of line 0 is
INVALID, page 1 VALID, and the user cursor stands on page 1, the last page of the line. -/
def closing_state : conv_ftl :=
  (do
    let s ← tiny_ftl 6 0
    let s ← conv_write_lpn s 100 0 0
    let s ← conv_write_invalidate s 101 (get_maptbl_ent s 0)
    let p ← get_new_page s USER_IO
    let s ← set_maptbl_ent s 0 p
    let s ← set_rmap_ent s 0 p
    mark_page_valid s p).getD blank_ftl

/-- Every member of the victim heap other than the line `v` has an invalid page counted in
its `ipc`. -/
def heap_ipc (lm : line_mgmt) (v : Option Nat) : Prop :=
  ∀ j, v ≠ some j → pq_member lm j → 1 ≤ (lm.lines j).ipc

/-! ## The work of a GC run -/

/-- The number of VALID pages of block `b` in its flash page `fp`, the pages
`fp * pgs_per_flashpg + i` for `i < pgs_per_flashpg` that one call of `clean_one_flashpg`
reads. -/
def flashpg_valid (sp : ssdparams) (b : nand_block) (fp : Nat) : Nat :=
  count_upto (fun i => decide ((b.pg (fp * sp.pgs_per_flashpg + i)).status = PG_VALID))
    sp.pgs_per_flashpg

/-- The number of VALID pages of the blocks numbered `v` of the device `d` in the flash pages
the sweep of `do_gc` has passed when its loop counters are `(fp, ch, lun)`. -/
def swept_valid (d : ssd) (v fp ch lun : Nat) : Nat :=
  sum_upto (fun f => sum_upto (fun c => sum_upto (fun l =>
    flashpg_valid d.sp (d.blk c l 0 v) f) d.sp.luns_per_ch) d.sp.nchs) fp +
  sum_upto (fun c => sum_upto (fun l =>
    flashpg_valid d.sp (d.blk c l 0 v) fp) d.sp.luns_per_ch) ch +
  sum_upto (fun l => flashpg_valid d.sp (d.blk ch l 0 v) fp) lun

/-- The block `b` is the block `b0` after one `mark_block_free`: every page FREE, no VALID or
INVALID page counted, one more erase. -/
def blk_erased (sp : ssdparams) (b0 b : nand_block) : Prop :=
  (∀ i, i < sp.pgs_per_blk → (b.pg i).status = PG_FREE) ∧ b.vpc = 0 ∧ b.ipc = 0 ∧
  b.erase_cnt = b0.erase_cnt + 1

/-- The part of the line manager a GC run on the victim line `v` keeps: the heap has its
size word, `v` is out of the heap with `pos = 0`, the GC cursor is not on `v`, and the
free-line list, counted by `free_line_cnt`, is what is left of the list `fl0` after lines
were taken from its head. -/
def gc_limbo (v : Nat) (fl0 : List Nat) (t : conv_ftl) : Prop :=
  1 ≤ t.lm.victim_line_pq.size ∧ ¬ pq_member t.lm v ∧ (t.lm.lines v).pos = 0 ∧
  t.gc_wp.curline ≠ v ∧ (∃ k, t.lm.free_line_list = fl0.drop k) ∧
  t.lm.free_line_cnt = t.lm.free_line_list.length

/-! ## The mapping tables over a GC run -/

/-- The second half of the map invariant (M1) on the blocks numbered `v`: the reverse-map
entry of every VALID page is a local LPN that the forward map sends to that page. -/
def victim_mapped (s : conv_ftl) (v : Nat) : Prop :=
  ∀ c, c < s.ssd.sp.nchs → ∀ l, l < s.ssd.sp.luns_per_ch → ∀ g, g < s.ssd.sp.pgs_per_blk →
    ((s.ssd.blk c l 0 v).pg g).status = PG_VALID →
    s.rmap (pgidx_of s.ssd.sp { ch := c, lun := l, pl := 0, blk := v, pg := g, rsv := 0 })
      < s.ssd.sp.tt_pgs ∧
    mapped_ppa (s.maptbl (s.rmap (pgidx_of s.ssd.sp
      { ch := c, lun := l, pl := 0, blk := v, pg := g, rsv := 0 }))) = true ∧
    same_page (s.maptbl (s.rmap (pgidx_of s.ssd.sp
      { ch := c, lun := l, pl := 0, blk := v, pg := g, rsv := 0 })))
      { ch := c, lun := l, pl := 0, blk := v, pg := g, rsv := 0 }

instance victim_mapped_decidable (s : conv_ftl) (v : Nat) : Decidable (victim_mapped s v) := by
  unfold victim_mapped
  infer_instance

/-- The local LPN `L` is mapped to a VALID page outside the blocks numbered `v` whose
reverse-map entry is `L`. -/
def lpn_moved (v : Nat) (t : conv_ftl) (L : Nat) : Prop :=
  mapped_ppa (t.maptbl L) = true ∧ (t.maptbl L).blk ≠ v ∧
  get_rmap_ent t (t.maptbl L) = some L ∧ page_status t (t.maptbl L) = some PG_VALID

instance lpn_moved_decidable (v : Nat) (t : conv_ftl) (L : Nat) :
    Decidable (lpn_moved v t L) := by
  unfold lpn_moved
  infer_instance

/-- The local LPN `L` is mapped in `t` as in `s`, to a VALID page whose reverse-map entry is
`L`. -/
def lpn_kept (s t : conv_ftl) (L : Nat) : Prop :=
  t.maptbl L = s.maptbl L ∧ get_rmap_ent t (s.maptbl L) = some L ∧
  page_status t (s.maptbl L) = some PG_VALID

/-- The mapping tables during the GC run on the victim line `v` that started in `s`: no page
of `v` has become VALID, the reverse map is unchanged on `v`, an LPN unmapped in `s` is
unmapped, an LPN mapped outside `v` is kept, and an LPN mapped into `v` either still has its
entry of `s` or has been moved. -/
structure gc_map_inv (sp : ssdparams) (s : conv_ftl) (v nl : Nat) (t : conv_ftl) : Prop where
  acct : gc_acct sp v nl t
  vstat : ∀ p : ppa, p.blk = v → page_status t p = some PG_VALID →
    page_status s p = some PG_VALID
  vrmap : ∀ p : ppa, p.blk = v → p.ch < sp.nchs → p.lun < sp.luns_per_ch →
    p.pl < sp.pls_per_lun → p.pg < sp.pgs_per_blk →
    t.rmap (pgidx_of sp p) = s.rmap (pgidx_of sp p)
  unm : ∀ L, L < sp.tt_pgs → mapped_ppa (s.maptbl L) = false → mapped_ppa (t.maptbl L) = false
  out : ∀ L, L < sp.tt_pgs → mapped_ppa (s.maptbl L) = true → (s.maptbl L).blk ≠ v →
    lpn_kept s t L
  inn : ∀ L, L < sp.tt_pgs → mapped_ppa (s.maptbl L) = true → (s.maptbl L).blk = v →
    t.maptbl L = s.maptbl L ∨ lpn_moved v t L

/-- The flash page `fp` of the block at channel `ch`, LUN `lun` comes before the loop
counters `(fp0, ch0, lun0)` of the sweep of `do_gc`. -/
def swept_before (sp : ssdparams) (fp0 ch0 lun0 : Nat) (q : ppa) : Prop :=
  q.pg / sp.pgs_per_flashpg < fp0 ∨
  (q.pg / sp.pgs_per_flashpg = fp0 ∧ (q.ch < ch0 ∨ (q.ch = ch0 ∧ q.lun < lun0)))

/-- The map invariant (M1) on the pages of `A`: every local LPN is unmapped or mapped to a
VALID page of `A` whose reverse-map entry is the LPN, and the reverse-map entry of every VALID
page of `A` is a local LPN that the forward map sends to that page. -/
structure map_inv_on (sp : ssdparams) (A : ppa → Prop) (t : conv_ftl) : Prop where
  fwd : ∀ L, L < sp.tt_pgs → mapped_ppa (t.maptbl L) = false ∨
    (get_rmap_ent t (t.maptbl L) = some L ∧ page_status t (t.maptbl L) = some PG_VALID ∧
      A (t.maptbl L))
  rev : ∀ q : ppa, page_status t q = some PG_VALID → A q →
    t.rmap (pgidx_of sp q) < sp.tt_pgs ∧
    mapped_ppa (t.maptbl (t.rmap (pgidx_of sp q))) = true ∧
    same_page (t.maptbl (t.rmap (pgidx_of sp q))) q

/-- The map invariant (M1), both halves, on every page. -/
def map_inv (sp : ssdparams) (t : conv_ftl) : Prop := map_inv_on sp (fun _ => True) t

/-- The page `q` is not a page of the blocks numbered `v` that the sweep of `do_gc` has
passed when its loop counters are `(fp, ch, lun)` and the copy loop of `clean_one_flashpg`
on the block at `(ch, lun)` has gone through the pages `[g0, g)`. -/
def alive (sp : ssdparams) (v fp ch lun g0 g : Nat) (q : ppa) : Prop :=
  q.blk = v → ¬ swept_before sp fp ch lun q ∧
    ¬(q.ch = ch ∧ q.lun = lun ∧ g0 ≤ q.pg ∧ q.pg < g)

/-- Two lines of two pages, Greedy, both opened by the write pointers at initialisation, so
that no line is free: the state of `conv_write_map` just before its call of
`advance_write_pointer` when LPN 0, written once, is overwritten. Page 0 of line 0 is INVALID,
page 1 is VALID, and the user cursor stands on page 1, the last page of its line. -/
def out_of_space_state : conv_ftl :=
  (do
    let s ← tiny_ftl 2 0
    let a ← conv_write_map s 100 0
    let s ← conv_write_invalidate a.1 101 (get_maptbl_ent a.1 0)
    let p ← get_new_page s USER_IO
    let s ← set_maptbl_ent s 0 p
    let s ← set_rmap_ent s 0 p
    mark_page_valid s p).getD blank_ftl

/-! ## Theorems -/

/-! ## The heap operations: frame and permutation lemmas -/

theorem pq_with_self (lm : line_mgmt) : pq_with lm lm.lines lm.victim_line_pq.d = lm := rfl

theorem pq_with_pq_with (lm : line_mgmt) (l l2 : Nat → line) (d d2 : Nat → Option Nat) :
    pq_with (pq_with lm l d) l2 d2 = pq_with lm l2 d2 := rfl

theorem pq_set_d_eq (lm : line_mgmt) (i : Nat) (p : Option Nat) :
    pq_set_d lm i p = pq_with lm lm.lines (Function.update lm.victim_line_pq.d i p) := rfl

theorem pq_setpos_some (lm : line_mgmt) (k i : Nat) :
    pq_setpos lm (some k) i = some (pq_with lm
      (Function.update lm.lines k (lm.victim_line_pq.setpos (lm.lines k) i))
      lm.victim_line_pq.d) := rfl

theorem pq_getpri_eq_some {lm : line_mgmt} {p : Option Nat} {v : Nat}
    (h : pq_getpri lm p = some v) :
    ∃ k, p = some k ∧ v = lm.victim_line_pq.getpri (lm.lines k) := by
  cases p with
  | none => simp [pq_getpri] at h
  | some k => exact ⟨k, rfl, by simpa [pq_getpri] using h.symm⟩

theorem update_update_swap {α : Type} (d : Nat → α) (i c : Nat) (m : α) (h : i ≠ c) :
    Function.update (Function.update d i (d c)) c m
      = (Function.update d i m) ∘ (Equiv.swap i c) := by
  funext x
  by_cases hx : x = c
  · subst hx
    simp [Function.update, Equiv.swap_apply_right]
  · by_cases hx2 : x = i
    · subst hx2
      simp [Function.update, Equiv.swap_apply_left, hx, h, Ne.symm h]
    · simp [Function.update, hx, hx2, Equiv.swap_apply_of_ne_of_ne hx2 hx]

theorem maxchild_cases {lm : line_mgmt} {i c : Nat} (h : maxchild lm i = some c) :
    c = 0 ∨ ((c = 2 * i ∨ c = 2 * i + 1) ∧ c < lm.victim_line_pq.size) := by
  unfold maxchild at h
  simp only at h
  split_ifs at h with h1 h2
  · left; simpa using h.symm
  · split at h
    · split_ifs at h with h3
      · right; simp only [Option.some.injEq] at h; omega
      · right; simp only [Option.some.injEq] at h; omega
    · simp at h
  · right; simp only [Option.some.injEq] at h; omega

theorem percolate_down_loop_spec (mp : Nat) :
    ∀ (fuel : Nat) (lm : line_mgmt) (i : Nat) (r : line_mgmt × Nat),
      line_hooks lm.victim_line_pq →
      percolate_down_loop mp fuel lm i = some r →
      r.1 = pq_with lm r.1.lines r.1.victim_line_pq.d ∧ i ≤ r.2 ∧
      (r.2 = i ∨ r.2 < lm.victim_line_pq.size) ∧
      (∃ π : Equiv.Perm Nat, (∀ x, ¬(i ≤ x ∧ x < lm.victim_line_pq.size) → π x = x) ∧
          ∀ m, Function.update r.1.victim_line_pq.d r.2 m
            = (Function.update lm.victim_line_pq.d i m) ∘ π) ∧
      (∀ k, r.1.lines k = lm.lines k ∨
          ∃ x, i ≤ x ∧ x < r.2 ∧ r.1.victim_line_pq.d x = some k ∧
            r.1.lines k = { lm.lines k with pos := x }) := by
  intro fuel
  induction fuel with
  | zero => intro lm i r _ h; simp [percolate_down_loop] at h
  | succ fuel ih =>
    intro lm i r hk h
    have stop : r = (lm, i) →
        r.1 = pq_with lm r.1.lines r.1.victim_line_pq.d ∧ i ≤ r.2 ∧
        (r.2 = i ∨ r.2 < lm.victim_line_pq.size) ∧
        (∃ π : Equiv.Perm Nat, (∀ x, ¬(i ≤ x ∧ x < lm.victim_line_pq.size) → π x = x) ∧
            ∀ m, Function.update r.1.victim_line_pq.d r.2 m
              = (Function.update lm.victim_line_pq.d i m) ∘ π) ∧
        (∀ k, r.1.lines k = lm.lines k ∨
            ∃ x, i ≤ x ∧ x < r.2 ∧ r.1.victim_line_pq.d x = some k ∧
              r.1.lines k = { lm.lines k with pos := x }) := by
      intro hr
      subst hr
      refine ⟨rfl, le_refl _, Or.inl rfl, ⟨1, fun _ _ => rfl, fun m => rfl⟩, fun k => Or.inl rfl⟩
    rw [percolate_down_loop] at h
    cases hmc : maxchild lm i with
    | none => simp [hmc] at h
    | some c =>
      simp only [hmc] at h
      by_cases hc0 : c = 0
      · simp only [hc0, ne_eq, not_true_eq_false, if_false, Option.some.injEq] at h
        exact stop h.symm
      · simp only [ne_eq, hc0, not_false_eq_true, if_true] at h
        cases hgp : pq_getpri lm (lm.victim_line_pq.d c) with
        | none => simp [hgp] at h
        | some cp =>
          simp only [hgp] at h
          by_cases hcmp : lm.victim_line_pq.cmppri mp cp = true
          · simp only [hcmp, if_true] at h
            obtain ⟨kc, hkc, -⟩ := pq_getpri_eq_some hgp
            rw [hkc, pq_set_d_eq, pq_setpos_some] at h
            simp only at h
            have hci : i < c ∧ c < lm.victim_line_pq.size := by
              rcases maxchild_cases hmc with h0 | ⟨h1, h2⟩
              · exact absurd h0 hc0
              · constructor
                · omega
                · exact h2
            have hsp : lm.victim_line_pq.setpos = victim_line_set_pos := hk.2.2
            have key := fun hh => ih _ c r hh h
            obtain ⟨e1, e2, e3, ⟨π2, hfix, hperm⟩, e5⟩ := key hk
            simp only [pq_with] at e1 e3 hfix hperm e5
            refine ⟨?_, by omega, Or.inr (by omega), ⟨Equiv.swap i c * π2, ?_, ?_⟩, ?_⟩
            · rw [e1]; rfl
            · intro x hx
              have hx2 : π2 x = x := hfix x (by omega)
              rw [Equiv.Perm.mul_apply, hx2]
              exact Equiv.swap_apply_of_ne_of_ne (by omega) (by omega)
            · intro m
              rw [hperm m, ← hkc, update_update_swap _ _ _ _ (by omega)]
              rfl
            · have hdi : r.1.victim_line_pq.d i = some kc := by
                have := congrFun (hperm none) i
                have hx2 : π2 i = i := hfix i (by omega)
                have hne1 : i ≠ r.2 := by omega
                have hne2 : i ≠ c := by omega
                rw [Function.comp_apply, hx2, Function.update_noteq hne1,
                  Function.update_noteq hne2, Function.update_same] at this
                exact this
              intro k
              rcases e5 k with hA | ⟨x, hx1, hx2, hx3, hx4⟩
              · by_cases hkk : k = kc
                · right
                  refine ⟨i, le_refl _, by omega, hkk ▸ hdi, ?_⟩
                  rw [hA, hkk, Function.update_same, hsp]; rfl
                · left
                  rw [hA, Function.update_noteq hkk]
              · right
                refine ⟨x, by omega, hx2, hx3, ?_⟩
                rw [hx4]
                by_cases hkk : k = kc
                · rw [hkk, Function.update_same, hsp]; rfl
                · rw [Function.update_noteq hkk]
          · simp only [hcmp, Bool.false_eq_true, if_false, Option.some.injEq] at h
            exact stop h.symm

theorem percolate_down_spec {lm lm2 : line_mgmt} {i : Nat} (hk : line_hooks lm.victim_line_pq)
    (h : percolate_down lm i = some lm2) :
    lm2 = pq_with lm lm2.lines lm2.victim_line_pq.d ∧
    (∃ π : Equiv.Perm Nat, (∀ x, ¬(i ≤ x ∧ x < lm.victim_line_pq.size) → π x = x) ∧
        lm2.victim_line_pq.d = lm.victim_line_pq.d ∘ π) ∧
    (∀ k, lm2.lines k = lm.lines k ∨
        ∃ x, i ≤ x ∧ (x = i ∨ x < lm.victim_line_pq.size) ∧ lm2.victim_line_pq.d x = some k ∧
          lm2.lines k = { lm.lines k with pos := x }) := by
  unfold percolate_down at h
  simp only at h
  cases hgp : pq_getpri lm (lm.victim_line_pq.d i) with
  | none => simp [hgp] at h
  | some mp =>
    simp only [hgp] at h
    cases hl : percolate_down_loop mp (lm.victim_line_pq.size + 2) lm i with
    | none => simp [hl] at h
    | some r =>
      obtain ⟨lm1, j⟩ := r
      simp only [hl] at h
      obtain ⟨km, hkm, -⟩ := pq_getpri_eq_some hgp
      obtain ⟨e1, e2, e3, ⟨π, hfix, hperm⟩, e5⟩ := percolate_down_loop_spec mp _ lm i _ hk hl
      simp only at e1 e2 e3 hperm e5
      have hsp : lm1.victim_line_pq.setpos = victim_line_set_pos := by rw [e1]; exact hk.2.2
      rw [hkm, pq_set_d_eq, pq_setpos_some] at h
      simp only [Option.some.injEq] at h
      have hd : lm2.victim_line_pq.d = lm.victim_line_pq.d ∘ π := by
        rw [← h]
        show Function.update lm1.victim_line_pq.d j (some km) = _
        rw [hperm (some km), ← hkm, Function.update_eq_self]
      have hl2 : lm2.lines = Function.update lm1.lines km { lm1.lines km with pos := j } := by
        rw [← h]
        show Function.update lm1.lines km (lm1.victim_line_pq.setpos (lm1.lines km) j) = _
        rw [hsp]; rfl
      have hdj : lm2.victim_line_pq.d j = some km := by
        rw [← h]
        show Function.update lm1.victim_line_pq.d j (some km) j = _
        rw [Function.update_same]
      have hdx : ∀ x, x ≠ j → lm2.victim_line_pq.d x = lm1.victim_line_pq.d x := by
        intro x hx
        rw [← h]
        show Function.update lm1.victim_line_pq.d j (some km) x = _
        rw [Function.update_noteq hx]
      refine ⟨?_, ⟨π, hfix, hd⟩, ?_⟩
      · rw [← h, e1]; rfl
      · intro k
        by_cases hkk : k = km
        · right
          refine ⟨j, e2, e3, hkk ▸ hdj, ?_⟩
          rw [hl2, hkk, Function.update_same]
          rcases e5 km with hA | ⟨x, -, -, -, hx4⟩
          · rw [hA]
          · rw [hx4]
        · rw [hl2, Function.update_noteq hkk]
          rcases e5 k with hA | ⟨x, hx1, hx2, hx3, hx4⟩
          · left; exact hA
          · right
            refine ⟨x, hx1, Or.inr (by omega), ?_, hx4⟩
            rw [hdx x (by omega)]; exact hx3

theorem percolate_down_loop_total (mp : Nat) :
    ∀ (fuel : Nat) (lm : line_mgmt) (i : Nat),
      (∀ x, 1 ≤ x → x < lm.victim_line_pq.size → ∃ k, lm.victim_line_pq.d x = some k) →
      1 ≤ i → 1 ≤ fuel → lm.victim_line_pq.size < fuel + i →
      ∃ r, percolate_down_loop mp fuel lm i = some r := by
  intro fuel
  induction fuel with
  | zero => intro lm i _ _ h; omega
  | succ fuel ih =>
    intro lm i hf hi _ hfu
    rw [percolate_down_loop]
    have hmc : ∃ c, maxchild lm i = some c := by
      unfold maxchild
      simp only
      split_ifs with h1 h2
      · exact ⟨_, rfl⟩
      · obtain ⟨a, ha⟩ := hf (2 * i) (by omega) (by omega)
        obtain ⟨b, hb⟩ := hf (2 * i + 1) (by omega) h2
        simp only [ha, hb, pq_getpri]
        split_ifs
        · exact ⟨_, rfl⟩
        · exact ⟨_, rfl⟩
      · exact ⟨_, rfl⟩
    obtain ⟨c, hc⟩ := hmc
    simp only [hc]
    by_cases hc0 : c = 0
    · simp [hc0]
    · simp only [ne_eq, hc0, not_false_eq_true, if_true]
      have hci : i < c ∧ c < lm.victim_line_pq.size := by
        rcases maxchild_cases hc with h0 | ⟨h1, h2⟩
        · exact absurd h0 hc0
        · exact ⟨by omega, h2⟩
      obtain ⟨kc, hkc⟩ := hf c (by omega) hci.2
      simp only [hkc, pq_getpri]
      split_ifs with hcmp
      · rw [pq_set_d_eq, pq_setpos_some]
        simp only
        apply ih
        · intro x hx1 hx2
          by_cases hxi : x = i
          · exact ⟨kc, by subst hxi; simp [pq_with]⟩
          · obtain ⟨k, hk⟩ := hf x hx1 hx2
            exact ⟨k, by simp [pq_with, Function.update_noteq hxi, hk]⟩
        · omega
        · have : lm.victim_line_pq.size < fuel + 1 + i := hfu
          omega
        · show lm.victim_line_pq.size < fuel + c
          omega
      · exact ⟨_, rfl⟩

theorem percolate_down_total {lm : line_mgmt} {i : Nat}
    (hf : ∀ x, 1 ≤ x → x < lm.victim_line_pq.size → ∃ k, lm.victim_line_pq.d x = some k)
    (hi : 1 ≤ i) (hd : ∃ k, lm.victim_line_pq.d i = some k) :
    ∃ lm2, percolate_down lm i = some lm2 := by
  obtain ⟨km, hkm⟩ := hd
  unfold percolate_down
  simp only [hkm, pq_getpri]
  obtain ⟨r, hr⟩ := percolate_down_loop_total (lm.victim_line_pq.getpri (lm.lines km))
    (lm.victim_line_pq.size + 2) lm i hf hi (by omega) (by omega)
  simp only [hr]
  obtain ⟨lm1, j⟩ := r
  simp only [pq_set_d_eq, pq_setpos_some]
  exact ⟨_, rfl⟩

theorem bubble_up_loop_spec (mp : Nat) :
    ∀ (fuel : Nat) (lm : line_mgmt) (i : Nat) (r : line_mgmt × Nat),
      line_hooks lm.victim_line_pq →
      bubble_up_loop mp fuel lm i = some r →
      r.1 = pq_with lm r.1.lines r.1.victim_line_pq.d ∧ r.2 ≤ i ∧ (r.2 = i ∨ 1 ≤ r.2) ∧
      (∃ π : Equiv.Perm Nat, (∀ x, ¬(1 ≤ x ∧ x ≤ i) → π x = x) ∧
          ∀ m, Function.update r.1.victim_line_pq.d r.2 m
            = (Function.update lm.victim_line_pq.d i m) ∘ π) ∧
      (∀ k, r.1.lines k = lm.lines k ∨
          ∃ x, r.2 < x ∧ x ≤ i ∧ r.1.victim_line_pq.d x = some k ∧
            r.1.lines k = { lm.lines k with pos := x }) := by
  intro fuel
  induction fuel with
  | zero => intro lm i r _ h; simp [bubble_up_loop] at h
  | succ fuel ih =>
    intro lm i r hk h
    have stop : r = (lm, i) →
        r.1 = pq_with lm r.1.lines r.1.victim_line_pq.d ∧ r.2 ≤ i ∧ (r.2 = i ∨ 1 ≤ r.2) ∧
        (∃ π : Equiv.Perm Nat, (∀ x, ¬(1 ≤ x ∧ x ≤ i) → π x = x) ∧
            ∀ m, Function.update r.1.victim_line_pq.d r.2 m
              = (Function.update lm.victim_line_pq.d i m) ∘ π) ∧
        (∀ k, r.1.lines k = lm.lines k ∨
            ∃ x, r.2 < x ∧ x ≤ i ∧ r.1.victim_line_pq.d x = some k ∧
              r.1.lines k = { lm.lines k with pos := x }) := by
      intro hr
      subst hr
      refine ⟨rfl, le_refl _, Or.inl rfl, ⟨1, fun _ _ => rfl, fun m => rfl⟩, fun k => Or.inl rfl⟩
    rw [bubble_up_loop] at h
    by_cases hi : 1 < i
    · simp only [hi, if_true] at h
      cases hgp : pq_getpri lm (lm.victim_line_pq.d (i / 2)) with
      | none => simp [hgp] at h
      | some pp =>
        simp only [hgp] at h
        by_cases hcmp : lm.victim_line_pq.cmppri pp mp = true
        · simp only [hcmp, if_true] at h
          obtain ⟨kp, hkp, -⟩ := pq_getpri_eq_some hgp
          rw [hkp, pq_set_d_eq, pq_setpos_some] at h
          simp only at h
          have hpi : 1 ≤ i / 2 ∧ i / 2 < i := by omega
          have hsp : lm.victim_line_pq.setpos = victim_line_set_pos := hk.2.2
          have key := fun hh => ih _ (i / 2) r hh h
          obtain ⟨e1, e2, e3, ⟨π2, hfix, hperm⟩, e5⟩ := key hk
          simp only [pq_with] at e1 e3 hfix hperm e5
          refine ⟨?_, by omega, Or.inr (by omega), ⟨Equiv.swap i (i / 2) * π2, ?_, ?_⟩, ?_⟩
          · rw [e1]; rfl
          · intro x hx
            have hx2 : π2 x = x := hfix x (by omega)
            rw [Equiv.Perm.mul_apply, hx2]
            exact Equiv.swap_apply_of_ne_of_ne (by omega) (by omega)
          · intro m
            rw [hperm m, ← hkp, update_update_swap _ _ _ _ (by omega)]
            rfl
          · have hdi : r.1.victim_line_pq.d i = some kp := by
              have := congrFun (hperm none) i
              have hx2 : π2 i = i := hfix i (by omega)
              have hne1 : i ≠ r.2 := by omega
              have hne2 : i ≠ i / 2 := by omega
              rw [Function.comp_apply, hx2, Function.update_noteq hne1,
                Function.update_noteq hne2, Function.update_same] at this
              exact this
            intro k
            rcases e5 k with hA | ⟨x, hx1, hx2, hx3, hx4⟩
            · by_cases hkk : k = kp
              · right
                refine ⟨i, by omega, le_refl _, hkk ▸ hdi, ?_⟩
                rw [hA, hkk, Function.update_same, hsp]; rfl
              · left
                rw [hA, Function.update_noteq hkk]
            · right
              refine ⟨x, hx1, by omega, hx3, ?_⟩
              rw [hx4]
              by_cases hkk : k = kp
              · rw [hkk, Function.update_same, hsp]; rfl
              · rw [Function.update_noteq hkk]
        · simp only [hcmp, Bool.false_eq_true, if_false, Option.some.injEq] at h
          exact stop h.symm
    · simp only [hi, if_false, Option.some.injEq] at h
      exact stop h.symm

theorem bubble_up_spec {lm lm2 : line_mgmt} {i : Nat} (hk : line_hooks lm.victim_line_pq)
    (h : bubble_up lm i = some lm2) :
    lm2 = pq_with lm lm2.lines lm2.victim_line_pq.d ∧
    (∃ π : Equiv.Perm Nat, (∀ x, ¬(1 ≤ x ∧ x ≤ i) → π x = x) ∧
        lm2.victim_line_pq.d = lm.victim_line_pq.d ∘ π) ∧
    (∀ k, lm2.lines k = lm.lines k ∨
        ∃ x, x ≤ i ∧ (x = i ∨ 1 ≤ x) ∧ lm2.victim_line_pq.d x = some k ∧
          lm2.lines k = { lm.lines k with pos := x }) := by
  unfold bubble_up at h
  simp only at h
  cases hgp : pq_getpri lm (lm.victim_line_pq.d i) with
  | none => simp [hgp] at h
  | some mp =>
    simp only [hgp] at h
    cases hl : bubble_up_loop mp (i + 1) lm i with
    | none => simp [hl] at h
    | some r =>
      obtain ⟨lm1, j⟩ := r
      simp only [hl] at h
      obtain ⟨km, hkm, -⟩ := pq_getpri_eq_some hgp
      obtain ⟨e1, e2, e3, ⟨π, hfix, hperm⟩, e5⟩ := bubble_up_loop_spec mp _ lm i _ hk hl
      simp only at e1 e2 e3 hperm e5
      have hsp : lm1.victim_line_pq.setpos = victim_line_set_pos := by rw [e1]; exact hk.2.2
      rw [hkm, pq_set_d_eq, pq_setpos_some] at h
      simp only [Option.some.injEq] at h
      have hd : lm2.victim_line_pq.d = lm.victim_line_pq.d ∘ π := by
        rw [← h]
        show Function.update lm1.victim_line_pq.d j (some km) = _
        rw [hperm (some km), ← hkm, Function.update_eq_self]
      have hl2 : lm2.lines = Function.update lm1.lines km { lm1.lines km with pos := j } := by
        rw [← h]
        show Function.update lm1.lines km (lm1.victim_line_pq.setpos (lm1.lines km) j) = _
        rw [hsp]; rfl
      have hdj : lm2.victim_line_pq.d j = some km := by
        rw [← h]
        show Function.update lm1.victim_line_pq.d j (some km) j = _
        rw [Function.update_same]
      have hdx : ∀ x, x ≠ j → lm2.victim_line_pq.d x = lm1.victim_line_pq.d x := by
        intro x hx
        rw [← h]
        show Function.update lm1.victim_line_pq.d j (some km) x = _
        rw [Function.update_noteq hx]
      refine ⟨?_, ⟨π, hfix, hd⟩, ?_⟩
      · rw [← h, e1]; rfl
      · intro k
        by_cases hkk : k = km
        · right
          refine ⟨j, e2, e3, hkk ▸ hdj, ?_⟩
          rw [hl2, hkk, Function.update_same]
          rcases e5 km with hA | ⟨x, -, -, -, hx4⟩
          · rw [hA]
          · rw [hx4]
        · rw [hl2, Function.update_noteq hkk]
          rcases e5 k with hA | ⟨x, hx1, hx2, hx3, hx4⟩
          · left; exact hA
          · right
            refine ⟨x, hx2, Or.inr (by omega), ?_, hx4⟩
            rw [hdx x (by omega)]; exact hx3

theorem bubble_up_loop_total (mp : Nat) :
    ∀ (fuel : Nat) (lm : line_mgmt) (i : Nat),
      (∀ x, 1 ≤ x → x < i → ∃ k, lm.victim_line_pq.d x = some k) →
      i < fuel → ∃ r, bubble_up_loop mp fuel lm i = some r := by
  intro fuel
  induction fuel with
  | zero => intro lm i _ h; omega
  | succ fuel ih =>
    intro lm i hf hfu
    rw [bubble_up_loop]
    by_cases hi : 1 < i
    · simp only [hi, if_true]
      obtain ⟨kp, hkp⟩ := hf (i / 2) (by omega) (by omega)
      simp only [hkp, pq_getpri]
      split_ifs with hcmp
      · rw [pq_set_d_eq, pq_setpos_some]
        simp only
        apply ih
        · intro x hx1 hx2
          have hxi : x ≠ i := by omega
          obtain ⟨k, hk⟩ := hf x hx1 (by omega)
          exact ⟨k, by simp [pq_with, Function.update_noteq hxi, hk]⟩
        · omega
      · exact ⟨_, rfl⟩
    · simp only [hi, if_false]
      exact ⟨_, rfl⟩

theorem bubble_up_total {lm : line_mgmt} {i : Nat}
    (hf : ∀ x, 1 ≤ x → x < i → ∃ k, lm.victim_line_pq.d x = some k)
    (hd : ∃ k, lm.victim_line_pq.d i = some k) :
    ∃ lm2, bubble_up lm i = some lm2 := by
  obtain ⟨km, hkm⟩ := hd
  unfold bubble_up
  simp only [hkm, pq_getpri]
  obtain ⟨r, hr⟩ := bubble_up_loop_total (lm.victim_line_pq.getpri (lm.lines km))
    (i + 1) lm i hf (by omega)
  simp only [hr]
  obtain ⟨lm1, j⟩ := r
  simp only [pq_set_d_eq, pq_setpos_some]
  exact ⟨_, rfl⟩

theorem perm_fix_range {π : Equiv.Perm Nat} {P : Nat → Prop} (hfix : ∀ x, ¬ P x → π x = x)
    (x : Nat) : P (π x) ↔ P x := by
  by_cases hx : P x
  · refine ⟨fun _ => hx, fun _ => ?_⟩
    by_contra hn
    have h1 : π (π x) = π x := hfix _ hn
    have h2 : π x = x := π.injective h1
    rw [h2] at hn
    exact hn hx
  · rw [hfix x hx]

theorem exists_comp_perm {α : Type} (f : Nat → α) {π : Equiv.Perm Nat} {P : Nat → Prop}
    (hfix : ∀ x, ¬ P x → π x = x) (v : α) :
    (∃ x, P x ∧ (f ∘ π) x = v) ↔ (∃ y, P y ∧ f y = v) := by
  constructor
  · rintro ⟨x, hx, hv⟩
    exact ⟨π x, (perm_fix_range hfix x).2 hx, hv⟩
  · rintro ⟨y, hy, hv⟩
    refine ⟨π.symm y, ?_, ?_⟩
    · have := perm_fix_range hfix (π.symm y)
      rw [Equiv.apply_symm_apply] at this
      exact this.1 hy
    · simp [Function.comp, hv]

theorem same_but_pos_of_cases {l l2 : Nat → line}
    (h : ∀ k, l2 k = l k ∨ ∃ x, l2 k = { l k with pos := x }) :
    same_but_pos l l2 := by
  intro k
  rcases h k with hA | ⟨x, hx⟩
  · rw [hA]
  · rw [hx]

theorem same_but_pos_update_pos (l : Nat → line) (v x : Nat) :
    same_but_pos l (Function.update l v { l v with pos := x }) := by
  intro k
  by_cases hkv : k = v
  · subst hkv
    simp
  · simp [Function.update_noteq hkv]

theorem same_but_pos_refl (l : Nat → line) : same_but_pos l l := fun _ => rfl

theorem same_but_pos_trans {l l2 l3 : Nat → line} (h1 : same_but_pos l l2)
    (h2 : same_but_pos l2 l3) : same_but_pos l l3 := by
  intro k
  rw [h2 k, h1 k]

theorem same_but_pos_fields {l l2 : Nat → line} (h : same_but_pos l l2) (k : Nat) :
    (l2 k).id = (l k).id ∧ (l2 k).ipc = (l k).ipc ∧ (l2 k).vpc = (l k).vpc ∧
      (l2 k).last_modified_time = (l k).last_modified_time := by
  rw [h k]
  exact ⟨rfl, rfl, rfl, rfl⟩

theorem pqueue_pop_spec {lm lm2 : line_mgmt} {v : Option Nat}
    (hk : line_hooks lm.victim_line_pq) (hs : lm.victim_line_pq.size ≠ 1)
    (h : pqueue_pop lm = some (lm2, v)) :
    v = lm.victim_line_pq.d 1 ∧
    lm2 = pq_with (pq_set_size lm (dec_u64 lm.victim_line_pq.size)) lm2.lines
      lm2.victim_line_pq.d ∧
    (∃ π : Equiv.Perm Nat,
        (∀ x, ¬(1 ≤ x ∧ x < dec_u64 lm.victim_line_pq.size) → π x = x) ∧
        lm2.victim_line_pq.d = (Function.update lm.victim_line_pq.d 1
          (lm.victim_line_pq.d (dec_u64 lm.victim_line_pq.size))) ∘ π) ∧
    (∀ k, lm2.lines k = lm.lines k ∨
        ∃ x, 1 ≤ x ∧ (x = 1 ∨ x < dec_u64 lm.victim_line_pq.size) ∧
          lm2.victim_line_pq.d x = some k ∧ lm2.lines k = { lm.lines k with pos := x }) := by
  unfold pqueue_pop at h
  simp only [hs, if_false] at h
  cases hp : percolate_down (pq_set_d (pq_set_size lm (dec_u64 lm.victim_line_pq.size)) 1
      (lm.victim_line_pq.d (dec_u64 lm.victim_line_pq.size))) 1 with
  | none => simp [hp] at h
  | some lm1 =>
    simp only [hp, Option.some.injEq, Prod.mk.injEq] at h
    obtain ⟨h1, h2⟩ := h
    subst h1
    obtain ⟨e1, e2, e3⟩ := @percolate_down_spec (pq_set_d (pq_set_size lm
      (dec_u64 lm.victim_line_pq.size)) 1 (lm.victim_line_pq.d (dec_u64 lm.victim_line_pq.size)))
      _ _ hk hp
    exact ⟨h2.symm, e1, e2, e3⟩

theorem pqueue_pop_total {lm : line_mgmt} (hf : pq_filled lm)
    (hs : 2 ≤ lm.victim_line_pq.size) : ∃ r, pqueue_pop lm = some r := by
  unfold pqueue_pop
  have hs1 : lm.victim_line_pq.size ≠ 1 := by omega
  have hdec : dec_u64 lm.victim_line_pq.size = lm.victim_line_pq.size - 1 := by
    unfold dec_u64; rw [if_neg (by omega)]
  simp only [hs1, if_false]
  obtain ⟨kl, hkl⟩ := hf (lm.victim_line_pq.size - 1) (by omega) (by omega)
  obtain ⟨lm2, h2⟩ := @percolate_down_total (pq_set_d (pq_set_size lm
      (dec_u64 lm.victim_line_pq.size)) 1 (lm.victim_line_pq.d (dec_u64 lm.victim_line_pq.size)))
      1
    (by
      intro x hx1 hx2
      have hx2 : x < dec_u64 lm.victim_line_pq.size := hx2
      by_cases hx : x = 1
      · subst hx
        exact ⟨kl, by simp [pq_set_d, pq_set_size, hdec, hkl]⟩
      · obtain ⟨k, hk⟩ := hf x hx1 (by omega)
        exact ⟨k, by simp [pq_set_d, pq_set_size, Function.update_noteq hx, hk]⟩)
    (le_refl _)
    ⟨kl, by simp [pq_set_d, pq_set_size, hdec, hkl]⟩
  simp only [h2]
  exact ⟨_, rfl⟩

theorem pq_handles_filled {lm : line_mgmt} (h : pq_handles lm) : pq_filled lm := by
  intro i h1 h2
  obtain ⟨k, hk, -⟩ := h i h1 h2
  exact ⟨k, hk⟩

theorem pq_handles_inj {lm : line_mgmt} (h : pq_handles lm) {i j k : Nat}
    (hi : 1 ≤ i ∧ i < lm.victim_line_pq.size) (hj : 1 ≤ j ∧ j < lm.victim_line_pq.size)
    (hdi : lm.victim_line_pq.d i = some k) (hdj : lm.victim_line_pq.d j = some k) : i = j := by
  obtain ⟨k1, hk1, hp1⟩ := h i hi.1 hi.2
  obtain ⟨k2, hk2, hp2⟩ := h j hj.1 hj.2
  rw [hdi] at hk1
  rw [hdj] at hk2
  simp only [Option.some.injEq] at hk1 hk2
  subst hk1
  rw [← hk2] at hp2
  omega

theorem pq_valid_root_le {lm : line_mgmt} (hv : pq_valid lm) (hf : pq_filled lm) {v : Nat}
    (h1 : lm.victim_line_pq.d 1 = some v) :
    ∀ i k, 1 ≤ i → i < lm.victim_line_pq.size → lm.victim_line_pq.d i = some k →
      lm.victim_line_pq.getpri (lm.lines v) ≤ lm.victim_line_pq.getpri (lm.lines k) := by
  intro i
  induction i using Nat.strong_induction_on with
  | _ i ih =>
    intro k hi1 hi2 hd
    by_cases hi : i = 1
    · subst hi
      rw [h1] at hd
      simp only [Option.some.injEq] at hd
      subst hd
      exact le_refl _
    · obtain ⟨a, ha⟩ := hf (i / 2) (by omega) (by omega)
      have h2 := hv i a k (by omega) hi2 ha hd
      have h3 := ih (i / 2) (by omega) a (by omega) (by omega) ha
      omega

theorem pqueue_pop_member {lm lm2 : line_mgmt} {v : Nat} {vo : Option Nat}
    (hk : line_hooks lm.victim_line_pq) (hh : pq_handles lm)
    (hs : 2 ≤ lm.victim_line_pq.size) (h1 : lm.victim_line_pq.d 1 = some v)
    (h : pqueue_pop lm = some (lm2, vo)) (k : Nat) :
    pq_member lm2 k ↔ (pq_member lm k ∧ k ≠ v) := by
  have hs1 : lm.victim_line_pq.size ≠ 1 := by omega
  obtain ⟨_e0, e1, ⟨π, hfix, hd⟩, _e3⟩ := pqueue_pop_spec hk hs1 h
  have hdec : dec_u64 lm.victim_line_pq.size = lm.victim_line_pq.size - 1 := by
    unfold dec_u64; rw [if_neg (by omega)]
  rw [hdec] at hfix hd e1
  have hsz : lm2.victim_line_pq.size = lm.victim_line_pq.size - 1 := by rw [e1]; rfl
  have key := exists_comp_perm (Function.update lm.victim_line_pq.d 1
      (lm.victim_line_pq.d (lm.victim_line_pq.size - 1))) hfix (some k)
  have hm : pq_member lm2 k ↔ ∃ x, (1 ≤ x ∧ x < lm.victim_line_pq.size - 1) ∧
      ((Function.update lm.victim_line_pq.d 1
        (lm.victim_line_pq.d (lm.victim_line_pq.size - 1))) ∘ π) x = some k := by
    unfold pq_member
    rw [hsz, hd]
    constructor
    · rintro ⟨i, a, b, c⟩; exact ⟨i, ⟨a, b⟩, c⟩
    · rintro ⟨i, ⟨a, b⟩, c⟩; exact ⟨i, a, b, c⟩
  rw [hm, key]
  clear hm key
  constructor
  · rintro ⟨y, ⟨hy1, hy2⟩, hy⟩
    by_cases hy0 : y = 1
    · subst hy0
      rw [Function.update_same] at hy
      refine ⟨⟨_, by omega, by omega, hy⟩, ?_⟩
      intro hkv
      subst hkv
      have hlt : 1 < lm.victim_line_pq.size := by omega
      have hlt2 : lm.victim_line_pq.size - 1 < lm.victim_line_pq.size := by omega
      have hge : 1 ≤ lm.victim_line_pq.size - 1 := by omega
      have := pq_handles_inj hh (i := 1) (j := lm.victim_line_pq.size - 1) ⟨le_refl _, hlt⟩
        ⟨hge, hlt2⟩ h1 hy
      omega
    · rw [Function.update_noteq hy0] at hy
      refine ⟨⟨y, hy1, by omega, hy⟩, ?_⟩
      intro hkv
      subst hkv
      have hlt : 1 < lm.victim_line_pq.size := by omega
      have hlt2 : y < lm.victim_line_pq.size := by omega
      have := pq_handles_inj hh (i := 1) (j := y) ⟨le_refl _, hlt⟩ ⟨hy1, hlt2⟩ h1 hy
      omega
  · rintro ⟨⟨i, hi1, hi2, hi⟩, hkv⟩
    have hi0 : i ≠ 1 := by
      intro h0
      subst h0
      rw [h1] at hi
      simp only [Option.some.injEq] at hi
      exact hkv hi.symm
    by_cases hil : i = lm.victim_line_pq.size - 1
    · refine ⟨1, ⟨le_refl _, by omega⟩, ?_⟩
      rw [Function.update_same, ← hil]
      exact hi
    · refine ⟨i, ⟨hi1, by omega⟩, ?_⟩
      rw [Function.update_noteq hi0]
      exact hi

/-- C8: `select_victim_greedy` on a valid min-heap (hooks of the Greedy mode, positional
handles, `victim_line_cnt` equal to the heap size). On an empty heap, and with
`force = false` and a root with `vpc > pgs_per_line / 8`, it returns `NULL` and the state
is unchanged. Otherwise it returns the root `v`: no member has a smaller `vpc`, the members
afterwards are the former members other than `v`, `v.pos = 0`, `victim_line_cnt` and the
heap size went down by one and only the manager and the statistics changed. In particular,
when every member has `vpc > pgs_per_line / 8` it returns `NULL` under `force = false` and
a minimum-`vpc` member under `force = true`. -/
theorem select_victim_greedy_spec (s : conv_ftl) (now : Nat)
    (hk : greedy_hooks s.lm.victim_line_pq) (hsz : 1 ≤ s.lm.victim_line_pq.size)
    (hh : pq_handles s.lm) (hv : pq_valid s.lm)
    (hc : s.lm.victim_line_cnt = pqueue_size s.lm.victim_line_pq) :
    (pqueue_size s.lm.victim_line_pq = 0 →
      ∀ force, select_victim_greedy s now force = some (s, none)) ∧
    (pqueue_size s.lm.victim_line_pq ≠ 0 →
      ∃ v, s.lm.victim_line_pq.d 1 = some v ∧ pq_member s.lm v ∧
        (∀ k, pq_member s.lm k → (s.lm.lines v).vpc ≤ (s.lm.lines k).vpc) ∧
        (s.ssd.sp.pgs_per_line / 8 < (s.lm.lines v).vpc →
          select_victim_greedy s now false = some (s, none)) ∧
        (∀ force, force = true ∨ (s.lm.lines v).vpc ≤ s.ssd.sp.pgs_per_line / 8 →
          ∃ s2, select_victim_greedy s now force = some (s2, some v) ∧
            (∀ k, pq_member s2.lm k ↔ (pq_member s.lm k ∧ k ≠ v)) ∧
            (s2.lm.lines v).pos = 0 ∧
            s2.lm.victim_line_cnt + 1 = s.lm.victim_line_cnt ∧
            pqueue_size s2.lm.victim_line_pq + 1 = pqueue_size s.lm.victim_line_pq ∧
            same_but_pos s.lm.lines s2.lm.lines ∧
            s2 = { s with lm := s2.lm, glob := s2.glob })) ∧
    ((∀ k, pq_member s.lm k → s.ssd.sp.pgs_per_line / 8 < (s.lm.lines k).vpc) →
      pqueue_size s.lm.victim_line_pq ≠ 0 →
      select_victim_greedy s now false = some (s, none) ∧
      ∃ s2 v, select_victim_greedy s now true = some (s2, some v) ∧ pq_member s.lm v ∧
        ∀ k, pq_member s.lm k → (s.lm.lines v).vpc ≤ (s.lm.lines k).vpc) := by
  have hf := pq_handles_filled hh
  have part1 : pqueue_size s.lm.victim_line_pq = 0 →
      ∀ force, select_victim_greedy s now force = some (s, none) := by
    intro h0 force
    have : s.lm.victim_line_pq.size = 1 := by unfold pqueue_size at h0; omega
    simp [select_victim_greedy, pqueue_peek, this]
  have part2 : pqueue_size s.lm.victim_line_pq ≠ 0 →
      ∃ v, s.lm.victim_line_pq.d 1 = some v ∧ pq_member s.lm v ∧
        (∀ k, pq_member s.lm k → (s.lm.lines v).vpc ≤ (s.lm.lines k).vpc) ∧
        (s.ssd.sp.pgs_per_line / 8 < (s.lm.lines v).vpc →
          select_victim_greedy s now false = some (s, none)) ∧
        (∀ force, force = true ∨ (s.lm.lines v).vpc ≤ s.ssd.sp.pgs_per_line / 8 →
          ∃ s2, select_victim_greedy s now force = some (s2, some v) ∧
            (∀ k, pq_member s2.lm k ↔ (pq_member s.lm k ∧ k ≠ v)) ∧
            (s2.lm.lines v).pos = 0 ∧
            s2.lm.victim_line_cnt + 1 = s.lm.victim_line_cnt ∧
            pqueue_size s2.lm.victim_line_pq + 1 = pqueue_size s.lm.victim_line_pq ∧
            same_but_pos s.lm.lines s2.lm.lines ∧
            s2 = { s with lm := s2.lm, glob := s2.glob }) := by
    intro hne
    have hs2 : 2 ≤ s.lm.victim_line_pq.size := by unfold pqueue_size at hne; omega
    have hs1 : s.lm.victim_line_pq.size ≠ 1 := by omega
    obtain ⟨v, hv1⟩ := hf 1 (le_refl _) (by omega)
    have hpeek : pqueue_peek s.lm = some v := by simp [pqueue_peek, hs1, hv1]
    have hmin : ∀ k, pq_member s.lm k → (s.lm.lines v).vpc ≤ (s.lm.lines k).vpc := by
      rintro k ⟨i, hi1, hi2, hi⟩
      have := pq_valid_root_le hv hf hv1 i k hi1 hi2 hi
      rw [hk.2.2] at this
      exact this
    refine ⟨v, hv1, ⟨1, le_refl _, by omega, hv1⟩, hmin, ?_, ?_⟩
    · intro hthr
      simp [select_victim_greedy, hpeek, hthr]
    · intro force hforce
      obtain ⟨⟨lm1, vo⟩, hpop⟩ := pqueue_pop_total hf hs2
      have hcond : (!force && decide (s.ssd.sp.pgs_per_line / 8 < (s.lm.lines v).vpc)) = false := by
        rcases hforce with hF | hF
        · simp [hF]
        · have : ¬ s.ssd.sp.pgs_per_line / 8 < (s.lm.lines v).vpc := by omega
          simp [this]
      obtain ⟨-, e1, -, e3⟩ := pqueue_pop_spec hk.1 hs1 hpop
      have hdec : dec_u64 s.lm.victim_line_pq.size = s.lm.victim_line_pq.size - 1 := by
        unfold dec_u64; rw [if_neg (by omega)]
      have hsz1 : lm1.victim_line_pq.size = s.lm.victim_line_pq.size - 1 := by
        rw [e1, hdec]; rfl
      have hcnt1 : lm1.victim_line_cnt = s.lm.victim_line_cnt := by rw [e1]; rfl
      refine ⟨_, by simp only [select_victim_greedy, hpeek, hcond, hpop]; rfl, ?_, ?_, ?_, ?_,
        ?_, rfl⟩
      · intro k
        exact pqueue_pop_member hk.1 hh hs2 hv1 hpop k
      · simp [clear_pos]
      · show dec_u32 lm1.victim_line_cnt + 1 = s.lm.victim_line_cnt
        rw [hcnt1, hc]
        unfold dec_u32 pqueue_size
        rw [if_neg (by omega)]
        omega
      · show pqueue_size lm1.victim_line_pq + 1 = pqueue_size s.lm.victim_line_pq
        unfold pqueue_size
        omega
      · exact same_but_pos_trans
          (same_but_pos_of_cases (fun j => (e3 j).imp id (fun ⟨x, _, _, _, hx⟩ => ⟨x, hx⟩)))
          (same_but_pos_update_pos _ _ _)
  refine ⟨part1, part2, ?_⟩
  intro hall hne
  obtain ⟨v, hv1, hmem, hmin, hno, hyes⟩ := part2 hne
  refine ⟨hno (hall v hmem), ?_⟩
  obtain ⟨s2, hs2, -⟩ := hyes true (Or.inl rfl)
  exact ⟨s2, v, hs2, hmem, hmin⟩

theorem pqueue_remove_spec {lm lm2 : line_mgmt} {k rc : Nat}
    (hk : line_hooks lm.victim_line_pq)
    (h : pqueue_remove lm (some k) = some (lm2, rc)) :
    rc = 0 ∧
    lm2 = pq_with (pq_set_size lm (dec_u64 lm.victim_line_pq.size)) lm2.lines
      lm2.victim_line_pq.d ∧
    (∃ (π : Equiv.Perm Nat) (b : Nat),
        pq_getpri lm (Function.update lm.victim_line_pq.d (lm.lines k).pos
          (lm.victim_line_pq.d (dec_u64 lm.victim_line_pq.size)) (lm.lines k).pos) = some b ∧
        lm2.victim_line_pq.d = (Function.update lm.victim_line_pq.d (lm.lines k).pos
          (lm.victim_line_pq.d (dec_u64 lm.victim_line_pq.size))) ∘ π ∧
        (lm.victim_line_pq.cmppri (lm.victim_line_pq.getpri (lm.lines k)) b = true →
          ∀ x, ¬(1 ≤ x ∧ x ≤ (lm.lines k).pos) → π x = x) ∧
        (lm.victim_line_pq.cmppri (lm.victim_line_pq.getpri (lm.lines k)) b = false →
          ∀ x, ¬((lm.lines k).pos ≤ x ∧ x < dec_u64 lm.victim_line_pq.size) → π x = x)) ∧
    (∀ j, lm2.lines j = lm.lines j ∨ ∃ x, lm2.lines j = { lm.lines j with pos := x }) := by
  unfold pqueue_remove at h
  simp only at h
  have hgp : lm.victim_line_pq.getpos = victim_line_get_pos := hk.2.1
  rw [hgp] at h
  simp only [victim_line_get_pos] at h
  cases hb : pq_getpri (pq_set_d (pq_set_size lm (dec_u64 lm.victim_line_pq.size))
      (lm.lines k).pos (lm.victim_line_pq.d (dec_u64 lm.victim_line_pq.size)))
      ((pq_set_d (pq_set_size lm (dec_u64 lm.victim_line_pq.size)) (lm.lines k).pos
        (lm.victim_line_pq.d (dec_u64 lm.victim_line_pq.size))).victim_line_pq.d
          (lm.lines k).pos) with
  | none => simp [hb] at h
  | some b =>
    simp only [hb] at h
    have hb2 : pq_getpri lm (Function.update lm.victim_line_pq.d (lm.lines k).pos
          (lm.victim_line_pq.d (dec_u64 lm.victim_line_pq.size)) (lm.lines k).pos) = some b := hb
    by_cases hc : lm.victim_line_pq.cmppri (lm.victim_line_pq.getpri (lm.lines k)) b = true
    · have hc2 : (pq_set_d (pq_set_size lm (dec_u64 lm.victim_line_pq.size)) (lm.lines k).pos
          (lm.victim_line_pq.d (dec_u64 lm.victim_line_pq.size))).victim_line_pq.cmppri
          ((pq_set_d (pq_set_size lm (dec_u64 lm.victim_line_pq.size)) (lm.lines k).pos
          (lm.victim_line_pq.d (dec_u64 lm.victim_line_pq.size))).victim_line_pq.getpri
          ((pq_set_d (pq_set_size lm (dec_u64 lm.victim_line_pq.size)) (lm.lines k).pos
          (lm.victim_line_pq.d (dec_u64 lm.victim_line_pq.size))).lines k)) b = true := hc
      simp only [hc2, if_true] at h
      cases hbu : bubble_up (pq_set_d (pq_set_size lm (dec_u64 lm.victim_line_pq.size))
          (lm.lines k).pos (lm.victim_line_pq.d (dec_u64 lm.victim_line_pq.size)))
          (lm.lines k).pos with
      | none => simp [hbu] at h
      | some lm3 =>
        simp only [hbu, Option.some.injEq, Prod.mk.injEq] at h
        obtain ⟨h1, h2⟩ := h
        subst h1
        obtain ⟨e1, ⟨π, hfix, hd⟩, e3⟩ := @bubble_up_spec (pq_set_d (pq_set_size lm
          (dec_u64 lm.victim_line_pq.size)) (lm.lines k).pos
          (lm.victim_line_pq.d (dec_u64 lm.victim_line_pq.size))) _ _ hk hbu
        refine ⟨h2.symm, e1, ⟨π, b, hb2, hd, fun _ => hfix, fun hf => ?_⟩, ?_⟩
        · rw [hc] at hf; exact absurd hf (by simp)
        · intro j
          exact (e3 j).imp id (fun ⟨x, _, _, _, hx⟩ => ⟨x, hx⟩)
    · have hc2 : (pq_set_d (pq_set_size lm (dec_u64 lm.victim_line_pq.size)) (lm.lines k).pos
          (lm.victim_line_pq.d (dec_u64 lm.victim_line_pq.size))).victim_line_pq.cmppri
          ((pq_set_d (pq_set_size lm (dec_u64 lm.victim_line_pq.size)) (lm.lines k).pos
          (lm.victim_line_pq.d (dec_u64 lm.victim_line_pq.size))).victim_line_pq.getpri
          ((pq_set_d (pq_set_size lm (dec_u64 lm.victim_line_pq.size)) (lm.lines k).pos
          (lm.victim_line_pq.d (dec_u64 lm.victim_line_pq.size))).lines k)) b = false := by
        simpa using hc
      simp only [hc2, Bool.false_eq_true, if_false] at h
      cases hpd : percolate_down (pq_set_d (pq_set_size lm (dec_u64 lm.victim_line_pq.size))
          (lm.lines k).pos (lm.victim_line_pq.d (dec_u64 lm.victim_line_pq.size)))
          (lm.lines k).pos with
      | none => simp [hpd] at h
      | some lm3 =>
        simp only [hpd, Option.some.injEq, Prod.mk.injEq] at h
        obtain ⟨h1, h2⟩ := h
        subst h1
        obtain ⟨e1, ⟨π, hfix, hd⟩, e3⟩ := @percolate_down_spec (pq_set_d (pq_set_size lm
          (dec_u64 lm.victim_line_pq.size)) (lm.lines k).pos
          (lm.victim_line_pq.d (dec_u64 lm.victim_line_pq.size))) _ _ hk hpd
        refine ⟨h2.symm, e1, ⟨π, b, hb2, hd, fun hf => ?_, fun _ => hfix⟩, ?_⟩
        · exact absurd hf hc
        · intro j
          exact (e3 j).imp id (fun ⟨x, _, _, _, hx⟩ => ⟨x, hx⟩)

/-- After `pqueue_remove` of a member `k`, for a comparator that never prefers an item to
itself, the members are the former members other than `k`. -/
theorem pqueue_remove_member {lm lm2 : line_mgmt} {k rc : Nat}
    (hk : line_hooks lm.victim_line_pq) (hh : pq_handles lm)
    (hirr : ∀ a, lm.victim_line_pq.cmppri a a = false)
    (hm : pq_member lm k)
    (h : pqueue_remove lm (some k) = some (lm2, rc)) (j : Nat) :
    pq_member lm2 j ↔ (pq_member lm j ∧ j ≠ k) := by
  obtain ⟨p, hp1, hp2, hp3⟩ := hm
  obtain ⟨k2, hk2, hpos⟩ := hh p hp1 hp2
  rw [hp3] at hk2
  simp only [Option.some.injEq] at hk2
  subst hk2
  have hs2 : 2 ≤ lm.victim_line_pq.size := by omega
  have hdec : dec_u64 lm.victim_line_pq.size = lm.victim_line_pq.size - 1 := by
    unfold dec_u64; rw [if_neg (by omega)]
  obtain ⟨_e0, e1, ⟨π, b, hb, hd, hup, hdown⟩, _e3⟩ := pqueue_remove_spec hk h
  rw [hdec, hpos] at hb hd
  rw [hdec] at e1 hdown
  rw [hpos] at hup hdown
  have hsz : lm2.victim_line_pq.size = lm.victim_line_pq.size - 1 := by rw [e1]; rfl
  have hfix : ∀ x, ¬(1 ≤ x ∧ x < lm.victim_line_pq.size - 1) → π x = x := by
    by_cases hpl : p = lm.victim_line_pq.size - 1
    · have hdl : lm.victim_line_pq.d (lm.victim_line_pq.size - 1) = some k := by
        rw [← hpl]; exact hp3
      have hbv : b = lm.victim_line_pq.getpri (lm.lines k) := by
        rw [Function.update_same, hdl] at hb
        simpa [pq_getpri] using hb.symm
      have hfalse : lm.victim_line_pq.cmppri (lm.victim_line_pq.getpri (lm.lines k)) b
          = false := by rw [hbv]; exact hirr _
      intro x _
      exact hdown hfalse x (by omega)
    · cases hc : lm.victim_line_pq.cmppri (lm.victim_line_pq.getpri (lm.lines k)) b with
      | true => intro x hx; exact hup hc x (by omega)
      | false => intro x hx; exact hdown hc x (by omega)
  have key := exists_comp_perm (Function.update lm.victim_line_pq.d p
      (lm.victim_line_pq.d (lm.victim_line_pq.size - 1))) hfix (some j)
  have hmm : pq_member lm2 j ↔ ∃ x, (1 ≤ x ∧ x < lm.victim_line_pq.size - 1) ∧
      ((Function.update lm.victim_line_pq.d p
        (lm.victim_line_pq.d (lm.victim_line_pq.size - 1))) ∘ π) x = some j := by
    unfold pq_member
    rw [hsz, hd]
    constructor
    · rintro ⟨i, a, b, c⟩; exact ⟨i, ⟨a, b⟩, c⟩
    · rintro ⟨i, ⟨a, b⟩, c⟩; exact ⟨i, a, b, c⟩
  rw [hmm, key]
  clear hmm key
  constructor
  · rintro ⟨y, ⟨hy1, hy2⟩, hy⟩
    by_cases hy0 : y = p
    · subst hy0
      rw [Function.update_same] at hy
      have hlt2 : lm.victim_line_pq.size - 1 < lm.victim_line_pq.size := by omega
      have hge : 1 ≤ lm.victim_line_pq.size - 1 := by omega
      refine ⟨⟨_, hge, hlt2, hy⟩, ?_⟩
      intro hkv
      subst hkv
      have := pq_handles_inj hh (i := y) (j := lm.victim_line_pq.size - 1) ⟨hp1, hp2⟩
        ⟨hge, hlt2⟩ hp3 hy
      omega
    · rw [Function.update_noteq hy0] at hy
      have hlt2 : y < lm.victim_line_pq.size := by omega
      refine ⟨⟨y, hy1, hlt2, hy⟩, ?_⟩
      intro hkv
      subst hkv
      have := pq_handles_inj hh (i := p) (j := y) ⟨hp1, hp2⟩ ⟨hy1, hlt2⟩ hp3 hy
      omega
  · rintro ⟨⟨i, hi1, hi2, hi⟩, hkv⟩
    have hi0 : i ≠ p := by
      intro h0
      subst h0
      rw [hp3] at hi
      simp only [Option.some.injEq] at hi
      exact hkv hi.symm
    by_cases hil : i = lm.victim_line_pq.size - 1
    · refine ⟨p, ⟨hp1, by omega⟩, ?_⟩
      rw [Function.update_same, ← hil]
      exact hi
    · refine ⟨i, ⟨hi1, by omega⟩, ?_⟩
      rw [Function.update_noteq hi0]
      exact hi

theorem pqueue_remove_total {lm : line_mgmt} {k : Nat}
    (hk : line_hooks lm.victim_line_pq) (hh : pq_handles lm)
    (hcmp : ∀ a b, lm.victim_line_pq.cmppri a b = false) (hm : pq_member lm k) :
    ∃ r, pqueue_remove lm (some k) = some r := by
  obtain ⟨p, hp1, hp2, hp3⟩ := hm
  obtain ⟨k2, hk2, hpos⟩ := hh p hp1 hp2
  rw [hp3] at hk2
  simp only [Option.some.injEq] at hk2
  subst hk2
  have hf := pq_handles_filled hh
  have hdec : dec_u64 lm.victim_line_pq.size = lm.victim_line_pq.size - 1 := by
    unfold dec_u64; rw [if_neg (by omega)]
  obtain ⟨kl, hkl⟩ := hf (lm.victim_line_pq.size - 1) (by omega) (by omega)
  unfold pqueue_remove
  simp only
  rw [hk.2.1]
  simp only [victim_line_get_pos, hpos, hdec]
  have hd1 : (pq_set_d (pq_set_size lm (lm.victim_line_pq.size - 1)) p
      (lm.victim_line_pq.d (lm.victim_line_pq.size - 1))).victim_line_pq.d p = some kl := by
    simp [pq_set_d, pq_set_size, hkl]
  rw [hd1]
  simp only [pq_getpri]
  have hc : (pq_set_d (pq_set_size lm (lm.victim_line_pq.size - 1)) p
      (lm.victim_line_pq.d (lm.victim_line_pq.size - 1))).victim_line_pq.cmppri =
      lm.victim_line_pq.cmppri := rfl
  rw [hc, hcmp]
  simp only [Bool.false_eq_true, if_false]
  obtain ⟨lm3, h3⟩ := @percolate_down_total (pq_set_d (pq_set_size lm
      (lm.victim_line_pq.size - 1)) p (lm.victim_line_pq.d (lm.victim_line_pq.size - 1)))
      p
    (by
      intro x hx1 hx2
      have hx2 : x < lm.victim_line_pq.size - 1 := hx2
      by_cases hx : x = p
      · subst hx
        exact ⟨kl, hd1⟩
      · obtain ⟨k3, hk3⟩ := hf x hx1 (by omega)
        exact ⟨k3, by simp [pq_set_d, pq_set_size, Function.update_noteq hx, hk3]⟩)
    hp1 ⟨kl, hd1⟩
  rw [h3]
  exact ⟨_, rfl⟩

/-- The scan of `select_victim_cb` over the array indices `1 .. n`. -/
theorem select_victim_cb_scan_spec (lm : line_mgmt) (now : Nat) :
    ∀ n : Nat,
      (∀ j k, 1 ≤ j → j ≤ n → lm.victim_line_pq.d j = some k →
        cb_score now (lm.lines k) ≤ ((List.range' 1 n).foldl (select_victim_cb_step lm now)
          { best_victim := none, max_score := 0, victim_age := 0 }).max_score) ∧
      (((List.range' 1 n).foldl (select_victim_cb_step lm now)
          { best_victim := none, max_score := 0, victim_age := 0 }).best_victim = none →
        ((List.range' 1 n).foldl (select_victim_cb_step lm now)
          { best_victim := none, max_score := 0, victim_age := 0 }).max_score = 0) ∧
      (∀ b, ((List.range' 1 n).foldl (select_victim_cb_step lm now)
          { best_victim := none, max_score := 0, victim_age := 0 }).best_victim = some b →
        ∃ i, 1 ≤ i ∧ i ≤ n ∧ lm.victim_line_pq.d i = some b ∧
          0 < cb_score now (lm.lines b) ∧
          cb_score now (lm.lines b) = ((List.range' 1 n).foldl (select_victim_cb_step lm now)
            { best_victim := none, max_score := 0, victim_age := 0 }).max_score ∧
          ∀ j k, 1 ≤ j → j < i → lm.victim_line_pq.d j = some k →
            cb_score now (lm.lines k) < cb_score now (lm.lines b)) := by
  intro n
  induction n with
  | zero =>
    refine ⟨?_, ?_, ?_⟩
    · intro j k h1 h2; omega
    · intro _; rfl
    · intro b hb; simp at hb
  | succ n ih =>
    rw [List.range'_1_concat, List.foldl_append]
    simp only [List.foldl_cons, List.foldl_nil]
    generalize (List.range' 1 n).foldl (select_victim_cb_step lm now)
      { best_victim := none, max_score := 0, victim_age := 0 } = acc at ih ⊢
    obtain ⟨ih1, ih2, ih3⟩ := ih
    unfold select_victim_cb_step
    cases hd : lm.victim_line_pq.d (1 + n) with
    | none =>
      simp only
      refine ⟨?_, ih2, ?_⟩
      · intro j k h1 h2 hj
        by_cases hjn : j = 1 + n
        · rw [hjn, hd] at hj; simp at hj
        · exact ih1 j k h1 (by omega) hj
      · intro b hb
        obtain ⟨i, hi1, hi2, hi3⟩ := ih3 b hb
        exact ⟨i, hi1, by omega, hi3⟩
    | some c =>
      simp only
      by_cases hlt : acc.max_score < cb_score now (lm.lines c)
      · simp only [hlt, if_true]
        refine ⟨?_, ?_, ?_⟩
        · intro j k h1 h2 hj
          by_cases hjn : j = 1 + n
          · rw [hjn, hd] at hj
            simp only [Option.some.injEq] at hj
            rw [hj]
          · have := ih1 j k h1 (by omega) hj
            omega
        · intro h; simp at h
        · intro b hb
          simp only [Option.some.injEq] at hb
          subst hb
          refine ⟨1 + n, by omega, by omega, hd, by omega, rfl, ?_⟩
          intro j k h1 h2 hj
          have := ih1 j k h1 (by omega) hj
          omega
      · simp only [hlt, if_false]
        refine ⟨?_, ih2, ?_⟩
        · intro j k h1 h2 hj
          by_cases hjn : j = 1 + n
          · rw [hjn, hd] at hj
            simp only [Option.some.injEq] at hj
            rw [← hj]
            omega
          · exact ih1 j k h1 (by omega) hj
        · intro b hb
          obtain ⟨i, hi1, hi2, hi3⟩ := ih3 b hb
          exact ⟨i, hi1, by omega, hi3⟩

/-- C9 (amended): `select_victim_cb` on a non-empty heap with the dummy hooks, positional
handles, `victim_line_cnt` equal to the heap size, and an array slot just past the last
member that is `NULL` or repeats a member. With the integer score
`cb_score = w(age) * ipc / (vpc + 1)`: if every member scores 0 it returns `NULL` and
leaves the state unchanged; if some member scores at least 1 it returns a member `b` at heap
index `i` whose score is the maximum over the members, every slot before `i` scoring
strictly less, removes exactly `b` (the other members stay), sets `b.pos = 0` and decrements
`victim_line_cnt` and the heap size by one, changing nothing outside the manager and the
statistics. -/
theorem select_victim_cb_spec (s : conv_ftl) (now : Nat)
    (hk : dummy_hooks s.lm.victim_line_pq) (hh : pq_handles s.lm)
    (hsz : 2 ≤ s.lm.victim_line_pq.size)
    (hst : s.lm.victim_line_pq.d s.lm.victim_line_pq.size = none ∨
      ∃ i, 1 ≤ i ∧ i < s.lm.victim_line_pq.size ∧
        s.lm.victim_line_pq.d s.lm.victim_line_pq.size = s.lm.victim_line_pq.d i)
    (hc : s.lm.victim_line_cnt = pqueue_size s.lm.victim_line_pq) :
    ((∀ k, pq_member s.lm k → cb_score now (s.lm.lines k) = 0) →
      ∀ force, select_victim_cb s now force = some (s, none)) ∧
    ((∃ k, pq_member s.lm k ∧ 0 < cb_score now (s.lm.lines k)) →
      ∀ force, ∃ s2 b i, select_victim_cb s now force = some (s2, some b) ∧
        1 ≤ i ∧ i < s.lm.victim_line_pq.size ∧ s.lm.victim_line_pq.d i = some b ∧
        (∀ k, pq_member s.lm k → cb_score now (s.lm.lines k) ≤ cb_score now (s.lm.lines b)) ∧
        (∀ j k, 1 ≤ j → j < i → s.lm.victim_line_pq.d j = some k →
          cb_score now (s.lm.lines k) < cb_score now (s.lm.lines b)) ∧
        (∀ k, pq_member s2.lm k ↔ (pq_member s.lm k ∧ k ≠ b)) ∧
        (s2.lm.lines b).pos = 0 ∧
        s2.lm.victim_line_cnt + 1 = s.lm.victim_line_cnt ∧
        pqueue_size s2.lm.victim_line_pq + 1 = pqueue_size s.lm.victim_line_pq ∧
        same_but_pos s.lm.lines s2.lm.lines ∧
        s2 = { s with lm := s2.lm, glob := s2.glob }) := by
  have hs0 : s.lm.victim_line_pq.size ≠ 0 := by omega
  obtain ⟨c1, c2, c3⟩ := select_victim_cb_scan_spec s.lm now s.lm.victim_line_pq.size
  have hcmp : ∀ a b, s.lm.victim_line_pq.cmppri a b = false := by
    intro a b; rw [hk.2.1]; rfl
  -- a scanned slot holding a line is a member's slot
  have hslot : ∀ i b, 1 ≤ i → i ≤ s.lm.victim_line_pq.size →
      s.lm.victim_line_pq.d i = some b → pq_member s.lm b := by
    intro i b hi1 hi2 hib
    by_cases hlt : i < s.lm.victim_line_pq.size
    · exact ⟨i, hi1, hlt, hib⟩
    · have hie : i = s.lm.victim_line_pq.size := by omega
      rw [hie] at hib
      rcases hst with hn | ⟨i0, h1, h2, h3⟩
      · rw [hn] at hib; simp at hib
      · rw [h3] at hib
        exact ⟨i0, h1, h2, hib⟩
  refine ⟨?_, ?_⟩
  · intro hzero force
    unfold select_victim_cb
    simp only [hs0, if_false]
    cases hbv : ((List.range' 1 s.lm.victim_line_pq.size).foldl (select_victim_cb_step s.lm now)
        { best_victim := none, max_score := 0, victim_age := 0 }).best_victim with
    | none => rfl
    | some b =>
      exfalso
      obtain ⟨i, hi1, hi2, hi3, hi4, -⟩ := c3 b hbv
      have := hzero b (hslot i b hi1 hi2 hi3)
      omega
  · rintro ⟨k0, hk0, hpos0⟩ force
    obtain ⟨i0, hi01, hi02, hi03⟩ := hk0
    have hmax := c1 i0 k0 hi01 (by omega) hi03
    cases hbv : ((List.range' 1 s.lm.victim_line_pq.size).foldl (select_victim_cb_step s.lm now)
        { best_victim := none, max_score := 0, victim_age := 0 }).best_victim with
    | none =>
      exfalso
      have := c2 hbv
      omega
    | some b =>
      obtain ⟨i, hi1, hi2, hi3, hi4, hi5, hi6⟩ := c3 b hbv
      have hmem : pq_member s.lm b := hslot i b hi1 hi2 hi3
      have hilt : i < s.lm.victim_line_pq.size := by
        by_contra hge
        have hie : i = s.lm.victim_line_pq.size := by omega
        rw [hie] at hi3
        rcases hst with hn | ⟨i1, h1, h2, h3⟩
        · rw [hn] at hi3; simp at hi3
        · rw [h3] at hi3
          have := hi6 i1 b h1 (by omega) hi3
          omega
      obtain ⟨⟨lm1, rc⟩, hrem⟩ := pqueue_remove_total hk.1 hh hcmp hmem
      obtain ⟨-, e1, -, e3⟩ := pqueue_remove_spec hk.1 hrem
      have hdec : dec_u64 s.lm.victim_line_pq.size = s.lm.victim_line_pq.size - 1 := by
        unfold dec_u64; rw [if_neg (by omega)]
      have hsz1 : lm1.victim_line_pq.size = s.lm.victim_line_pq.size - 1 := by
        rw [e1, hdec]; rfl
      have hcnt1 : lm1.victim_line_cnt = s.lm.victim_line_cnt := by rw [e1]; rfl
      refine ⟨_, b, i, by simp only [select_victim_cb, hs0, if_false, hbv, hrem]; rfl,
        hi1, hilt, hi3, ?_, hi6, ?_, ?_, ?_, ?_, ?_, rfl⟩
      · rintro k ⟨j, hj1, hj2, hj3⟩
        have := c1 j k hj1 (by omega) hj3
        omega
      · intro k
        exact pqueue_remove_member hk.1 hh (fun a => hcmp a a) hmem hrem k
      · simp [clear_pos]
      · show dec_u32 lm1.victim_line_cnt + 1 = s.lm.victim_line_cnt
        rw [hcnt1, hc]
        unfold dec_u32 pqueue_size
        rw [if_neg (by omega)]
        omega
      · show pqueue_size lm1.victim_line_pq + 1 = pqueue_size s.lm.victim_line_pq
        unfold pqueue_size
        omega
      · exact same_but_pos_trans (same_but_pos_of_cases e3) (same_but_pos_update_pos _ _ _)

/-- C7 (amended): with `write_credits > 0` `check_and_refill_write_credit` changes nothing;
with `write_credits ≤ 0` it runs `do_gc` with `force = true` once exactly when
`free_line_cnt ≤ gc_thres_lines_high` (the gate of `foreground_gc`) and runs no GC
otherwise, and in both cases then adds `credits_to_refill` to `write_credits`. -/
theorem check_and_refill_write_credit_gated (s : conv_ftl) (now r : Nat) :
    (0 < s.wfc.write_credits → check_and_refill_write_credit s now r = some s) ∧
    (s.wfc.write_credits ≤ 0 → s.lm.free_line_cnt ≤ s.cp.gc_thres_lines_high →
      check_and_refill_write_credit s now r =
        (do_gc s now r true).map (fun p => refill_credits p.1)) ∧
    (s.wfc.write_credits ≤ 0 → s.cp.gc_thres_lines_high < s.lm.free_line_cnt →
      check_and_refill_write_credit s now r = some (refill_credits s)) := by
  refine ⟨?_, ?_, ?_⟩
  · intro h
    have : ¬ s.wfc.write_credits ≤ 0 := by omega
    simp [check_and_refill_write_credit, this]
  · intro h hg
    simp only [check_and_refill_write_credit, h, if_true, foreground_gc, should_gc_high,
      decide_eq_true_eq, hg]
    cases hd : do_gc s now r true with
    | none => simp
    | some p => cases p; simp [refill_credits]
  · intro h hg
    have hn : ¬ s.lm.free_line_cnt ≤ s.cp.gc_thres_lines_high := by omega
    simp [check_and_refill_write_credit, h, foreground_gc, should_gc_high, hn, refill_credits]

/-- C7, witness: in `one_victim_state` no credit is left and three lines are free, above
`gc_thres_lines_high = 2`, so the credits are refilled without a GC run. -/
theorem check_and_refill_write_credit_gated_witness :
    check_and_refill_write_credit one_victim_state 7 0 = some (refill_credits one_victim_state) :=
  (check_and_refill_write_credit_gated one_victim_state 7 0).2.2 (by decide) (by decide)

/-- C7, counterexample: a reachable state with no write credit left and three free lines
(`gc_thres_lines_high = 2`): `check_and_refill_write_credit` refills the credits without
any GC run (`gc_count` stays 0), although `do_gc` with `force = true` would have collected
a victim there (`gc_count` 1, return value 0). -/
theorem check_and_refill_write_credit_no_gc :
    credits_spent_state.map (fun s => decide (s.wfc.write_credits ≤ 0)) = some true ∧
    (credits_spent_state.bind (fun s => check_and_refill_write_credit s 7 0)).map
        (fun s => (s.gc_count, s.wfc.write_credits)) = some (0, 2) ∧
    (credits_spent_state.bind (fun s => do_gc s 7 0 true)).map
        (fun p => (p.1.gc_count, p.2)) = some (1, 0) := by
  decide

theorem one_victim_state_size : one_victim_state.lm.victim_line_pq.size = 2 := by decide

theorem one_victim_state_hooks : greedy_hooks one_victim_state.lm.victim_line_pq :=
  ⟨⟨rfl, rfl, rfl⟩, rfl, rfl⟩

theorem one_victim_state_handles : pq_handles one_victim_state.lm := by
  intro i h1 h2
  rw [one_victim_state_size] at h2
  have hi : i = 1 := by omega
  subst hi
  exact ⟨0, by decide, by decide⟩

theorem one_victim_state_valid : pq_valid one_victim_state.lm := by
  intro i a b h1 h2
  rw [one_victim_state_size] at h2
  omega

/-- C8, witness: in `one_victim_state` (one member, `vpc = 1 > pgs_per_line / 8 = 0`) the
hypotheses hold, so selection without `force` returns `NULL` and selection with `force`
returns a member of least `vpc`. -/
theorem select_victim_greedy_spec_witness :
    greedy_hooks one_victim_state.lm.victim_line_pq ∧ pq_handles one_victim_state.lm ∧
    pq_valid one_victim_state.lm ∧
    (select_victim_greedy one_victim_state 7 false = some (one_victim_state, none) ∧
      ∃ s2 v, select_victim_greedy one_victim_state 7 true = some (s2, some v) ∧
        pq_member one_victim_state.lm v ∧
        ∀ k, pq_member one_victim_state.lm k →
          (one_victim_state.lm.lines v).vpc ≤ (one_victim_state.lm.lines k).vpc) :=
  ⟨one_victim_state_hooks, one_victim_state_handles, one_victim_state_valid,
    (select_victim_greedy_spec one_victim_state 7 one_victim_state_hooks (by decide)
      one_victim_state_handles one_victim_state_valid (by decide)).2.2
      (by
        rintro k ⟨i, h1, h2, h3⟩
        rw [one_victim_state_size] at h2
        have hi : i = 1 := by omega
        subst hi
        have : k = 0 := by
          have h4 : one_victim_state.lm.victim_line_pq.d 1 = some 0 := by decide
          rw [h4] at h3
          exact (Option.some.inj h3).symm
        subst this
        decide)
      (by decide)⟩

theorem cb_example_state_handles : pq_handles cb_example_state.lm := by
  intro i h1 h2
  have h3 : i < 3 := h2
  have hi : i = 1 ∨ i = 2 := by omega
  rcases hi with hi | hi
  · subst hi; exact ⟨0, by decide, by decide⟩
  · subst hi; exact ⟨1, by decide, by decide⟩

/-- C9, witness: scenario 4 of the specification. The hypotheses hold in `cb_example_state`;
candidate A (line 1) scores `100 * 10 / 101 = 9`, candidate B (line 0) scores
`1 * 50 / 101 = 0`, and the selection at time 200 s returns A although B sits at the
smaller heap index. -/
theorem select_victim_cb_spec_witness :
    dummy_hooks cb_example_state.lm.victim_line_pq ∧ pq_handles cb_example_state.lm ∧
    cb_score 200000000000 (cb_example_state.lm.lines 1) = 9 ∧
    cb_score 200000000000 (cb_example_state.lm.lines 0) = 0 ∧
    (∃ s2 b i, select_victim_cb cb_example_state 200000000000 true = some (s2, some b) ∧
        1 ≤ i ∧ i < cb_example_state.lm.victim_line_pq.size ∧
        cb_example_state.lm.victim_line_pq.d i = some b ∧
        (∀ k, pq_member cb_example_state.lm k →
          cb_score 200000000000 (cb_example_state.lm.lines k)
            ≤ cb_score 200000000000 (cb_example_state.lm.lines b)) ∧
        (∀ j k, 1 ≤ j → j < i → cb_example_state.lm.victim_line_pq.d j = some k →
          cb_score 200000000000 (cb_example_state.lm.lines k)
            < cb_score 200000000000 (cb_example_state.lm.lines b)) ∧
        (∀ k, pq_member s2.lm k ↔ (pq_member cb_example_state.lm k ∧ k ≠ b)) ∧
        (s2.lm.lines b).pos = 0 ∧
        s2.lm.victim_line_cnt + 1 = cb_example_state.lm.victim_line_cnt ∧
        pqueue_size s2.lm.victim_line_pq + 1 = pqueue_size cb_example_state.lm.victim_line_pq ∧
        same_but_pos cb_example_state.lm.lines s2.lm.lines ∧
        s2 = { cb_example_state with lm := s2.lm, glob := s2.glob }) ∧
    (select_victim_cb cb_example_state 200000000000 true).map Prod.snd = some (some 1) :=
  ⟨⟨⟨rfl, rfl, rfl⟩, rfl, rfl⟩, cb_example_state_handles, by decide, by decide,
    (select_victim_cb_spec cb_example_state 200000000000 ⟨⟨rfl, rfl, rfl⟩, rfl, rfl⟩
      cb_example_state_handles (by decide) (Or.inl (by decide)) (by decide)).2
      ⟨1, ⟨2, by decide, by decide, by decide⟩, by decide⟩ true,
    by decide⟩

/-- C9, counterexample: a reachable state of the Cost-Benefit mode whose heap holds one
line (`vpc = 1`, `ipc = 1`, invalidated at time 6). At time 7 its score is `1 * 1 / 2 = 0`,
the scan never exceeds `max_score = 0`, and `select_victim_cb` returns `NULL` from a
non-empty heap, leaving the heap as it was. -/
theorem select_victim_cb_returns_none :
    pqueue_size cb_fresh_victim_state.lm.victim_line_pq = 1 ∧
    cb_fresh_victim_state.lm.victim_line_pq.d 1 = some 0 ∧
    cb_score 7 (cb_fresh_victim_state.lm.lines 0) = 0 ∧
    (select_victim_cb cb_fresh_victim_state 7 true).map
      (fun p => (p.2, pqueue_size p.1.lm.victim_line_pq, p.1.lm.victim_line_cnt))
      = some (none, 1, 1) := by
  decide

/-- C10, failing input: in `random_stale_state` the heap holds one member (line 0 at index 1,
`q->size = 2`) and the slot behind it still holds the pointer of line 2, which is on the free
list. With `get_random_u32() = 1` the index is `1 % 2 + 1 = 2`: `select_victim_random`
returns line 2, which is not a member, `pqueue_remove` moves the one member to slot 0 and
empties the heap (line 0 ends with `pos = 0`), `victim_line_cnt` drops to 0, and `do_gc`
then stops on the assertion of `clean_one_flashpg` because the pages of line 2 are free. -/
theorem select_victim_random_stale_slot :
    pqueue_size random_stale_state.lm.victim_line_pq = 1 ∧
    random_stale_state.lm.victim_line_pq.d 1 = some 0 ∧
    1 % random_stale_state.lm.victim_line_pq.size + 1 = 2 ∧
    random_stale_state.lm.victim_line_pq.d 2 = some 2 ∧
    random_stale_state.lm.free_line_list = [5, 2] ∧
    (select_victim_random random_stale_state 1 true).map
      (fun p => (p.2, pqueue_size p.1.lm.victim_line_pq, p.1.lm.victim_line_cnt,
        (p.1.lm.lines 0).pos, p.1.lm.victim_line_pq.d 0)) = some (some 2, 0, 0, 0, some 0) ∧
    (do_gc random_stale_state 16 1 true).isNone = true := by
  decide

/-! ## Frame lemmas for the page and line updates -/

theorem NVMEV_ASSERT_bind {c : Prop} [Decidable c] {α : Type} (f : Unit → Option α) (x : α) :
    ((NVMEV_ASSERT c).bind f = some x) ↔ (c ∧ f () = some x) := by
  unfold NVMEV_ASSERT
  by_cases hc : c
  · simp [hc]
  · simp [hc]

theorem NVMEV_ASSERT_eq_some {c : Prop} [Decidable c] (u : Unit) :
    (NVMEV_ASSERT c = some u) ↔ c := by
  unfold NVMEV_ASSERT
  by_cases hc : c
  · simp [hc]
  · simp [hc]

theorem check_addr_eq_some {a m : Nat} (u : Unit) : (check_addr a m = some u) ↔ a < m := by
  unfold check_addr
  exact NVMEV_ASSERT_eq_some u

theorem get_pg_eq_some {d : ssd} {p : ppa} {pg : nand_page} (h : get_pg d p = some pg) :
    ∃ b, get_blk d p = some b ∧ p.pg < d.sp.pgs_per_blk ∧ pg = b.pg p.pg := by
  unfold get_pg at h
  cases hb : get_blk d p with
  | none => simp [hb] at h
  | some b =>
    simp only [hb] at h
    split_ifs at h with hv
    exact ⟨b, rfl, hv, (Option.some.inj h).symm⟩

theorem get_blk_eq_some {d : ssd} {p : ppa} {b : nand_block} (h : get_blk d p = some b) :
    (p.ch < d.sp.nchs ∧ p.lun < d.sp.luns_per_ch ∧ p.pl < d.sp.pls_per_lun ∧
      p.blk < d.sp.blks_per_pl) ∧ b = d.blk p.ch p.lun p.pl p.blk := by
  unfold get_blk at h
  split_ifs at h with hv
  exact ⟨hv, (Option.some.inj h).symm⟩

theorem get_blk_set_blk (d : ssd) (p q : ppa) (b : nand_block) :
    get_blk (set_blk d p b) q =
      if q.ch = p.ch ∧ q.lun = p.lun ∧ q.pl = p.pl ∧ q.blk = p.blk then
        (get_blk d q).map (fun _ => b)
      else get_blk d q := by
  unfold get_blk set_blk
  by_cases hv : q.ch < d.sp.nchs ∧ q.lun < d.sp.luns_per_ch ∧ q.pl < d.sp.pls_per_lun ∧
      q.blk < d.sp.blks_per_pl
  · by_cases hk : q.ch = p.ch ∧ q.lun = p.lun ∧ q.pl = p.pl ∧ q.blk = p.blk
    · simp [hv, hk]
    · simp [hv, hk]
  · by_cases hk : q.ch = p.ch ∧ q.lun = p.lun ∧ q.pl = p.pl ∧ q.blk = p.blk
    · simp [hv, hk]
    · simp [hv, hk]

/-- Writing back block `p` with one page status changed changes the status of that page
only. -/
theorem page_status_set_blk (s s2 : conv_ftl) (p : ppa) (blk b2 : nand_block)
    (st : pg_status) (hs : s2.ssd = set_blk s.ssd p b2) (hb : get_blk s.ssd p = some blk)
    (hv : p.pg < s.ssd.sp.pgs_per_blk) (hpg : b2.pg = (set_pg_status blk p.pg st).pg)
    (q : ppa) :
    page_status s2 q = if same_page q p then some st else page_status s q := by
  unfold page_status get_pg
  rw [hs, get_blk_set_blk]
  have hsp : (set_blk s.ssd p b2).sp = s.ssd.sp := rfl
  rw [hsp]
  obtain ⟨hvb, hbe⟩ := get_blk_eq_some hb
  by_cases hk : q.ch = p.ch ∧ q.lun = p.lun ∧ q.pl = p.pl ∧ q.blk = p.blk
  · have hq : get_blk s.ssd q = some blk := by
      unfold get_blk
      obtain ⟨k1, k2, k3, k4⟩ := hk
      rw [k1, k2, k3, k4, if_pos hvb, hbe]
    simp only [hk, and_self, if_true, hq, Option.map_some']
    by_cases hp : q.pg = p.pg
    · have hsame : same_page q p := ⟨hk.1, hk.2.1, hk.2.2.1, hk.2.2.2, hp⟩
      simp [hsame, hp, hv, hpg, set_pg_status]
    · have hns : ¬ same_page q p := fun h => hp h.2.2.2.2
      simp only [hns, if_false, hpg, set_pg_status, Function.update_noteq hp]
  · have hns : ¬ same_page q p := fun h => hk ⟨h.1, h.2.1, h.2.2.1, h.2.2.2.1⟩
    simp only [hk, if_false, hns]

theorem mark_page_valid_spec {s s1 : conv_ftl} {p : ppa} (h : mark_page_valid s p = some s1) :
    page_status s p = some PG_FREE ∧
    (∀ q, page_status s1 q = if same_page q p then some PG_VALID else page_status s q) ∧
    s1.ssd.sp = s.ssd.sp ∧
    s1 = { s with ssd := s1.ssd, lm := { s.lm with lines := s1.lm.lines } } ∧
    s1.lm.lines = Function.update s.lm.lines p.blk
      { s.lm.lines p.blk with vpc := (s.lm.lines p.blk).vpc + 1 } ∧
    (s.lm.lines p.blk).vpc < s.ssd.sp.pgs_per_line := by
  simp only [mark_page_valid, bind, Option.bind_eq_some, NVMEV_ASSERT_eq_some, pure,
    Option.some.injEq, exists_const, get_line] at h
  obtain ⟨pg, hpg, hfree, blk, hblk, hvpc, hl, hs⟩ := h
  obtain ⟨b, hb, hv, hpe⟩ := get_pg_eq_some hpg
  subst hs
  refine ⟨?_, ?_, rfl, rfl, rfl, hl⟩
  · simp [page_status, hpg, hfree]
  · intro q
    exact page_status_set_blk s _ p blk
      { set_pg_status blk p.pg PG_VALID with vpc := (set_pg_status blk p.pg PG_VALID).vpc + 1 }
      PG_VALID rfl hblk hv rfl q

theorem pqueue_insert_spec {lm lm2 : line_mgmt} {k rc : Nat}
    (hk : line_hooks lm.victim_line_pq)
    (h : pqueue_insert lm (some k) = some (lm2, rc)) :
    rc = 0 ∧
    lm2 = pq_with (pq_set_size lm (lm.victim_line_pq.size + 1)) lm2.lines
      lm2.victim_line_pq.d ∧
    (∃ π : Equiv.Perm Nat, (∀ x, ¬(1 ≤ x ∧ x ≤ lm.victim_line_pq.size) → π x = x) ∧
        lm2.victim_line_pq.d =
          (Function.update lm.victim_line_pq.d lm.victim_line_pq.size (some k)) ∘ π) ∧
    (∀ j, lm2.lines j = lm.lines j ∨
        ∃ x, x ≤ lm.victim_line_pq.size ∧ lm2.victim_line_pq.d x = some j ∧
          lm2.lines j = { lm.lines j with pos := x }) := by
  unfold pqueue_insert at h
  simp only at h
  cases hb : bubble_up (pq_set_d (pq_set_size lm (lm.victim_line_pq.size + 1))
      lm.victim_line_pq.size (some k)) lm.victim_line_pq.size with
  | none => simp [hb] at h
  | some lm1 =>
    simp only [hb, Option.some.injEq, Prod.mk.injEq] at h
    obtain ⟨h1, h2⟩ := h
    subst h1
    obtain ⟨e1, e2, e3⟩ := @bubble_up_spec (pq_set_d (pq_set_size lm
      (lm.victim_line_pq.size + 1)) lm.victim_line_pq.size (some k)) _ _ hk hb
    refine ⟨h2.symm, e1, e2, ?_⟩
    intro j
    exact (e3 j).imp id (fun ⟨x, hx1, _, hx3, hx4⟩ => ⟨x, hx1, hx3, hx4⟩)

theorem pqueue_change_priority_spec {lm lm2 : line_mgmt} {k new_pri : Nat}
    (hk : line_hooks lm.victim_line_pq)
    (h : pqueue_change_priority lm new_pri (some k) = some lm2) :
    lm2 = pq_with lm lm2.lines lm2.victim_line_pq.d ∧
    (∃ π : Equiv.Perm Nat,
        (∀ x, ¬((1 ≤ x ∧ x ≤ (lm.lines k).pos) ∨
          ((lm.lines k).pos ≤ x ∧ x < lm.victim_line_pq.size)) → π x = x) ∧
        lm2.victim_line_pq.d = lm.victim_line_pq.d ∘ π) ∧
    (∀ j, lm2.lines j = (Function.update lm.lines k { lm.lines k with vpc := new_pri }) j ∨
        ∃ x, lm2.victim_line_pq.d x = some j ∧
          lm2.lines j =
            { (Function.update lm.lines k { lm.lines k with vpc := new_pri }) j with
              pos := x }) := by
  unfold pqueue_change_priority at h
  simp only at h
  rw [hk.1, hk.2.1] at h
  have hl1 : (Function.update lm.lines k (victim_line_set_pri (lm.lines k) new_pri)) =
      Function.update lm.lines k { lm.lines k with vpc := new_pri } := rfl
  have hpos : victim_line_get_pos
      ((Function.update lm.lines k (victim_line_set_pri (lm.lines k) new_pri)) k) =
      (lm.lines k).pos := by
    rw [Function.update_same]; rfl
  simp only [hpos] at h
  split_ifs at h with hc
  · obtain ⟨e1, ⟨π, hfix, hd⟩, e3⟩ := @bubble_up_spec
      { lm with lines := Function.update lm.lines k (victim_line_set_pri (lm.lines k) new_pri) }
      _ _ hk h
    refine ⟨?_, ⟨π, fun x hx => hfix x (fun hx2 => hx (Or.inl hx2)), hd⟩, ?_⟩
    · rw [e1]; rfl
    · intro j
      exact (e3 j).imp id (fun ⟨x, _, _, hx3, hx4⟩ => ⟨x, hx3, hx4⟩)
  · obtain ⟨e1, ⟨π, hfix, hd⟩, e3⟩ := @percolate_down_spec
      { lm with lines := Function.update lm.lines k (victim_line_set_pri (lm.lines k) new_pri) }
      _ _ hk h
    refine ⟨?_, ⟨π, fun x hx => hfix x (fun hx2 => hx (Or.inr hx2)), hd⟩, ?_⟩
    · rw [e1]; rfl
    · intro j
      exact (e3 j).imp id (fun ⟨x, _, _, hx3, hx4⟩ => ⟨x, hx3, hx4⟩)

theorem same_hooks_refl (q : pqueue_t) : same_hooks q q := ⟨rfl, rfl, rfl, rfl, rfl⟩

theorem same_hooks_trans {q q2 q3 : pqueue_t} (h1 : same_hooks q q2) (h2 : same_hooks q2 q3) :
    same_hooks q q3 :=
  ⟨h2.1.trans h1.1, h2.2.1.trans h1.2.1, h2.2.2.1.trans h1.2.2.1,
    h2.2.2.2.1.trans h1.2.2.2.1, h2.2.2.2.2.trans h1.2.2.2.2⟩

theorem line_hooks_of_same {q q2 : pqueue_t} (hk : line_hooks q) (h : same_hooks q q2) :
    line_hooks q2 :=
  ⟨h.2.2.1.trans hk.1, h.2.2.2.1.trans hk.2.1, h.2.2.2.2.trans hk.2.2⟩

theorem same_hooks_pq_with {lm lm2 : line_mgmt} {n : Nat}
    (h : lm2 = pq_with (pq_set_size lm n) lm2.lines lm2.victim_line_pq.d) :
    same_hooks lm.victim_line_pq lm2.victim_line_pq := by
  rw [h]; exact ⟨rfl, rfl, rfl, rfl, rfl⟩

theorem same_hooks_pq_with0 {lm lm2 : line_mgmt}
    (h : lm2 = pq_with lm lm2.lines lm2.victim_line_pq.d) :
    same_hooks lm.victim_line_pq lm2.victim_line_pq := by
  rw [h]; exact ⟨rfl, rfl, rfl, rfl, rfl⟩

theorem same_id_ipc_refl (l : Nat → line) : same_id_ipc l l := fun _ => ⟨rfl, rfl⟩

theorem same_id_ipc_trans {l l2 l3 : Nat → line} (h1 : same_id_ipc l l2)
    (h2 : same_id_ipc l2 l3) : same_id_ipc l l3 :=
  fun k => ⟨(h2 k).1.trans (h1 k).1, (h2 k).2.trans (h1 k).2⟩

theorem same_id_ipc_of_pos {l l2 : Nat → line} (h : same_but_pos l l2) : same_id_ipc l l2 :=
  fun k => ⟨(same_but_pos_fields h k).1, (same_but_pos_fields h k).2.1⟩

theorem same_id_ipc_update {l : Nat → line} {k : Nat} {v : line} (h1 : v.id = (l k).id)
    (h2 : v.ipc = (l k).ipc) : same_id_ipc l (Function.update l k v) := by
  intro j
  by_cases hj : j = k
  · subst hj; rw [Function.update_same]; exact ⟨h1, h2⟩
  · rw [Function.update_noteq hj]; exact ⟨rfl, rfl⟩


theorem mark_page_invalid_vpc_spec {lm lm2 : line_mgmt} {k : Nat}
    (hk : line_hooks lm.victim_line_pq)
    (h : mark_page_invalid_vpc lm k = some lm2) :
    same_hooks lm.victim_line_pq lm2.victim_line_pq ∧
    lm2.select_victim = lm.select_victim ∧ same_id_ipc lm.lines lm2.lines := by
  unfold mark_page_invalid_vpc at h
  split_ifs at h with hpos
  · have key := fun hh => @pqueue_change_priority_spec _ _ _ _ hh h
    obtain ⟨e1, _e2, e3⟩ := key hk
    refine ⟨same_hooks_pq_with0 e1, by rw [e1]; rfl, ?_⟩
    have hmid : same_id_ipc lm.lines (Function.update lm.lines k
        { lm.lines k with vpc := (lm.lines k).vpc - 1 }) := same_id_ipc_update rfl rfl
    exact same_id_ipc_trans hmid
      (same_id_ipc_of_pos (same_but_pos_of_cases
        (fun j => (e3 j).imp id (fun ⟨x, _, hx⟩ => ⟨x, hx⟩))))
  · simp only [Option.some.injEq] at h
    subst h
    exact ⟨same_hooks_refl _, rfl, same_id_ipc_update rfl rfl⟩

theorem mark_page_invalid_move_spec {lm lm2 : line_mgmt} {k : Nat}
    (hk : line_hooks lm.victim_line_pq)
    (h : mark_page_invalid_move lm k = some lm2) :
    same_hooks lm.victim_line_pq lm2.victim_line_pq ∧
    lm2.select_victim = lm.select_victim ∧ same_id_ipc lm.lines lm2.lines := by
  simp only [mark_page_invalid_move, bind, Option.bind_eq_some, pure, Option.some.injEq] at h
  obtain ⟨⟨lmi, rc⟩, hins, h⟩ := h
  have key := fun hh => @pqueue_insert_spec _ _ _ _ hh hins
  obtain ⟨_e0, e1, _e2, e3⟩ := key hk
  subst h
  have hs := same_hooks_pq_with e1
  have hv : lmi.select_victim = lm.select_victim := by rw [e1]; rfl
  have hl : same_id_ipc lm.lines lmi.lines :=
    same_id_ipc_of_pos (same_but_pos_of_cases
      (fun j => (e3 j).imp id (fun ⟨x, _, _, hx⟩ => ⟨x, hx⟩)))
  exact ⟨hs, hv, hl⟩

theorem mark_page_invalid_line_spec {spp : ssdparams} {lm lm2 : line_mgmt} {now k : Nat}
    (hk : line_hooks lm.victim_line_pq)
    (h : mark_page_invalid_line spp lm now k = some lm2) :
    same_hooks lm.victim_line_pq lm2.victim_line_pq ∧
    lm2.select_victim = lm.select_victim ∧
    (∀ j, (lm2.lines j).id = (lm.lines j).id ∧
      (lm2.lines j).ipc = if j = k then (lm.lines j).ipc + 1 else (lm.lines j).ipc) := by
  simp only [mark_page_invalid_line, bind, Option.bind_eq_some, NVMEV_ASSERT_eq_some, pure,
    exists_const, Option.some.injEq] at h
  obtain ⟨_h1, _h2, _h3, lmb, hlmb, lmc, hlmc, hfin⟩ := h
  have hA : ∀ j, ((line_set_ipc_time lm k ((lm.lines k).ipc + 1)
      (lm.lines k).last_modified_time).lines j).id = (lm.lines j).id ∧
      ((line_set_ipc_time lm k ((lm.lines k).ipc + 1)
        (lm.lines k).last_modified_time).lines j).ipc =
        if j = k then (lm.lines j).ipc + 1 else (lm.lines j).ipc := by
    intro j
    by_cases hj : j = k
    · subst hj; simp [line_set_ipc_time]
    · simp [line_set_ipc_time, Function.update_noteq hj, hj]
  have hk1 : line_hooks (line_set_ipc_time lm k ((lm.lines k).ipc + 1)
      (lm.lines k).last_modified_time).victim_line_pq := hk
  have hB := mark_page_invalid_vpc_spec hk1 hlmb
  have hkb : line_hooks lmb.victim_line_pq := line_hooks_of_same hk hB.1
  have hC : same_hooks lmb.victim_line_pq lmc.victim_line_pq ∧
      lmc.select_victim = lmb.select_victim ∧ same_id_ipc lmb.lines lmc.lines := by
    split_ifs at hlmc with hfull
    · exact mark_page_invalid_move_spec hkb hlmc
    · simp only [Option.some.injEq] at hlmc
      subst hlmc
      exact ⟨same_hooks_refl _, rfl, same_id_ipc_refl _⟩
  subst hfin
  refine ⟨same_hooks_trans hB.1 hC.1, hC.2.1.trans hB.2.1, ?_⟩
  intro j
  have h1 := hA j
  have h2 := hB.2.2 j
  have h3 := hC.2.2 j
  have h4 : ((line_set_ipc_time lmc k (lmc.lines k).ipc now).lines j).id = (lmc.lines j).id ∧
      ((line_set_ipc_time lmc k (lmc.lines k).ipc now).lines j).ipc = (lmc.lines j).ipc := by
    by_cases hj : j = k
    · subst hj; simp [line_set_ipc_time]
    · simp [line_set_ipc_time, Function.update_noteq hj]
  exact ⟨h4.1.trans (h3.1.trans (h2.1.trans h1.1)), h4.2.trans (h3.2.trans (h2.2.trans h1.2))⟩

/-! ## Page indices, reverse map and the write step -/

theorem digit_bound {a b m n : Nat} (ha : a < n) (hb : b < m) : a * m + b < n * m := by
  have h : (a + 1) * m ≤ n * m := Nat.mul_le_mul_right m ha
  rw [Nat.add_mul, Nat.one_mul] at h
  omega

theorem mixed_radix_unique {a b a2 b2 m : Nat} (hb : b < m) (hb2 : b2 < m)
    (h : a * m + b = a2 * m + b2) : a = a2 ∧ b = b2 := by
  have hm : 0 < m := by omega
  have e1 : (a * m + b) % m = b := by
    rw [Nat.add_comm, Nat.add_mul_mod_self_right, Nat.mod_eq_of_lt hb]
  have e2 : (a2 * m + b2) % m = b2 := by
    rw [Nat.add_comm, Nat.add_mul_mod_self_right, Nat.mod_eq_of_lt hb2]
  have hbb : b = b2 := by rw [← e1, ← e2, h]
  subst hbb
  exact ⟨Nat.eq_of_mul_eq_mul_right hm (by omega), rfl⟩

/-- The address `p` lies inside the NAND arrays of geometry `sp`. -/
theorem page_status_in_range {s : conv_ftl} {q : ppa} {st : pg_status}
    (h : page_status s q = some st) :
    q.ch < s.ssd.sp.nchs ∧ q.lun < s.ssd.sp.luns_per_ch ∧ q.pl < s.ssd.sp.pls_per_lun ∧
      q.blk < s.ssd.sp.blks_per_pl ∧ q.pg < s.ssd.sp.pgs_per_blk := by
  unfold page_status at h
  cases hg : get_pg s.ssd q with
  | none => simp [hg] at h
  | some pg =>
    obtain ⟨b, hb, hv, _⟩ := get_pg_eq_some hg
    obtain ⟨⟨h1, h2, h3, h4⟩, _⟩ := get_blk_eq_some hb
    exact ⟨h1, h2, h3, h4, hv⟩

/-- With the derived sizes of `ssd_init_params`, `ppa2pgidx` is injective on the addresses
inside the arrays. -/
theorem pgidx_of_inj {sp : ssdparams} (hc : params_consistent sp) {p q : ppa}
    (hp : p.ch < sp.nchs ∧ p.lun < sp.luns_per_ch ∧ p.pl < sp.pls_per_lun ∧
      p.blk < sp.blks_per_pl ∧ p.pg < sp.pgs_per_blk)
    (hq : q.ch < sp.nchs ∧ q.lun < sp.luns_per_ch ∧ q.pl < sp.pls_per_lun ∧
      q.blk < sp.blks_per_pl ∧ q.pg < sp.pgs_per_blk)
    (h : pgidx_of sp p = pgidx_of sp q) : same_page p q := by
  obtain ⟨c1, c2, c3, _c4⟩ := hc
  obtain ⟨_p1, p2, p3, p4, p5⟩ := hp
  obtain ⟨_q1, q2, q3, q4, q5⟩ := hq
  unfold pgidx_of at h
  have bp1 : p.blk * sp.pgs_per_blk + p.pg < sp.pgs_per_pl := by
    rw [c1, Nat.mul_comm sp.pgs_per_blk]; exact digit_bound p4 p5
  have bq1 : q.blk * sp.pgs_per_blk + q.pg < sp.pgs_per_pl := by
    rw [c1, Nat.mul_comm sp.pgs_per_blk]; exact digit_bound q4 q5
  have bp2 : p.pl * sp.pgs_per_pl + (p.blk * sp.pgs_per_blk + p.pg) < sp.pgs_per_lun := by
    rw [c2, Nat.mul_comm sp.pgs_per_pl]; exact digit_bound p3 bp1
  have bq2 : q.pl * sp.pgs_per_pl + (q.blk * sp.pgs_per_blk + q.pg) < sp.pgs_per_lun := by
    rw [c2, Nat.mul_comm sp.pgs_per_pl]; exact digit_bound q3 bq1
  have bp3 : p.lun * sp.pgs_per_lun + (p.pl * sp.pgs_per_pl + (p.blk * sp.pgs_per_blk + p.pg))
      < sp.pgs_per_ch := by
    rw [c3, Nat.mul_comm sp.pgs_per_lun]; exact digit_bound p2 bp2
  have bq3 : q.lun * sp.pgs_per_lun + (q.pl * sp.pgs_per_pl + (q.blk * sp.pgs_per_blk + q.pg))
      < sp.pgs_per_ch := by
    rw [c3, Nat.mul_comm sp.pgs_per_lun]; exact digit_bound q2 bq2
  have h1 : p.ch * sp.pgs_per_ch +
      (p.lun * sp.pgs_per_lun + (p.pl * sp.pgs_per_pl + (p.blk * sp.pgs_per_blk + p.pg))) =
      q.ch * sp.pgs_per_ch +
      (q.lun * sp.pgs_per_lun + (q.pl * sp.pgs_per_pl + (q.blk * sp.pgs_per_blk + q.pg))) := by
    omega
  obtain ⟨e1, h2⟩ := mixed_radix_unique bp3 bq3 h1
  obtain ⟨e2, h3⟩ := mixed_radix_unique bp2 bq2 h2
  obtain ⟨e3, h4⟩ := mixed_radix_unique bp1 bq1 h3
  obtain ⟨e4, e5⟩ := mixed_radix_unique p5 q5 h4
  exact ⟨e1, e2, e3, e4, e5⟩

theorem pgidx_of_same_page {sp : ssdparams} {p q : ppa} (h : same_page p q) :
    pgidx_of sp p = pgidx_of sp q := by
  obtain ⟨e1, e2, e3, e4, e5⟩ := h
  unfold pgidx_of
  rw [e1, e2, e3, e4, e5]

theorem set_rmap_ent_spec {s s1 : conv_ftl} {lpn : Nat} {p : ppa}
    (h : set_rmap_ent s lpn p = some s1) :
    pgidx_of s.ssd.sp p < s.ssd.sp.tt_pgs ∧
    s1 = { s with rmap := Function.update s.rmap (pgidx_of s.ssd.sp p) lpn } := by
  unfold set_rmap_ent ppa2pgidx at h
  split_ifs at h with hv
  simp only [Option.some.injEq] at h
  exact ⟨hv, h.symm⟩

theorem set_maptbl_ent_spec {s s1 : conv_ftl} {lpn : Nat} {p : ppa}
    (h : set_maptbl_ent s lpn p = some s1) :
    lpn < s.ssd.sp.tt_pgs ∧
    s1 = { s with maptbl := Function.update s.maptbl lpn p } := by
  unfold set_maptbl_ent at h
  split_ifs at h with hv
  simp only [Option.some.injEq] at h
  exact ⟨hv, h.symm⟩

theorem get_rmap_ent_eq_some {s : conv_ftl} {p : ppa} {l : Nat} :
    get_rmap_ent s p = some l ↔
      (pgidx_of s.ssd.sp p < s.ssd.sp.tt_pgs ∧ s.rmap (pgidx_of s.ssd.sp p) = l) := by
  unfold get_rmap_ent ppa2pgidx
  by_cases hv : pgidx_of s.ssd.sp p < s.ssd.sp.tt_pgs
  · simp [hv]
  · simp [hv]

theorem mark_page_invalid_spec {s s1 : conv_ftl} {now : Nat} {p : ppa}
    (h : mark_page_invalid s now p = some s1) :
    page_status s p = some PG_VALID ∧
    (∀ q, page_status s1 q = if same_page q p then some PG_INVALID else page_status s q) ∧
    s1.ssd.sp = s.ssd.sp ∧
    s1 = { s with ssd := s1.ssd, lm := s1.lm } ∧
    mark_page_invalid_line s.ssd.sp s.lm now p.blk = some s1.lm := by
  simp only [mark_page_invalid, bind, Option.bind_eq_some, NVMEV_ASSERT_eq_some, pure,
    Option.some.injEq, exists_const, get_line] at h
  obtain ⟨pg, hpg, hval, blk, hblk, _hipc, _hvpc, lm1, hl, hs⟩ := h
  obtain ⟨b, hb, hv, hpe⟩ := get_pg_eq_some hpg
  subst hs
  refine ⟨?_, ?_, rfl, rfl, hl⟩
  · simp [page_status, hpg, hval]
  · intro q
    exact page_status_set_blk s _ p blk
      { pg := (set_pg_status blk p.pg PG_INVALID).pg,
        npgs := (set_pg_status blk p.pg PG_INVALID).npgs,
        ipc := (set_pg_status blk p.pg PG_INVALID).ipc + 1,
        vpc := (set_pg_status blk p.pg PG_INVALID).vpc - 1,
        erase_cnt := (set_pg_status blk p.pg PG_INVALID).erase_cnt,
        wp := (set_pg_status blk p.pg PG_INVALID).wp }
      PG_INVALID rfl hblk hv rfl q

theorem advance_write_pointer_newline_spec {s s1 : conv_ftl} {io : Nat} {w : write_pointer}
    (h : advance_write_pointer_newline s io w = some s1) :
    ∃ w2 lm1 lm2 cur, s1 = set_wp { s with lm := lm2 } io w2 ∧
      advance_write_pointer_close s.ssd.sp s.lm w.curline = some lm1 ∧
      get_next_free_line lm1 = (lm2, some cur) := by
  simp only [advance_write_pointer_newline, bind, Option.bind_eq_some, NVMEV_ASSERT_eq_some,
    check_addr_eq_some, pure, exists_const] at h
  obtain ⟨lm1, hlm1, _hb, h⟩ := h
  cases hg : get_next_free_line lm1 with
  | mk lm2 oc =>
    cases oc with
    | none => simp [hg] at h
    | some cur =>
      simp only [hg, Option.bind_eq_some, NVMEV_ASSERT_eq_some, check_addr_eq_some,
        exists_const, Option.some.injEq] at h
      obtain ⟨_, _, _, _, _, h⟩ := h
      exact ⟨_, lm1, lm2, cur, h.symm, hlm1, hg⟩

theorem advance_write_pointer_spec {s s1 : conv_ftl} {io : Nat}
    (h : advance_write_pointer s io = some s1) :
    ∃ w2 lm2, s1 = set_wp { s with lm := lm2 } io w2 ∧
      (lm2 = s.lm ∨ ∃ c lm1 cur, advance_write_pointer_close s.ssd.sp s.lm c = some lm1 ∧
        get_next_free_line lm1 = (lm2, some cur)) := by
  simp only [advance_write_pointer, bind, Option.bind_eq_some, NVMEV_ASSERT_eq_some,
    check_addr_eq_some, pure, exists_const] at h
  obtain ⟨wpp, _hw, _h1, _h2, h⟩ := h
  split_ifs at h with c1 c2 c3 c4
  · exact ⟨_, s.lm, (Option.some.inj h).symm, Or.inl rfl⟩
  · simp only [Option.bind_eq_some, check_addr_eq_some, exists_const] at h
    exact ⟨_, s.lm, (Option.some.inj h.2).symm, Or.inl rfl⟩
  · simp only [Option.bind_eq_some, check_addr_eq_some, exists_const] at h
    exact ⟨_, s.lm, (Option.some.inj h.2.2).symm, Or.inl rfl⟩
  · simp only [Option.bind_eq_some, check_addr_eq_some, exists_const] at h
    exact ⟨_, s.lm, (Option.some.inj h.2.2).symm, Or.inl rfl⟩
  · simp only [Option.bind_eq_some, check_addr_eq_some, exists_const] at h
    obtain ⟨w2, lm1, lm2, cur, e1, e2, e3⟩ := advance_write_pointer_newline_spec h.2.2
    exact ⟨w2, lm2, e1, Or.inr ⟨_, lm1, cur, e2, e3⟩⟩

theorem set_wp_fields (s : conv_ftl) (io : Nat) (w : write_pointer) :
    (set_wp s io w).ssd = s.ssd ∧ (set_wp s io w).maptbl = s.maptbl ∧
    (set_wp s io w).rmap = s.rmap ∧ (set_wp s io w).lm = s.lm := by
  unfold set_wp
  split_ifs <;> exact ⟨rfl, rfl, rfl, rfl⟩

theorem advance_write_pointer_frame {s s1 : conv_ftl} {io : Nat}
    (h : advance_write_pointer s io = some s1) :
    s1.ssd = s.ssd ∧ s1.maptbl = s.maptbl ∧ s1.rmap = s.rmap := by
  obtain ⟨w2, lm2, e, _⟩ := advance_write_pointer_spec h
  obtain ⟨h1, h2, h3, _⟩ := set_wp_fields { s with lm := lm2 } io w2
  rw [e]
  exact ⟨h1, h2, h3⟩

theorem advance_write_pointer_close_spec {spp : ssdparams} {lm lm1 : line_mgmt} {c : Nat}
    (hk : line_hooks lm.victim_line_pq)
    (h : advance_write_pointer_close spp lm c = some lm1) :
    same_hooks lm.victim_line_pq lm1.victim_line_pq ∧ same_id_ipc lm.lines lm1.lines := by
  unfold advance_write_pointer_close at h
  split_ifs at h with hfull
  · simp only [bind, Option.bind_eq_some, NVMEV_ASSERT_eq_some, pure, exists_const,
      Option.some.injEq] at h
    obtain ⟨_, h⟩ := h
    subst h
    exact ⟨same_hooks_refl _, same_id_ipc_refl _⟩
  · simp only [bind, Option.bind_eq_some, NVMEV_ASSERT_eq_some, pure, exists_const,
      Option.some.injEq] at h
    obtain ⟨_, _, ⟨lmi, rc⟩, hins, h⟩ := h
    have key := fun hh => @pqueue_insert_spec _ _ _ _ hh hins
    obtain ⟨_e0, e1, _e2, e3⟩ := key hk
    subst h
    have hs := same_hooks_pq_with e1
    have hl : same_id_ipc lm.lines lmi.lines :=
      same_id_ipc_of_pos (same_but_pos_of_cases
        (fun j => (e3 j).imp id (fun ⟨x, _, _, hx⟩ => ⟨x, hx⟩)))
    exact ⟨hs, hl⟩

theorem get_next_free_line_spec {lm lm2 : line_mgmt} {oc : Option Nat}
    (h : get_next_free_line lm = (lm2, oc)) :
    lm2.victim_line_pq = lm.victim_line_pq ∧ lm2.lines = lm.lines ∧
      lm2.select_victim = lm.select_victim := by
  unfold get_next_free_line at h
  cases hf : lm.free_line_list with
  | nil =>
    simp only [hf, Prod.mk.injEq] at h
    rw [← h.1]
    exact ⟨rfl, rfl, rfl⟩
  | cons a rest =>
    simp only [hf, Prod.mk.injEq] at h
    rw [← h.1]
    exact ⟨rfl, rfl, rfl⟩

theorem conv_write_invalidate_spec {s s1 : conv_ftl} {now : Nat} {old : ppa}
    (h : conv_write_invalidate s now old = some s1) :
    (mapped_ppa old = false ∧ s1 = s) ∨
    (mapped_ppa old = true ∧ ∃ a, mark_page_invalid s now old = some a ∧
      set_rmap_ent a INVALID_LPN old = some s1) := by
  unfold conv_write_invalidate at h
  split_ifs at h with hm
  · simp only [bind, Option.bind_eq_some] at h
    exact Or.inr ⟨hm, h⟩
  · simp only [pure, Option.some.injEq] at h
    exact Or.inl ⟨by simpa using hm, h.symm⟩

/-- What lines 1325-1330 of `conv_write` change: the status of the old page, its reverse-map
entry, and the line table. -/
theorem conv_write_invalidate_effect {s s1 : conv_ftl} {now : Nat} {old : ppa}
    (h : conv_write_invalidate s now old = some s1) :
    s1.ssd.sp = s.ssd.sp ∧ s1.maptbl = s.maptbl ∧ s1.wp = s.wp ∧
    s1.rmap = (if mapped_ppa old = true then
        Function.update s.rmap (pgidx_of s.ssd.sp old) INVALID_LPN else s.rmap) ∧
    (∀ q, page_status s1 q =
      if mapped_ppa old = true ∧ same_page q old then some PG_INVALID else page_status s q) ∧
    (mapped_ppa old = true →
      page_status s old = some PG_VALID ∧ pgidx_of s.ssd.sp old < s.ssd.sp.tt_pgs) := by
  rcases conv_write_invalidate_spec h with ⟨hm, rfl⟩ | ⟨hm, a, ha, hr⟩
  · refine ⟨rfl, rfl, rfl, by simp [hm], fun q => by simp [hm], fun h2 => ?_⟩
    rw [hm] at h2
    exact absurd h2 (by decide)
  · obtain ⟨e1, e2, e3, e4, _e5⟩ := mark_page_invalid_spec ha
    obtain ⟨f1, f2⟩ := set_rmap_ent_spec hr
    have hmt : a.maptbl = s.maptbl := by rw [e4]
    have hwp : a.wp = s.wp := by rw [e4]
    have hrm : a.rmap = s.rmap := by rw [e4]
    rw [e3] at f1
    subst f2
    refine ⟨e3, hmt, hwp, ?_, ?_, fun _ => ⟨e1, f1⟩⟩
    · simp only [hm, if_true]
      show Function.update a.rmap (pgidx_of a.ssd.sp old) INVALID_LPN = _
      rw [hrm, e3]
    · intro q
      have hr : ∀ r, page_status { a with rmap := r } q = page_status a q := fun _ => rfl
      rw [hr, e2 q]
      simp [hm]

theorem get_new_page_wp {s s1 : conv_ftl} (h : s1.wp = s.wp) :
    get_new_page s1 USER_IO = get_new_page s USER_IO := by
  unfold get_new_page __get_wp
  simp [h, USER_IO]

theorem mapped_ppa_of_rsv {p : ppa} (h : p.rsv = 0) : mapped_ppa p = true := by
  unfold mapped_ppa
  have : p ≠ UNMAPPED_PPA := by
    intro e
    rw [e] at h
    exact absurd h (by decide)
  simp [this]

theorem page_status_same_page {s : conv_ftl} {p q : ppa} (h : same_page p q) :
    page_status s p = page_status s q := by
  obtain ⟨e1, e2, e3, e4, e5⟩ := h
  unfold page_status get_pg get_blk
  rw [e1, e2, e3, e4, e5]

theorem same_page_refl (p : ppa) : same_page p p := ⟨rfl, rfl, rfl, rfl, rfl⟩

theorem conv_write_map_spec {s s' : conv_ftl} {now L : Nat} {p : ppa}
    (h : conv_write_map s now L = some (s', p)) :
    ∃ s1 s2 s3 s4, conv_write_invalidate s now (s.maptbl L) = some s1 ∧
      get_new_page s1 USER_IO = some p ∧ set_maptbl_ent s1 L p = some s2 ∧
      set_rmap_ent s2 L p = some s3 ∧ mark_page_valid s3 p = some s4 ∧
      advance_write_pointer s4 USER_IO = some s' := by
  simp only [conv_write_map, get_maptbl_ent, bind, Option.bind_eq_some, pure,
    Option.some.injEq, Prod.mk.injEq] at h
  obtain ⟨s1, h1, p2, h2, s2, h3, s3, h4, s4, h5, s5, h6, e1, e2⟩ := h
  subst e1 e2
  exact ⟨s1, s2, s3, s4, h1, h2, h3, h4, h5, h6⟩

/-- What lines 1322-1343 of `conv_write` change in the mapping tables and the page states. -/
theorem conv_write_map_effect {s s' : conv_ftl} {now L : Nat} {p : ppa}
    (h : conv_write_map s now L = some (s', p)) :
    s'.ssd.sp = s.ssd.sp ∧ L < s.ssd.sp.tt_pgs ∧
    s'.maptbl = Function.update s.maptbl L p ∧
    pgidx_of s.ssd.sp p < s.ssd.sp.tt_pgs ∧
    s'.rmap = Function.update
      (if mapped_ppa (s.maptbl L) = true then
        Function.update s.rmap (pgidx_of s.ssd.sp (s.maptbl L)) INVALID_LPN else s.rmap)
      (pgidx_of s.ssd.sp p) L ∧
    (∀ q, page_status s' q =
      if same_page q p then some PG_VALID
      else if mapped_ppa (s.maptbl L) = true ∧ same_page q (s.maptbl L) then some PG_INVALID
      else page_status s q) ∧
    (mapped_ppa (s.maptbl L) = true →
      page_status s (s.maptbl L) = some PG_VALID ∧
        pgidx_of s.ssd.sp (s.maptbl L) < s.ssd.sp.tt_pgs) ∧
    page_status s p = some PG_FREE ∧
    ¬(mapped_ppa (s.maptbl L) = true ∧ same_page p (s.maptbl L)) ∧
    get_new_page s USER_IO = some p := by
  obtain ⟨s1, s2, s3, s4, h1, h2, h3, h4, h5, h6⟩ := conv_write_map_spec h
  obtain ⟨a1, a2, a3, a4, a5, a6⟩ := conv_write_invalidate_effect h1
  obtain ⟨b1, b2⟩ := set_maptbl_ent_spec h3
  subst b2
  obtain ⟨c1, c2⟩ := set_rmap_ent_spec h4
  subst c2
  obtain ⟨d1, d2, d3, d4, _, _⟩ := mark_page_valid_spec h5
  obtain ⟨e1, e2, e3⟩ := advance_write_pointer_frame h6
  have hsp4 : s4.ssd.sp = s.ssd.sp := d3.trans a1
  have hps1 : page_status s1 p = some PG_FREE := d1
  have hmt4 : s4.maptbl = Function.update s1.maptbl L p := by rw [d4]
  have hrm4 : s4.rmap = Function.update s1.rmap (pgidx_of s1.ssd.sp p) L := by rw [d4]
  have hnot : ¬(mapped_ppa (s.maptbl L) = true ∧ same_page p (s.maptbl L)) := by
    intro hh
    rw [a5 p, if_pos hh] at hps1
    exact absurd hps1 (by decide)
  have hfree : page_status s p = some PG_FREE := by
    rw [a5 p, if_neg hnot] at hps1
    exact hps1
  have b1s : L < s.ssd.sp.tt_pgs := by rw [← a1]; exact b1
  have c1s : pgidx_of s.ssd.sp p < s.ssd.sp.tt_pgs := by rw [← a1]; exact c1
  refine ⟨by rw [e1]; exact hsp4, b1s, ?_, c1s, ?_, ?_, a6, hfree, hnot, ?_⟩
  · rw [e2, hmt4, a2]
  · rw [e3, hrm4, a4, a1]
  · intro q
    have hq : page_status s' q = page_status s4 q := by
      unfold page_status
      rw [e1]
    rw [hq, d2 q]
    have hq1 : page_status
        { s1 with maptbl := Function.update s1.maptbl L p,
                  rmap := Function.update s1.rmap (pgidx_of s1.ssd.sp p) L } q =
        page_status s1 q := rfl
    by_cases hs : same_page q p
    · simp only [hs, if_true]
    · simp only [hs, if_false]
      exact hq1.trans (a5 q)
  · rw [← get_new_page_wp a3]
    exact h2

/-- C1: map consistency (P1) is preserved by the per-LPN write step of `conv_write` (lines
1322-1343: invalidate a mapped old page and clear its reverse-map entry, `get_new_page`,
`set_maptbl_ent`, `set_rmap_ent`, `mark_page_valid`, `advance_write_pointer`). For a geometry
with the derived sizes of `ssd_init_params` and a state in which every local LPN below
`tt_pgs` is unmapped or has `rmap[ppa2pgidx(maptbl[L])] = L` with a VALID page, every state
the step yields for any local LPN has the same property. The step yields a state only if the
page under the user write pointer is FREE (`mark_page_valid` asserts it). -/
theorem conv_write_map_consistent (s : conv_ftl) (now L : Nat)
    (hc : params_consistent s.ssd.sp) (hP : map_consistent s) :
    ∀ r, conv_write_map s now L = some r → map_consistent r.1 := by
  rintro ⟨s', p⟩ h
  obtain ⟨a1, a2, a3, a4, a5, a6, a7, a8, _a9, _a10⟩ := conv_write_map_effect h
  have hpr := page_status_in_range a8
  intro K hK
  show mapped_ppa (s'.maptbl K) = false ∨
    (get_rmap_ent s' (s'.maptbl K) = some K ∧ page_status s' (s'.maptbl K) = some PG_VALID)
  rw [a1] at hK
  by_cases hKL : K = L
  · subst hKL
    right
    rw [a3, Function.update_same]
    refine ⟨?_, ?_⟩
    · rw [get_rmap_ent_eq_some, a1, a5, Function.update_same]
      exact ⟨a4, rfl⟩
    · rw [a6 p, if_pos (same_page_refl p)]
  · rw [a3, Function.update_noteq hKL]
    rcases hP K hK with hu | ⟨hr, hv⟩
    · exact Or.inl hu
    · right
      obtain ⟨hr1, hr2⟩ := get_rmap_ent_eq_some.mp hr
      have hqr := page_status_in_range hv
      have hnp : ¬ same_page (s.maptbl K) p := by
        intro hs
        rw [page_status_same_page hs, a8] at hv
        exact absurd hv (by decide)
      have hip : pgidx_of s.ssd.sp (s.maptbl K) ≠ pgidx_of s.ssd.sp p :=
        fun he => hnp (pgidx_of_inj hc hqr hpr he)
      have hold : mapped_ppa (s.maptbl L) = true →
          pgidx_of s.ssd.sp (s.maptbl K) ≠ pgidx_of s.ssd.sp (s.maptbl L) := by
        intro hm he
        rcases hP L a2 with hu | ⟨hrL, _⟩
        · rw [hm] at hu
          exact absurd hu (by decide)
        · obtain ⟨_, hrL2⟩ := get_rmap_ent_eq_some.mp hrL
          rw [he] at hr2
          exact hKL (hr2.symm.trans hrL2)
      refine ⟨?_, ?_⟩
      · rw [get_rmap_ent_eq_some, a1, a5, Function.update_noteq hip]
        refine ⟨hr1, ?_⟩
        by_cases hm : mapped_ppa (s.maptbl L) = true
        · rw [if_pos hm, Function.update_noteq (hold hm)]
          exact hr2
        · rw [if_neg hm]
          exact hr2
      · rw [a6, if_neg hnp]
        by_cases hm : mapped_ppa (s.maptbl L) = true
        · have hns : ¬ same_page (s.maptbl K) (s.maptbl L) :=
            fun hs => hold hm (pgidx_of_same_page hs)
          rw [if_neg (fun hh => hns hh.2)]
          exact hv
        · rw [if_neg (fun hh => hm hh.1)]
          exact hv

/-- C1, witness: in `written_once_state` (LPN 0 mapped to the first page) the hypotheses
hold; writing LPN 0 again yields a state, and map consistency holds in it. -/
theorem conv_write_map_consistent_witness :
    mapped_ppa (written_once_state.maptbl 0) = true ∧
    params_consistent written_once_state.ssd.sp ∧ map_consistent written_once_state ∧
    ∃ r, conv_write_map written_once_state 6 0 = some r ∧ map_consistent r.1 :=
  ⟨by decide, by decide, by decide,
    (Option.isSome_iff_exists.mp
      (by decide : (conv_write_map written_once_state 6 0).isSome = true)).imp
      (fun r hr => ⟨hr, conv_write_map_consistent written_once_state 6 0 (by decide)
        (by decide) r hr⟩)⟩

theorem same_page_symm {p q : ppa} (h : same_page p q) : same_page q p :=
  ⟨h.1.symm, h.2.1.symm, h.2.2.1.symm, h.2.2.2.1.symm, h.2.2.2.2.symm⟩

theorem for_loop_from_inv {σ : Type} (body : Nat → σ → Option σ) (I : Nat → σ → Prop) :
    ∀ (n i : Nat) (s s' : σ), I i s →
      (∀ j t t', i ≤ j → j < i + n → I j t → body j t = some t' → I (j + 1) t') →
      for_loop_from body n i s = some s' → I (i + n) s' := by
  intro n
  induction n with
  | zero =>
    intro i s s' h0 _ h
    simp only [for_loop_from, Option.some.injEq] at h
    subst h
    exact h0
  | succ n ih =>
    intro i s s' h0 hstep h
    unfold for_loop_from at h
    cases hb : body i s with
    | none => simp [hb] at h
    | some s1 =>
      simp only [hb] at h
      have h1 : I (i + 1) s1 := hstep i s s1 (Nat.le_refl i) (by omega) h0 hb
      have h2 := ih (i + 1) s1 s' h1
        (fun j t t' hj1 hj2 => hstep j t t' (by omega) (by omega)) h
      have e : i + 1 + n = i + (n + 1) := by omega
      rw [e] at h2
      exact h2

theorem for_loop_inv {σ : Type} (body : Nat → σ → Option σ) (I : Nat → σ → Prop)
    (n : Nat) (s s' : σ) (h0 : I 0 s)
    (hstep : ∀ j t t', j < n → I j t → body j t = some t' → I (j + 1) t')
    (h : for_loop n body s = some s') : I n s' := by
  have h2 := for_loop_from_inv body I n 0 s s' h0
    (fun j t t' _ hj => hstep j t t' (by omega)) h
  rw [Nat.zero_add] at h2
  exact h2

/-- Invariant rule for the three nested loops of `do_gc`: an invariant indexed by the loop
counters that every call of the loop body advances holds at the end of the sweep. -/
theorem do_gc_sweep_inv (sp : ssdparams) (blk : Nat) (K : Nat → Nat → Nat → conv_ftl → Prop)
    (hsp : ∀ a b c t, K a b c t → t.ssd.sp = sp)
    (hstep : ∀ fp ch lun t t', fp < sp.flashpgs_per_blk → ch < sp.nchs →
      lun < sp.luns_per_ch → K fp ch lun t → do_gc_lun blk fp ch lun t = some t' →
      K fp ch (lun + 1) t')
    (hlun : ∀ fp ch t, K fp ch sp.luns_per_ch t → K fp (ch + 1) 0 t)
    (hch : ∀ fp t, K fp sp.nchs 0 t → K (fp + 1) 0 0 t)
    (s s' : conv_ftl) (h0 : K 0 0 0 s) (h : do_gc_sweep blk s = some s') :
    K sp.flashpgs_per_blk 0 0 s' := by
  have hs := hsp 0 0 0 s h0
  unfold do_gc_sweep at h
  rw [hs] at h
  refine for_loop_inv _ (fun fp t => K fp 0 0 t) sp.flashpgs_per_blk s s' h0 ?_ h
  intro fp t t' hfp hK hbody
  have ht := hsp fp 0 0 t hK
  simp only [ht] at hbody
  apply hch
  refine for_loop_inv _ (fun ch u => K fp ch 0 u) sp.nchs t t' hK ?_ hbody
  intro ch u u' hc hKu hb2
  have hu := hsp fp ch 0 u hKu
  simp only [hu] at hb2
  apply hlun
  exact for_loop_inv _ (fun lun w => K fp ch lun w) sp.luns_per_ch u u' hKu
    (fun lun w w' hl hKw hb3 => hstep fp ch lun w w' hfp hc hl hKw hb3) hb2

/-! ## Frame of the heap insertion and of the GC cursor advance -/

/-- `pqueue_insert` of line `c`: the members afterwards are former members or `c`, and the
record of a line that is neither is untouched. -/
theorem pqueue_insert_frame {lm lm2 : line_mgmt} {c rc : Nat}
    (hk : line_hooks lm.victim_line_pq)
    (h : pqueue_insert lm (some c) = some (lm2, rc)) :
    same_hooks lm.victim_line_pq lm2.victim_line_pq ∧
    lm2.free_line_list = lm.free_line_list ∧ lm2.free_line_cnt = lm.free_line_cnt ∧
    (∀ k, pq_member lm2 k → pq_member lm k ∨ k = c) ∧
    (∀ k, k ≠ c → ¬ pq_member lm k → lm2.lines k = lm.lines k) ∧
    same_but_pos lm.lines lm2.lines := by
  unfold pqueue_insert at h
  simp only at h
  cases hb : bubble_up (pq_set_d (pq_set_size lm (lm.victim_line_pq.size + 1))
      lm.victim_line_pq.size (some c)) lm.victim_line_pq.size with
  | none => simp [hb] at h
  | some lm1 =>
    simp only [hb, Option.some.injEq, Prod.mk.injEq] at h
    obtain ⟨h1, _⟩ := h
    subst h1
    obtain ⟨e1, ⟨π, hfix, hd⟩, e3⟩ := @bubble_up_spec (pq_set_d (pq_set_size lm
      (lm.victim_line_pq.size + 1)) lm.victim_line_pq.size (some c)) _ _ hk hb
    have hd2 : lm1.victim_line_pq.d =
        Function.update lm.victim_line_pq.d lm.victim_line_pq.size (some c) ∘ π := hd
    have hsz : lm1.victim_line_pq.size = lm.victim_line_pq.size + 1 := by rw [e1]; rfl
    have hmem : ∀ x k, x ≤ lm.victim_line_pq.size → (x = lm.victim_line_pq.size ∨ 1 ≤ x) →
        lm1.victim_line_pq.d x = some k → pq_member lm k ∨ k = c := by
      intro x k hx1 hx2 hdx
      rw [hd2, Function.comp_apply] at hdx
      by_cases hp : π x = lm.victim_line_pq.size
      · rw [hp, Function.update_same] at hdx
        exact Or.inr (Option.some.inj hdx).symm
      · rw [Function.update_noteq hp] at hdx
        by_cases hx0 : 1 ≤ x
        · have hr := (perm_fix_range hfix x).mpr ⟨hx0, hx1⟩
          exact Or.inl ⟨π x, hr.1, by omega, hdx⟩
        · have hxe : x = lm.victim_line_pq.size := by omega
          have hfx : π x = x := hfix x (by omega)
          rw [hfx] at hp
          exact absurd hxe hp
    refine ⟨same_hooks_pq_with e1, by rw [e1]; rfl, by rw [e1]; rfl, ?_, ?_, ?_⟩
    · rintro k ⟨i, hi1, hi2, hi3⟩
      rw [hsz] at hi2
      exact hmem i k (by omega) (Or.inr hi1) hi3
    · intro k hkc hkm
      rcases e3 k with hA | ⟨x, hx1, hx2, hx3, _⟩
      · exact hA
      · rcases hmem x k hx1 hx2 hx3 with hm | hm
        · exact absurd hm hkm
        · exact absurd hm hkc
    · exact same_but_pos_of_cases (fun j => (e3 j).imp id (fun ⟨x, _, _, _, hx⟩ => ⟨x, hx⟩))

/-! ## Heap membership under the four operations -/

theorem dec_u64_pos {n : Nat} (h : 1 ≤ n) : dec_u64 n = n - 1 := by
  unfold dec_u64
  rw [if_neg (by omega)]

theorem pq_member_of_perm {lm2 : line_mgmt} {f : Nat → Option Nat} {π : Equiv.Perm Nat}
    {n : Nat} (hsz : lm2.victim_line_pq.size = n)
    (hfix : ∀ x, ¬(1 ≤ x ∧ x < n) → π x = x)
    (hd : lm2.victim_line_pq.d = f ∘ π) (k : Nat) :
    pq_member lm2 k ↔ ∃ y, (1 ≤ y ∧ y < n) ∧ f y = some k := by
  rw [← exists_comp_perm f hfix (some k)]
  unfold pq_member
  rw [hsz, hd]
  constructor
  · rintro ⟨i, a, b, c⟩; exact ⟨i, ⟨a, b⟩, c⟩
  · rintro ⟨i, ⟨a, b⟩, c⟩; exact ⟨i, a, b, c⟩

theorem pqueue_insert_total {lm : line_mgmt} (hf : pq_filled lm) (x : Nat) :
    ∃ lm2, pqueue_insert lm (some x) = some (lm2, 0) := by
  unfold pqueue_insert
  simp only
  obtain ⟨lm2, h2⟩ := @bubble_up_total (pq_set_d (pq_set_size lm
      (lm.victim_line_pq.size + 1)) lm.victim_line_pq.size (some x)) lm.victim_line_pq.size
    (by
      intro y hy1 hy2
      obtain ⟨k, hk⟩ := hf y hy1 hy2
      refine ⟨k, ?_⟩
      show Function.update lm.victim_line_pq.d lm.victim_line_pq.size (some x) y = some k
      rw [Function.update_noteq (by omega)]
      exact hk)
    ⟨x, by
      show Function.update lm.victim_line_pq.d lm.victim_line_pq.size (some x)
        lm.victim_line_pq.size = some x
      rw [Function.update_same]⟩
  exact ⟨lm2, by rw [h2]⟩

theorem pqueue_insert_member {lm lm2 : line_mgmt} {c rc : Nat}
    (hk : line_hooks lm.victim_line_pq) (hs : 1 ≤ lm.victim_line_pq.size)
    (h : pqueue_insert lm (some c) = some (lm2, rc)) (k : Nat) :
    pq_member lm2 k ↔ (pq_member lm k ∨ k = c) := by
  obtain ⟨_, e1, ⟨π, hfix, hd⟩, _⟩ := pqueue_insert_spec hk h
  have hsz : lm2.victim_line_pq.size = lm.victim_line_pq.size + 1 := by rw [e1]; rfl
  have hfix2 : ∀ x, ¬(1 ≤ x ∧ x < lm.victim_line_pq.size + 1) → π x = x :=
    fun x hx => hfix x (fun hh => hx ⟨hh.1, by omega⟩)
  rw [pq_member_of_perm hsz hfix2 hd k]
  constructor
  · rintro ⟨y, ⟨hy1, hy2⟩, hy⟩
    by_cases hys : y = lm.victim_line_pq.size
    · subst hys
      rw [Function.update_same] at hy
      exact Or.inr (Option.some.inj hy).symm
    · rw [Function.update_noteq hys] at hy
      exact Or.inl ⟨y, hy1, by omega, hy⟩
  · rintro (⟨i, hi1, hi2, hi⟩ | hkc)
    · exact ⟨i, ⟨hi1, by omega⟩, by rw [Function.update_noteq (by omega)]; exact hi⟩
    · exact ⟨lm.victim_line_pq.size, ⟨hs, by omega⟩, by rw [Function.update_same, hkc]⟩

theorem pqueue_remove_returns {lm : line_mgmt} {k : Nat}
    (hk : line_hooks lm.victim_line_pq) (hh : pq_handles lm) (hm : pq_member lm k) :
    ∃ lm2, pqueue_remove lm (some k) = some (lm2, 0) := by
  obtain ⟨p, hp1, hp2, hp3⟩ := hm
  obtain ⟨k2, hk2, hpos⟩ := hh p hp1 hp2
  rw [hp3] at hk2
  simp only [Option.some.injEq] at hk2
  subst hk2
  have hf := pq_handles_filled hh
  have hdec : dec_u64 lm.victim_line_pq.size = lm.victim_line_pq.size - 1 :=
    dec_u64_pos (by omega)
  obtain ⟨kl, hkl⟩ := hf (lm.victim_line_pq.size - 1) (by omega) (by omega)
  unfold pqueue_remove
  simp only
  rw [hk.2.1]
  simp only [victim_line_get_pos, hpos, hdec]
  have hd1 : (pq_set_d (pq_set_size lm (lm.victim_line_pq.size - 1)) p
      (lm.victim_line_pq.d (lm.victim_line_pq.size - 1))).victim_line_pq.d p = some kl := by
    simp [pq_set_d, pq_set_size, hkl]
  rw [hd1]
  simp only [pq_getpri]
  have hfill : ∀ x, 1 ≤ x → x < lm.victim_line_pq.size - 1 →
      ∃ k3, (pq_set_d (pq_set_size lm (lm.victim_line_pq.size - 1)) p
        (lm.victim_line_pq.d (lm.victim_line_pq.size - 1))).victim_line_pq.d x = some k3 := by
    intro x hx1 hx2
    by_cases hx : x = p
    · subst hx
      exact ⟨kl, hd1⟩
    · obtain ⟨k3, hk3⟩ := hf x hx1 (by omega)
      exact ⟨k3, by simp [pq_set_d, pq_set_size, Function.update_noteq hx, hk3]⟩
  split_ifs with hc
  · obtain ⟨lm3, h3⟩ := @bubble_up_total (pq_set_d (pq_set_size lm
        (lm.victim_line_pq.size - 1)) p (lm.victim_line_pq.d (lm.victim_line_pq.size - 1))) p
      (by
        intro x hx1 hx2
        obtain ⟨k3, hk3⟩ := hf x hx1 (by omega)
        exact ⟨k3, by simp [pq_set_d, pq_set_size, Function.update_noteq (by omega : x ≠ p), hk3]⟩)
      ⟨kl, hd1⟩
    rw [h3]
    exact ⟨_, rfl⟩
  · obtain ⟨lm3, h3⟩ := @percolate_down_total (pq_set_d (pq_set_size lm
        (lm.victim_line_pq.size - 1)) p (lm.victim_line_pq.d (lm.victim_line_pq.size - 1))) p
      hfill hp1 ⟨kl, hd1⟩
    rw [h3]
    exact ⟨_, rfl⟩

theorem pqueue_change_priority_returns {lm : line_mgmt} {k : Nat} (p : Nat)
    (hk : line_hooks lm.victim_line_pq) (hh : pq_handles lm) (hm : pq_member lm k) :
    ∃ lm2, pqueue_change_priority lm p (some k) = some lm2 := by
  obtain ⟨i, hi1, hi2, hi3⟩ := hm
  obtain ⟨k2, hk2, hpos⟩ := hh i hi1 hi2
  rw [hi3] at hk2
  simp only [Option.some.injEq] at hk2
  subst hk2
  have hf := pq_handles_filled hh
  unfold pqueue_change_priority
  simp only
  rw [hk.1, hk.2.1]
  have hpos2 : victim_line_get_pos
      ((Function.update lm.lines k (victim_line_set_pri (lm.lines k) p)) k) = i := by
    rw [Function.update_same]
    exact hpos
  simp only [hpos2]
  split_ifs with hc
  · exact @bubble_up_total
      { lm with lines := Function.update lm.lines k (victim_line_set_pri (lm.lines k) p) } i
      (fun x hx1 hx2 => hf x hx1 (by omega)) ⟨k, hi3⟩
  · exact @percolate_down_total
      { lm with lines := Function.update lm.lines k (victim_line_set_pri (lm.lines k) p) } i
      hf hi1 ⟨k, hi3⟩

theorem pqueue_change_priority_member {lm lm2 : line_mgmt} {k p : Nat}
    (hk : line_hooks lm.victim_line_pq) (hh : pq_handles lm) (hm : pq_member lm k)
    (h : pqueue_change_priority lm p (some k) = some lm2) :
    (∀ j, pq_member lm2 j ↔ pq_member lm j) ∧ (lm2.lines k).vpc = p ∧
    lm2.victim_line_pq.size = lm.victim_line_pq.size := by
  obtain ⟨i, hi1, hi2, hi3⟩ := hm
  obtain ⟨k2, hk2, hpos⟩ := hh i hi1 hi2
  rw [hi3] at hk2
  simp only [Option.some.injEq] at hk2
  subst hk2
  obtain ⟨e1, ⟨π, hfix, hd⟩, e3⟩ := pqueue_change_priority_spec hk h
  have hsz : lm2.victim_line_pq.size = lm.victim_line_pq.size := by rw [e1]; rfl
  have hfix2 : ∀ x, ¬(1 ≤ x ∧ x < lm.victim_line_pq.size) → π x = x := by
    intro x hx
    apply hfix
    rw [hpos]
    intro hh2
    apply hx
    omega
  refine ⟨fun j => ?_, ?_, hsz⟩
  · rw [pq_member_of_perm hsz hfix2 hd j]
    constructor
    · rintro ⟨y, ⟨a, b⟩, c⟩; exact ⟨y, a, b, c⟩
    · rintro ⟨y, a, b, c⟩; exact ⟨y, ⟨a, b⟩, c⟩
  · rcases e3 k with hA | ⟨x, _, hx⟩
    · rw [hA, Function.update_same]
    · rw [hx, Function.update_same]

/-! ## Positional handles (P4) under the four operations -/

theorem pq_setpos_eq_some {lm lm2 : line_mgmt} {p : Option Nat} {i : Nat}
    (h : pq_setpos lm p i = some lm2) :
    ∃ k, p = some k ∧
      lm2 = { lm with lines := Function.update lm.lines k (lm.victim_line_pq.setpos (lm.lines k) i) } := by
  unfold pq_setpos at h
  cases p with
  | none => simp at h
  | some k =>
    simp only [Option.some.injEq] at h
    exact ⟨k, rfl, h.symm⟩

/-- Moving the item at index `src` into the hole `i` and recording its new position keeps
the handles around the new hole `src`. -/
theorem hole_handles_move {lm lm2 : line_mgmt} {i src m : Nat}
    (hk : line_hooks lm.victim_line_pq) (hH : hole_handles lm i m)
    (hs1 : 1 ≤ src) (hs2 : src < lm.victim_line_pq.size) (hsi : src ≠ i)
    (h : pq_setpos (pq_set_d lm i (lm.victim_line_pq.d src)) (lm.victim_line_pq.d src) i =
      some lm2) :
    line_hooks lm2.victim_line_pq ∧ lm2.victim_line_pq.size = lm.victim_line_pq.size ∧
      hole_handles lm2 src m := by
  obtain ⟨kp, hkp, hpos, hne⟩ := hH src hs1 hs2 hsi
  obtain ⟨k, hk1, hk2⟩ := pq_setpos_eq_some h
  rw [hkp] at hk1
  have hkk : k = kp := (Option.some.inj hk1).symm
  subst hkk
  subst hk2
  refine ⟨hk, rfl, ?_⟩
  intro x hx1 hx2 hxs
  have hx2b : x < lm.victim_line_pq.size := hx2
  show ∃ k2, Function.update lm.victim_line_pq.d i (lm.victim_line_pq.d src) x = some k2 ∧
    (Function.update lm.lines k (lm.victim_line_pq.setpos (lm.lines k) i) k2).pos = x ∧ k2 ≠ m
  by_cases hxi : x = i
  · subst hxi
    refine ⟨k, by rw [Function.update_same, hkp], ?_, hne⟩
    rw [Function.update_same, hk.2.2]
    rfl
  · obtain ⟨k2, a, b, c⟩ := hH x hx1 hx2b hxi
    refine ⟨k2, by rw [Function.update_noteq hxi]; exact a, ?_, c⟩
    have hk2 : k2 ≠ k := by
      intro e
      rw [e] at b
      omega
    rw [Function.update_noteq hk2]
    exact b

theorem bubble_up_loop_handles (mp m : Nat) :
    ∀ (fuel : Nat) (lm : line_mgmt) (i : Nat) (r : line_mgmt × Nat),
      line_hooks lm.victim_line_pq → i ≤ lm.victim_line_pq.size → hole_handles lm i m →
      bubble_up_loop mp fuel lm i = some r →
      line_hooks r.1.victim_line_pq ∧ r.1.victim_line_pq.size = lm.victim_line_pq.size ∧
        hole_handles r.1 r.2 m := by
  intro fuel
  induction fuel with
  | zero => intro lm i r _ _ _ h; simp [bubble_up_loop] at h
  | succ fuel ih =>
    intro lm i r hk hi hH h
    unfold bubble_up_loop at h
    split_ifs at h with h1
    · cases hg : pq_getpri lm (lm.victim_line_pq.d (i / 2)) with
      | none => simp [hg] at h
      | some pp =>
        simp only [hg] at h
        split_ifs at h with h2
        · cases hs : pq_setpos (pq_set_d lm i (lm.victim_line_pq.d (i / 2)))
              (lm.victim_line_pq.d (i / 2)) i with
          | none => simp [hs] at h
          | some lm2 =>
            simp only [hs] at h
            obtain ⟨a, b, c⟩ := hole_handles_move hk hH (by omega) (by omega) (by omega) hs
            obtain ⟨a2, b2, c2⟩ := ih lm2 (i / 2) r a (by omega) c h
            exact ⟨a2, b2.trans b, c2⟩
        · simp only [Option.some.injEq] at h
          subst h
          exact ⟨hk, rfl, hH⟩
    · simp only [Option.some.injEq] at h
      subst h
      exact ⟨hk, rfl, hH⟩

theorem percolate_down_loop_handles (mp m : Nat) :
    ∀ (fuel : Nat) (lm : line_mgmt) (i : Nat) (r : line_mgmt × Nat),
      line_hooks lm.victim_line_pq → hole_handles lm i m →
      percolate_down_loop mp fuel lm i = some r →
      line_hooks r.1.victim_line_pq ∧ r.1.victim_line_pq.size = lm.victim_line_pq.size ∧
        hole_handles r.1 r.2 m := by
  intro fuel
  induction fuel with
  | zero => intro lm i r _ _ h; simp [percolate_down_loop] at h
  | succ fuel ih =>
    intro lm i r hk hH h
    unfold percolate_down_loop at h
    cases hmc : maxchild lm i with
    | none => simp [hmc] at h
    | some c =>
      simp only [hmc] at h
      split_ifs at h with h1
      · cases hg : pq_getpri lm (lm.victim_line_pq.d c) with
        | none => simp [hg] at h
        | some cp =>
          simp only [hg] at h
          split_ifs at h with h2
          · cases hs : pq_setpos (pq_set_d lm i (lm.victim_line_pq.d c))
                (lm.victim_line_pq.d c) i with
            | none => simp [hs] at h
            | some lm2 =>
              simp only [hs] at h
              have hc := maxchild_cases hmc
              obtain ⟨a, b, c3⟩ := hole_handles_move hk hH (by omega) (by omega) (by omega) hs
              obtain ⟨a2, b2, c2⟩ := ih lm2 c r a c3 h
              exact ⟨a2, b2.trans b, c2⟩
          · simp only [Option.some.injEq] at h
            subst h
            exact ⟨hk, rfl, hH⟩
      · simp only [Option.some.injEq] at h
        subst h
        exact ⟨hk, rfl, hH⟩

/-- Dropping the moving item `m` into the hole restores the handles. -/
theorem hole_handles_fill {lm lm2 : line_mgmt} {j m : Nat}
    (hk : line_hooks lm.victim_line_pq) (hH : hole_handles lm j m)
    (h : pq_setpos (pq_set_d lm j (some m)) (some m) j = some lm2) :
    line_hooks lm2.victim_line_pq ∧ lm2.victim_line_pq.size = lm.victim_line_pq.size ∧
      pq_handles lm2 := by
  obtain ⟨k, hk1, hk2⟩ := pq_setpos_eq_some h
  have hkk : k = m := (Option.some.inj hk1).symm
  subst hkk
  subst hk2
  refine ⟨hk, rfl, ?_⟩
  intro x hx1 hx2
  have hx2b : x < lm.victim_line_pq.size := hx2
  show ∃ k2, Function.update lm.victim_line_pq.d j (some k) x = some k2 ∧
    (Function.update lm.lines k (lm.victim_line_pq.setpos (lm.lines k) j) k2).pos = x
  by_cases hxj : x = j
  · subst hxj
    refine ⟨k, by rw [Function.update_same], ?_⟩
    rw [Function.update_same, hk.2.2]
    rfl
  · obtain ⟨k2, a, b, c⟩ := hH x hx1 hx2b hxj
    refine ⟨k2, by rw [Function.update_noteq hxj]; exact a, ?_⟩
    rw [Function.update_noteq c]
    exact b

theorem bubble_up_handles {lm lm2 : line_mgmt} {i m : Nat}
    (hk : line_hooks lm.victim_line_pq) (hi : i ≤ lm.victim_line_pq.size)
    (hm : lm.victim_line_pq.d i = some m) (hH : hole_handles lm i m)
    (h : bubble_up lm i = some lm2) :
    lm2.victim_line_pq.size = lm.victim_line_pq.size ∧ pq_handles lm2 := by
  unfold bubble_up at h
  simp only [hm, pq_getpri] at h
  cases hl : bubble_up_loop (lm.victim_line_pq.getpri (lm.lines m)) (i + 1) lm i with
  | none => simp [hl] at h
  | some r =>
    obtain ⟨lm1, j⟩ := r
    simp only [hl] at h
    obtain ⟨a, b, c⟩ := bubble_up_loop_handles _ m _ lm i _ hk hi hH hl
    obtain ⟨_, b2, c2⟩ := hole_handles_fill a c h
    exact ⟨b2.trans b, c2⟩

theorem percolate_down_handles {lm lm2 : line_mgmt} {i m : Nat}
    (hk : line_hooks lm.victim_line_pq)
    (hm : lm.victim_line_pq.d i = some m) (hH : hole_handles lm i m)
    (h : percolate_down lm i = some lm2) :
    lm2.victim_line_pq.size = lm.victim_line_pq.size ∧ pq_handles lm2 := by
  unfold percolate_down at h
  simp only [hm, pq_getpri] at h
  cases hl : percolate_down_loop (lm.victim_line_pq.getpri (lm.lines m))
      (lm.victim_line_pq.size + 2) lm i with
  | none => simp [hl] at h
  | some r =>
    obtain ⟨lm1, j⟩ := r
    simp only [hl] at h
    obtain ⟨a, b, c⟩ := percolate_down_loop_handles _ m _ lm i _ hk hH hl
    obtain ⟨_, b2, c2⟩ := hole_handles_fill a c h
    exact ⟨b2.trans b, c2⟩

theorem pq_handles_positions {lm : line_mgmt} (hh : pq_handles lm) : pq_positions lm := by
  intro k hm
  obtain ⟨i, hi1, hi2, hi3⟩ := hm
  obtain ⟨k2, hk2, hpos⟩ := hh i hi1 hi2
  rw [hi3] at hk2
  have e : k = k2 := Option.some.inj hk2
  subst e
  rw [hpos]
  unfold pqueue_size
  exact ⟨hi3, hi1, by omega⟩

theorem pqueue_insert_handles {lm lm2 : line_mgmt} {x rc : Nat}
    (hk : line_hooks lm.victim_line_pq) (hh : pq_handles lm) (hx : ¬ pq_member lm x)
    (h : pqueue_insert lm (some x) = some (lm2, rc)) : pq_handles lm2 := by
  unfold pqueue_insert at h
  simp only at h
  cases hb : bubble_up (pq_set_d (pq_set_size lm (lm.victim_line_pq.size + 1))
      lm.victim_line_pq.size (some x)) lm.victim_line_pq.size with
  | none => simp [hb] at h
  | some lm1 =>
    simp only [hb, Option.some.injEq, Prod.mk.injEq] at h
    obtain ⟨h1, _⟩ := h
    subst h1
    refine (@bubble_up_handles (pq_set_d (pq_set_size lm (lm.victim_line_pq.size + 1))
      lm.victim_line_pq.size (some x)) lm1 lm.victim_line_pq.size x hk ?_ ?_ ?_ hb).2
    · show lm.victim_line_pq.size ≤ lm.victim_line_pq.size + 1
      omega
    · show Function.update lm.victim_line_pq.d lm.victim_line_pq.size (some x)
        lm.victim_line_pq.size = some x
      rw [Function.update_same]
    · intro y hy1 hy2 hy3
      have hy2b : y < lm.victim_line_pq.size + 1 := hy2
      obtain ⟨k, a, b⟩ := hh y hy1 (by omega)
      refine ⟨k, ?_, b, ?_⟩
      · show Function.update lm.victim_line_pq.d lm.victim_line_pq.size (some x) y = some k
        rw [Function.update_noteq hy3]
        exact a
      · intro e
        subst e
        exact hx ⟨y, hy1, by omega, a⟩

theorem hole_handles_last {lm : line_mgmt} (hh : pq_handles lm) {p kl : Nat}
    (hs : 2 ≤ lm.victim_line_pq.size)
    (hkl : lm.victim_line_pq.d (lm.victim_line_pq.size - 1) = some kl) :
    hole_handles (pq_set_d (pq_set_size lm (lm.victim_line_pq.size - 1)) p
      (lm.victim_line_pq.d (lm.victim_line_pq.size - 1))) p kl := by
  intro y hy1 hy2 hy3
  have hy2b : y < lm.victim_line_pq.size - 1 := hy2
  obtain ⟨k, a, b⟩ := hh y hy1 (by omega)
  refine ⟨k, ?_, b, ?_⟩
  · show Function.update lm.victim_line_pq.d p
      (lm.victim_line_pq.d (lm.victim_line_pq.size - 1)) y = some k
    rw [Function.update_noteq hy3]
    exact a
  · intro e
    subst e
    have := pq_handles_inj hh (i := y) (j := lm.victim_line_pq.size - 1)
      ⟨hy1, by omega⟩ ⟨by omega, by omega⟩ a hkl
    omega

theorem pqueue_pop_handles {lm lm2 : line_mgmt} {v : Option Nat}
    (hk : line_hooks lm.victim_line_pq) (hh : pq_handles lm)
    (hs : 1 ≤ lm.victim_line_pq.size)
    (h : pqueue_pop lm = some (lm2, v)) : pq_handles lm2 := by
  unfold pqueue_pop at h
  split_ifs at h with h1
  · simp only [Option.some.injEq, Prod.mk.injEq] at h
    rw [← h.1]
    exact hh
  · have hdec := dec_u64_pos hs
    rw [hdec] at h
    obtain ⟨kl, hkl⟩ := pq_handles_filled hh (lm.victim_line_pq.size - 1) (by omega) (by omega)
    cases hp : percolate_down (pq_set_d (pq_set_size lm (lm.victim_line_pq.size - 1)) 1
        (lm.victim_line_pq.d (lm.victim_line_pq.size - 1))) 1 with
    | none => simp [hp] at h
    | some lm1 =>
      simp only [hp, Option.some.injEq, Prod.mk.injEq] at h
      rw [← h.1]
      have hk1 : line_hooks (pq_set_d (pq_set_size lm (lm.victim_line_pq.size - 1)) 1
          (lm.victim_line_pq.d (lm.victim_line_pq.size - 1))).victim_line_pq := hk
      have hd1 : (pq_set_d (pq_set_size lm (lm.victim_line_pq.size - 1)) 1
          (lm.victim_line_pq.d (lm.victim_line_pq.size - 1))).victim_line_pq.d 1 = some kl := by
        simp [pq_set_d, pq_set_size, hkl]
      exact (percolate_down_handles hk1 hd1 (hole_handles_last hh (by omega) hkl) hp).2

theorem pqueue_remove_handles {lm lm2 : line_mgmt} {x rc : Nat}
    (hk : line_hooks lm.victim_line_pq) (hh : pq_handles lm) (hx : pq_member lm x)
    (h : pqueue_remove lm (some x) = some (lm2, rc)) : pq_handles lm2 := by
  obtain ⟨p, hp1, hp2, hp3⟩ := hx
  obtain ⟨k2, hk2, hpos⟩ := hh p hp1 hp2
  rw [hp3] at hk2
  simp only [Option.some.injEq] at hk2
  subst hk2
  have hdec : dec_u64 lm.victim_line_pq.size = lm.victim_line_pq.size - 1 :=
    dec_u64_pos (by omega)
  obtain ⟨kl, hkl⟩ := pq_handles_filled hh (lm.victim_line_pq.size - 1) (by omega) (by omega)
  unfold pqueue_remove at h
  simp only at h
  rw [hk.2.1] at h
  simp only [victim_line_get_pos, hpos, hdec] at h
  have hd1 : (pq_set_d (pq_set_size lm (lm.victim_line_pq.size - 1)) p
      (lm.victim_line_pq.d (lm.victim_line_pq.size - 1))).victim_line_pq.d p = some kl := by
    simp [pq_set_d, pq_set_size, hkl]
  rw [hd1] at h
  simp only [pq_getpri] at h
  have hH := @hole_handles_last lm hh p kl (by omega) hkl
  have hk1 : line_hooks (pq_set_d (pq_set_size lm (lm.victim_line_pq.size - 1)) p
      (lm.victim_line_pq.d (lm.victim_line_pq.size - 1))).victim_line_pq := hk
  have hle : p ≤ (pq_set_d (pq_set_size lm (lm.victim_line_pq.size - 1)) p
      (lm.victim_line_pq.d (lm.victim_line_pq.size - 1))).victim_line_pq.size := by
    show p ≤ lm.victim_line_pq.size - 1
    omega
  split_ifs at h with hc
  · cases hb : bubble_up (pq_set_d (pq_set_size lm (lm.victim_line_pq.size - 1)) p
        (lm.victim_line_pq.d (lm.victim_line_pq.size - 1))) p with
    | none => simp [hb] at h
    | some lm1 =>
      simp only [hb, Option.some.injEq, Prod.mk.injEq] at h
      rw [← h.1]
      exact (bubble_up_handles hk1 hle hd1 hH hb).2
  · cases hb : percolate_down (pq_set_d (pq_set_size lm (lm.victim_line_pq.size - 1)) p
        (lm.victim_line_pq.d (lm.victim_line_pq.size - 1))) p with
    | none => simp [hb] at h
    | some lm1 =>
      simp only [hb, Option.some.injEq, Prod.mk.injEq] at h
      rw [← h.1]
      exact (percolate_down_handles hk1 hd1 hH hb).2

theorem sift_handles {lmx lm2 : line_mgmt} {i x : Nat} {c : Prop} [Decidable c]
    (h : (if c then bubble_up lmx i else percolate_down lmx i) = some lm2)
    (hk : line_hooks lmx.victim_line_pq) (hi : i ≤ lmx.victim_line_pq.size)
    (hd : lmx.victim_line_pq.d i = some x) (hH : hole_handles lmx i x) : pq_handles lm2 := by
  split_ifs at h with hc
  · exact (bubble_up_handles hk hi hd hH h).2
  · exact (percolate_down_handles hk hd hH h).2

theorem pqueue_change_priority_handles {lm lm2 : line_mgmt} {x p : Nat}
    (hk : line_hooks lm.victim_line_pq) (hh : pq_handles lm) (hx : pq_member lm x)
    (h : pqueue_change_priority lm p (some x) = some lm2) : pq_handles lm2 := by
  obtain ⟨i, hi1, hi2, hi3⟩ := hx
  obtain ⟨k2, hk2, hpos⟩ := hh i hi1 hi2
  rw [hi3] at hk2
  simp only [Option.some.injEq] at hk2
  subst hk2
  unfold pqueue_change_priority at h
  simp only at h
  rw [hk.1, hk.2.1] at h
  have hpos2 : victim_line_get_pos
      ((Function.update lm.lines x (victim_line_set_pri (lm.lines x) p)) x) = i := by
    rw [Function.update_same]
    exact hpos
  simp only [hpos2] at h
  have hH : hole_handles
      { lm with lines := Function.update lm.lines x (victim_line_set_pri (lm.lines x) p) }
      i x := by
    intro y hy1 hy2 hy3
    obtain ⟨k, a, b⟩ := hh y hy1 hy2
    have hkx : k ≠ x := by
      intro e
      subst e
      omega
    refine ⟨k, a, ?_, hkx⟩
    show (Function.update lm.lines x (victim_line_set_pri (lm.lines x) p) k).pos = y
    rw [Function.update_noteq hkx]
    exact b
  exact sift_handles h hk (Nat.le_of_lt hi2) hi3 hH

/-- C12: positional handles (P4). For a heap with the line hooks and any comparator in
which index `i` of `[1, size)` holds a line whose `pos` is `i`: `pqueue_insert` of a line not
in the heap, `pqueue_pop`, `pqueue_remove` of a member and `pqueue_change_priority` of a
member all return, and afterwards the same holds again; so every item `x` in the heap
afterwards has `d[pos(x)] = x` with `1 ≤ pos(x) ≤ n`. -/
theorem pqueue_handles_preserved (lm : line_mgmt) (hk : line_hooks lm.victim_line_pq)
    (hh : pq_handles lm) (hs : 1 ≤ lm.victim_line_pq.size) :
    (∀ x, ¬ pq_member lm x → ∃ lm2, pqueue_insert lm (some x) = some (lm2, 0) ∧
      pq_handles lm2 ∧ pq_positions lm2) ∧
    (∃ lm2 v, pqueue_pop lm = some (lm2, v) ∧ pq_handles lm2 ∧ pq_positions lm2) ∧
    (∀ x, pq_member lm x → ∃ lm2, pqueue_remove lm (some x) = some (lm2, 0) ∧
      pq_handles lm2 ∧ pq_positions lm2) ∧
    (∀ x p, pq_member lm x → ∃ lm2, pqueue_change_priority lm p (some x) = some lm2 ∧
      pq_handles lm2 ∧ pq_positions lm2) := by
  refine ⟨?_, ?_, ?_, ?_⟩
  · intro x hx
    obtain ⟨lm2, h2⟩ := pqueue_insert_total (pq_handles_filled hh) x
    have h3 := pqueue_insert_handles hk hh hx h2
    exact ⟨lm2, h2, h3, pq_handles_positions h3⟩
  · by_cases h1 : lm.victim_line_pq.size = 1
    · refine ⟨lm, none, ?_, hh, pq_handles_positions hh⟩
      unfold pqueue_pop
      rw [if_pos h1]
    · obtain ⟨⟨lm2, v⟩, h2⟩ := pqueue_pop_total (pq_handles_filled hh) (by omega)
      have h3 := pqueue_pop_handles hk hh hs h2
      exact ⟨lm2, v, h2, h3, pq_handles_positions h3⟩
  · intro x hx
    obtain ⟨lm2, h2⟩ := pqueue_remove_returns hk hh hx
    have h3 := pqueue_remove_handles hk hh hx h2
    exact ⟨lm2, h2, h3, pq_handles_positions h3⟩
  · intro x p hx
    obtain ⟨lm2, h2⟩ := pqueue_change_priority_returns p hk hh hx
    have h3 := pqueue_change_priority_handles hk hh hx h2
    exact ⟨lm2, h2, h3, pq_handles_positions h3⟩

/-- C12, witness: the heap of `one_victim_state` (member line 0 at index 1) satisfies the
hypotheses; after `pqueue_change_priority` of line 0 to priority 0 the handles hold. -/
theorem pqueue_handles_preserved_witness :
    line_hooks one_victim_state.lm.victim_line_pq ∧ pq_handles one_victim_state.lm ∧
    pq_member one_victim_state.lm 0 ∧
    ∃ lm2, pqueue_change_priority one_victim_state.lm 0 (some 0) = some lm2 ∧
      pq_handles lm2 ∧ pq_positions lm2 :=
  ⟨one_victim_state_hooks.1, one_victim_state_handles, ⟨1, by decide, by decide, by decide⟩,
    (pqueue_handles_preserved one_victim_state.lm one_victim_state_hooks.1
      one_victim_state_handles (by decide)).2.2.2 0 0 ⟨1, by decide, by decide, by decide⟩⟩

/-! ## Heap order (P3) under the four operations, Greedy hooks -/

theorem move_frame {lm lm2 : line_mgmt} {i src : Nat}
    (hk : greedy_hooks lm.victim_line_pq)
    (h : pq_setpos (pq_set_d lm i (lm.victim_line_pq.d src)) (lm.victim_line_pq.d src) i =
      some lm2) :
    ∃ ks, lm.victim_line_pq.d src = some ks ∧
      lm2.victim_line_pq.d = Function.update lm.victim_line_pq.d i (some ks) ∧
      (∀ a, (lm2.lines a).vpc = (lm.lines a).vpc) ∧
      lm2.victim_line_pq.size = lm.victim_line_pq.size ∧ greedy_hooks lm2.victim_line_pq := by
  obtain ⟨k, hk1, hk2⟩ := pq_setpos_eq_some h
  subst hk2
  refine ⟨k, hk1, by rw [hk1]; rfl, ?_, rfl, hk⟩
  intro a
  show (Function.update lm.lines k (lm.victim_line_pq.setpos (lm.lines k) i) a).vpc = _
  by_cases ha : a = k
  · subst ha
    rw [Function.update_same, hk.1.2.2]
    rfl
  · rw [Function.update_noteq ha]

theorem bubble_up_loop_valid (mp : Nat) :
    ∀ (fuel : Nat) (lm : line_mgmt) (i : Nat) (r : line_mgmt × Nat),
      greedy_hooks lm.victim_line_pq → i ≤ lm.victim_line_pq.size →
      hole_valid lm i → le_children lm i mp →
      bubble_up_loop mp fuel lm i = some r →
      greedy_hooks r.1.victim_line_pq ∧ r.1.victim_line_pq.size = lm.victim_line_pq.size ∧
        (∀ a, (r.1.lines a).vpc = (lm.lines a).vpc) ∧
        hole_valid r.1 r.2 ∧ le_children r.1 r.2 mp ∧ parent_le r.1 r.2 mp := by
  intro fuel
  induction fuel with
  | zero => intro lm i r _ _ _ _ h; simp [bubble_up_loop] at h
  | succ fuel ih =>
    intro lm i r hk hi hV hC h
    unfold bubble_up_loop at h
    split_ifs at h with h1
    · cases hg : pq_getpri lm (lm.victim_line_pq.d (i / 2)) with
      | none => simp [hg] at h
      | some pp =>
        simp only [hg] at h
        obtain ⟨kp, hkp, hpp⟩ := pq_getpri_eq_some hg
        rw [hk.2.2] at hpp
        have hpp2 : pp = (lm.lines kp).vpc := hpp
        split_ifs at h with h2
        · rw [hk.2.1] at h2
          have hlt : mp < pp := by simpa [cmp_pri_greedy] using h2
          cases hs : pq_setpos (pq_set_d lm i (lm.victim_line_pq.d (i / 2)))
              (lm.victim_line_pq.d (i / 2)) i with
          | none => simp [hs] at h
          | some lm2 =>
            simp only [hs] at h
            obtain ⟨ks, e1, e2, e3, e4, e5⟩ := move_frame hk hs
            rw [hkp] at e1
            have eks : ks = kp := (Option.some.inj e1).symm
            subst eks
            have hV2 : hole_valid lm2 (i / 2) := by
              refine ⟨?_, ?_⟩
              · intro x hx1 hx2 hx3 hx4 a b ha hb
                rw [e4] at hx2
                rw [e2] at ha hb
                rw [e3, e3]
                have hxi : x ≠ i := fun e => hx4 (by rw [e])
                rw [Function.update_noteq hxi] at hb
                by_cases hxp : x / 2 = i
                · rw [hxp, Function.update_same] at ha
                  have ea : a = ks := (Option.some.inj ha).symm
                  subst ea
                  exact hV.2 x (by omega) hx2 hxp _ _ hkp hb
                · rw [Function.update_noteq hxp] at ha
                  exact hV.1 x hx1 hx2 hxi hxp _ _ ha hb
              · intro x hp2 hx2 hxp a b ha hb
                rw [e4] at hx2
                rw [e2] at ha hb
                rw [e3, e3]
                rw [Function.update_noteq (by omega)] at ha
                have hpar : (lm.lines a).vpc ≤ (lm.lines ks).vpc :=
                  hV.1 (i / 2) hp2 (by omega) (by omega) (by omega) _ _ ha hkp
                by_cases hxi : x = i
                · rw [hxi, Function.update_same] at hb
                  have eb : b = ks := (Option.some.inj hb).symm
                  subst eb
                  exact hpar
                · rw [Function.update_noteq hxi] at hb
                  have hch : (lm.lines ks).vpc ≤ (lm.lines b).vpc :=
                    hV.1 x (by omega) hx2 hxi (by omega) _ _ (by rw [hxp]; exact hkp) hb
                  omega
            have hC2 : le_children lm2 (i / 2) mp := by
              intro x b hx2 hxp hb
              rw [e4] at hx2
              rw [e2] at hb
              rw [e3]
              by_cases hxi : x = i
              · rw [hxi, Function.update_same] at hb
                have eb : b = ks := (Option.some.inj hb).symm
                subst eb
                omega
              · rw [Function.update_noteq hxi] at hb
                have hch : (lm.lines ks).vpc ≤ (lm.lines b).vpc :=
                  hV.1 x (by omega) hx2 hxi (by omega) _ _ (by rw [hxp]; exact hkp) hb
                omega
            obtain ⟨a1, a2, a3, a4, a5, a6⟩ :=
              ih lm2 (i / 2) r e5 (by rw [e4]; omega) hV2 hC2 h
            exact ⟨a1, a2.trans e4, fun a => (a3 a).trans (e3 a), a4, a5, a6⟩
        · simp only [Option.some.injEq] at h
          subst h
          refine ⟨hk, rfl, fun _ => rfl, hV, hC, ?_⟩
          intro _ a ha
          rw [hk.2.1] at h2
          have hle : ¬ mp < pp := by simpa [cmp_pri_greedy] using h2
          have ha2 : lm.victim_line_pq.d (i / 2) = some a := ha
          rw [hkp] at ha2
          have ea : a = kp := (Option.some.inj ha2).symm
          subst ea
          show (lm.lines a).vpc ≤ mp
          omega
    · simp only [Option.some.injEq] at h
      subst h
      exact ⟨hk, rfl, fun _ => rfl, hV, hC, fun h2 => absurd h2 (by omega)⟩

theorem maxchild_min {lm : line_mgmt} {i c : Nat} (hk : greedy_hooks lm.victim_line_pq)
    (hi : 1 ≤ i) (h : maxchild lm i = some c) :
    (c = 0 ∧ lm.victim_line_pq.size ≤ 2 * i) ∨
    (c ≠ 0 ∧ c / 2 = i ∧ c < lm.victim_line_pq.size ∧
      ∀ x a b, x < lm.victim_line_pq.size → x / 2 = i → lm.victim_line_pq.d c = some a →
        lm.victim_line_pq.d x = some b → (lm.lines a).vpc ≤ (lm.lines b).vpc) := by
  unfold maxchild at h
  simp only at h
  split_ifs at h with h1 h2
  · left
    exact ⟨(Option.some.inj h).symm, h1⟩
  · right
    cases hl : pq_getpri lm (lm.victim_line_pq.d (2 * i)) with
    | none => simp [hl] at h
    | some pl =>
      cases hr : pq_getpri lm (lm.victim_line_pq.d (2 * i + 1)) with
      | none => simp [hl, hr] at h
      | some pr =>
        simp only [hl, hr] at h
        obtain ⟨kl, hkl, hpl⟩ := pq_getpri_eq_some hl
        obtain ⟨kr, hkr, hpr⟩ := pq_getpri_eq_some hr
        rw [hk.2.2] at hpl hpr
        have hpl2 : pl = (lm.lines kl).vpc := hpl
        have hpr2 : pr = (lm.lines kr).vpc := hpr
        rw [hk.2.1] at h
        split_ifs at h with h3
        · have hlt : pr < pl := by simpa [cmp_pri_greedy] using h3
          have hc : c = 2 * i + 1 := (Option.some.inj h).symm
          subst hc
          refine ⟨by omega, by omega, h2, ?_⟩
          intro x a b hx1 hx2 ha hb
          rw [hkr] at ha
          have ea : a = kr := (Option.some.inj ha).symm
          subst ea
          have hx : x = 2 * i ∨ x = 2 * i + 1 := by omega
          rcases hx with e | e
          · rw [e, hkl] at hb
            have eb : b = kl := (Option.some.inj hb).symm
            subst eb
            omega
          · rw [e, hkr] at hb
            have eb : b = a := (Option.some.inj hb).symm
            subst eb
            exact Nat.le_refl _
        · have hlt : ¬ pr < pl := by simpa [cmp_pri_greedy] using h3
          have hc : c = 2 * i := (Option.some.inj h).symm
          subst hc
          refine ⟨by omega, by omega, by omega, ?_⟩
          intro x a b hx1 hx2 ha hb
          rw [hkl] at ha
          have ea : a = kl := (Option.some.inj ha).symm
          subst ea
          have hx : x = 2 * i ∨ x = 2 * i + 1 := by omega
          rcases hx with e | e
          · rw [e, hkl] at hb
            have eb : b = a := (Option.some.inj hb).symm
            subst eb
            exact Nat.le_refl _
          · rw [e, hkr] at hb
            have eb : b = kr := (Option.some.inj hb).symm
            subst eb
            omega
  · right
    have hc : c = 2 * i := (Option.some.inj h).symm
    subst hc
    refine ⟨by omega, by omega, by omega, ?_⟩
    intro x a b hx1 hx2 ha hb
    have hx : x = 2 * i := by omega
    rw [hx, ha] at hb
    have eb : b = a := (Option.some.inj hb).symm
    subst eb
    exact Nat.le_refl _

theorem percolate_down_loop_valid (mp : Nat) :
    ∀ (fuel : Nat) (lm : line_mgmt) (i : Nat) (r : line_mgmt × Nat),
      greedy_hooks lm.victim_line_pq → 1 ≤ i →
      hole_valid lm i → parent_le lm i mp →
      percolate_down_loop mp fuel lm i = some r →
      greedy_hooks r.1.victim_line_pq ∧ r.1.victim_line_pq.size = lm.victim_line_pq.size ∧
        (∀ a, (r.1.lines a).vpc = (lm.lines a).vpc) ∧
        hole_valid r.1 r.2 ∧ le_children r.1 r.2 mp ∧ parent_le r.1 r.2 mp := by
  intro fuel
  induction fuel with
  | zero => intro lm i r _ _ _ _ h; simp [percolate_down_loop] at h
  | succ fuel ih =>
    intro lm i r hk hi hV hP h
    unfold percolate_down_loop at h
    cases hmc : maxchild lm i with
    | none => simp [hmc] at h
    | some c =>
      simp only [hmc] at h
      rcases maxchild_min hk hi hmc with ⟨hc0, hsz⟩ | ⟨hc0, hci, hcs, hmin⟩
      · rw [if_neg (by simpa using hc0)] at h
        simp only [Option.some.injEq] at h
        subst h
        refine ⟨hk, rfl, fun _ => rfl, hV, ?_, hP⟩
        intro x b hx1 hx2 _
        have hx1b : x < lm.victim_line_pq.size := hx1
        omega
      · rw [if_pos hc0] at h
        cases hg : pq_getpri lm (lm.victim_line_pq.d c) with
        | none => simp [hg] at h
        | some cp =>
          simp only [hg] at h
          obtain ⟨kc, hkc, hcp⟩ := pq_getpri_eq_some hg
          rw [hk.2.2] at hcp
          have hcp2 : cp = (lm.lines kc).vpc := hcp
          rw [hk.2.1] at h
          split_ifs at h with h2
          · have hlt : cp < mp := by simpa [cmp_pri_greedy] using h2
            cases hs : pq_setpos (pq_set_d lm i (lm.victim_line_pq.d c))
                (lm.victim_line_pq.d c) i with
            | none => simp [hs] at h
            | some lm2 =>
              simp only [hs] at h
              obtain ⟨ks, e1, e2, e3, e4, e5⟩ := move_frame hk hs
              rw [hkc] at e1
              have eks : ks = kc := (Option.some.inj e1).symm
              subst eks
              have hci2 : c ≠ i := by omega
              have hV2 : hole_valid lm2 c := by
                refine ⟨?_, ?_⟩
                · intro x hx1 hx2 hx3 hx4 a b ha hb
                  rw [e4] at hx2
                  rw [e2] at ha hb
                  rw [e3, e3]
                  by_cases hxi : x = i
                  · rw [hxi, Function.update_same] at hb
                    have eb : b = ks := (Option.some.inj hb).symm
                    subst eb
                    rw [hxi, Function.update_noteq (by omega)] at ha
                    exact hV.2 c (by omega) hcs hci _ _ ha hkc
                  · rw [Function.update_noteq hxi] at hb
                    by_cases hxp : x / 2 = i
                    · rw [hxp, Function.update_same] at ha
                      have ea : a = ks := (Option.some.inj ha).symm
                      subst ea
                      exact hmin x _ _ hx2 hxp hkc hb
                    · rw [Function.update_noteq hxp] at ha
                      exact hV.1 x hx1 hx2 hxi hxp _ _ ha hb
                · intro x _ hx2 hxp a b ha hb
                  rw [e4] at hx2
                  rw [e2] at ha hb
                  rw [e3, e3]
                  rw [hci, Function.update_same] at ha
                  have ea : a = ks := (Option.some.inj ha).symm
                  subst ea
                  rw [Function.update_noteq (by omega)] at hb
                  exact hV.1 x (by omega) hx2 (by omega) (by omega) _ _
                    (by rw [hxp]; exact hkc) hb
              have hP2 : parent_le lm2 c mp := by
                intro _ a ha
                rw [e2, hci, Function.update_same] at ha
                have ea : a = ks := (Option.some.inj ha).symm
                subst ea
                rw [e3]
                omega
              obtain ⟨a1, a2, a3, a4, a5, a6⟩ := ih lm2 c r e5 (by omega) hV2 hP2 h
              exact ⟨a1, a2.trans e4, fun a => (a3 a).trans (e3 a), a4, a5, a6⟩
          · simp only [Option.some.injEq] at h
            subst h
            have hle : ¬ cp < mp := by simpa [cmp_pri_greedy] using h2
            refine ⟨hk, rfl, fun _ => rfl, hV, ?_, hP⟩
            intro x b hx1 hx2 hb
            have h3 := hmin x _ _ hx1 hx2 hkc hb
            show mp ≤ (lm.lines b).vpc
            omega

/-- Dropping the moving item into the hole of an array ordered around the hole gives a valid
heap. -/
theorem hole_valid_fill {lm lm2 : line_mgmt} {j m : Nat}
    (hk : greedy_hooks lm.victim_line_pq) (hV : hole_valid lm j)
    (hC : le_children lm j (lm.lines m).vpc) (hP : parent_le lm j (lm.lines m).vpc)
    (h : pq_setpos (pq_set_d lm j (some m)) (some m) j = some lm2) :
    greedy_hooks lm2.victim_line_pq ∧ lm2.victim_line_pq.size = lm.victim_line_pq.size ∧
      (∀ a, (lm2.lines a).vpc = (lm.lines a).vpc) ∧ pq_valid lm2 := by
  obtain ⟨k, hk1, hk2⟩ := pq_setpos_eq_some h
  have hkk : k = m := (Option.some.inj hk1).symm
  subst hkk
  have hvpc : ∀ a, (lm2.lines a).vpc = (lm.lines a).vpc := by
    intro a
    rw [hk2]
    show (Function.update lm.lines k (lm.victim_line_pq.setpos (lm.lines k) j) a).vpc = _
    by_cases ha : a = k
    · subst ha
      rw [Function.update_same, hk.1.2.2]
      rfl
    · rw [Function.update_noteq ha]
  have hd : lm2.victim_line_pq.d = Function.update lm.victim_line_pq.d j (some k) := by
    rw [hk2]; rfl
  have hsz : lm2.victim_line_pq.size = lm.victim_line_pq.size := by rw [hk2]; rfl
  have hg : greedy_hooks lm2.victim_line_pq := by rw [hk2]; exact hk
  refine ⟨hg, hsz, hvpc, ?_⟩
  intro i a b hi1 hi2 ha hb
  rw [hg.2.2]
  show (lm2.lines a).vpc ≤ (lm2.lines b).vpc
  rw [hvpc, hvpc]
  rw [hsz] at hi2
  rw [hd] at ha hb
  by_cases hij : i = j
  · rw [hij, Function.update_same] at hb
    have eb : b = k := (Option.some.inj hb).symm
    subst eb
    rw [hij, Function.update_noteq (by omega)] at ha
    exact hP (by omega) a ha
  · rw [Function.update_noteq hij] at hb
    by_cases hip : i / 2 = j
    · rw [hip, Function.update_same] at ha
      have ea : a = k := (Option.some.inj ha).symm
      subst ea
      exact hC i b hi2 hip hb
    · rw [Function.update_noteq hip] at ha
      exact hV.1 i hi1 hi2 hij hip _ _ ha hb

theorem bubble_up_valid {lm lm2 : line_mgmt} {i m : Nat}
    (hk : greedy_hooks lm.victim_line_pq) (hi : i ≤ lm.victim_line_pq.size)
    (hm : lm.victim_line_pq.d i = some m) (hV : hole_valid lm i)
    (hC : le_children lm i (lm.lines m).vpc)
    (h : bubble_up lm i = some lm2) : pq_valid lm2 := by
  unfold bubble_up at h
  simp only [hm, pq_getpri] at h
  rw [hk.2.2] at h
  cases hl : bubble_up_loop (get_pri_greedy (lm.lines m)) (i + 1) lm i with
  | none => simp [hl] at h
  | some r =>
    obtain ⟨lm1, j⟩ := r
    simp only [hl] at h
    obtain ⟨a1, _, a3, a4, a5, a6⟩ := bubble_up_loop_valid _ _ lm i _ hk hi hV hC hl
    have e : (lm1.lines m).vpc = get_pri_greedy (lm.lines m) := a3 m
    have a5b : le_children lm1 j (lm1.lines m).vpc := by rw [e]; exact a5
    have a6b : parent_le lm1 j (lm1.lines m).vpc := by rw [e]; exact a6
    exact (hole_valid_fill a1 a4 a5b a6b h).2.2.2

theorem percolate_down_valid {lm lm2 : line_mgmt} {i m : Nat}
    (hk : greedy_hooks lm.victim_line_pq) (hi : 1 ≤ i)
    (hm : lm.victim_line_pq.d i = some m) (hV : hole_valid lm i)
    (hP : parent_le lm i (lm.lines m).vpc)
    (h : percolate_down lm i = some lm2) : pq_valid lm2 := by
  unfold percolate_down at h
  simp only [hm, pq_getpri] at h
  rw [hk.2.2] at h
  cases hl : percolate_down_loop (get_pri_greedy (lm.lines m))
      (lm.victim_line_pq.size + 2) lm i with
  | none => simp [hl] at h
  | some r =>
    obtain ⟨lm1, j⟩ := r
    simp only [hl] at h
    obtain ⟨a1, _, a3, a4, a5, a6⟩ := percolate_down_loop_valid _ _ lm i _ hk hi hV hP hl
    have e : (lm1.lines m).vpc = get_pri_greedy (lm.lines m) := a3 m
    have a5b : le_children lm1 j (lm1.lines m).vpc := by rw [e]; exact a5
    have a6b : parent_le lm1 j (lm1.lines m).vpc := by rw [e]; exact a6
    exact (hole_valid_fill a1 a4 a5b a6b h).2.2.2

theorem sift_valid {lmx lm2 : line_mgmt} {i m : Nat} {c : Prop} [Decidable c]
    (h : (if c then bubble_up lmx i else percolate_down lmx i) = some lm2)
    (hk : greedy_hooks lmx.victim_line_pq) (hi1 : 1 ≤ i) (hi : i ≤ lmx.victim_line_pq.size)
    (hd : lmx.victim_line_pq.d i = some m) (hV : hole_valid lmx i)
    (hC : c → le_children lmx i (lmx.lines m).vpc)
    (hP : ¬ c → parent_le lmx i (lmx.lines m).vpc) : pq_valid lm2 := by
  split_ifs at h with hc
  · exact bubble_up_valid hk hi hd hV (hC hc) h
  · exact percolate_down_valid hk hi1 hd hV (hP hc) h

theorem pq_valid_vpc {lm : line_mgmt} (hk : greedy_hooks lm.victim_line_pq) (hv : pq_valid lm)
    {i a b : Nat} (h1 : 2 ≤ i) (h2 : i < lm.victim_line_pq.size)
    (ha : lm.victim_line_pq.d (i / 2) = some a) (hb : lm.victim_line_pq.d i = some b) :
    (lm.lines a).vpc ≤ (lm.lines b).vpc := by
  have h := hv i a b h1 h2 ha hb
  rw [hk.2.2] at h
  exact h

theorem pqueue_insert_valid {lm lm2 : line_mgmt} {x rc : Nat}
    (hk : greedy_hooks lm.victim_line_pq) (hv : pq_valid lm)
    (hs : 1 ≤ lm.victim_line_pq.size)
    (h : pqueue_insert lm (some x) = some (lm2, rc)) : pq_valid lm2 := by
  unfold pqueue_insert at h
  simp only at h
  cases hb : bubble_up (pq_set_d (pq_set_size lm (lm.victim_line_pq.size + 1))
      lm.victim_line_pq.size (some x)) lm.victim_line_pq.size with
  | none => simp [hb] at h
  | some lm1 =>
    simp only [hb, Option.some.injEq, Prod.mk.injEq] at h
    rw [← h.1]
    have hk1 : greedy_hooks (pq_set_d (pq_set_size lm (lm.victim_line_pq.size + 1))
        lm.victim_line_pq.size (some x)).victim_line_pq := hk
    have hd1 : (pq_set_d (pq_set_size lm (lm.victim_line_pq.size + 1))
        lm.victim_line_pq.size (some x)).victim_line_pq.d lm.victim_line_pq.size = some x := by
      simp [pq_set_d, pq_set_size]
    have hle : lm.victim_line_pq.size ≤ (pq_set_d (pq_set_size lm
        (lm.victim_line_pq.size + 1)) lm.victim_line_pq.size
        (some x)).victim_line_pq.size := by
      show lm.victim_line_pq.size ≤ lm.victim_line_pq.size + 1
      omega
    refine bubble_up_valid hk1 hle hd1 ⟨?_, ?_⟩ ?_ hb
    · intro y hy1 hy2 hy3 hy4 a b ha hb2
      have hy2b : y < lm.victim_line_pq.size + 1 := hy2
      have ha2 : Function.update lm.victim_line_pq.d lm.victim_line_pq.size (some x) (y / 2) =
          some a := ha
      have hb3 : Function.update lm.victim_line_pq.d lm.victim_line_pq.size (some x) y =
          some b := hb2
      rw [Function.update_noteq hy4] at ha2
      rw [Function.update_noteq hy3] at hb3
      exact pq_valid_vpc hk hv hy1 (by omega) ha2 hb3
    · intro y _ hy2 hy3 _ _ _ _
      have hy2b : y < lm.victim_line_pq.size + 1 := hy2
      omega
    · intro y _ hy2 hy3 _
      have hy2b : y < lm.victim_line_pq.size + 1 := hy2
      omega

theorem pqueue_pop_valid {lm lm2 : line_mgmt} {v : Option Nat}
    (hk : greedy_hooks lm.victim_line_pq) (hv : pq_valid lm) (hf : pq_filled lm)
    (hs : 1 ≤ lm.victim_line_pq.size)
    (h : pqueue_pop lm = some (lm2, v)) : pq_valid lm2 := by
  unfold pqueue_pop at h
  split_ifs at h with h1
  · simp only [Option.some.injEq, Prod.mk.injEq] at h
    rw [← h.1]
    exact hv
  · have hdec := dec_u64_pos hs
    rw [hdec] at h
    obtain ⟨kl, hkl⟩ := hf (lm.victim_line_pq.size - 1) (by omega) (by omega)
    cases hp : percolate_down (pq_set_d (pq_set_size lm (lm.victim_line_pq.size - 1)) 1
        (lm.victim_line_pq.d (lm.victim_line_pq.size - 1))) 1 with
    | none => simp [hp] at h
    | some lm1 =>
      simp only [hp, Option.some.injEq, Prod.mk.injEq] at h
      rw [← h.1]
      have hk1 : greedy_hooks (pq_set_d (pq_set_size lm (lm.victim_line_pq.size - 1)) 1
          (lm.victim_line_pq.d (lm.victim_line_pq.size - 1))).victim_line_pq := hk
      have hd1 : (pq_set_d (pq_set_size lm (lm.victim_line_pq.size - 1)) 1
          (lm.victim_line_pq.d (lm.victim_line_pq.size - 1))).victim_line_pq.d 1 = some kl := by
        simp [pq_set_d, pq_set_size, hkl]
      refine percolate_down_valid hk1 (Nat.le_refl 1) hd1 ⟨?_, ?_⟩ ?_ hp
      · intro y hy1 hy2 hy3 hy4 a b ha hb2
        have hy2b : y < lm.victim_line_pq.size - 1 := hy2
        have ha2 : Function.update lm.victim_line_pq.d 1
            (lm.victim_line_pq.d (lm.victim_line_pq.size - 1)) (y / 2) = some a := ha
        have hb3 : Function.update lm.victim_line_pq.d 1
            (lm.victim_line_pq.d (lm.victim_line_pq.size - 1)) y = some b := hb2
        rw [Function.update_noteq hy4] at ha2
        rw [Function.update_noteq hy3] at hb3
        exact pq_valid_vpc hk hv hy1 (by omega) ha2 hb3
      · intro y h2 _ _ _ _ _ _
        omega
      · intro h2 _ _
        omega

theorem pqueue_remove_valid {lm lm2 : line_mgmt} {x rc : Nat}
    (hk : greedy_hooks lm.victim_line_pq) (hv : pq_valid lm) (hh : pq_handles lm)
    (hx : pq_member lm x)
    (h : pqueue_remove lm (some x) = some (lm2, rc)) : pq_valid lm2 := by
  obtain ⟨p, hp1, hp2, hp3⟩ := hx
  obtain ⟨k2, hk2, hpos⟩ := hh p hp1 hp2
  rw [hp3] at hk2
  simp only [Option.some.injEq] at hk2
  subst hk2
  have hdec : dec_u64 lm.victim_line_pq.size = lm.victim_line_pq.size - 1 :=
    dec_u64_pos (by omega)
  obtain ⟨kl, hkl⟩ := pq_handles_filled hh (lm.victim_line_pq.size - 1) (by omega) (by omega)
  unfold pqueue_remove at h
  simp only at h
  rw [hk.1.2.1] at h
  simp only [victim_line_get_pos, hpos, hdec] at h
  have hd1 : (pq_set_d (pq_set_size lm (lm.victim_line_pq.size - 1)) p
      (lm.victim_line_pq.d (lm.victim_line_pq.size - 1))).victim_line_pq.d p = some kl := by
    simp [pq_set_d, pq_set_size, hkl]
  rw [hd1] at h
  simp only [pq_getpri] at h
  have hk1 : greedy_hooks (pq_set_d (pq_set_size lm (lm.victim_line_pq.size - 1)) p
      (lm.victim_line_pq.d (lm.victim_line_pq.size - 1))).victim_line_pq := hk
  have hle : p ≤ (pq_set_d (pq_set_size lm (lm.victim_line_pq.size - 1)) p
      (lm.victim_line_pq.d (lm.victim_line_pq.size - 1))).victim_line_pq.size := by
    show p ≤ lm.victim_line_pq.size - 1
    omega
  have hV : hole_valid (pq_set_d (pq_set_size lm (lm.victim_line_pq.size - 1)) p
      (lm.victim_line_pq.d (lm.victim_line_pq.size - 1))) p := by
    refine ⟨?_, ?_⟩
    · intro y hy1 hy2 hy3 hy4 a b ha hb2
      have hy2b : y < lm.victim_line_pq.size - 1 := hy2
      have ha2 : Function.update lm.victim_line_pq.d p
          (lm.victim_line_pq.d (lm.victim_line_pq.size - 1)) (y / 2) = some a := ha
      have hb3 : Function.update lm.victim_line_pq.d p
          (lm.victim_line_pq.d (lm.victim_line_pq.size - 1)) y = some b := hb2
      rw [Function.update_noteq hy4] at ha2
      rw [Function.update_noteq hy3] at hb3
      exact pq_valid_vpc hk hv hy1 (by omega) ha2 hb3
    · intro y hpp hy2 hy3 a b ha hb2
      have hy2b : y < lm.victim_line_pq.size - 1 := hy2
      have ha2 : Function.update lm.victim_line_pq.d p
          (lm.victim_line_pq.d (lm.victim_line_pq.size - 1)) (p / 2) = some a := ha
      have hb3 : Function.update lm.victim_line_pq.d p
          (lm.victim_line_pq.d (lm.victim_line_pq.size - 1)) y = some b := hb2
      rw [Function.update_noteq (by omega)] at ha2
      rw [Function.update_noteq (by omega)] at hb3
      have h1 := pq_valid_vpc hk hv hpp hp2 ha2 hp3
      have h2 := pq_valid_vpc hk hv (by omega : 2 ≤ y) (by omega) (by rw [hy3]; exact hp3) hb3
      exact Nat.le_trans h1 h2
  split_ifs at h with hc
  · have hc2 : lm.victim_line_pq.cmppri (lm.victim_line_pq.getpri (lm.lines x))
        (lm.victim_line_pq.getpri (lm.lines kl)) = true := hc
    rw [hk.2.1, hk.2.2] at hc2
    have hlt : (lm.lines kl).vpc < (lm.lines x).vpc := by
      simpa [cmp_pri_greedy, get_pri_greedy] using hc2
    cases hb : bubble_up (pq_set_d (pq_set_size lm (lm.victim_line_pq.size - 1)) p
        (lm.victim_line_pq.d (lm.victim_line_pq.size - 1))) p with
    | none => simp [hb] at h
    | some lm1 =>
      simp only [hb, Option.some.injEq, Prod.mk.injEq] at h
      rw [← h.1]
      refine bubble_up_valid hk1 hle hd1 hV ?_ hb
      intro y b hy2 hy3 hb2
      have hy2b : y < lm.victim_line_pq.size - 1 := hy2
      have hb3 : Function.update lm.victim_line_pq.d p
          (lm.victim_line_pq.d (lm.victim_line_pq.size - 1)) y = some b := hb2
      rw [Function.update_noteq (by omega)] at hb3
      have h2 := pq_valid_vpc hk hv (by omega : 2 ≤ y) (by omega) (by rw [hy3]; exact hp3) hb3
      show (lm.lines kl).vpc ≤ (lm.lines b).vpc
      omega
  · have hc2 : ¬ lm.victim_line_pq.cmppri (lm.victim_line_pq.getpri (lm.lines x))
        (lm.victim_line_pq.getpri (lm.lines kl)) = true := hc
    rw [hk.2.1, hk.2.2] at hc2
    have hlt : ¬ (lm.lines kl).vpc < (lm.lines x).vpc := by
      simpa [cmp_pri_greedy, get_pri_greedy] using hc2
    cases hb : percolate_down (pq_set_d (pq_set_size lm (lm.victim_line_pq.size - 1)) p
        (lm.victim_line_pq.d (lm.victim_line_pq.size - 1))) p with
    | none => simp [hb] at h
    | some lm1 =>
      simp only [hb, Option.some.injEq, Prod.mk.injEq] at h
      rw [← h.1]
      refine percolate_down_valid hk1 hp1 hd1 hV ?_ hb
      intro hpp a ha
      have ha2 : Function.update lm.victim_line_pq.d p
          (lm.victim_line_pq.d (lm.victim_line_pq.size - 1)) (p / 2) = some a := ha
      rw [Function.update_noteq (by omega)] at ha2
      have h1 := pq_valid_vpc hk hv hpp hp2 ha2 hp3
      show (lm.lines a).vpc ≤ (lm.lines kl).vpc
      omega

theorem pqueue_change_priority_valid {lm lm2 : line_mgmt} {x p : Nat}
    (hk : greedy_hooks lm.victim_line_pq) (hv : pq_valid lm) (hh : pq_handles lm)
    (hx : pq_member lm x)
    (h : pqueue_change_priority lm p (some x) = some lm2) : pq_valid lm2 := by
  obtain ⟨i, hi1, hi2, hi3⟩ := hx
  obtain ⟨k2, hk2, hpos⟩ := hh i hi1 hi2
  rw [hi3] at hk2
  simp only [Option.some.injEq] at hk2
  subst hk2
  unfold pqueue_change_priority at h
  simp only at h
  rw [hk.1.1, hk.1.2.1] at h
  have hpos2 : victim_line_get_pos
      ((Function.update lm.lines x (victim_line_set_pri (lm.lines x) p)) x) = i := by
    rw [Function.update_same]
    exact hpos
  simp only [hpos2] at h
  have hne : ∀ y b, 1 ≤ y → y < lm.victim_line_pq.size → y ≠ i →
      lm.victim_line_pq.d y = some b → b ≠ x := by
    intro y b hy1 hy2 hy3 hb e
    subst e
    exact hy3 (pq_handles_inj hh ⟨hy1, hy2⟩ ⟨hi1, hi2⟩ hb hi3)
  have hvpc : ∀ b, b ≠ x →
      (Function.update lm.lines x (victim_line_set_pri (lm.lines x) p) b).vpc =
        (lm.lines b).vpc := by
    intro b hb
    rw [Function.update_noteq hb]
  have hvx : (Function.update lm.lines x (victim_line_set_pri (lm.lines x) p) x).vpc = p := by
    rw [Function.update_same]
    rfl
  refine sift_valid h hk hi1 (Nat.le_of_lt hi2) hi3 ⟨?_, ?_⟩ ?_ ?_
  · intro y hy1 hy2 hy3 hy4 a b ha hb
    have hy2b : y < lm.victim_line_pq.size := hy2
    have ha2 : lm.victim_line_pq.d (y / 2) = some a := ha
    have hb2 : lm.victim_line_pq.d y = some b := hb
    show (Function.update lm.lines x (victim_line_set_pri (lm.lines x) p) a).vpc ≤
      (Function.update lm.lines x (victim_line_set_pri (lm.lines x) p) b).vpc
    rw [hvpc a (hne (y / 2) a (by omega) (by omega) hy4 ha2),
      hvpc b (hne y b (by omega) hy2b hy3 hb2)]
    exact pq_valid_vpc hk hv hy1 hy2b ha2 hb2
  · intro y hp2 hy2 hy3 a b ha hb
    have hy2b : y < lm.victim_line_pq.size := hy2
    have ha2 : lm.victim_line_pq.d (i / 2) = some a := ha
    have hb2 : lm.victim_line_pq.d y = some b := hb
    show (Function.update lm.lines x (victim_line_set_pri (lm.lines x) p) a).vpc ≤
      (Function.update lm.lines x (victim_line_set_pri (lm.lines x) p) b).vpc
    rw [hvpc a (hne (i / 2) a (by omega) (by omega) (by omega) ha2),
      hvpc b (hne y b (by omega) hy2b (by omega) hb2)]
    have h1 := pq_valid_vpc hk hv hp2 hi2 ha2 hi3
    have h2 := pq_valid_vpc hk hv (by omega : 2 ≤ y) hy2b (by rw [hy3]; exact hi3) hb2
    exact Nat.le_trans h1 h2
  · intro hc y b hy2 hy3 hb
    have hy2b : y < lm.victim_line_pq.size := hy2
    have hb2 : lm.victim_line_pq.d y = some b := hb
    rw [hk.2.1, hk.2.2] at hc
    have hlt : p < (lm.lines x).vpc := by simpa [cmp_pri_greedy, get_pri_greedy] using hc
    show (Function.update lm.lines x (victim_line_set_pri (lm.lines x) p) x).vpc ≤
      (Function.update lm.lines x (victim_line_set_pri (lm.lines x) p) b).vpc
    rw [hvx, hvpc b (hne y b (by omega) hy2b (by omega) hb2)]
    have h2 := pq_valid_vpc hk hv (by omega : 2 ≤ y) hy2b (by rw [hy3]; exact hi3) hb2
    omega
  · intro hc hp2 a ha
    have ha2 : lm.victim_line_pq.d (i / 2) = some a := ha
    rw [hk.2.1, hk.2.2] at hc
    have hlt : ¬ p < (lm.lines x).vpc := by simpa [cmp_pri_greedy, get_pri_greedy] using hc
    show (Function.update lm.lines x (victim_line_set_pri (lm.lines x) p) a).vpc ≤
      (Function.update lm.lines x (victim_line_set_pri (lm.lines x) p) x).vpc
    rw [hvx, hvpc a (hne (i / 2) a (by omega) (by omega) (by omega) ha2)]
    have h1 := pq_valid_vpc hk hv hp2 hi2 ha2 hi3
    omega

/-! ## `pqueue_is_valid` -/

theorem subtree_check_true {lm : line_mgmt} {rec : Nat → Option Bool} {pos c : Nat} :
    subtree_check lm rec pos c = some true ↔
      (c < lm.victim_line_pq.size → ∃ a b, lm.victim_line_pq.d pos = some a ∧
        lm.victim_line_pq.d c = some b ∧
        lm.victim_line_pq.cmppri (lm.victim_line_pq.getpri (lm.lines a))
          (lm.victim_line_pq.getpri (lm.lines b)) = false ∧ rec c = some true) := by
  unfold subtree_check
  by_cases hc : c < lm.victim_line_pq.size
  · rw [if_pos hc]
    cases ha : lm.victim_line_pq.d pos with
    | none => simp [pq_getpri, hc]
    | some a =>
      cases hb : lm.victim_line_pq.d c with
      | none => simp [pq_getpri, hc]
      | some b =>
        simp only [pq_getpri]
        by_cases hcmp : lm.victim_line_pq.cmppri (lm.victim_line_pq.getpri (lm.lines a))
            (lm.victim_line_pq.getpri (lm.lines b)) = true
        · simp [hcmp, hc]
        · simp [hcmp, hc]
  · simp [hc]

theorem subtree_is_valid_true {lm : line_mgmt} {fuel pos : Nat} :
    subtree_is_valid lm (fuel + 1) pos = some true ↔
      (subtree_check lm (subtree_is_valid lm fuel) pos (2 * pos) = some true ∧
        subtree_check lm (subtree_is_valid lm fuel) pos (2 * pos + 1) = some true) := by
  show (match subtree_check lm (subtree_is_valid lm fuel) pos (2 * pos) with
    | none => none
    | some false => some false
    | some true => subtree_check lm (subtree_is_valid lm fuel) pos (2 * pos + 1)) = some true ↔ _
  cases h1 : subtree_check lm (subtree_is_valid lm fuel) pos (2 * pos) with
  | none => simp
  | some v =>
    cases v with
    | false => simp
    | true => simp

theorem subtree_is_valid_of_valid {lm : line_mgmt} (hk : greedy_hooks lm.victim_line_pq)
    (hv : pq_valid lm) (hf : pq_filled lm) :
    ∀ fuel pos, 1 ≤ pos → lm.victim_line_pq.size ≤ pos + fuel →
      subtree_is_valid lm (fuel + 1) pos = some true := by
  intro fuel
  induction fuel with
  | zero =>
    intro pos h1 h2
    rw [subtree_is_valid_true, subtree_check_true, subtree_check_true]
    exact ⟨fun h => absurd h (by omega), fun h => absurd h (by omega)⟩
  | succ n ih =>
    intro pos h1 h2
    rw [subtree_is_valid_true, subtree_check_true, subtree_check_true]
    have key : ∀ c, c / 2 = pos → 2 ≤ c → c < lm.victim_line_pq.size →
        ∃ a b, lm.victim_line_pq.d pos = some a ∧ lm.victim_line_pq.d c = some b ∧
          lm.victim_line_pq.cmppri (lm.victim_line_pq.getpri (lm.lines a))
            (lm.victim_line_pq.getpri (lm.lines b)) = false ∧
          subtree_is_valid lm (n + 1) c = some true := by
      intro c hc1 hc2 hc3
      obtain ⟨a, ha⟩ := hf pos h1 (by omega)
      obtain ⟨b, hb⟩ := hf c (by omega) hc3
      refine ⟨a, b, ha, hb, ?_, ih c (by omega) (by omega)⟩
      have hle := pq_valid_vpc hk hv hc2 hc3 (by rw [hc1]; exact ha) hb
      rw [hk.2.1, hk.2.2]
      simp only [cmp_pri_greedy, get_pri_greedy, decide_eq_false_iff_not]
      omega
    exact ⟨fun h => key _ (by omega) (by omega) h, fun h => key _ (by omega) (by omega) h⟩

theorem pair_of_subtree_is_valid {lm : line_mgmt} (hk : greedy_hooks lm.victim_line_pq) :
    ∀ fuel pos, subtree_is_valid lm fuel pos = some true →
      ∀ n i, i / 2 ^ (n + 1) = pos → i < lm.victim_line_pq.size →
        ∀ a b, lm.victim_line_pq.d (i / 2) = some a → lm.victim_line_pq.d i = some b →
          (lm.lines a).vpc ≤ (lm.lines b).vpc := by
  intro fuel
  induction fuel with
  | zero => intro pos h; simp [subtree_is_valid] at h
  | succ f ih =>
    intro pos h n i hi1 hi2 a b ha hb
    rw [subtree_is_valid_true, subtree_check_true, subtree_check_true] at h
    have hc2 : i / 2 ^ n / 2 = pos := by
      rw [Nat.div_div_eq_div_mul, ← pow_succ]
      exact hi1
    have hcle : i / 2 ^ n ≤ i := Nat.div_le_self _ _
    have hcs : i / 2 ^ n < lm.victim_line_pq.size := by omega
    have hcase : i / 2 ^ n = 2 * pos ∨ i / 2 ^ n = 2 * pos + 1 := by omega
    have hchk : ∃ a0 b0, lm.victim_line_pq.d pos = some a0 ∧
        lm.victim_line_pq.d (i / 2 ^ n) = some b0 ∧
        lm.victim_line_pq.cmppri (lm.victim_line_pq.getpri (lm.lines a0))
          (lm.victim_line_pq.getpri (lm.lines b0)) = false ∧
        subtree_is_valid lm f (i / 2 ^ n) = some true := by
      rcases hcase with e | e
      · rw [e]
        exact h.1 (by omega)
      · rw [e]
        exact h.2 (by omega)
    obtain ⟨a0, b0, h1, h2, h3, h4⟩ := hchk
    cases n with
    | zero =>
      simp only [pow_zero, Nat.div_one] at h2 hc2
      rw [hc2, h1] at ha
      rw [h2] at hb
      have ea : a = a0 := (Option.some.inj ha).symm
      have eb : b = b0 := (Option.some.inj hb).symm
      subst ea eb
      rw [hk.2.1, hk.2.2] at h3
      simp only [cmp_pri_greedy, get_pri_greedy, decide_eq_false_iff_not] at h3
      omega
    | succ m => exact ih (i / 2 ^ (m + 1)) h4 m i rfl hi2 a b ha hb

theorem exists_pow_div_eq_one : ∀ i, 1 ≤ i → ∃ n, i / 2 ^ n = 1 := by
  intro i
  induction i using Nat.strong_induction_on with
  | _ i ih =>
    intro hi
    by_cases h1 : i = 1
    · exact ⟨0, by rw [h1]; rfl⟩
    · obtain ⟨n, hn⟩ := ih (i / 2) (by omega) (by omega)
      refine ⟨n + 1, ?_⟩
      rw [pow_succ, Nat.mul_comm, ← Nat.div_div_eq_div_mul]
      exact hn

/-- For the Greedy hooks and an array without `NULL` entries, `pqueue_is_valid` returns 1
exactly when every parent has a `vpc` no larger than its children. -/
theorem pqueue_is_valid_iff {lm : line_mgmt} (hk : greedy_hooks lm.victim_line_pq)
    (hf : pq_filled lm) : pqueue_is_valid lm = some true ↔ pq_valid lm := by
  unfold pqueue_is_valid
  constructor
  · intro h i a b hi1 hi2 ha hb
    rw [hk.2.2]
    obtain ⟨n, hn⟩ := exists_pow_div_eq_one (i / 2) (by omega)
    refine pair_of_subtree_is_valid hk _ 1 h n i ?_ hi2 a b ha hb
    rw [pow_succ, Nat.mul_comm, ← Nat.div_div_eq_div_mul]
    exact hn
  · intro hv
    exact subtree_is_valid_of_valid hk hv hf _ 1 (Nat.le_refl 1) (by omega)

theorem greedy_hooks_of_same {q q2 : pqueue_t} (hk : greedy_hooks q) (h : same_hooks q q2) :
    greedy_hooks q2 :=
  ⟨line_hooks_of_same hk.1 h, h.1.trans hk.2.1, h.2.1.trans hk.2.2⟩

/-- C11: heap validity (P3). For a heap with the Greedy hooks (priority `vpc`,
`cmp(next, curr) = next > curr`), consistent positional handles and
`pri(d[i/2]) ≤ pri(d[i])` for every `2 ≤ i ≤ n`: `pqueue_insert` of a line not in the heap,
`pqueue_pop`, `pqueue_remove` of a member and `pqueue_change_priority` of a member to any new
priority all return, the order holds in the resulting heap, and `pqueue_is_valid` returns 1
on it. -/
theorem pqueue_valid_preserved (lm : line_mgmt) (hk : greedy_hooks lm.victim_line_pq)
    (hh : pq_handles lm) (hv : pq_valid lm) (hs : 1 ≤ lm.victim_line_pq.size) :
    (∀ x, ¬ pq_member lm x → ∃ lm2, pqueue_insert lm (some x) = some (lm2, 0) ∧
      pq_valid lm2 ∧ pqueue_is_valid lm2 = some true) ∧
    (∃ lm2 v, pqueue_pop lm = some (lm2, v) ∧ pq_valid lm2 ∧
      pqueue_is_valid lm2 = some true) ∧
    (∀ x, pq_member lm x → ∃ lm2, pqueue_remove lm (some x) = some (lm2, 0) ∧
      pq_valid lm2 ∧ pqueue_is_valid lm2 = some true) ∧
    (∀ x p, pq_member lm x → ∃ lm2, pqueue_change_priority lm p (some x) = some lm2 ∧
      pq_valid lm2 ∧ pqueue_is_valid lm2 = some true) := by
  refine ⟨?_, ?_, ?_, ?_⟩
  · intro x hx
    obtain ⟨lm2, h2⟩ := pqueue_insert_total (pq_handles_filled hh) x
    have h3 := pqueue_insert_valid hk hv hs h2
    have h4 := pqueue_insert_handles hk.1 hh hx h2
    have h5 := greedy_hooks_of_same hk (pqueue_insert_frame hk.1 h2).1
    exact ⟨lm2, h2, h3, (pqueue_is_valid_iff h5 (pq_handles_filled h4)).mpr h3⟩
  · by_cases h1 : lm.victim_line_pq.size = 1
    · refine ⟨lm, none, ?_, hv, (pqueue_is_valid_iff hk (pq_handles_filled hh)).mpr hv⟩
      unfold pqueue_pop
      rw [if_pos h1]
    · obtain ⟨⟨lm2, v⟩, h2⟩ := pqueue_pop_total (pq_handles_filled hh) (by omega)
      have h3 := pqueue_pop_valid hk hv (pq_handles_filled hh) hs h2
      have h4 := pqueue_pop_handles hk.1 hh hs h2
      have h5 : greedy_hooks lm2.victim_line_pq := by
        obtain ⟨_, e1, _, _⟩ := pqueue_pop_spec hk.1 h1 h2
        exact greedy_hooks_of_same hk (same_hooks_pq_with e1)
      exact ⟨lm2, v, h2, h3, (pqueue_is_valid_iff h5 (pq_handles_filled h4)).mpr h3⟩
  · intro x hx
    obtain ⟨lm2, h2⟩ := pqueue_remove_returns hk.1 hh hx
    have h3 := pqueue_remove_valid hk hv hh hx h2
    have h4 := pqueue_remove_handles hk.1 hh hx h2
    have h5 : greedy_hooks lm2.victim_line_pq := by
      obtain ⟨_, e1, _, _⟩ := pqueue_remove_spec hk.1 h2
      exact greedy_hooks_of_same hk (same_hooks_pq_with e1)
    exact ⟨lm2, h2, h3, (pqueue_is_valid_iff h5 (pq_handles_filled h4)).mpr h3⟩
  · intro x p hx
    obtain ⟨lm2, h2⟩ := pqueue_change_priority_returns p hk.1 hh hx
    have h3 := pqueue_change_priority_valid hk hv hh hx h2
    have h4 := pqueue_change_priority_handles hk.1 hh hx h2
    have h5 : greedy_hooks lm2.victim_line_pq := by
      obtain ⟨e1, _, _⟩ := pqueue_change_priority_spec hk.1 h2
      exact greedy_hooks_of_same hk (same_hooks_pq_with0 e1)
    exact ⟨lm2, h2, h3, (pqueue_is_valid_iff h5 (pq_handles_filled h4)).mpr h3⟩

/-- C11, witness: the Greedy heap of `one_victim_state` satisfies the hypotheses; inserting
line 3, which is not in it, gives a valid heap on which `pqueue_is_valid` returns 1. -/
theorem pqueue_valid_preserved_witness :
    greedy_hooks one_victim_state.lm.victim_line_pq ∧ pq_handles one_victim_state.lm ∧
    pq_valid one_victim_state.lm ∧
    ∃ lm2, pqueue_insert one_victim_state.lm (some 3) = some (lm2, 0) ∧
      pq_valid lm2 ∧ pqueue_is_valid lm2 = some true :=
  ⟨one_victim_state_hooks, one_victim_state_handles, one_victim_state_valid,
    (pqueue_valid_preserved one_victim_state.lm one_victim_state_hooks
      one_victim_state_handles one_victim_state_valid (by decide)).1 3
      (by
        rintro ⟨i, h1, h2, h3⟩
        rw [one_victim_state_size] at h2
        have hi : i = 1 := by omega
        subst hi
        have h4 : one_victim_state.lm.victim_line_pq.d 1 = some 0 := by decide
        rw [h4] at h3
        exact absurd (Option.some.inj h3) (by decide))⟩

/-- C13: heap membership is changed exactly as requested. For a heap with the line hooks,
consistent positional handles and a comparator that never orders an item before itself
(Greedy and the dummy comparator are such): `pqueue_insert(x)` returns 0 and the members
afterwards are the former members and `x`, in one more slot; `pqueue_remove(x)` of a member
returns 0 and the members afterwards are the former members other than `x`, in one slot
less; `pqueue_change_priority(x, p)` of a member returns, keeps the members and the size, and
leaves `p` in the priority field (`vpc`) of `x`. -/
theorem pqueue_membership (lm : line_mgmt) (hk : line_hooks lm.victim_line_pq)
    (hh : pq_handles lm) (hs : 1 ≤ lm.victim_line_pq.size)
    (hirr : ∀ a, lm.victim_line_pq.cmppri a a = false) :
    (∀ x, ∃ lm2, pqueue_insert lm (some x) = some (lm2, 0) ∧
      (∀ k, pq_member lm2 k ↔ (pq_member lm k ∨ k = x)) ∧
      pqueue_size lm2.victim_line_pq = pqueue_size lm.victim_line_pq + 1) ∧
    (∀ x, pq_member lm x → ∃ lm2, pqueue_remove lm (some x) = some (lm2, 0) ∧
      (∀ k, pq_member lm2 k ↔ (pq_member lm k ∧ k ≠ x)) ∧
      pqueue_size lm2.victim_line_pq + 1 = pqueue_size lm.victim_line_pq) ∧
    (∀ x p, pq_member lm x → ∃ lm2, pqueue_change_priority lm p (some x) = some lm2 ∧
      (∀ k, pq_member lm2 k ↔ pq_member lm k) ∧ (lm2.lines x).vpc = p ∧
      pqueue_size lm2.victim_line_pq = pqueue_size lm.victim_line_pq) := by
  refine ⟨?_, ?_, ?_⟩
  · intro x
    obtain ⟨lm2, h2⟩ := pqueue_insert_total (pq_handles_filled hh) x
    obtain ⟨_, e1, _, _⟩ := pqueue_insert_spec hk h2
    have hsz : lm2.victim_line_pq.size = lm.victim_line_pq.size + 1 := by rw [e1]; rfl
    refine ⟨lm2, h2, pqueue_insert_member hk hs h2, ?_⟩
    unfold pqueue_size
    rw [hsz]
    omega
  · intro x hx
    obtain ⟨lm2, h2⟩ := pqueue_remove_returns hk hh hx
    obtain ⟨_, e1, _, _⟩ := pqueue_remove_spec hk h2
    obtain ⟨i, hi1, hi2, _⟩ := hx
    have hsz : lm2.victim_line_pq.size = lm.victim_line_pq.size - 1 := by
      rw [e1]
      exact dec_u64_pos (by omega)
    refine ⟨lm2, h2, pqueue_remove_member hk hh hirr ⟨i, hi1, hi2, by assumption⟩ h2, ?_⟩
    unfold pqueue_size
    rw [hsz]
    omega
  · intro x p hx
    obtain ⟨lm2, h2⟩ := pqueue_change_priority_returns p hk hh hx
    obtain ⟨m1, m2, m3⟩ := pqueue_change_priority_member hk hh hx h2
    refine ⟨lm2, h2, m1, m2, ?_⟩
    unfold pqueue_size
    rw [m3]

/-- C13, witness: the heap of `one_victim_state` (one member, line 0) satisfies the
hypotheses; inserting line 3 gives the members 0 and 3. -/
theorem pqueue_membership_witness :
    line_hooks one_victim_state.lm.victim_line_pq ∧ pq_handles one_victim_state.lm ∧
    pq_member one_victim_state.lm 0 ∧
    ∃ lm2, pqueue_insert one_victim_state.lm (some 3) = some (lm2, 0) ∧
      (∀ k, pq_member lm2 k ↔ (pq_member one_victim_state.lm k ∨ k = 3)) ∧
      pqueue_size lm2.victim_line_pq = pqueue_size one_victim_state.lm.victim_line_pq + 1 :=
  ⟨one_victim_state_hooks.1, one_victim_state_handles, ⟨1, by decide, by decide, by decide⟩,
    (pqueue_membership one_victim_state.lm one_victim_state_hooks.1 one_victim_state_handles
      (by decide) (by intro a; simp [one_victim_state_hooks.2.1, cmp_pri_greedy])).1 3⟩

/-- C14, failing input: the heap of `full_heap_lm` was created by `pqueue_init(1)` (`avail`
is 2) and holds one item (`size` is 2, so `size >= avail`). `pqueue_insert` of a second
item returns 0, the value for success, with `size` 3 above `avail` 2: the item went to
`d[2]`, one slot past the `n + 1 = 2` slots that `pqueue_init` allocated. -/
theorem pqueue_insert_beyond_capacity :
    full_heap_lm.map (fun lm => (lm.victim_line_pq.size, lm.victim_line_pq.avail)) =
      some (2, 2) ∧
    (full_heap_lm.bind (fun lm => pqueue_insert lm (some 1))).map
      (fun r => (r.2, r.1.victim_line_pq.size, r.1.victim_line_pq.avail,
        r.1.victim_line_pq.d 1, r.1.victim_line_pq.d 2)) =
      some (0, 3, 2, some 0, some 1) := by
  decide

/-! ## Striping order of the write pointer -/

theorem stripe_digits {P C U w l c o : Nat} (ho : o < P) (hc : c < C) (hl : l < U) :
    (((w * U + l) * C + c) * P + o) % P = o ∧
    (((w * U + l) * C + c) * P + o) / P % C = c ∧
    (((w * U + l) * C + c) * P + o) / (P * C) % U = l ∧
    (((w * U + l) * C + c) * P + o) / (P * C * U) = w := by
  have hP : 0 < P := by omega
  have hC : 0 < C := by omega
  have hU : 0 < U := by omega
  have d1 : (((w * U + l) * C + c) * P + o) / P = (w * U + l) * C + c := by
    rw [Nat.add_comm, Nat.add_mul_div_right _ _ hP, Nat.div_eq_of_lt ho, Nat.zero_add]
  have d2 : ((w * U + l) * C + c) / C = w * U + l := by
    rw [Nat.add_comm, Nat.add_mul_div_right _ _ hC, Nat.div_eq_of_lt hc, Nat.zero_add]
  have d3 : (w * U + l) / U = w := by
    rw [Nat.add_comm, Nat.add_mul_div_right _ _ hU, Nat.div_eq_of_lt hl, Nat.zero_add]
  refine ⟨?_, ?_, ?_, ?_⟩
  · rw [Nat.add_comm, Nat.add_mul_mod_self_right, Nat.mod_eq_of_lt ho]
  · rw [d1, Nat.add_comm, Nat.add_mul_mod_self_right, Nat.mod_eq_of_lt hc]
  · rw [← Nat.div_div_eq_div_mul, d1, d2, Nat.add_comm, Nat.add_mul_mod_self_right,
      Nat.mod_eq_of_lt hl]
  · rw [← Nat.div_div_eq_div_mul, ← Nat.div_div_eq_div_mul, d1, d2, d3]

theorem exists_digits {P C U : Nat} (hP : 0 < P) (hC : 0 < C) (hU : 0 < U) (k : Nat) :
    ∃ w l c o, o < P ∧ c < C ∧ l < U ∧ k = ((w * U + l) * C + c) * P + o := by
  refine ⟨k / P / C / U, k / P / C % U, k / P % C, k % P, Nat.mod_lt _ hP, Nat.mod_lt _ hC,
    Nat.mod_lt _ hU, ?_⟩
  have e1 := Nat.div_add_mod k P
  have e2 := Nat.div_add_mod (k / P) C
  have e3 := Nat.div_add_mod (k / P / C) U
  rw [Nat.mul_comm] at e1 e2 e3
  rw [e3, e2, e1]

theorem stripe_pos_digits (sp : ssdparams) (w0 : write_pointer) {w l c o : Nat}
    (ho : o < sp.pgs_per_oneshotpg) (hc : c < sp.nchs) (hl : l < sp.luns_per_ch) :
    stripe_pos sp w0 (((w * sp.luns_per_ch + l) * sp.nchs + c) * sp.pgs_per_oneshotpg + o) =
      { w0 with pg := w * sp.pgs_per_oneshotpg + o, ch := c, lun := l } := by
  obtain ⟨e1, e2, e3, e4⟩ := @stripe_digits _ _ _ w l c o ho hc hl
  unfold stripe_pos
  rw [e1, e2, e3, e4]

theorem advance_write_pointer_in_group {s : conv_ftl} {io : Nat} {wpp : write_pointer}
    (hget : __get_wp s io = some wpp) (h1 : wpp.pg < s.ssd.sp.pgs_per_blk)
    (hP : s.ssd.sp.pgs_per_oneshotpg ≠ 0)
    (h : (wpp.pg + 1) % s.ssd.sp.pgs_per_oneshotpg ≠ 0) :
    advance_write_pointer s io = some (set_wp s io { wpp with pg := wpp.pg + 1 }) := by
  unfold advance_write_pointer
  simp only [hget, bind, Option.bind, check_addr, NVMEV_ASSERT, if_pos h1, if_pos hP, pure,
    if_pos h]

theorem advance_write_pointer_next_ch {s : conv_ftl} {io : Nat} {wpp : write_pointer}
    (hget : __get_wp s io = some wpp) (h1 : wpp.pg < s.ssd.sp.pgs_per_blk)
    (hP : s.ssd.sp.pgs_per_oneshotpg ≠ 0)
    (h : (wpp.pg + 1) % s.ssd.sp.pgs_per_oneshotpg = 0)
    (hc : wpp.ch < s.ssd.sp.nchs) (hc2 : wpp.ch + 1 ≠ s.ssd.sp.nchs) :
    advance_write_pointer s io =
      some (set_wp s io { wpp with pg := wpp.pg + 1 - s.ssd.sp.pgs_per_oneshotpg,
                                   ch := wpp.ch + 1 }) := by
  unfold advance_write_pointer
  have hn : ¬ (wpp.pg + 1) % s.ssd.sp.pgs_per_oneshotpg ≠ 0 := by simpa using h
  simp only [hget, bind, Option.bind, check_addr, NVMEV_ASSERT, if_pos h1, if_pos hP, pure,
    if_neg hn, if_pos hc, if_pos hc2]

theorem advance_write_pointer_next_lun {s : conv_ftl} {io : Nat} {wpp : write_pointer}
    (hget : __get_wp s io = some wpp) (h1 : wpp.pg < s.ssd.sp.pgs_per_blk)
    (hP : s.ssd.sp.pgs_per_oneshotpg ≠ 0)
    (h : (wpp.pg + 1) % s.ssd.sp.pgs_per_oneshotpg = 0)
    (hc : wpp.ch + 1 = s.ssd.sp.nchs)
    (hl : wpp.lun < s.ssd.sp.luns_per_ch) (hl2 : wpp.lun + 1 ≠ s.ssd.sp.luns_per_ch) :
    advance_write_pointer s io =
      some (set_wp s io { wpp with pg := wpp.pg + 1 - s.ssd.sp.pgs_per_oneshotpg,
                                   ch := 0, lun := wpp.lun + 1 }) := by
  unfold advance_write_pointer
  have hn : ¬ (wpp.pg + 1) % s.ssd.sp.pgs_per_oneshotpg ≠ 0 := by simpa using h
  have hc1 : wpp.ch < s.ssd.sp.nchs := by omega
  have hc2 : ¬ wpp.ch + 1 ≠ s.ssd.sp.nchs := by simpa using hc
  simp only [hget, bind, Option.bind, check_addr, NVMEV_ASSERT, if_pos h1, if_pos hP, pure,
    if_neg hn, if_pos hc1, if_neg hc2, if_pos hl, if_pos hl2]

theorem advance_write_pointer_next_wordline {s : conv_ftl} {io : Nat} {wpp : write_pointer}
    (hget : __get_wp s io = some wpp) (h1 : wpp.pg < s.ssd.sp.pgs_per_blk)
    (hP : s.ssd.sp.pgs_per_oneshotpg ≠ 0)
    (h : (wpp.pg + 1) % s.ssd.sp.pgs_per_oneshotpg = 0)
    (hc : wpp.ch + 1 = s.ssd.sp.nchs) (hl : wpp.lun + 1 = s.ssd.sp.luns_per_ch)
    (hw : wpp.pg + 1 - s.ssd.sp.pgs_per_oneshotpg + s.ssd.sp.pgs_per_oneshotpg ≠
      s.ssd.sp.pgs_per_blk) :
    advance_write_pointer s io =
      some (set_wp s io
        { wpp with pg := wpp.pg + 1 - s.ssd.sp.pgs_per_oneshotpg + s.ssd.sp.pgs_per_oneshotpg,
                   ch := 0, lun := 0 }) := by
  unfold advance_write_pointer
  have hn : ¬ (wpp.pg + 1) % s.ssd.sp.pgs_per_oneshotpg ≠ 0 := by simpa using h
  have hc1 : wpp.ch < s.ssd.sp.nchs := by omega
  have hc2 : ¬ wpp.ch + 1 ≠ s.ssd.sp.nchs := by simpa using hc
  have hl1 : wpp.lun < s.ssd.sp.luns_per_ch := by omega
  have hl2 : ¬ wpp.lun + 1 ≠ s.ssd.sp.luns_per_ch := by simpa using hl
  simp only [hget, bind, Option.bind, check_addr, NVMEV_ASSERT, if_pos h1, if_pos hP, pure,
    if_neg hn, if_pos hc1, if_neg hc2, if_pos hl1, if_neg hl2, if_pos hw]

theorem set_wp_set_wp (s : conv_ftl) (io : Nat) (a b : write_pointer) :
    set_wp (set_wp s io a) io b = set_wp s io b := by
  unfold set_wp
  split_ifs <;> rfl

theorem get_wp_set_wp (s : conv_ftl) {io : Nat} (hio : io = USER_IO ∨ io = GC_IO)
    (a : write_pointer) : __get_wp (set_wp s io a) io = some a := by
  rcases hio with h | h
  · subst h
    rfl
  · subst h
    rfl

theorem set_wp_sp (s : conv_ftl) (io : Nat) (a : write_pointer) :
    (set_wp s io a).ssd.sp = s.ssd.sp := by
  unfold set_wp
  split_ifs <;> rfl

theorem set_wp_self {s : conv_ftl} {io : Nat} {w0 : write_pointer}
    (h : __get_wp s io = some w0) : set_wp s io w0 = s := by
  unfold __get_wp at h
  unfold set_wp
  split_ifs at h with h1 h2
  · rw [if_pos h1, ← Option.some.inj h]
  · rw [if_neg h1, ← Option.some.inj h]

theorem digits_expand (P C U w l c o : Nat) :
    ((w * U + l) * C + c) * P + o = w * (U * C * P) + l * (C * P) + c * P + o := by
  ring

theorem digits_lt {P C U W w l c o : Nat} (ho : o < P) (hc : c < C) (hl : l < U)
    (hw : w < W) : ((w * U + l) * C + c) * P + o < U * C * (P * W) := by
  have b1 : c * P + o < C * P := digit_bound hc ho
  have b2 : l * (C * P) + (c * P + o) < U * (C * P) := digit_bound hl b1
  have b3 : w * (U * (C * P)) + (l * (C * P) + (c * P + o)) < W * (U * (C * P)) :=
    digit_bound hw b2
  have e1 : U * C * (P * W) = W * (U * (C * P)) := by ring
  have e2 : w * (U * C * P) = w * (U * (C * P)) := by ring
  rw [digits_expand, e1, e2]
  omega

theorem digits_w_lt {P C U W w l c o : Nat}
    (h : ((w * U + l) * C + c) * P + o < U * C * (P * W)) : w < W := by
  by_contra hn
  have hle : W ≤ w := by omega
  have h1 : W * (U * C * P) ≤ w * (U * C * P) := Nat.mul_le_mul_right _ hle
  have e1 : U * C * (P * W) = W * (U * C * P) := by ring
  rw [digits_expand, e1] at h
  omega

/-- One call of `advance_write_pointer` from position `k` of the line, `k + 1` still inside
the line, moves the cursor to position `k + 1` of the striping formula and changes nothing
else. -/
theorem advance_write_pointer_stripe (s : conv_ftl) (io : Nat) (w0 : write_pointer)
    (hg : stripe_geometry s.ssd.sp) (hio : io = USER_IO ∨ io = GC_IO) (k : Nat)
    (hk : k + 1 < s.ssd.sp.pgs_per_line) :
    advance_write_pointer (set_wp s io (stripe_pos s.ssd.sp w0 k)) io =
      some (set_wp s io (stripe_pos s.ssd.sp w0 (k + 1))) := by
  obtain ⟨hP, hC, hU, hblk, hline⟩ := hg
  obtain ⟨w, l, c, o, ho, hc, hl, hkd⟩ := exists_digits hP hC hU k
  rw [hline, hblk] at hk
  have hP0 : s.ssd.sp.pgs_per_oneshotpg ≠ 0 := by omega
  have hk0 : k < s.ssd.sp.luns_per_ch * s.ssd.sp.nchs *
      (s.ssd.sp.pgs_per_oneshotpg * s.ssd.sp.oneshotpgs_per_blk) := by omega
  rw [hkd] at hk0
  have hw : w < s.ssd.sp.oneshotpgs_per_blk := digits_w_lt hk0
  have hpg : w * s.ssd.sp.pgs_per_oneshotpg + o < s.ssd.sp.pgs_per_blk := by
    rw [hblk, Nat.mul_comm s.ssd.sp.pgs_per_oneshotpg]
    exact digit_bound hw ho
  have hst : stripe_pos s.ssd.sp w0 k =
      { w0 with pg := w * s.ssd.sp.pgs_per_oneshotpg + o, ch := c, lun := l } := by
    rw [hkd]
    exact stripe_pos_digits s.ssd.sp w0 ho hc hl
  have hget := get_wp_set_wp s hio (stripe_pos s.ssd.sp w0 k)
  rw [hst] at hget
  rw [hst]
  have hsp := set_wp_sp s io
    { w0 with pg := w * s.ssd.sp.pgs_per_oneshotpg + o, ch := c, lun := l }
  by_cases hA : o + 1 < s.ssd.sp.pgs_per_oneshotpg
  · have hmod : (w * s.ssd.sp.pgs_per_oneshotpg + o + 1) % s.ssd.sp.pgs_per_oneshotpg ≠ 0 := by
      rw [Nat.add_assoc, Nat.add_comm, Nat.add_mul_mod_self_right, Nat.mod_eq_of_lt hA]
      omega
    have hk1 : k + 1 = ((w * s.ssd.sp.luns_per_ch + l) * s.ssd.sp.nchs + c) *
        s.ssd.sp.pgs_per_oneshotpg + (o + 1) := by omega
    rw [advance_write_pointer_in_group hget (by rw [hsp]; exact hpg) (by rw [hsp]; exact hP0)
      (by rw [hsp]; exact hmod), set_wp_set_wp, hk1, stripe_pos_digits s.ssd.sp w0 hA hc hl]
    rfl
  · have hoP : o + 1 = s.ssd.sp.pgs_per_oneshotpg := by omega
    have hmod : (w * s.ssd.sp.pgs_per_oneshotpg + o + 1) % s.ssd.sp.pgs_per_oneshotpg = 0 := by
      rw [Nat.add_assoc, hoP, Nat.add_comm, Nat.add_mul_mod_self_right, Nat.mod_self]
    have hsub : w * s.ssd.sp.pgs_per_oneshotpg + o + 1 - s.ssd.sp.pgs_per_oneshotpg =
        w * s.ssd.sp.pgs_per_oneshotpg := by omega
    by_cases hB : c + 1 < s.ssd.sp.nchs
    · have hk1 : k + 1 = ((w * s.ssd.sp.luns_per_ch + l) * s.ssd.sp.nchs + (c + 1)) *
          s.ssd.sp.pgs_per_oneshotpg + 0 := by
        rw [hkd, digits_expand, digits_expand]
        have : (c + 1) * s.ssd.sp.pgs_per_oneshotpg =
            c * s.ssd.sp.pgs_per_oneshotpg + s.ssd.sp.pgs_per_oneshotpg := Nat.succ_mul _ _
        omega
      rw [advance_write_pointer_next_ch hget (by rw [hsp]; exact hpg) (by rw [hsp]; exact hP0)
        (by rw [hsp]; exact hmod) (by rw [hsp]; exact hc)
        (by rw [hsp]; exact (Nat.ne_of_lt hB)), set_wp_set_wp, hk1,
        stripe_pos_digits s.ssd.sp w0 hP hB hl, hsp]
      simp only [hsub, Nat.add_zero]
    · have hcC : c + 1 = s.ssd.sp.nchs := by omega
      by_cases hD : l + 1 < s.ssd.sp.luns_per_ch
      · have hk1 : k + 1 = ((w * s.ssd.sp.luns_per_ch + (l + 1)) * s.ssd.sp.nchs + 0) *
            s.ssd.sp.pgs_per_oneshotpg + 0 := by
          rw [hkd, digits_expand, digits_expand]
          have e1 : (l + 1) * (s.ssd.sp.nchs * s.ssd.sp.pgs_per_oneshotpg) =
              l * (s.ssd.sp.nchs * s.ssd.sp.pgs_per_oneshotpg) +
                s.ssd.sp.nchs * s.ssd.sp.pgs_per_oneshotpg := Nat.succ_mul _ _
          have e2 : s.ssd.sp.nchs * s.ssd.sp.pgs_per_oneshotpg =
              c * s.ssd.sp.pgs_per_oneshotpg + s.ssd.sp.pgs_per_oneshotpg := by
            rw [← hcC]; exact Nat.succ_mul _ _
          omega
        rw [advance_write_pointer_next_lun hget (by rw [hsp]; exact hpg)
          (by rw [hsp]; exact hP0) (by rw [hsp]; exact hmod) (by rw [hsp]; exact hcC)
          (by rw [hsp]; exact hl) (by rw [hsp]; exact (Nat.ne_of_lt hD)), set_wp_set_wp, hk1,
          stripe_pos_digits s.ssd.sp w0 hP hC hD, hsp]
        simp only [hsub, Nat.add_zero]
      · have hlU : l + 1 = s.ssd.sp.luns_per_ch := by omega
        have hk1 : k + 1 = (((w + 1) * s.ssd.sp.luns_per_ch + 0) * s.ssd.sp.nchs + 0) *
            s.ssd.sp.pgs_per_oneshotpg + 0 := by
          rw [hkd, digits_expand, digits_expand]
          have e0 : (w + 1) * (s.ssd.sp.luns_per_ch * s.ssd.sp.nchs *
              s.ssd.sp.pgs_per_oneshotpg) =
              w * (s.ssd.sp.luns_per_ch * s.ssd.sp.nchs * s.ssd.sp.pgs_per_oneshotpg) +
                s.ssd.sp.luns_per_ch * s.ssd.sp.nchs * s.ssd.sp.pgs_per_oneshotpg :=
            Nat.succ_mul _ _
          have e1 : s.ssd.sp.luns_per_ch * s.ssd.sp.nchs * s.ssd.sp.pgs_per_oneshotpg =
              l * (s.ssd.sp.nchs * s.ssd.sp.pgs_per_oneshotpg) +
                s.ssd.sp.nchs * s.ssd.sp.pgs_per_oneshotpg := by
            rw [← hlU]; ring
          have e2 : s.ssd.sp.nchs * s.ssd.sp.pgs_per_oneshotpg =
              c * s.ssd.sp.pgs_per_oneshotpg + s.ssd.sp.pgs_per_oneshotpg := by
            rw [← hcC]; exact Nat.succ_mul _ _
          omega
        have hk2 := hk
        rw [hk1] at hk2
        have hw1 : w + 1 < s.ssd.sp.oneshotpgs_per_blk := digits_w_lt hk2
        have hne : w * s.ssd.sp.pgs_per_oneshotpg + o + 1 - s.ssd.sp.pgs_per_oneshotpg +
            s.ssd.sp.pgs_per_oneshotpg ≠ s.ssd.sp.pgs_per_blk := by
          rw [hsub, hblk, Nat.mul_comm s.ssd.sp.pgs_per_oneshotpg]
          have e3 : (w + 1) * s.ssd.sp.pgs_per_oneshotpg =
              w * s.ssd.sp.pgs_per_oneshotpg + s.ssd.sp.pgs_per_oneshotpg := Nat.succ_mul _ _
          have e4 : (w + 1 + 1) * s.ssd.sp.pgs_per_oneshotpg ≤
              s.ssd.sp.oneshotpgs_per_blk * s.ssd.sp.pgs_per_oneshotpg :=
            Nat.mul_le_mul_right _ hw1
          have e5 : (w + 1 + 1) * s.ssd.sp.pgs_per_oneshotpg =
              (w + 1) * s.ssd.sp.pgs_per_oneshotpg + s.ssd.sp.pgs_per_oneshotpg :=
            Nat.succ_mul _ _
          omega
        rw [advance_write_pointer_next_wordline hget (by rw [hsp]; exact hpg)
          (by rw [hsp]; exact hP0) (by rw [hsp]; exact hmod) (by rw [hsp]; exact hcC)
          (by rw [hsp]; exact hlU) (by rw [hsp]; exact hne), set_wp_set_wp, hk1,
          stripe_pos_digits s.ssd.sp w0 hP hC hU, hsp]
        simp only [hsub, Nat.add_zero, Nat.succ_mul]

theorem stripe_pos_zero (sp : ssdparams) (w0 : write_pointer) (h1 : w0.pg = 0)
    (h2 : w0.ch = 0) (h3 : w0.lun = 0) : stripe_pos sp w0 0 = w0 := by
  unfold stripe_pos
  simp only [Nat.zero_div, Nat.zero_mod, Nat.zero_mul, Nat.add_zero]
  cases w0 with
  | mk curline ch lun pg blk pl =>
    simp only at h1 h2 h3
    subst h1 h2 h3
    rfl

theorem advance_n_stripe (s : conv_ftl) (io : Nat) (w0 : write_pointer)
    (hg : stripe_geometry s.ssd.sp) (hget : __get_wp s io = some w0)
    (h1 : w0.pg = 0) (h2 : w0.ch = 0) (h3 : w0.lun = 0) :
    ∀ k, k < s.ssd.sp.pgs_per_line →
      advance_n io k s = some (set_wp s io (stripe_pos s.ssd.sp w0 k)) := by
  have hio : io = USER_IO ∨ io = GC_IO := by
    unfold __get_wp at hget
    split_ifs at hget with a b
    · exact Or.inl a
    · exact Or.inr b
  intro k
  induction k with
  | zero =>
    intro _
    rw [stripe_pos_zero s.ssd.sp w0 h1 h2 h3, set_wp_self hget]
    rfl
  | succ k ih =>
    intro hk
    show (advance_n io k s).bind (fun t => advance_write_pointer t io) = _
    rw [ih (by omega)]
    exact advance_write_pointer_stripe s io w0 hg hio k hk

/-- C17: striping order of the write pointer (P7). With the sizes of `ssd_init_params`
(`P = pgs_per_oneshotpg > 0`, `pgs_per_blk = P * oneshotpgs_per_blk`,
`pgs_per_line = luns_per_ch * nchs * pgs_per_blk`) and a cursor on a freshly opened line
(`ch = lun = pg = 0`): for every `k < pgs_per_line`, `k` calls of `advance_write_pointer`
return, change only the cursor, and leave it at `pg = (k / (P * nchs * luns_per_ch)) * P +
k % P`, `ch = (k / P) % nchs`, `lun = (k / (P * nchs)) % luns_per_ch` with `blk`, `pl` and
`curline` unchanged; these positions lie in the line, are pairwise distinct and reach every
`(ch, lun, pg)` of the line; and from the last page of a wordline on a channel other than the
last, the cursor moves to the first page of that wordline on the next channel, `blk`
unchanged. -/
theorem advance_write_pointer_striping (s : conv_ftl) (io : Nat) (w0 : write_pointer)
    (hg : stripe_geometry s.ssd.sp) (hget : __get_wp s io = some w0)
    (h1 : w0.pg = 0) (h2 : w0.ch = 0) (h3 : w0.lun = 0) :
    (∀ k, k < s.ssd.sp.pgs_per_line →
      advance_n io k s = some (set_wp s io (stripe_pos s.ssd.sp w0 k)) ∧
      (stripe_pos s.ssd.sp w0 k).blk = w0.blk ∧
      (stripe_pos s.ssd.sp w0 k).ch < s.ssd.sp.nchs ∧
      (stripe_pos s.ssd.sp w0 k).lun < s.ssd.sp.luns_per_ch ∧
      (stripe_pos s.ssd.sp w0 k).pg < s.ssd.sp.pgs_per_blk) ∧
    (∀ k k2, (stripe_pos s.ssd.sp w0 k).pg = (stripe_pos s.ssd.sp w0 k2).pg →
      (stripe_pos s.ssd.sp w0 k).ch = (stripe_pos s.ssd.sp w0 k2).ch →
      (stripe_pos s.ssd.sp w0 k).lun = (stripe_pos s.ssd.sp w0 k2).lun → k = k2) ∧
    (∀ c l g, c < s.ssd.sp.nchs → l < s.ssd.sp.luns_per_ch → g < s.ssd.sp.pgs_per_blk →
      ∃ k, k < s.ssd.sp.pgs_per_line ∧ (stripe_pos s.ssd.sp w0 k).ch = c ∧
        (stripe_pos s.ssd.sp w0 k).lun = l ∧ (stripe_pos s.ssd.sp w0 k).pg = g) ∧
    (∀ (t : conv_ftl) (wpp : write_pointer), t.ssd.sp = s.ssd.sp → __get_wp t io = some wpp →
      wpp.pg < s.ssd.sp.pgs_per_blk → (wpp.pg + 1) % s.ssd.sp.pgs_per_oneshotpg = 0 →
      wpp.ch + 1 < s.ssd.sp.nchs →
      advance_write_pointer t io =
        some (set_wp t io { wpp with pg := wpp.pg + 1 - s.ssd.sp.pgs_per_oneshotpg,
                                     ch := wpp.ch + 1 })) := by
  have hg0 := hg
  obtain ⟨hP, hC, hU, hblk, hline⟩ := hg
  refine ⟨?_, ?_, ?_, ?_⟩
  · intro k hk
    refine ⟨advance_n_stripe s io w0 hg0 hget h1 h2 h3 k hk, rfl, ?_⟩
    obtain ⟨w, l, c, o, ho, hc, hl, hkd⟩ := exists_digits hP hC hU k
    have hk0 := hk
    rw [hline, hblk, hkd] at hk0
    have hw : w < s.ssd.sp.oneshotpgs_per_blk := digits_w_lt hk0
    rw [hkd, stripe_pos_digits s.ssd.sp w0 ho hc hl]
    refine ⟨hc, hl, ?_⟩
    show w * s.ssd.sp.pgs_per_oneshotpg + o < s.ssd.sp.pgs_per_blk
    rw [hblk, Nat.mul_comm s.ssd.sp.pgs_per_oneshotpg]
    exact digit_bound hw ho
  · intro k k2 e1 e2 e3
    obtain ⟨w, l, c, o, ho, hc, hl, hkd⟩ := exists_digits hP hC hU k
    obtain ⟨w2, l2, c2, o2, ho2, hc2, hl2, hkd2⟩ := exists_digits hP hC hU k2
    rw [hkd, hkd2, stripe_pos_digits s.ssd.sp w0 ho hc hl,
      stripe_pos_digits s.ssd.sp w0 ho2 hc2 hl2] at e1 e2 e3
    have e1b : w * s.ssd.sp.pgs_per_oneshotpg + o = w2 * s.ssd.sp.pgs_per_oneshotpg + o2 := e1
    have e2b : c = c2 := e2
    have e3b : l = l2 := e3
    obtain ⟨ew, eo⟩ := mixed_radix_unique ho ho2 e1b
    rw [hkd, hkd2, ew, eo, e2b, e3b]
  · intro c l g hc hl hgb
    have ho : g % s.ssd.sp.pgs_per_oneshotpg < s.ssd.sp.pgs_per_oneshotpg := Nat.mod_lt _ hP
    have hw : g / s.ssd.sp.pgs_per_oneshotpg < s.ssd.sp.oneshotpgs_per_blk := by
      rw [hblk] at hgb
      exact Nat.div_lt_of_lt_mul hgb
    refine ⟨((g / s.ssd.sp.pgs_per_oneshotpg * s.ssd.sp.luns_per_ch + l) * s.ssd.sp.nchs + c) *
      s.ssd.sp.pgs_per_oneshotpg + g % s.ssd.sp.pgs_per_oneshotpg, ?_, ?_⟩
    · rw [hline, hblk]
      exact digits_lt ho hc hl hw
    · rw [stripe_pos_digits s.ssd.sp w0 ho hc hl]
      refine ⟨rfl, rfl, ?_⟩
      show g / s.ssd.sp.pgs_per_oneshotpg * s.ssd.sp.pgs_per_oneshotpg +
        g % s.ssd.sp.pgs_per_oneshotpg = g
      rw [Nat.mul_comm]
      exact Nat.div_add_mod g _
  · intro t wpp ht hgt hpg hmod hch
    have hr := @advance_write_pointer_next_ch t io wpp hgt (by rw [ht]; exact hpg)
      (by rw [ht]; omega) (by rw [ht]; exact hmod) (by rw [ht]; omega) (by rw [ht]; omega)
    rw [ht] at hr
    exact hr

/-- C17, witness: on the fresh instance over `stripe_params` (`P = 2`, two channels, two
LUNs, sixteen pages per line) five calls of `advance_write_pointer` leave the user cursor at
`pg = 1`, `ch = 0`, `lun = 1`. -/
theorem advance_write_pointer_striping_witness :
    stripe_geometry stripe_state.ssd.sp ∧ stripe_state.ssd.sp.pgs_per_line = 16 ∧
    advance_n USER_IO 5 stripe_state =
      some (set_wp stripe_state USER_IO (stripe_pos stripe_state.ssd.sp stripe_state.wp 5)) ∧
    (stripe_pos stripe_state.ssd.sp stripe_state.wp 5).pg = 1 ∧
    (stripe_pos stripe_state.ssd.sp stripe_state.wp 5).ch = 0 ∧
    (stripe_pos stripe_state.ssd.sp stripe_state.wp 5).lun = 1 :=
  ⟨by decide, by decide,
    ((advance_write_pointer_striping stripe_state USER_IO stripe_state.wp (by decide) rfl
      (by decide) (by decide) (by decide)).1 5 (by decide)).1,
    by decide, by decide, by decide⟩

theorem pq_setpos_free {lm lm2 : line_mgmt} {p : Option Nat} {i : Nat}
    (h : pq_setpos lm p i = some lm2) : lm2.free_line_list = lm.free_line_list := by
  unfold pq_setpos at h
  cases p with
  | none => simp at h
  | some k =>
    simp only [Option.some.injEq] at h
    subst h
    rfl

theorem bubble_up_loop_free (mp : Nat) :
    ∀ (fuel : Nat) (lm : line_mgmt) (i : Nat) (r : line_mgmt × Nat),
      bubble_up_loop mp fuel lm i = some r → r.1.free_line_list = lm.free_line_list := by
  intro fuel
  induction fuel with
  | zero => intro lm i r h; simp [bubble_up_loop] at h
  | succ fuel ih =>
    intro lm i r h
    unfold bubble_up_loop at h
    split_ifs at h with h1
    · cases hg : pq_getpri lm (lm.victim_line_pq.d (i / 2)) with
      | none => simp [hg] at h
      | some pp =>
        simp only [hg] at h
        split_ifs at h with h2
        · cases hs : pq_setpos (pq_set_d lm i (lm.victim_line_pq.d (i / 2)))
              (lm.victim_line_pq.d (i / 2)) i with
          | none => simp [hs] at h
          | some lm2 =>
            simp only [hs] at h
            rw [ih lm2 (i / 2) r h, pq_setpos_free hs]
            rfl
        · simp only [Option.some.injEq] at h
          subst h
          rfl
    · simp only [Option.some.injEq] at h
      subst h
      rfl

theorem pqueue_insert_free {lm : line_mgmt} {d : Option Nat} {r : line_mgmt × Nat}
    (h : pqueue_insert lm d = some r) : r.1.free_line_list = lm.free_line_list := by
  unfold pqueue_insert bubble_up at h
  simp only at h
  cases hg : pq_getpri (pq_set_d (pq_set_size lm (lm.victim_line_pq.size + 1))
      lm.victim_line_pq.size d)
      ((pq_set_d (pq_set_size lm (lm.victim_line_pq.size + 1))
        lm.victim_line_pq.size d).victim_line_pq.d lm.victim_line_pq.size) with
  | none => simp [hg] at h
  | some mp =>
    simp only [hg] at h
    cases hl : bubble_up_loop mp (lm.victim_line_pq.size + 1)
        (pq_set_d (pq_set_size lm (lm.victim_line_pq.size + 1)) lm.victim_line_pq.size d)
        lm.victim_line_pq.size with
    | none => simp [hl] at h
    | some q =>
      obtain ⟨lm1, j⟩ := q
      simp only [hl] at h
      cases hs : pq_setpos (pq_set_d lm1 j
          ((pq_set_d (pq_set_size lm (lm.victim_line_pq.size + 1))
            lm.victim_line_pq.size d).victim_line_pq.d lm.victim_line_pq.size))
          ((pq_set_d (pq_set_size lm (lm.victim_line_pq.size + 1))
            lm.victim_line_pq.size d).victim_line_pq.d lm.victim_line_pq.size) j with
      | none => simp [hs] at h
      | some lm2 =>
        simp only [hs, Option.some.injEq] at h
        subst h
        have e1 := bubble_up_loop_free mp _ _ _ _ hl
        have e2 := pq_setpos_free hs
        exact e2.trans e1

theorem advance_write_pointer_close_free {spp : ssdparams} {lm lm1 : line_mgmt} {c : Nat}
    (h : advance_write_pointer_close spp lm c = some lm1) :
    lm1.free_line_list = lm.free_line_list := by
  unfold advance_write_pointer_close at h
  split_ifs at h with hfull
  · simp only [bind, Option.bind_eq_some, NVMEV_ASSERT_eq_some, pure, exists_const,
      Option.some.injEq] at h
    obtain ⟨_, h⟩ := h
    subst h
    rfl
  · simp only [bind, Option.bind_eq_some, NVMEV_ASSERT_eq_some, pure, exists_const,
      Option.some.injEq] at h
    obtain ⟨_, _, r, hins, h⟩ := h
    subst h
    exact pqueue_insert_free hins

theorem ssd_init_totals_consistent (sp : ssdparams) : params_consistent (ssd_init_totals sp) :=
  ⟨rfl, rfl, rfl, rfl⟩

theorem valid_ppa_iff {s : conv_ftl} {p : ppa} :
    valid_ppa s p = true ↔
      (p.ch < s.ssd.sp.nchs ∧ p.lun < s.ssd.sp.luns_per_ch ∧ p.pl < s.ssd.sp.pls_per_lun ∧
        p.blk < s.ssd.sp.blks_per_pl ∧ p.pg < s.ssd.sp.pgs_per_blk) := by
  unfold valid_ppa
  simp only [Bool.and_eq_true, decide_eq_true_eq]
  tauto

theorem pgidx_of_lt {sp : ssdparams} (hc : params_consistent sp) {p : ppa}
    (hp : p.ch < sp.nchs ∧ p.lun < sp.luns_per_ch ∧ p.pl < sp.pls_per_lun ∧
      p.blk < sp.blks_per_pl ∧ p.pg < sp.pgs_per_blk) :
    pgidx_of sp p < sp.tt_pgs := by
  obtain ⟨c1, c2, c3, c4⟩ := hc
  obtain ⟨p1, p2, p3, p4, p5⟩ := hp
  unfold pgidx_of
  have b1 : p.blk * sp.pgs_per_blk + p.pg < sp.pgs_per_pl := by
    rw [c1, Nat.mul_comm sp.pgs_per_blk]; exact digit_bound p4 p5
  have b2 : p.pl * sp.pgs_per_pl + (p.blk * sp.pgs_per_blk + p.pg) < sp.pgs_per_lun := by
    rw [c2, Nat.mul_comm sp.pgs_per_pl]; exact digit_bound p3 b1
  have b3 : p.lun * sp.pgs_per_lun + (p.pl * sp.pgs_per_pl + (p.blk * sp.pgs_per_blk + p.pg))
      < sp.pgs_per_ch := by
    rw [c3, Nat.mul_comm sp.pgs_per_lun]; exact digit_bound p2 b2
  have b4 : p.ch * sp.pgs_per_ch + (p.lun * sp.pgs_per_lun +
      (p.pl * sp.pgs_per_pl + (p.blk * sp.pgs_per_blk + p.pg))) < sp.tt_pgs := by
    rw [c4, Nat.mul_comm sp.pgs_per_ch]; exact digit_bound p1 b3
  omega

theorem div_lt_of_lt_mul_right {i a b : Nat} (h : i < a * b) : i / a < b :=
  Nat.div_lt_of_lt_mul h

theorem pgidx2ppa_spec {sp : ssdparams} (hc : params_consistent sp) {i : Nat}
    (hi : i < sp.tt_pgs) :
    ((pgidx2ppa sp i).ch < sp.nchs ∧ (pgidx2ppa sp i).lun < sp.luns_per_ch ∧
      (pgidx2ppa sp i).pl < sp.pls_per_lun ∧ (pgidx2ppa sp i).blk < sp.blks_per_pl ∧
      (pgidx2ppa sp i).pg < sp.pgs_per_blk) ∧
    pgidx_of sp (pgidx2ppa sp i) = i := by
  obtain ⟨c1, c2, c3, c4⟩ := hc
  rw [c4] at hi
  have hch : 0 < sp.pgs_per_ch := Nat.pos_of_ne_zero (fun h0 => by rw [h0] at hi; simp at hi)
  have r1 : i % sp.pgs_per_ch < sp.pgs_per_ch := Nat.mod_lt _ hch
  have r1b : i % sp.pgs_per_ch < sp.pgs_per_lun * sp.luns_per_ch := lt_of_lt_of_eq r1 c3
  have hlun : 0 < sp.pgs_per_lun :=
    Nat.pos_of_ne_zero (fun h0 => by rw [h0] at r1b; simp at r1b)
  have r2 : i % sp.pgs_per_ch % sp.pgs_per_lun < sp.pgs_per_lun := Nat.mod_lt _ hlun
  have r2b : i % sp.pgs_per_ch % sp.pgs_per_lun < sp.pgs_per_pl * sp.pls_per_lun :=
    lt_of_lt_of_eq r2 c2
  have hpl : 0 < sp.pgs_per_pl :=
    Nat.pos_of_ne_zero (fun h0 => by rw [h0] at r2b; simp at r2b)
  have r3 : i % sp.pgs_per_ch % sp.pgs_per_lun % sp.pgs_per_pl < sp.pgs_per_pl :=
    Nat.mod_lt _ hpl
  have r3b : i % sp.pgs_per_ch % sp.pgs_per_lun % sp.pgs_per_pl <
      sp.pgs_per_blk * sp.blks_per_pl := lt_of_lt_of_eq r3 c1
  have hblk : 0 < sp.pgs_per_blk :=
    Nat.pos_of_ne_zero (fun h0 => by rw [h0] at r3b; simp at r3b)
  refine ⟨⟨div_lt_of_lt_mul_right hi, div_lt_of_lt_mul_right r1b, div_lt_of_lt_mul_right r2b,
    div_lt_of_lt_mul_right r3b, Nat.mod_lt _ hblk⟩, ?_⟩
  unfold pgidx_of pgidx2ppa
  simp only
  have d1 := Nat.div_add_mod i sp.pgs_per_ch
  have d2 := Nat.div_add_mod (i % sp.pgs_per_ch) sp.pgs_per_lun
  have d3 := Nat.div_add_mod (i % sp.pgs_per_ch % sp.pgs_per_lun) sp.pgs_per_pl
  have d4 := Nat.div_add_mod (i % sp.pgs_per_ch % sp.pgs_per_lun % sp.pgs_per_pl)
    sp.pgs_per_blk
  rw [Nat.mul_comm] at d1 d2 d3 d4
  omega

/-- C20: PPA linearisation is a bijection. For a geometry with the totals of
`ssd_init_params`, every PPA satisfying `valid_ppa` passes the assertion of `ppa2pgidx`
(the index is below `tt_pgs`), two valid PPAs with the same index agree on `ch`, `lun`, `pl`,
`blk` and `pg`, and every index below `tt_pgs` is the index of a valid PPA. -/
theorem ppa2pgidx_bijective (s : conv_ftl) (hc : params_consistent s.ssd.sp) :
    (∀ p, valid_ppa s p = true →
      ppa2pgidx s p = some (pgidx_of s.ssd.sp p) ∧ pgidx_of s.ssd.sp p < s.ssd.sp.tt_pgs) ∧
    (∀ p q, valid_ppa s p = true → valid_ppa s q = true → ppa2pgidx s p = ppa2pgidx s q →
      p.ch = q.ch ∧ p.lun = q.lun ∧ p.pl = q.pl ∧ p.blk = q.blk ∧ p.pg = q.pg) ∧
    (∀ i, i < s.ssd.sp.tt_pgs → ∃ p, valid_ppa s p = true ∧ ppa2pgidx s p = some i) := by
  have hlt : ∀ p, valid_ppa s p = true → pgidx_of s.ssd.sp p < s.ssd.sp.tt_pgs :=
    fun p hp => pgidx_of_lt hc (valid_ppa_iff.mp hp)
  have hsome : ∀ p, valid_ppa s p = true → ppa2pgidx s p = some (pgidx_of s.ssd.sp p) := by
    intro p hp
    unfold ppa2pgidx
    rw [if_pos (hlt p hp)]
  refine ⟨fun p hp => ⟨hsome p hp, hlt p hp⟩, ?_, ?_⟩
  · intro p q hp hq h
    rw [hsome p hp, hsome q hq] at h
    exact pgidx_of_inj hc (valid_ppa_iff.mp hp) (valid_ppa_iff.mp hq) (Option.some.inj h)
  · intro i hi
    obtain ⟨hv, he⟩ := pgidx2ppa_spec hc hi
    have hvp : valid_ppa s (pgidx2ppa s.ssd.sp i) = true := valid_ppa_iff.mpr hv
    exact ⟨pgidx2ppa s.ssd.sp i, hvp, by rw [hsome _ hvp, he]⟩

/-- C20, witness: the six-line example instance has the totals of `ssd_init_params`; its
page (blk 3, pg 1) has index 7 and every index below 12 is reached. -/
theorem ppa2pgidx_bijective_witness :
    params_consistent fresh_state.ssd.sp ∧
    ppa2pgidx fresh_state { ch := 0, lun := 0, pl := 0, blk := 3, pg := 1, rsv := 0 } =
      some 7 ∧
    ∀ i, i < fresh_state.ssd.sp.tt_pgs →
      ∃ p, valid_ppa fresh_state p = true ∧ ppa2pgidx fresh_state p = some i :=
  ⟨by decide,
    ((ppa2pgidx_bijective fresh_state (by decide)).1
      { ch := 0, lun := 0, pl := 0, blk := 3, pg := 1, rsv := 0 } (by decide)).1,
    (ppa2pgidx_bijective fresh_state (by decide)).2.2⟩

/-! ## Counting lemmas for line accounting -/

theorem count_upto_congr {f g : Nat → Bool} :
    ∀ n, (∀ i, i < n → f i = g i) → count_upto f n = count_upto g n := by
  intro n
  induction n with
  | zero => intro _; rfl
  | succ n ih =>
    intro h
    show count_upto f n + _ = count_upto g n + _
    rw [ih (fun i hi => h i (by omega)), h n (by omega)]

theorem count_upto_update {f g : Nat → Bool} {i : Nat} (hne : ∀ j, j ≠ i → g j = f j) :
    ∀ n, i < n →
      count_upto g n + (if f i then 1 else 0) = count_upto f n + (if g i then 1 else 0) := by
  intro n
  induction n with
  | zero => intro h; omega
  | succ n ih =>
    intro h
    show count_upto g n + (if g n then 1 else 0) + _ = count_upto f n + (if f n then 1 else 0) + _
    by_cases hin : i = n
    · subst hin
      rw [count_upto_congr i (fun j hj => hne j (by omega))]
      omega
    · rw [hne n (fun e => hin e.symm)]
      have := ih (by omega)
      omega

theorem count_upto_zero {f : Nat → Bool} :
    ∀ n, (∀ i, i < n → f i = false) → count_upto f n = 0 := by
  intro n
  induction n with
  | zero => intro _; rfl
  | succ n ih =>
    intro h
    show count_upto f n + _ = 0
    rw [ih (fun i hi => h i (by omega)), h n (by omega)]
    rfl

theorem sum_upto_congr {f g : Nat → Nat} :
    ∀ n, (∀ i, i < n → f i = g i) → sum_upto f n = sum_upto g n := by
  intro n
  induction n with
  | zero => intro _; rfl
  | succ n ih =>
    intro h
    show sum_upto f n + f n = sum_upto g n + g n
    rw [ih (fun i hi => h i (by omega)), h n (by omega)]

theorem sum_upto_update {f g : Nat → Nat} {i : Nat} (hne : ∀ j, j ≠ i → g j = f j) :
    ∀ n, i < n → sum_upto g n + f i = sum_upto f n + g i := by
  intro n
  induction n with
  | zero => intro h; omega
  | succ n ih =>
    intro h
    show sum_upto g n + g n + f i = sum_upto f n + f n + g i
    by_cases hin : i = n
    · subst hin
      rw [sum_upto_congr i (fun j hj => hne j (by omega))]
      omega
    · rw [hne n (fun e => hin e.symm)]
      have := ih (by omega)
      omega

theorem sum_upto_zero {f : Nat → Nat} :
    ∀ n, (∀ i, i < n → f i = 0) → sum_upto f n = 0 := by
  intro n
  induction n with
  | zero => intro _; rfl
  | succ n ih =>
    intro h
    show sum_upto f n + f n = 0
    rw [ih (fun i hi => h i (by omega)), h n (by omega)]

theorem blk_count_set_status (sp : ssdparams) (blk b2 : nand_block) (i : Nat)
    (st1 st : pg_status) (hi : i < sp.pgs_per_blk)
    (hpg : b2.pg = (set_pg_status blk i st1).pg) :
    blk_count sp b2 st + (if (blk.pg i).status = st then 1 else 0) =
      blk_count sp blk st + (if st1 = st then 1 else 0) := by
  unfold blk_count
  have h := @count_upto_update (fun j => decide ((blk.pg j).status = st))
    (fun j => decide ((b2.pg j).status = st)) i
    (by
      intro j hj
      rw [hpg]
      simp only [set_pg_status, Function.update_noteq hj])
    sp.pgs_per_blk hi
  have e : (b2.pg i).status = st1 := by
    rw [hpg]
    simp [set_pg_status]
  simp only [decide_eq_true_eq, e] at h
  exact h

theorem line_count_set_blk_other (d : ssd) (p : ppa) (b2 : nand_block) (k : Nat)
    (st : pg_status) (hk : k ≠ p.blk) :
    line_count (set_blk d p b2) k st = line_count d k st := by
  unfold line_count
  have hsp : (set_blk d p b2).sp = d.sp := rfl
  rw [hsp]
  refine sum_upto_congr _ (fun c _ => sum_upto_congr _ (fun l _ => sum_upto_congr _
    (fun pl _ => ?_)))
  have hb : (set_blk d p b2).blk c l pl k = d.blk c l pl k := by
    unfold set_blk
    simp only
    rw [if_neg (fun h => hk h.2.2.2)]
  rw [hb]

theorem line_count_set_blk (d : ssd) (p : ppa) (b2 : nand_block) (st : pg_status)
    (h1 : p.ch < d.sp.nchs) (h2 : p.lun < d.sp.luns_per_ch) (h3 : p.pl < d.sp.pls_per_lun) :
    line_count (set_blk d p b2) p.blk st + blk_count d.sp (d.blk p.ch p.lun p.pl p.blk) st =
      line_count d p.blk st + blk_count d.sp b2 st := by
  unfold line_count
  have hsp : (set_blk d p b2).sp = d.sp := rfl
  rw [hsp]
  have hblk : ∀ c l pl, (set_blk d p b2).blk c l pl p.blk =
      if c = p.ch ∧ l = p.lun ∧ pl = p.pl then b2 else d.blk c l pl p.blk := by
    intro c l pl
    show (if c = p.ch ∧ l = p.lun ∧ pl = p.pl ∧ p.blk = p.blk then b2
      else d.blk c l pl p.blk) = _
    by_cases hc : c = p.ch ∧ l = p.lun ∧ pl = p.pl
    · rw [if_pos hc, if_pos ⟨hc.1, hc.2.1, hc.2.2, rfl⟩]
    · rw [if_neg hc, if_neg (fun h => hc ⟨h.1, h.2.1, h.2.2.1⟩)]
  have e3 := @sum_upto_update
    (fun pl => blk_count d.sp (d.blk p.ch p.lun pl p.blk) st)
    (fun pl => blk_count d.sp ((set_blk d p b2).blk p.ch p.lun pl p.blk) st) p.pl
    (by
      intro j hj
      simp only [hblk]
      rw [if_neg (fun h => hj h.2.2)])
    d.sp.pls_per_lun h3
  simp only [hblk p.ch p.lun p.pl, true_and, if_true] at e3
  have e2 := @sum_upto_update
    (fun l => sum_upto (fun pl => blk_count d.sp (d.blk p.ch l pl p.blk) st) d.sp.pls_per_lun)
    (fun l => sum_upto (fun pl => blk_count d.sp ((set_blk d p b2).blk p.ch l pl p.blk) st)
      d.sp.pls_per_lun) p.lun
    (by
      intro j hj
      refine sum_upto_congr _ (fun pl _ => ?_)
      simp only [hblk]
      rw [if_neg (fun h => hj h.2.1)])
    d.sp.luns_per_ch h2
  have e1 := @sum_upto_update
    (fun c => sum_upto (fun l => sum_upto (fun pl =>
      blk_count d.sp (d.blk c l pl p.blk) st) d.sp.pls_per_lun) d.sp.luns_per_ch)
    (fun c => sum_upto (fun l => sum_upto (fun pl =>
      blk_count d.sp ((set_blk d p b2).blk c l pl p.blk) st) d.sp.pls_per_lun)
      d.sp.luns_per_ch) p.ch
    (by
      intro j hj
      refine sum_upto_congr _ (fun l _ => sum_upto_congr _ (fun pl _ => ?_))
      simp only [hblk]
      rw [if_neg (fun h => hj h.1)])
    d.sp.nchs h1
  simp only at e1 e2 e3
  omega

/-! ## Line accounting under the page-state updates -/

theorem mark_page_invalid_vpc_counts {lm lm2 : line_mgmt} {k : Nat}
    (hk : line_hooks lm.victim_line_pq)
    (h : mark_page_invalid_vpc lm k = some lm2) :
    lm2.tt_lines = lm.tt_lines ∧
    ∀ j, (lm2.lines j).vpc = if j = k then (lm.lines k).vpc - 1 else (lm.lines j).vpc := by
  unfold mark_page_invalid_vpc at h
  split_ifs at h with hpos
  · have key := fun hh => @pqueue_change_priority_spec _ _ _ _ hh h
    obtain ⟨e1, _e2, e3⟩ := key hk
    refine ⟨by rw [e1]; rfl, fun j => ?_⟩
    have hv : (lm2.lines j).vpc = (Function.update lm.lines k
        { lm.lines k with vpc := (lm.lines k).vpc - 1 } j).vpc := by
      rcases e3 j with hA | ⟨x, _, hx⟩
      · rw [hA]
      · rw [hx]
    rw [hv]
    by_cases hj : j = k
    · subst hj
      rw [Function.update_same, if_pos rfl]
    · rw [Function.update_noteq hj, if_neg hj]
  · simp only [Option.some.injEq] at h
    subst h
    refine ⟨rfl, fun j => ?_⟩
    show (Function.update lm.lines k { lm.lines k with vpc := (lm.lines k).vpc - 1 } j).vpc = _
    by_cases hj : j = k
    · subst hj
      rw [Function.update_same, if_pos rfl]
    · rw [Function.update_noteq hj, if_neg hj]

theorem mark_page_invalid_move_counts {lm lm2 : line_mgmt} {k : Nat}
    (hk : line_hooks lm.victim_line_pq)
    (h : mark_page_invalid_move lm k = some lm2) :
    lm2.tt_lines = lm.tt_lines ∧ ∀ j, (lm2.lines j).vpc = (lm.lines j).vpc := by
  simp only [mark_page_invalid_move, bind, Option.bind_eq_some, pure, Option.some.injEq] at h
  obtain ⟨⟨lmi, rc⟩, hins, h⟩ := h
  have key := fun hh => @pqueue_insert_spec _ _ _ _ hh hins
  obtain ⟨_e0, e1, _e2, e3⟩ := key hk
  subst h
  have hl : same_but_pos lm.lines lmi.lines :=
    same_but_pos_of_cases (fun j => (e3 j).imp id (fun ⟨x, _, _, hx⟩ => ⟨x, hx⟩))
  exact ⟨by simp only; rw [e1]; rfl, fun j => (same_but_pos_fields hl j).2.2.1⟩

theorem mark_page_invalid_line_counts {spp : ssdparams} {lm lm2 : line_mgmt} {now k : Nat}
    (hk : line_hooks lm.victim_line_pq)
    (h : mark_page_invalid_line spp lm now k = some lm2) :
    lm2.tt_lines = lm.tt_lines ∧ 0 < (lm.lines k).vpc ∧
    ∀ j, (lm2.lines j).vpc = if j = k then (lm.lines k).vpc - 1 else (lm.lines j).vpc := by
  simp only [mark_page_invalid_line, bind, Option.bind_eq_some, NVMEV_ASSERT_eq_some, pure,
    exists_const, Option.some.injEq] at h
  obtain ⟨_h1, _h2, h3, lmb, hlmb, lmc, hlmc, hfin⟩ := h
  have hk1 : line_hooks (line_set_ipc_time lm k ((lm.lines k).ipc + 1)
      (lm.lines k).last_modified_time).victim_line_pq := hk
  obtain ⟨b1, b2⟩ := mark_page_invalid_vpc_counts hk1 hlmb
  have hB := mark_page_invalid_vpc_spec hk1 hlmb
  have hkb : line_hooks lmb.victim_line_pq := line_hooks_of_same hk hB.1
  have hA : ∀ j, ((line_set_ipc_time lm k ((lm.lines k).ipc + 1)
      (lm.lines k).last_modified_time).lines j).vpc = (lm.lines j).vpc := by
    intro j
    by_cases hj : j = k
    · subst hj; simp [line_set_ipc_time]
    · simp [line_set_ipc_time, Function.update_noteq hj]
  have hC : lmc.tt_lines = lmb.tt_lines ∧ ∀ j, (lmc.lines j).vpc = (lmb.lines j).vpc := by
    split_ifs at hlmc with hfull
    · exact mark_page_invalid_move_counts hkb hlmc
    · simp only [Option.some.injEq] at hlmc
      subst hlmc
      exact ⟨rfl, fun _ => rfl⟩
  subst hfin
  have hpos : 0 < (lm.lines k).vpc := by
    have := h3.1
    rw [hA k] at this
    exact this
  refine ⟨hC.1.trans b1, hpos, fun j => ?_⟩
  have h4 : ((line_set_ipc_time lmc k (lmc.lines k).ipc now).lines j).vpc =
      (lmc.lines j).vpc := by
    by_cases hj : j = k
    · subst hj; simp [line_set_ipc_time]
    · simp [line_set_ipc_time, Function.update_noteq hj]
  rw [h4, hC.2 j, b2 j, hA k]
  by_cases hj : j = k
  · rw [if_pos hj, if_pos hj]
  · rw [if_neg hj, if_neg hj, hA j]

theorem line_accounting_iff (s : conv_ftl) :
    line_accounting s ↔ (∀ k, k < s.lm.tt_lines → line_acct s k) ∧ blks_acct s :=
  Iff.rfl

/-- The page counts of a block after one page changes from status `st0` to `st1`. -/
theorem blk_count_step {sp : ssdparams} {p : ppa} {blk b2 : nand_block} {st0 st1 : pg_status}
    (hpg : p.pg < sp.pgs_per_blk) (hst0 : (blk.pg p.pg).status = st0)
    (hb2 : b2.pg = (set_pg_status blk p.pg st1).pg) (st : pg_status) :
    blk_count sp b2 st + (if st0 = st then 1 else 0) =
      blk_count sp blk st + (if st1 = st then 1 else 0) := by
  have := blk_count_set_status sp blk b2 p.pg st1 st hpg hb2
  rw [hst0] at this
  exact this

/-- The accounting of line `k` survives the change of one page from status `st0` to `st1`
when the counters of the line move accordingly. -/
theorem line_acct_step {s s2 : conv_ftl} {p : ppa} {blk b2 : nand_block}
    {st0 st1 : pg_status} {k : Nat} (hid : (s.lm.lines k).id = k) (hP : line_acct s k)
    (hssd : s2.ssd = set_blk s.ssd p b2) (hblk : get_blk s.ssd p = some blk)
    (hpg : p.pg < s.ssd.sp.pgs_per_blk) (hst0 : (blk.pg p.pg).status = st0)
    (hb2 : b2.pg = (set_pg_status blk p.pg st1).pg)
    (hlid : (s2.lm.lines k).id = (s.lm.lines k).id)
    (hlv : (s2.lm.lines k).vpc + (if k = p.blk ∧ st0 = PG_VALID then 1 else 0) =
      (s.lm.lines k).vpc + (if k = p.blk ∧ st1 = PG_VALID then 1 else 0))
    (hli : (s2.lm.lines k).ipc + (if k = p.blk ∧ st0 = PG_INVALID then 1 else 0) =
      (s.lm.lines k).ipc + (if k = p.blk ∧ st1 = PG_INVALID then 1 else 0)) :
    line_acct s2 k := by
  obtain ⟨⟨r1, r2, r3, r4⟩, hbe⟩ := get_blk_eq_some hblk
  have hline : ∀ st, line_count s2.ssd p.blk st + (if st0 = st then 1 else 0) =
      line_count s.ssd p.blk st + (if st1 = st then 1 else 0) := by
    intro st
    have h1 := line_count_set_blk s.ssd p b2 st r1 r2 r3
    rw [← hbe] at h1
    have h2 := @blk_count_step s.ssd.sp p blk b2 st0 st1 hpg hst0 hb2 st
    rw [hssd]
    omega
  obtain ⟨a1, a2⟩ := hP
  unfold line_acct
  rw [hlid, hid]
  rw [hid] at a1 a2
  by_cases hkp : k = p.blk
  · subst hkp
    have c1 := hline PG_VALID
    have c2 := hline PG_INVALID
    simp only [true_and] at hlv hli
    constructor
    · omega
    · omega
  · simp only [hkp, false_and, if_false, Nat.add_zero] at hlv hli
    rw [hssd, line_count_set_blk_other _ _ _ _ _ hkp,
      line_count_set_blk_other _ _ _ _ _ hkp, hlv, hli]
    exact ⟨a1, a2⟩

/-- Block accounting survives the change of one page from status `st0` to `st1` when the
counters of its block move accordingly. -/
theorem blks_acct_step {s s2 : conv_ftl} {p : ppa} {blk b2 : nand_block}
    {st0 st1 : pg_status} (hP : blks_acct s)
    (hssd : s2.ssd = set_blk s.ssd p b2) (hblk : get_blk s.ssd p = some blk)
    (hpg : p.pg < s.ssd.sp.pgs_per_blk) (hst0 : (blk.pg p.pg).status = st0)
    (hb2 : b2.pg = (set_pg_status blk p.pg st1).pg)
    (hbv : b2.vpc + (if st0 = PG_VALID then 1 else 0) =
      blk.vpc + (if st1 = PG_VALID then 1 else 0))
    (hbi : b2.ipc + (if st0 = PG_INVALID then 1 else 0) =
      blk.ipc + (if st1 = PG_INVALID then 1 else 0)) :
    blks_acct s2 := by
  obtain ⟨⟨_r1, _r2, _r3, _r4⟩, hbe⟩ := get_blk_eq_some hblk
  have hsp : s2.ssd.sp = s.ssd.sp := by rw [hssd]; rfl
  intro c hc l hl pl hpl b hb
  rw [hsp] at hc hl hpl hb ⊢
  obtain ⟨a1, a2⟩ := hP c hc l hl pl hpl b hb
  have hsel : s2.ssd.blk c l pl b =
      if c = p.ch ∧ l = p.lun ∧ pl = p.pl ∧ b = p.blk then b2 else s.ssd.blk c l pl b := by
    rw [hssd]
    rfl
  rw [hsel]
  by_cases hcp : c = p.ch ∧ l = p.lun ∧ pl = p.pl ∧ b = p.blk
  · rw [if_pos hcp]
    obtain ⟨e1, e2, e3, e4⟩ := hcp
    subst e1 e2 e3 e4
    rw [← hbe] at a1 a2
    have c1 := @blk_count_step s.ssd.sp p blk b2 st0 st1 hpg hst0 hb2 PG_VALID
    have c2 := @blk_count_step s.ssd.sp p blk b2 st0 st1 hpg hst0 hb2 PG_INVALID
    constructor
    · omega
    · omega
  · rw [if_neg hcp]
    exact ⟨a1, a2⟩

/-! ## Line accounting under `mark_page_valid` and `mark_page_invalid` -/

theorem mark_page_valid_acct {s s1 : conv_ftl} {p : ppa} (h : mark_page_valid s p = some s1) :
    (∀ k, (s.lm.lines k).id = k → line_acct s k → line_acct s1 k) ∧
    (blks_acct s → blks_acct s1) := by
  simp only [mark_page_valid, bind, Option.bind_eq_some, NVMEV_ASSERT_eq_some, pure,
    Option.some.injEq, exists_const, get_line] at h
  obtain ⟨pg, hpg, hfree, blk, hblk, _hvpc, _hl, hs⟩ := h
  obtain ⟨b, hb, hv, hpe⟩ := get_pg_eq_some hpg
  rw [hblk] at hb
  have hbb : b = blk := (Option.some.inj hb).symm
  subst hbb
  have hst0 : (b.pg p.pg).status = PG_FREE := by rw [← hpe]; exact hfree
  subst hs
  refine ⟨?_, ?_⟩
  · intro k hid hP
    refine @line_acct_step s _ p b _ PG_FREE PG_VALID k hid hP rfl hblk hv hst0 rfl ?_ ?_ ?_
    · show (Function.update s.lm.lines p.blk _ k).id = _
      by_cases hk : k = p.blk
      · subst hk; simp
      · rw [Function.update_noteq hk]
    · show (Function.update s.lm.lines p.blk _ k).vpc + _ = _
      by_cases hk : k = p.blk
      · subst hk; simp
      · rw [Function.update_noteq hk]; simp [hk]
    · show (Function.update s.lm.lines p.blk _ k).ipc + _ = _
      by_cases hk : k = p.blk
      · subst hk; simp
      · rw [Function.update_noteq hk]; simp [hk]
  · intro hP
    refine @blks_acct_step s _ p b _ PG_FREE PG_VALID hP rfl hblk hv hst0 rfl ?_ ?_
    · simp [set_pg_status]
    · simp [set_pg_status]

theorem mark_page_invalid_acct {s s1 : conv_ftl} {now : Nat} {p : ppa}
    (hk : line_hooks s.lm.victim_line_pq)
    (h : mark_page_invalid s now p = some s1) :
    (∀ k, (s.lm.lines k).id = k → line_acct s k → line_acct s1 k) ∧
    (blks_acct s → blks_acct s1) ∧ s1.lm.tt_lines = s.lm.tt_lines := by
  simp only [mark_page_invalid, bind, Option.bind_eq_some, NVMEV_ASSERT_eq_some, pure,
    Option.some.injEq, exists_const, get_line] at h
  obtain ⟨pg, hpg, hval, blk, hblk, _hipc, hvpc, lm1, hl, hs⟩ := h
  obtain ⟨b, hb, hv, hpe⟩ := get_pg_eq_some hpg
  rw [hblk] at hb
  have hbb : b = blk := (Option.some.inj hb).symm
  subst hbb
  have hst0 : (b.pg p.pg).status = PG_VALID := by rw [← hpe]; exact hval
  obtain ⟨_e1, _e2, e3⟩ := mark_page_invalid_line_spec hk hl
  obtain ⟨f1, f2, f3⟩ := mark_page_invalid_line_counts hk hl
  subst hs
  refine ⟨?_, ?_, f1⟩
  · intro k hid hP
    refine @line_acct_step s _ p b _ PG_VALID PG_INVALID k hid hP rfl hblk hv hst0 rfl
      (e3 k).1 ?_ ?_
    · show (lm1.lines k).vpc + _ = _
      rw [f3 k]
      by_cases hkp : k = p.blk
      · subst hkp; simp; omega
      · simp [hkp]
    · show (lm1.lines k).ipc + _ = _
      rw [(e3 k).2]
      by_cases hkp : k = p.blk
      · subst hkp; simp
      · simp [hkp]
  · intro hP
    have hv0 : 0 < b.vpc := hvpc.1
    refine @blks_acct_step s _ p b _ PG_VALID PG_INVALID hP rfl hblk hv hst0 rfl ?_ ?_
    · simp [set_pg_status]; omega
    · simp [set_pg_status]

/-! ## The effect of `advance_write_pointer` on the line manager -/

theorem advance_write_pointer_newline_cases {s s1 : conv_ftl} {io : Nat} {w : write_pointer}
    (h : advance_write_pointer_newline s io w = some s1) :
    ∃ lm1 cur rest, advance_write_pointer_close s.ssd.sp s.lm w.curline = some lm1 ∧
      lm1.free_line_list = cur :: rest ∧ w.blk < s.ssd.sp.blks_per_pl ∧
      (lm1.lines cur).id < s.ssd.sp.blks_per_pl ∧ w.pl = 0 ∧
      s1 = set_wp { s with lm := { lm1 with free_line_list := rest,
                                            free_line_cnt := dec_u32 lm1.free_line_cnt } } io
        { curline := cur, ch := 0, lun := 0, pg := 0, blk := (lm1.lines cur).id, pl := 0 } := by
  simp only [advance_write_pointer_newline, bind, Option.bind_eq_some, NVMEV_ASSERT_eq_some,
    check_addr_eq_some, pure, exists_const] at h
  obtain ⟨lm1, hlm1, hb, h⟩ := h
  cases hf : lm1.free_line_list with
  | nil =>
    have hg : get_next_free_line lm1 = (lm1, none) := by
      unfold get_next_free_line
      rw [hf]
    simp [hg] at h
  | cons cur rest =>
    have hg : get_next_free_line lm1 =
        ({ lm1 with free_line_list := rest, free_line_cnt := dec_u32 lm1.free_line_cnt },
          some cur) := by
      unfold get_next_free_line
      rw [hf]
    simp only [hg, Option.bind_eq_some, NVMEV_ASSERT_eq_some, check_addr_eq_some,
      exists_const, Option.some.injEq] at h
    obtain ⟨h1, _h2, h3, h4, h5, h⟩ := h
    refine ⟨lm1, cur, rest, hlm1, hf, hb, h1, h5, ?_⟩
    rw [← h]
    congr 1
    cases w with
    | mk c0 ch0 lun0 pg0 blk0 pl0 =>
      simp only at h3 h4 h5
      subst h3 h4 h5
      rfl

/-- The two ways `advance_write_pointer` returns: the cursor moves inside its line, or the
line is closed and the head of the free-line list becomes the new open line. -/
theorem advance_write_pointer_cases {s s1 : conv_ftl} {io : Nat}
    (h : advance_write_pointer s io = some s1) :
    ∃ wpp, __get_wp s io = some wpp ∧ wpp.pg < s.ssd.sp.pgs_per_blk ∧
      ((∃ w2, s1 = set_wp s io w2 ∧ w2.curline = wpp.curline ∧ w2.blk = wpp.blk ∧
          w2.pl = wpp.pl) ∨
       (∃ lm1 cur rest, advance_write_pointer_close s.ssd.sp s.lm wpp.curline = some lm1 ∧
          lm1.free_line_list = cur :: rest ∧ wpp.blk < s.ssd.sp.blks_per_pl ∧
          (lm1.lines cur).id < s.ssd.sp.blks_per_pl ∧ wpp.pl = 0 ∧
          s1 = set_wp { s with lm := { lm1 with free_line_list := rest,
                                                free_line_cnt := dec_u32 lm1.free_line_cnt } } io
            { curline := cur, ch := 0, lun := 0, pg := 0, blk := (lm1.lines cur).id,
              pl := 0 })) := by
  simp only [advance_write_pointer, bind, Option.bind_eq_some, NVMEV_ASSERT_eq_some,
    check_addr_eq_some, pure, exists_const] at h
  obtain ⟨wpp, hw, h1, _h2, h⟩ := h
  refine ⟨wpp, hw, h1, ?_⟩
  split_ifs at h with c1 c2 c3 c4
  · exact Or.inl ⟨_, (Option.some.inj h).symm, rfl, rfl, rfl⟩
  · simp only [Option.bind_eq_some, check_addr_eq_some, exists_const] at h
    exact Or.inl ⟨_, (Option.some.inj h.2).symm, rfl, rfl, rfl⟩
  · simp only [Option.bind_eq_some, check_addr_eq_some, exists_const] at h
    exact Or.inl ⟨_, (Option.some.inj h.2.2).symm, rfl, rfl, rfl⟩
  · simp only [Option.bind_eq_some, check_addr_eq_some, exists_const] at h
    exact Or.inl ⟨_, (Option.some.inj h.2.2).symm, rfl, rfl, rfl⟩
  · simp only [Option.bind_eq_some, check_addr_eq_some, exists_const] at h
    have hn := advance_write_pointer_newline_cases h.2.2
    exact Or.inr hn

theorem advance_write_pointer_close_frame {spp : ssdparams} {lm lm1 : line_mgmt} {c : Nat}
    (hk : line_hooks lm.victim_line_pq)
    (h : advance_write_pointer_close spp lm c = some lm1) :
    same_hooks lm.victim_line_pq lm1.victim_line_pq ∧ same_but_pos lm.lines lm1.lines ∧
    lm1.tt_lines = lm.tt_lines ∧ lm1.free_line_list = lm.free_line_list ∧
    lm1.free_line_cnt = lm.free_line_cnt ∧ lm1.select_victim = lm.select_victim := by
  unfold advance_write_pointer_close at h
  split_ifs at h with hfull
  · simp only [bind, Option.bind_eq_some, NVMEV_ASSERT_eq_some, pure, exists_const,
      Option.some.injEq] at h
    obtain ⟨_, h⟩ := h
    subst h
    exact ⟨same_hooks_refl _, same_but_pos_refl _, rfl, rfl, rfl, rfl⟩
  · simp only [bind, Option.bind_eq_some, NVMEV_ASSERT_eq_some, pure, exists_const,
      Option.some.injEq] at h
    obtain ⟨_, _, ⟨lmi, rc⟩, hins, h⟩ := h
    have key := fun hh => @pqueue_insert_spec _ _ _ _ hh hins
    obtain ⟨_e0, e1, _e2, e3⟩ := key hk
    subst h
    have hs := same_hooks_pq_with e1
    have hl : same_but_pos lm.lines lmi.lines :=
      same_but_pos_of_cases (fun j => (e3 j).imp id (fun ⟨x, _, _, hx⟩ => ⟨x, hx⟩))
    refine ⟨hs, hl, ?_, ?_, ?_, ?_⟩
    · show lmi.tt_lines = _
      rw [e1]; rfl
    · show lmi.free_line_list = _
      rw [e1]; rfl
    · show lmi.free_line_cnt = _
      rw [e1]; rfl
    · show lmi.select_victim = _
      rw [e1]; rfl

/-- What `advance_write_pointer` leaves alone: the NAND state, the tables, the other cursor,
the `id`, `ipc` and `vpc` of every line; the free-line list keeps its order and loses at most
its head, which is then the new open line. -/
theorem advance_write_pointer_effect {s s1 : conv_ftl} {io : Nat}
    (hk : line_hooks s.lm.victim_line_pq)
    (h : advance_write_pointer s io = some s1) :
    s1.ssd = s.ssd ∧ same_hooks s.lm.victim_line_pq s1.lm.victim_line_pq ∧
    same_but_pos s.lm.lines s1.lm.lines ∧ s1.lm.tt_lines = s.lm.tt_lines ∧
    s1.lm.select_victim = s.lm.select_victim ∧
    (io = GC_IO → s1.wp = s.wp) ∧ (io = USER_IO → s1.gc_wp = s.gc_wp) ∧
    ∃ wpp wpp1, __get_wp s io = some wpp ∧ __get_wp s1 io = some wpp1 ∧
      ((s1.lm.free_line_list = s.lm.free_line_list ∧ wpp1.curline = wpp.curline ∧
          wpp1.blk = wpp.blk) ∨
       (s.lm.free_line_list = wpp1.curline :: s1.lm.free_line_list ∧
          wpp1.blk = (s.lm.lines wpp1.curline).id ∧ wpp1.blk < s.ssd.sp.blks_per_pl)) := by
  obtain ⟨wpp, hw, _hpg, hc⟩ := advance_write_pointer_cases h
  have hio : io = USER_IO ∨ io = GC_IO := by
    unfold __get_wp at hw
    split_ifs at hw with a b
    · exact Or.inl a
    · exact Or.inr b
  have hne : GC_IO ≠ USER_IO := by decide
  rcases hc with ⟨w2, e, e1, e2, _e3⟩ | ⟨lm1, cur, rest, hcl, hfl, _hb, hid, _hpl, e⟩
  · subst e
    refine ⟨(set_wp_fields s io w2).1, ?_, ?_, ?_, ?_, ?_, ?_, wpp, w2, hw, ?_, ?_⟩
    · rw [(set_wp_fields s io w2).2.2.2]; exact same_hooks_refl _
    · rw [(set_wp_fields s io w2).2.2.2]; exact same_but_pos_refl _
    · rw [(set_wp_fields s io w2).2.2.2]
    · rw [(set_wp_fields s io w2).2.2.2]
    · intro hg; subst hg; simp [set_wp, hne]
    · intro hg; subst hg; simp [set_wp]
    · rcases hio with a | a <;> subst a <;> simp [set_wp, __get_wp, hne]
    · rw [(set_wp_fields s io w2).2.2.2]
      exact Or.inl ⟨rfl, e1, e2⟩
  · obtain ⟨f1, f2, f3, f4, _f5, f6⟩ := advance_write_pointer_close_frame hk hcl
    subst e
    refine ⟨(set_wp_fields _ io _).1, ?_, ?_, ?_, ?_, ?_, ?_, wpp,
      { curline := cur, ch := 0, lun := 0, pg := 0, blk := (lm1.lines cur).id, pl := 0 },
      hw, ?_, ?_⟩
    · rw [(set_wp_fields _ io _).2.2.2]; exact f1
    · rw [(set_wp_fields _ io _).2.2.2]; exact f2
    · rw [(set_wp_fields _ io _).2.2.2]; exact f3
    · rw [(set_wp_fields _ io _).2.2.2]; exact f6
    · intro hg; subst hg; simp [set_wp, hne]
    · intro hg; subst hg; simp [set_wp]
    · rcases hio with a | a <;> subst a <;> simp [set_wp, __get_wp, hne]
    · rw [(set_wp_fields _ io _).2.2.2]
      refine Or.inr ⟨?_, ?_, ?_⟩
      · show s.lm.free_line_list = cur :: rest
        rw [← f4]; exact hfl
      · show (lm1.lines cur).id = (s.lm.lines cur).id
        exact (same_but_pos_fields f2 cur).1
      · exact hid

theorem get_new_page_eq_some {s : conv_ftl} {io : Nat} {p : ppa}
    (h : get_new_page s io = some p) :
    ∃ w, __get_wp s io = some w ∧
      p = { ch := w.ch % 256, lun := w.lun % 256, pg := w.pg % 65536,
            blk := w.blk % 65536, pl := w.pl % 256, rsv := 0 } := by
  simp only [get_new_page, bind, Option.bind_eq_some, NVMEV_ASSERT_eq_some, pure,
    exists_const, Option.some.injEq] at h
  obtain ⟨w, hw, _, hp⟩ := h
  exact ⟨w, hw, hp.symm⟩

theorem gc_write_page_spec {s s' : conv_ftl} {old : ppa} (h : gc_write_page s old = some s') :
    ∃ lpn new s1 s2 s3, get_rmap_ent s old = some lpn ∧ lpn < s.ssd.sp.tt_pgs ∧
      get_new_page s GC_IO = some new ∧ set_maptbl_ent s lpn new = some s1 ∧
      set_rmap_ent s1 lpn new = some s2 ∧ mark_page_valid s2 new = some s3 ∧
      advance_write_pointer { s3 with gc_copied_pages := s3.gc_copied_pages + 1 } GC_IO
        = some s' := by
  simp only [gc_write_page, bind, Option.bind_eq_some, NVMEV_ASSERT_eq_some, pure,
    exists_const, valid_lpn, decide_eq_true_eq] at h
  obtain ⟨lpn, h1, h2, new, h3, s1, h4, s2, h5, s3, h6, h7⟩ := h
  exact ⟨lpn, new, s1, s2, s3, h1, h2, h3, h4, h5, h6, h7⟩

/-! ## Invariant rules for `clean_one_flashpg` and the sweep of `do_gc` -/

/-- An invariant of `gc_write_page` on the VALID pages of one block is an invariant of the
copy loop of `clean_one_flashpg` on that block. -/
theorem clean_one_flashpg_copy_inv (J : conv_ftl → Prop) (p0 : ppa)
    (hw : ∀ t t' old, J t → old.ch = p0.ch → old.lun = p0.lun → old.pl = p0.pl →
      old.blk = p0.blk → page_status t old = some PG_VALID →
      gc_write_page t old = some t' → J t') :
    ∀ (n : Nat) (s : conv_ftl) (p : ppa) (s' : conv_ftl),
      p.ch = p0.ch → p.lun = p0.lun → p.pl = p0.pl → p.blk = p0.blk → J s →
      clean_one_flashpg_copy n s p = some s' → J s' := by
  intro n
  induction n with
  | zero =>
    intro s p s' _ _ _ _ hJ h
    simp only [clean_one_flashpg_copy, Option.some.injEq] at h
    subst h
    exact hJ
  | succ n ih =>
    intro s p s' h1 h2 h3 h4 hJ h
    unfold clean_one_flashpg_copy at h
    cases hpg : get_pg s.ssd p with
    | none => simp [hpg] at h
    | some pg =>
      simp only [hpg] at h
      by_cases hv : pg.status = PG_VALID
      · rw [if_pos hv] at h
        cases hg : gc_write_page s p with
        | none => simp [hg] at h
        | some t =>
          simp only [hg] at h
          have hst : page_status s p = some PG_VALID := by simp [page_status, hpg, hv]
          exact ih t (ppa_next_pg p) s' h1 h2 h3 h4 (hw s t p hJ h1 h2 h3 h4 hst hg) h
      · rw [if_neg hv] at h
        exact ih s (ppa_next_pg p) s' h1 h2 h3 h4 hJ h

theorem clean_one_flashpg_inv (J : conv_ftl → Prop) (p : ppa)
    (hw : ∀ t t' old, J t → old.ch = p.ch → old.lun = p.lun → old.pl = p.pl →
      old.blk = p.blk → page_status t old = some PG_VALID →
      gc_write_page t old = some t' → J t')
    {s s' : conv_ftl} (hJ : J s) (h : clean_one_flashpg s p = some s') : J s' := by
  unfold clean_one_flashpg at h
  cases hc : clean_one_flashpg_count s s.ssd.sp.pgs_per_flashpg p 0 with
  | none => simp [hc] at h
  | some cnt =>
    simp only [hc] at h
    split_ifs at h with h0
    · rw [← Option.some.inj h]; exact hJ
    · exact clean_one_flashpg_copy_inv J p hw _ s p s' rfl rfl rfl rfl hJ h

/-- Invariant rule for the sweep of `do_gc` over the line with block number `blk`: a state
invariant `J` kept by every `gc_write_page` on a VALID page of the line and by every
`mark_block_free` holds after the sweep, and a property `F ch lun` that `mark_block_free`
establishes for its block and that later steps keep holds for every channel and LUN. -/
theorem do_gc_sweep_rule (sp : ssdparams) (blk : Nat) (J : conv_ftl → Prop)
    (F : Nat → Nat → conv_ftl → Prop)
    (hpos : 0 < sp.flashpgs_per_blk)
    (hsp : ∀ t, J t → t.ssd.sp = sp)
    (hw : ∀ t t' old, J t → old.pl = 0 → old.blk = blk % 65536 →
      page_status t old = some PG_VALID → gc_write_page t old = some t' →
      J t' ∧ ∀ c l, F c l t → F c l t')
    (hf : ∀ t t' fp ch lun, J t → ch < sp.nchs → lun < sp.luns_per_ch →
      mark_block_free t (gc_ppa sp blk fp ch lun) = some t' →
      J t' ∧ F ch lun t' ∧ ∀ c l, F c l t → F c l t')
    (s s' : conv_ftl) (h0 : J s) (h : do_gc_sweep blk s = some s') :
    J s' ∧ ∀ c l, c < sp.nchs → l < sp.luns_per_ch → F c l s' := by
  have key := do_gc_sweep_inv sp blk
    (fun fp ch lun t => J t ∧
      (fp + 1 = sp.flashpgs_per_blk → ∀ c l, c < sp.nchs → l < sp.luns_per_ch →
        (c < ch ∨ (c = ch ∧ l < lun)) → F c l t) ∧
      (sp.flashpgs_per_blk ≤ fp → ∀ c l, c < sp.nchs → l < sp.luns_per_ch → F c l t))
    (fun _ _ _ t hK => hsp t hK.1) ?_ ?_ ?_ s s' ⟨h0, ?_, ?_⟩ h
  · exact ⟨key.1, key.2.2 (Nat.le_refl _)⟩
  · -- one call of the loop body
    intro fp ch lun t t' hfp hch hlun hK hb
    obtain ⟨hJ, hmid, _hlast⟩ := hK
    have hspt := hsp t hJ
    simp only [do_gc_lun, bind, Option.bind_eq_some] at hb
    obtain ⟨t1, hclean, hb⟩ := hb
    rw [hspt] at hclean hb
    have hJF : (J t1 ∧ ∀ c l, F c l t → F c l t1) :=
      clean_one_flashpg_inv (fun u => J u ∧ ∀ c l, F c l t → F c l u)
        (gc_ppa sp blk fp ch lun)
        (fun u u' old hu _ _ h3 h4 hst hg =>
          ⟨(hw u u' old hu.1 h3 h4 hst hg).1,
            fun c l hF => (hw u u' old hu.1 h3 h4 hst hg).2 c l (hu.2 c l hF)⟩)
        ⟨hJ, fun _ _ hF => hF⟩ hclean
    by_cases hl : fp = sp.flashpgs_per_blk - 1
    · rw [if_pos hl] at hb
      obtain ⟨a1, a2, a3⟩ := hf t1 t' fp ch lun hJF.1 hch hlun hb
      refine ⟨a1, ?_, ?_⟩
      · intro _ c l hc hl2 hlt
        by_cases hcl : c = ch ∧ l = lun
        · rw [hcl.1, hcl.2]; exact a2
        · apply a3
          apply hJF.2
          apply hmid (by omega) c l hc hl2
          omega
      · intro hle; omega
    · rw [if_neg hl] at hb
      simp only [pure, Option.some.injEq] at hb
      subst hb
      refine ⟨hJF.1, ?_, ?_⟩
      · intro he; omega
      · intro hle; omega
  · intro fp ch t hK
    refine ⟨hK.1, ?_, hK.2.2⟩
    intro he c l hc hl hlt
    apply hK.2.1 he c l hc hl
    omega
  · intro fp t hK
    refine ⟨hK.1, ?_, ?_⟩
    · intro _ c l _ _ hlt; omega
    · intro hle c l hc hl
      by_cases he : fp + 1 = sp.flashpgs_per_blk
      · apply hK.2.1 he c l hc hl
        exact Or.inl hc
      · exact hK.2.2 (by omega) c l hc hl
  · intro _ c l _ _ hlt; omega
  · intro hle; omega

/-! ## The steps of `do_gc` around the sweep -/

theorem mark_block_free_spec {s s' : conv_ftl} {p : ppa} (h : mark_block_free s p = some s') :
    ∃ blk b2, get_blk s.ssd p = some blk ∧ s' = { s with ssd := set_blk s.ssd p b2 } ∧
      (∀ i, i < s.ssd.sp.pgs_per_blk → (b2.pg i).status = PG_FREE) ∧
      b2.vpc = 0 ∧ b2.ipc = 0 ∧ b2.erase_cnt = blk.erase_cnt + 1 := by
  simp only [mark_block_free, bind, Option.bind_eq_some, NVMEV_ASSERT_eq_some, pure,
    exists_const, Option.some.injEq] at h
  obtain ⟨blk, hblk, b1, hloop, _hn, hs⟩ := h
  have hI := for_loop_inv
    (fun i b => (NVMEV_ASSERT ((b.pg i).nsecs = s.ssd.sp.secs_per_pg)).bind
      (fun _ => some (set_pg_status b i PG_FREE)))
    (fun i (b : nand_block) => (∀ j, j < i → (b.pg j).status = PG_FREE) ∧
      b.erase_cnt = blk.erase_cnt)
    s.ssd.sp.pgs_per_blk blk b1 ⟨fun j hj => absurd hj (Nat.not_lt_zero j), rfl⟩ ?_ hloop
  · refine ⟨blk, _, hblk, hs.symm, ?_, rfl, rfl, ?_⟩
    · exact hI.1
    · show b1.erase_cnt + 1 = _
      rw [hI.2]
  · intro j t t' _hj hIt hb
    simp only [Option.bind_eq_some, NVMEV_ASSERT_eq_some, exists_const,
      Option.some.injEq] at hb
    obtain ⟨_, hb⟩ := hb
    subst hb
    refine ⟨?_, hIt.2⟩
    intro i hi
    by_cases hij : i = j
    · subst hij
      simp [set_pg_status]
    · have : (set_pg_status t j PG_FREE).pg i = t.pg i := by
        simp [set_pg_status, Function.update_noteq hij]
      rw [this]
      exact hIt.1 i (by omega)

theorem count_gc_victim_type_frame {s s' : conv_ftl} {v : Nat}
    (h : count_gc_victim_type s v = some s') : s' = { s with glob := s'.glob } := by
  unfold count_gc_victim_type at h
  simp only at h
  split_ifs at h with h0
  · rw [← Option.some.inj h]
  · cases hs : count_gc_victim_type_scan s
        { ch := 0, lun := 0, pl := 0, blk := (s.lm.lines v).id % 65536, pg := 0, rsv := 0 }
        s.ssd.sp.pgs_per_blk 0 with
    | none => simp [hs] at h
    | some c =>
      simp only [hs] at h
      split_ifs at h <;> rw [← Option.some.inj h]

theorem same_outside_heap_pq_with {lm lm1 : line_mgmt} {n : Nat}
    (e1 : lm1 = pq_with (pq_set_size lm n) lm1.lines lm1.victim_line_pq.d)
    (e3 : same_but_pos lm.lines lm1.lines) : same_outside_heap lm lm1 := by
  have hs := same_hooks_pq_with e1
  refine ⟨?_, ?_, ?_, ?_, ?_, ?_, hs, e3⟩ <;> (rw [e1]; rfl)

theorem same_outside_heap_refl (lm : line_mgmt) : same_outside_heap lm lm :=
  ⟨rfl, rfl, rfl, rfl, rfl, rfl, same_hooks_refl _, same_but_pos_refl _⟩

/-- The victim selection leaves the NAND state, the tables, the cursors and the two line
lists alone; inside the manager only the heap, the `pos` fields and `victim_line_cnt`
change. -/
theorem select_victim_frame {s s1 : conv_ftl} {now r : Nat} {force : Bool} {vo : Option Nat}
    (hk : line_hooks s.lm.victim_line_pq)
    (h : select_victim s now r force = some (s1, vo)) :
    s1 = { s with lm := s1.lm, glob := s1.glob } ∧
    s1.glob.debug_mode = s.glob.debug_mode ∧ same_outside_heap s.lm s1.lm := by
  have hupd : ∀ (lm1 : line_mgmt) (v : Nat), same_outside_heap s.lm lm1 →
      same_outside_heap s.lm
        { clear_pos lm1 v with victim_line_cnt := dec_u32 (clear_pos lm1 v).victim_line_cnt } := by
    intro lm1 v ⟨a1, a2, a3, a4, a5, a6, a7, a8⟩
    exact ⟨a1, a2, a3, a4, a5, a6, a7,
      same_but_pos_trans a8 (same_but_pos_update_pos _ _ _)⟩
  unfold select_victim at h
  cases hm : s.lm.select_victim with
  | GC_MODE_GREEDY =>
    simp only [hm, select_victim_greedy] at h
    cases hp : pqueue_peek s.lm with
    | none =>
      simp only [hp, Option.some.injEq, Prod.mk.injEq] at h
      rw [← h.1]
      exact ⟨rfl, rfl, same_outside_heap_refl _⟩
    | some v =>
      simp only [hp] at h
      split_ifs at h with hc
      · simp only [Option.some.injEq, Prod.mk.injEq] at h
        rw [← h.1]
        exact ⟨rfl, rfl, same_outside_heap_refl _⟩
      · cases hpop : pqueue_pop s.lm with
        | none => simp [hpop] at h
        | some r1 =>
          obtain ⟨lm1, v1⟩ := r1
          simp only [hpop, Option.some.injEq, Prod.mk.injEq] at h
          have hs1 : s.lm.victim_line_pq.size ≠ 1 := by
            intro h1
            simp [pqueue_peek, h1] at hp
          obtain ⟨-, e1, -, e3⟩ := pqueue_pop_spec hk hs1 hpop
          have e3b : same_but_pos s.lm.lines lm1.lines :=
            same_but_pos_of_cases (fun j => (e3 j).imp id (fun ⟨x, _, _, _, hx⟩ => ⟨x, hx⟩))
          rw [← h.1]
          exact ⟨rfl, rfl, hupd lm1 v (same_outside_heap_pq_with e1 e3b)⟩
  | GC_MODE_COST_BENEFIT =>
    simp only [hm, select_victim_cb] at h
    split_ifs at h with hz
    · simp only [Option.some.injEq, Prod.mk.injEq] at h
      rw [← h.1]
      exact ⟨rfl, rfl, same_outside_heap_refl _⟩
    · revert h
      generalize (List.range' 1 s.lm.victim_line_pq.size).foldl
        (select_victim_cb_step s.lm now)
        { best_victim := none, max_score := 0, victim_age := 0 } = acc
      intro h
      cases hb : acc.best_victim with
      | none =>
        simp only [hb, Option.some.injEq, Prod.mk.injEq] at h
        rw [← h.1]
        exact ⟨rfl, rfl, same_outside_heap_refl _⟩
      | some b =>
        simp only [hb] at h
        cases hrem : pqueue_remove s.lm (some b) with
        | none => simp [hrem] at h
        | some r1 =>
          obtain ⟨lm1, rc⟩ := r1
          simp only [hrem, Option.some.injEq, Prod.mk.injEq] at h
          obtain ⟨-, e1, -, e3⟩ := pqueue_remove_spec hk hrem
          rw [← h.1]
          exact ⟨rfl, rfl, hupd lm1 b (same_outside_heap_pq_with e1 (same_but_pos_of_cases e3))⟩
  | GC_MODE_RANDOM =>
    simp only [hm, select_victim_random] at h
    split_ifs at h with hz
    · simp only [Option.some.injEq, Prod.mk.injEq] at h
      rw [← h.1]
      exact ⟨rfl, rfl, same_outside_heap_refl _⟩
    · cases hd : s.lm.victim_line_pq.d (r % s.lm.victim_line_pq.size + 1) with
      | none => simp [hd] at h
      | some v =>
        rw [hd] at h
        cases hrem : pqueue_remove s.lm (some v) with
        | none => simp [hrem] at h
        | some r1 =>
          obtain ⟨lm1, rc⟩ := r1
          simp only [hrem, Option.some.injEq, Prod.mk.injEq] at h
          obtain ⟨-, e1, -, e3⟩ := pqueue_remove_spec hk hrem
          rw [← h.1]
          exact ⟨rfl, rfl, hupd lm1 v (same_outside_heap_pq_with e1 (same_but_pos_of_cases e3))⟩

/-! ## Line accounting through the sweep of `do_gc` -/

theorem line_acct_congr {s t : conv_ftl} {k : Nat} (hssd : t.ssd = s.ssd)
    (hid : (t.lm.lines k).id = (s.lm.lines k).id)
    (hv : (t.lm.lines k).vpc = (s.lm.lines k).vpc)
    (hi : (t.lm.lines k).ipc = (s.lm.lines k).ipc) (h : line_acct s k) : line_acct t k := by
  unfold line_acct at h ⊢
  rw [hssd, hid, hv, hi]
  exact h

theorem blks_acct_congr {s t : conv_ftl} (hssd : t.ssd = s.ssd) (h : blks_acct s) :
    blks_acct t := by
  unfold blks_acct at h ⊢
  rw [hssd]
  exact h

theorem mark_page_valid_ssd {s s1 : conv_ftl} {p : ppa} (h : mark_page_valid s p = some s1) :
    ∃ b2, s1.ssd = set_blk s.ssd p b2 := by
  simp only [mark_page_valid, bind, Option.bind_eq_some, NVMEV_ASSERT_eq_some, pure,
    Option.some.injEq, exists_const, get_line] at h
  obtain ⟨pg, _hpg, _hfree, blk, _hblk, _hvpc, _hl, hs⟩ := h
  subst hs
  exact ⟨_, rfl⟩

theorem set_blk_other (d : ssd) (p : ppa) (b2 : nand_block) (c l pl b : Nat)
    (h : ¬(c = p.ch ∧ l = p.lun ∧ pl = p.pl ∧ b = p.blk)) :
    (set_blk d p b2).blk c l pl b = d.blk c l pl b := by
  show (if c = p.ch ∧ l = p.lun ∧ pl = p.pl ∧ b = p.blk then b2 else d.blk c l pl b) = _
  rw [if_neg h]

theorem get_wp_gc (s : conv_ftl) : __get_wp s GC_IO = some s.gc_wp := by
  simp [__get_wp, GC_IO, USER_IO]

/-- `gc_write_page` keeps the sweep invariant of line accounting and does not touch the
blocks numbered `v`. -/
theorem gc_write_page_acct {sp : ssdparams} {v n : Nat} {t t' : conv_ftl} {old : ppa}
    (hfit : sp.blks_per_pl ≤ 65536) (hJ : gc_acct sp v n t)
    (h : gc_write_page t old = some t') :
    gc_acct sp v n t' ∧ ∀ c l pl, t'.ssd.blk c l pl v = t.ssd.blk c l pl v := by
  obtain ⟨j1, j2, j3, j4, j5, j6, j7, j8⟩ := hJ
  obtain ⟨lpn, new, s1, s2, s3, _h1, _h2, h3, h4, h5, h6, h7⟩ := gc_write_page_spec h
  obtain ⟨w, hw, hnew⟩ := get_new_page_eq_some h3
  rw [get_wp_gc] at hw
  have hwe : w = t.gc_wp := (Option.some.inj hw).symm
  subst hwe
  have hnb : new.blk = t.gc_wp.blk % 65536 := by rw [hnew]
  obtain ⟨_, e1⟩ := set_maptbl_ent_spec h4
  obtain ⟨_, e2⟩ := set_rmap_ent_spec h5
  subst e1
  subst e2
  obtain ⟨_, _, m3, m4, m5, _⟩ := mark_page_valid_spec h6
  obtain ⟨macct, mblk⟩ := mark_page_valid_acct h6
  obtain ⟨b2, mssd⟩ := mark_page_valid_ssd h6
  have hk3 : line_hooks s3.lm.victim_line_pq := by rw [m4]; exact j2
  have hk3b : line_hooks ({ s3 with gc_copied_pages := s3.gc_copied_pages + 1 } :
      conv_ftl).lm.victim_line_pq := hk3
  obtain ⟨a1, a2, a3, a4, _a5, _a6, _a7, wpp, wpp1, g1, g2, a8⟩ :=
    advance_write_pointer_effect hk3b h7
  rw [get_wp_gc] at g1 g2
  have g1e : wpp = s3.gc_wp := (Option.some.inj g1).symm
  have g2e : wpp1 = t'.gc_wp := (Option.some.inj g2).symm
  subst g1e
  subst g2e
  have hgc3 : s3.gc_wp = t.gc_wp := by rw [m4]
  have hfree3 : s3.lm.free_line_list = t.lm.free_line_list := by rw [m4]
  have htt3 : s3.lm.tt_lines = t.lm.tt_lines := by rw [m4]
  have hid3 : ∀ k, (s3.lm.lines k).id = (t.lm.lines k).id := by
    intro k
    rw [m5]
    by_cases hk : k = new.blk
    · subst hk; simp
    · rw [Function.update_noteq hk]
  have hssd' : t'.ssd = s3.ssd := a1
  have hlines : ∀ k, (t'.lm.lines k).id = (s3.lm.lines k).id ∧
      (t'.lm.lines k).ipc = (s3.lm.lines k).ipc ∧ (t'.lm.lines k).vpc = (s3.lm.lines k).vpc ∧
      (t'.lm.lines k).last_modified_time = (s3.lm.lines k).last_modified_time :=
    fun k => same_but_pos_fields a3 k
  have hids' : line_ids t'.lm := by
    intro k
    rw [(hlines k).1, hid3 k]
    exact j3 k
  refine ⟨⟨?_, line_hooks_of_same hk3 a2, hids', ?_, ?_, ?_, ?_, ?_⟩, ?_⟩
  · rw [hssd', m3]; exact j1
  · show t'.lm.tt_lines = n
    rw [a4]
    show s3.lm.tt_lines = n
    rw [htt3]; exact j4
  · intro k hk hkv
    have h0 : line_acct t k := j5 k hk hkv
    have h3 : line_acct s3 k := macct k (j3 k) h0
    exact line_acct_congr hssd' (hlines k).1 (hlines k).2.2.1 (hlines k).2.1 h3
  · exact blks_acct_congr hssd' (mblk j6)
  · rcases a8 with ⟨f1, _, _⟩ | ⟨f1, _, _⟩
    · rw [f1]
      show v ∉ s3.lm.free_line_list
      rw [hfree3]; exact j7
    · intro hin
      apply j7
      rw [← hfree3]
      have : s3.lm.free_line_list = t'.gc_wp.curline :: t'.lm.free_line_list := f1
      rw [this]
      exact List.mem_cons_of_mem _ hin
  · rcases a8 with ⟨_, _, f3⟩ | ⟨f1, f2, f3⟩
    · rw [f3]
      show s3.gc_wp.blk % 65536 ≠ v
      rw [hgc3]; exact j8
    · have f1b : s3.lm.free_line_list = t'.gc_wp.curline :: t'.lm.free_line_list := f1
      have f2b : t'.gc_wp.blk = (s3.lm.lines t'.gc_wp.curline).id := f2
      have f3b : t'.gc_wp.blk < s3.ssd.sp.blks_per_pl := f3
      rw [m3, j1] at f3b
      have hcur : t'.gc_wp.curline ∈ t.lm.free_line_list := by
        rw [← hfree3, f1b]
        exact List.mem_cons_self _ _
      have hb : t'.gc_wp.blk = t'.gc_wp.curline := by
        rw [f2b, hid3]; exact j3 _
      have hlt : t'.gc_wp.blk % 65536 = t'.gc_wp.blk := Nat.mod_eq_of_lt (by omega)
      rw [hlt, hb]
      intro he
      apply j7
      rw [← he]
      exact hcur
  · intro c l pl
    rw [hssd', mssd]
    apply set_blk_other
    intro hc
    apply j8
    rw [← hnb]
    exact hc.2.2.2.symm

theorem blk_count_free {sp : ssdparams} {b : nand_block} {st : pg_status}
    (hfree : ∀ i, i < sp.pgs_per_blk → (b.pg i).status = PG_FREE) (hst : st ≠ PG_FREE) :
    blk_count sp b st = 0 := by
  unfold blk_count
  apply count_upto_zero
  intro i hi
  rw [hfree i hi]
  simp only [decide_eq_false_iff_not]
  exact fun h => hst h.symm

theorem set_blk_same (d : ssd) (p : ppa) (b2 : nand_block) :
    (set_blk d p b2).blk p.ch p.lun p.pl p.blk = b2 := by
  show (if p.ch = p.ch ∧ p.lun = p.lun ∧ p.pl = p.pl ∧ p.blk = p.blk then b2 else _) = _
  rw [if_pos ⟨rfl, rfl, rfl, rfl⟩]

/-- `mark_block_free` on the block of the victim line `v` at channel `ch`, LUN `lun` keeps the
sweep invariant of line accounting and leaves that block without VALID and INVALID pages. -/
theorem mark_block_free_acct {sp : ssdparams} {v n fp ch lun : Nat} {t t' : conv_ftl}
    (hgeo : gc_geometry sp) (hv : v < sp.blks_per_pl) (hJ : gc_acct sp v n t)
    (hch : ch < sp.nchs) (hlun : lun < sp.luns_per_ch)
    (h : mark_block_free t (gc_ppa sp v fp ch lun) = some t') :
    gc_acct sp v n t' ∧ blk_clean sp v ch lun t' ∧
      ∀ c l, blk_clean sp v c l t → blk_clean sp v c l t' := by
  obtain ⟨j1, j2, j3, j4, j5, j6, j7, j8⟩ := hJ
  obtain ⟨_g1, _g2, g3, g4, g5⟩ := hgeo
  obtain ⟨blk, b2, _hblk, hs, hfree, hv0, hi0, _he⟩ := mark_block_free_spec h
  rw [j1] at hfree
  have hp : gc_ppa sp v fp ch lun =
      { ch := ch, lun := lun, pl := 0, blk := v, pg := (fp * sp.pgs_per_flashpg) % 65536,
        rsv := 0 } := by
    unfold gc_ppa
    rw [Nat.mod_eq_of_lt (show ch < 256 by omega), Nat.mod_eq_of_lt (show lun < 256 by omega),
      Nat.mod_eq_of_lt (show v < 65536 by omega)]
  rw [hp] at hs
  have hc1 : blk_count sp b2 PG_VALID = 0 := blk_count_free hfree (by decide)
  have hc2 : blk_count sp b2 PG_INVALID = 0 := blk_count_free hfree (by decide)
  have hsame : t'.ssd.blk ch lun 0 v = b2 := by
    rw [hs]
    exact set_blk_same t.ssd _ b2
  have hother : ∀ c l pl b, ¬(c = ch ∧ l = lun ∧ pl = 0 ∧ b = v) →
      t'.ssd.blk c l pl b = t.ssd.blk c l pl b := by
    intro c l pl b hne
    rw [hs]
    exact set_blk_other t.ssd _ b2 c l pl b hne
  have hsp : t'.ssd.sp = sp := by rw [hs]; exact j1
  have hlm : t'.lm = t.lm := by rw [hs]
  have hgw : t'.gc_wp = t.gc_wp := by rw [hs]
  refine ⟨⟨hsp, ?_, ?_, ?_, ?_, ?_, ?_, ?_⟩, ⟨?_, ?_⟩, ?_⟩
  · rw [hlm]; exact j2
  · rw [hlm]; exact j3
  · rw [hlm]; exact j4
  · intro k hk hkv
    have h0 := j5 k hk hkv
    unfold line_acct at h0 ⊢
    rw [hlm, hs]
    have hne : (t.lm.lines k).id ≠
        ({ ch := ch, lun := lun, pl := 0, blk := v,
           pg := (fp * sp.pgs_per_flashpg) % 65536, rsv := 0 } : ppa).blk := by
      rw [j3 k]; exact hkv
    show _ = line_count (set_blk t.ssd _ b2) _ _ ∧ _ = line_count (set_blk t.ssd _ b2) _ _
    rw [line_count_set_blk_other _ _ _ _ _ hne, line_count_set_blk_other _ _ _ _ _ hne]
    exact h0
  · intro c hc l hl pl hpl b hb
    rw [hsp] at hc hl hpl hb ⊢
    by_cases hcl : c = ch ∧ l = lun ∧ pl = 0 ∧ b = v
    · obtain ⟨q1, q2, q3, q4⟩ := hcl
      subst q1 q2 q3 q4
      rw [hsame, hc1, hc2]
      exact ⟨hv0, hi0⟩
    · rw [hother c l pl b hcl]
      have h6 := j6 c (by rw [j1]; exact hc) l (by rw [j1]; exact hl) pl
        (by rw [j1]; exact hpl) b (by rw [j1]; exact hb)
      rw [j1] at h6
      exact h6
  · rw [hlm]; exact j7
  · rw [hgw]; exact j8
  · show blk_count sp (t'.ssd.blk ch lun 0 v) PG_VALID = 0
    rw [hsame]; exact hc1
  · show blk_count sp (t'.ssd.blk ch lun 0 v) PG_INVALID = 0
    rw [hsame]; exact hc2
  · intro c l hcl
    by_cases hq : c = ch ∧ l = lun
    · rw [hq.1, hq.2]
      unfold blk_clean
      rw [hsame]
      exact ⟨hc1, hc2⟩
    · unfold blk_clean at hcl ⊢
      rw [hother c l 0 v (fun hh => hq ⟨hh.1, hh.2.1⟩)]
      exact hcl

/-! ## Line accounting over a complete `do_gc` -/

theorem line_count_clean {d : ssd} {v : Nat} {st : pg_status} (hpl : d.sp.pls_per_lun = 1)
    (h : ∀ c l, c < d.sp.nchs → l < d.sp.luns_per_ch → blk_count d.sp (d.blk c l 0 v) st = 0) :
    line_count d v st = 0 := by
  unfold line_count
  apply sum_upto_zero
  intro c hc
  apply sum_upto_zero
  intro l hl
  rw [hpl]
  show 0 + blk_count d.sp (d.blk c l 0 v) st = 0
  rw [h c l hc hl]

/-- The states from the victim selection up to the sweep of `do_gc`. -/
theorem do_gc_eq_some {s s' : conv_ftl} {now r : Nat} {force : Bool} {rc : Int}
    (h : do_gc s now r force = some (s', rc)) :
    (∃ s1, select_victim s now r force = some (s1, none) ∧ s' = s1 ∧ rc = -1) ∨
    (∃ s1 v s2 s5, select_victim s now r force = some (s1, some v) ∧
      s2 = { s1 with glob := s2.glob } ∧
      do_gc_sweep (s1.lm.lines v).id
        { s2 with gc_count := s2.gc_count + 1,
                  wfc := { s2.wfc with credits_to_refill := (s1.lm.lines v).ipc } } = some s5 ∧
      s' = mark_line_free s5
        (gc_ppa s5.ssd.sp (s1.lm.lines v).id (s5.ssd.sp.flashpgs_per_blk - 1)
          (s5.ssd.sp.nchs - 1) (s5.ssd.sp.luns_per_ch - 1)) ∧ rc = 0) := by
  unfold do_gc at h
  cases hsel : select_victim s now r force with
  | none => simp [hsel] at h
  | some r1 =>
    obtain ⟨s1, vo⟩ := r1
    cases vo with
    | none =>
      simp only [hsel, Option.some.injEq, Prod.mk.injEq] at h
      exact Or.inl ⟨s1, rfl, h.1.symm, h.2.symm⟩
    | some v =>
      simp only [hsel] at h
      cases hd : s1.glob.debug_mode with
      | false =>
        simp only [hd, Bool.false_eq_true, if_false, bind, pure, Option.bind_eq_some,
          Option.some.injEq, Prod.mk.injEq] at h
        obtain ⟨s2, e2, s5, hsw, e5, erc⟩ := h
        subst e2
        exact Or.inr ⟨s1, v, s1, s5, rfl, rfl, hsw, e5.symm, erc.symm⟩
      | true =>
        simp only [hd, if_true, bind, pure, Option.bind_eq_some,
          Option.some.injEq, Prod.mk.injEq] at h
        obtain ⟨s2, e2, s5, hsw, e5, erc⟩ := h
        have hf := count_gc_victim_type_frame e2
        have hl : s2.lm.lines v = s1.lm.lines v := by rw [hf]
        rw [hl] at hsw e5
        exact Or.inr ⟨s1, v, s2, s5, rfl, hf, hsw, e5.symm, erc.symm⟩

/-- A complete `do_gc` keeps line accounting when the selected victim is a line of the
device that is neither on the free-line list nor the line the GC cursor writes to. -/
theorem do_gc_acct {s s' : conv_ftl} {now r : Nat} {force : Bool} {rc : Int}
    (hgeo : gc_geometry s.ssd.sp) (hid : line_ids s.lm)
    (hk : line_hooks s.lm.victim_line_pq) (hP : line_accounting s)
    (hv : ∀ s1 v, select_victim s now r force = some (s1, some v) →
      v < s.ssd.sp.blks_per_pl ∧ v ∉ s.lm.free_line_list ∧ s.gc_wp.blk % 65536 ≠ v)
    (h : do_gc s now r force = some (s', rc)) :
    line_accounting s' ∧ line_ids s'.lm ∧ line_hooks s'.lm.victim_line_pq ∧
      s'.ssd.sp = s.ssd.sp := by
  have hframe : ∀ s1 vo, select_victim s now r force = some (s1, vo) →
      s1.ssd = s.ssd ∧ s1.gc_wp = s.gc_wp ∧ same_outside_heap s.lm s1.lm := by
    intro s1 vo hsel
    obtain ⟨f1, _f2, f3⟩ := select_victim_frame hk hsel
    refine ⟨?_, ?_, f3⟩
    · rw [f1]
    · rw [f1]
  have hacct1 : ∀ s1 vo, select_victim s now r force = some (s1, vo) →
      (∀ k, k < s.lm.tt_lines → line_acct s1 k) ∧ blks_acct s1 ∧ line_ids s1.lm ∧
      line_hooks s1.lm.victim_line_pq := by
    intro s1 vo hsel
    obtain ⟨f1, _f2, _, _, _, _, _, _, fh, fl⟩ := hframe s1 vo hsel
    refine ⟨?_, blks_acct_congr f1 hP.2, ?_, line_hooks_of_same hk fh⟩
    · intro k hk2
      have q := same_but_pos_fields fl k
      exact line_acct_congr f1 q.1 q.2.2.1 q.2.1 (hP.1 k hk2)
    · intro k
      rw [(same_but_pos_fields fl k).1]
      exact hid k
  rcases do_gc_eq_some h with ⟨s1, hsel, e, _⟩ | ⟨s1, v, s2, s5, hsel, e2, hsw, e, _⟩
  · subst e
    obtain ⟨b1, b2, b3, b4⟩ := hacct1 s' none hsel
    obtain ⟨f1, _, _, _, _, _, ftt, _⟩ := hframe s' none hsel
    refine ⟨⟨?_, b2⟩, b3, b4, by rw [f1]⟩
    intro k hk2
    rw [ftt] at hk2
    exact b1 k hk2
  · obtain ⟨b1, b2, b3, b4⟩ := hacct1 s1 (some v) hsel
    obtain ⟨f1, f2, ffree, _, _, _, ftt, _, _, _⟩ := hframe s1 (some v) hsel
    obtain ⟨v1, v2, v3⟩ := hv s1 v hsel
    have hidv : (s1.lm.lines v).id = v := b3 v
    rw [hidv] at hsw e
    have hssd2 : s2.ssd = s1.ssd := by rw [e2]
    have hlm2 : s2.lm = s1.lm := by rw [e2]
    have hgw2 : s2.gc_wp = s1.gc_wp := by rw [e2]
    -- the invariant holds when the sweep starts
    have h0 : gc_acct s.ssd.sp v s.lm.tt_lines
        { s2 with gc_count := s2.gc_count + 1,
                  wfc := { s2.wfc with credits_to_refill := (s1.lm.lines v).ipc } } := by
      refine ⟨?_, ?_, ?_, ?_, ?_, ?_, ?_, ?_⟩
      · show s2.ssd.sp = _
        rw [hssd2, f1]
      · show line_hooks s2.lm.victim_line_pq
        rw [hlm2]; exact b4
      · show line_ids s2.lm
        rw [hlm2]; exact b3
      · show s2.lm.tt_lines = _
        rw [hlm2]; exact ftt
      · intro k hk2 _
        have := b1 k hk2
        exact line_acct_congr (s := s1) hssd2 (by rw [hlm2]) (by rw [hlm2]) (by rw [hlm2]) this
      · exact blks_acct_congr (s := s1) hssd2 b2
      · show v ∉ s2.lm.free_line_list
        rw [hlm2, ffree]; exact v2
      · show s2.gc_wp.blk % 65536 ≠ v
        rw [hgw2, f2]; exact v3
    have key := do_gc_sweep_rule s.ssd.sp v (gc_acct s.ssd.sp v s.lm.tt_lines)
      (blk_clean s.ssd.sp v) hgeo.2.1 (fun t ht => ht.1)
      (fun t t' old hJ _ _ _ hg => by
        obtain ⟨a, b⟩ := gc_write_page_acct hgeo.2.2.2.2 hJ hg
        refine ⟨a, ?_⟩
        intro c l hcl
        unfold blk_clean at hcl ⊢
        rw [b c l 0]
        exact hcl)
      (fun t t' fp ch lun hJ hch hlun hm => mark_block_free_acct hgeo v1 hJ hch hlun hm)
      _ s5 h0 hsw
    obtain ⟨⟨j1, j2, j3, j4, j5, j6, _j7, _j8⟩, hclean⟩ := key
    have hpb : (gc_ppa s5.ssd.sp v (s5.ssd.sp.flashpgs_per_blk - 1) (s5.ssd.sp.nchs - 1)
        (s5.ssd.sp.luns_per_ch - 1)).blk = v := by
      show v % 65536 = v
      exact Nat.mod_eq_of_lt (by have := hgeo.2.2.2.2; omega)
    have hlines : s'.lm.lines = Function.update s5.lm.lines v
        { s5.lm.lines v with ipc := 0, vpc := 0 } := by
      rw [e]
      show Function.update s5.lm.lines (get_line s5 _) _ = _
      unfold get_line
      rw [hpb]
    have hssd : s'.ssd = s5.ssd := by rw [e]; rfl
    have htt : s'.lm.tt_lines = s5.lm.tt_lines := by rw [e]; rfl
    have hpq : s'.lm.victim_line_pq = s5.lm.victim_line_pq := by rw [e]; rfl
    have hpl : s5.ssd.sp.pls_per_lun = 1 := by rw [j1]; exact hgeo.1
    refine ⟨⟨?_, blks_acct_congr hssd j6⟩, ?_, ?_, by rw [hssd, j1]⟩
    · intro k hk2
      rw [htt, j4] at hk2
      by_cases hkv : k = v
      · subst hkv
        show line_acct s' k
        unfold line_acct
        rw [hlines, hssd]
        simp only [Function.update_same]
        rw [j3 k]
        have z : ∀ st, st ≠ PG_FREE → line_count s5.ssd k st = 0 := by
          intro st hst
          apply line_count_clean hpl
          intro c l hc hl
          rw [j1] at hc hl ⊢
          have := hclean c l hc hl
          cases st with
          | PG_FREE => exact absurd rfl hst
          | PG_INVALID => exact this.2
          | PG_VALID => exact this.1
        rw [z PG_VALID (by decide), z PG_INVALID (by decide)]
        exact ⟨rfl, rfl⟩
      · have h5 := j5 k hk2 hkv
        show line_acct s' k
        refine line_acct_congr hssd ?_ ?_ ?_ h5
        · rw [hlines, Function.update_noteq hkv]
        · rw [hlines, Function.update_noteq hkv]
        · rw [hlines, Function.update_noteq hkv]
    · intro k
      rw [hlines]
      by_cases hkv : k = v
      · subst hkv
        simp only [Function.update_same]
        exact j3 k
      · rw [Function.update_noteq hkv]
        exact j3 k
    · rw [hpq]; exact j2

/-! ## The state built by `conv_init_ftl` -/

theorem prepare_write_pointer_eq_some {s s1 : conv_ftl} {io : Nat}
    (h : prepare_write_pointer s io = some s1) :
    ∃ cur rest, s.lm.free_line_list = cur :: rest ∧
      s1 = set_wp { s with lm := { s.lm with free_line_list := rest,
                                             free_line_cnt := dec_u32 s.lm.free_line_cnt } } io
        { curline := cur, ch := 0, lun := 0, pg := 0, blk := (s.lm.lines cur).id, pl := 0 } := by
  unfold prepare_write_pointer at h
  cases hw : __get_wp s io with
  | none => simp [hw] at h
  | some w =>
    cases hf : s.lm.free_line_list with
    | nil =>
      have hg : get_next_free_line s.lm = (s.lm, none) := by
        unfold get_next_free_line
        rw [hf]
      simp [hw, hg] at h
    | cons cur rest =>
      have hg : get_next_free_line s.lm =
          ({ s.lm with free_line_list := rest, free_line_cnt := dec_u32 s.lm.free_line_cnt },
            some cur) := by
        unfold get_next_free_line
        rw [hf]
      simp only [hw, hg, Option.some.injEq] at h
      exact ⟨cur, rest, rfl, h.symm⟩

theorem init_lines_eq_some {spp : ssdparams} {gc_mode : Nat} {d0 : Nat → Option Nat}
    {lm : line_mgmt} (h : init_lines spp gc_mode d0 = some lm) :
    spp.blks_per_pl = spp.tt_lines ∧
    lm.lines = (fun i => { id := i, ipc := 0, vpc := 0, pos := 0, last_modified_time := 0 }) ∧
    lm.free_line_list = List.range spp.blks_per_pl ∧ lm.full_line_list = [] ∧
    lm.tt_lines = spp.blks_per_pl ∧ lm.free_line_cnt = spp.blks_per_pl ∧
    lm.victim_line_cnt = 0 ∧ lm.full_line_cnt = 0 ∧
    lm.victim_line_pq.size = 1 ∧ line_hooks lm.victim_line_pq ∧
    (lm.select_victim = GC_MODE_GREEDY → greedy_hooks lm.victim_line_pq) ∧
    (lm.select_victim = GC_MODE_GREEDY ↔ (gc_mode ≠ 2 ∧ gc_mode ≠ 1)) := by
  unfold init_lines at h
  simp only at h
  split_ifs at h with h2 h1 h0 h0 <;>
    first
    | (rw [← Option.some.inj h]
       refine ⟨by assumption, rfl, rfl, rfl, rfl, rfl, rfl, rfl, rfl, ⟨rfl, rfl, rfl⟩, ?_, ?_⟩
       · intro hm
         first
         | exact ⟨⟨rfl, rfl, rfl⟩, rfl, rfl⟩
         | exact absurd hm (by simp)
       · simp [*])
    | exact absurd h (by simp)

/-- The state `conv_init_ftl` builds on a fresh device: the manager of `init_lines` with the
first two lines of the free-line list opened by the two cursors. -/
theorem conv_init_ftl_eq_some {cpp : convparams} {spp : ssdparams} {gc_mode : Nat}
    {dbg : Bool} {d0 : Nat → Option Nat} {s : conv_ftl}
    (h : conv_init_ftl cpp (ssd_init spp) gc_mode dbg d0 = some s) :
    ∃ lm c1 c2 rest, init_lines spp gc_mode d0 = some lm ∧
      lm.free_line_list = c1 :: c2 :: rest ∧
      s.ssd = ssd_init spp ∧ s.maptbl = (fun _ => UNMAPPED_PPA) ∧
      s.rmap = (fun _ => INVALID_LPN) ∧
      s.wp = { curline := c1, ch := 0, lun := 0, pg := 0, blk := (lm.lines c1).id, pl := 0 } ∧
      s.gc_wp = { curline := c2, ch := 0, lun := 0, pg := 0, blk := (lm.lines c2).id, pl := 0 } ∧
      s.lm = { lm with free_line_list := rest,
                       free_line_cnt := dec_u32 (dec_u32 lm.free_line_cnt) } := by
  simp only [conv_init_ftl, bind, Option.bind_eq_some, pure, Option.some.injEq] at h
  obtain ⟨lm, hlm, s1, h1, s2, h2, hs⟩ := h
  obtain ⟨c1, r1, f1, e1⟩ := prepare_write_pointer_eq_some h1
  subst e1
  obtain ⟨c2, r2, f2, e2⟩ := prepare_write_pointer_eq_some h2
  subst e2
  have f1b : lm.free_line_list = c1 :: r1 := f1
  have f2b : r1 = c2 :: r2 := by
    have : (set_wp _ USER_IO _).lm.free_line_list = c2 :: r2 := f2
    rw [(set_wp_fields _ _ _).2.2.2] at this
    exact this
  subst f2b
  subst hs
  refine ⟨lm, c1, c2, r2, hlm, f1b, rfl, rfl, rfl, rfl, rfl, rfl⟩

theorem line_count_ssd_init (spp : ssdparams) (k : Nat) {st : pg_status} (hst : st ≠ PG_FREE) :
    line_count (ssd_init spp) k st = 0 := by
  unfold line_count
  refine sum_upto_zero _ (fun c _ => sum_upto_zero _ (fun l _ => sum_upto_zero _ (fun pl _ => ?_)))
  exact blk_count_free (fun i _ => rfl) hst

/-- After `conv_init_ftl` on a fresh device line accounting holds, line `k` has `id = k`, and
the heap has the hooks of `init_lines`. -/
theorem conv_init_ftl_acct {cpp : convparams} {spp : ssdparams} {gc_mode : Nat}
    {dbg : Bool} {d0 : Nat → Option Nat} {s : conv_ftl}
    (h : conv_init_ftl cpp (ssd_init spp) gc_mode dbg d0 = some s) :
    line_accounting s ∧ line_ids s.lm ∧ line_hooks s.lm.victim_line_pq := by
  obtain ⟨lm, c1, c2, rest, hlm, _, hssd, _, _, _, _, hl⟩ := conv_init_ftl_eq_some h
  obtain ⟨_, i2, _, _, _, _, _, _, _, i10, _⟩ := init_lines_eq_some hlm
  have hlines : s.lm.lines =
      (fun i => { id := i, ipc := 0, vpc := 0, pos := 0, last_modified_time := 0 }) := by
    rw [hl]; exact i2
  refine ⟨⟨?_, ?_⟩, ?_, ?_⟩
  · intro k _
    rw [hlines, hssd]
    simp only
    rw [line_count_ssd_init spp k (by decide), line_count_ssd_init spp k (by decide)]
    exact ⟨rfl, rfl⟩
  · intro c _ l _ pl _ b _
    rw [hssd]
    have z1 : blk_count (ssd_init spp).sp ((ssd_init spp).blk c l pl b) PG_VALID = 0 :=
      blk_count_free (fun i _ => rfl) (by decide)
    have z2 : blk_count (ssd_init spp).sp ((ssd_init spp).blk c l pl b) PG_INVALID = 0 :=
      blk_count_free (fun i _ => rfl) (by decide)
    rw [z1, z2]
    exact ⟨rfl, rfl⟩
  · intro k
    rw [hlines]
  · rw [hl]; exact i10

/-! ## Positions of the striping order -/

theorem stripe_pos_bounds {sp : ssdparams} (hg : stripe_geometry sp) (w0 : write_pointer)
    {k : Nat} (hk : k < sp.pgs_per_line) :
    (stripe_pos sp w0 k).ch < sp.nchs ∧ (stripe_pos sp w0 k).lun < sp.luns_per_ch ∧
    (stripe_pos sp w0 k).pg < sp.pgs_per_blk := by
  obtain ⟨hP, hC, hU, hblk, hline⟩ := hg
  obtain ⟨w, l, c, o, ho, hc, hl, hkd⟩ := exists_digits hP hC hU k
  have hk0 := hk
  rw [hline, hblk, hkd] at hk0
  have hw : w < sp.oneshotpgs_per_blk := digits_w_lt hk0
  rw [hkd, stripe_pos_digits sp w0 ho hc hl]
  refine ⟨hc, hl, ?_⟩
  show w * sp.pgs_per_oneshotpg + o < sp.pgs_per_blk
  rw [hblk, Nat.mul_comm sp.pgs_per_oneshotpg]
  exact digit_bound hw ho

theorem stripe_pos_inj {sp : ssdparams} (hg : stripe_geometry sp) (w0 w1 : write_pointer)
    {k k2 : Nat} (e1 : (stripe_pos sp w0 k).pg = (stripe_pos sp w1 k2).pg)
    (e2 : (stripe_pos sp w0 k).ch = (stripe_pos sp w1 k2).ch)
    (e3 : (stripe_pos sp w0 k).lun = (stripe_pos sp w1 k2).lun) : k = k2 := by
  obtain ⟨hP, hC, hU, _hblk, _hline⟩ := hg
  obtain ⟨w, l, c, o, ho, hc, hl, hkd⟩ := exists_digits hP hC hU k
  obtain ⟨w2, l2, c2, o2, ho2, hc2, hl2, hkd2⟩ := exists_digits hP hC hU k2
  rw [hkd, hkd2, stripe_pos_digits sp w0 ho hc hl, stripe_pos_digits sp w1 ho2 hc2 hl2]
    at e1 e2 e3
  have e1b : w * sp.pgs_per_oneshotpg + o = w2 * sp.pgs_per_oneshotpg + o2 := e1
  have e2b : c = c2 := e2
  have e3b : l = l2 := e3
  obtain ⟨ew, eo⟩ := mixed_radix_unique ho ho2 e1b
  rw [hkd, hkd2, ew, eo, e2b, e3b]

theorem stripe_pos_fields (sp : ssdparams) (w0 : write_pointer) (k : Nat) :
    (stripe_pos sp w0 k).curline = w0.curline ∧ (stripe_pos sp w0 k).blk = w0.blk ∧
    (stripe_pos sp w0 k).pl = w0.pl :=
  ⟨rfl, rfl, rfl⟩

theorem stripe_pos_congr (sp : ssdparams) (w0 w1 : write_pointer) (k : Nat) :
    (stripe_pos sp w0 k).ch = (stripe_pos sp w1 k).ch ∧
    (stripe_pos sp w0 k).lun = (stripe_pos sp w1 k).lun ∧
    (stripe_pos sp w0 k).pg = (stripe_pos sp w1 k).pg :=
  ⟨rfl, rfl, rfl⟩

theorem stripe_pos_idem (sp : ssdparams) (w0 : write_pointer) (k j : Nat) :
    stripe_pos sp (stripe_pos sp w0 k) j = stripe_pos sp w0 j := rfl

/-- The last position of a line is the last page of the last wordline on the last channel
and the last LUN. -/
theorem stripe_pos_last {sp : ssdparams} (hg : stripe_geometry sp) (w0 : write_pointer)
    {k : Nat} (hk : k + 1 = sp.pgs_per_line) :
    ((stripe_pos sp w0 k).pg + 1) % sp.pgs_per_oneshotpg = 0 ∧
    (stripe_pos sp w0 k).pg + 1 = sp.pgs_per_blk ∧
    (stripe_pos sp w0 k).ch + 1 = sp.nchs ∧
    (stripe_pos sp w0 k).lun + 1 = sp.luns_per_ch := by
  obtain ⟨hP, hC, hU, hblk, hline⟩ := hg
  obtain ⟨w, l, c, o, ho, hc, hl, hkd⟩ := exists_digits hP hC hU k
  have hk0 : k < sp.luns_per_ch * sp.nchs * (sp.pgs_per_oneshotpg * sp.oneshotpgs_per_blk) := by
    rw [← hblk, ← hline]; omega
  have hk1 : k + 1 = sp.luns_per_ch * sp.nchs * (sp.pgs_per_oneshotpg * sp.oneshotpgs_per_blk) := by
    rw [← hblk, ← hline]; exact hk
  rw [hkd] at hk0
  have hw : w < sp.oneshotpgs_per_blk := digits_w_lt hk0
  -- products as atoms
  have eT : sp.luns_per_ch * sp.nchs * (sp.pgs_per_oneshotpg * sp.oneshotpgs_per_blk) =
      sp.oneshotpgs_per_blk * (sp.luns_per_ch * sp.nchs * sp.pgs_per_oneshotpg) := by ring
  have eA : sp.luns_per_ch * sp.nchs * sp.pgs_per_oneshotpg =
      sp.luns_per_ch * (sp.nchs * sp.pgs_per_oneshotpg) := by ring
  have m1 : (c + 1) * sp.pgs_per_oneshotpg ≤ sp.nchs * sp.pgs_per_oneshotpg :=
    Nat.mul_le_mul_right _ hc
  have m1e : (c + 1) * sp.pgs_per_oneshotpg = c * sp.pgs_per_oneshotpg + sp.pgs_per_oneshotpg :=
    Nat.succ_mul _ _
  have m2 : (l + 1) * (sp.nchs * sp.pgs_per_oneshotpg) ≤
      sp.luns_per_ch * (sp.nchs * sp.pgs_per_oneshotpg) := Nat.mul_le_mul_right _ hl
  have m2e : (l + 1) * (sp.nchs * sp.pgs_per_oneshotpg) =
      l * (sp.nchs * sp.pgs_per_oneshotpg) + sp.nchs * sp.pgs_per_oneshotpg := Nat.succ_mul _ _
  have m3 : (w + 1) * (sp.luns_per_ch * sp.nchs * sp.pgs_per_oneshotpg) ≤
      sp.oneshotpgs_per_blk * (sp.luns_per_ch * sp.nchs * sp.pgs_per_oneshotpg) :=
    Nat.mul_le_mul_right _ hw
  have m3e : (w + 1) * (sp.luns_per_ch * sp.nchs * sp.pgs_per_oneshotpg) =
      w * (sp.luns_per_ch * sp.nchs * sp.pgs_per_oneshotpg) +
        sp.luns_per_ch * sp.nchs * sp.pgs_per_oneshotpg := Nat.succ_mul _ _
  have hkx : k = w * (sp.luns_per_ch * sp.nchs * sp.pgs_per_oneshotpg) +
      l * (sp.nchs * sp.pgs_per_oneshotpg) + c * sp.pgs_per_oneshotpg + o := by
    rw [hkd]; exact digits_expand _ _ _ _ _ _ _
  rw [eT] at hk1
  rw [eA] at m3 m3e hk1 hkx
  have hoP : o + 1 = sp.pgs_per_oneshotpg := by omega
  have hcC : (c + 1) * sp.pgs_per_oneshotpg = sp.nchs * sp.pgs_per_oneshotpg := by omega
  have hlU : (l + 1) * (sp.nchs * sp.pgs_per_oneshotpg) =
      sp.luns_per_ch * (sp.nchs * sp.pgs_per_oneshotpg) := by omega
  have hwW : (w + 1) * (sp.luns_per_ch * (sp.nchs * sp.pgs_per_oneshotpg)) =
      sp.oneshotpgs_per_blk * (sp.luns_per_ch * (sp.nchs * sp.pgs_per_oneshotpg)) := by omega
  have hc1 : c + 1 = sp.nchs := Nat.eq_of_mul_eq_mul_right hP hcC
  have hCP : 0 < sp.nchs * sp.pgs_per_oneshotpg := Nat.mul_pos hC hP
  have hl1 : l + 1 = sp.luns_per_ch := Nat.eq_of_mul_eq_mul_right hCP hlU
  have hw1 : w + 1 = sp.oneshotpgs_per_blk :=
    Nat.eq_of_mul_eq_mul_right (Nat.mul_pos hU hCP) hwW
  rw [hkd, stripe_pos_digits sp w0 ho hc hl]
  have hpg : w * sp.pgs_per_oneshotpg + o + 1 = sp.pgs_per_blk := by
    rw [hblk, ← hw1, Nat.mul_comm sp.pgs_per_oneshotpg, Nat.succ_mul]
    omega
  refine ⟨?_, hpg, hc1, hl1⟩
  show (w * sp.pgs_per_oneshotpg + o + 1) % sp.pgs_per_oneshotpg = 0
  rw [Nat.add_assoc, hoP, Nat.add_comm, Nat.add_mul_mod_self_right, Nat.mod_self]

/-- From the last position of its line `advance_write_pointer` closes the line and opens the
head of the free-line list. -/
theorem advance_write_pointer_last {s s1 : conv_ftl} {io : Nat} {wpp : write_pointer}
    (hw : __get_wp s io = some wpp)
    (hone : (wpp.pg + 1) % s.ssd.sp.pgs_per_oneshotpg = 0)
    (hpg : wpp.pg + 1 = s.ssd.sp.pgs_per_blk) (hch : wpp.ch + 1 = s.ssd.sp.nchs)
    (hlun : wpp.lun + 1 = s.ssd.sp.luns_per_ch)
    (h : advance_write_pointer s io = some s1) :
    ∃ lm1 cur rest, advance_write_pointer_close s.ssd.sp s.lm wpp.curline = some lm1 ∧
      lm1.free_line_list = cur :: rest ∧ (lm1.lines cur).id < s.ssd.sp.blks_per_pl ∧
      s1 = set_wp { s with lm := { lm1 with free_line_list := rest,
                                            free_line_cnt := dec_u32 lm1.free_line_cnt } } io
        { curline := cur, ch := 0, lun := 0, pg := 0, blk := (lm1.lines cur).id, pl := 0 } := by
  simp only [advance_write_pointer, hw, bind, Option.bind_eq_some, NVMEV_ASSERT_eq_some,
    check_addr_eq_some, pure, exists_const, Option.some.injEq, exists_eq_left'] at h
  obtain ⟨_a1, a2, h⟩ := h
  have hP : 0 < s.ssd.sp.pgs_per_oneshotpg := Nat.pos_of_ne_zero a2
  have hle : s.ssd.sp.pgs_per_oneshotpg ≤ wpp.pg + 1 :=
    Nat.le_of_dvd (by omega) (Nat.dvd_of_mod_eq_zero hone)
  rw [if_neg (by simpa using hone)] at h
  simp only [Option.bind_eq_some, check_addr_eq_some, exists_const] at h
  obtain ⟨_, h⟩ := h
  rw [if_neg (by simpa using hch)] at h
  simp only [Option.bind_eq_some, check_addr_eq_some, exists_const] at h
  obtain ⟨_, h⟩ := h
  rw [if_neg (by simpa using hlun)] at h
  rw [if_neg (by simp only [ne_eq, not_not]; omega)] at h
  obtain ⟨lm1, cur, rest, c1, c2, _c3, c4, _c5, c6⟩ := advance_write_pointer_newline_cases h
  exact ⟨lm1, cur, rest, c1, c2, c4, c6⟩

/-! ## Pages of a line without VALID and INVALID pages -/

theorem count_upto_eq_zero {f : Nat → Bool} :
    ∀ n, count_upto f n = 0 → ∀ i, i < n → f i = false := by
  intro n
  induction n with
  | zero => intro _ i hi; omega
  | succ n ih =>
    intro h i hi
    simp only [count_upto] at h
    by_cases hin : i = n
    · subst hin
      cases hf : f i with
      | false => rfl
      | true => rw [hf] at h; simp at h
    · exact ih (by omega) i (by omega)

theorem sum_upto_eq_zero {g : Nat → Nat} :
    ∀ n, sum_upto g n = 0 → ∀ i, i < n → g i = 0 := by
  intro n
  induction n with
  | zero => intro _ i hi; omega
  | succ n ih =>
    intro h i hi
    simp only [sum_upto] at h
    by_cases hin : i = n
    · subst hin; omega
    · exact ih (by omega) i (by omega)

/-- In a line whose VALID and INVALID counts are zero every page is FREE. -/
theorem line_pages_free {d : ssd} {k : Nat} (h1 : line_count d k PG_VALID = 0)
    (h2 : line_count d k PG_INVALID = 0) {c l pl i : Nat} (hc : c < d.sp.nchs)
    (hl : l < d.sp.luns_per_ch) (hpl : pl < d.sp.pls_per_lun) (hi : i < d.sp.pgs_per_blk) :
    ((d.blk c l pl k).pg i).status = PG_FREE := by
  have key : ∀ st, line_count d k st = 0 → ((d.blk c l pl k).pg i).status ≠ st := by
    intro st h
    unfold line_count at h
    have a := sum_upto_eq_zero _ h c hc
    have b := sum_upto_eq_zero _ a l hl
    have e := sum_upto_eq_zero _ b pl hpl
    unfold blk_count at e
    have f := count_upto_eq_zero _ e i hi
    simpa using f
  have k1 := key PG_VALID h1
  have k2 := key PG_INVALID h2
  cases hst : ((d.blk c l pl k).pg i).status with
  | PG_FREE => rfl
  | PG_INVALID => exact absurd hst k2
  | PG_VALID => exact absurd hst k1

/-! ## Heap operations and the lines outside the heap -/

/-- `pqueue_change_priority` of a member `k` leaves the record of every line outside the heap
untouched, and changes only `pos` in the records of the members other than `k`. -/
theorem pqueue_change_priority_frame {lm lm2 : line_mgmt} {k p : Nat}
    (hk : line_hooks lm.victim_line_pq) (hh : pq_handles lm) (hm : pq_member lm k)
    (h : pqueue_change_priority lm p (some k) = some lm2) :
    (∀ j, ¬ pq_member lm j → lm2.lines j = lm.lines j) ∧
    (∀ j, j ≠ k → lm2.lines j = { lm.lines j with pos := (lm2.lines j).pos }) ∧
    lm2.lines k = { lm.lines k with vpc := p, pos := (lm2.lines k).pos } := by
  have hmem := (pqueue_change_priority_member hk hh hm h).1
  have hsz := (pqueue_change_priority_member hk hh hm h).2.2
  obtain ⟨i, hi1, hi2, hi3⟩ := hm
  obtain ⟨k2, hk2, hpos⟩ := hh i hi1 hi2
  rw [hi3] at hk2
  simp only [Option.some.injEq] at hk2
  subst hk2
  have hspec := (pqueue_change_priority_spec hk h).2.2
  -- the ranges of the moved items
  have hrange : ∀ j, lm2.lines j =
      (Function.update lm.lines k { lm.lines k with vpc := p }) j ∨
      ∃ x, 1 ≤ x ∧ x < lm.victim_line_pq.size ∧ lm2.victim_line_pq.d x = some j := by
    unfold pqueue_change_priority at h
    simp only at h
    rw [hk.1, hk.2.1] at h
    have hpos2 : victim_line_get_pos
        ((Function.update lm.lines k (victim_line_set_pri (lm.lines k) p)) k) =
        (lm.lines k).pos := by
      rw [Function.update_same]; rfl
    simp only [hpos2] at h
    intro j
    split_ifs at h with hc
    · obtain ⟨_, _, e3⟩ := @bubble_up_spec
        { lm with lines := Function.update lm.lines k (victim_line_set_pri (lm.lines k) p) }
        _ _ hk h
      rcases e3 j with hA | ⟨x, hx1, hx2, hx3, _⟩
      · exact Or.inl hA
      · refine Or.inr ⟨x, ?_, ?_, hx3⟩
        · rcases hx2 with hx2 | hx2
          · rw [hx2, hpos]; exact hi1
          · exact hx2
        · rw [hpos] at hx1; omega
    · obtain ⟨_, _, e3⟩ := @percolate_down_spec
        { lm with lines := Function.update lm.lines k (victim_line_set_pri (lm.lines k) p) }
        _ _ hk h
      rcases e3 j with hA | ⟨x, hx1, hx2, hx3, _⟩
      · exact Or.inl hA
      · refine Or.inr ⟨x, ?_, ?_, hx3⟩
        · rw [hpos] at hx1; omega
        · rcases hx2 with hx2 | hx2
          · rw [hx2, hpos]; exact hi2
          · exact hx2
  refine ⟨?_, ?_, ?_⟩
  · intro j hj
    have hjk : j ≠ k := fun e => hj (e ▸ ⟨i, hi1, hi2, hi3⟩)
    rcases hrange j with hA | ⟨x, hx1, hx2, hx3⟩
    · rw [hA, Function.update_noteq hjk]
    · exact absurd ((hmem j).mp ⟨x, hx1, by rw [hsz]; exact hx2, hx3⟩) hj
  · intro j hjk
    rcases hspec j with hA | ⟨x, _, hx⟩
    · rw [hA, Function.update_noteq hjk]
    · rw [hx, Function.update_noteq hjk]
  · rcases hspec k with hA | ⟨x, _, hx⟩
    · rw [hA, Function.update_same]
    · rw [hx, Function.update_same]

/-- `pqueue_pop` leaves the record of every line outside the heap untouched. -/
theorem pqueue_pop_frame {lm lm2 : line_mgmt} {v : Nat} {vo : Option Nat}
    (hk : line_hooks lm.victim_line_pq) (hh : pq_handles lm)
    (hs : 2 ≤ lm.victim_line_pq.size) (h1 : lm.victim_line_pq.d 1 = some v)
    (h : pqueue_pop lm = some (lm2, vo)) :
    vo = some v ∧ lm2.victim_line_pq.size = lm.victim_line_pq.size - 1 ∧
    (∀ j, ¬ pq_member lm j → lm2.lines j = lm.lines j) ∧
    (∀ j, j ≠ v → ¬ pq_member lm2 j → lm2.lines j = lm.lines j) := by
  have hs1 : lm.victim_line_pq.size ≠ 1 := by omega
  obtain ⟨e0, e1, ⟨π, hfix, hd⟩, e3⟩ := pqueue_pop_spec hk hs1 h
  have hdec : dec_u64 lm.victim_line_pq.size = lm.victim_line_pq.size - 1 := dec_u64_pos (by omega)
  have hsz : lm2.victim_line_pq.size = lm.victim_line_pq.size - 1 := by
    rw [e1, hdec]; rfl
  have hmem := pqueue_pop_member hk hh hs h1 h
  have hvm : pq_member lm v := ⟨1, le_refl _, by omega, h1⟩
  have key : ∀ j, j ≠ v → ¬ pq_member lm2 j → lm2.lines j = lm.lines j := by
    intro j hjv hj
    rcases e3 j with hA | ⟨x, hx1, hx2, hx3, _⟩
    · exact hA
    · rcases hx2 with hx2 | hx2
      · by_cases hsz2 : 1 < lm.victim_line_pq.size - 1
        · exact absurd ⟨x, hx1, by rw [hsz, hx2]; exact hsz2, hx3⟩ hj
        · -- the heap is empty now: slot 1 still holds the popped line
          have hp1 : π 1 = 1 := hfix 1 (by rw [hdec]; omega)
          rw [hx2, hd, Function.comp_apply, hp1, Function.update_same, hdec] at hx3
          have hsz3 : lm.victim_line_pq.size - 1 = 1 := by omega
          rw [hsz3, h1] at hx3
          exact absurd (Option.some.inj hx3).symm hjv
      · exact absurd ⟨x, hx1, by rw [hsz, ← hdec]; exact hx2, hx3⟩ hj
  refine ⟨by rw [e0, h1], hsz, ?_, key⟩
  intro j hj
  have hjv : j ≠ v := fun e => hj (e ▸ hvm)
  exact key j hjv (fun hm2 => hj ((hmem j).mp hm2).1)

/-! ## Moving one line between containers -/

theorem retag {P P2 : Nat → Prop} {tag : Nat → Nat} {i c x : Nat}
    (hS : ∀ k, P k ↔ tag k = i) (hne : ∀ k, k ≠ x → (P2 k ↔ P k)) (hx : P2 x ↔ c = i) :
    ∀ k, P2 k ↔ Function.update tag x c k = i := by
  intro k
  by_cases hk : k = x
  · subst hk
    rw [Function.update_same]
    exact hx
  · rw [Function.update_noteq hk, hne k hk]
    exact hS k

theorem retag_range {tag : Nat → Nat} {n c x : Nat}
    (hS : ∀ k, k < n ↔ (1 ≤ tag k ∧ tag k ≤ 6)) (hx : x < n) (hc : 1 ≤ c ∧ c ≤ 6) :
    ∀ k, k < n ↔ (1 ≤ Function.update tag x c k ∧ Function.update tag x c k ≤ 6) := by
  intro k
  by_cases hk : k = x
  · subst hk
    rw [Function.update_same]
    exact ⟨fun _ => hc, fun _ => hx⟩
  · rw [Function.update_noteq hk]
    exact hS k

/-! ## The invariant of the line manager under its operations -/

theorem pq_member_lines (lm : line_mgmt) (L : Nat → line) (k : Nat) :
    pq_member { lm with lines := L } k ↔ pq_member lm k := Iff.rfl

/-- Changing `vpc`, `ipc` and the time stamps of lines keeps the invariant of the manager as
long as free lines stay at zero and heap members stay below `pgs_per_line`. -/
theorem lm_inv_lines {sp : ssdparams} {limbo : Option Nat} {tag : Nat → Nat}
    {lm : line_mgmt} {uc gcc : Nat} (h : lm_inv sp limbo tag lm uc gcc) (L : Nat → line)
    (hpos : ∀ k, (L k).pos = (lm.lines k).pos) (hid : ∀ k, (L k).id = (lm.lines k).id)
    (hfree : ∀ k, k ∈ lm.free_line_list → (L k).vpc = 0 ∧ (L k).ipc = 0)
    (hheap : ∀ k, pq_member lm k → (L k).vpc < sp.pgs_per_line) :
    lm_inv sp limbo tag { lm with lines := L } uc gcc where
  hooks := h.hooks
  mode := h.mode
  ids := fun k => (hid k).trans (h.ids k)
  tt := h.tt
  size_pos := h.size_pos
  handles := by
    intro i hi1 hi2
    obtain ⟨k, hk1, hk2⟩ := h.handles i hi1 hi2
    exact ⟨k, hk1, (hpos k).trans hk2⟩
  pos0 := fun k hk => (hpos k).trans (h.pos0 k hk)
  free_nodup := h.free_nodup
  full_nodup := h.full_nodup
  t_free := h.t_free
  t_full := h.t_full
  t_heap := h.t_heap
  t_user := h.t_user
  t_gc := h.t_gc
  t_limbo := h.t_limbo
  t_range := h.t_range
  c_free := h.c_free
  c_full := h.c_full
  c_heap := h.c_heap
  c_sum := h.c_sum
  free_zero := hfree
  heap_lt := hheap

/-- The heap part of the invariant after `pqueue_insert` of a line `x` outside the heap. -/
theorem heap_insert_ok_of {sp : ssdparams} {lm lmi : line_mgmt} {x rc : Nat}
    (hhooks : line_hooks lm.victim_line_pq) (hsize : 1 ≤ lm.victim_line_pq.size)
    (hhandles : pq_handles lm) (hpos0 : ∀ k, ¬ pq_member lm k → (lm.lines k).pos = 0)
    (hheap : ∀ k, pq_member lm k → (lm.lines k).vpc < sp.pgs_per_line)
    (hx : ¬ pq_member lm x) (hv : (lm.lines x).vpc < sp.pgs_per_line)
    (hins : pqueue_insert lm (some x) = some (lmi, rc)) :
    lmi = pq_with (pq_set_size lm (lm.victim_line_pq.size + 1)) lmi.lines lmi.victim_line_pq.d ∧
    line_hooks lmi.victim_line_pq ∧ pq_handles lmi ∧
    (∀ k, pq_member lmi k ↔ (pq_member lm k ∨ k = x)) ∧
    (∀ k, ¬ pq_member lmi k → (lmi.lines k).pos = 0) ∧
    same_but_pos lm.lines lmi.lines ∧
    (∀ k, pq_member lmi k → (lmi.lines k).vpc < sp.pgs_per_line) := by
  obtain ⟨_, e1, _, _⟩ := pqueue_insert_spec hhooks hins
  obtain ⟨f1, _, _, _, f5, f6⟩ := pqueue_insert_frame hhooks hins
  have hmem := pqueue_insert_member hhooks hsize hins
  have hh := pqueue_insert_handles hhooks hhandles hx hins
  refine ⟨e1, line_hooks_of_same hhooks f1, hh, hmem, ?_, f6, ?_⟩
  · intro k hk
    have hk2 : ¬ pq_member lm k ∧ k ≠ x := by
      constructor
      · exact fun hm => hk ((hmem k).mpr (Or.inl hm))
      · exact fun he => hk ((hmem k).mpr (Or.inr he))
    rw [f5 k hk2.2 hk2.1]
    exact hpos0 k hk2.1
  · intro k hk
    rw [(same_but_pos_fields f6 k).2.2.1]
    rcases (hmem k).mp hk with hm | hm
    · exact hheap k hm
    · rw [hm]; exact hv

theorem heap_insert_ok {sp : ssdparams} {limbo : Option Nat} {tag : Nat → Nat}
    {lm lmi : line_mgmt} {uc gcc x rc : Nat} (h : lm_inv sp limbo tag lm uc gcc)
    (hx : ¬ pq_member lm x) (hv : (lm.lines x).vpc < sp.pgs_per_line)
    (hins : pqueue_insert lm (some x) = some (lmi, rc)) :
    lmi = pq_with (pq_set_size lm (lm.victim_line_pq.size + 1)) lmi.lines lmi.victim_line_pq.d ∧
    line_hooks lmi.victim_line_pq ∧ pq_handles lmi ∧
    (∀ k, pq_member lmi k ↔ (pq_member lm k ∨ k = x)) ∧
    (∀ k, ¬ pq_member lmi k → (lmi.lines k).pos = 0) ∧
    same_but_pos lm.lines lmi.lines ∧
    (∀ k, pq_member lmi k → (lmi.lines k).vpc < sp.pgs_per_line) :=
  heap_insert_ok_of h.hooks h.size_pos h.handles h.pos0 h.heap_lt hx hv hins

/-- The manager after `mark_line_free` of the victim `v` of the GC run. -/
theorem lm_inv_line_free {sp : ssdparams} {tag : Nat → Nat} {lm : line_mgmt}
    {uc gcc v : Nat} (h : lm_inv sp (some v) tag lm uc gcc) :
    lm_inv sp none (Function.update tag v 1)
      { lm with lines := Function.update lm.lines v { lm.lines v with ipc := 0, vpc := 0 },
                free_line_list := lm.free_line_list ++ [v],
                free_line_cnt := lm.free_line_cnt + 1 } uc gcc := by
  have hv6 : tag v = 6 := (h.t_limbo v).mp rfl
  have hvfree : v ∉ lm.free_line_list := fun hm => by
    have := (h.t_free v).mp hm; omega
  have hvfull : v ∉ lm.full_line_list := fun hm => by
    have := (h.t_full v).mp hm; omega
  have hvheap : ¬ pq_member lm v := fun hm => by
    have := (h.t_heap v).mp hm; omega
  have hvu : v ≠ uc := fun hm => by
    have := (h.t_user v).mp hm; omega
  have hvg : v ≠ gcc := fun hm => by
    have := (h.t_gc v).mp hm; omega
  have hvn : v < sp.blks_per_pl := (h.t_range v).mpr (by omega)
  exact
  { hooks := h.hooks
    mode := h.mode
    ids := by
      intro k
      show (Function.update lm.lines v _ k).id = k
      by_cases hk : k = v
      · subst hk; rw [Function.update_same]; exact h.ids k
      · rw [Function.update_noteq hk]; exact h.ids k
    tt := h.tt
    size_pos := h.size_pos
    handles := by
      intro i hi1 hi2
      obtain ⟨k, hk1, hk2⟩ := h.handles i hi1 hi2
      refine ⟨k, hk1, ?_⟩
      show (Function.update lm.lines v _ k).pos = i
      by_cases hk : k = v
      · subst hk; rw [Function.update_same]; exact hk2
      · rw [Function.update_noteq hk]; exact hk2
    pos0 := by
      intro k hk
      show (Function.update lm.lines v _ k).pos = 0
      by_cases hkv : k = v
      · subst hkv; rw [Function.update_same]; exact h.pos0 k hk
      · rw [Function.update_noteq hkv]; exact h.pos0 k hk
    free_nodup := by
      show (lm.free_line_list ++ [v]).Nodup
      rw [List.nodup_append]
      refine ⟨h.free_nodup, List.nodup_singleton v, ?_⟩
      intro a ha hb
      rw [List.mem_singleton] at hb
      exact hvfree (hb ▸ ha)
    full_nodup := h.full_nodup
    t_free := by
      refine retag h.t_free (fun k hk => ?_) ?_
      · show k ∈ lm.free_line_list ++ [v] ↔ _
        simp [hk]
      · show v ∈ lm.free_line_list ++ [v] ↔ _
        simp
    t_full := retag h.t_full (fun k _ => Iff.rfl)
      ⟨fun hm => absurd hm hvfull, fun hm => by omega⟩
    t_heap := retag h.t_heap (fun k _ => Iff.rfl)
      ⟨fun hm => absurd hm hvheap, fun hm => by omega⟩
    t_user := retag h.t_user (fun k _ => Iff.rfl)
      ⟨fun hm => absurd hm hvu, fun hm => by omega⟩
    t_gc := retag h.t_gc (fun k _ => Iff.rfl)
      ⟨fun hm => absurd hm hvg, fun hm => by omega⟩
    t_limbo := by
      refine retag h.t_limbo (fun k hk => ?_) ?_
      · constructor
        · intro hh; exact absurd hh (by simp)
        · intro hh; exact absurd (Option.some.inj hh).symm hk
      · constructor
        · intro hh; exact absurd hh (by simp)
        · intro hh; omega
    t_range := retag_range h.t_range hvn (by omega)
    c_free := by
      show lm.free_line_cnt + 1 = (lm.free_line_list ++ [v]).length
      rw [List.length_append, h.c_free]
      rfl
    c_full := h.c_full
    c_heap := h.c_heap
    c_sum := by
      have h0 := h.c_sum
      have e1 : (if (some v : Option Nat).isSome then 1 else 0) = 1 := rfl
      have e2 : (if (none : Option Nat).isSome then 1 else 0) = 0 := rfl
      rw [e1] at h0
      show (lm.free_line_list ++ [v]).length + lm.full_line_list.length +
        (lm.victim_line_pq.size - 1) + 2 + (if (none : Option Nat).isSome then 1 else 0) = _
      rw [List.length_append, e2, List.length_singleton]
      omega
    free_zero := by
      intro k hk
      show (Function.update lm.lines v _ k).vpc = 0 ∧ (Function.update lm.lines v _ k).ipc = 0
      by_cases hkv : k = v
      · subst hkv; rw [Function.update_same]; exact ⟨rfl, rfl⟩
      · rw [Function.update_noteq hkv]
        have hk2 : k ∈ lm.free_line_list ++ [v] := hk
        rw [List.mem_append, List.mem_singleton] at hk2
        rcases hk2 with hk2 | hk2
        · exact h.free_zero k hk2
        · exact absurd hk2 hkv
    heap_lt := by
      intro k hk
      have hk2 : pq_member lm k := hk
      have hkv : k ≠ v := fun e => hvheap (e ▸ hk2)
      show (Function.update lm.lines v _ k).vpc < _
      rw [Function.update_noteq hkv]
      exact h.heap_lt k hk2 }

theorem dec_u32_pos {n : Nat} (h : 1 ≤ n) : dec_u32 n = n - 1 := by
  unfold dec_u32
  rw [if_neg (by omega)]

/-- The manager after `select_victim_greedy` took the root `v` out of the heap: `v` is the
victim of the GC run in progress. -/
theorem lm_inv_select {sp : ssdparams} {tag : Nat → Nat} {lm lm1 : line_mgmt}
    {uc gcc v : Nat} {vo : Option Nat} (h : lm_inv sp none tag lm uc gcc)
    (hs : lm.victim_line_pq.size ≠ 1) (h1 : lm.victim_line_pq.d 1 = some v)
    (hpop : pqueue_pop lm = some (lm1, vo)) :
    lm_inv sp (some v) (Function.update tag v 6)
      { clear_pos lm1 v with victim_line_cnt := dec_u32 (clear_pos lm1 v).victim_line_cnt }
      uc gcc ∧
    same_but_pos lm.lines (clear_pos lm1 v).lines ∧ pq_member lm v := by
  have hs2 : 2 ≤ lm.victim_line_pq.size := by have := h.size_pos; omega
  obtain ⟨_, e1, _, e3⟩ := pqueue_pop_spec h.hooks hs hpop
  obtain ⟨_, hsz, _, hfr⟩ := pqueue_pop_frame h.hooks h.handles hs2 h1 hpop
  have hmem := pqueue_pop_member h.hooks h.handles hs2 h1 hpop
  have hh1 := pqueue_pop_handles h.hooks h.handles h.size_pos hpop
  have hvm : pq_member lm v := ⟨1, le_refl _, by omega, h1⟩
  have hv3 : tag v = 3 := (h.t_heap v).mp hvm
  have hvfree : v ∉ lm.free_line_list := fun hm => by
    have := (h.t_free v).mp hm; omega
  have hvfull : v ∉ lm.full_line_list := fun hm => by
    have := (h.t_full v).mp hm; omega
  have hvu : v ≠ uc := fun hm => by
    have := (h.t_user v).mp hm; omega
  have hvg : v ≠ gcc := fun hm => by
    have := (h.t_gc v).mp hm; omega
  have hvn : v < sp.blks_per_pl := (h.t_range v).mpr (by omega)
  have hsb1 : same_but_pos lm.lines lm1.lines :=
    same_but_pos_of_cases (fun j => (e3 j).imp id (fun ⟨x, _, _, _, hx⟩ => ⟨x, hx⟩))
  have hsb : same_but_pos lm.lines (clear_pos lm1 v).lines :=
    same_but_pos_trans hsb1 (same_but_pos_update_pos _ _ _)
  have hso := same_outside_heap_pq_with e1 hsb1
  obtain ⟨o1, o2, o3, o4, o5, o6, o7, _⟩ := hso
  have hmem2 : ∀ k, pq_member
      { clear_pos lm1 v with victim_line_cnt := dec_u32 (clear_pos lm1 v).victim_line_cnt } k ↔
      (pq_member lm k ∧ k ≠ v) := hmem
  have hlines : ∀ k, k ≠ v → (clear_pos lm1 v).lines k = lm1.lines k := by
    intro k hk
    show Function.update lm1.lines v _ k = _
    rw [Function.update_noteq hk]
  refine ⟨?_, hsb, hvm⟩
  exact
  { hooks := line_hooks_of_same h.hooks o7
    mode := o6.trans h.mode
    ids := fun k => ((same_but_pos_fields hsb k).1).trans (h.ids k)
    tt := o5.trans h.tt
    size_pos := by
      show 1 ≤ lm1.victim_line_pq.size
      omega
    handles := by
      intro i hi1 hi2
      obtain ⟨k, hk1, hk2⟩ := hh1 i hi1 hi2
      refine ⟨k, hk1, ?_⟩
      have hkv : k ≠ v := ((hmem k).mp ⟨i, hi1, hi2, hk1⟩).2
      show ((clear_pos lm1 v).lines k).pos = i
      rw [hlines k hkv]
      exact hk2
    pos0 := by
      intro k hk
      show ((clear_pos lm1 v).lines k).pos = 0
      by_cases hkv : k = v
      · subst hkv
        show (Function.update lm1.lines k _ k).pos = 0
        rw [Function.update_same]
      · rw [hlines k hkv, hfr k hkv hk]
        exact h.pos0 k (fun hm => hk ((hmem k).mpr ⟨hm, hkv⟩))
    free_nodup := by
      show lm1.free_line_list.Nodup
      rw [o1]; exact h.free_nodup
    full_nodup := by
      show lm1.full_line_list.Nodup
      rw [o2]; exact h.full_nodup
    t_free := by
      refine retag h.t_free (fun k _ => ?_) ?_
      · show k ∈ lm1.free_line_list ↔ _
        rw [o1]
      · show v ∈ lm1.free_line_list ↔ _
        rw [o1]
        exact ⟨fun hm => absurd hm hvfree, fun hm => by omega⟩
    t_full := by
      refine retag h.t_full (fun k _ => ?_) ?_
      · show k ∈ lm1.full_line_list ↔ _
        rw [o2]
      · show v ∈ lm1.full_line_list ↔ _
        rw [o2]
        exact ⟨fun hm => absurd hm hvfull, fun hm => by omega⟩
    t_heap := by
      refine retag h.t_heap (fun k hk => ?_) ?_
      · rw [hmem2 k]
        exact ⟨fun hm => hm.1, fun hm => ⟨hm, hk⟩⟩
      · rw [hmem2 v]
        exact ⟨fun hm => absurd rfl hm.2, fun hm => by omega⟩
    t_user := retag h.t_user (fun k _ => Iff.rfl)
      ⟨fun hm => absurd hm hvu, fun hm => by omega⟩
    t_gc := retag h.t_gc (fun k _ => Iff.rfl)
      ⟨fun hm => absurd hm hvg, fun hm => by omega⟩
    t_limbo := by
      refine retag h.t_limbo (fun k hk => ?_) ?_
      · constructor
        · intro hh; exact absurd (Option.some.inj hh).symm hk
        · intro hh; exact absurd hh (by simp)
      · exact ⟨fun _ => rfl, fun _ => rfl⟩
    t_range := retag_range h.t_range hvn (by omega)
    c_free := by
      show lm1.free_line_cnt = lm1.free_line_list.length
      rw [o1, o3]; exact h.c_free
    c_full := by
      show lm1.full_line_cnt = lm1.full_line_list.length
      rw [o2, o4]; exact h.c_full
    c_heap := by
      show dec_u32 lm1.victim_line_cnt = lm1.victim_line_pq.size - 1
      have hc : lm1.victim_line_cnt = lm.victim_line_cnt := by rw [e1]; rfl
      rw [hc, h.c_heap, dec_u32_pos (by omega), hsz]
    c_sum := by
      have h0 := h.c_sum
      have e1 : (if (some v : Option Nat).isSome then 1 else 0) = 1 := rfl
      have e2 : (if (none : Option Nat).isSome then 1 else 0) = 0 := rfl
      rw [e2] at h0
      show lm1.free_line_list.length + lm1.full_line_list.length +
        (lm1.victim_line_pq.size - 1) + 2 + (if (some v : Option Nat).isSome then 1 else 0) = _
      rw [e1, o1, o2, hsz]
      omega
    free_zero := by
      intro k hk
      have hk2 : k ∈ lm.free_line_list := by
        have : k ∈ lm1.free_line_list := hk
        rw [o1] at this; exact this
      have q := same_but_pos_fields hsb k
      show ((clear_pos lm1 v).lines k).vpc = 0 ∧ ((clear_pos lm1 v).lines k).ipc = 0
      rw [q.2.2.1, q.2.1]
      exact h.free_zero k hk2
    heap_lt := by
      intro k hk
      have hk2 := ((hmem2 k).mp hk).1
      have q := same_but_pos_fields hsb k
      show ((clear_pos lm1 v).lines k).vpc < _
      rw [q.2.2.1]
      exact h.heap_lt k hk2 }

/-- The manager after the open line `x` was moved to the full-line list (`c = 2`) or to the
victim heap (`c = 3`) by `advance_write_pointer`. -/
theorem close_ok {sp : ssdparams} {limbo : Option Nat} {tag : Nat → Nat}
    {lm lm1 : line_mgmt} {uc gcc x : Nat} (h : lm_inv sp limbo tag lm uc gcc)
    (hx : tag x = 4 ∨ tag x = 5)
    (hcl : advance_write_pointer_close sp lm x = some lm1) :
    ∃ c, (c = 2 ∨ c = 3) ∧
      line_hooks lm1.victim_line_pq ∧ lm1.select_victim = lm.select_victim ∧
      lm1.tt_lines = lm.tt_lines ∧ same_but_pos lm.lines lm1.lines ∧
      1 ≤ lm1.victim_line_pq.size ∧ pq_handles lm1 ∧
      (∀ k, ¬ pq_member lm1 k → (lm1.lines k).pos = 0) ∧
      lm1.free_line_list = lm.free_line_list ∧ lm1.free_line_cnt = lm.free_line_cnt ∧
      lm1.full_line_list.Nodup ∧
      (∀ k, k ∈ lm1.full_line_list ↔ (k ∈ lm.full_line_list ∨ (c = 2 ∧ k = x))) ∧
      (∀ k, pq_member lm1 k ↔ (pq_member lm k ∨ (c = 3 ∧ k = x))) ∧
      lm1.full_line_cnt = lm1.full_line_list.length ∧
      lm1.victim_line_cnt = lm1.victim_line_pq.size - 1 ∧
      lm1.full_line_list.length + (lm1.victim_line_pq.size - 1) =
        lm.full_line_list.length + (lm.victim_line_pq.size - 1) + 1 ∧
      (∀ k, pq_member lm1 k → (lm1.lines k).vpc < sp.pgs_per_line) := by
  have hxfull : x ∉ lm.full_line_list := fun hm => by
    have := (h.t_full x).mp hm; omega
  have hxheap : ¬ pq_member lm x := fun hm => by
    have := (h.t_heap x).mp hm; omega
  unfold advance_write_pointer_close at hcl
  split_ifs at hcl with hfull
  · simp only [bind, Option.bind_eq_some, NVMEV_ASSERT_eq_some, pure, exists_const,
      Option.some.injEq] at hcl
    obtain ⟨_, hcl⟩ := hcl
    subst hcl
    refine ⟨2, Or.inl rfl, h.hooks, rfl, rfl, same_but_pos_refl _, h.size_pos, h.handles,
      h.pos0, rfl, rfl, ?_, ?_, ?_, ?_, h.c_heap, ?_, h.heap_lt⟩
    · show (lm.full_line_list ++ [x]).Nodup
      rw [List.nodup_append]
      refine ⟨h.full_nodup, List.nodup_singleton x, ?_⟩
      intro a ha hb
      rw [List.mem_singleton] at hb
      exact hxfull (hb ▸ ha)
    · intro k
      show k ∈ lm.full_line_list ++ [x] ↔ _
      simp
    · intro k
      show pq_member lm k ↔ _
      simp
    · show lm.full_line_cnt + 1 = (lm.full_line_list ++ [x]).length
      rw [List.length_append, h.c_full]
      rfl
    · show (lm.full_line_list ++ [x]).length + (lm.victim_line_pq.size - 1) = _
      rw [List.length_append, List.length_singleton]
      omega
  · simp only [bind, Option.bind_eq_some, NVMEV_ASSERT_eq_some, pure, exists_const,
      Option.some.injEq] at hcl
    obtain ⟨hlt, _, ⟨lmi, rc⟩, hins, hcl⟩ := hcl
    obtain ⟨e1, a2, a3, a4, a5, a6, a7⟩ := heap_insert_ok h hxheap hlt hins
    subst hcl
    have hsz : lmi.victim_line_pq.size = lm.victim_line_pq.size + 1 := by rw [e1]; rfl
    have hfulll : lmi.full_line_list = lm.full_line_list := by rw [e1]; rfl
    refine ⟨3, Or.inr rfl, a2, by rw [e1]; rfl, by rw [e1]; rfl, a6, ?_, a3, a5,
      by rw [e1]; rfl, by rw [e1]; rfl, ?_, ?_, ?_, ?_, ?_, ?_, a7⟩
    · show 1 ≤ lmi.victim_line_pq.size
      omega
    · show lmi.full_line_list.Nodup
      rw [hfulll]; exact h.full_nodup
    · intro k
      show k ∈ lmi.full_line_list ↔ _
      rw [hfulll]
      simp
    · intro k
      show pq_member lmi k ↔ _
      rw [a4 k]
      simp
    · show lmi.full_line_cnt = lmi.full_line_list.length
      rw [hfulll]
      have : lmi.full_line_cnt = lm.full_line_cnt := by rw [e1]; rfl
      rw [this]; exact h.c_full
    · show lmi.victim_line_cnt + 1 = lmi.victim_line_pq.size - 1
      have : lmi.victim_line_cnt = lm.victim_line_cnt := by rw [e1]; rfl
      rw [this, h.c_heap, hsz]
      have := h.size_pos
      omega
    · show lmi.full_line_list.length + (lmi.victim_line_pq.size - 1) = _
      rw [hfulll, hsz]
      have := h.size_pos
      omega

/-- The manager after the user cursor closed its line and opened the head `cur` of the
free-line list. -/
theorem lm_inv_newline_user {sp : ssdparams} {limbo : Option Nat} {tag : Nat → Nat}
    {lm lm1 : line_mgmt} {uc gcc cur : Nat} {rest : List Nat}
    (h : lm_inv sp limbo tag lm uc gcc)
    (hcl : advance_write_pointer_close sp lm uc = some lm1)
    (hfl : lm1.free_line_list = cur :: rest) :
    (∃ tag2, lm_inv sp limbo tag2
      { lm1 with free_line_list := rest, free_line_cnt := dec_u32 lm1.free_line_cnt } cur gcc) ∧
    same_but_pos lm.lines lm1.lines ∧ cur ∈ lm.free_line_list ∧ cur ≠ uc ∧ cur ≠ gcc := by
  have hu4 : tag uc = 4 := (h.t_user uc).mp rfl
  obtain ⟨c, hc, k1, k2, k3, k4, k5, k6, k7, k8, k9, k10, k11, k12, k13, k14, k15, k16⟩ :=
    close_ok h (Or.inl hu4) hcl
  have hfl0 : lm.free_line_list = cur :: rest := by rw [← k8]; exact hfl
  have hcurfree : cur ∈ lm.free_line_list := by rw [hfl0]; exact List.mem_cons_self _ _
  have hc1 : tag cur = 1 := (h.t_free cur).mp hcurfree
  have hcu : cur ≠ uc := fun e => by rw [e] at hc1; omega
  have hcg : cur ≠ gcc := fun e => by
    have := (h.t_gc cur).mp e; omega
  have hnd : (cur :: rest).Nodup := by rw [← hfl0]; exact h.free_nodup
  have hcr : cur ∉ rest := (List.nodup_cons.mp hnd).1
  have hun : uc < sp.blks_per_pl := (h.t_range uc).mpr (by omega)
  have hcn : cur < sp.blks_per_pl := (h.t_range cur).mpr (by omega)
  have hufree : uc ∉ lm.free_line_list := fun hm => by
    have := (h.t_free uc).mp hm; omega
  have hufull : uc ∉ lm.full_line_list := fun hm => by
    have := (h.t_full uc).mp hm; omega
  have huheap : ¬ pq_member lm uc := fun hm => by
    have := (h.t_heap uc).mp hm; omega
  have hug : uc ≠ gcc := fun hm => by
    have := (h.t_gc uc).mp hm; omega
  have hul : limbo ≠ some uc := fun hm => by
    have := (h.t_limbo uc).mp hm; omega
  have hcfull : cur ∉ lm.full_line_list := fun hm => by
    have := (h.t_full cur).mp hm; omega
  have hcheap : ¬ pq_member lm cur := fun hm => by
    have := (h.t_heap cur).mp hm; omega
  have hcl2 : limbo ≠ some cur := fun hm => by
    have := (h.t_limbo cur).mp hm; omega
  refine ⟨⟨Function.update (Function.update tag uc c) cur 4, ?_⟩, k4, hcurfree, hcu, hcg⟩
  exact
  { hooks := k1
    mode := k2.trans h.mode
    ids := fun k => ((same_but_pos_fields k4 k).1).trans (h.ids k)
    tt := k3.trans h.tt
    size_pos := k5
    handles := k6
    pos0 := k7
    free_nodup := (List.nodup_cons.mp hnd).2
    full_nodup := k10
    t_free := by
      refine retag (retag h.t_free (fun k _ => Iff.rfl)
        (⟨fun hm => absurd hm hufree, fun hm => by omega⟩ : uc ∈ lm.free_line_list ↔ c = 1))
        (fun k hk => ?_) ?_
      · show k ∈ rest ↔ k ∈ lm.free_line_list
        rw [hfl0, List.mem_cons]
        exact ⟨fun hm => Or.inr hm, fun hm => hm.resolve_left hk⟩
      · exact ⟨fun hm => absurd hm hcr, fun hm => by omega⟩
    t_full := by
      refine retag (retag h.t_full (fun k hk => ?_) ?_) (fun k _ => Iff.rfl) ?_
      · show k ∈ lm1.full_line_list ↔ _
        rw [k11 k]
        exact ⟨fun hm => hm.resolve_right (fun hh => hk hh.2), fun hm => Or.inl hm⟩
      · show uc ∈ lm1.full_line_list ↔ _
        rw [k11 uc]
        exact ⟨fun hm => (hm.resolve_left hufull).1, fun hm => Or.inr ⟨hm, rfl⟩⟩
      · show cur ∈ lm1.full_line_list ↔ _
        rw [k11 cur]
        exact ⟨fun hm => absurd (hm.resolve_left hcfull).2 hcu, fun hm => by omega⟩
    t_heap := by
      refine retag (retag h.t_heap (fun k hk => ?_) ?_) (fun k _ => Iff.rfl) ?_
      · show pq_member lm1 k ↔ _
        rw [k12 k]
        exact ⟨fun hm => hm.resolve_right (fun hh => hk hh.2), fun hm => Or.inl hm⟩
      · show pq_member lm1 uc ↔ _
        rw [k12 uc]
        exact ⟨fun hm => (hm.resolve_left huheap).1, fun hm => Or.inr ⟨hm, rfl⟩⟩
      · show pq_member lm1 cur ↔ _
        rw [k12 cur]
        exact ⟨fun hm => absurd (hm.resolve_left hcheap).2 hcu, fun hm => by omega⟩
    t_user := by
      refine retag (@retag _ (fun _ => False) _ _ _ _ h.t_user (fun k hk => ?_) ?_)
        (fun k hk => ?_) ?_
      · exact ⟨fun hm => absurd hm id, fun hm => absurd hm hk⟩
      · exact ⟨fun hm => absurd hm id, fun hm => by omega⟩
      · exact ⟨fun hm => absurd hm hk, fun hm => absurd hm id⟩
      · exact ⟨fun _ => rfl, fun _ => rfl⟩
    t_gc := by
      refine retag (retag h.t_gc (fun k _ => Iff.rfl)
        (⟨fun hm => absurd hm hug, fun hm => by omega⟩ : uc = gcc ↔ c = 5))
        (fun k _ => Iff.rfl) ?_
      exact ⟨fun hm => absurd hm hcg, fun hm => by omega⟩
    t_limbo := by
      refine retag (retag h.t_limbo (fun k _ => Iff.rfl)
        (⟨fun hm => absurd hm hul, fun hm => by omega⟩ : limbo = some uc ↔ c = 6))
        (fun k _ => Iff.rfl) ?_
      exact ⟨fun hm => absurd hm hcl2, fun hm => by omega⟩
    t_range := retag_range (retag_range h.t_range hun (by omega)) hcn (by omega)
    c_free := by
      show dec_u32 lm1.free_line_cnt = rest.length
      rw [k9, h.c_free, hfl0, List.length_cons, dec_u32_pos (by omega)]
      omega
    c_full := k13
    c_heap := k14
    c_sum := by
      have h0 := h.c_sum
      rw [hfl0, List.length_cons] at h0
      show rest.length + lm1.full_line_list.length + (lm1.victim_line_pq.size - 1) + 2 + _ = _
      omega
    free_zero := by
      intro k hk
      have hk2 : k ∈ lm.free_line_list := by
        rw [hfl0]; exact List.mem_cons_of_mem _ hk
      have q := same_but_pos_fields k4 k
      show (lm1.lines k).vpc = 0 ∧ (lm1.lines k).ipc = 0
      rw [q.2.2.1, q.2.1]
      exact h.free_zero k hk2
    heap_lt := k16 }

/-- The invariant of the manager is symmetric in the two cursors. -/
theorem lm_inv_swap {sp : ssdparams} {limbo : Option Nat} {tag : Nat → Nat}
    {lm : line_mgmt} {uc gcc : Nat} (h : lm_inv sp limbo tag lm uc gcc) :
    lm_inv sp limbo (fun k => if tag k = 4 then 5 else if tag k = 5 then 4 else tag k)
      lm gcc uc where
  hooks := h.hooks
  mode := h.mode
  ids := h.ids
  tt := h.tt
  size_pos := h.size_pos
  handles := h.handles
  pos0 := h.pos0
  free_nodup := h.free_nodup
  full_nodup := h.full_nodup
  t_free := by
    intro k; rw [h.t_free k]; split_ifs <;> omega
  t_full := by
    intro k; rw [h.t_full k]; split_ifs <;> omega
  t_heap := by
    intro k; rw [h.t_heap k]; split_ifs <;> omega
  t_user := by
    intro k; rw [h.t_gc k]; split_ifs <;> omega
  t_gc := by
    intro k; rw [h.t_user k]; split_ifs <;> omega
  t_limbo := by
    intro k; rw [h.t_limbo k]; split_ifs <;> omega
  t_range := by
    intro k; rw [h.t_range k]; split_ifs <;> omega
  c_free := h.c_free
  c_full := h.c_full
  c_heap := h.c_heap
  c_sum := h.c_sum
  free_zero := h.free_zero
  heap_lt := h.heap_lt

/-- The manager after the GC cursor closed its line and opened the head `cur` of the
free-line list. -/
theorem lm_inv_newline_gc {sp : ssdparams} {limbo : Option Nat} {tag : Nat → Nat}
    {lm lm1 : line_mgmt} {uc gcc cur : Nat} {rest : List Nat}
    (h : lm_inv sp limbo tag lm uc gcc)
    (hcl : advance_write_pointer_close sp lm gcc = some lm1)
    (hfl : lm1.free_line_list = cur :: rest) :
    (∃ tag2, lm_inv sp limbo tag2
      { lm1 with free_line_list := rest, free_line_cnt := dec_u32 lm1.free_line_cnt } uc cur) ∧
    same_but_pos lm.lines lm1.lines ∧ cur ∈ lm.free_line_list ∧ cur ≠ uc ∧ cur ≠ gcc := by
  obtain ⟨⟨tag2, h2⟩, a, b, c, d⟩ := lm_inv_newline_user (lm_inv_swap h) hcl hfl
  exact ⟨⟨_, lm_inv_swap h2⟩, a, b, d, c⟩

/-! ## The invariant of the line manager under `mark_page_invalid` -/

/-- The manager after `pqueue_change_priority` of the member `k` to a priority below
`pgs_per_line`. -/
theorem lm_inv_change_priority {sp : ssdparams} {limbo : Option Nat} {tag : Nat → Nat}
    {lm lm2 : line_mgmt} {uc gcc k p : Nat} (h : lm_inv sp limbo tag lm uc gcc)
    (hm : pq_member lm k) (hp : p < sp.pgs_per_line)
    (hc : pqueue_change_priority lm p (some k) = some lm2) :
    lm_inv sp limbo tag lm2 uc gcc := by
  obtain ⟨e1, _, _⟩ := pqueue_change_priority_spec h.hooks hc
  obtain ⟨m1, _, m3⟩ := pqueue_change_priority_member h.hooks h.handles hm hc
  obtain ⟨f1, f2, f3⟩ := pqueue_change_priority_frame h.hooks h.handles hm hc
  have hh := pqueue_change_priority_handles h.hooks h.handles hm hc
  have hfl : lm2.free_line_list = lm.free_line_list := by rw [e1]; rfl
  have hful : lm2.full_line_list = lm.full_line_list := by rw [e1]; rfl
  have hid : ∀ j, (lm2.lines j).id = (lm.lines j).id := by
    intro j
    by_cases hj : j = k
    · subst hj; rw [f3]
    · rw [f2 j hj]
  exact
  { hooks := line_hooks_of_same h.hooks (same_hooks_pq_with0 e1)
    mode := by rw [e1]; exact h.mode
    ids := fun j => (hid j).trans (h.ids j)
    tt := by rw [e1]; exact h.tt
    size_pos := by rw [m3]; exact h.size_pos
    handles := hh
    pos0 := by
      intro j hj
      have hj2 : ¬ pq_member lm j := fun hmj => hj ((m1 j).mpr hmj)
      rw [f1 j hj2]
      exact h.pos0 j hj2
    free_nodup := by rw [hfl]; exact h.free_nodup
    full_nodup := by rw [hful]; exact h.full_nodup
    t_free := by intro j; rw [hfl]; exact h.t_free j
    t_full := by intro j; rw [hful]; exact h.t_full j
    t_heap := by intro j; rw [m1 j]; exact h.t_heap j
    t_user := h.t_user
    t_gc := h.t_gc
    t_limbo := h.t_limbo
    t_range := h.t_range
    c_free := by
      rw [hfl]
      have : lm2.free_line_cnt = lm.free_line_cnt := by rw [e1]; rfl
      rw [this]; exact h.c_free
    c_full := by
      rw [hful]
      have : lm2.full_line_cnt = lm.full_line_cnt := by rw [e1]; rfl
      rw [this]; exact h.c_full
    c_heap := by
      rw [m3]
      have : lm2.victim_line_cnt = lm.victim_line_cnt := by rw [e1]; rfl
      rw [this]; exact h.c_heap
    c_sum := by rw [hfl, hful, m3]; exact h.c_sum
    free_zero := by
      intro j hj
      rw [hfl] at hj
      have hj2 : ¬ pq_member lm j := fun hmj => by
        have a := (h.t_free j).mp hj
        have b := (h.t_heap j).mp hmj
        omega
      rw [f1 j hj2]
      exact h.free_zero j hj
    heap_lt := by
      intro j hj
      by_cases hjk : j = k
      · subst hjk
        rw [f3]
        exact hp
      · rw [f2 j hjk]
        exact h.heap_lt j ((m1 j).mp hj) }

/-- The manager after a line `k` of the full-line list was moved to the victim heap. -/
theorem lm_inv_move {sp : ssdparams} {limbo : Option Nat} {tag : Nat → Nat}
    {lm lm2 : line_mgmt} {uc gcc k : Nat} (h : lm_inv sp limbo tag lm uc gcc)
    (hk2 : tag k = 2) (hv : (lm.lines k).vpc < sp.pgs_per_line)
    (hmv : mark_page_invalid_move lm k = some lm2) :
    lm_inv sp limbo (Function.update tag k 3) lm2 uc gcc ∧
      same_but_pos lm.lines lm2.lines ∧ lm2.free_line_list = lm.free_line_list := by
  have hkfull : k ∈ lm.full_line_list := (h.t_full k).mpr hk2
  have hkfree : k ∉ lm.free_line_list := fun hm => by
    have := (h.t_free k).mp hm; omega
  have hkheap : ¬ pq_member lm k := fun hm => by
    have := (h.t_heap k).mp hm; omega
  have hku : k ≠ uc := fun hm => by
    have := (h.t_user k).mp hm; omega
  have hkg : k ≠ gcc := fun hm => by
    have := (h.t_gc k).mp hm; omega
  have hkl : limbo ≠ some k := fun hm => by
    have := (h.t_limbo k).mp hm; omega
  have hkn : k < sp.blks_per_pl := (h.t_range k).mpr (by omega)
  simp only [mark_page_invalid_move, bind, Option.bind_eq_some, pure, Option.some.injEq] at hmv
  obtain ⟨⟨lmi, rc⟩, hins, hmv⟩ := hmv
  rw [List.erase_of_not_mem hkfree] at hins
  obtain ⟨e1, a2, a3, a4, a5, a6, a7⟩ :=
    @heap_insert_ok_of sp
      { lm with free_line_list := lm.free_line_list,
                full_line_list := lm.full_line_list.erase k,
                full_line_cnt := dec_u32 lm.full_line_cnt } lmi k rc
      h.hooks h.size_pos h.handles h.pos0 h.heap_lt hkheap hv hins
  subst hmv
  have hsz : lmi.victim_line_pq.size = lm.victim_line_pq.size + 1 := by rw [e1]; rfl
  have hfl : lmi.free_line_list = lm.free_line_list := by rw [e1]; rfl
  have hful : lmi.full_line_list = lm.full_line_list.erase k := by rw [e1]; rfl
  have hlen : (lm.full_line_list.erase k).length + 1 = lm.full_line_list.length := by
    rw [List.length_erase_of_mem hkfull]
    have : 0 < lm.full_line_list.length := List.length_pos_of_mem hkfull
    omega
  have hmemf : ∀ j, j ∈ lm.full_line_list.erase k ↔ (j ≠ k ∧ j ∈ lm.full_line_list) :=
    fun j => h.full_nodup.mem_erase_iff
  refine ⟨?_, a6, hfl⟩
  exact
  { hooks := a2
    mode := by
      show lmi.select_victim = _
      rw [e1]; exact h.mode
    ids := fun j => ((same_but_pos_fields a6 j).1).trans (h.ids j)
    tt := by
      show lmi.tt_lines = _
      rw [e1]; exact h.tt
    size_pos := by
      show 1 ≤ lmi.victim_line_pq.size
      omega
    handles := a3
    pos0 := a5
    free_nodup := by
      show lmi.free_line_list.Nodup
      rw [hfl]; exact h.free_nodup
    full_nodup := by
      show lmi.full_line_list.Nodup
      rw [hful]; exact h.full_nodup.erase k
    t_free := by
      refine retag h.t_free (fun j _ => ?_) ?_
      · show j ∈ lmi.free_line_list ↔ _
        rw [hfl]
      · show k ∈ lmi.free_line_list ↔ _
        rw [hfl]
        exact ⟨fun hm => absurd hm hkfree, fun hm => by omega⟩
    t_full := by
      refine retag h.t_full (fun j hj => ?_) ?_
      · show j ∈ lmi.full_line_list ↔ _
        rw [hful, hmemf j]
        exact ⟨fun hm => hm.2, fun hm => ⟨hj, hm⟩⟩
      · show k ∈ lmi.full_line_list ↔ _
        rw [hful, hmemf k]
        exact ⟨fun hm => absurd rfl hm.1, fun hm => by omega⟩
    t_heap := by
      refine retag h.t_heap (fun j hj => ?_) ?_
      · show pq_member lmi j ↔ _
        rw [a4 j]
        exact ⟨fun hm => hm.resolve_right hj, fun hm => Or.inl hm⟩
      · show pq_member lmi k ↔ _
        rw [a4 k]
        exact ⟨fun _ => rfl, fun _ => Or.inr rfl⟩
    t_user := retag h.t_user (fun j _ => Iff.rfl)
      ⟨fun hm => absurd hm hku, fun hm => by omega⟩
    t_gc := retag h.t_gc (fun j _ => Iff.rfl)
      ⟨fun hm => absurd hm hkg, fun hm => by omega⟩
    t_limbo := retag h.t_limbo (fun j _ => Iff.rfl)
      ⟨fun hm => absurd hm hkl, fun hm => by omega⟩
    t_range := retag_range h.t_range hkn (by omega)
    c_free := by
      show lmi.free_line_cnt = lmi.free_line_list.length
      rw [hfl]
      have : lmi.free_line_cnt = lm.free_line_cnt := by rw [e1]; rfl
      rw [this]; exact h.c_free
    c_full := by
      show lmi.full_line_cnt = lmi.full_line_list.length
      rw [hful]
      have : lmi.full_line_cnt = dec_u32 lm.full_line_cnt := by rw [e1]; rfl
      rw [this, h.c_full, dec_u32_pos (by omega)]
      omega
    c_heap := by
      show lmi.victim_line_cnt + 1 = lmi.victim_line_pq.size - 1
      have : lmi.victim_line_cnt = lm.victim_line_cnt := by rw [e1]; rfl
      rw [this, h.c_heap, hsz]
      have := h.size_pos
      omega
    c_sum := by
      have h0 := h.c_sum
      show lmi.free_line_list.length + lmi.full_line_list.length +
        (lmi.victim_line_pq.size - 1) + 2 + _ = _
      rw [hfl, hful, hsz]
      have := h.size_pos
      omega
    free_zero := by
      intro j hj
      have hj2 : j ∈ lm.free_line_list := by
        have : j ∈ lmi.free_line_list := hj
        rw [hfl] at this; exact this
      have q := same_but_pos_fields a6 j
      show (lmi.lines j).vpc = 0 ∧ (lmi.lines j).ipc = 0
      rw [q.2.2.1, q.2.1]
      exact h.free_zero j hj2
    heap_lt := a7 }

theorem lm_inv_set_ipc_time {sp : ssdparams} {limbo : Option Nat} {tag : Nat → Nat}
    {lm : line_mgmt} {uc gcc k : Nat} (h : lm_inv sp limbo tag lm uc gcc)
    (hk : k ∉ lm.free_line_list) (i t : Nat) :
    lm_inv sp limbo tag (line_set_ipc_time lm k i t) uc gcc := by
  refine lm_inv_lines h _ (fun j => ?_) (fun j => ?_) (fun j hj => ?_) (fun j hj => ?_)
  · by_cases hjk : j = k
    · subst hjk; simp
    · simp [Function.update_noteq hjk]
  · by_cases hjk : j = k
    · subst hjk; simp
    · simp [Function.update_noteq hjk]
  · have hjk : j ≠ k := fun e => hk (e ▸ hj)
    simp only [Function.update_noteq hjk]
    exact h.free_zero j hj
  · by_cases hjk : j = k
    · subst hjk
      simp only [Function.update_same]
      exact h.heap_lt j hj
    · simp only [Function.update_noteq hjk]
      exact h.heap_lt j hj

/-- The manager after the line part of `mark_page_invalid` on a page of line `k`: the line
stays in its container, except that a line of the full-line list with no invalid page moves
to the victim heap. -/
theorem lm_inv_invalid {sp : ssdparams} {limbo : Option Nat} {tag : Nat → Nat}
    {lm lm2 : line_mgmt} {uc gcc k now : Nat} (h : lm_inv sp limbo tag lm uc gcc)
    (hkn : k < sp.blks_per_pl) (hkl : limbo ≠ some k)
    (hu : (lm.lines uc).vpc < sp.pgs_per_line) (hg : (lm.lines gcc).vpc < sp.pgs_per_line)
    (hm : mark_page_invalid_line sp lm now k = some lm2) :
    ∃ tag2, lm_inv sp limbo tag2 lm2 uc gcc := by
  simp only [mark_page_invalid_line, bind, Option.bind_eq_some, NVMEV_ASSERT_eq_some, pure,
    exists_const, Option.some.injEq] at hm
  obtain ⟨_h1, _h2, h3, lmb, hlmb, lmc, hlmc, hfin⟩ := hm
  have hv1 : (line_set_ipc_time lm k ((lm.lines k).ipc + 1)
      (lm.lines k).last_modified_time).lines k =
      { lm.lines k with ipc := (lm.lines k).ipc + 1,
                        last_modified_time := (lm.lines k).last_modified_time } := by
    simp [line_set_ipc_time]
  rw [hv1] at h3
  have hvpos : 0 < (lm.lines k).vpc := h3.1
  have hvle : (lm.lines k).vpc ≤ sp.pgs_per_line := h3.2
  have hkfree : k ∉ lm.free_line_list := fun hm => by
    have := (h.free_zero k hm).1; omega
  have hI1 := lm_inv_set_ipc_time h hkfree ((lm.lines k).ipc + 1) (lm.lines k).last_modified_time
  -- the decrement of `vpc`
  have hI2 : lm_inv sp limbo tag lmb uc gcc ∧ (lmb.lines k).vpc = (lm.lines k).vpc - 1 ∧
      lmb.free_line_list = lm.free_line_list := by
    unfold mark_page_invalid_vpc at hlmb
    split_ifs at hlmb with hpos
    · have hmem : pq_member (line_set_ipc_time lm k ((lm.lines k).ipc + 1)
          (lm.lines k).last_modified_time) k := by
        by_contra hno
        exact hpos (hI1.pos0 k hno)
      rw [hv1] at hlmb
      have hp : (lm.lines k).vpc - 1 < sp.pgs_per_line := by omega
      refine ⟨lm_inv_change_priority hI1 hmem hp hlmb, ?_, ?_⟩
      · exact (pqueue_change_priority_member hI1.hooks hI1.handles hmem hlmb).2.1
      · obtain ⟨e1, _, _⟩ := pqueue_change_priority_spec hI1.hooks hlmb
        rw [e1]; rfl
    · simp only [Option.some.injEq] at hlmb
      subst hlmb
      refine ⟨?_, ?_, rfl⟩
      · refine lm_inv_lines hI1 _ (fun j => ?_) (fun j => ?_) (fun j hj => ?_) (fun j hj => ?_)
        · by_cases hjk : j = k
          · subst hjk; simp
          · simp [Function.update_noteq hjk]
        · by_cases hjk : j = k
          · subst hjk; simp
          · simp [Function.update_noteq hjk]
        · have hjk : j ≠ k := fun e => hkfree (e ▸ hj)
          simp only [Function.update_noteq hjk]
          exact hI1.free_zero j hj
        · by_cases hjk : j = k
          · subst hjk
            simp only [Function.update_same, hv1]
            omega
          · simp only [Function.update_noteq hjk]
            exact hI1.heap_lt j hj
      · simp [hv1]
  obtain ⟨hIb, hvb, hfb⟩ := hI2
  -- the move from the full-line list to the heap
  have hI3 : ∃ tag2, lm_inv sp limbo tag2 lmc uc gcc ∧ lmc.free_line_list = lm.free_line_list := by
    split_ifs at hlmc with hfull
    · have hfull2 : (lm.lines k).vpc = sp.pgs_per_line := by simpa using hfull
      have hk2 : tag k = 2 := by
        have hr := (h.t_range k).mp hkn
        have n3 : tag k ≠ 3 := fun e => by
          have := h.heap_lt k ((h.t_heap k).mpr e); omega
        have n4 : tag k ≠ 4 := fun e => by
          have := (h.t_user k).mpr e
          rw [this] at hfull2; omega
        have n5 : tag k ≠ 5 := fun e => by
          have := (h.t_gc k).mpr e
          rw [this] at hfull2; omega
        have n1 : tag k ≠ 1 := fun e => hkfree ((h.t_free k).mpr e)
        have n6 : tag k ≠ 6 := fun e => hkl ((h.t_limbo k).mpr e)
        omega
      obtain ⟨a, _, b⟩ := lm_inv_move hIb hk2 (by omega) hlmc
      exact ⟨_, a, b.trans hfb⟩
    · simp only [Option.some.injEq] at hlmc
      subst hlmc
      exact ⟨tag, hIb, hfb⟩
  obtain ⟨tag2, hIc, hfc⟩ := hI3
  refine ⟨tag2, ?_⟩
  rw [← hfin]
  exact lm_inv_set_ipc_time hIc (by rw [hfc]; exact hkfree) _ _

/-! ## Writing the page under a cursor -/

theorem set_blk_pg_status (d : ssd) (p : ppa) (blk b2 : nand_block) (st : pg_status)
    (hb : blk = d.blk p.ch p.lun p.pl p.blk) (hpg : b2.pg = (set_pg_status blk p.pg st).pg)
    (c l pl b g : Nat) :
    (((set_blk d p b2).blk c l pl b).pg g).status =
      if c = p.ch ∧ l = p.lun ∧ pl = p.pl ∧ b = p.blk ∧ g = p.pg then st
      else ((d.blk c l pl b).pg g).status := by
  by_cases hblk : c = p.ch ∧ l = p.lun ∧ pl = p.pl ∧ b = p.blk
  · obtain ⟨e1, e2, e3, e4⟩ := hblk
    subst e1 e2 e3 e4
    rw [set_blk_same, hpg]
    by_cases hg : g = p.pg
    · subst hg
      simp [set_pg_status]
    · rw [if_neg (fun hh => hg hh.2.2.2.2), hb]
      simp [set_pg_status, Function.update_noteq hg]
  · rw [set_blk_other d p b2 c l pl b hblk]
    have : ¬(c = p.ch ∧ l = p.lun ∧ pl = p.pl ∧ b = p.blk ∧ g = p.pg) :=
      fun hh => hblk ⟨hh.1, hh.2.1, hh.2.2.1, hh.2.2.2.1⟩
    rw [if_neg this]

theorem mark_page_valid_eq_some {s s1 : conv_ftl} {p : ppa}
    (h : mark_page_valid s p = some s1) :
    ∃ blk b2, get_blk s.ssd p = some blk ∧ p.pg < s.ssd.sp.pgs_per_blk ∧
      (blk.pg p.pg).status = PG_FREE ∧ b2.pg = (set_pg_status blk p.pg PG_VALID).pg ∧
      s1.ssd = set_blk s.ssd p b2 ∧
      s1.lm.lines = Function.update s.lm.lines p.blk
        { s.lm.lines p.blk with vpc := (s.lm.lines p.blk).vpc + 1 } ∧
      s1 = { s with ssd := s1.ssd, lm := { s.lm with lines := s1.lm.lines } } := by
  simp only [mark_page_valid, bind, Option.bind_eq_some, NVMEV_ASSERT_eq_some, pure,
    Option.some.injEq, exists_const, get_line] at h
  obtain ⟨pg, hpg, hfree, blk, hblk, _hvpc, _hl, hs⟩ := h
  obtain ⟨b, hb, hv, hpe⟩ := get_pg_eq_some hpg
  rw [hblk] at hb
  have hbb : b = blk := (Option.some.inj hb).symm
  subst hbb
  subst hs
  exact ⟨b, { set_pg_status b p.pg PG_VALID with
      vpc := (set_pg_status b p.pg PG_VALID).vpc + 1 },
    hblk, hv, by rw [← hpe]; exact hfree, rfl, rfl, rfl, rfl⟩

theorem get_wp_set_wp_other (s : conv_ftl) {io io2 : Nat}
    (hio : (io = USER_IO ∧ io2 = GC_IO) ∨ (io = GC_IO ∧ io2 = USER_IO)) (a : write_pointer) :
    __get_wp (set_wp s io a) io2 = __get_wp s io2 := by
  have hne : GC_IO ≠ USER_IO := by decide
  rcases hio with ⟨a1, a2⟩ | ⟨a1, a2⟩ <;> subst a1 <;> subst a2 <;>
    simp [set_wp, __get_wp, hne]

theorem get_wp_congr {s t : conv_ftl} (h1 : t.wp = s.wp) (h2 : t.gc_wp = s.gc_wp) (io : Nat) :
    __get_wp t io = __get_wp s io := by
  unfold __get_wp
  rw [h1, h2]

theorem open_ok_congr {sp : ssdparams} {s t : conv_ftl} {w : write_pointer}
    (hssd : t.ssd = s.ssd)
    (hv : (t.lm.lines w.curline).vpc = (s.lm.lines w.curline).vpc)
    (hi : (t.lm.lines w.curline).ipc = (s.lm.lines w.curline).ipc)
    (h : open_ok sp s w) : open_ok sp t w := by
  obtain ⟨a, b, k, c, d, e, f⟩ := h
  refine ⟨a, b, k, c, d, ?_, ?_⟩
  · rw [hv, hi]; exact e
  · intro j hj1 hj2
    rw [hssd]
    exact f j hj1 hj2

theorem open_ok_bounds {sp : ssdparams} (hg : stripe_geometry sp) {s : conv_ftl}
    {w : write_pointer} (h : open_ok sp s w) :
    w.ch < sp.nchs ∧ w.lun < sp.luns_per_ch ∧ w.pg < sp.pgs_per_blk ∧
    (s.lm.lines w.curline).vpc < sp.pgs_per_line ∧
    ((s.ssd.blk w.ch w.lun 0 w.blk).pg w.pg).status = PG_FREE := by
  obtain ⟨_, _, k, c, d, e, f⟩ := h
  have hb := stripe_pos_bounds hg w c
  have hf := f k (le_refl _) c
  rw [d] at hb hf
  exact ⟨hb.1, hb.2.1, hb.2.2, by omega, hf⟩

/-- The page under a cursor of a state that satisfies the invariant. -/
theorem cursor_page {sp : ssdparams} (hgeo : ftl_geometry sp) {limbo : Option Nat}
    {tag : Nat → Nat} {s : conv_ftl} {w o : write_pointer} {io : Nat} {p : ppa}
    (hI : ftl_core sp limbo tag s w o) (hw : __get_wp s io = some w)
    (hp : get_new_page s io = some p) :
    p = { ch := w.ch, lun := w.lun, pg := w.pg, blk := w.curline, pl := 0, rsv := 0 } ∧
    w.curline < sp.blks_per_pl := by
  obtain ⟨hsg, ⟨_, _, g3, g4, g5⟩, _, g7⟩ := hgeo
  obtain ⟨w2, hw2, hpe⟩ := get_new_page_eq_some hp
  rw [hw] at hw2
  have : w2 = w := (Option.some.inj hw2).symm
  subst this
  obtain ⟨b1, b2, b3, _, _⟩ := open_ok_bounds hsg hI.this_open
  have hx4 : tag w2.curline = 4 := (hI.lm_ok.t_user w2.curline).mp rfl
  have hxn : w2.curline < sp.blks_per_pl := (hI.lm_ok.t_range w2.curline).mpr (by omega)
  refine ⟨?_, hxn⟩
  rw [hpe, hI.this_open.2.1, hI.this_open.1,
    Nat.mod_eq_of_lt (show w2.ch < 256 by omega), Nat.mod_eq_of_lt (show w2.lun < 256 by omega),
    Nat.mod_eq_of_lt (show w2.pg < 65536 by omega),
    Nat.mod_eq_of_lt (show w2.curline < 65536 by omega)]

/-- `mark_page_valid` on the page under the cursor `w`: the invariant holds up to the
position of `w`, which is one page behind. -/
theorem cursor_mark_valid {sp : ssdparams} (hgeo : ftl_geometry sp) {limbo : Option Nat}
    {tag : Nat → Nat} {s s2 s3 : conv_ftl} {w o : write_pointer} {p : ppa}
    (hI : ftl_core sp limbo tag s w o)
    (hp : p = { ch := w.ch, lun := w.lun, pg := w.pg, blk := w.curline, pl := 0, rsv := 0 })
    (h2 : s2.ssd = s.ssd ∧ s2.lm = s.lm)
    (hmv : mark_page_valid s2 p = some s3) :
    ftl_mid sp limbo tag s3 w o ∧ s3.wp = s2.wp ∧ s3.gc_wp = s2.gc_wp := by
  obtain ⟨hsg, _, _, _⟩ := hgeo
  obtain ⟨blk, b2, hblk, hpg, _hfree, hb2, hssd, hlines, hs3⟩ := mark_page_valid_eq_some hmv
  obtain ⟨macct, mblk⟩ := mark_page_valid_acct hmv
  rw [h2.1] at hblk hssd
  rw [h2.2] at hlines
  have hpb : p.blk = w.curline := by rw [hp]
  rw [hpb] at hlines
  have hbe := (get_blk_eq_some hblk).2
  have hx4 : tag w.curline = 4 := (hI.lm_ok.t_user w.curline).mp rfl
  have ho5 : tag o.curline = 5 := (hI.lm_ok.t_gc o.curline).mp rfl
  have hox : o.curline ≠ w.curline := fun e => by rw [e] at ho5; omega
  have hlm3 : s3.lm = { s.lm with lines := s3.lm.lines } := by
    rw [hs3, h2.2]
  have hwp : s3.wp = s2.wp ∧ s3.gc_wp = s2.gc_wp := by
    constructor <;> rw [hs3]
  have hst : ∀ c l b g, ((s3.ssd.blk c l 0 b).pg g).status =
      if c = w.ch ∧ l = w.lun ∧ b = w.curline ∧ g = w.pg then PG_VALID
      else ((s.ssd.blk c l 0 b).pg g).status := by
    intro c l b g
    rw [hssd, set_blk_pg_status s.ssd p blk b2 PG_VALID hbe hb2 c l 0 b g, hp]
    simp only [true_and]
  refine ⟨⟨?_, ?_, ?_, ?_, ?_, ?_⟩, hwp⟩
  · rw [hssd]; exact hI.sp_eq
  · rw [hlm3, hlines]
    refine lm_inv_lines hI.lm_ok _ (fun k => ?_) (fun k => ?_) (fun k hk => ?_) (fun k hk => ?_)
    · by_cases hkx : k = w.curline
      · subst hkx; simp
      · simp [Function.update_noteq hkx]
    · by_cases hkx : k = w.curline
      · subst hkx; simp
      · simp [Function.update_noteq hkx]
    · have hkx : k ≠ w.curline := fun e => by
        have := (hI.lm_ok.t_free k).mp hk
        rw [e] at this; omega
      simp only [Function.update_noteq hkx]
      exact hI.lm_ok.free_zero k hk
    · have hkx : k ≠ w.curline := fun e => by
        have := (hI.lm_ok.t_heap k).mp hk
        rw [e] at this; omega
      simp only [Function.update_noteq hkx]
      exact hI.lm_ok.heap_lt k hk
  · intro k hk hl
    have h0 : line_acct s k := hI.acct k hk hl
    have h1 : line_acct s2 k :=
      line_acct_congr h2.1 (by rw [h2.2]) (by rw [h2.2]) (by rw [h2.2]) h0
    exact macct k (by rw [h2.2]; exact hI.lm_ok.ids k) h1
  · exact mblk (blks_acct_congr h2.1 hI.bacct)
  · obtain ⟨a, b, k, c, d, e, f⟩ := hI.this_open
    refine ⟨a, b, k, c, d, ?_, ?_⟩
    · rw [hlines]
      simp only [Function.update_same]
      omega
    · intro j hj1 hj2
      rw [hst, b]
      have hne : ¬((stripe_pos sp w j).ch = w.ch ∧ (stripe_pos sp w j).lun = w.lun ∧
          w.curline = w.curline ∧ (stripe_pos sp w j).pg = w.pg) := by
        intro hh
        have e1 : (stripe_pos sp w j).pg = (stripe_pos sp w k).pg := by rw [d]; exact hh.2.2.2
        have e2 : (stripe_pos sp w j).ch = (stripe_pos sp w k).ch := by rw [d]; exact hh.1
        have e3 : (stripe_pos sp w j).lun = (stripe_pos sp w k).lun := by rw [d]; exact hh.2.1
        have := stripe_pos_inj hsg w w e1 e2 e3
        omega
      rw [if_neg hne, ← b]
      exact f j (by omega) hj2
  · obtain ⟨a, b, k, c, d, e, f⟩ := hI.other_open
    refine ⟨a, b, k, c, d, ?_, ?_⟩
    · rw [hlines, Function.update_noteq hox]
      exact e
    · intro j hj1 hj2
      rw [hst, b]
      have hne : ¬((stripe_pos sp o j).ch = w.ch ∧ (stripe_pos sp o j).lun = w.lun ∧
          o.curline = w.curline ∧ (stripe_pos sp o j).pg = w.pg) := fun hh => hox hh.2.2.1
      rw [if_neg hne, ← b]
      exact f j hj1 hj2

/-- `advance_write_pointer` after the page under the cursor was written: the invariant holds
again, for the next position of the line or for a new open line. -/
theorem cursor_advance {sp : ssdparams} (hgeo : ftl_geometry sp) {limbo : Option Nat}
    {tag : Nat → Nat} {s3 s3b s4 : conv_ftl} {w o : write_pointer} {io io2 : Nat}
    (hio : (io = USER_IO ∧ io2 = GC_IO) ∨ (io = GC_IO ∧ io2 = USER_IO))
    (hM : ftl_mid sp limbo tag s3 w o)
    (h3 : s3b.ssd = s3.ssd ∧ s3b.lm = s3.lm)
    (hw : __get_wp s3b io = some w) (ho : __get_wp s3b io2 = some o)
    (hadv : advance_write_pointer s3b io = some s4) :
    ∃ tag2 w2, __get_wp s4 io = some w2 ∧ __get_wp s4 io2 = some o ∧
      ftl_core sp limbo tag2 s4 w2 o := by
  obtain ⟨hsg, ⟨g1, _, _, _, _⟩, _, _⟩ := hgeo
  have hio1 : io = USER_IO ∨ io = GC_IO := hio.imp (fun a => a.1) (fun a => a.1)
  have hsp3 : s3b.ssd.sp = sp := by rw [h3.1]; exact hM.sp_eq
  obtain ⟨a, b, k, c, d, e, f⟩ := hM.this_open
  by_cases hk : k + 1 < sp.pgs_per_line
  · -- the cursor stays in its line
    have hstep := advance_write_pointer_stripe s3b io w (by rw [hsp3]; exact hsg) hio1 k
      (by rw [hsp3]; exact hk)
    rw [hsp3, d, set_wp_self hw, hadv] at hstep
    have hs4 : s4 = set_wp s3b io (stripe_pos sp w (k + 1)) := Option.some.inj hstep
    obtain ⟨q1, _, _, q4⟩ := set_wp_fields s3b io (stripe_pos sp w (k + 1))
    have hssd4 : s4.ssd = s3.ssd := by rw [hs4, q1]; exact h3.1
    have hlm4 : s4.lm = s3.lm := by rw [hs4, q4]; exact h3.2
    refine ⟨tag, stripe_pos sp w (k + 1), ?_, ?_, ?_⟩
    · rw [hs4]; exact get_wp_set_wp s3b hio1 _
    · rw [hs4, get_wp_set_wp_other s3b hio]; exact ho
    · refine ⟨by rw [hssd4]; exact hM.sp_eq, ?_, ?_, ?_, ?_, ?_⟩
      · rw [hlm4]; exact hM.lm_ok
      · intro j hj hl
        exact line_acct_congr hssd4 (by rw [hlm4]) (by rw [hlm4]) (by rw [hlm4])
          (hM.acct j hj hl)
      · exact blks_acct_congr hssd4 hM.bacct
      · refine ⟨a, b, k + 1, hk, rfl, ?_, ?_⟩
        · show (s4.lm.lines w.curline).vpc + (s4.lm.lines w.curline).ipc = k + 1
          rw [hlm4]; exact e
        · intro j hj1 hj2
          show ((s4.ssd.blk (stripe_pos sp w j).ch (stripe_pos sp w j).lun 0 w.blk).pg
            (stripe_pos sp w j).pg).status = PG_FREE
          rw [hssd4]
          exact f j (by omega) hj2
      · exact open_ok_congr hssd4 (by rw [hlm4]) (by rw [hlm4]) hM.other_open
  · -- the line is used up
    have hk1 : k + 1 = sp.pgs_per_line := by omega
    obtain ⟨l1, l2, l3, l4⟩ := stripe_pos_last hsg w hk1
    rw [d] at l1 l2 l3 l4
    obtain ⟨lm1, cur, rest, hcl, hfl, _hid, hs4⟩ := advance_write_pointer_last hw
      (by rw [hsp3]; exact l1) (by rw [hsp3]; exact l2) (by rw [hsp3]; exact l3)
      (by rw [hsp3]; exact l4) hadv
    rw [hsp3, h3.2] at hcl
    obtain ⟨⟨tag2, hlm2⟩, hsb, hcurfree, hcw, hco⟩ := lm_inv_newline_user hM.lm_ok hcl hfl
    obtain ⟨q1, _, _, q4⟩ := set_wp_fields
      { s3b with lm := { lm1 with free_line_list := rest,
                                  free_line_cnt := dec_u32 lm1.free_line_cnt } } io
      { curline := cur, ch := 0, lun := 0, pg := 0, blk := (lm1.lines cur).id, pl := 0 }
    have hssd4 : s4.ssd = s3.ssd := by rw [hs4, q1]; exact h3.1
    have hlm4 : s4.lm =
        { lm1 with free_line_list := rest, free_line_cnt := dec_u32 lm1.free_line_cnt } := by
      rw [hs4, q4]
    have hl4 : s4.lm.lines = lm1.lines := by rw [hlm4]
    have hfields : ∀ j, (s4.lm.lines j).id = (s3.lm.lines j).id ∧
        (s4.lm.lines j).ipc = (s3.lm.lines j).ipc ∧ (s4.lm.lines j).vpc = (s3.lm.lines j).vpc := by
      intro j
      rw [hl4]
      have q := same_but_pos_fields hsb j
      exact ⟨q.1, q.2.1, q.2.2.1⟩
    have hidc : (lm1.lines cur).id = cur := by
      rw [(same_but_pos_fields hsb cur).1]; exact hM.lm_ok.ids cur
    have hc1 : tag cur = 1 := (hM.lm_ok.t_free cur).mp hcurfree
    have hcn : cur < sp.blks_per_pl := (hM.lm_ok.t_range cur).mpr (by omega)
    have hcl6 : limbo ≠ some cur := fun e6 => by
      have := (hM.lm_ok.t_limbo cur).mp e6; omega
    have hz := hM.lm_ok.free_zero cur hcurfree
    have hacc := hM.acct cur hcn hcl6
    unfold line_acct at hacc
    rw [hM.lm_ok.ids cur, hz.1, hz.2] at hacc
    refine ⟨tag2,
      { curline := cur, ch := 0, lun := 0, pg := 0, blk := (lm1.lines cur).id, pl := 0 },
      ?_, ?_, ?_⟩
    · rw [hs4]; exact get_wp_set_wp _ hio1 _
    · rw [hs4, get_wp_set_wp_other _ hio]
      exact (get_wp_congr (s := s3b) rfl rfl io2).trans ho
    · refine ⟨by rw [hssd4]; exact hM.sp_eq, ?_, ?_, ?_, ?_, ?_⟩
      · rw [hlm4]; exact hlm2
      · intro j hj hl
        exact line_acct_congr hssd4 (hfields j).1 (hfields j).2.2 (hfields j).2.1
          (hM.acct j hj hl)
      · exact blks_acct_congr hssd4 hM.bacct
      · refine ⟨rfl, hidc, 0, by omega, ?_, ?_, ?_⟩
        · exact stripe_pos_zero sp _ rfl rfl rfl
        · show (s4.lm.lines cur).vpc + (s4.lm.lines cur).ipc = 0
          rw [(hfields cur).2.2, (hfields cur).2.1, hz.1, hz.2]
        · intro j _ hj2
          have hb := stripe_pos_bounds hsg
            { curline := cur, ch := 0, lun := 0, pg := 0, blk := (lm1.lines cur).id, pl := 0 } hj2
          show ((s4.ssd.blk _ _ 0 (lm1.lines cur).id).pg _).status = PG_FREE
          rw [hssd4, hidc]
          refine line_pages_free hacc.1.symm hacc.2.symm ?_ ?_ ?_ ?_
          · rw [hM.sp_eq]; exact hb.1
          · rw [hM.sp_eq]; exact hb.2.1
          · rw [hM.sp_eq, g1]; omega
          · rw [hM.sp_eq]; exact hb.2.2
      · exact open_ok_congr hssd4 (hfields o.curline).2.2 (hfields o.curline).2.1
          hM.other_open

/-! ## The invariant under the page write at a cursor -/

theorem ftl_core_swap {sp : ssdparams} {limbo : Option Nat} {tag : Nat → Nat}
    {s : conv_ftl} {w o : write_pointer} (h : ftl_core sp limbo tag s w o) :
    ftl_core sp limbo (fun k => if tag k = 4 then 5 else if tag k = 5 then 4 else tag k)
      s o w :=
  ⟨h.sp_eq, lm_inv_swap h.lm_ok, h.acct, h.bacct, h.other_open, h.this_open⟩

theorem ftl_core_congr {sp : ssdparams} {limbo : Option Nat} {tag : Nat → Nat}
    {s t : conv_ftl} {w o : write_pointer} (hssd : t.ssd = s.ssd) (hlm : t.lm = s.lm)
    (h : ftl_core sp limbo tag s w o) : ftl_core sp limbo tag t w o :=
  ⟨by rw [hssd]; exact h.sp_eq, by rw [hlm]; exact h.lm_ok,
    fun k hk hl => line_acct_congr hssd (by rw [hlm]) (by rw [hlm]) (by rw [hlm]) (h.acct k hk hl),
    blks_acct_congr hssd h.bacct,
    open_ok_congr hssd (by rw [hlm]) (by rw [hlm]) h.this_open,
    open_ok_congr hssd (by rw [hlm]) (by rw [hlm]) h.other_open⟩

theorem ftl_inv_congr {sp : ssdparams} {limbo : Option Nat} {tag : Nat → Nat}
    {s t : conv_ftl} (hssd : t.ssd = s.ssd) (hlm : t.lm = s.lm) (hwp : t.wp = s.wp)
    (hgc : t.gc_wp = s.gc_wp) (h : ftl_inv sp limbo tag s) : ftl_inv sp limbo tag t := by
  unfold ftl_inv at h ⊢
  rw [hwp, hgc]
  exact ftl_core_congr hssd hlm h

theorem get_wp_user (s : conv_ftl) : __get_wp s USER_IO = some s.wp := by
  simp [__get_wp]

/-- The page write of `conv_write` at the user cursor (`mark_page_valid` on the page of the
cursor, then `advance_write_pointer`) keeps the invariant. -/
theorem ftl_inv_write_user {sp : ssdparams} (hgeo : ftl_geometry sp) {limbo : Option Nat}
    {tag : Nat → Nat} {s s2 s3 s3b s4 : conv_ftl} {p : ppa}
    (hI : ftl_inv sp limbo tag s) (hp : get_new_page s USER_IO = some p)
    (h2 : s2.ssd = s.ssd ∧ s2.lm = s.lm ∧ s2.wp = s.wp ∧ s2.gc_wp = s.gc_wp)
    (hmv : mark_page_valid s2 p = some s3)
    (h3 : s3b.ssd = s3.ssd ∧ s3b.lm = s3.lm ∧ s3b.wp = s3.wp ∧ s3b.gc_wp = s3.gc_wp)
    (hadv : advance_write_pointer s3b USER_IO = some s4) :
    ∃ tag2, ftl_inv sp limbo tag2 s4 := by
  unfold ftl_inv at hI
  obtain ⟨hpe, _⟩ := cursor_page hgeo hI (get_wp_user s) hp
  obtain ⟨hM, c1, c2⟩ := cursor_mark_valid hgeo hI hpe ⟨h2.1, h2.2.1⟩ hmv
  have hw : __get_wp s3b USER_IO = some s.wp := by
    rw [get_wp_user, h3.2.2.1, c1, h2.2.2.1]
  have ho : __get_wp s3b GC_IO = some s.gc_wp := by
    rw [get_wp_gc, h3.2.2.2, c2, h2.2.2.2]
  obtain ⟨tag2, w2, e1, e2, hC⟩ := cursor_advance hgeo (Or.inl ⟨rfl, rfl⟩) hM
    ⟨h3.1, h3.2.1⟩ hw ho hadv
  rw [get_wp_user] at e1
  rw [get_wp_gc] at e2
  have e1b : w2 = s4.wp := (Option.some.inj e1).symm
  have e2b : s4.gc_wp = s.gc_wp := Option.some.inj e2
  refine ⟨tag2, ?_⟩
  unfold ftl_inv
  rw [e2b, ← e1b]
  exact hC

/-- The page write of `gc_write_page` at the GC cursor keeps the invariant. -/
theorem ftl_inv_write_gc {sp : ssdparams} (hgeo : ftl_geometry sp) {limbo : Option Nat}
    {tag : Nat → Nat} {s s2 s3 s3b s4 : conv_ftl} {p : ppa}
    (hI : ftl_inv sp limbo tag s) (hp : get_new_page s GC_IO = some p)
    (h2 : s2.ssd = s.ssd ∧ s2.lm = s.lm ∧ s2.wp = s.wp ∧ s2.gc_wp = s.gc_wp)
    (hmv : mark_page_valid s2 p = some s3)
    (h3 : s3b.ssd = s3.ssd ∧ s3b.lm = s3.lm ∧ s3b.wp = s3.wp ∧ s3b.gc_wp = s3.gc_wp)
    (hadv : advance_write_pointer s3b GC_IO = some s4) :
    ∃ tag2, ftl_inv sp limbo tag2 s4 := by
  unfold ftl_inv at hI
  have hS := ftl_core_swap hI
  obtain ⟨hpe, _⟩ := cursor_page hgeo hS (get_wp_gc s) hp
  obtain ⟨hM, c1, c2⟩ := cursor_mark_valid hgeo hS hpe ⟨h2.1, h2.2.1⟩ hmv
  have ho : __get_wp s3b USER_IO = some s.wp := by
    rw [get_wp_user, h3.2.2.1, c1, h2.2.2.1]
  have hw : __get_wp s3b GC_IO = some s.gc_wp := by
    rw [get_wp_gc, h3.2.2.2, c2, h2.2.2.2]
  obtain ⟨tag2, w2, e1, e2, hC⟩ := cursor_advance hgeo (Or.inr ⟨rfl, rfl⟩) hM
    ⟨h3.1, h3.2.1⟩ hw ho hadv
  rw [get_wp_gc] at e1
  rw [get_wp_user] at e2
  have e1b : w2 = s4.gc_wp := (Option.some.inj e1).symm
  have e2b : s4.wp = s.wp := Option.some.inj e2
  have hC2 := ftl_core_swap hC
  refine ⟨fun k => if tag2 k = 4 then 5 else if tag2 k = 5 then 4 else tag2 k, ?_⟩
  unfold ftl_inv
  rw [e2b, ← e1b]
  exact hC2

/-! ## The invariant under `mark_page_invalid` -/

theorem mark_page_invalid_eq_some {s s1 : conv_ftl} {now : Nat} {p : ppa}
    (h : mark_page_invalid s now p = some s1) :
    ∃ blk b2, get_blk s.ssd p = some blk ∧ p.pg < s.ssd.sp.pgs_per_blk ∧
      (blk.pg p.pg).status = PG_VALID ∧ b2.pg = (set_pg_status blk p.pg PG_INVALID).pg ∧
      s1.ssd = set_blk s.ssd p b2 ∧
      mark_page_invalid_line s.ssd.sp s.lm now p.blk = some s1.lm ∧
      s1 = { s with ssd := s1.ssd, lm := s1.lm } := by
  simp only [mark_page_invalid, bind, Option.bind_eq_some, NVMEV_ASSERT_eq_some, pure,
    Option.some.injEq, exists_const, get_line] at h
  obtain ⟨pg, hpg, hval, blk, hblk, _hipc, _hvpc, lm1, hl, hs⟩ := h
  obtain ⟨b, hb, hv, hpe⟩ := get_pg_eq_some hpg
  rw [hblk] at hb
  have hbb : b = blk := (Option.some.inj hb).symm
  subst hbb
  subst hs
  exact ⟨b,
    { pg := (set_pg_status b p.pg PG_INVALID).pg,
      npgs := (set_pg_status b p.pg PG_INVALID).npgs,
      ipc := (set_pg_status b p.pg PG_INVALID).ipc + 1,
      vpc := (set_pg_status b p.pg PG_INVALID).vpc - 1,
      erase_cnt := (set_pg_status b p.pg PG_INVALID).erase_cnt,
      wp := (set_pg_status b p.pg PG_INVALID).wp },
    hblk, hv, by rw [← hpe]; exact hval, rfl, rfl, hl, rfl⟩

/-- A cursor stays at a FREE page of its line when a VALID page becomes INVALID. -/
theorem open_ok_invalid {sp : ssdparams} {s s1 : conv_ftl} {w : write_pointer} {p : ppa}
    {blk b2 : nand_block} (hbe : blk = s.ssd.blk p.ch p.lun p.pl p.blk)
    (hst : (blk.pg p.pg).status = PG_VALID)
    (hb2 : b2.pg = (set_pg_status blk p.pg PG_INVALID).pg)
    (hssd : s1.ssd = set_blk s.ssd p b2)
    (hsum : (s1.lm.lines w.curline).vpc + (s1.lm.lines w.curline).ipc =
      (s.lm.lines w.curline).vpc + (s.lm.lines w.curline).ipc)
    (h : open_ok sp s w) : open_ok sp s1 w := by
  obtain ⟨a, b, k, c, d, e, f⟩ := h
  refine ⟨a, b, k, c, d, by rw [hsum]; exact e, ?_⟩
  intro j hj1 hj2
  have hf := f j hj1 hj2
  rw [hssd, set_blk_pg_status s.ssd p blk b2 PG_INVALID hbe hb2]
  split_ifs with hc
  · obtain ⟨e1, e2, e3, e4, e5⟩ := hc
    rw [e1, e2, e4, e5, e3, ← hbe, hst] at hf
    exact absurd hf (by decide)
  · exact hf

/-- `mark_page_invalid` on a page outside the victim of a GC run keeps the invariant. -/
theorem ftl_inv_invalid {sp : ssdparams} (hgeo : ftl_geometry sp) {limbo : Option Nat}
    {tag : Nat → Nat} {s s1 : conv_ftl} {now : Nat} {p : ppa}
    (hI : ftl_inv sp limbo tag s) (hl : limbo ≠ some p.blk)
    (h : mark_page_invalid s now p = some s1) :
    ∃ tag2, ftl_inv sp limbo tag2 s1 := by
  unfold ftl_inv at hI
  obtain ⟨hsg, _, _, _⟩ := hgeo
  obtain ⟨blk, b2, hblk, _hpg, hst, hb2, hssd, hline, hs1⟩ := mark_page_invalid_eq_some h
  obtain ⟨macct, mblk, _⟩ := mark_page_invalid_acct hI.lm_ok.hooks h
  obtain ⟨⟨_, _, _, r4⟩, hbe⟩ := get_blk_eq_some hblk
  rw [hI.sp_eq] at r4 hline
  obtain ⟨_, _, e3⟩ := mark_page_invalid_line_spec hI.lm_ok.hooks hline
  obtain ⟨_, f2, f3⟩ := mark_page_invalid_line_counts hI.lm_ok.hooks hline
  have hu := (open_ok_bounds hsg hI.this_open).2.2.2.1
  have hg := (open_ok_bounds hsg hI.other_open).2.2.2.1
  obtain ⟨tag2, hlm⟩ := lm_inv_invalid hI.lm_ok r4 hl hu hg hline
  have hsum : ∀ j, (s1.lm.lines j).vpc + (s1.lm.lines j).ipc =
      (s.lm.lines j).vpc + (s.lm.lines j).ipc := by
    intro j
    rw [f3 j, (e3 j).2]
    by_cases hj : j = p.blk
    · subst hj
      simp only [if_true]
      omega
    · simp only [if_neg hj]
  have hwp : s1.wp = s.wp := by rw [hs1]
  have hgw : s1.gc_wp = s.gc_wp := by rw [hs1]
  refine ⟨tag2, ?_⟩
  unfold ftl_inv
  rw [hwp, hgw]
  exact
  { sp_eq := by rw [hssd]; exact hI.sp_eq
    lm_ok := hlm
    acct := fun k hk hl2 => macct k (hI.lm_ok.ids k) (hI.acct k hk hl2)
    bacct := mblk hI.bacct
    this_open := open_ok_invalid hbe hst hb2 hssd (hsum _) hI.this_open
    other_open := open_ok_invalid hbe hst hb2 hssd (hsum _) hI.other_open }

/-! ## The invariant through a GC run -/

theorem select_victim_greedy_eq_some {s s1 : conv_ftl} {now : Nat} {force : Bool}
    {vo : Option Nat} (h : select_victim_greedy s now force = some (s1, vo)) :
    (vo = none ∧ s1 = s) ∨
    (∃ v lm1 vo1, vo = some v ∧ s.lm.victim_line_pq.size ≠ 1 ∧
      s.lm.victim_line_pq.d 1 = some v ∧ pqueue_pop s.lm = some (lm1, vo1) ∧
      s1.lm = { clear_pos lm1 v with
                victim_line_cnt := dec_u32 (clear_pos lm1 v).victim_line_cnt } ∧
      s1 = { s with lm := s1.lm, glob := s1.glob }) := by
  unfold select_victim_greedy at h
  cases hp : pqueue_peek s.lm with
  | none =>
    simp only [hp, Option.some.injEq, Prod.mk.injEq] at h
    exact Or.inl ⟨h.2.symm, h.1.symm⟩
  | some v =>
    simp only [hp] at h
    have hs1 : s.lm.victim_line_pq.size ≠ 1 := by
      intro h1
      simp [pqueue_peek, h1] at hp
    have hd1 : s.lm.victim_line_pq.d 1 = some v := by
      simpa [pqueue_peek, hs1] using hp
    split_ifs at h with hc
    · simp only [Option.some.injEq, Prod.mk.injEq] at h
      exact Or.inl ⟨h.2.symm, h.1.symm⟩
    · cases hpop : pqueue_pop s.lm with
      | none => simp [hpop] at h
      | some r1 =>
        obtain ⟨lm1, v1⟩ := r1
        simp only [hpop, Option.some.injEq, Prod.mk.injEq] at h
        refine Or.inr ⟨v, lm1, v1, h.2.symm, hs1, hd1, rfl, ?_, ?_⟩
        · rw [← h.1]
        · rw [← h.1]

/-- The victim selection of the Greedy mode: without a victim the state satisfies the
invariant as before, with a victim `v` it satisfies the invariant of a GC run on `v`. -/
theorem ftl_inv_select {sp : ssdparams} {tag : Nat → Nat} {s s1 : conv_ftl} {now r : Nat}
    {force : Bool} {vo : Option Nat} (hI : ftl_inv sp none tag s)
    (h : select_victim s now r force = some (s1, vo)) :
    (vo = none ∧ ftl_inv sp none tag s1) ∨
    (∃ v, vo = some v ∧ ftl_inv sp (some v) (Function.update tag v 6) s1) := by
  unfold ftl_inv at hI
  unfold select_victim at h
  rw [hI.lm_ok.mode] at h
  simp only at h
  rcases select_victim_greedy_eq_some h with ⟨e1, e2⟩ | ⟨v, lm1, vo1, e1, hs, hd, hpop, hlm, hs1⟩
  · subst e2
    exact Or.inl ⟨e1, hI⟩
  · obtain ⟨a, hsb, _⟩ := lm_inv_select hI.lm_ok hs hd hpop
    rw [← hlm] at a
    have hssd : s1.ssd = s.ssd := by rw [hs1]
    have hwp : s1.wp = s.wp := by rw [hs1]
    have hgw : s1.gc_wp = s.gc_wp := by rw [hs1]
    have hlines : s1.lm.lines = (clear_pos lm1 v).lines := by rw [hlm]
    have hf : ∀ j, (s1.lm.lines j).id = (s.lm.lines j).id ∧
        (s1.lm.lines j).ipc = (s.lm.lines j).ipc ∧ (s1.lm.lines j).vpc = (s.lm.lines j).vpc := by
      intro j
      rw [hlines]
      have q := same_but_pos_fields hsb j
      exact ⟨q.1, q.2.1, q.2.2.1⟩
    refine Or.inr ⟨v, e1, ?_⟩
    unfold ftl_inv
    rw [hwp, hgw]
    exact
    { sp_eq := by rw [hssd]; exact hI.sp_eq
      lm_ok := a
      acct := fun k hk _ =>
        line_acct_congr hssd (hf k).1 (hf k).2.2 (hf k).2.1 (hI.acct k hk (by simp))
      bacct := blks_acct_congr hssd hI.bacct
      this_open := open_ok_congr hssd (hf _).2.2 (hf _).2.1 hI.this_open
      other_open := open_ok_congr hssd (hf _).2.2 (hf _).2.1 hI.other_open }

/-- `gc_write_page` keeps the invariant of a GC run and does not touch the blocks of the
victim. -/
theorem ftl_inv_gc_write_page {sp : ssdparams} (hgeo : ftl_geometry sp) {v : Nat}
    {tag : Nat → Nat} {t t2 : conv_ftl} {old : ppa} (hI : ftl_inv sp (some v) tag t)
    (h : gc_write_page t old = some t2) :
    (∃ tag2, ftl_inv sp (some v) tag2 t2) ∧
      ∀ c l pl, t2.ssd.blk c l pl v = t.ssd.blk c l pl v := by
  obtain ⟨lpn, new, s1, s2, s3, _h1, _h2, h3, h4, h5, h6, h7⟩ := gc_write_page_spec h
  obtain ⟨_, e1⟩ := set_maptbl_ent_spec h4
  obtain ⟨_, e2⟩ := set_rmap_ent_spec h5
  have hA : s2.ssd = t.ssd ∧ s2.lm = t.lm ∧ s2.wp = t.wp ∧ s2.gc_wp = t.gc_wp := by
    rw [e2, e1]
    exact ⟨rfl, rfl, rfl, rfl⟩
  have hB : ({ s3 with gc_copied_pages := s3.gc_copied_pages + 1 } : conv_ftl).ssd = s3.ssd ∧
      ({ s3 with gc_copied_pages := s3.gc_copied_pages + 1 } : conv_ftl).lm = s3.lm ∧
      ({ s3 with gc_copied_pages := s3.gc_copied_pages + 1 } : conv_ftl).wp = s3.wp ∧
      ({ s3 with gc_copied_pages := s3.gc_copied_pages + 1 } : conv_ftl).gc_wp = s3.gc_wp :=
    ⟨rfl, rfl, rfl, rfl⟩
  refine ⟨ftl_inv_write_gc hgeo hI h3 hA h6 hB h7, ?_⟩
  unfold ftl_inv at hI
  obtain ⟨hpe, _⟩ := cursor_page hgeo (ftl_core_swap hI) (get_wp_gc t) h3
  obtain ⟨b2, mssd⟩ := mark_page_valid_ssd h6
  have hssd := (advance_write_pointer_frame h7).1
  have hg5 : tag t.gc_wp.curline = 5 := (hI.lm_ok.t_gc _).mp rfl
  have hv6 : tag v = 6 := (hI.lm_ok.t_limbo v).mp rfl
  intro c l pl
  rw [hssd]
  show s3.ssd.blk c l pl v = _
  rw [mssd, hA.1]
  apply set_blk_other
  intro hc
  have : v = t.gc_wp.curline := by rw [hc.2.2.2, hpe]
  rw [this] at hv6
  omega

/-- `mark_block_free` on a block of the victim keeps the invariant of the GC run. -/
theorem ftl_inv_block_free {sp : ssdparams} (hgeo : ftl_geometry sp) {v fp ch lun : Nat}
    {tag : Nat → Nat} {t t2 : conv_ftl} (hI : ftl_inv sp (some v) tag t)
    (hch : ch < sp.nchs) (hlun : lun < sp.luns_per_ch)
    (h : mark_block_free t (gc_ppa sp v fp ch lun) = some t2) :
    ftl_inv sp (some v) tag t2 ∧ blk_clean sp v ch lun t2 ∧
      ∀ c l, blk_clean sp v c l t → blk_clean sp v c l t2 := by
  unfold ftl_inv at hI
  obtain ⟨_, ⟨_g1, _g2, g3, g4, g5⟩, _, _⟩ := hgeo
  have hv6 : tag v = 6 := (hI.lm_ok.t_limbo v).mp rfl
  have hvn : v < sp.blks_per_pl := (hI.lm_ok.t_range v).mpr (by omega)
  obtain ⟨blk, b2, _hblk, hs, hfree, hv0, hi0, _he⟩ := mark_block_free_spec h
  rw [hI.sp_eq] at hfree
  have hp : gc_ppa sp v fp ch lun =
      { ch := ch, lun := lun, pl := 0, blk := v, pg := (fp * sp.pgs_per_flashpg) % 65536,
        rsv := 0 } := by
    unfold gc_ppa
    rw [Nat.mod_eq_of_lt (show ch < 256 by omega), Nat.mod_eq_of_lt (show lun < 256 by omega),
      Nat.mod_eq_of_lt (show v < 65536 by omega)]
  rw [hp] at hs
  have hc1 : blk_count sp b2 PG_VALID = 0 := blk_count_free hfree (by decide)
  have hc2 : blk_count sp b2 PG_INVALID = 0 := blk_count_free hfree (by decide)
  have hsame : t2.ssd.blk ch lun 0 v = b2 := by
    rw [hs]
    exact set_blk_same t.ssd _ b2
  have hother : ∀ c l pl b, ¬(c = ch ∧ l = lun ∧ pl = 0 ∧ b = v) →
      t2.ssd.blk c l pl b = t.ssd.blk c l pl b := by
    intro c l pl b hne
    rw [hs]
    exact set_blk_other t.ssd _ b2 c l pl b hne
  have hsp : t2.ssd.sp = sp := by rw [hs]; exact hI.sp_eq
  have hlm : t2.lm = t.lm := by rw [hs]
  have hwp : t2.wp = t.wp := by rw [hs]
  have hgw : t2.gc_wp = t.gc_wp := by rw [hs]
  have hopen : ∀ w, tag w.curline ≠ 6 → open_ok sp t w → open_ok sp t2 w := by
    intro w hw ⟨a, b, k, c, d, e, f⟩
    refine ⟨a, b, k, c, d, by rw [hlm]; exact e, ?_⟩
    intro j hj1 hj2
    rw [hother _ _ 0 w.blk (fun hh => hw (by rw [← b, hh.2.2.2]; exact hv6))]
    exact f j hj1 hj2
  refine ⟨?_, ⟨?_, ?_⟩, ?_⟩
  · unfold ftl_inv
    rw [hwp, hgw]
    refine ⟨hsp, by rw [hlm]; exact hI.lm_ok, ?_, ?_, ?_, ?_⟩
    · intro k hk hkv
      have hkv2 : k ≠ v := fun e => hkv (by rw [e])
      have h0 := hI.acct k hk hkv
      unfold line_acct at h0 ⊢
      rw [hlm, hs]
      have hne : (t.lm.lines k).id ≠
          ({ ch := ch, lun := lun, pl := 0, blk := v,
             pg := (fp * sp.pgs_per_flashpg) % 65536, rsv := 0 } : ppa).blk := by
        rw [hI.lm_ok.ids k]; exact hkv2
      show _ = line_count (set_blk t.ssd _ b2) _ _ ∧ _ = line_count (set_blk t.ssd _ b2) _ _
      rw [line_count_set_blk_other _ _ _ _ _ hne, line_count_set_blk_other _ _ _ _ _ hne]
      exact h0
    · intro c hc l hl pl hpl b hb
      rw [hsp] at hc hl hpl hb ⊢
      by_cases hcl : c = ch ∧ l = lun ∧ pl = 0 ∧ b = v
      · obtain ⟨q1, q2, q3, q4⟩ := hcl
        subst q1 q2 q3 q4
        rw [hsame, hc1, hc2]
        exact ⟨hv0, hi0⟩
      · rw [hother c l pl b hcl]
        have h6 := hI.bacct c (by rw [hI.sp_eq]; exact hc) l (by rw [hI.sp_eq]; exact hl) pl
          (by rw [hI.sp_eq]; exact hpl) b (by rw [hI.sp_eq]; exact hb)
        rw [hI.sp_eq] at h6
        exact h6
    · exact hopen _ (by
        have := (hI.lm_ok.t_user t.wp.curline).mp rfl
        omega) hI.this_open
    · exact hopen _ (by
        have := (hI.lm_ok.t_gc t.gc_wp.curline).mp rfl
        omega) hI.other_open
  · show blk_count sp (t2.ssd.blk ch lun 0 v) PG_VALID = 0
    rw [hsame]; exact hc1
  · show blk_count sp (t2.ssd.blk ch lun 0 v) PG_INVALID = 0
    rw [hsame]; exact hc2
  · intro c l hcl
    by_cases hq : c = ch ∧ l = lun
    · rw [hq.1, hq.2]
      unfold blk_clean
      rw [hsame]
      exact ⟨hc1, hc2⟩
    · unfold blk_clean at hcl ⊢
      rw [hother c l 0 v (fun hh => hq ⟨hh.1, hh.2.1⟩)]
      exact hcl

/-- `mark_line_free` at the end of the GC run on `v`, all blocks of `v` erased: the
invariant of the states between two operations holds again. -/
theorem ftl_inv_line_free {sp : ssdparams} (hgeo : ftl_geometry sp) {v : Nat}
    {tag : Nat → Nat} {s5 : conv_ftl} {p : ppa} (hI : ftl_inv sp (some v) tag s5)
    (hp : p.blk = v)
    (hclean : ∀ c l, c < sp.nchs → l < sp.luns_per_ch → blk_clean sp v c l s5) :
    ftl_inv sp none (Function.update tag v 1) (mark_line_free s5 p) := by
  unfold ftl_inv at hI
  obtain ⟨_, ⟨g1, _, _, _, _⟩, _, _⟩ := hgeo
  have hv6 : tag v = 6 := (hI.lm_ok.t_limbo v).mp rfl
  have hlm : (mark_line_free s5 p).lm =
      { s5.lm with lines := Function.update s5.lm.lines v { s5.lm.lines v with ipc := 0, vpc := 0 },
                   free_line_list := s5.lm.free_line_list ++ [v],
                   free_line_cnt := s5.lm.free_line_cnt + 1 } := by
    unfold mark_line_free get_line
    rw [hp]
  have hlines : (mark_line_free s5 p).lm.lines =
      Function.update s5.lm.lines v { s5.lm.lines v with ipc := 0, vpc := 0 } := by
    rw [hlm]
  have hssd : (mark_line_free s5 p).ssd = s5.ssd := rfl
  have hopen : ∀ w, tag w.curline ≠ 6 → open_ok sp s5 w →
      open_ok sp (mark_line_free s5 p) w := by
    intro w hw h
    have hne : w.curline ≠ v := fun e => hw (by rw [e]; exact hv6)
    exact open_ok_congr hssd (by rw [hlines, Function.update_noteq hne])
      (by rw [hlines, Function.update_noteq hne]) h
  unfold ftl_inv
  show ftl_core sp none (Function.update tag v 1) (mark_line_free s5 p) s5.wp s5.gc_wp
  refine ⟨hI.sp_eq, ?_, ?_, blks_acct_congr hssd hI.bacct, ?_, ?_⟩
  · rw [hlm]
    exact lm_inv_line_free hI.lm_ok
  · intro k hk _
    by_cases hkv : k = v
    · subst hkv
      unfold line_acct
      rw [hlines, hssd]
      simp only [Function.update_same]
      rw [hI.lm_ok.ids k]
      have z : ∀ st, st ≠ PG_FREE → line_count s5.ssd k st = 0 := by
        intro st hst
        apply line_count_clean (by rw [hI.sp_eq]; exact g1)
        intro c l hc hl
        rw [hI.sp_eq] at hc hl ⊢
        have := hclean c l hc hl
        cases st with
        | PG_FREE => exact absurd rfl hst
        | PG_INVALID => exact this.2
        | PG_VALID => exact this.1
      rw [z PG_VALID (by decide), z PG_INVALID (by decide)]
      exact ⟨rfl, rfl⟩
    · have h5 := hI.acct k hk (fun e => hkv (Option.some.inj e).symm)
      refine line_acct_congr hssd ?_ ?_ ?_ h5
      · rw [hlines, Function.update_noteq hkv]
      · rw [hlines, Function.update_noteq hkv]
      · rw [hlines, Function.update_noteq hkv]
  · exact hopen _ (by
      have := (hI.lm_ok.t_user s5.wp.curline).mp rfl
      omega) hI.this_open
  · exact hopen _ (by
      have := (hI.lm_ok.t_gc s5.gc_wp.curline).mp rfl
      omega) hI.other_open

/-- A complete `do_gc` in the Greedy mode keeps the invariant. -/
theorem ftl_inv_do_gc {sp : ssdparams} (hgeo : ftl_geometry sp) {tag : Nat → Nat}
    {s s2 : conv_ftl} {now r : Nat} {force : Bool} {rc : Int}
    (hI : ftl_inv sp none tag s) (h : do_gc s now r force = some (s2, rc)) :
    ∃ tag2, ftl_inv sp none tag2 s2 := by
  rcases do_gc_eq_some h with ⟨s1, hsel, e, _⟩ | ⟨s1, v, sg, s5, hsel, eg, hsw, e, _⟩
  · subst e
    rcases ftl_inv_select hI hsel with ⟨_, a⟩ | ⟨v, hv, _⟩
    · exact ⟨tag, a⟩
    · exact absurd hv (by simp)
  · rcases ftl_inv_select hI hsel with ⟨hv, _⟩ | ⟨v2, hv, a⟩
    · exact absurd hv (by simp)
    · have hvv : v2 = v := (Option.some.inj hv).symm
      subst hvv
      have hidv : (s1.lm.lines v2).id = v2 := by
        unfold ftl_inv at a
        exact a.lm_ok.ids v2
      rw [hidv] at hsw e
      have h0 : ftl_inv sp (some v2) (Function.update tag v2 6)
          { sg with gc_count := sg.gc_count + 1,
                    wfc := { sg.wfc with credits_to_refill := (s1.lm.lines v2).ipc } } := by
        refine ftl_inv_congr (s := s1) ?_ ?_ ?_ ?_ a
        · show sg.ssd = _
          rw [eg]
        · show sg.lm = _
          rw [eg]
        · show sg.wp = _
          rw [eg]
        · show sg.gc_wp = _
          rw [eg]
      have hsp5 : ∀ t, (∃ tg, ftl_inv sp (some v2) tg t) → t.ssd.sp = sp := by
        rintro t ⟨tg, ht⟩
        unfold ftl_inv at ht
        exact ht.sp_eq
      have key := do_gc_sweep_rule sp v2 (fun t => ∃ tg, ftl_inv sp (some v2) tg t)
        (blk_clean sp v2) hgeo.2.1.2.1 hsp5
        (fun t t' old hJ _ _ _ hg => by
          obtain ⟨tg, ht⟩ := hJ
          obtain ⟨a1, b1⟩ := ftl_inv_gc_write_page hgeo ht hg
          refine ⟨a1, ?_⟩
          intro c l hcl
          unfold blk_clean at hcl ⊢
          rw [b1 c l 0]
          exact hcl)
        (fun t t' fp ch lun hJ hch hlun hm => by
          obtain ⟨tg, ht⟩ := hJ
          obtain ⟨a1, b1, c1⟩ := ftl_inv_block_free hgeo ht hch hlun hm
          exact ⟨⟨tg, a1⟩, b1, c1⟩)
        _ s5 ⟨_, h0⟩ hsw
      obtain ⟨⟨tg, h5⟩, hclean⟩ := key
      have hvn : v2 < sp.blks_per_pl := by
        unfold ftl_inv at h5
        have hv6 := (h5.lm_ok.t_limbo v2).mp rfl
        exact (h5.lm_ok.t_range v2).mpr (by omega)
      have hpb : (gc_ppa s5.ssd.sp v2 (s5.ssd.sp.flashpgs_per_blk - 1) (s5.ssd.sp.nchs - 1)
          (s5.ssd.sp.luns_per_ch - 1)).blk = v2 := by
        show v2 % 65536 = v2
        exact Nat.mod_eq_of_lt (by have := hgeo.2.1.2.2.2.2; omega)
      rw [e]
      exact ⟨_, ftl_inv_line_free hgeo h5 hpb hclean⟩

/-! ## The invariant of the reachable states -/

/-- A page write (`conv_write_map`) keeps the invariant. -/
theorem ftl_inv_conv_write_map {sp : ssdparams} (hgeo : ftl_geometry sp) {tag : Nat → Nat}
    {s s2 : conv_ftl} {now L : Nat} {p : ppa} (hI : ftl_inv sp none tag s)
    (h : conv_write_map s now L = some (s2, p)) :
    ∃ tag2, ftl_inv sp none tag2 s2 := by
  obtain ⟨s1, sa, sb, s4, h1, h2, h3, h4, h5, h6⟩ := conv_write_map_spec h
  have hI1 : ∃ tag1, ftl_inv sp none tag1 s1 := by
    rcases conv_write_invalidate_spec h1 with ⟨_, e⟩ | ⟨_, a, ha, hr⟩
    · rw [e]; exact ⟨tag, hI⟩
    · obtain ⟨tag1, hIa⟩ := ftl_inv_invalid hgeo hI (by simp) ha
      obtain ⟨_, er⟩ := set_rmap_ent_spec hr
      refine ⟨tag1, ftl_inv_congr (s := a) ?_ ?_ ?_ ?_ hIa⟩ <;> rw [er]
  obtain ⟨tag1, hI1⟩ := hI1
  obtain ⟨_, e3⟩ := set_maptbl_ent_spec h3
  obtain ⟨_, e4⟩ := set_rmap_ent_spec h4
  have hA : sb.ssd = s1.ssd ∧ sb.lm = s1.lm ∧ sb.wp = s1.wp ∧ sb.gc_wp = s1.gc_wp := by
    rw [e4, e3]
    exact ⟨rfl, rfl, rfl, rfl⟩
  exact ftl_inv_write_user hgeo hI1 h2 hA h5 ⟨rfl, rfl, rfl, rfl⟩ h6

/-- The state built by `conv_init_ftl` on a fresh device in the Greedy mode satisfies the
invariant. -/
theorem ftl_inv_init {cpp : convparams} {spp : ssdparams} {gc_mode : Nat} {dbg : Bool}
    {d0 : Nat → Option Nat} {s : conv_ftl} (hgeo : ftl_geometry spp)
    (hmode : gc_mode ≠ 1 ∧ gc_mode ≠ 2)
    (h : conv_init_ftl cpp (ssd_init spp) gc_mode dbg d0 = some s) :
    ∃ tag, ftl_inv spp none tag s := by
  obtain ⟨lm, c1, c2, rest, hlm, hfl, hssd, _, _, hwp, hgw, hl⟩ := conv_init_ftl_eq_some h
  obtain ⟨_, i2, i3, i4, i5, i6, i7, i8, i9, i10, _, i12⟩ := init_lines_eq_some hlm
  obtain ⟨hacct, _, _⟩ := conv_init_ftl_acct h
  obtain ⟨hsg, _, hpb, _⟩ := hgeo
  obtain ⟨_, hC, hU, _, hline⟩ := hsg
  have hpl : 0 < spp.pgs_per_line := by
    rw [hline]
    exact Nat.mul_pos (Nat.mul_pos hU hC) hpb
  have hrange : List.range spp.blks_per_pl = c1 :: c2 :: rest := by rw [← i3]; exact hfl
  have hnd : (c1 :: c2 :: rest).Nodup := by rw [← hrange]; exact List.nodup_range _
  have hmemr : ∀ k, k ∈ c1 :: c2 :: rest ↔ k < spp.blks_per_pl := by
    intro k; rw [← hrange]; exact List.mem_range
  have hlen : spp.blks_per_pl = rest.length + 2 := by
    have := congrArg List.length hrange
    rw [List.length_range] at this
    simpa using this
  have hc12 : c1 ≠ c2 := by
    intro e
    have := (List.nodup_cons.mp hnd).1
    rw [e] at this
    exact this (List.mem_cons_self _ _)
  have hc1r : c1 ∉ rest := fun hm =>
    (List.nodup_cons.mp hnd).1 (List.mem_cons_of_mem _ hm)
  have hc2r : c2 ∉ rest := (List.nodup_cons.mp (List.nodup_cons.mp hnd).2).1
  have hlines : s.lm.lines =
      (fun i => { id := i, ipc := 0, vpc := 0, pos := 0, last_modified_time := 0 }) := by
    rw [hl]; exact i2
  have hsize : s.lm.victim_line_pq.size = 1 := by rw [hl]; exact i9
  have hnomem : ∀ k, ¬ pq_member s.lm k := by
    rintro k ⟨i, hi1, hi2, _⟩
    rw [hsize] at hi2
    omega
  have hfree : s.lm.free_line_list = rest := by rw [hl]
  have hid1 : (lm.lines c1).id = c1 := by rw [i2]
  have hid2 : (lm.lines c2).id = c2 := by rw [i2]
  rw [hid1] at hwp
  rw [hid2] at hgw
  have hopen : ∀ c, open_ok spp s
      { curline := c, ch := 0, lun := 0, pg := 0, blk := c, pl := 0 } := by
    intro c
    refine ⟨rfl, rfl, 0, hpl, stripe_pos_zero spp _ rfl rfl rfl, ?_, ?_⟩
    · rw [hlines]
      exact rfl
    · intro j _ _
      rw [hssd]
      rfl
  refine ⟨fun k => if k = c1 then 4 else if k = c2 then 5 else if k ∈ rest then 1 else 0, ?_⟩
  unfold ftl_inv
  rw [hwp, hgw]
  refine ⟨by rw [hssd]; rfl, ?_, ?_, hacct.2, hopen c1, hopen c2⟩
  · exact
    { hooks := by rw [hl]; exact i10
      mode := by
        have : lm.select_victim = GC_MODE_GREEDY := i12.mpr ⟨hmode.2, hmode.1⟩
        rw [hl]; exact this
      ids := by intro k; rw [hlines]
      tt := by rw [hl]; exact i5
      size_pos := by rw [hsize]
      handles := by
        intro i hi1 hi2
        rw [hsize] at hi2
        omega
      pos0 := by intro k _; rw [hlines]
      free_nodup := by
        rw [hfree]
        exact (List.nodup_cons.mp (List.nodup_cons.mp hnd).2).2
      full_nodup := by
        have : s.lm.full_line_list = [] := by rw [hl]; exact i4
        rw [this]
        exact List.nodup_nil
      t_free := by
        intro k
        rw [hfree]
        show k ∈ rest ↔ (if k = c1 then 4 else if k = c2 then 5 else if k ∈ rest then 1 else 0) = 1
        constructor
        · intro hk
          have h1 : k ≠ c1 := fun e => hc1r (e ▸ hk)
          have h2 : k ≠ c2 := fun e => hc2r (e ▸ hk)
          rw [if_neg h1, if_neg h2, if_pos hk]
        · intro hk
          split_ifs at hk <;> first | assumption | omega
      t_full := by
        intro k
        have : s.lm.full_line_list = [] := by rw [hl]; exact i4
        rw [this]
        show k ∈ [] ↔ (if k = c1 then 4 else if k = c2 then 5 else if k ∈ rest then 1 else 0) = 2
        constructor
        · intro hk; exact absurd hk (List.not_mem_nil _)
        · intro hk
          split_ifs at hk <;> omega
      t_heap := by
        intro k
        show _ ↔ (if k = c1 then 4 else if k = c2 then 5 else if k ∈ rest then 1 else 0) = 3
        constructor
        · intro hk; exact absurd hk (hnomem k)
        · intro hk
          split_ifs at hk <;> omega
      t_user := by
        intro k
        show k = c1 ↔ (if k = c1 then 4 else if k = c2 then 5 else if k ∈ rest then 1 else 0) = 4
        constructor
        · intro hk; rw [if_pos hk]
        · intro hk
          split_ifs at hk <;> first | assumption | omega
      t_gc := by
        intro k
        show k = c2 ↔ (if k = c1 then 4 else if k = c2 then 5 else if k ∈ rest then 1 else 0) = 5
        constructor
        · intro hk
          have h1 : k ≠ c1 := fun e => hc12 (e.symm.trans hk)
          rw [if_neg h1, if_pos hk]
        · intro hk
          split_ifs at hk <;> first | assumption | omega
      t_limbo := by
        intro k
        show none = some k ↔
          (if k = c1 then 4 else if k = c2 then 5 else if k ∈ rest then 1 else 0) = 6
        constructor
        · intro hk; exact absurd hk (by simp)
        · intro hk
          split_ifs at hk <;> omega
      t_range := by
        intro k
        rw [← hmemr k]
        show _ ↔ (1 ≤ (if k = c1 then 4 else if k = c2 then 5 else if k ∈ rest then 1 else 0) ∧
          (if k = c1 then 4 else if k = c2 then 5 else if k ∈ rest then 1 else 0) ≤ 6)
        simp only [List.mem_cons]
        split_ifs with a b c
        · exact ⟨fun _ => by omega, fun _ => Or.inl a⟩
        · exact ⟨fun _ => by omega, fun _ => Or.inr (Or.inl b)⟩
        · exact ⟨fun _ => by omega, fun _ => Or.inr (Or.inr c)⟩
        · constructor
          · rintro (hk | hk | hk)
            · exact absurd hk a
            · exact absurd hk b
            · exact absurd hk c
          · intro hk; omega
      c_free := by
        rw [hfree]
        have : s.lm.free_line_cnt = dec_u32 (dec_u32 lm.free_line_cnt) := by rw [hl]
        have hd : dec_u32 (dec_u32 spp.blks_per_pl) = rest.length := by
          rw [hlen, dec_u32_pos (show 1 ≤ rest.length + 2 by omega),
            dec_u32_pos (show 1 ≤ rest.length + 2 - 1 by omega)]
          omega
        rw [this, i6, hd]
      c_full := by
        have a : s.lm.full_line_list = [] := by rw [hl]; exact i4
        have b : s.lm.full_line_cnt = 0 := by rw [hl]; exact i8
        rw [a, b]
        rfl
      c_heap := by
        have b : s.lm.victim_line_cnt = 0 := by rw [hl]; exact i7
        rw [b, hsize]
      c_sum := by
        have a : s.lm.full_line_list = [] := by rw [hl]; exact i4
        rw [hfree, a, hsize, hlen]
        rfl
      free_zero := by
        intro k _
        rw [hlines]
        exact ⟨rfl, rfl⟩
      heap_lt := fun k hk => absurd hk (hnomem k) }
  · intro k hk _
    have htt : s.lm.tt_lines = spp.blks_per_pl := by rw [hl]; exact i5
    exact hacct.1 k (by rw [htt]; exact hk)

theorem ftl_inv_foreground_gc {sp : ssdparams} (hgeo : ftl_geometry sp) {tag : Nat → Nat}
    {s s1 : conv_ftl} {now r : Nat} (hI : ftl_inv sp none tag s)
    (hf : foreground_gc s now r = some s1) : ∃ tag1, ftl_inv sp none tag1 s1 := by
  unfold foreground_gc at hf
  split_ifs at hf with hg
  · cases hd : do_gc s now r true with
    | none => simp [hd] at hf
    | some r1 =>
      obtain ⟨sa, rc⟩ := r1
      simp only [hd, Option.some.injEq] at hf
      rw [← hf]
      exact ftl_inv_do_gc hgeo hI hd
  · rw [← Option.some.inj hf]
    exact ⟨tag, hI⟩

theorem ftl_inv_refill {sp : ssdparams} (hgeo : ftl_geometry sp) {tag : Nat → Nat}
    {s s2 : conv_ftl} {now r : Nat} (hI : ftl_inv sp none tag s)
    (h : check_and_refill_write_credit s now r = some s2) :
    ∃ tag2, ftl_inv sp none tag2 s2 := by
  unfold check_and_refill_write_credit at h
  split_ifs at h with hc
  · cases hf : foreground_gc s now r with
    | none => simp [hf] at h
    | some s1 =>
      simp only [hf, Option.some.injEq] at h
      obtain ⟨tag1, hI1⟩ := ftl_inv_foreground_gc hgeo hI hf
      rw [← h]
      exact ⟨tag1, ftl_inv_congr (s := s1) rfl rfl rfl rfl hI1⟩
  · rw [← Option.some.inj h]
    exact ⟨tag, hI⟩

/-- Every reachable state of the Greedy mode satisfies the invariant. -/
theorem reachable_inv {cpp : convparams} {spp : ssdparams} {gc_mode : Nat} {dbg : Bool}
    {d0 : Nat → Option Nat} {s : conv_ftl} (hgeo : ftl_geometry spp)
    (hmode : gc_mode ≠ 1 ∧ gc_mode ≠ 2) (hr : reachable cpp spp gc_mode dbg d0 s) :
    ∃ tag, ftl_inv spp none tag s := by
  induction hr with
  | init h => exact ftl_inv_init hgeo hmode h
  | write _ h ih =>
    obtain ⟨tag, hI⟩ := ih
    exact ftl_inv_conv_write_map hgeo hI h
  | gc _ h ih =>
    obtain ⟨tag, hI⟩ := ih
    exact ftl_inv_do_gc hgeo hI h
  | credit _ ih =>
    obtain ⟨tag, hI⟩ := ih
    exact ⟨tag, ftl_inv_congr (by rfl) (by rfl) (by rfl) (by rfl) hI⟩
  | refill _ h ih =>
    obtain ⟨tag, hI⟩ := ih
    exact ftl_inv_refill hgeo hI h

/-! ## State partitioning (P5) -/

theorem count_upto_unique {f : Nat → Bool} {i0 : Nat} (h0 : f i0 = true) :
    ∀ n, i0 < n → (∀ i, i < n → f i = true → i = i0) → count_upto f n = 1 := by
  intro n
  induction n with
  | zero => intro h; omega
  | succ n ih =>
    intro hlt huniq
    show count_upto f n + (if f n then 1 else 0) = 1
    by_cases hn : i0 = n
    · subst hn
      have hz : count_upto f i0 = 0 := by
        apply count_upto_zero
        intro i hi
        cases hfi : f i with
        | false => rfl
        | true =>
          have := huniq i (by omega) hfi
          omega
      rw [hz, h0]
      rfl
    · have hfn : f n = false := by
        cases hfn : f n with
        | false => rfl
        | true =>
          have := huniq n (by omega) hfn
          omega
      rw [ih (by omega) (fun i hi hf => huniq i (by omega) hf), hfn]
      rfl

/-- A state that satisfies the invariant (no GC run in progress) holds every line of the
device in exactly one container and no other line in any. -/
theorem ftl_inv_places {sp : ssdparams} {tag : Nat → Nat} {s : conv_ftl}
    (hI : ftl_inv sp none tag s) (k : Nat) :
    line_places s k = if k < sp.blks_per_pl then 1 else 0 := by
  have hL := hI.lm_ok
  have h6 : tag k ≠ 6 := by
    intro h
    have := (hL.t_limbo k).mpr h
    simp at this
  have hfree : s.lm.free_line_list.count k = if tag k = 1 then 1 else 0 := by
    split_ifs with h
    · exact List.count_eq_one_of_mem hL.free_nodup ((hL.t_free k).mpr h)
    · exact List.count_eq_zero_of_not_mem (fun hm => h ((hL.t_free k).mp hm))
  have hfull : s.lm.full_line_list.count k = if tag k = 2 then 1 else 0 := by
    split_ifs with h
    · exact List.count_eq_one_of_mem hL.full_nodup ((hL.t_full k).mpr h)
    · exact List.count_eq_zero_of_not_mem (fun hm => h ((hL.t_full k).mp hm))
  have hheap : count_upto (fun i => decide (1 ≤ i ∧ s.lm.victim_line_pq.d i = some k))
      s.lm.victim_line_pq.size = if tag k = 3 then 1 else 0 := by
    split_ifs with h
    · obtain ⟨i0, hi1, hi2, hi3⟩ := (hL.t_heap k).mpr h
      apply @count_upto_unique _ i0 (by simp [hi1, hi3]) _ hi2
      intro i hi hf
      simp only [decide_eq_true_eq] at hf
      exact pq_handles_inj hL.handles ⟨hf.1, hi⟩ ⟨hi1, hi2⟩ hf.2 hi3
    · apply count_upto_zero
      intro i hi
      simp only [decide_eq_false_iff_not]
      intro hf
      exact h ((hL.t_heap k).mp ⟨i, hf.1, hi, hf.2⟩)
  have huser : (if s.wp.curline = k then 1 else 0) = if tag k = 4 then 1 else 0 := by
    by_cases h : tag k = 4
    · rw [if_pos h, if_pos ((hL.t_user k).mpr h).symm]
    · rw [if_neg h, if_neg (fun e => h ((hL.t_user k).mp e.symm))]
  have hgc : (if s.gc_wp.curline = k then 1 else 0) = if tag k = 5 then 1 else 0 := by
    by_cases h : tag k = 5
    · rw [if_pos h, if_pos ((hL.t_gc k).mpr h).symm]
    · rw [if_neg h, if_neg (fun e => h ((hL.t_gc k).mp e.symm))]
  have hr := hL.t_range k
  unfold line_places
  rw [hfree, hfull, hheap, huser, hgc]
  by_cases hk : k < sp.blks_per_pl
  · rw [if_pos hk]
    have := hr.mp hk
    split_ifs <;> omega
  · rw [if_neg hk]
    have : ¬(1 ≤ tag k ∧ tag k ≤ 6) := fun h => hk (hr.mpr h)
    split_ifs <;> omega

theorem getD_of_isSome {α : Type} {o : Option α} (d : α) (h : o.isSome = true) :
    o = some (o.getD d) := by
  cases o with
  | none => simp at h
  | some a => rfl

/-- The state `one_victim_state` is reached from `conv_init_ftl` (six lines, Greedy) by two
page writes, each followed by the consumption of a write credit. -/
theorem reachable_one_victim :
    reachable conv_params (tiny_params 6) 0 false (fun _ => none) one_victim_state := by
  have hs : credits_spent_state.isSome = true := by decide
  unfold one_victim_state
  cases h0 : tiny_ftl 6 0 with
  | none => simp [credits_spent_state, h0] at hs
  | some s =>
    cases h1 : conv_write_map s 5 0 with
    | none => simp [credits_spent_state, h0, h1] at hs
    | some a =>
      obtain ⟨sa, pa⟩ := a
      cases h2 : conv_write_map (consume_write_credit sa) 6 0 with
      | none => simp [credits_spent_state, h0, h1, h2] at hs
      | some b =>
        obtain ⟨sb, pb⟩ := b
        have he : credits_spent_state.getD blank_ftl = consume_write_credit sb := by
          simp [credits_spent_state, h0, h1, h2]
        rw [he]
        exact reachable.credit (reachable.write (reachable.credit
          (reachable.write (reachable.init h0) h1)) h2)

/-- C16: state partitioning (P5). In every state reachable from `conv_init_ftl` by page
writes and complete GC runs in the Greedy mode (`gc_mode` other than 1 and 2), every line of
the device is in exactly one of the free-line list, the full-line list, the victim heap, the
open line of the user cursor and the open line of the GC cursor (`line_places` counts the
places that hold it), and no other line number is in any of them; the two cursors are on
distinct lines, the three counters are the sizes of their containers, and
`free_line_cnt + full_line_cnt + victim_line_cnt + 2 = tt_lines`. -/
theorem line_partition (cpp : convparams) (spp : ssdparams) (gc_mode : Nat) (dbg : Bool)
    (d0 : Nat → Option Nat) (s : conv_ftl) (hgeo : ftl_geometry spp)
    (hmode : gc_mode ≠ 1 ∧ gc_mode ≠ 2) (hr : reachable cpp spp gc_mode dbg d0 s) :
    (∀ k, line_places s k = if k < s.lm.tt_lines then 1 else 0) ∧
    s.wp.curline ≠ s.gc_wp.curline ∧
    s.lm.free_line_cnt = s.lm.free_line_list.length ∧
    s.lm.full_line_cnt = s.lm.full_line_list.length ∧
    s.lm.victim_line_cnt = pqueue_size s.lm.victim_line_pq ∧
    s.lm.free_line_cnt + s.lm.full_line_cnt + s.lm.victim_line_cnt + 2 = s.lm.tt_lines := by
  obtain ⟨tag, hI⟩ := reachable_inv hgeo hmode hr
  have hL := hI.lm_ok
  refine ⟨?_, ?_, hL.c_free, hL.c_full, hL.c_heap, ?_⟩
  · intro k
    rw [hL.tt]
    exact ftl_inv_places hI k
  · intro e
    have h4 := (hL.t_user s.wp.curline).mp rfl
    have h5 := (hL.t_gc s.wp.curline).mp e
    omega
  · have hs := hL.c_sum
    have e0 : (if (none : Option Nat).isSome then 1 else 0) = 0 := rfl
    rw [e0] at hs
    rw [hL.c_free, hL.c_full, hL.c_heap, hL.tt]
    omega

/-- C16, witness: `one_victim_state` (six lines, Greedy, LPN 0 written twice) is reachable;
its lines 1 and 2 are open, line 0 is in the victim heap and lines 3, 4, 5 are free. -/
theorem line_partition_witness :
    ftl_geometry (tiny_params 6) ∧
    reachable conv_params (tiny_params 6) 0 false (fun _ => none) one_victim_state ∧
    (∀ k, line_places one_victim_state k = if k < one_victim_state.lm.tt_lines then 1 else 0) ∧
    one_victim_state.wp.curline ≠ one_victim_state.gc_wp.curline ∧
    one_victim_state.lm.free_line_cnt = one_victim_state.lm.free_line_list.length ∧
    one_victim_state.lm.full_line_cnt = one_victim_state.lm.full_line_list.length ∧
    one_victim_state.lm.victim_line_cnt = pqueue_size one_victim_state.lm.victim_line_pq ∧
    one_victim_state.lm.free_line_cnt + one_victim_state.lm.full_line_cnt +
      one_victim_state.lm.victim_line_cnt + 2 = one_victim_state.lm.tt_lines :=
  ⟨by decide, reachable_one_victim,
    line_partition conv_params (tiny_params 6) 0 false (fun _ => none) one_victim_state
      (by decide) (by decide) reachable_one_victim⟩

/-! ## The invariant of every GC mode: the page write at a cursor -/

theorem open_free_congr {sp : ssdparams} {s t : conv_ftl} {w : write_pointer}
    (hssd : t.ssd = s.ssd) (h : open_free sp s w) : open_free sp t w := by
  obtain ⟨a, b, c, k, hk, d, f⟩ := h
  refine ⟨a, b, c, k, hk, d, ?_⟩
  intro j hj1 hj2
  rw [hssd]
  exact f j hj1 hj2

theorem line_free_congr {sp : ssdparams} {s t : conv_ftl} {k : Nat}
    (hssd : t.ssd = s.ssd) (h : line_free sp s k) : line_free sp t k := by
  intro c hc l hl pg hpg
  rw [hssd]
  exact h c hc l hl pg hpg

theorem open_free_bounds {sp : ssdparams} (hg : stripe_geometry sp) {s : conv_ftl}
    {w : write_pointer} (h : open_free sp s w) :
    w.ch < sp.nchs ∧ w.lun < sp.luns_per_ch ∧ w.pg < sp.pgs_per_blk ∧
    ((s.ssd.blk w.ch w.lun 0 w.blk).pg w.pg).status = PG_FREE := by
  obtain ⟨_, _, _, k, c, d, f⟩ := h
  have hb := stripe_pos_bounds hg w c
  have hf := f k (le_refl _) c
  rw [d] at hb hf
  exact ⟨hb.1, hb.2.1, hb.2.2, hf⟩

theorem wf_core_swap {sp : ssdparams} {limbo : Option Nat} {s : conv_ftl}
    {w o : write_pointer} (h : wf_core sp limbo s w o) : wf_core sp limbo s o w :=
  { sp_eq := h.sp_eq, hooks := h.hooks, ids := h.ids, tt := h.tt, acct := h.acct,
    bacct := h.bacct, free_nodup := h.free_nodup, free_lt := h.free_lt,
    free_pages := h.free_pages, this_free := h.other_free, other_free := h.this_free,
    distinct := fun e => h.distinct e.symm, this_open := h.other_open,
    other_open := h.this_open }

theorem wf_core_congr {sp : ssdparams} {limbo : Option Nat} {s t : conv_ftl}
    {w o : write_pointer} (hssd : t.ssd = s.ssd) (hlm : t.lm = s.lm)
    (h : wf_core sp limbo s w o) : wf_core sp limbo t w o :=
  { sp_eq := by rw [hssd]; exact h.sp_eq
    hooks := by rw [hlm]; exact h.hooks
    ids := by rw [hlm]; exact h.ids
    tt := by rw [hlm]; exact h.tt
    acct := fun k hk hl =>
      line_acct_congr hssd (by rw [hlm]) (by rw [hlm]) (by rw [hlm]) (h.acct k hk hl)
    bacct := blks_acct_congr hssd h.bacct
    free_nodup := by rw [hlm]; exact h.free_nodup
    free_lt := by rw [hlm]; exact h.free_lt
    free_pages := fun k hk => line_free_congr hssd (h.free_pages k (by rw [← hlm]; exact hk))
    this_free := by rw [hlm]; exact h.this_free
    other_free := by rw [hlm]; exact h.other_free
    distinct := h.distinct
    this_open := open_free_congr hssd h.this_open
    other_open := open_free_congr hssd h.other_open }

theorem wf_inv_congr {sp : ssdparams} {limbo : Option Nat} {s t : conv_ftl}
    (hssd : t.ssd = s.ssd) (hlm : t.lm = s.lm) (hwp : t.wp = s.wp)
    (hgc : t.gc_wp = s.gc_wp) (h : wf_inv sp limbo s) : wf_inv sp limbo t := by
  unfold wf_inv at h ⊢
  rw [hwp, hgc]
  exact wf_core_congr hssd hlm h

/-- The page a cursor of a well-formed state supplies. -/
theorem wf_cursor_page {sp : ssdparams} (hgeo : ftl_geometry sp) {limbo : Option Nat}
    {s : conv_ftl} {w o : write_pointer} {io : Nat} {p : ppa}
    (hI : wf_core sp limbo s w o) (hw : __get_wp s io = some w)
    (hp : get_new_page s io = some p) :
    p = { ch := w.ch, lun := w.lun, pg := w.pg, blk := w.curline, pl := 0, rsv := 0 } := by
  obtain ⟨hsg, ⟨_, _, g3, g4, g5⟩, _, g7⟩ := hgeo
  obtain ⟨w2, hw2, hpe⟩ := get_new_page_eq_some hp
  rw [hw] at hw2
  have : w2 = w := (Option.some.inj hw2).symm
  subst this
  obtain ⟨b1, b2, b3, _⟩ := open_free_bounds hsg hI.this_open
  have hxn := hI.this_open.2.2.1
  rw [hpe, hI.this_open.2.1, hI.this_open.1,
    Nat.mod_eq_of_lt (show w2.ch < 256 by omega), Nat.mod_eq_of_lt (show w2.lun < 256 by omega),
    Nat.mod_eq_of_lt (show w2.pg < 65536 by omega),
    Nat.mod_eq_of_lt (show w2.curline < 65536 by omega)]

/-- The page write at the cursor `w` of a well-formed state (`mark_page_valid` on the page of
the cursor, then `advance_write_pointer`): the state is well formed again, only the page of
the cursor changed its status, the free-line list lost at most its head, and the cursor moved
to the next position of its line or to the former head of the free-line list. -/
theorem wf_write {sp : ssdparams} (hgeo : ftl_geometry sp) {limbo : Option Nat}
    {s s2 s3 s3b s4 : conv_ftl} {w o : write_pointer} {io io2 : Nat} {p : ppa}
    (hio : (io = USER_IO ∧ io2 = GC_IO) ∨ (io = GC_IO ∧ io2 = USER_IO))
    (hI : wf_core sp limbo s w o)
    (hp : p = { ch := w.ch, lun := w.lun, pg := w.pg, blk := w.curline, pl := 0, rsv := 0 })
    (h2 : s2.ssd = s.ssd ∧ s2.lm = s.lm)
    (hmv : mark_page_valid s2 p = some s3)
    (h3 : s3b.ssd = s3.ssd ∧ s3b.lm = s3.lm)
    (hw : __get_wp s3b io = some w) (ho : __get_wp s3b io2 = some o)
    (hadv : advance_write_pointer s3b io = some s4) :
    ∃ w2, __get_wp s4 io = some w2 ∧ __get_wp s4 io2 = some o ∧ wf_core sp limbo s4 w2 o ∧
      (∀ c l b g, ((s4.ssd.blk c l 0 b).pg g).status =
        if c = w.ch ∧ l = w.lun ∧ b = w.curline ∧ g = w.pg then PG_VALID
        else ((s.ssd.blk c l 0 b).pg g).status) ∧
      (∀ x, x ∈ s4.lm.free_line_list → x ∈ s.lm.free_line_list) ∧
      ((∃ k, k + 1 < sp.pgs_per_line ∧ stripe_pos sp w k = w ∧
          w2 = stripe_pos sp w (k + 1)) ∨ w2.curline ∈ s.lm.free_line_list) := by
  obtain ⟨hsg, ⟨g1, _, _, _, _⟩, _, _⟩ := hgeo
  have hio1 : io = USER_IO ∨ io = GC_IO := hio.imp (fun a => a.1) (fun a => a.1)
  obtain ⟨blk, b2, hblk, hpg, _hfree, hb2, hssd, hlines, hs3⟩ := mark_page_valid_eq_some hmv
  obtain ⟨macct, mblk⟩ := mark_page_valid_acct hmv
  rw [h2.1] at hblk hssd
  rw [h2.2] at hlines
  have hpb : p.blk = w.curline := by rw [hp]
  rw [hpb] at hlines
  have hbe := (get_blk_eq_some hblk).2
  have hox : o.curline ≠ w.curline := fun e => hI.distinct e.symm
  have hlm3 : s3.lm = { s.lm with lines := s3.lm.lines } := by
    rw [hs3, h2.2]
  have hst : ∀ c l b g, ((s3.ssd.blk c l 0 b).pg g).status =
      if c = w.ch ∧ l = w.lun ∧ b = w.curline ∧ g = w.pg then PG_VALID
      else ((s.ssd.blk c l 0 b).pg g).status := by
    intro c l b g
    rw [hssd, set_blk_pg_status s.ssd p blk b2 PG_VALID hbe hb2 c l 0 b g, hp]
    simp only [true_and]
  have hsp3 : s3.ssd.sp = sp := by rw [hssd]; exact hI.sp_eq
  have hsp3b : s3b.ssd.sp = sp := by rw [h3.1]; exact hsp3
  have hfl3 : s3.lm.free_line_list = s.lm.free_line_list := by rw [hlm3]
  have hid3 : ∀ j, (s3.lm.lines j).id = (s.lm.lines j).id := by
    intro j
    rw [hlines]
    by_cases hj : j = w.curline
    · subst hj; simp
    · rw [Function.update_noteq hj]
  have hids3 : line_ids s3.lm := fun j => by rw [hid3 j]; exact hI.ids j
  have hk3 : line_hooks s3.lm.victim_line_pq := by rw [hlm3]; exact hI.hooks
  have hacct3 : ∀ j, j < sp.blks_per_pl → limbo ≠ some j → line_acct s3 j := by
    intro j hj hl
    have h0 : line_acct s j := hI.acct j hj hl
    have h1 : line_acct s2 j :=
      line_acct_congr h2.1 (by rw [h2.2]) (by rw [h2.2]) (by rw [h2.2]) h0
    exact macct j (by rw [h2.2]; exact hI.ids j) h1
  have hbacct3 : blks_acct s3 := mblk (blks_acct_congr h2.1 hI.bacct)
  have hfp3 : ∀ j, j ∈ s.lm.free_line_list → line_free sp s3 j := by
    intro j hj c hc l hl g hg
    rw [hst]
    have hne : ¬(c = w.ch ∧ l = w.lun ∧ j = w.curline ∧ g = w.pg) := fun hh =>
      hI.this_free (hh.2.2.1 ▸ hj)
    rw [if_neg hne]
    exact hI.free_pages j hj c hc l hl g hg
  have hoo3 : open_free sp s3 o := by
    obtain ⟨a, b, c0, k, c, d, f⟩ := hI.other_open
    refine ⟨a, b, c0, k, c, d, ?_⟩
    intro j hj1 hj2
    rw [hst, b]
    have hne : ¬((stripe_pos sp o j).ch = w.ch ∧ (stripe_pos sp o j).lun = w.lun ∧
        o.curline = w.curline ∧ (stripe_pos sp o j).pg = w.pg) := fun hh => hox hh.2.2.1
    rw [if_neg hne, ← b]
    exact f j hj1 hj2
  obtain ⟨a, b, c0, k, c, d, f⟩ := hI.this_open
  have hahead : ∀ j, k < j → j < sp.pgs_per_line →
      ((s3.ssd.blk (stripe_pos sp w j).ch (stripe_pos sp w j).lun 0 w.blk).pg
        (stripe_pos sp w j).pg).status = PG_FREE := by
    intro j hj1 hj2
    rw [hst, b]
    have hne : ¬((stripe_pos sp w j).ch = w.ch ∧ (stripe_pos sp w j).lun = w.lun ∧
        w.curline = w.curline ∧ (stripe_pos sp w j).pg = w.pg) := by
      intro hh
      have e1 : (stripe_pos sp w j).pg = (stripe_pos sp w k).pg := by rw [d]; exact hh.2.2.2
      have e2 : (stripe_pos sp w j).ch = (stripe_pos sp w k).ch := by rw [d]; exact hh.1
      have e3 : (stripe_pos sp w j).lun = (stripe_pos sp w k).lun := by rw [d]; exact hh.2.1
      have := stripe_pos_inj hsg w w e1 e2 e3
      omega
    rw [if_neg hne, ← b]
    exact f j (by omega) hj2
  by_cases hk : k + 1 < sp.pgs_per_line
  · -- the cursor stays in its line
    have hstep := advance_write_pointer_stripe s3b io w (by rw [hsp3b]; exact hsg) hio1 k
      (by rw [hsp3b]; exact hk)
    rw [hsp3b, d, set_wp_self hw, hadv] at hstep
    have hs4 : s4 = set_wp s3b io (stripe_pos sp w (k + 1)) := Option.some.inj hstep
    obtain ⟨q1, _, _, q4⟩ := set_wp_fields s3b io (stripe_pos sp w (k + 1))
    have hssd4 : s4.ssd = s3.ssd := by rw [hs4, q1]; exact h3.1
    have hlm4 : s4.lm = s3.lm := by rw [hs4, q4]; exact h3.2
    refine ⟨stripe_pos sp w (k + 1), ?_, ?_, ?_, ?_, ?_, Or.inl ⟨k, hk, d, rfl⟩⟩
    · rw [hs4]; exact get_wp_set_wp s3b hio1 _
    · rw [hs4, get_wp_set_wp_other s3b hio]; exact ho
    · exact
      { sp_eq := by rw [hssd4]; exact hsp3
        hooks := by rw [hlm4]; exact hk3
        ids := by rw [hlm4]; exact hids3
        tt := by rw [hlm4, hlm3]; exact hI.tt
        acct := fun j hj hl =>
          line_acct_congr hssd4 (by rw [hlm4]) (by rw [hlm4]) (by rw [hlm4]) (hacct3 j hj hl)
        bacct := blks_acct_congr hssd4 hbacct3
        free_nodup := by rw [hlm4, hfl3]; exact hI.free_nodup
        free_lt := by rw [hlm4, hfl3]; exact hI.free_lt
        free_pages := fun j hj => by
          rw [hlm4, hfl3] at hj
          exact line_free_congr hssd4 (hfp3 j hj)
        this_free := by rw [hlm4, hfl3]; exact hI.this_free
        other_free := by rw [hlm4, hfl3]; exact hI.other_free
        distinct := hI.distinct
        this_open := by
          refine ⟨a, b, c0, k + 1, hk, rfl, ?_⟩
          intro j hj1 hj2
          show ((s4.ssd.blk (stripe_pos sp w j).ch (stripe_pos sp w j).lun 0 w.blk).pg
            (stripe_pos sp w j).pg).status = PG_FREE
          rw [hssd4]
          exact hahead j (by omega) hj2
        other_open := open_free_congr hssd4 hoo3 }
    · intro c l b0 g
      rw [hssd4]; exact hst c l b0 g
    · intro x hx
      rw [hlm4, hfl3] at hx
      exact hx
  · -- the line is used up
    have hk1 : k + 1 = sp.pgs_per_line := by omega
    obtain ⟨l1, l2, l3, l4⟩ := stripe_pos_last hsg w hk1
    rw [d] at l1 l2 l3 l4
    obtain ⟨lm1, cur, rest, hcl, hfl, _hid, hs4⟩ := advance_write_pointer_last hw
      (by rw [hsp3b]; exact l1) (by rw [hsp3b]; exact l2) (by rw [hsp3b]; exact l3)
      (by rw [hsp3b]; exact l4) hadv
    have hk3b : line_hooks s3b.lm.victim_line_pq := by rw [h3.2]; exact hk3
    obtain ⟨c1, c2, c3, c4, _, _⟩ := advance_write_pointer_close_frame hk3b hcl
    rw [h3.2] at c1 c2 c3 c4
    obtain ⟨q1, _, _, q4⟩ := set_wp_fields
      { s3b with lm := { lm1 with free_line_list := rest,
                                  free_line_cnt := dec_u32 lm1.free_line_cnt } } io
      { curline := cur, ch := 0, lun := 0, pg := 0, blk := (lm1.lines cur).id, pl := 0 }
    have hssd4 : s4.ssd = s3.ssd := by rw [hs4, q1]; exact h3.1
    have hlm4 : s4.lm =
        { lm1 with free_line_list := rest, free_line_cnt := dec_u32 lm1.free_line_cnt } := by
      rw [hs4, q4]
    have hl4 : s4.lm.lines = lm1.lines := by rw [hlm4]
    have hfl4 : s4.lm.free_line_list = rest := by rw [hlm4]
    have hfields : ∀ j, (s4.lm.lines j).id = (s3.lm.lines j).id ∧
        (s4.lm.lines j).ipc = (s3.lm.lines j).ipc ∧ (s4.lm.lines j).vpc = (s3.lm.lines j).vpc := by
      intro j
      rw [hl4]
      have q := same_but_pos_fields c2 j
      exact ⟨q.1, q.2.1, q.2.2.1⟩
    have hold : s.lm.free_line_list = cur :: rest := by rw [← hfl3, ← c4]; exact hfl
    have hnd : (cur :: rest).Nodup := by rw [← hold]; exact hI.free_nodup
    have hcurfree : cur ∈ s.lm.free_line_list := by rw [hold]; exact List.mem_cons_self _ _
    have hsub : ∀ x, x ∈ rest → x ∈ s.lm.free_line_list := fun x hx => by
      rw [hold]; exact List.mem_cons_of_mem _ hx
    have hidc : (lm1.lines cur).id = cur := by
      rw [(same_but_pos_fields c2 cur).1]; exact hids3 cur
    have hcn : cur < sp.blks_per_pl := hI.free_lt cur hcurfree
    refine ⟨{ curline := cur, ch := 0, lun := 0, pg := 0, blk := (lm1.lines cur).id, pl := 0 },
      ?_, ?_, ?_, ?_, ?_, Or.inr hcurfree⟩
    · rw [hs4]; exact get_wp_set_wp _ hio1 _
    · rw [hs4, get_wp_set_wp_other _ hio]
      exact (get_wp_congr (s := s3b) rfl rfl io2).trans ho
    · exact
      { sp_eq := by rw [hssd4]; exact hsp3
        hooks := by rw [hlm4]; exact line_hooks_of_same hk3 c1
        ids := fun j => by rw [(hfields j).1]; exact hids3 j
        tt := by rw [hlm4]; show lm1.tt_lines = _; rw [c3, hlm3]; exact hI.tt
        acct := fun j hj hl =>
          line_acct_congr hssd4 (hfields j).1 (hfields j).2.2 (hfields j).2.1 (hacct3 j hj hl)
        bacct := blks_acct_congr hssd4 hbacct3
        free_nodup := by rw [hfl4]; exact (List.nodup_cons.mp hnd).2
        free_lt := fun j hj => by
          rw [hfl4] at hj
          exact hI.free_lt j (hsub j hj)
        free_pages := fun j hj => by
          rw [hfl4] at hj
          exact line_free_congr hssd4 (hfp3 j (hsub j hj))
        this_free := by
          rw [hfl4]
          exact (List.nodup_cons.mp hnd).1
        other_free := by
          rw [hfl4]
          exact fun hm => hI.other_free (hsub _ hm)
        distinct := by
          show cur ≠ o.curline
          exact fun e => hI.other_free (e ▸ hcurfree)
        this_open := by
          refine ⟨rfl, hidc, hcn, 0, by omega, ?_, ?_⟩
          · exact stripe_pos_zero sp _ rfl rfl rfl
          · intro j _ hj2
            have hb := stripe_pos_bounds hsg
              { curline := cur, ch := 0, lun := 0, pg := 0, blk := (lm1.lines cur).id,
                pl := 0 } hj2
            show ((s4.ssd.blk _ _ 0 (lm1.lines cur).id).pg _).status = PG_FREE
            rw [hssd4, hidc]
            exact hfp3 cur hcurfree _ hb.1 _ hb.2.1 _ hb.2.2
        other_open := open_free_congr hssd4 hoo3 }
    · intro c l b0 g
      rw [hssd4]; exact hst c l b0 g
    · intro x hx
      rw [hfl4] at hx
      exact hsub x hx

/-! ## The invariant of every GC mode: `mark_page_invalid` and `conv_write_map` -/

theorem mark_page_invalid_vpc_free {lm lm2 : line_mgmt} {k : Nat}
    (hk : line_hooks lm.victim_line_pq) (h : mark_page_invalid_vpc lm k = some lm2) :
    lm2.free_line_list = lm.free_line_list := by
  unfold mark_page_invalid_vpc at h
  split_ifs at h with hpos
  · obtain ⟨e1, _, _⟩ := pqueue_change_priority_spec hk h
    rw [e1]; rfl
  · simp only [Option.some.injEq] at h
    rw [← h]

theorem mark_page_invalid_move_free {lm lm2 : line_mgmt} {k : Nat}
    (hk : line_hooks lm.victim_line_pq) (h : mark_page_invalid_move lm k = some lm2) :
    lm2.free_line_list = lm.free_line_list.erase k := by
  simp only [mark_page_invalid_move, bind, Option.bind_eq_some, pure, Option.some.injEq] at h
  obtain ⟨r, hr, he⟩ := h
  obtain ⟨lmi, rc⟩ := r
  have key := fun hk1 => @pqueue_insert_spec _ lmi k rc hk1 hr
  obtain ⟨_, e1, _, _⟩ := key hk
  rw [← he]
  show lmi.free_line_list = _
  rw [e1]; rfl

/-- `mark_page_invalid` unlinks at most the line of the page from the free-line list. -/
theorem mark_page_invalid_line_free {spp : ssdparams} {lm lm2 : line_mgmt} {now k : Nat}
    (hk : line_hooks lm.victim_line_pq)
    (h : mark_page_invalid_line spp lm now k = some lm2) :
    lm2.free_line_list = lm.free_line_list ∨
      lm2.free_line_list = lm.free_line_list.erase k := by
  simp only [mark_page_invalid_line, bind, Option.bind_eq_some, NVMEV_ASSERT_eq_some, pure,
    exists_const, Option.some.injEq] at h
  obtain ⟨_h1, _h2, _h3, lmb, hlmb, lmc, hlmc, hfin⟩ := h
  have hk1 : line_hooks (line_set_ipc_time lm k ((lm.lines k).ipc + 1)
      (lm.lines k).last_modified_time).victim_line_pq := hk
  have b1 := mark_page_invalid_vpc_free hk1 hlmb
  have hB := mark_page_invalid_vpc_spec hk1 hlmb
  have hkb : line_hooks lmb.victim_line_pq := line_hooks_of_same hk hB.1
  have b0 : lmb.free_line_list = lm.free_line_list := b1
  subst hfin
  show lmc.free_line_list = _ ∨ lmc.free_line_list = _
  split_ifs at hlmc with hfull
  · right
    rw [mark_page_invalid_move_free hkb hlmc, b0]
  · simp only [Option.some.injEq] at hlmc
    subst hlmc
    exact Or.inl b0

theorem open_free_invalid {sp : ssdparams} {s s1 : conv_ftl} {w : write_pointer} {p : ppa}
    {blk b2 : nand_block} (hbe : blk = s.ssd.blk p.ch p.lun p.pl p.blk)
    (hst : (blk.pg p.pg).status = PG_VALID)
    (hb2 : b2.pg = (set_pg_status blk p.pg PG_INVALID).pg)
    (hssd : s1.ssd = set_blk s.ssd p b2)
    (h : open_free sp s w) : open_free sp s1 w := by
  obtain ⟨a, b, c0, k, c, d, f⟩ := h
  refine ⟨a, b, c0, k, c, d, ?_⟩
  intro j hj1 hj2
  have hf := f j hj1 hj2
  rw [hssd, set_blk_pg_status s.ssd p blk b2 PG_INVALID hbe hb2]
  split_ifs with hc
  · obtain ⟨e1, e2, e3, e4, e5⟩ := hc
    rw [e1, e2, e4, e5, e3, ← hbe, hst] at hf
    exact absurd hf (by decide)
  · exact hf

/-- `mark_page_invalid` keeps a state well formed. -/
theorem wf_invalid {sp : ssdparams} (hgeo : ftl_geometry sp) {limbo : Option Nat}
    {s s1 : conv_ftl} {now : Nat} {p : ppa}
    (hI : wf_inv sp limbo s) (h : mark_page_invalid s now p = some s1) :
    wf_inv sp limbo s1 := by
  unfold wf_inv at hI
  obtain ⟨_, ⟨g1, _, _, _, _⟩, _, _⟩ := hgeo
  obtain ⟨blk, b2, hblk, hpg, hst, hb2, hssd, hline, hs1⟩ := mark_page_invalid_eq_some h
  obtain ⟨macct, mblk, mtt⟩ := mark_page_invalid_acct hI.hooks h
  obtain ⟨⟨r1, r2, r3, r4⟩, hbe⟩ := get_blk_eq_some hblk
  rw [hI.sp_eq] at r1 r2 r3 r4 hpg
  have hpl : p.pl = 0 := by omega
  obtain ⟨e1, _, e3⟩ := mark_page_invalid_line_spec hI.hooks hline
  have hnotfree : p.blk ∉ s.lm.free_line_list := by
    intro hm
    have := hI.free_pages p.blk hm p.ch r1 p.lun r2 p.pg hpg
    rw [← hpl, ← hbe, hst] at this
    exact absurd this (by decide)
  have hfl : s1.lm.free_line_list = s.lm.free_line_list := by
    rcases mark_page_invalid_line_free hI.hooks hline with e | e
    · exact e
    · rw [e, List.erase_of_not_mem hnotfree]
  have hwp : s1.wp = s.wp := by rw [hs1]
  have hgw : s1.gc_wp = s.gc_wp := by rw [hs1]
  have hfp : ∀ k, line_free sp s k → line_free sp s1 k := by
    intro k hk c hc l hl g hg
    have hf := hk c hc l hl g hg
    rw [hssd, set_blk_pg_status s.ssd p blk b2 PG_INVALID hbe hb2]
    split_ifs with hc2
    · obtain ⟨q1, q2, q3, q4, q5⟩ := hc2
      rw [q1, q2, q4, q5, q3, ← hbe, hst] at hf
      exact absurd hf (by decide)
    · exact hf
  unfold wf_inv
  rw [hwp, hgw]
  exact
  { sp_eq := by rw [hssd]; exact hI.sp_eq
    hooks := line_hooks_of_same hI.hooks e1
    ids := fun j => by rw [(e3 j).1]; exact hI.ids j
    tt := by rw [mtt]; exact hI.tt
    acct := fun k hk hl2 => macct k (hI.ids k) (hI.acct k hk hl2)
    bacct := mblk hI.bacct
    free_nodup := by rw [hfl]; exact hI.free_nodup
    free_lt := by rw [hfl]; exact hI.free_lt
    free_pages := fun k hk => hfp k (hI.free_pages k (by rw [← hfl]; exact hk))
    this_free := by rw [hfl]; exact hI.this_free
    other_free := by rw [hfl]; exact hI.other_free
    distinct := hI.distinct
    this_open := open_free_invalid hbe hst hb2 hssd hI.this_open
    other_open := open_free_invalid hbe hst hb2 hssd hI.other_open }

/-- A page write (`conv_write_map`) keeps a state well formed, in every GC mode. -/
theorem wf_conv_write_map {sp : ssdparams} (hgeo : ftl_geometry sp)
    {s s2 : conv_ftl} {now L : Nat} {p : ppa} (hI : wf_inv sp none s)
    (h : conv_write_map s now L = some (s2, p)) : wf_inv sp none s2 := by
  obtain ⟨s1, sa, sb, s4, h1, h2, h3, h4, h5, h6⟩ := conv_write_map_spec h
  have hI1 : wf_inv sp none s1 := by
    rcases conv_write_invalidate_spec h1 with ⟨_, e⟩ | ⟨_, a, ha, hr⟩
    · rw [e]; exact hI
    · have hIa := wf_invalid hgeo hI ha
      obtain ⟨_, er⟩ := set_rmap_ent_spec hr
      refine wf_inv_congr (s := a) ?_ ?_ ?_ ?_ hIa <;> rw [er]
  obtain ⟨_, e3⟩ := set_maptbl_ent_spec h3
  obtain ⟨_, e4⟩ := set_rmap_ent_spec h4
  have hA : sb.ssd = s1.ssd ∧ sb.lm = s1.lm ∧ sb.wp = s1.wp ∧ sb.gc_wp = s1.gc_wp := by
    rw [e4, e3]
    exact ⟨rfl, rfl, rfl, rfl⟩
  unfold wf_inv at hI1
  have hpe := wf_cursor_page hgeo hI1 (get_wp_user s1) h2
  obtain ⟨_, _, _, _, _, _, _, _, hs4⟩ := mark_page_valid_eq_some h5
  have hw4 : s4.wp = s1.wp := by rw [hs4, hA.2.2.1]
  have hg4 : s4.gc_wp = s1.gc_wp := by rw [hs4, hA.2.2.2]
  obtain ⟨w2, q1, q2, q3, _, _, _⟩ := wf_write hgeo (Or.inl ⟨rfl, rfl⟩) hI1 hpe
    ⟨hA.1, hA.2.1⟩ h5 ⟨rfl, rfl⟩ (by rw [get_wp_user, hw4]) (by rw [get_wp_gc, hg4]) h6
  rw [get_wp_user] at q1
  rw [get_wp_gc] at q2
  unfold wf_inv
  rw [Option.some.inj q1, Option.some.inj q2]
  exact q3

/-! ## The invariant of every GC mode: the pieces of `do_gc` -/

/-- A change confined to the victim heap and the `pos` fields keeps a state well formed. -/
theorem wf_core_frame {sp : ssdparams} {limbo : Option Nat} {s t : conv_ftl}
    {w o : write_pointer} (hssd : t.ssd = s.ssd) (hf : same_outside_heap s.lm t.lm)
    (h : wf_core sp limbo s w o) : wf_core sp limbo t w o := by
  obtain ⟨f1, _, _, _, f5, _, f7, f8⟩ := hf
  have q := fun k => same_but_pos_fields f8 k
  exact
  { sp_eq := by rw [hssd]; exact h.sp_eq
    hooks := line_hooks_of_same h.hooks f7
    ids := fun k => by rw [(q k).1]; exact h.ids k
    tt := by rw [f5]; exact h.tt
    acct := fun k hk hl =>
      line_acct_congr hssd (q k).1 (q k).2.2.1 (q k).2.1 (h.acct k hk hl)
    bacct := blks_acct_congr hssd h.bacct
    free_nodup := by rw [f1]; exact h.free_nodup
    free_lt := by rw [f1]; exact h.free_lt
    free_pages := fun k hk => line_free_congr hssd (h.free_pages k (by rw [← f1]; exact hk))
    this_free := by rw [f1]; exact h.this_free
    other_free := by rw [f1]; exact h.other_free
    distinct := h.distinct
    this_open := open_free_congr hssd h.this_open
    other_open := open_free_congr hssd h.other_open }

/-- The counting loop of `clean_one_flashpg` returns only when none of the pages it reads is
FREE. -/
theorem clean_one_flashpg_count_some (s : conv_ftl) :
    ∀ (n : Nat) (p : ppa) (cnt r : Nat), p.pg + n ≤ 65536 →
      clean_one_flashpg_count s n p cnt = some r →
      ∀ i, i < n → p.ch < s.ssd.sp.nchs ∧ p.lun < s.ssd.sp.luns_per_ch ∧
        p.pl < s.ssd.sp.pls_per_lun ∧ p.blk < s.ssd.sp.blks_per_pl ∧
        p.pg + i < s.ssd.sp.pgs_per_blk ∧
        ((s.ssd.blk p.ch p.lun p.pl p.blk).pg (p.pg + i)).status ≠ PG_FREE := by
  intro n
  induction n with
  | zero => intro p cnt r _ _ i hi; omega
  | succ n ih =>
    intro p cnt r hle h i hi
    unfold clean_one_flashpg_count at h
    cases hpg : get_pg s.ssd p with
    | none => simp [hpg] at h
    | some pg =>
      simp only [hpg] at h
      by_cases hfree : pg.status = PG_FREE
      · simp [hfree] at h
      rw [if_neg hfree] at h
      obtain ⟨b, hb, hv, hpe⟩ := get_pg_eq_some hpg
      obtain ⟨⟨r1, r2, r3, r4⟩, hbe⟩ := get_blk_eq_some hb
      by_cases hi0 : i = 0
      · subst hi0
        refine ⟨r1, r2, r3, r4, hv, ?_⟩
        rw [Nat.add_zero, ← hbe, ← hpe]
        exact hfree
      · have hnext : (ppa_next_pg p).pg = p.pg + 1 := by
          show (p.pg + 1) % 65536 = p.pg + 1
          exact Nat.mod_eq_of_lt (by omega)
        have := ih (ppa_next_pg p) _ r (by rw [hnext]; omega) h (i - 1) (by omega)
        have hf : (ppa_next_pg p).ch = p.ch ∧ (ppa_next_pg p).lun = p.lun ∧
            (ppa_next_pg p).pl = p.pl ∧ (ppa_next_pg p).blk = p.blk := ⟨rfl, rfl, rfl, rfl⟩
        rw [hf.1, hf.2.1, hf.2.2.1, hf.2.2.2] at this
        rw [hnext] at this
        have e : p.pg + 1 + (i - 1) = p.pg + i := by omega
        rw [e] at this
        exact this

theorem gc_ppa_eq {sp : ssdparams} (hgeo : sweep_geometry sp) {b fp ch lun : Nat}
    (hfp : fp < sp.flashpgs_per_blk) (hch : ch < sp.nchs)
    (hlun : lun < sp.luns_per_ch) :
    gc_ppa sp b fp ch lun =
      { ch := ch, lun := lun, pl := 0, blk := b % 65536, pg := fp * sp.pgs_per_flashpg,
        rsv := 0 } := by
  obtain ⟨⟨_, ⟨_, _, g3, g4, _⟩, _, g7⟩, g8⟩ := hgeo
  have h1 : fp * sp.pgs_per_flashpg < 65536 := by
    have : fp * sp.pgs_per_flashpg < sp.flashpgs_per_blk * sp.pgs_per_flashpg := by
      apply Nat.mul_lt_mul_of_lt_of_le hfp (le_refl _)
      by_contra h0
      have : sp.pgs_per_flashpg = 0 := by omega
      rw [this, Nat.mul_zero] at g8
      omega
    omega
  unfold gc_ppa
  rw [Nat.mod_eq_of_lt (show ch < 256 by omega), Nat.mod_eq_of_lt (show lun < 256 by omega),
    Nat.mod_eq_of_lt h1]

/-- `mark_block_free` on a block of the line `v` under collection keeps the state well
formed, leaves that block FREE and keeps what was FREE. -/
theorem wf_block_free {sp : ssdparams} (hgeo : sweep_geometry sp) {v ch lun pg0 : Nat}
    {t t' : conv_ftl} {w o : write_pointer} (hI : wf_core sp (some v) t w o)
    (hch : ch < sp.nchs) (hlun : lun < sp.luns_per_ch)
    (h : mark_block_free t { ch := ch, lun := lun, pl := 0, blk := v, pg := pg0, rsv := 0 }
      = some t') :
    wf_core sp (some v) t' w o ∧ t'.wp = t.wp ∧ t'.gc_wp = t.gc_wp ∧ t'.lm = t.lm ∧
      blk_free sp v ch lun t' ∧
      (∀ c l b g, ((t.ssd.blk c l 0 b).pg g).status = PG_FREE → g < sp.pgs_per_blk →
        ((t'.ssd.blk c l 0 b).pg g).status = PG_FREE) := by
  have hsg := hgeo.1.1
  obtain ⟨⟨_, ⟨g1, _, _, _, _⟩, _, _⟩, _⟩ := hgeo
  obtain ⟨blk, b2, hblk, hs, hfree, hv0, hi0, _he⟩ := mark_block_free_spec h
  rw [hI.sp_eq] at hfree
  have hc1 : blk_count sp b2 PG_VALID = 0 := blk_count_free hfree (by decide)
  have hc2 : blk_count sp b2 PG_INVALID = 0 := blk_count_free hfree (by decide)
  have hsame : t'.ssd.blk ch lun 0 v = b2 := by
    rw [hs]
    exact set_blk_same t.ssd _ b2
  have hother : ∀ c l pl b, ¬(c = ch ∧ l = lun ∧ pl = 0 ∧ b = v) →
      t'.ssd.blk c l pl b = t.ssd.blk c l pl b := by
    intro c l pl b hne
    rw [hs]
    exact set_blk_other t.ssd _ b2 c l pl b hne
  have hsp : t'.ssd.sp = sp := by rw [hs]; exact hI.sp_eq
  have hlm : t'.lm = t.lm := by rw [hs]
  have hkeep : ∀ c l b g, ((t.ssd.blk c l 0 b).pg g).status = PG_FREE →
      g < sp.pgs_per_blk → ((t'.ssd.blk c l 0 b).pg g).status = PG_FREE := by
    intro c l b g hf hg
    by_cases hcl : c = ch ∧ l = lun ∧ 0 = 0 ∧ b = v
    · obtain ⟨q1, q2, _, q4⟩ := hcl
      subst q1 q2 q4
      rw [hsame]
      exact hfree g hg
    · rw [hother c l 0 b hcl]
      exact hf
  have hopen : ∀ x, open_free sp t x → open_free sp t' x := by
    intro x hx
    obtain ⟨a, b, c0, k, c, d, f⟩ := hx
    refine ⟨a, b, c0, k, c, d, ?_⟩
    intro j hj1 hj2
    exact hkeep _ _ _ _ (f j hj1 hj2) (stripe_pos_bounds hsg x hj2).2.2
  refine ⟨?_, by rw [hs], by rw [hs], hlm, ?_, hkeep⟩
  · exact
    { sp_eq := hsp
      hooks := by rw [hlm]; exact hI.hooks
      ids := by rw [hlm]; exact hI.ids
      tt := by rw [hlm]; exact hI.tt
      acct := by
        intro k hk hkv
        have h0 := hI.acct k hk hkv
        have hkv2 : k ≠ v := fun e => hkv (by rw [e])
        unfold line_acct at h0 ⊢
        rw [hlm, hs]
        have hne : (t.lm.lines k).id ≠
            ({ ch := ch, lun := lun, pl := 0, blk := v, pg := pg0, rsv := 0 } : ppa).blk := by
          rw [hI.ids k]; exact hkv2
        show _ = line_count (set_blk t.ssd _ b2) _ _ ∧ _ = line_count (set_blk t.ssd _ b2) _ _
        rw [line_count_set_blk_other _ _ _ _ _ hne, line_count_set_blk_other _ _ _ _ _ hne]
        exact h0
      bacct := by
        intro c hc l hl pl hpl b hb
        rw [hsp] at hc hl hpl hb ⊢
        by_cases hcl : c = ch ∧ l = lun ∧ pl = 0 ∧ b = v
        · obtain ⟨q1, q2, q3, q4⟩ := hcl
          subst q1 q2 q3 q4
          rw [hsame, hc1, hc2]
          exact ⟨hv0, hi0⟩
        · rw [hother c l pl b hcl]
          have h6 := hI.bacct c (by rw [hI.sp_eq]; exact hc) l (by rw [hI.sp_eq]; exact hl) pl
            (by rw [hI.sp_eq]; exact hpl) b (by rw [hI.sp_eq]; exact hb)
          rw [hI.sp_eq] at h6
          exact h6
      free_nodup := by rw [hlm]; exact hI.free_nodup
      free_lt := by rw [hlm]; exact hI.free_lt
      free_pages := by
        intro k hk c hc l hl g hg
        rw [hlm] at hk
        exact hkeep c l k g (hI.free_pages k hk c hc l hl g hg) hg
      this_free := by rw [hlm]; exact hI.this_free
      other_free := by rw [hlm]; exact hI.other_free
      distinct := hI.distinct
      this_open := hopen w hI.this_open
      other_open := hopen o hI.other_open }
  · intro g hg
    rw [hsame]
    exact hfree g hg

/-! ## The invariant of every GC mode: the sweep of `do_gc` -/

theorem flashpg_lt {sp : ssdparams} (hgeo : sweep_geometry sp) {g : Nat}
    (hg : g < sp.pgs_per_blk) : g / sp.pgs_per_flashpg < sp.flashpgs_per_blk := by
  obtain ⟨_, g8⟩ := hgeo
  rw [g8] at hg
  have hpos : 0 < sp.pgs_per_flashpg := by
    by_contra h0
    have : sp.pgs_per_flashpg = 0 := by omega
    rw [this, Nat.mul_zero] at hg
    omega
  exact (Nat.div_lt_iff_lt_mul hpos).mpr hg

theorem flashpg_pos {sp : ssdparams} (hgeo : sweep_geometry sp) : 0 < sp.pgs_per_flashpg := by
  obtain ⟨⟨_, _, g6, _⟩, g8⟩ := hgeo
  by_contra h0
  have : sp.pgs_per_flashpg = 0 := by omega
  rw [this, Nat.mul_zero] at g8
  omega

/-- The position of a cursor in the striping order is unique. -/
theorem stripe_pos_unique {sp : ssdparams} (hsg : stripe_geometry sp) {w : write_pointer}
    {k k2 : Nat} (h1 : stripe_pos sp w k = w) (h2 : stripe_pos sp w k2 = w) : k = k2 := by
  have e : stripe_pos sp w k = stripe_pos sp w k2 := h1.trans h2.symm
  exact stripe_pos_inj hsg w w (congrArg write_pointer.pg e) (congrArg write_pointer.ch e)
    (congrArg write_pointer.lun e)

/-- `gc_write_page` keeps the invariant inside the loop body of the sweep. -/
theorem sweep_mid_gc_write_page {sp : ssdparams} (hgeo : sweep_geometry sp)
    {v fp ch lun : Nat} {t t' : conv_ftl} {old : ppa}
    (hJ : sweep_mid sp v fp ch lun t) (hg : gc_write_page t old = some t') :
    sweep_mid sp v fp ch lun t' := by
  have hsg := hgeo.1.1
  obtain ⟨hI, hvf, hvn, hug, huu, her⟩ := hJ
  obtain ⟨lpn, new, s1, s2, s3, _h1, _h2, h3, h4, h5, h6, h7⟩ := gc_write_page_spec hg
  obtain ⟨_, e4⟩ := set_maptbl_ent_spec h4
  obtain ⟨_, e5⟩ := set_rmap_ent_spec h5
  have hA : s2.ssd = t.ssd ∧ s2.lm = t.lm ∧ s2.wp = t.wp ∧ s2.gc_wp = t.gc_wp := by
    rw [e5, e4]
    exact ⟨rfl, rfl, rfl, rfl⟩
  have hpe := wf_cursor_page hgeo.1 hI (get_wp_gc t) h3
  obtain ⟨_, _, _, _, _, _, _, _, hs3⟩ := mark_page_valid_eq_some h6
  have hw3 : s3.wp = t.wp := by rw [hs3, hA.2.2.1]
  have hg3 : s3.gc_wp = t.gc_wp := by rw [hs3, hA.2.2.2]
  have hB : ({ s3 with gc_copied_pages := s3.gc_copied_pages + 1 } : conv_ftl).ssd = s3.ssd ∧
      ({ s3 with gc_copied_pages := s3.gc_copied_pages + 1 } : conv_ftl).lm = s3.lm :=
    ⟨rfl, rfl⟩
  obtain ⟨w2, q1, q2, q3, q4, q5, q6⟩ := wf_write hgeo.1 (Or.inr ⟨rfl, rfl⟩) hI hpe
    ⟨hA.1, hA.2.1⟩ h6 hB
    (show __get_wp { s3 with gc_copied_pages := s3.gc_copied_pages + 1 } GC_IO = some t.gc_wp
      by rw [get_wp_gc]; exact congrArg some hg3)
    (show __get_wp { s3 with gc_copied_pages := s3.gc_copied_pages + 1 } USER_IO = some t.wp
      by rw [get_wp_user]; exact congrArg some hw3) h7
  rw [get_wp_gc] at q1
  rw [get_wp_user] at q2
  have e1 : t'.gc_wp = w2 := Option.some.inj q1
  have e2 : t'.wp = t.wp := Option.some.inj q2
  obtain ⟨_, hbk, _, k0, hk0, hd0, _⟩ := hI.this_open
  refine ⟨?_, ?_, hvn, ?_, ?_, ?_⟩
  · rw [e1, e2]; exact q3
  · exact fun hm => hvf (q5 v hm)
  · rw [e1]
    intro hcur k j hk hd hkj hj
    rcases q6 with ⟨k1, hk1, hd1, hw2⟩ | hfree
    · have hcv : t.gc_wp.curline = v := by
        rw [hw2] at hcur
        exact hcur
      have hk2 : k = k1 + 1 := by
        rw [hw2] at hd
        exact stripe_pos_unique hsg (w := stripe_pos sp t.gc_wp (k1 + 1)) hd rfl
      have := hug hcv k1 j (by omega) hd1 (by omega) hj
      rw [hw2]
      exact this
    · rw [hcur] at hfree
      exact absurd hfree hvf
  · rw [e2]; exact huu
  · intro hlast c l hc hl hcl g hgb
    rw [q4]
    have hne : ¬(c = t.gc_wp.ch ∧ l = t.gc_wp.lun ∧ v = t.gc_wp.curline ∧ g = t.gc_wp.pg) := by
      intro hh
      have hnr := hug hh.2.2.1.symm k0 k0 hk0 hd0 (le_refl _) hk0
      rw [hd0] at hnr
      have hb := stripe_pos_bounds hsg t.gc_wp hk0
      rw [hd0] at hb
      have hlt := flashpg_lt hgeo hb.2.2
      unfold not_read at hnr
      rw [← hh.1, ← hh.2.1] at hnr
      omega
    rw [if_neg hne]
    exact her hlast c l hc hl hcl g hgb

/-- A cursor of a well-formed state on the line `v`: what the counting loop of
`clean_one_flashpg` has read at `(fp, ch, lun)` is behind the cursor. -/
theorem unread_ahead_next {sp : ssdparams} (hgeo : sweep_geometry sp) {v fp ch lun : Nat}
    {t : conv_ftl} {x : write_pointer} (hx : open_free sp t x)
    (hread : ∀ i, i < sp.pgs_per_flashpg →
      ((t.ssd.blk ch lun 0 v).pg (fp * sp.pgs_per_flashpg + i)).status ≠ PG_FREE)
    (h : unread_ahead sp v fp ch lun x) : unread_ahead sp v fp ch (lun + 1) x := by
  have hsg := hgeo.1.1
  have hpos := flashpg_pos hgeo
  intro hcur k j hk hd hkj hj
  have h0 := h hcur k j hk hd hkj hj
  obtain ⟨_, hbk, _, k0, hk0, hd0, hf⟩ := hx
  have hkk : k = k0 := stripe_pos_unique hsg hd hd0
  have hfree := hf j (by omega) hj
  rw [hbk, hcur] at hfree
  unfold not_read at h0 ⊢
  by_cases hsame : fp = (stripe_pos sp x j).pg / sp.pgs_per_flashpg ∧
      ch = (stripe_pos sp x j).ch ∧ lun = (stripe_pos sp x j).lun
  · exfalso
    obtain ⟨a1, a2, a3⟩ := hsame
    have hm := Nat.div_add_mod (stripe_pos sp x j).pg sp.pgs_per_flashpg
    have hlt := Nat.mod_lt (stripe_pos sp x j).pg hpos
    have hr := hread ((stripe_pos sp x j).pg % sp.pgs_per_flashpg) hlt
    rw [a1, a2, a3, Nat.mul_comm, hm] at hr
    exact hr hfree
  · omega

/-- One call of the loop body of the sweep of `do_gc` advances the sweep invariant. -/
theorem sweep_inv_step {sp : ssdparams} (hgeo : sweep_geometry sp) {blk fp ch lun : Nat}
    {t t' : conv_ftl} (hfp : fp < sp.flashpgs_per_blk) (hch : ch < sp.nchs)
    (hlun : lun < sp.luns_per_ch) (hK : sweep_inv sp (blk % 65536) fp ch lun t)
    (h : do_gc_lun blk fp ch lun t = some t') :
    sweep_inv sp (blk % 65536) fp ch (lun + 1) t' := by
  have hsg := hgeo.1.1
  have hpos := flashpg_pos hgeo
  obtain ⟨hI, _hfirst, hug, huu, her, _⟩ := hK
  have hsp := hI.sp_eq
  simp only [do_gc_lun, bind, Option.bind_eq_some] at h
  obtain ⟨s1, hclean, hrest⟩ := h
  rw [hsp, gc_ppa_eq hgeo hfp hch hlun] at hclean
  rw [hsp] at hrest
  -- the counting loop
  unfold clean_one_flashpg at hclean
  cases hc : clean_one_flashpg_count t t.ssd.sp.pgs_per_flashpg
      { ch := ch, lun := lun, pl := 0, blk := blk % 65536, pg := fp * sp.pgs_per_flashpg,
        rsv := 0 } 0 with
  | none => simp [hc] at hclean
  | some cnt =>
    simp only [hc] at hclean
    have hle : fp * sp.pgs_per_flashpg + sp.pgs_per_flashpg ≤ 65536 := by
      have h1 : (fp + 1) * sp.pgs_per_flashpg ≤ sp.flashpgs_per_blk * sp.pgs_per_flashpg :=
        Nat.mul_le_mul_right _ hfp
      have h2 := hgeo.2
      have h3 := hgeo.1.2.2.2
      rw [Nat.add_mul, Nat.one_mul] at h1
      omega
    have hcount := clean_one_flashpg_count_some t t.ssd.sp.pgs_per_flashpg _ 0 cnt
      (by rw [hsp]; exact hle) hc
    rw [hsp] at hcount
    have hvn : blk % 65536 < sp.blks_per_pl := (hcount 0 hpos).2.2.2.1
    have hread : ∀ i, i < sp.pgs_per_flashpg →
        ((t.ssd.blk ch lun 0 (blk % 65536)).pg (fp * sp.pgs_per_flashpg + i)).status ≠
          PG_FREE := fun i hi => (hcount i hi).2.2.2.2.2
    have hvf : blk % 65536 ∉ t.lm.free_line_list := by
      intro hm
      have := hI.free_pages _ hm ch hch lun hlun _ (hcount 0 hpos).2.2.2.2.1
      exact hread 0 hpos this
    have hmid : sweep_mid sp (blk % 65536) fp ch lun t :=
      ⟨hI, hvf, hvn, unread_ahead_next hgeo hI.this_open hread hug,
        unread_ahead_next hgeo hI.other_open hread huu, her⟩
    have hmid1 : sweep_mid sp (blk % 65536) fp ch lun s1 := by
      split_ifs at hclean with h0
      · rw [← Option.some.inj hclean]; exact hmid
      · exact clean_one_flashpg_copy_inv (sweep_mid sp (blk % 65536) fp ch lun) _
          (fun a a' old hJ _ _ _ _ _ hg => sweep_mid_gc_write_page hgeo hJ hg)
          _ t _ s1 rfl rfl rfl rfl hmid hclean
    obtain ⟨hI1, hvf1, _, hug1, huu1, her1⟩ := hmid1
    have hnf : ¬(fp = 0 ∧ ch = 0 ∧ lun + 1 = 0) := fun hh => by omega
    by_cases hlast : fp = sp.flashpgs_per_blk - 1
    · rw [if_pos hlast, gc_ppa_eq hgeo hfp hch hlun] at hrest
      obtain ⟨m1, m2, m3, m4, m5, m6⟩ := wf_block_free hgeo hI1 hch hlun hrest
      refine ⟨?_, fun _ => ⟨?_, hvn⟩, ?_, ?_, ?_, fun hge => by omega⟩
      · rw [m3, m2]; exact m1
      · rw [m4]; exact hvf1
      · rw [m3]; exact hug1
      · rw [m2]; exact huu1
      · intro hl c l hc2 hl2 hcl
        by_cases hq : c = ch ∧ l = lun
        · rw [hq.1, hq.2]; exact m5
        · intro g hg
          exact m6 c l _ g (her1 hl c l hc2 hl2 (by omega) g hg) hg
    · rw [if_neg hlast] at hrest
      simp only [pure, Option.some.injEq] at hrest
      subst hrest
      exact ⟨hI1, fun _ => ⟨hvf1, hvn⟩, hug1, huu1, fun hl => by omega, fun hge => by omega⟩

theorem unread_ahead_lun {sp : ssdparams} (hsg : stripe_geometry sp) {v fp ch : Nat}
    {x : write_pointer} (h : unread_ahead sp v fp ch sp.luns_per_ch x) :
    unread_ahead sp v fp (ch + 1) 0 x := by
  intro hcur k j hk hd hkj hj
  have h0 := h hcur k j hk hd hkj hj
  have hb := stripe_pos_bounds hsg x hj
  unfold not_read at h0 ⊢
  omega

theorem unread_ahead_ch {sp : ssdparams} (hsg : stripe_geometry sp) {v fp : Nat}
    {x : write_pointer} (h : unread_ahead sp v fp sp.nchs 0 x) :
    unread_ahead sp v (fp + 1) 0 0 x := by
  intro hcur k j hk hd hkj hj
  have h0 := h hcur k j hk hd hkj hj
  have hb := stripe_pos_bounds hsg x hj
  unfold not_read at h0 ⊢
  omega

/-- The sweep of `do_gc` over the blocks numbered `blk`, from a well-formed state: afterwards
the state is well formed up to the counters of the line, the line is not on the free-line
list, no cursor is on it and all its pages are FREE. -/
theorem wf_sweep {sp : ssdparams} (hgeo : sweep_geometry sp) {blk : Nat} {s s' : conv_ftl}
    (hI : wf_inv sp none s) (h : do_gc_sweep blk s = some s') :
    wf_core sp (some (blk % 65536)) s' s'.gc_wp s'.wp ∧
    blk % 65536 ∉ s'.lm.free_line_list ∧ blk % 65536 < sp.blks_per_pl ∧
    s'.gc_wp.curline ≠ blk % 65536 ∧ s'.wp.curline ≠ blk % 65536 ∧
    line_free sp s' (blk % 65536) := by
  have hsg := hgeo.1.1
  obtain ⟨_, hC, hU, _, _⟩ := hgeo.1.1
  have hF := hgeo.1.2.1.2.1
  have h0 : sweep_inv sp (blk % 65536) 0 0 0 s := by
    unfold wf_inv at hI
    have hS := wf_core_swap hI
    refine ⟨{ hS with acct := fun k hk _ => hS.acct k hk (by simp) }, fun hh => ?_, ?_, ?_,
      fun _ c l _ _ hcl => by omega, fun hh => by omega⟩
    · exact absurd ⟨rfl, rfl, rfl⟩ hh
    · intro _ k j _ _ _ _
      unfold not_read
      rcases Nat.eq_zero_or_pos ((stripe_pos sp s.gc_wp j).pg / sp.pgs_per_flashpg) with h | h
      · exact Or.inr ⟨h.symm, by omega⟩
      · exact Or.inl h
    · intro _ k j _ _ _ _
      unfold not_read
      rcases Nat.eq_zero_or_pos ((stripe_pos sp s.wp j).pg / sp.pgs_per_flashpg) with h | h
      · exact Or.inr ⟨h.symm, by omega⟩
      · exact Or.inl h
  have key := do_gc_sweep_inv sp blk (fun a b c t => sweep_inv sp (blk % 65536) a b c t)
    (fun _ _ _ t hK => hK.1.sp_eq)
    (fun fp ch lun t t' hfp hch hlun hK hb => sweep_inv_step hgeo hfp hch hlun hK hb)
    ?_ ?_ s s' h0 h
  · obtain ⟨k1, k2, k3, k4, _, k6⟩ := key
    obtain ⟨kf, kn⟩ := k2 (fun hh => by omega)
    have hcur : ∀ x, open_free sp s' x → unread_ahead sp (blk % 65536) sp.flashpgs_per_blk 0 0 x →
        x.curline ≠ blk % 65536 := by
      intro x hx hu hc
      obtain ⟨_, _, _, k0, hk0, hd0, _⟩ := hx
      have hnr := hu hc k0 k0 hk0 hd0 (le_refl _) hk0
      rw [hd0] at hnr
      have hb := stripe_pos_bounds hsg x hk0
      rw [hd0] at hb
      have hlt := flashpg_lt hgeo hb.2.2
      unfold not_read at hnr
      omega
    exact ⟨k1, kf, kn, hcur _ k1.this_open k3, hcur _ k1.other_open k4,
      fun c hc l hl => k6 (le_refl _) c l hc hl⟩
  · intro fp ch t hK
    obtain ⟨k1, k2, k3, k4, k5, k6⟩ := hK
    refine ⟨k1, fun _ => k2 (fun hh => by omega), unread_ahead_lun hsg k3,
      unread_ahead_lun hsg k4, ?_, k6⟩
    intro hl c l hc2 hl2 hcl
    exact k5 hl c l hc2 hl2 (by omega)
  · intro fp t hK
    obtain ⟨k1, k2, k3, k4, k5, k6⟩ := hK
    refine ⟨k1, fun _ => k2 (fun hh => by omega), unread_ahead_ch hsg k3,
      unread_ahead_ch hsg k4, fun _ c l _ _ hcl => by omega, ?_⟩
    intro hge c l hc2 hl2
    by_cases hlt : sp.flashpgs_per_blk ≤ fp
    · exact k6 hlt c l hc2 hl2
    · exact k5 (by omega) c l hc2 hl2 (by omega)

/-! ## The invariant of every GC mode: `do_gc`, `conv_init_ftl`, the reachable states -/

/-- A complete `do_gc` keeps a state well formed, in every GC mode. -/
theorem wf_do_gc {sp : ssdparams} (hgeo : sweep_geometry sp) {s s' : conv_ftl} {now r : Nat}
    {force : Bool} {rc : Int} (hI : wf_inv sp none s)
    (h : do_gc s now r force = some (s', rc)) : wf_inv sp none s' := by
  have hsel1 : ∀ s1 vo, select_victim s now r force = some (s1, vo) → wf_inv sp none s1 := by
    intro s1 vo hsel
    obtain ⟨f1, _, f3⟩ := select_victim_frame hI.hooks hsel
    have hssd : s1.ssd = s.ssd := by rw [f1]
    have hwp : s1.wp = s.wp := by rw [f1]
    have hgw : s1.gc_wp = s.gc_wp := by rw [f1]
    unfold wf_inv at hI ⊢
    rw [hwp, hgw]
    exact wf_core_frame hssd f3 hI
  rcases do_gc_eq_some h with ⟨s1, hsel, e, _⟩ | ⟨s1, v, s2, s5, hsel, e2, hsw, e, _⟩
  · rw [e]; exact hsel1 s1 none hsel
  · have hI1 := hsel1 s1 (some v) hsel
    have hX : wf_inv sp none
        { s2 with gc_count := s2.gc_count + 1,
                  wfc := { s2.wfc with credits_to_refill := (s1.lm.lines v).ipc } } := by
      refine wf_inv_congr (s := s1) ?_ ?_ ?_ ?_ hI1
      · show s2.ssd = s1.ssd
        rw [e2]
      · show s2.lm = s1.lm
        rw [e2]
      · show s2.wp = s1.wp
        rw [e2]
      · show s2.gc_wp = s1.gc_wp
        rw [e2]
    obtain ⟨k1, kf, kn, kg, ku, kfree⟩ := wf_sweep hgeo hX hsw
    generalize hb : (s1.lm.lines v).id % 65536 = b at k1 kf kn kg ku kfree
    have hpb : get_line s5 (gc_ppa s5.ssd.sp (s1.lm.lines v).id (s5.ssd.sp.flashpgs_per_blk - 1)
        (s5.ssd.sp.nchs - 1) (s5.ssd.sp.luns_per_ch - 1)) = b := hb
    have hlines : s'.lm.lines = Function.update s5.lm.lines b
        { s5.lm.lines b with ipc := 0, vpc := 0 } := by
      rw [e]
      show Function.update s5.lm.lines (get_line s5 _) _ = _
      rw [hpb]
    have hfl : s'.lm.free_line_list = s5.lm.free_line_list ++ [b] := by
      rw [e]
      show s5.lm.free_line_list ++ [get_line s5 _] = _
      rw [hpb]
    have hssd : s'.ssd = s5.ssd := by rw [e]; rfl
    have htt : s'.lm.tt_lines = s5.lm.tt_lines := by rw [e]; rfl
    have hpq : s'.lm.victim_line_pq = s5.lm.victim_line_pq := by rw [e]; rfl
    have hwp : s'.wp = s5.wp := by rw [e]; rfl
    have hgw : s'.gc_wp = s5.gc_wp := by rw [e]; rfl
    have hpl : s5.ssd.sp.pls_per_lun = 1 := by rw [k1.sp_eq]; exact hgeo.1.2.1.1
    have hmem : ∀ x, x ∈ s'.lm.free_line_list ↔ x ∈ s5.lm.free_line_list ∨ x = b := by
      intro x
      rw [hfl, List.mem_append, List.mem_singleton]
    unfold wf_inv
    rw [hwp, hgw]
    exact
    { sp_eq := by rw [hssd]; exact k1.sp_eq
      hooks := by rw [hpq]; exact k1.hooks
      ids := by
        intro k
        rw [hlines]
        by_cases hk : k = b
        · subst hk
          simp only [Function.update_same]
          exact k1.ids k
        · rw [Function.update_noteq hk]
          exact k1.ids k
      tt := by rw [htt]; exact k1.tt
      acct := by
        intro k hk _
        by_cases hkv : k = b
        · subst hkv
          unfold line_acct
          rw [hlines, hssd]
          simp only [Function.update_same]
          rw [k1.ids k]
          have z : ∀ st, st ≠ PG_FREE → line_count s5.ssd k st = 0 := by
            intro st hst
            apply line_count_clean hpl
            intro c l hc hl
            rw [k1.sp_eq] at hc hl ⊢
            exact blk_count_free (kfree c hc l hl) hst
          exact ⟨(z PG_VALID (by decide)).symm, (z PG_INVALID (by decide)).symm⟩
        · have h0 := k1.acct k hk (fun e0 => hkv (Option.some.inj e0).symm)
          have hl : s'.lm.lines k = s5.lm.lines k := by
            rw [hlines, Function.update_noteq hkv]
          exact line_acct_congr hssd (by rw [hl]) (by rw [hl]) (by rw [hl]) h0
      bacct := blks_acct_congr hssd k1.bacct
      free_nodup := by
        rw [hfl]
        refine List.Nodup.append k1.free_nodup (List.nodup_singleton b) ?_
        intro x hx1 hx2
        rw [List.mem_singleton] at hx2
        exact kf (hx2 ▸ hx1)
      free_lt := by
        intro k hk
        rcases (hmem k).mp hk with h1 | h1
        · exact k1.free_lt k h1
        · rw [h1]; exact kn
      free_pages := by
        intro k hk
        rcases (hmem k).mp hk with h1 | h1
        · exact line_free_congr hssd (k1.free_pages k h1)
        · rw [h1]; exact line_free_congr hssd kfree
      this_free := fun hm => by
        rcases (hmem _).mp hm with h1 | h1
        · exact k1.other_free h1
        · exact ku h1
      other_free := fun hm => by
        rcases (hmem _).mp hm with h1 | h1
        · exact k1.this_free h1
        · exact kg h1
      distinct := fun e0 => k1.distinct e0.symm
      this_open := open_free_congr hssd k1.other_open
      other_open := open_free_congr hssd k1.this_open }

/-- The state built by `conv_init_ftl` on a fresh device is well formed, in every GC mode. -/
theorem wf_init {cpp : convparams} {spp : ssdparams} {gc_mode : Nat} {dbg : Bool}
    {d0 : Nat → Option Nat} {s : conv_ftl} (hgeo : ftl_geometry spp)
    (h : conv_init_ftl cpp (ssd_init spp) gc_mode dbg d0 = some s) : wf_inv spp none s := by
  obtain ⟨lm, c1, c2, rest, hlm, hfl, hssd, _, _, hwp, hgw, hl⟩ := conv_init_ftl_eq_some h
  obtain ⟨_, i2, i3, _, i5, _, _, _, _, i10, _, _⟩ := init_lines_eq_some hlm
  obtain ⟨hacct, _, _⟩ := conv_init_ftl_acct h
  obtain ⟨hsg, _, hpb, _⟩ := hgeo
  obtain ⟨_, hC, hU, _, hline⟩ := hsg
  have hpl : 0 < spp.pgs_per_line := by
    rw [hline]
    exact Nat.mul_pos (Nat.mul_pos hU hC) hpb
  have hrange : List.range spp.blks_per_pl = c1 :: c2 :: rest := by rw [← i3]; exact hfl
  have hnd : (c1 :: c2 :: rest).Nodup := by rw [← hrange]; exact List.nodup_range _
  have hmemr : ∀ k, k ∈ c1 :: c2 :: rest ↔ k < spp.blks_per_pl := by
    intro k; rw [← hrange]; exact List.mem_range
  have hc12 : c1 ≠ c2 := by
    intro e
    have := (List.nodup_cons.mp hnd).1
    rw [e] at this
    exact this (List.mem_cons_self _ _)
  have hc1r : c1 ∉ rest := fun hm =>
    (List.nodup_cons.mp hnd).1 (List.mem_cons_of_mem _ hm)
  have hc2r : c2 ∉ rest := (List.nodup_cons.mp (List.nodup_cons.mp hnd).2).1
  have hlines : s.lm.lines =
      (fun i => { id := i, ipc := 0, vpc := 0, pos := 0, last_modified_time := 0 }) := by
    rw [hl]; exact i2
  have hfree : s.lm.free_line_list = rest := by rw [hl]
  have hid1 : (lm.lines c1).id = c1 := by rw [i2]
  have hid2 : (lm.lines c2).id = c2 := by rw [i2]
  rw [hid1] at hwp
  rw [hid2] at hgw
  have htt : s.lm.tt_lines = spp.blks_per_pl := by rw [hl]; exact i5
  have hallfree : ∀ k, line_free spp s k := by
    intro k c _ l _ g _
    rw [hssd]
    rfl
  have hopen : ∀ c, c < spp.blks_per_pl → open_free spp s
      { curline := c, ch := 0, lun := 0, pg := 0, blk := c, pl := 0 } := by
    intro c hc
    refine ⟨rfl, rfl, hc, 0, hpl, stripe_pos_zero spp _ rfl rfl rfl, ?_⟩
    intro j _ _
    rw [hssd]
    rfl
  unfold wf_inv
  rw [hwp, hgw]
  exact
  { sp_eq := by rw [hssd]; rfl
    hooks := by rw [hl]; exact i10
    ids := by intro k; rw [hlines]
    tt := htt
    acct := fun k hk _ => hacct.1 k (by rw [htt]; exact hk)
    bacct := hacct.2
    free_nodup := by
      rw [hfree]
      exact (List.nodup_cons.mp (List.nodup_cons.mp hnd).2).2
    free_lt := fun k hk => by
      rw [hfree] at hk
      exact (hmemr k).mp (List.mem_cons_of_mem _ (List.mem_cons_of_mem _ hk))
    free_pages := fun k _ => hallfree k
    this_free := by rw [hfree]; exact hc1r
    other_free := by rw [hfree]; exact hc2r
    distinct := hc12
    this_open := hopen c1 ((hmemr c1).mp (List.mem_cons_self _ _))
    other_open := hopen c2 ((hmemr c2).mp (List.mem_cons_of_mem _ (List.mem_cons_self _ _))) }

theorem wf_refill {sp : ssdparams} (hgeo : sweep_geometry sp) {s s2 : conv_ftl} {now r : Nat}
    (hI : wf_inv sp none s) (h : check_and_refill_write_credit s now r = some s2) :
    wf_inv sp none s2 := by
  unfold check_and_refill_write_credit at h
  split_ifs at h with hc
  · cases hf : foreground_gc s now r with
    | none => simp [hf] at h
    | some s1 =>
      simp only [hf, Option.some.injEq] at h
      have hI1 : wf_inv sp none s1 := by
        unfold foreground_gc at hf
        split_ifs at hf with hg
        · cases hd : do_gc s now r true with
          | none => simp [hd] at hf
          | some r1 =>
            obtain ⟨sa, rc⟩ := r1
            simp only [hd, Option.some.injEq] at hf
            rw [← hf]
            exact wf_do_gc hgeo hI hd
        · rw [← Option.some.inj hf]
          exact hI
      rw [← h]
      exact wf_inv_congr (s := s1) rfl rfl rfl rfl hI1
  · rw [← Option.some.inj h]
    exact hI

/-- Every reachable state is well formed, in every GC mode. -/
theorem reachable_wf {cpp : convparams} {spp : ssdparams} {gc_mode : Nat} {dbg : Bool}
    {d0 : Nat → Option Nat} {s : conv_ftl} (hgeo : sweep_geometry spp)
    (hr : reachable cpp spp gc_mode dbg d0 s) : wf_inv spp none s := by
  induction hr with
  | init h => exact wf_init hgeo.1 h
  | write _ h ih => exact wf_conv_write_map hgeo.1 ih h
  | gc _ h ih => exact wf_do_gc hgeo ih h
  | credit _ ih => exact wf_inv_congr (by rfl) (by rfl) (by rfl) (by rfl) ih
  | refill _ h ih => exact wf_refill hgeo ih h

/-! ## The write-pointer invariant (W1) -/

theorem open_free_wp_invariant {sp : ssdparams} (hgeo : ftl_geometry sp) {s : conv_ftl}
    {w : write_pointer} (hsp : s.ssd.sp = sp) (hid : line_ids s.lm) (h : open_free sp s w) :
    wp_invariant s w := by
  obtain ⟨hsg, ⟨g1, _, g3, g4, g5⟩, _, g7⟩ := hgeo
  obtain ⟨b1, b2, b3, b4⟩ := open_free_bounds hsg h
  obtain ⟨a1, a2, a3, _⟩ := h
  have hp : wp_ppa w =
      { ch := w.ch, lun := w.lun, pg := w.pg, blk := w.blk, pl := 0, rsv := 0 } := by
    unfold wp_ppa
    rw [a1, Nat.mod_eq_of_lt (show w.ch < 256 by omega),
      Nat.mod_eq_of_lt (show w.lun < 256 by omega),
      Nat.mod_eq_of_lt (show w.pg < 65536 by omega),
      Nat.mod_eq_of_lt (show w.blk < 65536 by omega)]
  have hb : w.blk < sp.blks_per_pl := by omega
  refine ⟨by rw [hid, a2], by rw [hsp]; exact b1, by rw [hsp]; exact b2,
    by rw [hsp]; exact b3, a1, ?_⟩
  rw [hp]
  simp [page_status, get_pg, get_blk, hsp, b1, b2, b3, b4, g1, hb]

/-- C18: write-pointer invariant (W1). In every state reachable from `conv_init_ftl` by page
writes and complete GC runs, in every GC mode (a step that finds no free line gives no state,
so free lines remained whenever a line was opened), both cursors, the one
`advance_write_pointer` moves for `USER_IO` and the one it moves for `GC_IO`, satisfy
`blk = curline.id`, `ch < nchs`, `lun < luns_per_ch`, `pg < pgs_per_blk`, `pl = 0`, and the
NAND page they address is FREE. -/
theorem write_pointer_invariant (cpp : convparams) (spp : ssdparams) (gc_mode : Nat) (dbg : Bool)
    (d0 : Nat → Option Nat) (s : conv_ftl) (hgeo : sweep_geometry spp)
    (hr : reachable cpp spp gc_mode dbg d0 s) :
    wp_invariant s s.wp ∧ wp_invariant s s.gc_wp := by
  have hI := reachable_wf hgeo hr
  unfold wf_inv at hI
  exact ⟨open_free_wp_invariant hgeo.1 hI.sp_eq hI.ids hI.this_open,
    open_free_wp_invariant hgeo.1 hI.sp_eq hI.ids hI.other_open⟩

/-- C18, witness: in the reachable state `one_victim_state` the user cursor is at page 0 of
line 2 and the GC cursor at page 0 of line 1. -/
theorem write_pointer_invariant_witness :
    sweep_geometry (tiny_params 6) ∧
    reachable conv_params (tiny_params 6) 0 false (fun _ => none) one_victim_state ∧
    wp_invariant one_victim_state one_victim_state.wp ∧
    wp_invariant one_victim_state one_victim_state.gc_wp :=
  ⟨by decide, reachable_one_victim,
    write_pointer_invariant conv_params (tiny_params 6) 0 false (fun _ => none)
      one_victim_state (by decide) reachable_one_victim⟩

/-! ## Line accounting (P2) -/

theorem wf_inv_accounting {sp : ssdparams} {s : conv_ftl} (h : wf_inv sp none s) :
    line_accounting s :=
  ⟨fun k hk => h.acct k (by rw [← h.tt]; exact hk) (by simp), h.bacct⟩

/-- C15: line accounting (P2): every line's `vpc` and `ipc` count the VALID and INVALID pages
of the blocks numbered `line.id`, and every block's `vpc` and `ipc` count its own pages.
The predicate holds after `conv_init_ftl`; `mark_page_valid` (which returns only on a FREE
page) and `mark_page_invalid` (which returns only on a VALID page) keep it in every state
whose lines are numbered by their index, `mark_page_invalid` for every comparison and
priority hook and every `select_victim` (the three GC modes differ in nothing else); it holds
in every state reachable by page writes and complete GC runs, in every GC mode, and a complete
`do_gc` from such a state keeps it. -/
theorem line_accounting_preserved (cpp : convparams) (spp : ssdparams) (gc_mode : Nat)
    (dbg : Bool) (d0 : Nat → Option Nat) :
    (∀ s, conv_init_ftl cpp (ssd_init spp) gc_mode dbg d0 = some s → line_accounting s) ∧
    (∀ t t1 p, line_ids t.lm → line_accounting t → mark_page_valid t p = some t1 →
      page_status t p = some PG_FREE ∧ line_accounting t1) ∧
    (∀ t t1 now p, line_ids t.lm → line_hooks t.lm.victim_line_pq → line_accounting t →
      mark_page_invalid t now p = some t1 →
      page_status t p = some PG_VALID ∧ line_accounting t1) ∧
    (sweep_geometry spp → ∀ s, reachable cpp spp gc_mode dbg d0 s →
      line_accounting s ∧
      ∀ now r force s1 rc, do_gc s now r force = some (s1, rc) → line_accounting s1) := by
  refine ⟨fun s h => (conv_init_ftl_acct h).1, ?_, ?_, ?_⟩
  · intro t t1 p hid hP h
    obtain ⟨macct, mblk⟩ := mark_page_valid_acct h
    obtain ⟨m1, _, _, m4, _, _⟩ := mark_page_valid_spec h
    have htt : t1.lm.tt_lines = t.lm.tt_lines := by rw [m4]
    refine ⟨m1, fun k hk => ?_, mblk hP.2⟩
    rw [htt] at hk
    exact macct k (hid k) (hP.1 k hk)
  · intro t t1 now p hid hk hP h
    obtain ⟨macct, mblk, mtt⟩ := mark_page_invalid_acct hk h
    obtain ⟨m1, _, _, _, _⟩ := mark_page_invalid_spec h
    refine ⟨m1, fun k hk2 => ?_, mblk hP.2⟩
    rw [mtt] at hk2
    exact macct k (hid k) (hP.1 k hk2)
  · intro hgeo s hr
    have hI := reachable_wf hgeo hr
    exact ⟨wf_inv_accounting hI, fun now r force s1 rc h =>
      wf_inv_accounting (wf_do_gc hgeo hI h)⟩

/-- C15, witness: the reachable state `one_victim_state` (line 0 holds one VALID and one
INVALID page) satisfies line accounting, and so does the state a forced `do_gc` leaves. -/
theorem line_accounting_preserved_witness :
    sweep_geometry (tiny_params 6) ∧
    reachable conv_params (tiny_params 6) 0 false (fun _ => none) one_victim_state ∧
    line_accounting one_victim_state ∧
    (do_gc one_victim_state 7 0 true).isSome = true ∧
    ∀ s1 rc, do_gc one_victim_state 7 0 true = some (s1, rc) → line_accounting s1 :=
  ⟨by decide, reachable_one_victim,
    ((line_accounting_preserved conv_params (tiny_params 6) 0 false (fun _ => none)).2.2.2
      (by decide) one_victim_state reachable_one_victim).1,
    by decide,
    fun s1 rc h =>
      ((line_accounting_preserved conv_params (tiny_params 6) 0 false (fun _ => none)).2.2.2
        (by decide) one_victim_state reachable_one_victim).2 7 0 true s1 rc h⟩

/-! ## The write buffer -/

theorem sub_u64_exact {a b : Nat} (hb : b ≤ a) (ha : a < 18446744073709551616) :
    sub_u64 a b = a - b := by
  unfold sub_u64
  rw [show a + 18446744073709551616 - b = (a - b) + 18446744073709551616 by omega,
    Nat.add_mod_right]
  exact Nat.mod_eq_of_lt (by omega)

/-- C29, as the claim states it, fails at three inputs: a request above the buffer's size
trips the assertion of `buffer_allocate` (no value is returned), a granted request of `2^32`
bytes is reported as 0 by the `uint32_t` return value, and `buffer_release` wraps at
`2^64`. -/
theorem buffer_contract_counterexample :
    buffer_allocate { size := 4096, remaining := 4096 } 8192 = none ∧
    buffer_allocate { size := 8589934592, remaining := 8589934592 } 4294967296 =
      some ({ size := 8589934592, remaining := 4294967296 }, 0) ∧
    (buffer_release { size := 4096, remaining := 1 } 18446744073709551615).1.remaining = 0 := by
  refine ⟨by decide, ?_, ?_⟩
  · simp [buffer_allocate, NVMEV_ASSERT, sub_u64]
  · simp [buffer_release, u64]

/-- C29 (amended): for every buffer state with `remaining ≤ size` and every request `n` that
is at most the buffer's size and fits the 32-bit return value, `buffer_allocate` returns `n`
and takes exactly `n` off `remaining` when `remaining ≥ n`, and returns 0 and leaves the
buffer as it is when `remaining < n`, so `remaining` never underflows; `buffer_release n`
adds `n` to `remaining` as long as the sum stays below `2^64` and returns true, so it undoes
a granted `buffer_allocate n`; `buffer_refill` sets `remaining` to `size`. -/
theorem buffer_allocator_contract (buf : buffer) (n : Nat)
    (hrem : buf.remaining ≤ buf.size) (hsize : buf.size < 18446744073709551616)
    (hn : n ≤ buf.size) (h32 : n < 4294967296) :
    (n ≤ buf.remaining →
      buffer_allocate buf n = some ({ buf with remaining := buf.remaining - n }, n)) ∧
    (buf.remaining < n → buffer_allocate buf n = some (buf, 0)) ∧
    (∃ b r, buffer_allocate buf n = some (b, r) ∧ b.size = buf.size ∧
      b.remaining + r = buf.remaining ∧ b.remaining ≤ b.size) ∧
    (buf.remaining + n < 18446744073709551616 →
      buffer_release buf n = ({ buf with remaining := buf.remaining + n }, true)) ∧
    (n ≤ buf.remaining →
      (buffer_release { buf with remaining := buf.remaining - n } n).1 = buf) ∧
    (buffer_refill buf).remaining = buf.size ∧ (buffer_refill buf).size = buf.size := by
  have hA : n ≤ buf.remaining →
      buffer_allocate buf n = some ({ buf with remaining := buf.remaining - n }, n) := by
    intro h
    simp only [buffer_allocate, NVMEV_ASSERT, if_pos hn, if_neg (Nat.not_lt.mpr h)]
    simp [sub_u64_exact h (by omega), Nat.mod_eq_of_lt h32]
  have hB : buf.remaining < n → buffer_allocate buf n = some (buf, 0) := by
    intro h
    simp only [buffer_allocate, NVMEV_ASSERT, if_pos hn, if_pos h]
    simp [sub_u64_exact (Nat.zero_le _) (by omega : buf.remaining < 18446744073709551616)]
  refine ⟨hA, hB, ?_, ?_, ?_, rfl, rfl⟩
  · by_cases h : n ≤ buf.remaining
    · exact ⟨_, _, hA h, rfl, by simp; omega, by simp; omega⟩
    · exact ⟨_, _, hB (by omega), rfl, by simp, hrem⟩
  · intro h
    simp [buffer_release, u64, Nat.mod_eq_of_lt h]
  · intro h
    have e : buf.remaining - n + n = buf.remaining := by omega
    simp [buffer_release, u64, e, Nat.mod_eq_of_lt (by omega : buf.remaining < 18446744073709551616)]

theorem buffer_allocator_contract_witness :
    (buffer_allocate { size := 8192, remaining := 4096 } 4096 =
        some ({ size := 8192, remaining := 0 }, 4096)) ∧
    (buffer_allocate { size := 8192, remaining := 4096 } 8192 =
        some ({ size := 8192, remaining := 4096 }, 0)) := by
  refine ⟨?_, ?_⟩
  · exact (buffer_allocator_contract { size := 8192, remaining := 4096 } 4096
      (by decide) (by decide) (by decide) (by decide)).1 (by decide)
  · exact (buffer_allocator_contract { size := 8192, remaining := 4096 } 8192
      (by decide) (by decide) (by decide) (by decide)).2.1 (by decide)

/-! ## `ssd_advance_nand` -/

theorem set_next_lun_avail_time_same {χ : Type} (T : dev_time χ) (p c l t : Nat) :
    ((set_next_lun_avail_time T p c l t).lun p c l).next_lun_avail_time = t := by
  simp [set_next_lun_avail_time]

theorem set_next_lun_avail_time_other {χ : Type} (T : dev_time χ) (p c l t q d m : Nat)
    (h : ¬ (q = p ∧ d = c ∧ m = l)) :
    (set_next_lun_avail_time T p c l t).lun q d m = T.lun q d m := by
  unfold set_next_lun_avail_time
  by_cases h1 : q = p
  · subst h1
    by_cases h2 : d = c
    · subst h2
      have h3 : m ≠ l := fun e => h ⟨rfl, rfl, e⟩
      simp [Function.update_noteq h3]
    · simp [Function.update_noteq h2]
  · simp [Function.update_noteq h1]

theorem ceil_div_eq {x M j : Nat} (h1 : j * M < x) (h2 : x ≤ (j + 1) * M) :
    (x + M - 1) / M = j + 1 := by
  have hM : 0 < M := by
    rcases Nat.eq_zero_or_pos M with h | h
    · subst h; simp at h1 h2; omega
    · exact h
  apply Nat.div_eq_of_lt_le
  · have : (j + 1) * M = j * M + M := by ring
    omega
  · have : (j + 1 + 1) * M = (j + 1) * M + M := by ring
    omega

theorem nand_read_loop_eq {χ : Type} (E : timing_env χ) (sp : ssdparams) (p c : Nat)
    (il : Bool) (x e0 : Nat) (T0 : dev_time χ) (hM : 0 < sp.max_ch_xfer_size) :
    ∀ (fuel j : Nat), j * sp.max_ch_xfer_size < x → x - j * sp.max_ch_xfer_size ≤ fuel →
      nand_read_loop E sp p c il fuel (read_transfers E sp p c il x e0 T0 j).2.2
        (x - j * sp.max_ch_xfer_size) (read_transfers E sp p c il x e0 T0 j).1 =
      some (read_transfers E sp p c il x e0 T0
        ((x + sp.max_ch_xfer_size - 1) / sp.max_ch_xfer_size)) := by
  intro fuel
  induction fuel with
  | zero => intro j h1 h2; omega
  | succ n ih =>
    intro j h1 h2
    have hstep : (j + 1) * sp.max_ch_xfer_size = j * sp.max_ch_xfer_size + sp.max_ch_xfer_size := by
      ring
    unfold nand_read_loop
    by_cases hlast : x ≤ (j + 1) * sp.max_ch_xfer_size
    · have hr : x - j * sp.max_ch_xfer_size -
          min (x - j * sp.max_ch_xfer_size) sp.max_ch_xfer_size = 0 := by
        rw [Nat.min_eq_left (by omega)]; omega
      simp only [hr, if_true]
      rw [ceil_div_eq h1 hlast]
      rfl
    · have hmin : min (x - j * sp.max_ch_xfer_size) sp.max_ch_xfer_size =
          sp.max_ch_xfer_size := Nat.min_eq_right (by omega)
      have hr : x - j * sp.max_ch_xfer_size -
          min (x - j * sp.max_ch_xfer_size) sp.max_ch_xfer_size ≠ 0 := by
        rw [hmin]; omega
      simp only [if_neg hr]
      have key := ih (j + 1) (by omega) (by omega)
      have e1 : x - (j + 1) * sp.max_ch_xfer_size = x - j * sp.max_ch_xfer_size -
          min (x - j * sp.max_ch_xfer_size) sp.max_ch_xfer_size := by
        rw [hmin]; omega
      rw [e1] at key
      exact key

theorem ceil_div_bounds {x M : Nat} (hx : 0 < x) (hM : 0 < M) :
    0 < (x + M - 1) / M ∧ x ≤ (x + M - 1) / M * M ∧ ((x + M - 1) / M - 1) * M < x := by
  have h1 := Nat.div_add_mod (x + M - 1) M
  have h2 := Nat.mod_lt (x + M - 1) hM
  have h3 : 0 < (x + M - 1) / M := Nat.div_pos (by omega) hM
  rw [Nat.mul_comm] at h1
  refine ⟨h3, by omega, ?_⟩
  obtain ⟨q, hq⟩ : ∃ q, (x + M - 1) / M = q + 1 := ⟨(x + M - 1) / M - 1, by omega⟩
  rw [hq] at h1 ⊢
  have : (q + 1) * M = q * M + M := by ring
  simp only [Nat.add_sub_cancel]
  omega

theorem read_chunk_sum (sp : ssdparams) (x : Nat) :
    ∀ j, (Finset.range j).sum (read_chunk sp x) = min x (j * sp.max_ch_xfer_size) := by
  intro j
  induction j with
  | zero => simp
  | succ n ih =>
    rw [Finset.sum_range_succ, ih]
    unfold read_chunk
    have : (n + 1) * sp.max_ch_xfer_size = n * sp.max_ch_xfer_size + sp.max_ch_xfer_size := by
      ring
    omega

theorem nand_read_loop_start {χ : Type} (E : timing_env χ) (sp : ssdparams) (p c : Nat)
    (il : Bool) (x e0 : Nat) (T0 : dev_time χ) (hM : 0 < sp.max_ch_xfer_size) (hx : 0 < x) :
    nand_read_loop E sp p c il x T0 x e0 =
      some (read_transfers E sp p c il x e0 T0
        ((x + sp.max_ch_xfer_size - 1) / sp.max_ch_xfer_size)) := by
  have h := nand_read_loop_eq E sp p c il x e0 T0 hM x 0 (by omega) (by omega)
  simpa [read_transfers] using h

/-- C27: a `NAND_READ` on a mapped address with `stime ≠ 0` and `xfer_size > 0` starts its NAND
phase at `max(stime, next_lun_avail_time)` and ends it after `pg_4kb_rd_lat[cell]` for
4096 bytes and `pg_rd_lat[cell]` otherwise, `cell = (pg / pgs_per_flashpg) mod cell_mode`;
then come `⌈xfer_size / max_ch_xfer_size⌉` channel transfers of at most `max_ch_xfer_size`
bytes that add up to `xfer_size`, each requested at the end of the one before
(`read_transfers`); the LUN's `next_lun_avail_time` becomes the end of the last channel
transfer and the value returned is the completion of the last chunk. -/
theorem nand_read_timing {χ : Type} (E : timing_env χ) (sp : ssdparams) (p : Nat)
    (T : dev_time χ) (ncmd : nand_cmd) (cell lat t1 k : Nat)
    (hcmd : ncmd.cmd = NAND_READ) (hm : ncmd.ppa ≠ UNMAPPED_PPA) (hs : ncmd.stime ≠ 0)
    (hx : 0 < ncmd.xfer_size)
    (hch : ncmd.ppa.ch < sp.nchs) (hlun : ncmd.ppa.lun < sp.luns_per_ch)
    (hfp : 0 < sp.pgs_per_flashpg) (hcm : 0 < sp.cell_mode)
    (hmode : sp.cell_mode ≤ MAX_CELL_TYPES) (hM : 0 < sp.max_ch_xfer_size)
    (hcell : cell = (ncmd.ppa.pg / sp.pgs_per_flashpg) % sp.cell_mode)
    (hlat : lat = if ncmd.xfer_size = 4096 then sp.pg_4kb_rd_lat cell else sp.pg_rd_lat cell)
    (ht1 : t1 = max ncmd.stime (T.lun p ncmd.ppa.ch ncmd.ppa.lun).next_lun_avail_time + lat)
    (hno : t1 < 18446744073709551616)
    (hk : k = (ncmd.xfer_size + sp.max_ch_xfer_size - 1) / sp.max_ch_xfer_size) :
    ssd_advance_nand E sp p T ncmd =
      some ((read_transfers E sp p ncmd.ppa.ch ncmd.interleave_pci_dma ncmd.xfer_size t1 T k).2.1,
        set_next_lun_avail_time
          (read_transfers E sp p ncmd.ppa.ch ncmd.interleave_pci_dma ncmd.xfer_size t1 T k).2.2
          p ncmd.ppa.ch ncmd.ppa.lun
          (read_transfers E sp p ncmd.ppa.ch ncmd.interleave_pci_dma ncmd.xfer_size t1 T k).1) ∧
    0 < k ∧
    (∀ i, i < k → 0 < read_chunk sp ncmd.xfer_size i ∧
      read_chunk sp ncmd.xfer_size i ≤ sp.max_ch_xfer_size) ∧
    (Finset.range k).sum (read_chunk sp ncmd.xfer_size) = ncmd.xfer_size ∧
    (ncmd.interleave_pci_dma = false →
      (read_transfers E sp p ncmd.ppa.ch ncmd.interleave_pci_dma ncmd.xfer_size t1 T k).2.1 =
      (read_transfers E sp p ncmd.ppa.ch ncmd.interleave_pci_dma ncmd.xfer_size t1 T k).1) := by
  obtain ⟨hk0, hk1, hk2⟩ := ceil_div_bounds hx hM
  rw [← hk] at hk0 hk1 hk2
  have hc3 : ¬ MAX_CELL_TYPES ≤ (ncmd.ppa.pg / sp.pgs_per_flashpg) % sp.cell_mode := by
    have := Nat.mod_lt (ncmd.ppa.pg / sp.pgs_per_flashpg) hcm
    omega
  refine ⟨?_, hk0, ?_, ?_, ?_⟩
  · have hloop := nand_read_loop_start E sp p ncmd.ppa.ch ncmd.interleave_pci_dma
      ncmd.xfer_size t1 T hM hx
    rw [← hk] at hloop
    have hmax : max (T.lun p ncmd.ppa.ch ncmd.ppa.lun).next_lun_avail_time ncmd.stime =
        max ncmd.stime (T.lun p ncmd.ppa.ch ncmd.ppa.lun).next_lun_avail_time := Nat.max_comm _ _
    have he : (if ncmd.xfer_size = 4096 then
          u64 (max (T.lun p ncmd.ppa.ch ncmd.ppa.lun).next_lun_avail_time ncmd.stime +
            sp.pg_4kb_rd_lat ((ncmd.ppa.pg / sp.pgs_per_flashpg) % sp.cell_mode))
        else u64 (max (T.lun p ncmd.ppa.ch ncmd.ppa.lun).next_lun_avail_time ncmd.stime +
            sp.pg_rd_lat ((ncmd.ppa.pg / sp.pgs_per_flashpg) % sp.cell_mode))) = t1 := by
      rw [hmax, ht1, hlat, hcell]
      split_ifs with h4
      · rw [ht1, hlat, hcell, if_pos h4] at hno
        exact Nat.mod_eq_of_lt hno
      · rw [ht1, hlat, hcell, if_neg h4] at hno
        exact Nat.mod_eq_of_lt hno
    unfold ssd_advance_nand
    simp only [if_neg hs, if_neg hm, hch, hlun, and_self, not_true_eq_false, if_false,
      Nat.pos_iff_ne_zero.mp hfp, Nat.pos_iff_ne_zero.mp hcm, or_self, hcmd, if_true,
      if_neg hc3, he, if_neg (Nat.pos_iff_ne_zero.mp hx), hloop]
  · intro i hi
    have h1 : i * sp.max_ch_xfer_size ≤ (k - 1) * sp.max_ch_xfer_size :=
      Nat.mul_le_mul_right _ (by omega)
    unfold read_chunk
    omega
  · rw [read_chunk_sum]
    omega
  · intro hil
    obtain ⟨q, hq⟩ : ∃ q, k = q + 1 := ⟨k - 1, by omega⟩
    rw [hq]
    simp [read_transfers, hil]

theorem nand_read_timing_witness :
    ssd_advance_nand example_env (tiny_params 6) 0 (idle_time 0) example_read =
      some ((read_transfers example_env (tiny_params 6) 0 0 true 40000 100 (idle_time 0) 3).2.1,
        set_next_lun_avail_time
          (read_transfers example_env (tiny_params 6) 0 0 true 40000 100 (idle_time 0) 3).2.2
          0 0 0
          (read_transfers example_env (tiny_params 6) 0 0 true 40000 100 (idle_time 0) 3).1) ∧
    (read_transfers example_env (tiny_params 6) 0 0 true 40000 100 (idle_time 0) 3).2.1 = 56484 ∧
    (read_transfers example_env (tiny_params 6) 0 0 true 40000 100 (idle_time 0) 3).1 = 40100 :=
  ⟨(nand_read_timing example_env (tiny_params 6) 0 (idle_time 0) example_read 0 0 100 3
      (by decide) (by decide) (by decide) (by decide) (by decide) (by decide) (by decide)
      (by decide) (by decide) (by decide) (by decide) (by decide) (by decide) (by decide)
      (by decide)).1, by decide, by decide⟩

/-- C28: on a mapped address with `stime ≠ 0` and `t0 = max(stime, next_lun_avail_time)`,
`ssd_advance_nand` returns, and stores in the LUN's `next_lun_avail_time`, the end `e` of the
channel transfer of `xfer_size` bytes requested at `t0` plus `pg_wr_lat` for a `NAND_WRITE`,
`t0 + blk_er_lat` for a `NAND_ERASE` and `t0` for a `NAND_NOP`; a write makes that one request
to its channel and none to PCIe, an erase and a no-op make no request at all; the LUN's time
does not decrease and no other LUN's time changes.  The times are taken below `2^64`, and the
channel model ends no transfer before it was requested. -/
theorem nand_write_erase_nop_timing {χ : Type} (E : timing_env χ) (sp : ssdparams) (p : Nat)
    (T : dev_time χ) (ncmd : nand_cmd) (t0 e : Nat)
    (hm : ncmd.ppa ≠ UNMAPPED_PPA) (hs : ncmd.stime ≠ 0)
    (hch : ncmd.ppa.ch < sp.nchs) (hlun : ncmd.ppa.lun < sp.luns_per_ch)
    (hfp : 0 < sp.pgs_per_flashpg) (hcm : 0 < sp.cell_mode)
    (ht0 : t0 = max ncmd.stime (T.lun p ncmd.ppa.ch ncmd.ppa.lun).next_lun_avail_time)
    (he : e = (E.chmodel_request (T.perf_model p ncmd.ppa.ch) t0 ncmd.xfer_size).1)
    (hmono : ∀ m t n, t ≤ (E.chmodel_request m t n).1)
    (hw : e + sp.pg_wr_lat < 18446744073709551616)
    (her : t0 + sp.blk_er_lat < 18446744073709551616) :
    (ncmd.cmd = NAND_WRITE →
      ∃ T1, ssd_advance_nand E sp p T ncmd = some (e + sp.pg_wr_lat, T1) ∧
        (T1.lun p ncmd.ppa.ch ncmd.ppa.lun).next_lun_avail_time = e + sp.pg_wr_lat ∧
        (T.lun p ncmd.ppa.ch ncmd.ppa.lun).next_lun_avail_time ≤ e + sp.pg_wr_lat ∧
        T1.perf_model p ncmd.ppa.ch =
          (E.chmodel_request (T.perf_model p ncmd.ppa.ch) t0 ncmd.xfer_size).2 ∧
        T1.pcie = T.pcie ∧
        ∀ q c l, ¬ (q = p ∧ c = ncmd.ppa.ch ∧ l = ncmd.ppa.lun) → T1.lun q c l = T.lun q c l) ∧
    (ncmd.cmd = NAND_ERASE →
      ∃ T1, ssd_advance_nand E sp p T ncmd = some (t0 + sp.blk_er_lat, T1) ∧
        (T1.lun p ncmd.ppa.ch ncmd.ppa.lun).next_lun_avail_time = t0 + sp.blk_er_lat ∧
        (T.lun p ncmd.ppa.ch ncmd.ppa.lun).next_lun_avail_time ≤ t0 + sp.blk_er_lat ∧
        T1.perf_model = T.perf_model ∧ T1.pcie = T.pcie ∧
        ∀ q c l, ¬ (q = p ∧ c = ncmd.ppa.ch ∧ l = ncmd.ppa.lun) → T1.lun q c l = T.lun q c l) ∧
    (ncmd.cmd = NAND_NOP →
      ∃ T1, ssd_advance_nand E sp p T ncmd = some (t0, T1) ∧
        (T1.lun p ncmd.ppa.ch ncmd.ppa.lun).next_lun_avail_time = t0 ∧
        (T.lun p ncmd.ppa.ch ncmd.ppa.lun).next_lun_avail_time ≤ t0 ∧
        T1.perf_model = T.perf_model ∧ T1.pcie = T.pcie ∧
        ∀ q c l, ¬ (q = p ∧ c = ncmd.ppa.ch ∧ l = ncmd.ppa.lun) → T1.lun q c l = T.lun q c l) := by
  have hmax : max (T.lun p ncmd.ppa.ch ncmd.ppa.lun).next_lun_avail_time ncmd.stime = t0 := by
    rw [ht0]; exact Nat.max_comm _ _
  have hle : (T.lun p ncmd.ppa.ch ncmd.ppa.lun).next_lun_avail_time ≤ t0 := by
    rw [ht0]; exact Nat.le_max_right _ _
  have hte : t0 ≤ e := by rw [he]; exact hmono _ _ _
  refine ⟨?_, ?_, ?_⟩
  · intro hc
    refine ⟨set_next_lun_avail_time (ch_request E T p ncmd.ppa.ch t0 ncmd.xfer_size).2 p
      ncmd.ppa.ch ncmd.ppa.lun (e + sp.pg_wr_lat), ?_, ?_, by omega, ?_, ?_, ?_⟩
    · unfold ssd_advance_nand
      simp only [if_neg hs, if_neg hm, hch, hlun, and_self, not_true_eq_false, if_false,
        Nat.pos_iff_ne_zero.mp hfp, Nat.pos_iff_ne_zero.mp hcm, or_self, hc, hmax,
        show ¬ NAND_WRITE = NAND_READ by decide, if_true, ch_request, ← he, u64,
        Nat.mod_eq_of_lt hw]
    · exact set_next_lun_avail_time_same _ _ _ _ _
    · simp [set_next_lun_avail_time, ch_request]
    · simp [set_next_lun_avail_time, ch_request]
    · intro q c l h
      rw [set_next_lun_avail_time_other _ _ _ _ _ _ _ _ h]
      rfl
  · intro hc
    refine ⟨set_next_lun_avail_time T p ncmd.ppa.ch ncmd.ppa.lun (t0 + sp.blk_er_lat),
      ?_, ?_, by omega, ?_, ?_, ?_⟩
    · unfold ssd_advance_nand
      simp only [if_neg hs, if_neg hm, hch, hlun, and_self, not_true_eq_false, if_false,
        Nat.pos_iff_ne_zero.mp hfp, Nat.pos_iff_ne_zero.mp hcm, or_self, hc, hmax,
        show ¬ NAND_ERASE = NAND_READ by decide, show ¬ NAND_ERASE = NAND_WRITE by decide,
        if_true, u64, Nat.mod_eq_of_lt her]
    · exact set_next_lun_avail_time_same _ _ _ _ _
    · simp [set_next_lun_avail_time]
    · simp [set_next_lun_avail_time]
    · intro q c l h
      rw [set_next_lun_avail_time_other _ _ _ _ _ _ _ _ h]
  · intro hc
    refine ⟨set_next_lun_avail_time T p ncmd.ppa.ch ncmd.ppa.lun t0, ?_, ?_, hle, ?_, ?_, ?_⟩
    · unfold ssd_advance_nand
      simp only [if_neg hs, if_neg hm, hch, hlun, and_self, not_true_eq_false, if_false,
        Nat.pos_iff_ne_zero.mp hfp, Nat.pos_iff_ne_zero.mp hcm, or_self, hc, hmax,
        show ¬ NAND_NOP = NAND_READ by decide, show ¬ NAND_NOP = NAND_WRITE by decide,
        show ¬ NAND_NOP = NAND_ERASE by decide, if_true]
    · exact set_next_lun_avail_time_same _ _ _ _ _
    · simp [set_next_lun_avail_time]
    · simp [set_next_lun_avail_time]
    · intro q c l h
      rw [set_next_lun_avail_time_other _ _ _ _ _ _ _ _ h]

theorem nand_write_erase_nop_timing_witness :
    ∃ T1, ssd_advance_nand example_env (tiny_params 6) 0 (idle_time 0)
        (example_cmd NAND_WRITE) = some (4196, T1) ∧
      (T1.lun 0 0 0).next_lun_avail_time = 4196 :=
  have h := (nand_write_erase_nop_timing example_env (tiny_params 6) 0 (idle_time 0)
    (example_cmd NAND_WRITE) 100 4196 (by decide) (by decide) (by decide) (by decide)
    (by decide) (by decide) (by decide) (by decide)
    (fun m t n => by simp [example_env]; omega) (by decide) (by decide)).1 rfl
  h.imp fun _ h1 => ⟨h1.1, h1.2.1⟩

/-! ## `conv_flush` -/

theorem lun_max_spec {χ : Type} (T : dev_time χ) (p c : Nat) (n a : Nat) :
    a ≤ lun_max T p c n a ∧
    (∀ l, l < n → (T.lun p c l).next_lun_avail_time ≤ lun_max T p c n a) ∧
    (lun_max T p c n a = a ∨
      ∃ l, l < n ∧ lun_max T p c n a = (T.lun p c l).next_lun_avail_time) := by
  induction n with
  | zero => exact ⟨Nat.le_refl _, fun l h => absurd h (Nat.not_lt_zero _), Or.inl rfl⟩
  | succ n ih =>
    obtain ⟨h1, h2, h3⟩ := ih
    simp only [lun_max]
    refine ⟨Nat.le_trans h1 (Nat.le_max_left _ _), ?_, ?_⟩
    · intro l hl
      rcases Nat.lt_succ_iff_lt_or_eq.mp hl with h | h
      · exact Nat.le_trans (h2 l h) (Nat.le_max_left _ _)
      · subst h; exact Nat.le_max_right _ _
    · rcases Nat.le_total (lun_max T p c n a) (T.lun p c n).next_lun_avail_time with h | h
      · right
        exact ⟨n, Nat.lt_succ_self _, Nat.max_eq_right h⟩
      · rw [Nat.max_eq_left h]
        rcases h3 with h3 | ⟨l, hl, h3⟩
        · exact Or.inl h3
        · exact Or.inr ⟨l, Nat.lt_succ_of_lt hl, h3⟩

theorem ch_max_spec {χ : Type} (T : dev_time χ) (p nl : Nat) (n a : Nat) :
    a ≤ ch_max T p nl n a ∧
    (∀ c l, c < n → l < nl → (T.lun p c l).next_lun_avail_time ≤ ch_max T p nl n a) ∧
    (ch_max T p nl n a = a ∨
      ∃ c l, c < n ∧ l < nl ∧ ch_max T p nl n a = (T.lun p c l).next_lun_avail_time) := by
  induction n with
  | zero => exact ⟨Nat.le_refl _, fun c l h => absurd h (Nat.not_lt_zero _), Or.inl rfl⟩
  | succ n ih =>
    obtain ⟨h1, h2, h3⟩ := ih
    obtain ⟨g1, g2, g3⟩ := lun_max_spec T p n nl (ch_max T p nl n a)
    simp only [ch_max]
    refine ⟨Nat.le_trans h1 g1, ?_, ?_⟩
    · intro c l hc hl
      rcases Nat.lt_succ_iff_lt_or_eq.mp hc with h | h
      · exact Nat.le_trans (h2 c l h hl) g1
      · subst h; exact g2 l hl
    · rcases g3 with g3 | ⟨l, hl, g3⟩
      · rw [g3]
        rcases h3 with h3 | ⟨c, l, hc, hl, h3⟩
        · exact Or.inl h3
        · exact Or.inr ⟨c, l, Nat.lt_succ_of_lt hc, hl, h3⟩
      · exact Or.inr ⟨n, l, Nat.lt_succ_self _, hl, g3⟩

theorem conv_flush_idle_spec {χ : Type} (E : timing_env χ) (ns : nvmev_ns) (T : dev_time χ)
    (start : Nat) (n : Nat) :
    (conv_flush_idle E ns n (start, T)).2 = { T with clock_reads := T.clock_reads + n } ∧
    start ≤ (conv_flush_idle E ns n (start, T)).1 ∧
    (∀ i, i < n → E.cpu_clock (T.clock_reads + i) ≤ (conv_flush_idle E ns n (start, T)).1) ∧
    (∀ i c l, i < n → c < (ns.ftls i).ssd.sp.nchs → l < (ns.ftls i).ssd.sp.luns_per_ch →
      (T.lun i c l).next_lun_avail_time ≤ (conv_flush_idle E ns n (start, T)).1) ∧
    ((conv_flush_idle E ns n (start, T)).1 = start ∨
      (∃ i, i < n ∧ (conv_flush_idle E ns n (start, T)).1 = E.cpu_clock (T.clock_reads + i)) ∨
      ∃ i c l, i < n ∧ c < (ns.ftls i).ssd.sp.nchs ∧ l < (ns.ftls i).ssd.sp.luns_per_ch ∧
        (conv_flush_idle E ns n (start, T)).1 = (T.lun i c l).next_lun_avail_time) := by
  induction n with
  | zero =>
    exact ⟨rfl, Nat.le_refl _, fun i h => absurd h (Nat.not_lt_zero _),
      fun i c l h => absurd h (Nat.not_lt_zero _), Or.inl rfl⟩
  | succ n ih =>
    obtain ⟨h0, h1, h2, h3, h4⟩ := ih
    obtain ⟨g1, g2, g3⟩ := ch_max_spec (__get_ioclock E (conv_flush_idle E ns n (start, T)).2).2
      n (ns.ftls n).ssd.sp.luns_per_ch (ns.ftls n).ssd.sp.nchs
      (__get_ioclock E (conv_flush_idle E ns n (start, T)).2).1
    have e1 : (__get_ioclock E (conv_flush_idle E ns n (start, T)).2).1 =
        E.cpu_clock (T.clock_reads + n) := by rw [h0]; rfl
    have e2 : ∀ i c l, ((__get_ioclock E (conv_flush_idle E ns n (start, T)).2).2.lun i c l) =
        T.lun i c l := by intro i c l; rw [h0]; rfl
    simp only [e2] at g2 g3
    simp only [e1] at g1 g2 g3
    simp only [conv_flush_idle, ssd_next_idle_time, e1]
    refine ⟨?_, Nat.le_trans h1 (Nat.le_max_left _ _), ?_, ?_, ?_⟩
    · rw [h0]; simp [__get_ioclock, Nat.add_assoc]
    · intro i hi
      rcases Nat.lt_succ_iff_lt_or_eq.mp hi with h | h
      · exact Nat.le_trans (h2 i h) (Nat.le_max_left _ _)
      · subst h; exact Nat.le_trans g1 (Nat.le_max_right _ _)
    · intro i c l hi hc hl
      rcases Nat.lt_succ_iff_lt_or_eq.mp hi with h | h
      · exact Nat.le_trans (h3 i c l h hc hl) (Nat.le_max_left _ _)
      · subst h; exact Nat.le_trans (g2 c l hc hl) (Nat.le_max_right _ _)
    · rcases Nat.le_total (conv_flush_idle E ns n (start, T)).1
        (ch_max (__get_ioclock E (conv_flush_idle E ns n (start, T)).2).2 n
          (ns.ftls n).ssd.sp.luns_per_ch (ns.ftls n).ssd.sp.nchs
          (E.cpu_clock (T.clock_reads + n))) with h | h
      · rw [Nat.max_eq_right h]
        rcases g3 with g3 | ⟨c, l, hc, hl, g3⟩
        · exact Or.inr (Or.inl ⟨n, Nat.lt_succ_self _, g3⟩)
        · exact Or.inr (Or.inr ⟨n, c, l, Nat.lt_succ_self _, hc, hl, g3⟩)
      · rw [Nat.max_eq_left h]
        rcases h4 with h4 | ⟨i, hi, h4⟩ | ⟨i, c, l, hi, hc, hl, h4⟩
        · exact Or.inl h4
        · exact Or.inr (Or.inl ⟨i, Nat.lt_succ_of_lt hi, h4⟩)
        · exact Or.inr (Or.inr ⟨i, c, l, Nat.lt_succ_of_lt hi, hc, hl, h4⟩)

/-- C26, as the claim states it, fails on an idle device: every LUN is available at 0, the
clocks read 5, and `conv_flush` returns 5, not the LUN maximum 0. -/
theorem flush_lun_maximum_counterexample :
    (∀ p c l, ((idle_time 0).lun p c l).next_lun_avail_time = 0) ∧
    (conv_flush example_env fresh_ns fresh_state.glob (idle_time 0) 5).bind (fun o => o.ret) =
      some { status := NVME_SC_SUCCESS, nsecs_target := 5 } := by
  refine ⟨fun _ _ _ => rfl, by decide⟩

/-- C26 (amended): unless the statistics printout of debug mode divides by a zero
`victim_chosen_cnt`, `conv_flush` returns status success and `nsecs_target` equal to the
maximum of `local_clock()` at its start, the dispatcher clock read once for each FTL instance,
and `next_lun_avail_time` over every LUN of every channel of every FTL instance; it changes
nothing but the count of clock reads.  So it returns the LUN maximum whenever that is not
earlier than the clocks. -/
theorem flush_returns_latest {χ : Type} (E : timing_env χ) (ns : nvmev_ns) (g : globals)
    (T : dev_time χ) (start : Nat)
    (hdbg : ¬ (g.debug_mode = true ∧ 0 < g.total_gc_cnt ∧ g.victim_chosen_cnt = 0)) :
    ∃ o v, conv_flush E ns g T start = some o ∧
      o.ret = some { status := NVME_SC_SUCCESS, nsecs_target := v } ∧
      o.ns = ns ∧ o.g = g ∧ o.T = { T with clock_reads := T.clock_reads + ns.nr_parts } ∧
      start ≤ v ∧
      (∀ i, i < ns.nr_parts → E.cpu_clock (T.clock_reads + i) ≤ v) ∧
      (∀ i c l, i < ns.nr_parts → c < (ns.ftls i).ssd.sp.nchs →
        l < (ns.ftls i).ssd.sp.luns_per_ch → (T.lun i c l).next_lun_avail_time ≤ v) ∧
      (v = start ∨ (∃ i, i < ns.nr_parts ∧ v = E.cpu_clock (T.clock_reads + i)) ∨
        ∃ i c l, i < ns.nr_parts ∧ c < (ns.ftls i).ssd.sp.nchs ∧
          l < (ns.ftls i).ssd.sp.luns_per_ch ∧ v = (T.lun i c l).next_lun_avail_time) ∧
      ∀ i c l, i < ns.nr_parts → c < (ns.ftls i).ssd.sp.nchs →
        l < (ns.ftls i).ssd.sp.luns_per_ch → start ≤ (T.lun i c l).next_lun_avail_time →
        (∀ j, j < ns.nr_parts →
          E.cpu_clock (T.clock_reads + j) ≤ (T.lun i c l).next_lun_avail_time) →
        (∀ j d m, j < ns.nr_parts → d < (ns.ftls j).ssd.sp.nchs →
          m < (ns.ftls j).ssd.sp.luns_per_ch →
          (T.lun j d m).next_lun_avail_time ≤ (T.lun i c l).next_lun_avail_time) →
        v = (T.lun i c l).next_lun_avail_time := by
  obtain ⟨h0, h1, h2, h3, h4⟩ := conv_flush_idle_spec E ns T start ns.nr_parts
  refine ⟨{ ok := true,
            ret := some { status := NVME_SC_SUCCESS,
                          nsecs_target := (conv_flush_idle E ns ns.nr_parts (start, T)).1 },
            ns := ns, g := g, T := (conv_flush_idle E ns ns.nr_parts (start, T)).2,
            issued := [], scheduled := [] },
    (conv_flush_idle E ns ns.nr_parts (start, T)).1, ?_, rfl, rfl, rfl, h0, h1, h2, h3, h4, ?_⟩
  · unfold conv_flush
    rw [if_neg hdbg]
  · intro i c l hi hc hl hs hclk hlun
    apply Nat.le_antisymm
    · rcases h4 with h4 | ⟨j, hj, h4⟩ | ⟨j, d, m, hj, hd, hm, h4⟩
      · rw [h4]; exact hs
      · rw [h4]; exact hclk j hj
      · rw [h4]; exact hlun j d m hj hd hm
    · exact h3 i c l hi hc hl

theorem flush_returns_latest_witness :
    ∃ o v, conv_flush example_env flush_ns fresh_state.glob flush_time 5 = some o ∧
      o.ret = some { status := NVME_SC_SUCCESS, nsecs_target := v } ∧ v = 1400000 := by
  obtain ⟨o, v, h1, h2, _, _, _, _, _, _, _, h3⟩ :=
    flush_returns_latest example_env flush_ns fresh_state.glob flush_time 5 (by decide)
  refine ⟨o, v, h1, h2, ?_⟩
  refine h3 0 0 1 (by decide) (by decide) (by decide) (by decide)
    (fun j _ => by simp [example_env, flush_time]) ?_
  intro j d m _ _ _
  simp only [flush_time, one_ne_zero, and_false, if_false, and_self, if_true]
  split_ifs <;> omega

/-! ## `conv_write` -/

/-- C22, as the claim states it, fails for a write longer than the whole buffer: 16 sectors
(8192 bytes) against a buffer of 4096 bytes, all of them remaining, pass the range check and
trip the assertion of `buffer_allocate`, so `conv_write` returns nothing. -/
theorem write_buffer_shortage_counterexample :
    (idle_time 4096).write_buffer.remaining < LBA_TO_BYTE ((example_write 15 0).cmd.length + 1) ∧
    u64 ((example_write 15 0).cmd.slba + ((example_write 15 0).cmd.length + 1) - 1) /
      (fresh_ns.ftls 0).ssd.sp.secs_per_pg / fresh_ns.nr_parts < (fresh_ns.ftls 0).ssd.sp.tt_pgs ∧
    (conv_write example_env fresh_ns fresh_state.glob (idle_time 4096) (example_write 15 0)
      (fun _ => 0) (fun _ => 0)).isNone = true := by
  refine ⟨by decide, by decide, by decide⟩

/-- C22 (amended): an in-range write whose byte length exceeds the write buffer's remaining
bytes and is at most the buffer's size makes `conv_write` return false and leave the buffer,
the rest of the timing state, every FTL instance (maptbl, rmap, page statuses, block and line
counters, both write pointers, write credits) and the file-scope variables as they were; no
NAND command is issued and no buffer release scheduled. -/
theorem write_buffer_shortage_atomic {χ : Type} (E : timing_env χ) (ns : nvmev_ns)
    (g : globals) (T : dev_time χ) (req : nvmev_request) (now r : Nat → Nat)
    (hsec : 0 < (ns.ftls 0).ssd.sp.secs_per_pg) (hparts : 0 < ns.nr_parts)
    (hrange : u64 (req.cmd.slba + (req.cmd.length + 1) - 1) / (ns.ftls 0).ssd.sp.secs_per_pg /
      ns.nr_parts < (ns.ftls 0).ssd.sp.tt_pgs)
    (hshort : T.write_buffer.remaining < LBA_TO_BYTE (req.cmd.length + 1))
    (hsize : LBA_TO_BYTE (req.cmd.length + 1) ≤ T.write_buffer.size)
    (hrem : T.write_buffer.remaining < 18446744073709551616) :
    ∃ o, conv_write E ns g T req now r = some o ∧ o.ok = false ∧ o.ret = none ∧ o.ns = ns ∧
      o.g = g ∧ o.T = T ∧ o.issued = [] ∧ o.scheduled = [] := by
  have ha : buffer_allocate T.write_buffer (LBA_TO_BYTE (req.cmd.length + 1)) =
      some (T.write_buffer, 0) := by
    simp only [buffer_allocate, NVMEV_ASSERT, if_pos hsize, if_pos hshort]
    simp [sub_u64_exact (Nat.zero_le _) hrem]
  refine ⟨{ ok := false, ret := none, ns := ns, g := g, T := T, issued := [], scheduled := [] },
    ?_, rfl, rfl, rfl, rfl, rfl, rfl, rfl⟩
  unfold conv_write
  have h1 : ¬ ((ns.ftls 0).ssd.sp.secs_per_pg = 0 ∨ ns.nr_parts = 0) := by omega
  have h2 : ¬ ((ns.ftls 0).ssd.sp.tt_pgs ≤
      u64 (req.cmd.slba + (req.cmd.length + 1) - 1) / (ns.ftls 0).ssd.sp.secs_per_pg /
        ns.nr_parts) := by omega
  have h3 : 0 < LBA_TO_BYTE (req.cmd.length + 1) := by omega
  simp only [if_neg h1, if_neg h2, ha, if_pos h3]

theorem write_buffer_shortage_atomic_witness :
    ∃ o, conv_write example_env fresh_ns fresh_state.glob short_time (example_write 15 0)
        (fun _ => 0) (fun _ => 0) = some o ∧ o.ok = false ∧ o.ret = none ∧ o.ns = fresh_ns ∧
      o.g = fresh_state.glob ∧ o.T = short_time ∧ o.issued = [] ∧ o.scheduled = [] :=
  write_buffer_shortage_atomic example_env fresh_ns fresh_state.glob short_time
    (example_write 15 0) (fun _ => 0) (fun _ => 0) (by decide) (by decide) (by decide)
    (by decide) (by decide) (by decide)

theorem conv_write_step_issued {χ : Type} (E : timing_env χ) (sq_id x now r lpn : Nat)
    (st st' : write_pass χ) (h : conv_write_step E sq_id x now r lpn st = some st') :
    (st'.issued = st.issued ∧ st'.nsecs_latest = st.nsecs_latest) ∨
    ∃ c, st'.issued = st.issued ++ [c] ∧ st'.nsecs_latest = max c.completed st.nsecs_latest ∧
      c.ncmd.cmd = NAND_WRITE ∧ c.ncmd.type = USER_IO ∧ c.ncmd.stime = x := by
  unfold conv_write_step at h
  cases hm : conv_write_map { st.ns.ftls (lpn % st.ns.nr_parts) with glob := st.g } now
      (lpn / st.ns.nr_parts) with
  | none => simp [hm] at h
  | some m =>
    simp only [hm, Option.bind_eq_bind, Option.some_bind] at h
    by_cases hl : last_pg_in_wordline m.1 m.2 = true
    · simp only [hl, if_true] at h
      cases hn : ssd_advance_nand E m.1.ssd.sp (lpn % st.ns.nr_parts) st.T
          { type := USER_IO, cmd := NAND_WRITE, interleave_pci_dma := false,
            xfer_size := (st.ns.ftls 0).ssd.sp.pgsz * (st.ns.ftls 0).ssd.sp.pgs_per_oneshotpg,
            stime := x, ppa := m.2 } with
      | none => simp [hn] at h
      | some res =>
        obtain ⟨nc, T1⟩ := res
        simp only [hn, Option.some_bind] at h
        cases hc : check_and_refill_write_credit_timed E (lpn % st.ns.nr_parts)
            (consume_write_credit m.1) T1 now r with
        | none => simp [hc] at h
        | some c =>
          simp only [hc, Option.some_bind, Option.pure_def, Option.some.injEq] at h
          subst h
          exact Or.inr ⟨_, rfl, rfl, rfl, rfl, rfl⟩
    · simp only [hl, Bool.false_eq_true, if_false, Option.some_bind] at h
      cases hc : check_and_refill_write_credit_timed E (lpn % st.ns.nr_parts)
          (consume_write_credit m.1) st.T now r with
      | none => simp [hc] at h
      | some c =>
        simp only [hc, Option.some_bind, Option.pure_def, Option.some.injEq] at h
        subst h
        exact Or.inl ⟨rfl, rfl⟩

/-- C23: a write that succeeds returns status success; with FUA set in the control word, or
with `write_early_completion` 0, `nsecs_target` is the maximum of the buffer-transfer
completion `ssd_advance_write_buffer(nsecs_start, bytes)` and the completion times of the
NAND writes the handler issued for the command (each a `NAND_WRITE` of type `USER_IO`
requested at the buffer-transfer completion); otherwise it is exactly the buffer-transfer
completion. -/
theorem write_completion_time {χ : Type} (E : timing_env χ) (ns : nvmev_ns) (g : globals)
    (T : dev_time χ) (req : nvmev_request) (now r : Nat → Nat) (o : outcome χ)
    (h : conv_write E ns g T req now r = some o) (hok : o.ok = true) :
    o.ret = some
      { status := NVME_SC_SUCCESS,
        nsecs_target :=
          if req.cmd.control &&& NVME_RW_FUA ≠ 0 ∨
              (ns.ftls 0).ssd.sp.write_early_completion = false then
            (o.issued.map (fun c => c.completed)).foldl max
              (ssd_advance_write_buffer E (ns.ftls 0).ssd.sp T req.nsecs_start
                (LBA_TO_BYTE (req.cmd.length + 1))).1
          else (ssd_advance_write_buffer E (ns.ftls 0).ssd.sp T req.nsecs_start
                (LBA_TO_BYTE (req.cmd.length + 1))).1 } ∧
    ∀ c, c ∈ o.issued → c.ncmd.cmd = NAND_WRITE ∧ c.ncmd.type = USER_IO ∧
      c.ncmd.stime = (ssd_advance_write_buffer E (ns.ftls 0).ssd.sp T req.nsecs_start
                (LBA_TO_BYTE (req.cmd.length + 1))).1 := by
  unfold conv_write at h
  by_cases h1 : (ns.ftls 0).ssd.sp.secs_per_pg = 0 ∨ ns.nr_parts = 0
  · simp [h1] at h
  simp only [if_neg h1] at h
  by_cases h2 : (ns.ftls 0).ssd.sp.tt_pgs ≤
      u64 (req.cmd.slba + (req.cmd.length + 1) - 1) / (ns.ftls 0).ssd.sp.secs_per_pg /
        ns.nr_parts
  · simp only [if_pos h2, Option.some.injEq] at h
    subst h
    simp at hok
  simp only [if_neg h2] at h
  cases ha : buffer_allocate T.write_buffer (LBA_TO_BYTE (req.cmd.length + 1)) with
  | none => simp [ha] at h
  | some res =>
    obtain ⟨wbuf, a⟩ := res
    simp only [ha] at h
    by_cases h3 : a < LBA_TO_BYTE (req.cmd.length + 1)
    · simp only [if_pos h3, Option.some.injEq] at h
      subst h
      simp at hok
    simp only [if_neg h3] at h
    by_cases h4 : 18446744073709551616 ≤
        u64 (req.cmd.slba + (req.cmd.length + 1) - 1) / (ns.ftls 0).ssd.sp.secs_per_pg + 1
    · rw [if_pos h4] at h
      cases h
    simp only [if_neg h4] at h
    have hx : (ssd_advance_write_buffer E (ns.ftls 0).ssd.sp { T with write_buffer := wbuf }
        req.nsecs_start (LBA_TO_BYTE (req.cmd.length + 1))).1 =
        (ssd_advance_write_buffer E (ns.ftls 0).ssd.sp T req.nsecs_start
          (LBA_TO_BYTE (req.cmd.length + 1))).1 := rfl
    rw [hx] at h
    generalize hxv : (ssd_advance_write_buffer E (ns.ftls 0).ssd.sp T req.nsecs_start
          (LBA_TO_BYTE (req.cmd.length + 1))).1 = x at h ⊢
    generalize hl : for_loop _ _ _ = res at h
    cases res with
    | none => cases h
    | some st =>
      simp only [Option.some.injEq] at h
      have hinv := for_loop_inv _
        (fun (_ : Nat) (t : write_pass χ) =>
          t.nsecs_latest = (t.issued.map (fun c => c.completed)).foldl max x ∧
          ∀ c, c ∈ t.issued → c.ncmd.cmd = NAND_WRITE ∧ c.ncmd.type = USER_IO ∧
            c.ncmd.stime = x) _ _ st ⟨rfl, fun c hc => by simp at hc⟩
        (fun j t t' _ hI hb => by
          rcases conv_write_step_issued E _ _ _ _ _ t t' hb with ⟨e1, e2⟩ | ⟨c, e1, e2, e3⟩
          · rw [e1, e2]; exact hI
          · rw [e1, e2]
            refine ⟨?_, ?_⟩
            · rw [List.map_append, List.foldl_append, ← hI.1]
              simp [Nat.max_comm]
            · intro d hd
              rcases List.mem_append.mp hd with hd | hd
              · exact hI.2 d hd
              · rw [List.mem_singleton.mp hd]; exact e3) hl
      subst h
      refine ⟨?_, hinv.2⟩
      simp only [hinv.1]

theorem write_completion_time_witness :
    ∃ o, conv_write example_env fresh_ns fresh_state.glob (idle_time 8192)
        (example_write 7 NVME_RW_FUA) (fun _ => 0) (fun _ => 0) = some o ∧ o.ok = true ∧
      o.ret = some { status := NVME_SC_SUCCESS, nsecs_target := 8292 } := by
  have h1 : ((conv_write example_env fresh_ns fresh_state.glob (idle_time 8192)
      (example_write 7 NVME_RW_FUA) (fun _ => 0) (fun _ => 0)).map
        (fun o => (o.ok, o.issued.map (fun c => c.completed)))) = some (true, [8292]) := by
    decide
  obtain ⟨o, ho, he⟩ := Option.map_eq_some'.mp h1
  have hok : o.ok = true := congrArg Prod.fst he
  have hiss : o.issued.map (fun c => c.completed) = [8292] := congrArg Prod.snd he
  refine ⟨o, ho, hok, ?_⟩
  rw [(write_completion_time example_env fresh_ns fresh_state.glob (idle_time 8192)
    (example_write 7 NVME_RW_FUA) (fun _ => 0) (fun _ => 0) o ho hok).1, hiss]
  decide

/-! ## `conv_read` -/

theorem for_loop_from_total {σ : Type} (body : Nat → σ → Option σ) (I : Nat → σ → Prop) :
    ∀ (n i : Nat) (s : σ), I i s →
      (∀ j t, i ≤ j → j < i + n → I j t → ∃ t', body j t = some t' ∧ I (j + 1) t') →
      ∃ s', for_loop_from body n i s = some s' ∧ I (i + n) s' := by
  intro n
  induction n with
  | zero =>
    intro i s h0 _
    exact ⟨s, rfl, h0⟩
  | succ n ih =>
    intro i s h0 hstep
    obtain ⟨s1, hb, h1⟩ := hstep i s (Nat.le_refl i) (by omega) h0
    obtain ⟨s', h2, h3⟩ := ih (i + 1) s1 h1
      (fun j t hj1 hj2 => hstep j t (by omega) (by omega))
    refine ⟨s', ?_, ?_⟩
    · unfold for_loop_from
      simp only [hb]
      exact h2
    · have e : i + 1 + n = i + (n + 1) := by omega
      rw [e] at h3
      exact h3

theorem for_loop_total {σ : Type} (body : Nat → σ → Option σ) (I : Nat → σ → Prop)
    (n : Nat) (s : σ) (h0 : I 0 s)
    (hstep : ∀ j t, j < n → I j t → ∃ t', body j t = some t' ∧ I (j + 1) t') :
    ∃ s', for_loop n body s = some s' ∧ I n s' := by
  obtain ⟨s', h1, h2⟩ := for_loop_from_total body I n 0 s h0
    (fun j t _ hj => hstep j t (by omega))
  rw [Nat.zero_add] at h2
  exact ⟨s', h1, h2⟩

theorem flash_page_runs_eq_nil (sp : ssdparams) (L : List ppa) :
    flash_page_runs sp L = [] ↔ L = [] := by
  cases L with
  | nil => simp [flash_page_runs]
  | cons a rest =>
    simp only [flash_page_runs]
    cases flash_page_runs sp rest with
    | nil => simp
    | cons x tail =>
      obtain ⟨b, k⟩ := x
      simp only
      split_ifs <;> simp

theorem flash_page_runs_single (sp : ssdparams) (c : ppa) :
    flash_page_runs sp [c] = [(c, 1)] := by
  simp [flash_page_runs]

theorem flash_page_runs_snoc (sp : ssdparams) :
    ∀ (L : List ppa) (c : ppa) (front : List (ppa × Nat)) (b : ppa) (k : Nat),
      flash_page_runs sp L = front ++ [(b, k)] →
      flash_page_runs sp (L ++ [c]) =
        if flash_page sp b = flash_page sp c then front ++ [(b, k + 1)]
        else front ++ [(b, k), (c, 1)] := by
  intro L
  induction L with
  | nil =>
    intro c front b k h
    simp [flash_page_runs] at h
  | cons a rest ih =>
    intro c front b k h
    rw [List.cons_append]
    simp only [flash_page_runs] at h ⊢
    cases hr : flash_page_runs sp rest with
    | nil =>
      have hrest : rest = [] := (flash_page_runs_eq_nil sp rest).mp hr
      subst hrest
      rw [hr] at h
      simp only at h
      have h1 : front = [] ∧ (a, 1) = (b, k) := by
        cases front with
        | nil => simpa using h
        | cons x f => simp at h
      obtain ⟨hf, hbk⟩ := h1
      simp only [Prod.mk.injEq] at hbk
      obtain ⟨rfl, rfl⟩ := hbk
      subst hf
      simp only [List.nil_append, flash_page_runs]
    | cons x tail =>
      obtain ⟨b0, k0⟩ := x
      rw [hr] at h
      simp only at h
      -- the runs of `rest` end in some `(b1, k1)`
      obtain ⟨f1, y, hy⟩ : ∃ f1 y, (b0, k0) :: tail = f1 ++ [y] := by
        rcases List.eq_nil_or_concat ((b0, k0) :: tail) with h0 | ⟨f1, y, h0⟩
        · simp at h0
        · exact ⟨f1, y, by rw [h0, List.concat_eq_append]⟩
      obtain ⟨b1, k1⟩ := y
      have key := ih c f1 b1 k1 (by rw [hr, hy])
      rw [key]
      cases f1 with
      | nil =>
        simp only [List.nil_append, List.cons.injEq, Prod.mk.injEq] at hy
        obtain ⟨⟨rfl, rfl⟩, rfl⟩ := hy
        by_cases hab : flash_page sp a = flash_page sp b0
        · simp only [if_pos hab] at h
          have h1 : front = [] ∧ (a, k0 + 1) = (b, k) := by
            cases front with
            | nil => simpa using h
            | cons x f => simp at h
          obtain ⟨hf, hbk⟩ := h1
          simp only [Prod.mk.injEq] at hbk
          obtain ⟨rfl, rfl⟩ := hbk
          subst hf
          by_cases hbc : flash_page sp b0 = flash_page sp c
          · have hac : flash_page sp a = flash_page sp c := by rw [hab]; exact hbc
            simp only [if_pos hbc, if_pos hab, if_pos hac, List.nil_append]
          · have hac : ¬ flash_page sp a = flash_page sp c := by rw [hab]; exact hbc
            simp only [if_neg hbc, if_pos hab, if_neg hac, List.nil_append]
        · simp only [if_neg hab] at h
          have h1 : front = [(a, 1)] ∧ (b0, k0) = (b, k) := by
            cases front with
            | nil => simp at h
            | cons x f =>
              cases f with
              | nil =>
                simp only [List.cons_append, List.nil_append, List.cons.injEq, and_true] at h
                exact ⟨by rw [h.1], h.2⟩
              | cons x2 f2 => simp at h
          obtain ⟨hf, hbk⟩ := h1
          simp only [Prod.mk.injEq] at hbk
          obtain ⟨rfl, rfl⟩ := hbk
          subst hf
          by_cases hbc : flash_page sp b0 = flash_page sp c
          · simp only [if_pos hbc, if_neg hab, List.nil_append, List.cons_append]
          · simp only [if_neg hbc, if_neg hab, List.nil_append, List.cons_append]
      | cons z f2 =>
        simp only [List.cons_append, List.cons.injEq] at hy
        obtain ⟨rfl, rfl⟩ := hy
        by_cases hab : flash_page sp a = flash_page sp b0
        · simp only [if_pos hab] at h
          have h1 : front = (a, k0 + 1) :: f2 ∧ (b1, k1) = (b, k) := by
            have h2 : (a, k0 + 1) :: (f2 ++ [(b1, k1)]) = front ++ [(b, k)] := h
            rw [← List.cons_append] at h2
            have := List.append_inj' h2 rfl
            exact ⟨this.1.symm, by simpa using this.2⟩
          obtain ⟨hf, hbk⟩ := h1
          simp only [Prod.mk.injEq] at hbk
          obtain ⟨rfl, rfl⟩ := hbk
          subst hf
          by_cases hbc : flash_page sp b1 = flash_page sp c
          · simp only [if_pos hbc, if_pos hab, List.nil_append, List.cons_append]
          · simp only [if_neg hbc, if_pos hab, List.nil_append, List.cons_append]
        · simp only [if_neg hab] at h
          have h1 : front = (a, 1) :: (b0, k0) :: f2 ∧ (b1, k1) = (b, k) := by
            have h2 : (a, 1) :: (b0, k0) :: (f2 ++ [(b1, k1)]) = front ++ [(b, k)] := h
            rw [← List.cons_append, ← List.cons_append] at h2
            have := List.append_inj' h2 rfl
            exact ⟨this.1.symm, by simpa using this.2⟩
          obtain ⟨hf, hbk⟩ := h1
          simp only [Prod.mk.injEq] at hbk
          obtain ⟨rfl, rfl⟩ := hbk
          subst hf
          by_cases hbc : flash_page sp b1 = flash_page sp c
          · simp only [if_pos hbc, if_neg hab, List.nil_append, List.cons_append]
          · simp only [if_neg hbc, if_neg hab, List.nil_append, List.cons_append]

theorem flash_page_runs_sum (sp : ssdparams) (L : List ppa) :
    ((flash_page_runs sp L).map Prod.snd).sum = L.length := by
  induction L with
  | nil => simp [flash_page_runs]
  | cons a rest ih =>
    simp only [flash_page_runs]
    cases hr : flash_page_runs sp rest with
    | nil =>
      have hrest : rest = [] := (flash_page_runs_eq_nil sp rest).mp hr
      subst hrest
      simp
    | cons x tail =>
      obtain ⟨b, k⟩ := x
      rw [hr] at ih
      simp only [List.map_cons, List.sum_cons] at ih
      simp only [List.length_cons]
      split_ifs
      · simp only [List.map_cons, List.sum_cons]; omega
      · simp only [List.map_cons, List.sum_cons]; omega

theorem ssd_advance_nand_read_some {χ : Type} (E : timing_env χ) (sp : ssdparams) (p : Nat)
    (T : dev_time χ) (ncmd : nand_cmd) (hg : read_geometry sp) (hcmd : ncmd.cmd = NAND_READ)
    (hch : ncmd.ppa.ch < sp.nchs) (hlun : ncmd.ppa.lun < sp.luns_per_ch)
    (hx : 0 < ncmd.xfer_size) :
    ∃ c T', ssd_advance_nand E sp p T ncmd = some (c, T') := by
  obtain ⟨hfp, hcm, hmode, hM⟩ := hg
  have hc3 : ¬ MAX_CELL_TYPES ≤ (ncmd.ppa.pg / sp.pgs_per_flashpg) % sp.cell_mode := by
    have := Nat.mod_lt (ncmd.ppa.pg / sp.pgs_per_flashpg) hcm
    omega
  unfold ssd_advance_nand
  by_cases hu : ncmd.ppa = UNMAPPED_PPA
  · simp only [if_pos hu]
    exact ⟨_, _, rfl⟩
  · simp only [if_neg hu, hch, hlun, and_self, not_true_eq_false, if_false,
      Nat.pos_iff_ne_zero.mp hfp, Nat.pos_iff_ne_zero.mp hcm, or_self, hcmd, if_true,
      if_neg hc3, if_neg (Nat.pos_iff_ne_zero.mp hx)]
    rw [nand_read_loop_start E sp p ncmd.ppa.ch ncmd.interleave_pci_dma ncmd.xfer_size _ _ hM hx]
    exact ⟨_, _, rfl⟩

theorem is_same_flash_page_eq (f : conv_ftl) (a b : ppa) (h : 0 < f.ssd.sp.pgs_per_flashpg) :
    is_same_flash_page f a b = some (decide (flash_page f.ssd.sp b = flash_page f.ssd.sp a)) := by
  unfold is_same_flash_page flash_page
  rw [if_neg (Nat.pos_iff_ne_zero.mp h)]
  congr 1
  by_cases h1 : a.blk = b.blk ∧ a.pl = b.pl ∧ a.lun = b.lun ∧ a.ch = b.ch
  · obtain ⟨e1, e2, e3, e4⟩ := h1
    by_cases h2 : a.pg / f.ssd.sp.pgs_per_flashpg = b.pg / f.ssd.sp.pgs_per_flashpg
    · simp [e1, e2, e3, e4, h2]
    · have h3 : ¬ b.pg / f.ssd.sp.pgs_per_flashpg = a.pg / f.ssd.sp.pgs_per_flashpg :=
        fun e => h2 e.symm
      simp [e1, e2, e3, e4, h2, h3]
  · have h3 : ¬ (b.ch, b.lun, b.pl, b.blk, b.pg / f.ssd.sp.pgs_per_flashpg) =
        (a.ch, a.lun, a.pl, a.blk, a.pg / f.ssd.sp.pgs_per_flashpg) := by
      intro e
      simp only [Prod.mk.injEq] at e
      exact h1 ⟨e.2.2.2.1.symm, e.2.2.1.symm, e.2.1.symm, e.1.symm⟩
    simp [h1, h3]

theorem conv_read_issue_spec {χ : Type} (E : timing_env χ) (ns : nvmev_ns) (first stime : Nat)
    (st : read_pass χ) (b : ppa) (k : Nat)
    (hg : read_geometry (ns.ftls (first % ns.nr_parts)).ssd.sp)
    (hprev : st.prev_ppa = b) (hx : st.xfer_size = k * (ns.ftls 0).ssd.sp.pgsz)
    (hpos : 0 < k * (ns.ftls 0).ssd.sp.pgsz)
    (hv : valid_ppa (ns.ftls (first % ns.nr_parts)) b = true) :
    ∃ st', conv_read_issue E ns (first % ns.nr_parts) stime st = some st' ∧
      st.nsecs_latest ≤ st'.nsecs_latest ∧ st'.xfer_size = st.xfer_size ∧
      st'.prev_ppa = st.prev_ppa ∧
      st'.issued.map issued_key = st.issued.map issued_key ++ [run_read ns stime first (b, k)] := by
  have hv2 : b.ch < (ns.ftls (first % ns.nr_parts)).ssd.sp.nchs ∧
      b.lun < (ns.ftls (first % ns.nr_parts)).ssd.sp.luns_per_ch := by
    simp only [valid_ppa, Bool.and_eq_true, decide_eq_true_eq] at hv
    exact ⟨hv.1.1.1.1, hv.1.1.1.2⟩
  obtain ⟨c, T', hn⟩ := ssd_advance_nand_read_some E (ns.ftls (first % ns.nr_parts)).ssd.sp
    (first % ns.nr_parts) st.T
    { type := USER_IO, cmd := NAND_READ, stime := stime, interleave_pci_dma := true,
      xfer_size := st.xfer_size, ppa := st.prev_ppa } hg rfl (by rw [hprev]; exact hv2.1)
    (by rw [hprev]; exact hv2.2) (by rw [hx]; exact hpos)
  unfold conv_read_issue
  rw [if_pos (by rw [hx]; exact hpos)]
  simp only [hn]
  refine ⟨_, rfl, Nat.le_max_right _ _, rfl, rfl, ?_⟩
  simp [issued_key, run_read, hprev, hx]

theorem conv_read_issue_zero {χ : Type} (E : timing_env χ) (ns : nvmev_ns) (part stime : Nat)
    (st : read_pass χ) (hx : st.xfer_size = 0) :
    conv_read_issue E ns part stime st = some st := by
  unfold conv_read_issue
  rw [if_neg (by omega)]

theorem conv_read_lpn_skip {χ : Type} (E : timing_env χ) (ns : nvmev_ns) (stime first j : Nat)
    (st : read_pass χ)
    (hok : ¬ ((mapped_ppa (stride_ppa ns first j) &&
      valid_ppa (ns.ftls (first % ns.nr_parts)) (stride_ppa ns first j)) = true)) :
    conv_read_lpn E ns (first % ns.nr_parts) stime (first + j * ns.nr_parts) st = some st := by
  unfold conv_read_lpn
  have e : get_maptbl_ent (ns.ftls (first % ns.nr_parts)) ((first + j * ns.nr_parts) / ns.nr_parts)
      = stride_ppa ns first j := rfl
  simp only [e]
  have h2 : (!mapped_ppa (stride_ppa ns first j) ||
      !valid_ppa (ns.ftls (first % ns.nr_parts)) (stride_ppa ns first j)) = true := by
    revert hok
    cases mapped_ppa (stride_ppa ns first j) <;>
      cases valid_ppa (ns.ftls (first % ns.nr_parts)) (stride_ppa ns first j) <;> simp
  rw [if_pos h2]

theorem conv_read_lpn_same {χ : Type} (E : timing_env χ) (ns : nvmev_ns) (stime first j : Nat)
    (st : read_pass χ)
    (hg : 0 < (ns.ftls (first % ns.nr_parts)).ssd.sp.pgs_per_flashpg)
    (hok : (mapped_ppa (stride_ppa ns first j) &&
      valid_ppa (ns.ftls (first % ns.nr_parts)) (stride_ppa ns first j)) = true)
    (hprev : mapped_ppa st.prev_ppa = true)
    (hsame : flash_page (ns.ftls (first % ns.nr_parts)).ssd.sp st.prev_ppa =
      flash_page (ns.ftls (first % ns.nr_parts)).ssd.sp (stride_ppa ns first j)) :
    conv_read_lpn E ns (first % ns.nr_parts) stime (first + j * ns.nr_parts) st =
      some { st with xfer_size := (st.xfer_size + (ns.ftls 0).ssd.sp.pgsz) % 4294967296 } := by
  unfold conv_read_lpn
  have e : get_maptbl_ent (ns.ftls (first % ns.nr_parts)) ((first + j * ns.nr_parts) / ns.nr_parts)
      = stride_ppa ns first j := rfl
  simp only [e]
  have h2 : ¬ ((!mapped_ppa (stride_ppa ns first j) ||
      !valid_ppa (ns.ftls (first % ns.nr_parts)) (stride_ppa ns first j)) = true) := by
    revert hok
    cases mapped_ppa (stride_ppa ns first j) <;>
      cases valid_ppa (ns.ftls (first % ns.nr_parts)) (stride_ppa ns first j) <;> simp
  rw [if_neg h2]
  simp only [hprev, if_true, is_same_flash_page_eq _ _ _ hg, hsame, decide_True]

theorem conv_read_lpn_new {χ : Type} (E : timing_env χ) (ns : nvmev_ns) (stime first j : Nat)
    (st st1 : read_pass χ)
    (hg : 0 < (ns.ftls (first % ns.nr_parts)).ssd.sp.pgs_per_flashpg)
    (hok : (mapped_ppa (stride_ppa ns first j) &&
      valid_ppa (ns.ftls (first % ns.nr_parts)) (stride_ppa ns first j)) = true)
    (hdiff : mapped_ppa st.prev_ppa = true →
      ¬ flash_page (ns.ftls (first % ns.nr_parts)).ssd.sp st.prev_ppa =
        flash_page (ns.ftls (first % ns.nr_parts)).ssd.sp (stride_ppa ns first j))
    (hissue : conv_read_issue E ns (first % ns.nr_parts) stime st = some st1) :
    conv_read_lpn E ns (first % ns.nr_parts) stime (first + j * ns.nr_parts) st =
      some { st1 with xfer_size := (ns.ftls 0).ssd.sp.pgsz % 4294967296,
                      prev_ppa := stride_ppa ns first j } := by
  unfold conv_read_lpn
  have e : get_maptbl_ent (ns.ftls (first % ns.nr_parts)) ((first + j * ns.nr_parts) / ns.nr_parts)
      = stride_ppa ns first j := rfl
  simp only [e]
  have h2 : ¬ ((!mapped_ppa (stride_ppa ns first j) ||
      !valid_ppa (ns.ftls (first % ns.nr_parts)) (stride_ppa ns first j)) = true) := by
    revert hok
    cases mapped_ppa (stride_ppa ns first j) <;>
      cases valid_ppa (ns.ftls (first % ns.nr_parts)) (stride_ppa ns first j) <;> simp
  rw [if_neg h2]
  by_cases hp : mapped_ppa st.prev_ppa = true
  · simp only [hp, if_true, is_same_flash_page_eq _ _ _ hg, hdiff hp, decide_False, hissue]
  · simp only [hp, Bool.false_eq_true, if_false, hissue]

theorem stride_mapped_succ_ok (ns : nvmev_ns) (first j : Nat)
    (hok : (mapped_ppa (stride_ppa ns first j) &&
      valid_ppa (ns.ftls (first % ns.nr_parts)) (stride_ppa ns first j)) = true) :
    stride_mapped ns first (j + 1) = stride_mapped ns first j ++ [stride_ppa ns first j] := by
  simp only [stride_mapped, hok, if_true]

theorem stride_mapped_succ_skip (ns : nvmev_ns) (first j : Nat)
    (hok : ¬ ((mapped_ppa (stride_ppa ns first j) &&
      valid_ppa (ns.ftls (first % ns.nr_parts)) (stride_ppa ns first j)) = true)) :
    stride_mapped ns first (j + 1) = stride_mapped ns first j := by
  simp only [stride_mapped]
  rw [if_neg hok]

theorem conv_read_lpn_step {χ : Type} (E : timing_env χ) (ns : nvmev_ns) (stime first : Nat)
    (issued0 : List (Nat × nand_cmd)) (lat0 j : Nat) (st : read_pass χ)
    (hg : read_geometry (ns.ftls (first % ns.nr_parts)).ssd.sp)
    (hpg : 0 < (ns.ftls 0).ssd.sp.pgsz)
    (hbound : (j + 1) * (ns.ftls 0).ssd.sp.pgsz < 4294967296)
    (hfirst : mapped_ppa (stride_ppa ns first 0) = true →
      valid_ppa (ns.ftls (first % ns.nr_parts)) (stride_ppa ns first 0) = true)
    (hI : read_pass_inv ns stime first issued0 lat0 j st) :
    ∃ st', conv_read_lpn E ns (first % ns.nr_parts) stime (first + j * ns.nr_parts) st =
        some st' ∧ read_pass_inv ns stime first issued0 lat0 (j + 1) st' := by
  obtain ⟨hlat, front, pend, hruns, hiss, hcase⟩ := hI
  have hstep : (j + 1) * (ns.ftls 0).ssd.sp.pgsz =
      j * (ns.ftls 0).ssd.sp.pgsz + (ns.ftls 0).ssd.sp.pgsz := by ring
  by_cases hok : (mapped_ppa (stride_ppa ns first j) &&
      valid_ppa (ns.ftls (first % ns.nr_parts)) (stride_ppa ns first j)) = true
  · have hokm : mapped_ppa (stride_ppa ns first j) = true := by
      simp only [Bool.and_eq_true] at hok; exact hok.1
    have hokv : valid_ppa (ns.ftls (first % ns.nr_parts)) (stride_ppa ns first j) = true := by
      simp only [Bool.and_eq_true] at hok; exact hok.2
    rcases hcase with ⟨hp, hM, hx, hprev, hun⟩ | ⟨b, k, hp, hprev, hx, hk, hkj, hbm, hbv⟩
    · -- no run is open
      have hrun1 : flash_page_runs (ns.ftls (first % ns.nr_parts)).ssd.sp
          (stride_mapped ns first (j + 1)) = front ++ [(stride_ppa ns first j, 1)] := by
        rw [stride_mapped_succ_ok ns first j hok, hM]
        rw [hM, hp, List.append_nil] at hruns
        simp only [flash_page_runs] at hruns
        rw [← hruns]
        exact flash_page_runs_single _ _
      have hpgm : (ns.ftls 0).ssd.sp.pgsz % 4294967296 = 1 * (ns.ftls 0).ssd.sp.pgsz := by
        rw [Nat.one_mul]; exact Nat.mod_eq_of_lt (by nlinarith)
      by_cases hpm : mapped_ppa st.prev_ppa = true
      · have hj0 : j = 0 := by
          by_contra hne
          have := hun (Nat.pos_of_ne_zero hne)
          rw [this] at hpm
          exact absurd hpm (by simp)
        subst hj0
        have hsame : flash_page (ns.ftls (first % ns.nr_parts)).ssd.sp st.prev_ppa =
            flash_page (ns.ftls (first % ns.nr_parts)).ssd.sp (stride_ppa ns first 0) := by
          rw [hprev]
        refine ⟨_, conv_read_lpn_same E ns stime first 0 st hg.1 hok hpm hsame, hlat, front,
          [(stride_ppa ns first 0, 1)], hrun1, hiss, Or.inr ⟨_, 1, rfl, hprev, ?_, Nat.one_pos,
          Nat.le_refl _, hokm, hokv⟩⟩
        show (st.xfer_size + (ns.ftls 0).ssd.sp.pgsz) % 4294967296 = _
        rw [hx, Nat.zero_add]
        exact hpgm
      · have hissue := conv_read_issue_zero E ns (first % ns.nr_parts) stime st hx
        refine ⟨_, conv_read_lpn_new E ns stime first j st st hg.1 hok
          (fun h => absurd h hpm) hissue, hlat, front, [(stride_ppa ns first j, 1)], hrun1,
          hiss, Or.inr ⟨_, 1, rfl, rfl, hpgm, Nat.one_pos, by omega, hokm, hokv⟩⟩
    · -- the run that starts at `b` is open
      subst hp
      have hsn := flash_page_runs_snoc (ns.ftls (first % ns.nr_parts)).ssd.sp
        (stride_mapped ns first j) (stride_ppa ns first j) front b k hruns
      rw [← stride_mapped_succ_ok ns first j hok] at hsn
      have hkle : k * (ns.ftls 0).ssd.sp.pgsz ≤ j * (ns.ftls 0).ssd.sp.pgsz :=
        Nat.mul_le_mul_right _ hkj
      by_cases hsame : flash_page (ns.ftls (first % ns.nr_parts)).ssd.sp b =
          flash_page (ns.ftls (first % ns.nr_parts)).ssd.sp (stride_ppa ns first j)
      · rw [if_pos hsame] at hsn
        refine ⟨_, conv_read_lpn_same E ns stime first j st hg.1 hok (by rw [hprev]; exact hbm)
          (by rw [hprev]; exact hsame), hlat, front, [(b, k + 1)], hsn, hiss,
          Or.inr ⟨b, k + 1, rfl, hprev, ?_, Nat.succ_pos _, by omega, hbm, hbv⟩⟩
        show (st.xfer_size + (ns.ftls 0).ssd.sp.pgsz) % 4294967296 = _
        rw [hx]
        have : (k + 1) * (ns.ftls 0).ssd.sp.pgsz =
            k * (ns.ftls 0).ssd.sp.pgsz + (ns.ftls 0).ssd.sp.pgsz := by ring
        rw [this]
        exact Nat.mod_eq_of_lt (by omega)
      · rw [if_neg hsame] at hsn
        obtain ⟨st1, h1, h2, h3, h4, h5⟩ := conv_read_issue_spec E ns first stime st b k hg
          hprev hx (Nat.mul_pos hk hpg) hbv
        refine ⟨_, conv_read_lpn_new E ns stime first j st st1 hg.1 hok
          (fun _ => by rw [hprev]; exact hsame) h1, Nat.le_trans hlat h2, front ++ [(b, k)],
          [(stride_ppa ns first j, 1)], ?_, ?_,
          Or.inr ⟨_, 1, rfl, rfl, ?_, Nat.one_pos, by omega, hokm, hokv⟩⟩
        · rw [hsn]; simp
        · show st1.issued.map issued_key = _
          rw [h5, hiss]; simp
        · show (ns.ftls 0).ssd.sp.pgsz % 4294967296 = _
          rw [Nat.one_mul]; exact Nat.mod_eq_of_lt (by omega)
  · refine ⟨st, conv_read_lpn_skip E ns stime first j st hok, hlat, front, pend, ?_, hiss, ?_⟩
    · rw [stride_mapped_succ_skip ns first j hok]; exact hruns
    · rcases hcase with ⟨hp, hM, hx, hprev, hun⟩ | ⟨b, k, hp, hprev, hx, hk, hkj, hbm, hbv⟩
      · refine Or.inl ⟨hp, ?_, hx, hprev, ?_⟩
        · rw [stride_mapped_succ_skip ns first j hok]; exact hM
        · intro _
          rcases Nat.eq_zero_or_pos j with hj | hj
          · subst hj
            rw [hprev]
            cases hm : mapped_ppa (stride_ppa ns first 0) with
            | false => rfl
            | true =>
              exfalso
              apply hok
              rw [hm, hfirst hm]
              rfl
          · exact hun hj
      · exact Or.inr ⟨b, k, hp, hprev, hx, hk, by omega, hbm, hbv⟩

theorem conv_read_pass_spec {χ : Type} (E : timing_env χ) (ns : nvmev_ns)
    (stime end_lpn first : Nat) (st : read_pass χ)
    (hg : read_geometry (ns.ftls (first % ns.nr_parts)).ssd.sp)
    (hpg : 0 < (ns.ftls 0).ssd.sp.pgsz)
    (hbound : stride_len ns end_lpn first * (ns.ftls 0).ssd.sp.pgsz < 4294967296)
    (hfirst : mapped_ppa (stride_ppa ns first 0) = true →
      valid_ppa (ns.ftls (first % ns.nr_parts)) (stride_ppa ns first 0) = true) :
    ∃ st', conv_read_pass E ns stime end_lpn first st = some st' ∧
      st.nsecs_latest ≤ st'.nsecs_latest ∧
      st'.issued.map issued_key = st.issued.map issued_key ++
        stride_reads ns stime end_lpn first := by
  have h0 : read_pass_inv ns stime first (st.issued.map issued_key) st.nsecs_latest 0
      { st with xfer_size := 0,
                prev_ppa := get_maptbl_ent (ns.ftls (first % ns.nr_parts))
                  (first / ns.nr_parts) } := by
    refine ⟨Nat.le_refl _, [], [], rfl, by simp, Or.inl ⟨rfl, rfl, rfl, ?_, fun h => by omega⟩⟩
    simp [stride_ppa]
  obtain ⟨st2, hloop, hI⟩ := for_loop_total
    (fun k st1 => conv_read_lpn E ns (first % ns.nr_parts) stime (first + k * ns.nr_parts) st1)
    (fun j t => read_pass_inv ns stime first (st.issued.map issued_key) st.nsecs_latest j t)
    (stride_len ns end_lpn first) _ h0
    (fun j t hj hIj => conv_read_lpn_step E ns stime first _ _ j t hg hpg
      (by
        have : (j + 1) * (ns.ftls 0).ssd.sp.pgsz ≤
            stride_len ns end_lpn first * (ns.ftls 0).ssd.sp.pgsz :=
          Nat.mul_le_mul_right _ hj
        omega) hfirst hIj)
  unfold conv_read_pass
  have hlen : (end_lpn - first) / ns.nr_parts + 1 = stride_len ns end_lpn first := rfl
  simp only [hlen, hloop]
  obtain ⟨hlat, front, pend, hruns, hiss, hcase⟩ := hI
  rcases hcase with ⟨hp, hM, hx, hprev, hun⟩ | ⟨b, k, hp, hprev, hx, hk, hkj, hbm, hbv⟩
  · refine ⟨st2, conv_read_issue_zero E ns _ stime st2 hx, hlat, ?_⟩
    rw [hiss]
    unfold stride_reads
    rw [hruns, hp, List.append_nil]
  · obtain ⟨st3, h1, h2, h3, h4, h5⟩ := conv_read_issue_spec E ns first stime st2 b k hg
      hprev hx (Nat.mul_pos hk hpg) hbv
    refine ⟨st3, h1, Nat.le_trans hlat h2, ?_⟩
    rw [h5, hiss]
    unfold stride_reads
    rw [hruns, hp, List.map_append, List.append_assoc]
    rfl

theorem stride_len_le (ns : nvmev_ns) (start_lpn end_lpn i : Nat) :
    stride_len ns end_lpn (start_lpn + i) ≤ end_lpn - start_lpn + 1 := by
  unfold stride_len
  have := Nat.div_le_self (end_lpn - (start_lpn + i)) ns.nr_parts
  omega

theorem conv_read_spec {χ : Type} (E : timing_env χ) (ns : nvmev_ns) (g : globals)
    (T : dev_time χ) (req : nvmev_request) (h : read_ready ns req) :
    ∃ o t, conv_read E ns g T req = some o ∧ o.ok = true ∧ o.ns = ns ∧ o.g = g ∧
      o.scheduled = [] ∧ o.ret = some { status := NVME_SC_SUCCESS, nsecs_target := t } ∧
      req.nsecs_start ≤ t ∧
      o.issued.map issued_key = expected_reads ns (read_stime ns req) (start_lpn_of ns req)
        (end_lpn_of ns req) (stride_count ns (start_lpn_of ns req) (end_lpn_of ns req)) := by
  obtain ⟨hsec, hparts, hrange, hwrap, hpg, hbytes, hg, hfirst⟩ := h
  obtain ⟨st, hloop, hI⟩ := for_loop_total
    (fun i st => conv_read_pass E ns (read_stime ns req) (end_lpn_of ns req)
      (start_lpn_of ns req + i) st)
    (fun i (st : read_pass χ) => req.nsecs_start ≤ st.nsecs_latest ∧
      st.issued.map issued_key = expected_reads ns (read_stime ns req) (start_lpn_of ns req)
        (end_lpn_of ns req) i)
    (stride_count ns (start_lpn_of ns req) (end_lpn_of ns req))
    { T := T, nsecs_latest := req.nsecs_start, xfer_size := 0, prev_ppa := UNMAPPED_PPA,
      issued := [] }
    ⟨Nat.le_refl _, rfl⟩
    (fun i t hi hIi => by
      have hi2 : i < ns.nr_parts := Nat.lt_of_lt_of_le hi (Nat.min_le_left _ _)
      obtain ⟨t', h1, h2, h3⟩ := conv_read_pass_spec E ns (read_stime ns req)
        (end_lpn_of ns req) (start_lpn_of ns req + i) t
        (hg _ (Nat.mod_lt _ hparts)) hpg
        (by
          have := Nat.mul_le_mul_right (ns.ftls 0).ssd.sp.pgsz
            (stride_len_le ns (start_lpn_of ns req) (end_lpn_of ns req) i)
          omega)
        (hfirst i hi)
      refine ⟨t', h1, Nat.le_trans hIi.1 h2, ?_⟩
      rw [h3, hIi.2]
      rfl)
  refine ⟨{ ok := true,
            ret := some { status := NVME_SC_SUCCESS, nsecs_target := st.nsecs_latest },
            ns := ns, g := g, T := st.T, issued := st.issued, scheduled := [] },
    st.nsecs_latest, ?_, rfl, rfl, rfl, rfl, rfl, hI.1, hI.2⟩
  unfold conv_read
  have h1 : ¬ ((ns.ftls 0).ssd.sp.secs_per_pg = 0 ∨ ns.nr_parts = 0) := by omega
  have h2 : ¬ ((ns.ftls 0).ssd.sp.tt_pgs ≤ end_lpn_of ns req / ns.nr_parts) := by omega
  have h3 : ¬ (18446744073709551616 ≤ end_lpn_of ns req + ns.nr_parts) := by omega
  have e1 : u64 (req.cmd.slba + (req.cmd.length + 1) - 1) / (ns.ftls 0).ssd.sp.secs_per_pg =
      end_lpn_of ns req := rfl
  have e2 : req.cmd.slba / (ns.ftls 0).ssd.sp.secs_per_pg = start_lpn_of ns req := rfl
  have e3 : (if LBA_TO_BYTE (req.cmd.length + 1) ≤ (4096 * ns.nr_parts) % 4294967296 then
      u64 (req.nsecs_start + (ns.ftls 0).ssd.sp.fw_4kb_rd_lat)
      else u64 (req.nsecs_start + (ns.ftls 0).ssd.sp.fw_rd_lat)) = read_stime ns req := rfl
  have e4 : min ns.nr_parts (end_lpn_of ns req + 1 - start_lpn_of ns req) =
      stride_count ns (start_lpn_of ns req) (end_lpn_of ns req) := rfl
  simp only [if_neg h1, e1, e2, if_neg h2, if_neg h3, e3, e4, hloop]

theorem expected_reads_bytes (ns : nvmev_ns) (stime start_lpn end_lpn : Nat) :
    ∀ n, ((expected_reads ns stime start_lpn end_lpn n).map (fun c => c.2.xfer_size)).sum =
      mapped_lpns ns start_lpn end_lpn n * (ns.ftls 0).ssd.sp.pgsz := by
  intro n
  induction n with
  | zero => simp [expected_reads, mapped_lpns]
  | succ n ih =>
    simp only [expected_reads, mapped_lpns, List.map_append, List.sum_append, ih, Nat.add_mul]
    congr 1
    unfold stride_reads
    rw [List.map_map]
    have key : ∀ (R : List (ppa × Nat)),
        (R.map ((fun (c : Nat × nand_cmd) => c.2.xfer_size) ∘
          run_read ns stime (start_lpn + n))).sum =
        (R.map Prod.snd).sum * (ns.ftls 0).ssd.sp.pgsz := by
      intro R
      induction R with
      | nil => simp
      | cons x R ihR =>
        simp only [List.map_cons, List.sum_cons, ihR, Function.comp, run_read, Nat.add_mul]
    rw [key, flash_page_runs_sum]

theorem expected_reads_length (ns : nvmev_ns) (stime start_lpn end_lpn : Nat) :
    ∀ n, (expected_reads ns stime start_lpn end_lpn n).length ≤
      mapped_lpns ns start_lpn end_lpn n := by
  intro n
  induction n with
  | zero => simp [expected_reads, mapped_lpns]
  | succ n ih =>
    simp only [expected_reads, mapped_lpns, List.length_append]
    have key : ∀ (L : List ppa) (sp : ssdparams), (flash_page_runs sp L).length ≤ L.length := by
      intro L sp
      induction L with
      | nil => simp [flash_page_runs]
      | cons a rest ihL =>
        simp only [flash_page_runs]
        cases hr : flash_page_runs sp rest with
        | nil => simp
        | cons x tail =>
          obtain ⟨b, k⟩ := x
          rw [hr] at ihL
          simp only [List.length_cons] at ihL ⊢
          split_ifs
          · simp only [List.length_cons]; omega
          · simp only [List.length_cons]; omega
    have := key (stride_mapped ns (start_lpn + n) (stride_len ns end_lpn (start_lpn + n)))
      (ns.ftls ((start_lpn + n) % ns.nr_parts)).ssd.sp
    unfold stride_reads
    rw [List.length_map]
    omega

theorem flash_page_runs_chain (sp : ssdparams) (L : List ppa) :
    List.Chain' (fun x y => flash_page sp x.1 ≠ flash_page sp y.1) (flash_page_runs sp L) ∧
    ∀ run, run ∈ flash_page_runs sp L → 1 ≤ run.2 := by
  induction L with
  | nil => simp [flash_page_runs]
  | cons a rest ih =>
    simp only [flash_page_runs]
    cases hr : flash_page_runs sp rest with
    | nil => simp
    | cons x tail =>
      obtain ⟨b, k⟩ := x
      rw [hr] at ih
      obtain ⟨hc, hk⟩ := ih
      simp only
      by_cases hab : flash_page sp a = flash_page sp b
      · rw [if_pos hab]
        refine ⟨?_, ?_⟩
        · cases tail with
          | nil => simp
          | cons y t2 =>
            rw [List.chain'_cons] at hc ⊢
            exact ⟨by rw [hab]; exact hc.1, hc.2⟩
        · intro run hrun
          rcases List.mem_cons.mp hrun with h | h
          · rw [h]; simp
          · exact hk run (List.mem_cons_of_mem _ h)
      · rw [if_neg hab]
        refine ⟨?_, ?_⟩
        · rw [List.chain'_cons]
          exact ⟨hab, hc⟩
        · intro run hrun
          rcases List.mem_cons.mp hrun with h | h
          · rw [h]
          · exact hk run h

/-- C24: an in-range read issues, for every FTL instance, exactly one `NAND_READ` for each
maximal run of `k ≥ 1` successive mapped LPNs of that instance (stride `nr_parts`, unmapped
LPNs skipped) whose addresses lie in one flash page, with `xfer_size = k * pgsz`, at the first
address of the run; a mapped LPN in another flash page starts the next read
(`expected_reads`).  The runs of a stride are maximal (successive runs lie in different flash
pages), each has at least one LPN, and together they hold every mapped LPN of the stride once.
`read_ready` collects what "in range" has to mean for the handler to run through. -/
theorem read_aggregation {χ : Type} (E : timing_env χ) (ns : nvmev_ns) (g : globals)
    (T : dev_time χ) (req : nvmev_request) (h : read_ready ns req) :
    (∃ o, conv_read E ns g T req = some o ∧ o.ok = true ∧
      o.issued.map issued_key = expected_reads ns (read_stime ns req) (start_lpn_of ns req)
        (end_lpn_of ns req) (stride_count ns (start_lpn_of ns req) (end_lpn_of ns req))) ∧
    ∀ first n,
      List.Chain' (fun x y => flash_page (ns.ftls (first % ns.nr_parts)).ssd.sp x.1 ≠
          flash_page (ns.ftls (first % ns.nr_parts)).ssd.sp y.1)
        (flash_page_runs (ns.ftls (first % ns.nr_parts)).ssd.sp (stride_mapped ns first n)) ∧
      (∀ run, run ∈ flash_page_runs (ns.ftls (first % ns.nr_parts)).ssd.sp
          (stride_mapped ns first n) → 1 ≤ run.2) ∧
      ((flash_page_runs (ns.ftls (first % ns.nr_parts)).ssd.sp
          (stride_mapped ns first n)).map Prod.snd).sum = (stride_mapped ns first n).length := by
  refine ⟨?_, fun first n => ⟨(flash_page_runs_chain _ _).1, (flash_page_runs_chain _ _).2,
    flash_page_runs_sum _ _⟩⟩
  obtain ⟨o, t, h1, h2, _, _, _, _, _, h3⟩ := conv_read_spec E ns g T req h
  exact ⟨o, h1, h2, h3⟩

theorem read_aggregation_witness :
    ∃ o, conv_read example_env pair_ns pair_state.glob (idle_time 0) (example_read_req 63) =
        some o ∧ o.ok = true ∧
      o.issued.map (fun c => (c.part, c.ncmd.cmd, c.ncmd.xfer_size, c.ncmd.ppa.pg)) =
        [(0, NAND_READ, 8192, 0), (1, NAND_READ, 8192, 0), (2, NAND_READ, 8192, 0),
         (3, NAND_READ, 8192, 0)] := by
  obtain ⟨o, h1, h2, h3⟩ := (read_aggregation example_env pair_ns pair_state.glob (idle_time 0)
    (example_read_req 63) (by decide)).1
  refine ⟨o, h1, h2, ?_⟩
  have e : o.issued.map (fun c => (c.part, c.ncmd.cmd, c.ncmd.xfer_size, c.ncmd.ppa.pg)) =
      (o.issued.map issued_key).map (fun c => (c.1, c.2.cmd, c.2.xfer_size, c.2.ppa.pg)) := by
    rw [List.map_map]; rfl
  rw [e, h3]
  decide

theorem flash_page_runs_mem (sp : ssdparams) (L : List ppa) :
    ∀ run, run ∈ flash_page_runs sp L → run.1 ∈ L := by
  induction L with
  | nil => simp [flash_page_runs]
  | cons a rest ih =>
    simp only [flash_page_runs]
    cases hr : flash_page_runs sp rest with
    | nil => simp
    | cons x tail =>
      obtain ⟨b, k⟩ := x
      rw [hr] at ih
      simp only
      intro run hrun
      split_ifs at hrun
      · rcases List.mem_cons.mp hrun with h | h
        · rw [h]; exact List.mem_cons_self _ _
        · exact List.mem_cons_of_mem _ (ih run (List.mem_cons_of_mem _ h))
      · rcases List.mem_cons.mp hrun with h | h
        · rw [h]; exact List.mem_cons_self _ _
        · exact List.mem_cons_of_mem _ (ih run h)

theorem stride_mapped_mem (ns : nvmev_ns) (first : Nat) :
    ∀ n a, a ∈ stride_mapped ns first n → mapped_ppa a = true := by
  intro n
  induction n with
  | zero => simp [stride_mapped]
  | succ n ih =>
    intro a ha
    simp only [stride_mapped] at ha
    split_ifs at ha with hok
    · rcases List.mem_append.mp ha with h | h
      · exact ih a h
      · rw [List.mem_singleton.mp h]
        simp only [Bool.and_eq_true] at hok
        exact hok.1
    · exact ih a ha

theorem expected_reads_mem (ns : nvmev_ns) (stime start_lpn end_lpn : Nat) :
    ∀ n c, c ∈ expected_reads ns stime start_lpn end_lpn n →
      c.2.cmd = NAND_READ ∧ mapped_ppa c.2.ppa = true := by
  intro n
  induction n with
  | zero => simp [expected_reads]
  | succ n ih =>
    intro c hc
    simp only [expected_reads] at hc
    rcases List.mem_append.mp hc with h | h
    · exact ih c h
    · unfold stride_reads at h
      obtain ⟨run, hrun, rfl⟩ := List.mem_map.mp h
      exact ⟨rfl, stride_mapped_mem ns _ _ _ (flash_page_runs_mem _ _ run hrun)⟩

/-- C25: an in-range read returns true with status success whether or not its LPNs are
mapped, and `nsecs_target ≥ nsecs_start`; the transfer sizes of the NAND reads it issues add
up to `pgsz` for each mapped LPN, there are no more reads than mapped LPNs and each is a
`NAND_READ` at a mapped address, so an unmapped LPN adds no command and no byte; the FTL instances (maptbl, rmap, page statuses, block and
line counters, write pointers, credits) and the file-scope variables are the same afterwards,
and no buffer release is scheduled. -/
theorem read_unmapped_ok {χ : Type} (E : timing_env χ) (ns : nvmev_ns) (g : globals)
    (T : dev_time χ) (req : nvmev_request) (h : read_ready ns req) :
    ∃ o t, conv_read E ns g T req = some o ∧ o.ok = true ∧
      o.ret = some { status := NVME_SC_SUCCESS, nsecs_target := t } ∧ req.nsecs_start ≤ t ∧
      o.ns = ns ∧ o.g = g ∧ o.scheduled = [] ∧
      (o.issued.map (fun c => c.ncmd.xfer_size)).sum =
        mapped_lpns ns (start_lpn_of ns req) (end_lpn_of ns req)
          (stride_count ns (start_lpn_of ns req) (end_lpn_of ns req)) *
          (ns.ftls 0).ssd.sp.pgsz ∧
      o.issued.length ≤ mapped_lpns ns (start_lpn_of ns req) (end_lpn_of ns req)
          (stride_count ns (start_lpn_of ns req) (end_lpn_of ns req)) ∧
      ∀ c, c ∈ o.issued → c.ncmd.cmd = NAND_READ ∧ mapped_ppa c.ncmd.ppa = true := by
  obtain ⟨o, t, h1, h2, h3, h4, h5, h6, h7, h8⟩ := conv_read_spec E ns g T req h
  refine ⟨o, t, h1, h2, h6, h7, h3, h4, h5, ?_, ?_, ?_⟩
  · have e : o.issued.map (fun c => c.ncmd.xfer_size) =
        (o.issued.map issued_key).map (fun c => c.2.xfer_size) := by
      rw [List.map_map]; rfl
    rw [e, h8]
    exact expected_reads_bytes _ _ _ _ _
  · have e : o.issued.length = (o.issued.map issued_key).length := by rw [List.length_map]
    rw [e, h8]
    exact expected_reads_length _ _ _ _ _
  · intro c hc
    have hm : issued_key c ∈ o.issued.map issued_key := List.mem_map_of_mem _ hc
    rw [h8] at hm
    exact expected_reads_mem _ _ _ _ _ _ hm

theorem read_unmapped_ok_witness :
    ∃ o t, conv_read example_env fresh_ns fresh_state.glob (idle_time 0) (example_read_req 63) =
        some o ∧ o.ok = true ∧
      o.ret = some { status := NVME_SC_SUCCESS, nsecs_target := t } ∧ 100 ≤ t ∧
      o.issued.length ≤ 0 := by
  obtain ⟨o, t, h1, h2, h3, h4, _, _, _, _, h5, _⟩ :=
    read_unmapped_ok example_env fresh_ns fresh_state.glob (idle_time 0) (example_read_req 63)
      (by decide)
  exact ⟨o, t, h1, h2, h3, h4, h5⟩

/-! ## Write credits -/

theorem host_reachable_write_lpns {cpp : convparams} {spp : ssdparams} {gc_mode : Nat}
    {dbg : Bool} {d0 : Nat → Option Nat} (now r : Nat → Nat) :
    ∀ (l : List Nat) (i : Nat) (s s' : conv_ftl), host_reachable cpp spp gc_mode dbg d0 s →
      write_lpns now r l i s = some s' → host_reachable cpp spp gc_mode dbg d0 s' := by
  intro l
  induction l with
  | nil =>
    intro i s s' hr h
    simp only [write_lpns, Option.some.injEq] at h
    rw [← h]; exact hr
  | cons a rest ih =>
    intro i s s' hr h
    unfold write_lpns at h
    cases hw : conv_write_lpn s (now i) (r i) a with
    | none => simp [hw] at h
    | some s1 =>
      simp only [hw] at h
      exact ih (i + 1) s1 s' (host_reachable.write hr hw) h

theorem host_reachable_reachable {cpp : convparams} {spp : ssdparams} {gc_mode : Nat}
    {dbg : Bool} {d0 : Nat → Option Nat} {s : conv_ftl}
    (h : host_reachable cpp spp gc_mode dbg d0 s) : reachable cpp spp gc_mode dbg d0 s := by
  induction h with
  | init h => exact reachable.init h
  | write _ hw ih =>
    simp only [conv_write_lpn, bind, Option.bind_eq_some] at hw
    obtain ⟨m, hm, hc⟩ := hw
    exact reachable.refill (reachable.credit (reachable.write ih (p := m.2) hm)) hc

theorem credit_overrun_some : credit_overrun_run = some credit_overrun_state :=
  getD_of_isSome blank_ftl (by decide)

theorem credit_overrun_reachable :
    host_reachable conv_params (tri_params 4) 0 false (fun _ => none) credit_overrun_state := by
  have he := credit_overrun_some
  unfold credit_overrun_run at he
  simp only [Option.bind_eq_some] at he
  obtain ⟨s0, h0, h1⟩ := he
  exact host_reachable_write_lpns _ _ _ _ _ _ (host_reachable.init h0) h1

theorem credit_overrun_facts :
    credit_overrun_run.map (fun s => (s.wfc.write_credits,
      free_ahead (tri_params 4) s s.wp 2, decide (stripe_pos (tri_params 4) s.wp 2 = s.wp),
      s.lm.free_line_list, decide (credit_conservation (tri_params 4) s))) =
    some (2, 1, true, [], false) := by
  decide!

/-- C21, as the claim states it, fails in a state reached by host writes alone: on four lines
of three pages (Greedy), after LPN 0 was written three times and LPNs 1 to 8 once, two write
credits are left, the open user line has one FREE page from the write pointer on, and the
free-line list is empty. -/
theorem credit_conservation_counterexample :
    host_reachable conv_params (tri_params 4) 0 false (fun _ => none) credit_overrun_state ∧
    credit_overrun_state.wfc.write_credits = 2 ∧
    free_ahead (tri_params 4) credit_overrun_state credit_overrun_state.wp 2 = 1 ∧
    stripe_pos (tri_params 4) credit_overrun_state.wp 2 = credit_overrun_state.wp ∧
    credit_overrun_state.lm.free_line_list = [] ∧
    ¬ credit_conservation (tri_params 4) credit_overrun_state := by
  have key := credit_overrun_facts
  rw [credit_overrun_some] at key
  simp only [Option.map_some', Option.some.injEq, Prod.mk.injEq, decide_eq_true_eq,
    decide_eq_false_iff_not] at key
  exact ⟨credit_overrun_reachable, key.1, key.2.1, key.2.2.1, key.2.2.2.1, key.2.2.2.2⟩

theorem set_wp_user (s : conv_ftl) (w : write_pointer) :
    set_wp s USER_IO w = { s with wp := w } := by
  unfold set_wp
  rw [if_pos rfl]

theorem set_wp_gc (s : conv_ftl) (w : write_pointer) :
    set_wp s GC_IO w = { s with gc_wp := w } := by
  unfold set_wp
  rw [if_neg (by decide)]

/-- What `conv_write_map` leaves alone, and the state its last step, the advance of the user
cursor, starts from. -/
theorem conv_write_map_frame {s s' : conv_ftl} {now L : Nat} {p : ppa}
    (h : conv_write_map s now L = some (s', p)) :
    s'.wfc = s.wfc ∧ s'.gc_count = s.gc_count ∧ s'.cp = s.cp ∧ s'.gc_wp = s.gc_wp ∧
    s'.ssd.sp = s.ssd.sp ∧
    ∃ s4, advance_write_pointer s4 USER_IO = some s' ∧ s4.wp = s.wp ∧
      s4.ssd.sp = s.ssd.sp := by
  obtain ⟨s1, s2, s3, s4, h1, _h2, h3, h4, h5, h6⟩ := conv_write_map_spec h
  have f1 : s1.wfc = s.wfc ∧ s1.gc_count = s.gc_count ∧ s1.cp = s.cp ∧ s1.gc_wp = s.gc_wp ∧
      s1.wp = s.wp ∧ s1.ssd.sp = s.ssd.sp := by
    rcases conv_write_invalidate_spec h1 with ⟨_, e⟩ | ⟨_, a, ha, hr⟩
    · rw [e]; exact ⟨rfl, rfl, rfl, rfl, rfl, rfl⟩
    · obtain ⟨_, _, _, _, _, _, hssd, _, ea⟩ := mark_page_invalid_eq_some ha
      obtain ⟨_, er⟩ := set_rmap_ent_spec hr
      have hsp : a.ssd.sp = s.ssd.sp := by rw [hssd]; rfl
      rw [er]
      refine ⟨?_, ?_, ?_, ?_, ?_, hsp⟩ <;> rw [ea]
  obtain ⟨_, e2⟩ := set_maptbl_ent_spec h3
  obtain ⟨_, e3⟩ := set_rmap_ent_spec h4
  obtain ⟨_, _, d3, d4, _, _⟩ := mark_page_valid_spec h5
  have f4 : s4.wfc = s.wfc ∧ s4.gc_count = s.gc_count ∧ s4.cp = s.cp ∧ s4.gc_wp = s.gc_wp ∧
      s4.wp = s.wp ∧ s4.ssd.sp = s.ssd.sp := by
    refine ⟨?_, ?_, ?_, ?_, ?_, ?_⟩
    · rw [d4, e3, e2]; exact f1.1
    · rw [d4, e3, e2]; exact f1.2.1
    · rw [d4, e3, e2]; exact f1.2.2.1
    · rw [d4, e3, e2]; exact f1.2.2.2.1
    · rw [d4, e3, e2]; exact f1.2.2.2.2.1
    · rw [d3, e3, e2]; exact f1.2.2.2.2.2
  obtain ⟨w2, lm2, e, _⟩ := advance_write_pointer_spec h6
  rw [set_wp_user] at e
  refine ⟨?_, ?_, ?_, ?_, ?_, s4, h6, f4.2.2.2.2.1, f4.2.2.2.2.2⟩
  · rw [e]; exact f4.1
  · rw [e]; exact f4.2.1
  · rw [e]; exact f4.2.2.1
  · rw [e]; exact f4.2.2.2.1
  · rw [e]; exact f4.2.2.2.2.2

/-- The user cursor after a page write: the next position of its line, or, from the last
position, the first position of another line. -/
theorem user_cursor_step {sp : ssdparams} (hsg : stripe_geometry sp) {s s' : conv_ftl}
    {now L : Nat} {p : ppa} (hsp : s.ssd.sp = sp)
    (h : conv_write_map s now L = some (s', p)) {k : Nat} (hk : k < sp.pgs_per_line)
    (hpos : stripe_pos sp s.wp k = s.wp) :
    (k + 1 < sp.pgs_per_line ∧ s'.wp = stripe_pos sp s.wp (k + 1)) ∨
    (k + 1 = sp.pgs_per_line ∧ s'.wp.pg = 0 ∧ s'.wp.ch = 0 ∧ s'.wp.lun = 0) := by
  obtain ⟨_, _, _, _, _, s4, hadv, hwp, hsp4⟩ := conv_write_map_frame h
  rw [hsp] at hsp4
  have hw : __get_wp s4 USER_IO = some s.wp := by rw [get_wp_user, hwp]
  by_cases hk1 : k + 1 < sp.pgs_per_line
  · left
    have hstep := advance_write_pointer_stripe s4 USER_IO s.wp (by rw [hsp4]; exact hsg)
      (Or.inl rfl) k (by rw [hsp4]; exact hk1)
    rw [hsp4, hpos, set_wp_self hw, hadv] at hstep
    have hs' : s' = set_wp s4 USER_IO (stripe_pos sp s.wp (k + 1)) := Option.some.inj hstep
    refine ⟨hk1, ?_⟩
    rw [hs', set_wp_user]
  · right
    have hk2 : k + 1 = sp.pgs_per_line := by omega
    obtain ⟨l1, l2, l3, l4⟩ := stripe_pos_last hsg s.wp hk2
    rw [hpos] at l1 l2 l3 l4
    obtain ⟨lm1, cur, rest, _, _, _, hs'⟩ := advance_write_pointer_last hw
      (by rw [hsp4]; exact l1) (by rw [hsp4]; exact l2) (by rw [hsp4]; exact l3)
      (by rw [hsp4]; exact l4) hadv
    rw [set_wp_user] at hs'
    refine ⟨hk2, ?_, ?_, ?_⟩ <;> rw [hs']

theorem gc_write_page_frame {s s' : conv_ftl} {old : ppa} (h : gc_write_page s old = some s') :
    s'.ssd.sp = s.ssd.sp ∧ s'.gc_count = s.gc_count ∧ s'.wp = s.wp := by
  obtain ⟨lpn, new, s1, s2, s3, _, _, _, h4, h5, h6, h7⟩ := gc_write_page_spec h
  obtain ⟨_, e1⟩ := set_maptbl_ent_spec h4
  obtain ⟨_, e2⟩ := set_rmap_ent_spec h5
  obtain ⟨_, _, d3, d4, _, _⟩ := mark_page_valid_spec h6
  obtain ⟨w2, lm2, e, _⟩ := advance_write_pointer_spec h7
  rw [set_wp_gc] at e
  refine ⟨?_, ?_, ?_⟩
  · rw [e]
    show s3.ssd.sp = _
    rw [d3, e2, e1]
  · rw [e]
    show s3.gc_count = _
    rw [d4, e2, e1]
  · rw [e]
    show s3.wp = _
    rw [d4, e2, e1]

/-- A GC run leaves the user cursor where it is; it either collects nothing and leaves the
credits and `gc_count` alone, or it counts one more run. -/
theorem do_gc_frame {sp : ssdparams} (hgeo : ftl_geometry sp) {s s' : conv_ftl} {now r : Nat}
    {force : Bool} {rc : Int} (hsp : s.ssd.sp = sp) (hk : line_hooks s.lm.victim_line_pq)
    (h : do_gc s now r force = some (s', rc)) :
    s'.wp = s.wp ∧ s'.ssd.sp = sp ∧
    ((s'.gc_count = s.gc_count ∧ s'.wfc = s.wfc) ∨ s'.gc_count = s.gc_count + 1) := by
  rcases do_gc_eq_some h with ⟨s1, hsel, e, _⟩ | ⟨s1, v, s2, s5, hsel, e2, hsw, e5, _⟩
  · obtain ⟨f1, _, _⟩ := select_victim_frame hk hsel
    rw [e, f1]
    exact ⟨rfl, hsp, Or.inl ⟨rfl, rfl⟩⟩
  · obtain ⟨f1, _, _⟩ := select_victim_frame hk hsel
    have hJ := (do_gc_sweep_rule sp (s1.lm.lines v).id
      (fun t => t.ssd.sp = sp ∧ t.gc_count = s.gc_count + 1 ∧ t.wp = s.wp)
      (fun _ _ _ => True) hgeo.2.1.2.1 (fun t ht => ht.1)
      (fun t t' old ht _ _ _ hg => by
        obtain ⟨a1, a2, a3⟩ := gc_write_page_frame hg
        exact ⟨⟨a1.trans ht.1, a2.trans ht.2.1, a3.trans ht.2.2⟩, fun _ _ _ => trivial⟩)
      (fun t t' fp ch lun ht _ _ hm => by
        obtain ⟨blk, b2, _, e, _⟩ := mark_block_free_spec hm
        rw [e]
        exact ⟨⟨ht.1, ht.2.1, ht.2.2⟩, trivial, fun _ _ _ => trivial⟩)
      _ s5 (by
        refine ⟨?_, ?_, ?_⟩
        · show s2.ssd.sp = sp
          rw [e2, f1]; exact hsp
        · show s2.gc_count + 1 = s.gc_count + 1
          rw [e2, f1]
        · show s2.wp = s.wp
          rw [e2, f1]) hsw).1
    rw [e5]
    exact ⟨hJ.2.2, hJ.1, Or.inr hJ.2.1⟩

theorem conv_init_ftl_fields {cpp : convparams} {spp : ssdparams} {gc_mode : Nat}
    {dbg : Bool} {d0 : Nat → Option Nat} {s : conv_ftl}
    (h : conv_init_ftl cpp (ssd_init spp) gc_mode dbg d0 = some s) :
    s.wfc = init_write_flow_control spp ∧ s.gc_count = 0 ∧ s.cp = cpp ∧
    s.wp.pg = 0 ∧ s.wp.ch = 0 ∧ s.wp.lun = 0 := by
  simp only [conv_init_ftl, bind, Option.bind_eq_some, pure, Option.some.injEq] at h
  obtain ⟨lm, _, s1, h1, s2, h2, hs⟩ := h
  obtain ⟨c1, r1, _, e1⟩ := prepare_write_pointer_eq_some h1
  obtain ⟨c2, r2, _, e2⟩ := prepare_write_pointer_eq_some h2
  rw [set_wp_user] at e1
  rw [set_wp_gc] at e2
  rw [← hs]
  refine ⟨rfl, ?_, ?_, ?_, ?_, ?_⟩ <;> simp only [e2, e1]

theorem pgs_per_line_pos {sp : ssdparams} (hgeo : ftl_geometry sp) : 0 < sp.pgs_per_line := by
  obtain ⟨hsg, _, hpb, _⟩ := hgeo
  obtain ⟨_, hC, hU, _, hline⟩ := hsg
  rw [hline]
  exact Nat.mul_pos (Nat.mul_pos hU hC) hpb

/-- Until a GC run collects a victim, the refill amount is a whole line and the write credits
are the pages left in the open user line. -/
theorem host_credit_inv {cpp : convparams} {spp : ssdparams} {gc_mode : Nat} {dbg : Bool}
    {d0 : Nat → Option Nat} {s : conv_ftl} (hgeo : sweep_geometry spp)
    (hP : spp.pgs_per_line < 4294967296)
    (hr : host_reachable cpp spp gc_mode dbg d0 s) (hgc : s.gc_count = 0) :
    s.wfc.credits_to_refill = spp.pgs_per_line ∧
    ∃ k, k < spp.pgs_per_line ∧ stripe_pos spp s.wp k = s.wp ∧
      s.wfc.write_credits = spp.pgs_per_line - k := by
  induction hr with
  | init h =>
    obtain ⟨a1, _, _, a4, a5, a6⟩ := conv_init_ftl_fields h
    rw [a1]
    exact ⟨rfl, 0, pgs_per_line_pos hgeo.1, stripe_pos_zero _ _ a4 a5 a6, rfl⟩
  | @write s s2 now r lpn hr0 hw ih =>
    have hwf := reachable_wf hgeo (host_reachable_reachable hr0)
    simp only [conv_write_lpn, bind, Option.bind_eq_some] at hw
    obtain ⟨m, hm, hc⟩ := hw
    obtain ⟨f1, f2, _, _, f5, _⟩ := conv_write_map_frame (p := m.2) hm
    have hwfm : wf_inv spp none m.1 := wf_conv_write_map hgeo.1 hwf (p := m.2) hm
    -- the state after `consume_write_credit`
    have hcons : (consume_write_credit m.1).wfc.write_credits =
        dec_u32 s.wfc.write_credits ∧
        (consume_write_credit m.1).wfc.credits_to_refill = s.wfc.credits_to_refill ∧
        (consume_write_credit m.1).gc_count = s.gc_count ∧
        (consume_write_credit m.1).wp = m.1.wp ∧
        (consume_write_credit m.1).ssd = m.1.ssd ∧
        (consume_write_credit m.1).lm = m.1.lm := by
      unfold consume_write_credit
      refine ⟨?_, ?_, f2, rfl, rfl, rfl⟩
      · show dec_u32 m.1.wfc.write_credits = _
        rw [f1]
      · show m.1.wfc.credits_to_refill = _
        rw [f1]
    generalize consume_write_credit m.1 = c at hc hcons
    obtain ⟨c1, c2, c3, c4, c5, c6⟩ := hcons
    -- `gc_count` does not decrease, so it was 0 before
    have hmono : s.gc_count = 0 ∧ (s2.wp = c.wp ∧
        ((s.wfc.write_credits ≠ 1 ∧ s2.wfc = c.wfc) ∨
         (s.wfc.write_credits = 1 ∧ s2.wfc.credits_to_refill = c.wfc.credits_to_refill ∧
          s2.wfc.write_credits =
            (c.wfc.write_credits + c.wfc.credits_to_refill) % 4294967296) ∨
         s.wfc.write_credits = 0)) := by
      unfold check_and_refill_write_credit at hc
      split_ifs at hc with hz
      · cases hf : foreground_gc c now r with
        | none => simp [hf] at hc
        | some s1 =>
          simp only [hf, Option.some.injEq] at hc
          have h2 : s2.gc_count = s1.gc_count := by rw [← hc]
          have h3 : s2.wp = s1.wp := by rw [← hc]
          have h4 : s2.wfc.credits_to_refill = s1.wfc.credits_to_refill := by rw [← hc]
          have h5 : s2.wfc.write_credits =
              (s1.wfc.write_credits + s1.wfc.credits_to_refill) % 4294967296 := by rw [← hc]
          have hcz : c.wfc.write_credits = 0 := by omega
          have hcred : s.wfc.write_credits = 1 ∨ s.wfc.write_credits = 0 := by
            rw [c1] at hcz
            unfold dec_u32 at hcz
            split_ifs at hcz with h0
            all_goals omega
          have key : s1.wp = c.wp ∧ s1.gc_count = c.gc_count ∧ s1.wfc = c.wfc := by
            unfold foreground_gc at hf
            split_ifs at hf with hg
            · cases hd : do_gc c now r true with
              | none => simp [hd] at hf
              | some r1 =>
                obtain ⟨sa, rc⟩ := r1
                simp only [hd, Option.some.injEq] at hf
                obtain ⟨g1, _, g3⟩ := do_gc_frame hgeo.1 (by rw [c5]; exact hwfm.sp_eq)
                  (by rw [c6]; exact hwfm.hooks) hd
                rw [← hf]
                rcases g3 with ⟨g3, g4⟩ | g3
                · exact ⟨g1, g3, g4⟩
                · exfalso
                  rw [← hf] at h2
                  omega
            · rw [← Option.some.inj hf]
              exact ⟨rfl, rfl, rfl⟩
          obtain ⟨k1, k2, k3⟩ := key
          refine ⟨by omega, by rw [h3, k1], ?_⟩
          rcases hcred with h1 | h0
          · exact Or.inr (Or.inl ⟨h1, by rw [h4, k3], by rw [h5, k3]⟩)
          · exact Or.inr (Or.inr h0)
      · have e : s2 = c := (Option.some.inj hc).symm
        have hne : c.wfc.write_credits ≠ 0 := by omega
        refine ⟨by rw [← c3, ← e]; exact hgc, by rw [e], ?_⟩
        by_cases h1 : s.wfc.write_credits = 1
        · exfalso
          rw [c1, h1] at hne
          exact hne (by decide)
        · exact Or.inl ⟨h1, by rw [e]⟩
    obtain ⟨hs0, hwp2, hcase⟩ := hmono
    obtain ⟨ih1, k, hk, hpos, hcr⟩ := ih hs0
    rcases user_cursor_step hgeo.1.1 hwf.sp_eq (p := m.2) hm hk hpos with ⟨hk1, hmv⟩ |
      ⟨hk1, z1, z2, z3⟩
    · -- the cursor stays in its line
      rcases hcase with ⟨_, e⟩ | ⟨h1, _⟩ | h0
      · rw [e]
        refine ⟨by rw [c2]; exact ih1, k + 1, hk1, ?_, ?_⟩
        · rw [hwp2, c4, hmv]; rfl
        · rw [c1, hcr, dec_u32_pos (by omega)]; omega
      · omega
      · omega
    · -- the cursor moved to a new line
      rcases hcase with ⟨h1, _⟩ | ⟨_, e1, e2⟩ | h0
      · omega
      · refine ⟨by rw [e1, c2]; exact ih1, 0, by omega, ?_, ?_⟩
        · rw [hwp2, c4]; exact stripe_pos_zero _ _ z1 z2 z3
        · rw [e2, c1, c2, ih1, hcr, dec_u32_pos (by omega)]
          have : spp.pgs_per_line - k - 1 = 0 := by omega
          rw [this, Nat.zero_add, Nat.mod_eq_of_lt hP]
          rfl
      · omega

theorem count_upto_from {f : Nat → Bool} {k : Nat} (h1 : ∀ j, j < k → f j = false) :
    ∀ n, (∀ j, k ≤ j → j < n → f j = true) → count_upto f n = n - k := by
  intro n
  induction n with
  | zero => intro _; simp [count_upto]
  | succ n ih =>
    intro h2
    simp only [count_upto]
    rw [ih (fun j hj1 hj2 => h2 j hj1 (by omega))]
    by_cases hn : k ≤ n
    · rw [h2 n hn (by omega)]
      simp only [if_true]
      omega
    · rw [h1 n (by omega)]
      simp only [Bool.false_eq_true, if_false]
      omega

/-- C21 (amended): in every state reached from `conv_init_ftl` by host page writes, each
followed by `consume_write_credit` and `check_and_refill_write_credit`, in which no GC run has
collected a victim yet (`gc_count = 0`), `write_credits` is positive and the open user line
has exactly `write_credits` FREE pages from the user write pointer on, so credit conservation
holds there. -/
theorem credit_conservation_before_gc (cpp : convparams) (spp : ssdparams) (gc_mode : Nat)
    (dbg : Bool) (d0 : Nat → Option Nat) (s : conv_ftl) (hgeo : sweep_geometry spp)
    (hP : spp.pgs_per_line < 4294967296)
    (hr : host_reachable cpp spp gc_mode dbg d0 s) (hgc : s.gc_count = 0) :
    0 < s.wfc.write_credits ∧
    (∃ k, k < spp.pgs_per_line ∧ stripe_pos spp s.wp k = s.wp ∧
      s.wfc.write_credits = spp.pgs_per_line - k ∧
      free_ahead spp s s.wp k = s.wfc.write_credits) ∧
    credit_conservation spp s := by
  obtain ⟨_, k, hk, hpos, hcr⟩ := host_credit_inv hgeo hP hr hgc
  have hwf := reachable_wf hgeo (host_reachable_reachable hr)
  obtain ⟨_, _, _, k2, hk2, hpos2, hfree⟩ := hwf.this_open
  have hkk : k2 = k := stripe_pos_unique hgeo.1.1 hpos2 hpos
  subst hkk
  have hfa : free_ahead spp s s.wp k2 = s.wfc.write_credits := by
    unfold free_ahead
    rw [hcr]
    apply count_upto_from
    · intro j hj
      simp only [decide_eq_false_iff_not, not_and]
      intro hle
      omega
    · intro j hj1 hj2
      simp only [decide_eq_true_eq]
      exact ⟨hj1, hfree j hj1 hj2⟩
  refine ⟨by omega, ⟨k2, hk, hpos, hcr, hfa⟩, ?_⟩
  intro _
  exact Or.inl ⟨k2, hk, hpos, by rw [hfa]⟩

theorem credit_conservation_before_gc_witness :
    0 < tri_two_state.wfc.write_credits ∧ credit_conservation (tri_params 6) tri_two_state := by
  have he : tri_two_run = some tri_two_state := getD_of_isSome blank_ftl (by decide)
  have hr : host_reachable conv_params (tri_params 6) 0 false (fun _ => none) tri_two_state := by
    unfold tri_two_run tri_fresh at he
    simp only [Option.bind_eq_some] at he
    obtain ⟨s0, h0, h1⟩ := he
    exact host_reachable_write_lpns _ _ _ _ _ _ (host_reachable.init h0) h1
  have hgc : tri_two_state.gc_count = 0 := by
    have key : tri_two_run.map (fun s => s.gc_count) = some 0 := by decide
    rw [he] at key
    exact Option.some.inj key
  have h := credit_conservation_before_gc conv_params (tri_params 6) 0 false (fun _ => none)
    tri_two_state (by decide) (by decide) hr hgc
  exact ⟨h.1, h.2.2⟩

/-! ## The first line of a fresh instance -/

theorem count_upto_le (f : Nat → Bool) : ∀ n, count_upto f n ≤ n := by
  intro n
  induction n with
  | zero => simp [count_upto]
  | succ n ih =>
    simp only [count_upto]
    split_ifs <;> omega

theorem count_upto_lt {f : Nat → Bool} {i : Nat} (hi : f i = false) :
    ∀ n, i < n → count_upto f n < n := by
  intro n
  induction n with
  | zero => intro h; omega
  | succ n ih =>
    intro h
    simp only [count_upto]
    rcases Nat.lt_succ_iff_lt_or_eq.mp h with h1 | h1
    · have := ih h1
      split_ifs <;> omega
    · subst h1
      rw [hi]
      have := count_upto_le f i
      simp only [Bool.false_eq_true, if_false]
      omega

theorem mark_page_valid_total {s : conv_ftl} {p : ppa} {blk : nand_block}
    (hblk : get_blk s.ssd p = some blk) (hpg : p.pg < s.ssd.sp.pgs_per_blk)
    (hfree : (blk.pg p.pg).status = PG_FREE) (hv : blk.vpc < s.ssd.sp.pgs_per_blk)
    (hl : (s.lm.lines p.blk).vpc < s.ssd.sp.pgs_per_line) :
    ∃ s', mark_page_valid s p = some s' := by
  have hg : get_pg s.ssd p = some (blk.pg p.pg) := by
    unfold get_pg
    rw [hblk]
    simp only [if_pos hpg]
  unfold mark_page_valid
  simp only [hg, hblk, bind, Option.bind, NVMEV_ASSERT, if_pos hfree, get_line, set_pg_status,
    if_pos hv, if_pos hl, pure]
  exact ⟨_, rfl⟩

/-- A block with a FREE page holds fewer VALID pages than it has pages. -/
theorem blk_vpc_lt {s : conv_ftl} {c l b g : Nat} (hacct : blks_acct s)
    (hc : c < s.ssd.sp.nchs) (hl : l < s.ssd.sp.luns_per_ch) (hp : 0 < s.ssd.sp.pls_per_lun)
    (hb : b < s.ssd.sp.blks_per_pl) (hg : g < s.ssd.sp.pgs_per_blk)
    (hfree : ((s.ssd.blk c l 0 b).pg g).status = PG_FREE) :
    (s.ssd.blk c l 0 b).vpc < s.ssd.sp.pgs_per_blk := by
  rw [(hacct c hc l hl 0 hp b hb).1]
  unfold blk_count
  apply count_upto_lt (i := g) _ _ hg
  rw [hfree]
  rfl

/-- `advance_write_pointer` from the last position of a line whose pages are all VALID, with
a free line left: the line goes to the full-line list and the cursor to the first page of the
head of the free-line list. -/
theorem advance_write_pointer_last_total {s : conv_ftl} {io : Nat} {w : write_pointer}
    {cur : Nat} {rest : List Nat} (hw : __get_wp s io = some w)
    (hone : (w.pg + 1) % s.ssd.sp.pgs_per_oneshotpg = 0)
    (hP : s.ssd.sp.pgs_per_oneshotpg ≠ 0)
    (hpg : w.pg + 1 = s.ssd.sp.pgs_per_blk) (hch : w.ch + 1 = s.ssd.sp.nchs)
    (hlun : w.lun + 1 = s.ssd.sp.luns_per_ch) (hpl : w.pl = 0)
    (hblk : w.blk < s.ssd.sp.blks_per_pl)
    (hvpc : (s.lm.lines w.curline).vpc = s.ssd.sp.pgs_per_line)
    (hipc : (s.lm.lines w.curline).ipc = 0)
    (hfree : s.lm.free_line_list = cur :: rest)
    (hid : (s.lm.lines cur).id < s.ssd.sp.blks_per_pl) :
    advance_write_pointer s io =
      some (set_wp { s with lm :=
          { s.lm with full_line_list := s.lm.full_line_list ++ [w.curline],
                      full_line_cnt := s.lm.full_line_cnt + 1,
                      free_line_list := rest,
                      free_line_cnt := dec_u32 s.lm.free_line_cnt } } io
        { curline := cur, ch := 0, lun := 0, pg := 0, blk := (s.lm.lines cur).id, pl := 0 }) := by
  have h1 : w.pg < s.ssd.sp.pgs_per_blk := by omega
  have h2 : w.ch < s.ssd.sp.nchs := by omega
  have h3 : w.lun < s.ssd.sp.luns_per_ch := by omega
  have hclose : advance_write_pointer_close s.ssd.sp s.lm w.curline =
      some { s.lm with full_line_list := s.lm.full_line_list ++ [w.curline],
                       full_line_cnt := s.lm.full_line_cnt + 1 } := by
    unfold advance_write_pointer_close
    rw [if_pos hvpc]
    simp only [bind, Option.bind, NVMEV_ASSERT, if_pos hipc, pure]
  have hnew : advance_write_pointer_newline s io
      { curline := w.curline, ch := 0, lun := 0,
        pg := w.pg + 1 - s.ssd.sp.pgs_per_oneshotpg + s.ssd.sp.pgs_per_oneshotpg,
        blk := w.blk, pl := w.pl } =
      some (set_wp { s with lm :=
          { s.lm with full_line_list := s.lm.full_line_list ++ [w.curline],
                      full_line_cnt := s.lm.full_line_cnt + 1,
                      free_line_list := rest,
                      free_line_cnt := dec_u32 s.lm.free_line_cnt } } io
        { curline := cur, ch := 0, lun := 0, pg := 0, blk := (s.lm.lines cur).id, pl := 0 }) := by
    unfold advance_write_pointer_newline
    simp only [hclose, bind, Option.bind, check_addr, NVMEV_ASSERT, if_pos hblk,
      get_next_free_line, hfree, if_pos hid, if_true, pure, hpl]
  unfold advance_write_pointer
  simp only [hw, bind, Option.bind, check_addr, NVMEV_ASSERT, if_pos h1, if_pos hP, pure,
    hone, ne_eq, not_true_eq_false, if_false, if_pos h2, hch, if_pos h3, hlun]
  have hpg2 : w.pg + 1 - s.ssd.sp.pgs_per_oneshotpg + s.ssd.sp.pgs_per_oneshotpg =
      s.ssd.sp.pgs_per_blk := by
    have : s.ssd.sp.pgs_per_oneshotpg ≤ w.pg + 1 := by
      have hle := Nat.le_of_dvd (by omega) (Nat.dvd_of_mod_eq_zero hone)
      exact hle
    omega
  simp only [hpg2, not_true_eq_false, if_false]
  rw [← hpg2]
  exact hnew

/-- A page write to an unmapped LPN in a well-formed state whose open user line holds fewer
VALID pages than a line has pages: the branch for a mapped old page is skipped, the page under
the user cursor becomes VALID, and the write returns what the advance of the user cursor
returns. -/
theorem conv_write_map_unmapped {sp : ssdparams} (hgeo : ftl_geometry sp)
    (hpc : params_consistent sp) {s : conv_ftl} (hI : wf_inv sp none s) (now : Nat) {L : Nat}
    (hL : L < sp.tt_pgs) (hun : mapped_ppa (s.maptbl L) = false)
    (hv : (s.lm.lines s.wp.curline).vpc < sp.pgs_per_line) :
    ∃ (s4 : conv_ftl) (p : ppa), s4.wp = s.wp ∧ s4.ssd.sp = sp ∧
      s4.lm.lines = Function.update s.lm.lines s.wp.curline
        { s.lm.lines s.wp.curline with vpc := (s.lm.lines s.wp.curline).vpc + 1 } ∧
      s4.lm = { s.lm with lines := s4.lm.lines } ∧
      ∀ s5, advance_write_pointer s4 USER_IO = some s5 →
        conv_write_map s now L = some (s5, p) := by
  have hsp : s.ssd.sp = sp := hI.sp_eq
  have hw : __get_wp s USER_IO = some s.wp := get_wp_user s
  have hsg : stripe_geometry sp := hgeo.1
  obtain ⟨b1, b2, b3, b4⟩ := open_free_bounds hsg hI.this_open
  have hpl : s.wp.pl = 0 := hI.this_open.1
  have hblk : s.wp.blk = s.wp.curline := hI.this_open.2.1
  have hcur : s.wp.curline < sp.blks_per_pl := hI.this_open.2.2.1
  have hpls : sp.pls_per_lun = 1 := hgeo.2.1.1
  obtain ⟨p, hp⟩ : ∃ p, get_new_page s USER_IO = some p := by
    unfold get_new_page
    simp only [hw, bind, Option.bind, NVMEV_ASSERT, hpl, Nat.zero_mod, if_true, pure]
    exact ⟨_, rfl⟩
  have hpe := wf_cursor_page hgeo hI hw hp
  have h2 : set_maptbl_ent s L p = some { s with maptbl := Function.update s.maptbl L p } := by
    unfold set_maptbl_ent
    rw [if_pos (by rw [hsp]; exact hL)]
  have hpv : p.ch < sp.nchs ∧ p.lun < sp.luns_per_ch ∧ p.pl < sp.pls_per_lun ∧
      p.blk < sp.blks_per_pl ∧ p.pg < sp.pgs_per_blk := by
    rw [hpe]
    exact ⟨b1, b2, by rw [hpls]; exact Nat.one_pos, hcur, b3⟩
  have hidx := pgidx_of_lt hpc hpv
  have h3 : set_rmap_ent { s with maptbl := Function.update s.maptbl L p } L p =
      some { s with maptbl := Function.update s.maptbl L p,
                    rmap := Function.update s.rmap (pgidx_of s.ssd.sp p) L } := by
    unfold set_rmap_ent ppa2pgidx
    simp only [hsp, if_pos hidx]
  have hgb : get_blk s.ssd p = some (s.ssd.blk p.ch p.lun p.pl p.blk) := by
    unfold get_blk
    rw [hsp, if_pos ⟨hpv.1, hpv.2.1, hpv.2.2.1, hpv.2.2.2.1⟩]
  have hpch : p.ch = s.wp.ch := by rw [hpe]
  have hplun : p.lun = s.wp.lun := by rw [hpe]
  have hppg : p.pg = s.wp.pg := by rw [hpe]
  have hpblk : p.blk = s.wp.curline := by rw [hpe]
  have hppl : p.pl = 0 := by rw [hpe]
  have hfree : ((s.ssd.blk p.ch p.lun p.pl p.blk).pg p.pg).status = PG_FREE := by
    rw [hpch, hplun, hppg, hpblk, hppl, ← hblk]
    exact b4
  have hbv : (s.ssd.blk p.ch p.lun p.pl p.blk).vpc < s.ssd.sp.pgs_per_blk := by
    rw [hppl]
    refine blk_vpc_lt hI.bacct (by rw [hsp]; exact hpv.1) (by rw [hsp]; exact hpv.2.1)
      (by rw [hsp, hpls]; exact Nat.one_pos) (by rw [hsp]; exact hpv.2.2.2.1)
      (by rw [hsp]; exact hpv.2.2.2.2) (g := p.pg) ?_
    rw [← hppl]
    exact hfree
  obtain ⟨s4, h4⟩ := mark_page_valid_total
    (s := { s with maptbl := Function.update s.maptbl L p,
                   rmap := Function.update s.rmap (pgidx_of s.ssd.sp p) L })
    (p := p) hgb (by rw [hsp]; exact hpv.2.2.2.2) hfree hbv
    (by rw [hsp, hpblk]; exact hv)
  obtain ⟨_, _, d3, d4, d5, _⟩ := mark_page_valid_spec h4
  refine ⟨s4, p, ?_, ?_, ?_, ?_, ?_⟩
  · rw [d4]
  · rw [d3]; exact hsp
  · rw [d5, hpblk]
  · rw [d4]
  · intro s5 h5
    unfold conv_write_map conv_write_invalidate
    simp only [get_maptbl_ent, hun, Bool.false_eq_true, if_false, bind, Option.bind, pure, hp,
      h2, h3, h4, h5]

theorem mapped_ppa_false_of_not {b : Bool} (h : ¬ b = true) : b = false := by
  cases b
  · rfl
  · exact absurd rfl h

/-- A write inside the first line: the write succeeds and the invariant of the fill holds at
the next position. -/
theorem fill_step {sp : ssdparams} (hgeo : ftl_geometry sp) (hpc : params_consistent sp)
    {s0 s : conv_ftl} {i : Nat} {written : List Nat} (hI : fill_inv sp s0 s i written)
    (now r : Nat) {L : Nat} (hL : L < sp.tt_pgs) (hnew : L ∉ written)
    (hi : i + 1 < sp.pgs_per_line) :
    ∃ s', conv_write_lpn s now r L = some s' ∧ fill_inv sp s0 s' (i + 1) (written ++ [L]) := by
  have hun : mapped_ppa (s.maptbl L) = false :=
    mapped_ppa_false_of_not (fun h => hnew (hI.map L h))
  have hv : (s.lm.lines s.wp.curline).vpc < sp.pgs_per_line := by
    rw [hI.line, hI.vpc]; omega
  obtain ⟨s4, p, hwp4, hsp4, hl4, hlm4, hmap⟩ :=
    conv_write_map_unmapped hgeo hpc hI.wf now hL hun hv
  have hw4 : __get_wp s4 USER_IO = some s.wp := by rw [get_wp_user, hwp4]
  have hadv := advance_write_pointer_stripe s4 USER_IO s.wp (by rw [hsp4]; exact hgeo.1)
    (Or.inl rfl) i (by rw [hsp4]; exact hi)
  rw [hsp4, hI.pos, set_wp_self hw4, set_wp_user] at hadv
  have hm := hmap _ hadv
  obtain ⟨f1, f2, f3, _, _, _⟩ := conv_write_map_frame hm
  obtain ⟨_, _, e3, _⟩ := conv_write_map_effect hm
  have hwf := wf_conv_write_map hgeo hI.wf hm
  have hcred : dec_u32 s.wfc.write_credits = sp.pgs_per_line - (i + 1) := by
    rw [hI.credits]
    unfold dec_u32
    rw [if_neg (by omega)]
    omega
  refine ⟨consume_write_credit { s4 with wp := stripe_pos sp s.wp (i + 1) }, ?_, ?_⟩
  · unfold conv_write_lpn
    simp only [hm, bind, Option.bind]
    unfold check_and_refill_write_credit
    rw [if_neg]
    show ¬ dec_u32 s4.wfc.write_credits ≤ 0
    have : s4.wfc = s.wfc := f1
    rw [this, hcred]
    omega
  · have hlines : ∀ k, (s4.lm.lines k).ipc = 0 := by
      intro k
      rw [hl4]
      by_cases hk : k = s.wp.curline
      · subst hk
        rw [Function.update_same]
        exact hI.ipc _
      · rw [Function.update_noteq hk]
        exact hI.ipc k
    exact
      { wf := wf_inv_congr (by rfl) (by rfl) (by rfl) (by rfl) hwf
        pos := rfl
        line := hI.line
        vpc := by
          show (s4.lm.lines s0.wp.curline).vpc = i + 1
          rw [hl4, ← hI.line, Function.update_same]
          show (s.lm.lines s.wp.curline).vpc + 1 = i + 1
          rw [hI.line, hI.vpc]
        ipc := hlines
        free := by
          show s4.lm.free_line_list = _
          rw [hlm4]; exact hI.free
        free_cnt := by
          show s4.lm.free_line_cnt = _
          rw [hlm4]; exact hI.free_cnt
        full := by
          show s4.lm.full_line_list = _
          rw [hlm4]; exact hI.full
        full_cnt := by
          show s4.lm.full_line_cnt = _
          rw [hlm4]; exact hI.full_cnt
        victim_cnt := by
          show s4.lm.victim_line_cnt = _
          rw [hlm4]; exact hI.victim_cnt
        gc := by
          show s4.gc_count = 0
          exact f2.trans hI.gc
        credits := by
          show dec_u32 s4.wfc.write_credits = _
          have : s4.wfc = s.wfc := f1
          rw [this, hcred]
        cp := by
          show s4.cp = _
          exact f3.trans hI.cp
        map := by
          intro K hK
          have hK2 : mapped_ppa (Function.update s.maptbl L p K) = true := by
            rw [← e3]; exact hK
          by_cases hKL : K = L
          · rw [hKL]; exact List.mem_append_right _ (List.mem_singleton_self L)
          · rw [Function.update_noteq hKL] at hK2
            exact List.mem_append_left _ (hI.map K hK2) }

/-- The write that uses up the first line: the line goes to the full-line list, the user
cursor opens the head of the free-line list, and with more free lines left than the
foreground threshold no GC run takes place. -/
theorem fill_last {sp : ssdparams} (hgeo : ftl_geometry sp) (hpc : params_consistent sp)
    {s0 s : conv_ftl} {i : Nat} {written : List Nat} (hI : fill_inv sp s0 s i written)
    (now r : Nat) {L : Nat} (hL : L < sp.tt_pgs) (hnew : L ∉ written)
    (hi : i + 1 = sp.pgs_per_line) {cur : Nat} {rest : List Nat}
    (hfl : s0.lm.free_line_list = cur :: rest)
    (hth : s0.cp.gc_thres_lines_high < dec_u32 s0.lm.free_line_cnt) :
    ∃ s', conv_write_lpn s now r L = some s' ∧ fill_done sp s0 s' := by
  have hun : mapped_ppa (s.maptbl L) = false :=
    mapped_ppa_false_of_not (fun h => hnew (hI.map L h))
  have hv : (s.lm.lines s.wp.curline).vpc < sp.pgs_per_line := by
    rw [hI.line, hI.vpc]; omega
  obtain ⟨s4, p, hwp4, hsp4, hl4, hlm4, hmap⟩ :=
    conv_write_map_unmapped hgeo hpc hI.wf now hL hun hv
  have hw4 : __get_wp s4 USER_IO = some s.wp := by rw [get_wp_user, hwp4]
  obtain ⟨l1, l2, l3, l4⟩ := stripe_pos_last hgeo.1 s.wp hi
  rw [hI.pos] at l1 l2 l3 l4
  have hfree4 : s4.lm.free_line_list = cur :: rest := by
    rw [hlm4]
    show s.lm.free_line_list = _
    rw [hI.free, hfl]
  have hcurmem : cur ∈ s.lm.free_line_list := by
    rw [hI.free, hfl]; exact List.mem_cons_self _ _
  have hid4 : ∀ k, (s4.lm.lines k).id = k := by
    intro k
    rw [hl4]
    by_cases hk : k = s.wp.curline
    · subst hk
      rw [Function.update_same]
      exact hI.wf.ids _
    · rw [Function.update_noteq hk]
      exact hI.wf.ids k
  have hipc4 : ∀ k, (s4.lm.lines k).ipc = 0 := by
    intro k
    rw [hl4]
    by_cases hk : k = s.wp.curline
    · subst hk
      rw [Function.update_same]
      exact hI.ipc _
    · rw [Function.update_noteq hk]
      exact hI.ipc k
  have hvpc4 : (s4.lm.lines s.wp.curline).vpc = sp.pgs_per_line := by
    rw [hl4, Function.update_same]
    show (s.lm.lines s.wp.curline).vpc + 1 = _
    rw [hI.line, hI.vpc, hi]
  have hadv := advance_write_pointer_last_total (s := s4) (w := s.wp) hw4
    (by rw [hsp4]; exact l1) (by rw [hsp4]; exact Nat.pos_iff_ne_zero.mp hgeo.1.1)
    (by rw [hsp4]; exact l2) (by rw [hsp4]; exact l3) (by rw [hsp4]; exact l4)
    hI.wf.this_open.1
    (by rw [hsp4, hI.wf.this_open.2.1]; exact hI.wf.this_open.2.2.1)
    (by rw [hsp4]; exact hvpc4) (hipc4 _) hfree4
    (by rw [hsp4, hid4]; exact hI.wf.free_lt cur hcurmem)
  rw [set_wp_user] at hadv
  have hm := hmap _ hadv
  obtain ⟨f1, f2, f3, _, _, _⟩ := conv_write_map_frame hm
  have hcred : dec_u32 s.wfc.write_credits = 0 := by
    rw [hI.credits]
    unfold dec_u32
    rw [if_neg (by omega)]
    omega
  have hfc4 : s4.lm.free_line_cnt = s0.lm.free_line_cnt := by
    rw [hlm4]; exact hI.free_cnt
  have hcp4 : s4.cp = s0.cp := by
    have : s4.cp = s.cp := f3
    rw [this]; exact hI.cp
  have hwfc4 : s4.wfc = s.wfc := f1
  have hgc4 : s4.gc_count = 0 := by
    have : s4.gc_count = s.gc_count := f2
    rw [this]; exact hI.gc
  have hfull4 : s4.lm.full_line_list = [] := by
    rw [hlm4]; exact hI.full
  have hfullc4 : s4.lm.full_line_cnt = 0 := by
    rw [hlm4]; exact hI.full_cnt
  have hvic4 : s4.lm.victim_line_cnt = 0 := by
    rw [hlm4]; exact hI.victim_cnt
  have hlpn : ∃ s', conv_write_lpn s now r L = some s' ∧ s'.lm.lines = s4.lm.lines ∧
      s'.lm.full_line_list = s4.lm.full_line_list ++ [s.wp.curline] ∧
      s'.lm.full_line_cnt = s4.lm.full_line_cnt + 1 ∧
      s'.lm.victim_line_cnt = s4.lm.victim_line_cnt ∧ s'.lm.free_line_list = rest ∧
      s'.wp.curline = cur ∧ s'.wp.ch = 0 ∧ s'.wp.lun = 0 ∧ s'.wp.pg = 0 ∧
      s'.gc_count = s4.gc_count := by
    unfold conv_write_lpn
    simp only [hm, bind, Option.bind]
    unfold check_and_refill_write_credit
    rw [if_pos (by
      show dec_u32 s4.wfc.write_credits ≤ 0
      rw [hwfc4, hcred])]
    have hng : should_gc_high (consume_write_credit { s4 with
        lm := { s4.lm with full_line_list := s4.lm.full_line_list ++ [s.wp.curline],
                           full_line_cnt := s4.lm.full_line_cnt + 1,
                           free_line_list := rest,
                           free_line_cnt := dec_u32 s4.lm.free_line_cnt },
        wp := { curline := cur, ch := 0, lun := 0, pg := 0, blk := (s4.lm.lines cur).id,
                pl := 0 } }) = false := by
      unfold should_gc_high
      show decide (dec_u32 s4.lm.free_line_cnt ≤ s4.cp.gc_thres_lines_high) = false
      rw [hfc4, hcp4]
      exact decide_eq_false (by omega)
    unfold foreground_gc
    simp only [hng, Bool.false_eq_true, if_false]
    exact ⟨_, rfl, rfl, rfl, rfl, rfl, rfl, rfl, rfl, rfl, rfl, rfl⟩
  obtain ⟨s', h1, h2, h3, h4, h5, h6, h7, h8, h9, h10, h11⟩ := hlpn
  refine ⟨s', h1, ?_⟩
  exact
    { full := by rw [h3, hfull4, hI.line]; rfl
      vpc := by rw [h2, ← hI.line]; exact hvpc4
      full_cnt := by rw [h4, hfullc4]
      victim_cnt := by rw [h5, hvic4]
      line := by rw [h6, h7]; exact hfl
      ch := h8
      lun := h9
      pg := h10
      gc := by rw [h11]; exact hgc4
      ipc := fun k => by rw [h2]; exact hipc4 k }

/-- The state built by `conv_init_ftl` on a fresh device satisfies the invariant of the fill
at position 0. -/
theorem fill_init {cpp : convparams} {spp : ssdparams} {gc_mode : Nat} {dbg : Bool}
    {d0 : Nat → Option Nat} {s0 : conv_ftl} (hgeo : ftl_geometry spp)
    (h : conv_init_ftl cpp (ssd_init spp) gc_mode dbg d0 = some s0) :
    fill_inv spp s0 s0 0 [] := by
  obtain ⟨a1, a2, _, a4, a5, a6⟩ := conv_init_ftl_fields h
  obtain ⟨lm, c1, c2, rest, hlm, _, _, hmt, _, _, _, hl⟩ := conv_init_ftl_eq_some h
  obtain ⟨_, i2, _, i4, _, _, i7, i8, _⟩ := init_lines_eq_some hlm
  have hlines : s0.lm.lines =
      (fun i => { id := i, ipc := 0, vpc := 0, pos := 0, last_modified_time := 0 }) := by
    rw [hl]; exact i2
  exact
    { wf := wf_init hgeo h
      pos := stripe_pos_zero _ _ a4 a5 a6
      line := rfl
      vpc := by rw [hlines]
      ipc := fun k => by rw [hlines]
      free := rfl
      free_cnt := rfl
      full := by rw [hl]; exact i4
      full_cnt := by rw [hl]; exact i8
      victim_cnt := by rw [hl]; exact i7
      gc := a2
      credits := by rw [a1]; rfl
      cp := rfl
      map := fun L hL => by
        rw [hmt] at hL
        exact absurd (show mapped_ppa UNMAPPED_PPA = true from hL) (by decide) }

/-- From position `i` of the first line, writes to distinct unmapped LPNs up to the end of the
line all succeed and end in the outcome of the fill. -/
theorem fill_run {sp : ssdparams} (hgeo : ftl_geometry sp) (hpc : params_consistent sp)
    {s0 : conv_ftl} (now r : Nat → Nat) {cur : Nat} {rest : List Nat}
    (hfl : s0.lm.free_line_list = cur :: rest)
    (hth : s0.cp.gc_thres_lines_high < dec_u32 s0.lm.free_line_cnt) :
    ∀ (ls : List Nat) (i : Nat) (s : conv_ftl) (written : List Nat),
      fill_inv sp s0 s i written → ls ≠ [] → i + ls.length = sp.pgs_per_line → ls.Nodup →
      (∀ l, l ∈ ls → l < sp.tt_pgs ∧ l ∉ written) →
      ∃ s', write_lpns now r ls i s = some s' ∧ fill_done sp s0 s' := by
  intro ls
  induction ls with
  | nil => intro i s written _ hne; exact absurd rfl hne
  | cons L tl ih =>
    intro i s written hI _ hlen hnd hall
    obtain ⟨hL, hnew⟩ := hall L (List.mem_cons_self _ _)
    cases tl with
    | nil =>
      obtain ⟨s', h1, h2⟩ := fill_last hgeo hpc hI (now i) (r i) hL hnew
        (by simpa using hlen) hfl hth
      refine ⟨s', ?_, h2⟩
      simp only [write_lpns, h1]
    | cons L2 tl2 =>
      have hi : i + 1 < sp.pgs_per_line := by
        simp only [List.length_cons] at hlen
        omega
      obtain ⟨s1, h1, h2⟩ := fill_step hgeo hpc hI (now i) (r i) hL hnew hi
      have hnd2 := List.nodup_cons.mp hnd
      obtain ⟨s', h3, h4⟩ := ih (i + 1) s1 (written ++ [L]) h2 (by simp)
        (by simp only [List.length_cons] at hlen ⊢; omega) hnd2.2
        (fun l hl => by
          obtain ⟨q1, q2⟩ := hall l (List.mem_cons_of_mem _ hl)
          refine ⟨q1, fun hm => ?_⟩
          rcases List.mem_append.mp hm with hm | hm
          · exact q2 hm
          · rw [List.mem_singleton.mp hm] at hl
            exact hnd2.1 hl)
      refine ⟨s', ?_, h4⟩
      simp only [write_lpns, h1]
      exact h3

/-- C30: sequential fill of one line. On an instance freshly initialised by `conv_init_ftl`
with the parameters of `conv_init_params` over a geometry of `ssd_init_params` with at least
six lines, the host writes to `pgs_per_line` pairwise distinct local LPNs below `tt_pgs` (on
the fresh instance every LPN is unmapped) all succeed, and afterwards the line that was open
for user writes is the one entry of the full-line list with `vpc = pgs_per_line`,
`full_line_cnt = 1`, `victim_line_cnt = 0`, the user cursor is on the line taken from the head
of the free-line list at `ch = lun = pg = 0`, `gc_count = 0`, and every line has `ipc = 0`. -/
theorem sequential_fill_one_line (spp : ssdparams) (gc_mode : Nat) (dbg : Bool)
    (d0 : Nat → Option Nat) (s0 : conv_ftl) (now r : Nat → Nat) (lpns : List Nat)
    (hgeo : ftl_geometry spp) (hpc : params_consistent spp) (hlines : 6 ≤ spp.tt_lines)
    (h0 : conv_init_ftl conv_params (ssd_init spp) gc_mode dbg d0 = some s0)
    (hlen : lpns.length = spp.pgs_per_line) (hnd : lpns.Nodup)
    (hlt : ∀ l, l ∈ lpns → l < spp.tt_pgs) :
    ∃ s, write_lpns now r lpns 0 s0 = some s ∧
      s.lm.full_line_list = [s0.wp.curline] ∧
      (s.lm.lines s0.wp.curline).vpc = spp.pgs_per_line ∧
      s.lm.full_line_cnt = 1 ∧ s.lm.victim_line_cnt = 0 ∧
      s0.lm.free_line_list = s.wp.curline :: s.lm.free_line_list ∧
      s.wp.ch = 0 ∧ s.wp.lun = 0 ∧ s.wp.pg = 0 ∧ s.gc_count = 0 ∧
      ∀ k, (s.lm.lines k).ipc = 0 := by
  obtain ⟨_, _, a3, _⟩ := conv_init_ftl_fields h0
  obtain ⟨lm, c1, c2, rest, hlm, hfl, _, _, _, _, _, hl⟩ := conv_init_ftl_eq_some h0
  obtain ⟨i1, _, i3, _, _, i6, _⟩ := init_lines_eq_some hlm
  have hrange : List.range spp.blks_per_pl = c1 :: c2 :: rest := by rw [← i3]; exact hfl
  have hrl : rest.length + 2 = spp.blks_per_pl := by
    have := congrArg List.length hrange
    simp only [List.length_range, List.length_cons] at this
    omega
  have hfree0 : s0.lm.free_line_list = rest := by rw [hl]
  have hcnt0 : s0.lm.free_line_cnt = dec_u32 (dec_u32 spp.blks_per_pl) := by rw [hl, ← i6]
  obtain ⟨cur, rest2, hrest⟩ : ∃ cur rest2, rest = cur :: rest2 := by
    cases rest with
    | nil => simp only [List.length_nil] at hrl; omega
    | cons a b => exact ⟨a, b, rfl⟩
  have hth : s0.cp.gc_thres_lines_high < dec_u32 s0.lm.free_line_cnt := by
    have hd : ∀ n, n ≠ 0 → dec_u32 n = n - 1 := by
      intro n hn
      unfold dec_u32
      rw [if_neg hn]
    have d1 : dec_u32 spp.blks_per_pl = spp.blks_per_pl - 1 := hd _ (by omega)
    have d2 : dec_u32 (spp.blks_per_pl - 1) = spp.blks_per_pl - 2 := hd _ (by omega)
    have d3 : dec_u32 (spp.blks_per_pl - 2) = spp.blks_per_pl - 3 := hd _ (by omega)
    rw [a3, hcnt0, d1, d2, d3]
    show 2 < _
    omega
  have hP := pgs_per_line_pos hgeo
  obtain ⟨s, h1, h2⟩ := fill_run hgeo hpc now r (hfree0.trans hrest) hth lpns 0 s0 []
    (fill_init hgeo h0) (by
      intro he
      rw [he] at hlen
      simp only [List.length_nil] at hlen
      omega) (by omega) hnd (fun l hl => ⟨hlt l hl, List.not_mem_nil l⟩)
  exact ⟨s, h1, h2.full, h2.vpc, h2.full_cnt, h2.victim_cnt, h2.line, h2.ch, h2.lun, h2.pg,
    h2.gc, h2.ipc⟩

theorem sequential_fill_one_line_witness :
    (ftl_geometry (tri_params 6) ∧ params_consistent (tri_params 6) ∧
      6 ≤ (tri_params 6).tt_lines ∧ [0, 1, 2].length = (tri_params 6).pgs_per_line) ∧
    ∃ s, write_lpns (fun i => 100 + i) (fun _ => 0) [0, 1, 2] 0 tri_fresh_state = some s ∧
      s.lm.full_line_list = [tri_fresh_state.wp.curline] ∧
      (s.lm.lines tri_fresh_state.wp.curline).vpc = (tri_params 6).pgs_per_line ∧
      s.lm.full_line_cnt = 1 ∧ s.lm.victim_line_cnt = 0 ∧
      tri_fresh_state.lm.free_line_list = s.wp.curline :: s.lm.free_line_list ∧
      s.wp.ch = 0 ∧ s.wp.lun = 0 ∧ s.wp.pg = 0 ∧ s.gc_count = 0 ∧
      ∀ k, (s.lm.lines k).ipc = 0 :=
  ⟨⟨by decide, by decide, by decide, rfl⟩,
    sequential_fill_one_line (tri_params 6) 0 false (fun _ => none) tri_fresh_state
      (fun i => 100 + i) (fun _ => 0) [0, 1, 2] (by decide) (by decide) (by decide)
      (getD_of_isSome blank_ftl (by decide)) rfl (by decide) (by decide)⟩

theorem get_age_weight_mono {a b : Nat} (h : a ≤ b) : get_age_weight a ≤ get_age_weight b := by
  unfold get_age_weight THRESHOLD_VERY_HOT THRESHOLD_HOT THRESHOLD_WARM
  split_ifs <;> omega

theorem cb_age_eq (now : Nat) (cand : line) : cb_age now cand = now - cand.last_modified_time := by
  unfold cb_age
  split_ifs <;> omega

/-- C35: `get_age_weight a` is 1 for `a < 100 000 000`, 5 for
`100 000 000 ≤ a < 5 000 000 000`, 20 for `5 000 000 000 ≤ a < 60 000 000 000` and 100 from
there on, so it does not decrease when the age grows (`a ≤ b`); the scan of
`select_victim_cb` scores a candidate with the weight of the age
`max(0, now - last_modified_time)` (the truncated difference), which is weight 1 when
`last_modified_time ≥ now`. -/
theorem get_age_weight_step (a b now : Nat) (cand : line) (hab : a ≤ b) :
    get_age_weight a =
      (if a < 100000000 then 1 else if a < 5000000000 then 5
       else if a < 60000000000 then 20 else 100) ∧
    get_age_weight a ≤ get_age_weight b ∧
    cb_age now cand = max 0 (now - cand.last_modified_time) ∧
    cb_score now cand =
      get_age_weight (max 0 (now - cand.last_modified_time)) * cand.ipc / (cand.vpc + 1) ∧
    (now ≤ cand.last_modified_time → cb_age now cand = 0 ∧
      cb_score now cand = 1 * cand.ipc / (cand.vpc + 1)) := by
  refine ⟨rfl, get_age_weight_mono hab, ?_, ?_, ?_⟩
  · rw [cb_age_eq, Nat.zero_max]
  · unfold cb_score
    rw [cb_age_eq, Nat.zero_max]
  · intro h
    have h0 : cb_age now cand = 0 := by rw [cb_age_eq]; omega
    refine ⟨h0, ?_⟩
    unfold cb_score
    rw [h0]
    rfl

theorem get_age_weight_step_witness :
    (99999999 ≤ 100000000) ∧ get_age_weight 99999999 = 1 ∧ get_age_weight 100000000 = 5 ∧
    get_age_weight 99999999 ≤ get_age_weight 100000000 ∧
    cb_score 7 { id := 0, ipc := 3, vpc := 0, pos := 1, last_modified_time := 9 } = 3 := by
  have h := get_age_weight_step 99999999 100000000 7
    { id := 0, ipc := 3, vpc := 0, pos := 1, last_modified_time := 9 } (by decide)
  exact ⟨by decide, by decide, by decide, h.2.1, by decide⟩

/-- C40: with `end_lpn / nr_parts ≥ tt_pgs`, `conv_read` and `conv_write` return false and
leave the namespace, the file-scope variables and the timing state, the write buffer
included, as they were, and issue no NAND command; otherwise every LPN up to `end_lpn` has a
local LPN `lpn / nr_parts` below `tt_pgs`, so that `set_maptbl_ent` at that index succeeds on
every instance of the shared geometry.  `secs_per_pg` and `nr_parts` are non-zero (both
handlers divide by them). -/
theorem lpn_range_check {χ : Type} (E : timing_env χ) (ns : nvmev_ns) (g : globals)
    (T : dev_time χ) (req : nvmev_request) (now r : Nat → Nat)
    (hsec : (ns.ftls 0).ssd.sp.secs_per_pg ≠ 0) (hparts : ns.nr_parts ≠ 0) :
    ((ns.ftls 0).ssd.sp.tt_pgs ≤
        u64 (req.cmd.slba + (req.cmd.length + 1) - 1) / (ns.ftls 0).ssd.sp.secs_per_pg /
          ns.nr_parts →
      (∃ o, conv_read E ns g T req = some o ∧ o.ok = false ∧ o.ret = none ∧ o.ns = ns ∧
        o.g = g ∧ o.T = T ∧ o.issued = [] ∧ o.scheduled = []) ∧
      (∃ o, conv_write E ns g T req now r = some o ∧ o.ok = false ∧ o.ret = none ∧ o.ns = ns ∧
        o.g = g ∧ o.T = T ∧ o.issued = [] ∧ o.scheduled = [])) ∧
    (u64 (req.cmd.slba + (req.cmd.length + 1) - 1) / (ns.ftls 0).ssd.sp.secs_per_pg /
        ns.nr_parts < (ns.ftls 0).ssd.sp.tt_pgs →
      ∀ lpn, req.cmd.slba / (ns.ftls 0).ssd.sp.secs_per_pg ≤ lpn →
        lpn ≤ u64 (req.cmd.slba + (req.cmd.length + 1) - 1) / (ns.ftls 0).ssd.sp.secs_per_pg →
        lpn / ns.nr_parts < (ns.ftls 0).ssd.sp.tt_pgs ∧
        ∀ (s : conv_ftl) (p : ppa), s.ssd.sp.tt_pgs = (ns.ftls 0).ssd.sp.tt_pgs →
          set_maptbl_ent s (lpn / ns.nr_parts) p =
            some { s with maptbl := Function.update s.maptbl (lpn / ns.nr_parts) p }) := by
  have hz : ¬ ((ns.ftls 0).ssd.sp.secs_per_pg = 0 ∨ ns.nr_parts = 0) := by
    intro h
    rcases h with h | h
    · exact hsec h
    · exact hparts h
  refine ⟨fun hge => ⟨?_, ?_⟩, fun hlt lpn _ hle => ?_⟩
  · unfold conv_read
    simp only [if_neg hz, if_pos hge]
    exact ⟨_, rfl, rfl, rfl, rfl, rfl, rfl, rfl, rfl⟩
  · unfold conv_write
    simp only [if_neg hz, if_pos hge]
    exact ⟨_, rfl, rfl, rfl, rfl, rfl, rfl, rfl, rfl⟩
  · have h1 : lpn / ns.nr_parts < (ns.ftls 0).ssd.sp.tt_pgs :=
      lt_of_le_of_lt (Nat.div_le_div_right hle) hlt
    refine ⟨h1, fun s p hs => ?_⟩
    unfold set_maptbl_ent
    rw [if_pos (by rw [hs]; exact h1)]

theorem lpn_range_check_witness :
    (∃ o, conv_read example_env fresh_ns fresh_state.glob (idle_time 4096)
        (example_read_req 255) = some o ∧ o.ok = false ∧ o.ret = none ∧ o.ns = fresh_ns ∧
        o.g = fresh_state.glob ∧ o.T = idle_time 4096 ∧ o.issued = [] ∧ o.scheduled = []) ∧
    (∃ o, conv_write example_env fresh_ns fresh_state.glob (idle_time 4096)
        (example_read_req 255) (fun _ => 0) (fun _ => 0) = some o ∧ o.ok = false ∧
        o.ret = none ∧ o.ns = fresh_ns ∧ o.g = fresh_state.glob ∧ o.T = idle_time 4096 ∧
        o.issued = [] ∧ o.scheduled = []) :=
  (lpn_range_check example_env fresh_ns fresh_state.glob (idle_time 4096)
    (example_read_req 255) (fun _ => 0) (fun _ => 0) (by decide) (by decide)).1 (by decide)

/-! ## The LPN walks of `conv_read` and `conv_write` in closed form -/

theorem u64_of_lt {n : Nat} (h : n < 18446744073709551616) : u64 n = n := by
  unfold u64
  exact Nat.mod_eq_of_lt h

theorem read_inner_eq (n e part : Nat) (hov : e + n < 18446744073709551616) :
    ∀ (m fuel lpn : Nat), m ≤ fuel → e < lpn + m * n → (m ≠ 0 → lpn + (m - 1) * n ≤ e) →
      read_inner n e part fuel lpn =
        (List.range m).map (fun k => (lpn + k * n, part, (lpn + k * n) / n)) := by
  intro m
  induction m with
  | zero =>
    intro fuel lpn _ h1 _
    cases fuel with
    | zero => rfl
    | succ f =>
      unfold read_inner
      rw [if_neg (by omega)]
      rfl
  | succ m ih =>
    intro fuel lpn hf h1 h2
    cases fuel with
    | zero => omega
    | succ f =>
      have h3 := h2 (by omega)
      simp only [Nat.add_sub_cancel] at h3
      rw [Nat.succ_mul] at h1
      have hle : lpn ≤ e := by
        have : 0 ≤ m * n := Nat.zero_le _
        omega
      unfold read_inner
      rw [if_pos hle, u64_of_lt (by omega), ih f (lpn + n) (by omega) (by omega) (by
        intro hm
        obtain ⟨m', rfl⟩ : ∃ m', m = m' + 1 := ⟨m - 1, by omega⟩
        rw [Nat.succ_mul] at h3
        simp only [Nat.add_sub_cancel]
        omega)]
      rw [List.range_succ_eq_map, List.map_cons, List.map_map]
      simp only [Nat.zero_mul, Nat.add_zero]
      congr 1
      apply List.map_congr_left
      intro k _
      simp only [Function.comp, Nat.succ_mul]
      have e1 : lpn + n + k * n = lpn + (k * n + n) := by omega
      rw [e1]

theorem read_inner_full (n e part lpn : Nat) (hn : 1 ≤ n)
    (hov : e + n < 18446744073709551616) (hle : lpn ≤ e) :
    read_inner n e part (e + 1) lpn =
      (List.range ((e - lpn) / n + 1)).map (fun k => (lpn + k * n, part, (lpn + k * n) / n)) := by
  apply read_inner_eq n e part hov
  · have := Nat.div_le_self (e - lpn) n
    omega
  · have := Nat.lt_div_mul_add (a := e - lpn) (b := n) (by omega)
    rw [Nat.succ_mul]
    omega
  · intro _
    have := Nat.div_mul_le_self (e - lpn) n
    simp only [Nat.add_sub_cancel]
    omega

theorem read_outer_eq (n e : Nat) (hov : e + n < 18446744073709551616) :
    ∀ (m fuel i start : Nat), m ≤ fuel → m = min (n - i) (e + 1 - start) →
      read_outer n e fuel i start =
        (List.range m).flatMap (fun j =>
          read_inner n e ((start + j) % n) (e + 1) (start + j)) := by
  intro m
  induction m with
  | zero =>
    intro fuel i start _ hm
    cases fuel with
    | zero => rfl
    | succ f =>
      unfold read_outer
      rw [if_neg (by omega)]
      rfl
  | succ m ih =>
    intro fuel i start hf hm
    cases fuel with
    | zero => omega
    | succ f =>
      unfold read_outer
      rw [if_pos (by omega), u64_of_lt (by omega), ih f (i + 1) (start + 1) (by omega)
        (by omega)]
      rw [List.range_succ_eq_map, List.flatMap_cons, List.flatMap_map]
      simp only [Nat.add_zero]
      congr 1
      apply List.flatMap_congr
      intro j _
      have e1 : start + 1 + j = start + (j + 1) := by omega
      rw [e1]

theorem read_walk_eq (n s e : Nat) (hn : 1 ≤ n) (hov : e + n < 18446744073709551616) :
    read_walk n s e =
      (List.range (min n (e + 1 - s))).flatMap (fun j =>
        (List.range ((e - (s + j)) / n + 1)).map
          (fun k => (s + j + k * n, (s + j) % n, (s + j + k * n) / n))) := by
  unfold read_walk
  rw [read_outer_eq n e hov (min n (e + 1 - s)) n 0 s (Nat.min_le_left _ _) (by simp)]
  apply List.flatMap_congr
  intro j hj
  rw [List.mem_range] at hj
  exact read_inner_full n e _ _ hn hov (by omega)

theorem write_loop_eq (n e : Nat) (hov : e + n < 18446744073709551616) (hn : 1 ≤ n) :
    ∀ (m fuel lpn : Nat), m ≤ fuel → m = e + 1 - lpn →
      write_loop n e fuel lpn = (List.range' lpn m).map (fun l => (l, l % n, l / n)) := by
  intro m
  induction m with
  | zero =>
    intro fuel lpn _ hm
    cases fuel with
    | zero => rfl
    | succ f =>
      unfold write_loop
      rw [if_neg (by omega)]
      rfl
  | succ m ih =>
    intro fuel lpn hf hm
    cases fuel with
    | zero => omega
    | succ f =>
      unfold write_loop
      rw [if_pos (by omega), u64_of_lt (by omega), ih f (lpn + 1) (by omega) (by omega)]
      rfl

theorem write_walk_eq (n s e : Nat) (hn : 1 ≤ n) (hov : e + n < 18446744073709551616) :
    write_walk n s e = (List.range' s (e + 1 - s)).map (fun l => (l, l % n, l / n)) := by
  unfold write_walk
  exact write_loop_eq n e hov hn (e + 1 - s) (e + 1) s (by omega) rfl

/-- The global LPNs of the walk of `conv_read`, in closed form. -/
theorem read_walk_lpns (n s e : Nat) (hn : 1 ≤ n) (hov : e + n < 18446744073709551616) :
    read_walk n s e =
      ((List.range (min n (e + 1 - s))).flatMap (fun j =>
        (List.range ((e - (s + j)) / n + 1)).map (fun k => s + j + k * n))).map
        (fun l => (l, l % n, l / n)) := by
  rw [read_walk_eq n s e hn hov, List.map_flatMap]
  apply List.flatMap_congr
  intro j _
  rw [List.map_map]
  apply List.map_congr_left
  intro k _
  simp only [Function.comp, Nat.add_mul_mod_self_right]

theorem mem_read_lpns (n s e l : Nat) (hn : 1 ≤ n) :
    l ∈ (List.range (min n (e + 1 - s))).flatMap (fun j =>
        (List.range ((e - (s + j)) / n + 1)).map (fun k => s + j + k * n)) ↔
      s ≤ l ∧ l ≤ e := by
  simp only [List.mem_flatMap, List.mem_range, List.mem_map]
  constructor
  · rintro ⟨j, hj, k, hk, rfl⟩
    have h1 : k * n ≤ e - (s + j) := (Nat.le_div_iff_mul_le (by omega)).mp (by omega)
    omega
  · rintro ⟨h1, h2⟩
    have hm := Nat.mod_lt (l - s) (show 0 < n by omega)
    have hle := Nat.mod_le (l - s) n
    have hdm := Nat.div_add_mod (l - s) n
    have hc : n * ((l - s) / n) = (l - s) / n * n := Nat.mul_comm _ _
    refine ⟨(l - s) % n, by omega, (l - s) / n, ?_, by omega⟩
    have : (l - s) / n ≤ (e - (s + (l - s) % n)) / n :=
      (Nat.le_div_iff_mul_le (by omega)).mpr (by omega)
    omega

theorem nodup_read_lpns (n s e : Nat) (hn : 1 ≤ n) :
    ((List.range (min n (e + 1 - s))).flatMap (fun j =>
        (List.range ((e - (s + j)) / n + 1)).map (fun k => s + j + k * n))).Nodup := by
  rw [List.nodup_flatMap]
  constructor
  · intro j _
    refine (List.nodup_range _).map ?_
    intro a b hab
    simp only at hab
    have : a * n = b * n := by omega
    exact Nat.eq_of_mul_eq_mul_right (by omega) this
  · refine (List.pairwise_lt_range _).imp_of_mem ?_
    intro a b ha hb hab
    rw [List.mem_range] at ha hb
    simp only [Function.onFun]
    rw [List.disjoint_left]
    intro x hx hx2
    simp only [List.mem_map, List.mem_range] at hx hx2
    obtain ⟨k1, _, rfl⟩ := hx
    obtain ⟨k2, _, h2⟩ := hx2
    have m1 : (s + a + k1 * n) % n = (s + a) % n := Nat.add_mul_mod_self_right _ _ _
    have m2 : (s + b + k2 * n) % n = (s + b) % n := Nat.add_mul_mod_self_right _ _ _
    rw [h2] at m2
    have hmod : (s + a) % n = (s + b) % n := m1.symm.trans m2
    have hba : b = a + (b - a) := by omega
    rw [hba, ← Nat.add_assoc] at hmod
    have h3 : (b - a) % n = 0 := by
      have := (Nat.ModEq.add_left_cancel' (s + a) (show (s + a + 0) % n = (s + a + (b - a)) % n
        from by rw [Nat.add_zero]; exact hmod))
      exact this.symm
    have h4 := Nat.le_of_dvd (by omega) (Nat.dvd_of_mod_eq_zero h3)
    omega

theorem lpn_pair_inj (n a b : Nat) (h : (a % n, a / n) = (b % n, b / n)) : a = b := by
  simp only [Prod.mk.injEq] at h
  rw [← Nat.div_add_mod a n, ← Nat.div_add_mod b n, h.1, h.2]

/-- C38: for `nr_parts ≥ 1` and LPNs whose loop counters stay below `2^64`, the nested loops
of `conv_read` visit every LPN of `[start_lpn, end_lpn]` exactly once, each with the instance
`lpn % nr_parts` and the local LPN `lpn / nr_parts`; the loop of `conv_write` visits the LPNs
of the range in increasing order with the same instance and local LPN, so both visit the same
(instance, local LPN) pairs; distinct global LPNs give distinct pairs. -/
theorem read_write_same_walk (nr_parts start_lpn end_lpn : Nat) (hn : 1 ≤ nr_parts)
    (hov : end_lpn + nr_parts < 18446744073709551616) :
    ((read_walk nr_parts start_lpn end_lpn).map (fun x => x.1)).Nodup ∧
    (∀ l, l ∈ (read_walk nr_parts start_lpn end_lpn).map (fun x => x.1) ↔
      start_lpn ≤ l ∧ l ≤ end_lpn) ∧
    (∀ x, x ∈ read_walk nr_parts start_lpn end_lpn →
      x.2 = (x.1 % nr_parts, x.1 / nr_parts)) ∧
    write_walk nr_parts start_lpn end_lpn =
      (List.range' start_lpn (end_lpn + 1 - start_lpn)).map
        (fun l => (l, l % nr_parts, l / nr_parts)) ∧
    List.Perm ((read_walk nr_parts start_lpn end_lpn).map (fun x => x.2))
      ((write_walk nr_parts start_lpn end_lpn).map (fun x => x.2)) ∧
    (∀ a b, (a % nr_parts, a / nr_parts) = (b % nr_parts, b / nr_parts) → a = b) := by
  have hr := read_walk_lpns nr_parts start_lpn end_lpn hn hov
  have hw := write_walk_eq nr_parts start_lpn end_lpn hn hov
  have hnd := nodup_read_lpns nr_parts start_lpn end_lpn hn
  have hmem := fun l => mem_read_lpns nr_parts start_lpn end_lpn l hn
  have hfst : (read_walk nr_parts start_lpn end_lpn).map (fun x => x.1) =
      (List.range (min nr_parts (end_lpn + 1 - start_lpn))).flatMap (fun j =>
        (List.range ((end_lpn - (start_lpn + j)) / nr_parts + 1)).map
          (fun k => start_lpn + j + k * nr_parts)) := by
    rw [hr, List.map_map]
    exact List.map_id _
  refine ⟨by rw [hfst]; exact hnd, fun l => by rw [hfst]; exact hmem l, ?_, hw, ?_,
    lpn_pair_inj nr_parts⟩
  · intro x hx
    rw [hr, List.mem_map] at hx
    obtain ⟨l, _, rfl⟩ := hx
    rfl
  · rw [hr, hw]
    apply List.Perm.map
    apply List.Perm.map
    rw [List.perm_ext_iff_of_nodup hnd (List.nodup_range' _ _)]
    intro l
    rw [hmem l, List.mem_range'_1]
    omega

theorem read_write_same_walk_witness :
    ((read_walk 4 3 12).map (fun x => x.1)).Nodup ∧
    (read_walk 4 3 12).map (fun x => x.1) = [3, 7, 11, 4, 8, 12, 5, 9, 6, 10] ∧
    (write_walk 4 3 12).map (fun x => x.2) =
      [(3, 0), (0, 1), (1, 1), (2, 1), (3, 1), (0, 2), (1, 2), (2, 2), (3, 2), (0, 3)] ∧
    List.Perm ((read_walk 4 3 12).map (fun x => x.2)) ((write_walk 4 3 12).map (fun x => x.2)) :=
  ⟨(read_write_same_walk 4 3 12 (by decide) (by decide)).1, by decide, by decide,
    (read_write_same_walk 4 3 12 (by decide) (by decide)).2.2.2.2.1⟩

/-! ## The addresses of the sweep of `do_gc` -/

/-- C36, failing input: in `random_empty_state` the heap holds no line (`pqueue_size = 0`,
`q->size = 1`), slot 1 of its array still holds the pointer of line 2, which is on the
free-line list with `pos = 0`, the credits are used up and `should_gc_high` holds. The test
`q->size == 0` of `select_victim_random` does not see the empty heap, the index is
`r % 1 + 1 = 1`, and the stale pointer is handed to `pqueue_remove`, which takes `q->size` to
0 and stores through the `NULL` pointer of slot 0: the selection, `do_gc` and the credit
check have no result, where the claim has `NULL`, an unchanged heap and `-1`. -/
theorem select_victim_random_empty_heap :
    pqueue_size random_empty_state.lm.victim_line_pq = 0 ∧
    random_empty_state.lm.victim_line_pq.size = 1 ∧
    random_empty_state.lm.victim_line_pq.d 1 = some 2 ∧
    random_empty_state.lm.free_line_list = [0, 2] ∧
    (random_empty_state.lm.lines 2).pos = 0 ∧
    random_empty_state.wfc.write_credits = 0 ∧ should_gc_high random_empty_state = true ∧
    7 % random_empty_state.lm.victim_line_pq.size + 1 = 1 ∧
    (select_victim_random random_empty_state 7 true).isNone = true ∧
    (do_gc random_empty_state 15 7 true).isNone = true ∧
    (check_and_refill_write_credit random_empty_state 15 7).isNone = true := by
  decide

/-- `select_victim_cb` on a heap with a member of positive score returns a member whose score
is the maximum over the members. -/
theorem select_victim_cb_max (s : conv_ftl) (now : Nat)
    (hk : dummy_hooks s.lm.victim_line_pq) (hh : pq_handles s.lm)
    (hsz : 2 ≤ s.lm.victim_line_pq.size)
    (hst : s.lm.victim_line_pq.d s.lm.victim_line_pq.size = none ∨
      ∃ i, 1 ≤ i ∧ i < s.lm.victim_line_pq.size ∧
        s.lm.victim_line_pq.d s.lm.victim_line_pq.size = s.lm.victim_line_pq.d i)
    {k0 : Nat} (hk0 : pq_member s.lm k0) (hpos0 : 0 < cb_score now (s.lm.lines k0))
    (force : Bool) :
    ∃ s2 b, select_victim_cb s now force = some (s2, some b) ∧ pq_member s.lm b ∧
      ∀ k, pq_member s.lm k → cb_score now (s.lm.lines k) ≤ cb_score now (s.lm.lines b) := by
  have hs0 : s.lm.victim_line_pq.size ≠ 0 := by omega
  obtain ⟨c1, c2, c3⟩ := select_victim_cb_scan_spec s.lm now s.lm.victim_line_pq.size
  have hcmp : ∀ a b, s.lm.victim_line_pq.cmppri a b = false := by
    intro a b; rw [hk.2.1]; rfl
  have hslot : ∀ i b, 1 ≤ i → i ≤ s.lm.victim_line_pq.size →
      s.lm.victim_line_pq.d i = some b → pq_member s.lm b := by
    intro i b hi1 hi2 hib
    by_cases hlt : i < s.lm.victim_line_pq.size
    · exact ⟨i, hi1, hlt, hib⟩
    · have hie : i = s.lm.victim_line_pq.size := by omega
      rw [hie] at hib
      rcases hst with hn | ⟨i0, h1, h2, h3⟩
      · rw [hn] at hib; simp at hib
      · rw [h3] at hib
        exact ⟨i0, h1, h2, hib⟩
  obtain ⟨i0, hi01, hi02, hi03⟩ := hk0
  have hmax := c1 i0 k0 hi01 (by omega) hi03
  cases hbv : ((List.range' 1 s.lm.victim_line_pq.size).foldl (select_victim_cb_step s.lm now)
      { best_victim := none, max_score := 0, victim_age := 0 }).best_victim with
  | none =>
    exfalso
    have := c2 hbv
    omega
  | some b =>
    obtain ⟨i, hi1, hi2, hi3, hi4, hi5, hi6⟩ := c3 b hbv
    have hmem : pq_member s.lm b := hslot i b hi1 hi2 hi3
    obtain ⟨⟨lm1, rc⟩, hrem⟩ := pqueue_remove_total hk.1 hh hcmp hmem
    refine ⟨_, b, by simp only [select_victim_cb, hs0, if_false, hbv, hrem]; rfl, hmem, ?_⟩
    rintro k ⟨j, hj1, hj2, hj3⟩
    have := c1 j k hj1 (by omega) hj3
    omega

/-- C34, as the claim states it, fails on a heap of two candidates at time 200 s: line 0 has
no VALID page (`ipc = 2`, modified 50 ms ago: weight 1, score `1 * 2 / 1 = 2`), line 1 has
one VALID page (`ipc = 1`, modified 200 s ago: weight 100, score `100 * 1 / 2 = 50`), and
`select_victim_cb` returns line 1. -/
theorem select_victim_cb_invalid_line_counterexample :
    pq_member (cb_pair_state 199950000000 0).lm 0 ∧
    ((cb_pair_state 199950000000 0).lm.lines 0).vpc = 0 ∧
    0 < get_age_weight (cb_age 200000000000 ((cb_pair_state 199950000000 0).lm.lines 0)) *
      ((cb_pair_state 199950000000 0).lm.lines 0).ipc ∧
    cb_score 200000000000 ((cb_pair_state 199950000000 0).lm.lines 0) = 2 ∧
    0 < ((cb_pair_state 199950000000 0).lm.lines 1).vpc ∧
    cb_score 200000000000 ((cb_pair_state 199950000000 0).lm.lines 1) = 50 ∧
    (select_victim_cb (cb_pair_state 199950000000 0) 200000000000 true).map (fun p => p.2) =
      some (some 1) := by
  refine ⟨⟨1, by decide, by decide, by decide⟩, by decide, by decide, by decide, by decide,
    by decide, by decide⟩

/-- C34 (amended): a candidate with `vpc = 0` is scored `w * ipc` (divisor 1), a finite
value; when the heap (dummy hooks, positional handles, the array slot just past the last
member `NULL` or a repeated member) holds a candidate with `vpc = 0` and `w * ipc > 0` whose
score is above the score `w * ipc / (vpc + 1)` of every candidate with `vpc > 0`,
`select_victim_cb` returns a candidate with `vpc = 0`. -/
theorem select_victim_cb_invalid_line (s : conv_ftl) (now : Nat) (k0 : Nat) (force : Bool)
    (hk : dummy_hooks s.lm.victim_line_pq) (hh : pq_handles s.lm)
    (hsz : 2 ≤ s.lm.victim_line_pq.size)
    (hst : s.lm.victim_line_pq.d s.lm.victim_line_pq.size = none ∨
      ∃ i, 1 ≤ i ∧ i < s.lm.victim_line_pq.size ∧
        s.lm.victim_line_pq.d s.lm.victim_line_pq.size = s.lm.victim_line_pq.d i)
    (hk0 : pq_member s.lm k0) (hv0 : (s.lm.lines k0).vpc = 0)
    (hpos : 0 < get_age_weight (cb_age now (s.lm.lines k0)) * (s.lm.lines k0).ipc)
    (hbeat : ∀ k, pq_member s.lm k → 0 < (s.lm.lines k).vpc →
      cb_score now (s.lm.lines k) < cb_score now (s.lm.lines k0)) :
    cb_score now (s.lm.lines k0) =
      get_age_weight (cb_age now (s.lm.lines k0)) * (s.lm.lines k0).ipc ∧
    ∃ s2 b, select_victim_cb s now force = some (s2, some b) ∧ pq_member s.lm b ∧
      (s.lm.lines b).vpc = 0 ∧
      cb_score now (s.lm.lines k0) ≤ cb_score now (s.lm.lines b) := by
  have hsc : cb_score now (s.lm.lines k0) =
      get_age_weight (cb_age now (s.lm.lines k0)) * (s.lm.lines k0).ipc := by
    unfold cb_score
    rw [hv0, Nat.zero_add, Nat.div_one]
  refine ⟨hsc, ?_⟩
  obtain ⟨s2, b, h1, h2, h3⟩ := select_victim_cb_max s now hk hh hsz hst hk0
    (by rw [hsc]; exact hpos) force
  refine ⟨s2, b, h1, h2, ?_, h3 k0 hk0⟩
  by_contra hne
  have := hbeat b h2 (Nat.pos_of_ne_zero hne)
  have := h3 k0 hk0
  omega

theorem cb_pair_state_handles (t0 t1 : Nat) : pq_handles (cb_pair_state t0 t1).lm := by
  intro i h1 h2
  have h3 : i < 3 := h2
  have hi : i = 1 ∨ i = 2 := by omega
  rcases hi with hi | hi
  · subst hi; exact ⟨0, rfl, rfl⟩
  · subst hi; exact ⟨1, rfl, rfl⟩

theorem select_victim_cb_invalid_line_witness :
    cb_score 200000000000 ((cb_pair_state 0 0).lm.lines 0) = 200 ∧
    cb_score 200000000000 ((cb_pair_state 0 0).lm.lines 1) = 50 ∧
    ∃ s2 b, select_victim_cb (cb_pair_state 0 0) 200000000000 true = some (s2, some b) ∧
      pq_member (cb_pair_state 0 0).lm b ∧ ((cb_pair_state 0 0).lm.lines b).vpc = 0 ∧
      cb_score 200000000000 ((cb_pair_state 0 0).lm.lines 0) ≤
        cb_score 200000000000 ((cb_pair_state 0 0).lm.lines b) :=
  ⟨by decide, by decide,
    (select_victim_cb_invalid_line (cb_pair_state 0 0) 200000000000 0 true
      ⟨⟨rfl, rfl, rfl⟩, rfl, rfl⟩ (cb_pair_state_handles 0 0) (by decide)
      (Or.inl (by decide)) ⟨1, by decide, by decide, by decide⟩ (by decide) (by decide)
      (by
        rintro k ⟨i, h1, h2, h3⟩ hv
        have h4 : i < 3 := h2
        have hi : i = 1 ∨ i = 2 := by omega
        rcases hi with hi | hi
        · subst hi
          have hk : k = 0 := by
            have : some 0 = some k := h3
            exact (Option.some.inj this).symm
          subst hk
          exact absurd hv (by decide)
        · subst hi
          have hk : k = 1 := by
            have : some 1 = some k := h3
            exact (Option.some.inj this).symm
          subst hk
          decide)).2⟩

/-! ## Bounds of the page counts -/

theorem count_upto_pos {f : Nat → Bool} {i : Nat} (h : f i = true) :
    ∀ n, i < n → 0 < count_upto f n := by
  intro n
  induction n with
  | zero => intro hi; omega
  | succ n ih =>
    intro hi
    simp only [count_upto]
    rcases Nat.lt_succ_iff_lt_or_eq.mp hi with h1 | h1
    · have := ih h1
      omega
    · subst h1
      rw [h]
      simp

theorem count_upto_add_le {f g : Nat → Bool} (hd : ∀ i, ¬ (f i = true ∧ g i = true)) :
    ∀ n, count_upto f n + count_upto g n ≤ n := by
  intro n
  induction n with
  | zero => simp [count_upto]
  | succ n ih =>
    simp only [count_upto]
    have := hd n
    split_ifs with h1 h2 h2
    · exact absurd ⟨h1, h2⟩ this
    · omega
    · omega
    · omega

theorem sum_upto_ge {g : Nat → Nat} {i : Nat} : ∀ n, i < n → g i ≤ sum_upto g n := by
  intro n
  induction n with
  | zero => intro hi; omega
  | succ n ih =>
    intro hi
    simp only [sum_upto]
    rcases Nat.lt_succ_iff_lt_or_eq.mp hi with h1 | h1
    · have := ih h1
      omega
    · subst h1
      omega

theorem sum_upto_add (f g : Nat → Nat) :
    ∀ n, sum_upto (fun i => f i + g i) n = sum_upto f n + sum_upto g n := by
  intro n
  induction n with
  | zero => rfl
  | succ n ih =>
    simp only [sum_upto, ih]
    omega

theorem sum_upto_le_mul {g : Nat → Nat} {B : Nat} :
    ∀ n, (∀ i, i < n → g i ≤ B) → sum_upto g n ≤ n * B := by
  intro n
  induction n with
  | zero => intro _; simp [sum_upto]
  | succ n ih =>
    intro h
    simp only [sum_upto, Nat.succ_mul]
    have h1 := ih (fun i hi => h i (by omega))
    have h2 := h n (by omega)
    omega

theorem blk_count_add_le (sp : ssdparams) (b : nand_block) :
    blk_count sp b PG_VALID + blk_count sp b PG_INVALID ≤ sp.pgs_per_blk := by
  unfold blk_count
  apply count_upto_add_le
  intro i h
  simp only [decide_eq_true_eq] at h
  rw [h.1] at h
  exact absurd h.2 (by decide)

theorem blk_count_pos {sp : ssdparams} {b : nand_block} {st : pg_status} {g : Nat}
    (hg : g < sp.pgs_per_blk) (h : (b.pg g).status = st) : 0 < blk_count sp b st := by
  unfold blk_count
  exact count_upto_pos (i := g) (by simp [h]) _ hg

theorem line_count_add_le (d : ssd) (k : Nat) :
    line_count d k PG_VALID + line_count d k PG_INVALID ≤
      d.sp.nchs * (d.sp.luns_per_ch * (d.sp.pls_per_lun * d.sp.pgs_per_blk)) := by
  unfold line_count
  rw [← sum_upto_add]
  apply sum_upto_le_mul
  intro c _
  rw [← sum_upto_add]
  apply sum_upto_le_mul
  intro l _
  rw [← sum_upto_add]
  apply sum_upto_le_mul
  intro pl _
  exact blk_count_add_le d.sp _

theorem line_count_ge (d : ssd) (k : Nat) (st : pg_status) {c l pl : Nat} (hc : c < d.sp.nchs)
    (hl : l < d.sp.luns_per_ch) (hpl : pl < d.sp.pls_per_lun) :
    blk_count d.sp (d.blk c l pl k) st ≤ line_count d k st := by
  unfold line_count
  refine le_trans ?_ (sum_upto_ge (g := fun ch => sum_upto (fun lun => sum_upto (fun pl =>
    blk_count d.sp (d.blk ch lun pl k) st) d.sp.pls_per_lun) d.sp.luns_per_ch) _ hc)
  refine le_trans ?_ (sum_upto_ge (g := fun lun => sum_upto (fun pl =>
    blk_count d.sp (d.blk c lun pl k) st) d.sp.pls_per_lun) _ hl)
  exact sum_upto_ge (g := fun pl => blk_count d.sp (d.blk c l pl k) st) _ hpl

/-! ## `mark_page_invalid` returns -/

theorem handles_update_keep_pos {lm : line_mgmt} {k : Nat} {v : line}
    (hv : v.pos = (lm.lines k).pos) (hh : pq_handles lm) :
    pq_handles { lm with lines := Function.update lm.lines k v } := by
  intro i h1 h2
  obtain ⟨j, hj1, hj2⟩ := hh i h1 h2
  refine ⟨j, hj1, ?_⟩
  show (Function.update lm.lines k v j).pos = i
  by_cases hjk : j = k
  · subst hjk
    rw [Function.update_same, hv]
    exact hj2
  · rw [Function.update_noteq hjk]
    exact hj2

theorem line_set_ipc_time_handles {lm : line_mgmt} (k ipc t : Nat) (hh : pq_handles lm) :
    pq_handles (line_set_ipc_time lm k ipc t) :=
  handles_update_keep_pos rfl hh

/-- The line part of `mark_page_invalid` returns when the counters of the line pass its
assertions, a line with `pos ≠ 0` is a member of the heap and not full, and the heap has
positional handles. -/
theorem mark_page_invalid_line_total {spp : ssdparams} {lm : line_mgmt} (now : Nat) {k : Nat}
    (hk : line_hooks lm.victim_line_pq) (hh : pq_handles lm)
    (hipc : (lm.lines k).ipc < spp.pgs_per_line)
    (hvpc : 0 < (lm.lines k).vpc ∧ (lm.lines k).vpc ≤ spp.pgs_per_line)
    (hfull : (lm.lines k).vpc = spp.pgs_per_line → (lm.lines k).ipc = 0)
    (hpos : (lm.lines k).pos ≠ 0 →
      pq_member lm k ∧ (lm.lines k).vpc ≠ spp.pgs_per_line) :
    ∃ lm2, mark_page_invalid_line spp lm now k = some lm2 := by
  have hl1 : ((line_set_ipc_time lm k ((lm.lines k).ipc + 1)
      (lm.lines k).last_modified_time).lines k) =
      { lm.lines k with ipc := (lm.lines k).ipc + 1 } := by
    simp [line_set_ipc_time]
  have hvpc1 : ((line_set_ipc_time lm k ((lm.lines k).ipc + 1)
      (lm.lines k).last_modified_time).lines k).vpc = (lm.lines k).vpc := by rw [hl1]
  have hpos1 : ((line_set_ipc_time lm k ((lm.lines k).ipc + 1)
      (lm.lines k).last_modified_time).lines k).pos = (lm.lines k).pos := by rw [hl1]
  have hh1 := line_set_ipc_time_handles k ((lm.lines k).ipc + 1)
    (lm.lines k).last_modified_time hh
  have hk1 : line_hooks (line_set_ipc_time lm k ((lm.lines k).ipc + 1)
      (lm.lines k).last_modified_time).victim_line_pq := hk
  -- the decrement of `vpc`
  obtain ⟨lmb, hb⟩ : ∃ lmb, mark_page_invalid_vpc (line_set_ipc_time lm k ((lm.lines k).ipc + 1)
      (lm.lines k).last_modified_time) k = some lmb := by
    unfold mark_page_invalid_vpc
    by_cases hp : (lm.lines k).pos ≠ 0
    · rw [if_pos (by rw [hpos1]; exact hp)]
      have hm1 : pq_member (line_set_ipc_time lm k ((lm.lines k).ipc + 1)
          (lm.lines k).last_modified_time) k := (hpos hp).1
      exact pqueue_change_priority_returns _ hk1 hh1 hm1
    · rw [if_neg (by rw [hpos1]; exact hp)]
      exact ⟨_, rfl⟩
  have hBh : pq_handles lmb := by
    unfold mark_page_invalid_vpc at hb
    by_cases hp : (lm.lines k).pos ≠ 0
    · rw [if_pos (by rw [hpos1]; exact hp)] at hb
      have hm1 : pq_member (line_set_ipc_time lm k ((lm.lines k).ipc + 1)
          (lm.lines k).last_modified_time) k := (hpos hp).1
      exact pqueue_change_priority_handles hk1 hh1 hm1 hb
    · rw [if_neg (by rw [hpos1]; exact hp)] at hb
      simp only [Option.some.injEq] at hb
      rw [← hb]
      exact handles_update_keep_pos rfl hh1
  -- the move to the heap
  obtain ⟨lmc, hc⟩ : ∃ lmc, (if decide ((lm.lines k).vpc = spp.pgs_per_line) = true
      then mark_page_invalid_move lmb k else some lmb) = some lmc := by
    by_cases hf : (lm.lines k).vpc = spp.pgs_per_line
    · rw [if_pos (by simp [hf])]
      unfold mark_page_invalid_move
      have hfill : pq_filled
          { lmb with free_line_list := lmb.free_line_list.erase k,
                     full_line_list := lmb.full_line_list.erase k,
                     full_line_cnt := dec_u32 lmb.full_line_cnt } := pq_handles_filled hBh
      obtain ⟨lmi, hi⟩ := pqueue_insert_total hfill k
      simp only [hi, bind, Option.bind, pure]
      exact ⟨_, rfl⟩
    · rw [if_neg (by simp [hf])]
      exact ⟨_, rfl⟩
  unfold mark_page_invalid_line
  simp only [bind, Option.bind, NVMEV_ASSERT, if_pos hipc, pure, hvpc1, if_pos hvpc, hb]
  have hA : (decide ((lm.lines k).vpc = spp.pgs_per_line) = true → (lm.lines k).ipc = 0) := by
    intro h
    exact hfull (by simpa using h)
  rw [if_pos hA]
  simp only [hc]
  exact ⟨_, rfl⟩

/-- The counters of the block of `p` after `mark_page_invalid`, and the other blocks. -/
theorem mark_page_invalid_blk {s s1 : conv_ftl} {now : Nat} {p : ppa}
    (h : mark_page_invalid s now p = some s1) :
    (s1.ssd.blk p.ch p.lun p.pl p.blk).ipc = (s.ssd.blk p.ch p.lun p.pl p.blk).ipc + 1 ∧
    (s1.ssd.blk p.ch p.lun p.pl p.blk).vpc + 1 = (s.ssd.blk p.ch p.lun p.pl p.blk).vpc ∧
    ∀ c l pl b, ¬(c = p.ch ∧ l = p.lun ∧ pl = p.pl ∧ b = p.blk) →
      s1.ssd.blk c l pl b = s.ssd.blk c l pl b := by
  simp only [mark_page_invalid, bind, Option.bind_eq_some, NVMEV_ASSERT_eq_some, pure,
    Option.some.injEq, exists_const, get_line] at h
  obtain ⟨pg, hpg, hval, blk, hblk, _hipc, hvpc, lm1, hl, hs⟩ := h
  obtain ⟨_, hbe⟩ := get_blk_eq_some hblk
  subst hs
  refine ⟨?_, ?_, fun c l pl b hne => set_blk_other _ _ _ c l pl b hne⟩
  · show ((set_blk s.ssd p _).blk p.ch p.lun p.pl p.blk).ipc = _
    rw [set_blk_same, ← hbe]
    rfl
  · show ((set_blk s.ssd p _).blk p.ch p.lun p.pl p.blk).vpc + 1 = _
    rw [set_blk_same, ← hbe]
    have h1 : 0 < blk.vpc := hvpc.1
    show blk.vpc - 1 + 1 = blk.vpc
    omega

/-- `mark_page_invalid` returns on a VALID page of an accounted state whose line is inside
the line table, when a line with `pos ≠ 0` is a member of the heap and not full. -/
theorem mark_page_invalid_total {s : conv_ftl} (now : Nat) {p : ppa}
    (hk : line_hooks s.lm.victim_line_pq) (hh : pq_handles s.lm) (hids : line_ids s.lm)
    (hacct : line_accounting s)
    (hline : s.ssd.sp.pgs_per_line =
      s.ssd.sp.nchs * (s.ssd.sp.luns_per_ch * (s.ssd.sp.pls_per_lun * s.ssd.sp.pgs_per_blk)))
    (hv : page_status s p = some PG_VALID) (hlt : p.blk < s.lm.tt_lines)
    (hpos : (s.lm.lines p.blk).pos ≠ 0 →
      pq_member s.lm p.blk ∧ (s.lm.lines p.blk).vpc ≠ s.ssd.sp.pgs_per_line) :
    ∃ s1, mark_page_invalid s now p = some s1 := by
  obtain ⟨r1, r2, r3, r4, r5⟩ := page_status_in_range hv
  have hgb : get_blk s.ssd p = some (s.ssd.blk p.ch p.lun p.pl p.blk) := by
    unfold get_blk
    rw [if_pos ⟨r1, r2, r3, r4⟩]
  have hgp : get_pg s.ssd p = some ((s.ssd.blk p.ch p.lun p.pl p.blk).pg p.pg) := by
    unfold get_pg
    rw [hgb]
    simp only [if_pos r5]
  have hst : ((s.ssd.blk p.ch p.lun p.pl p.blk).pg p.pg).status = PG_VALID := by
    unfold page_status at hv
    rw [hgp] at hv
    simpa using hv
  obtain ⟨hb1, hb2⟩ := hacct.2 p.ch r1 p.lun r2 p.pl r3 p.blk r4
  have hbsum := blk_count_add_le s.ssd.sp (s.ssd.blk p.ch p.lun p.pl p.blk)
  have hbpos : 0 < blk_count s.ssd.sp (s.ssd.blk p.ch p.lun p.pl p.blk) PG_VALID :=
    blk_count_pos r5 hst
  obtain ⟨hl1, hl2⟩ := hacct.1 p.blk hlt
  rw [hids p.blk] at hl1 hl2
  have hlsum := line_count_add_le s.ssd p.blk
  have hlge := line_count_ge s.ssd p.blk PG_VALID r1 r2 r3
  rw [← hline] at hlsum
  obtain ⟨lm2, hlm⟩ := @mark_page_invalid_line_total s.ssd.sp s.lm now
    p.blk hk hh (by omega) (by omega) (by omega) hpos
  unfold mark_page_invalid
  simp only [hgp, hgb, bind, Option.bind, NVMEV_ASSERT, if_pos hst, set_pg_status, get_line,
    hlm, pure]
  rw [if_pos (show (s.ssd.blk p.ch p.lun p.pl p.blk).ipc < s.ssd.sp.pgs_per_blk by omega)]
  simp only
  rw [if_pos (show 0 < (s.ssd.blk p.ch p.lun p.pl p.blk).vpc ∧
    (s.ssd.blk p.ch p.lun p.pl p.blk).vpc ≤ s.ssd.sp.pgs_per_blk by omega)]
  exact ⟨_, rfl⟩

theorem hooks_line_hooks {q : pqueue_t} (h : greedy_hooks q ∨ dummy_hooks q) : line_hooks q := by
  rcases h with h | h
  · exact h.1
  · exact h.1

theorem ftl_geometry_line {sp : ssdparams} (hgeo : ftl_geometry sp) :
    sp.pgs_per_line = sp.nchs * (sp.luns_per_ch * (sp.pls_per_lun * sp.pgs_per_blk)) := by
  obtain ⟨⟨_, _, _, _, hline⟩, ⟨hpl, _⟩, _⟩ := hgeo
  rw [hline, hpl, Nat.one_mul, Nat.mul_comm sp.luns_per_ch sp.nchs, Nat.mul_assoc]

/-- C31: on a VALID page of an accounted state, whether its line is a member of the victim
heap (`pos ≠ 0`), on the full-line list (`vpc = pgs_per_line`) or open (`pos = 0`), and with
the Greedy or the dummy hooks, `mark_page_invalid` returns; it makes that page INVALID and
leaves the status of every other page; the `ipc` of the page's block and of its line go up
by exactly 1 and their `vpc` down by exactly 1, so `vpc + ipc` of the line stays; no other
block changes and no other line's `ipc` or `vpc` changes. -/
theorem mark_page_invalid_effect (s : conv_ftl) (now : Nat) (p : ppa)
    (hhooks : greedy_hooks s.lm.victim_line_pq ∨ dummy_hooks s.lm.victim_line_pq)
    (hh : pq_handles s.lm) (hids : line_ids s.lm) (hacct : line_accounting s)
    (hgeo : ftl_geometry s.ssd.sp) (hv : page_status s p = some PG_VALID)
    (hlt : p.blk < s.lm.tt_lines)
    (hstate :
      (pq_member s.lm p.blk ∧ (s.lm.lines p.blk).pos ≠ 0 ∧
        (s.lm.lines p.blk).vpc < s.ssd.sp.pgs_per_line) ∨
      (p.blk ∈ s.lm.full_line_list ∧ (s.lm.lines p.blk).vpc = s.ssd.sp.pgs_per_line ∧
        (s.lm.lines p.blk).pos = 0) ∨
      ((s.lm.lines p.blk).pos = 0 ∧ (s.lm.lines p.blk).vpc < s.ssd.sp.pgs_per_line)) :
    ∃ s1, mark_page_invalid s now p = some s1 ∧
      page_status s1 p = some PG_INVALID ∧
      (∀ q, ¬ same_page q p → page_status s1 q = page_status s q) ∧
      (s1.ssd.blk p.ch p.lun p.pl p.blk).ipc = (s.ssd.blk p.ch p.lun p.pl p.blk).ipc + 1 ∧
      (s1.ssd.blk p.ch p.lun p.pl p.blk).vpc + 1 = (s.ssd.blk p.ch p.lun p.pl p.blk).vpc ∧
      (∀ c l pl b, ¬(c = p.ch ∧ l = p.lun ∧ pl = p.pl ∧ b = p.blk) →
        s1.ssd.blk c l pl b = s.ssd.blk c l pl b) ∧
      (s1.lm.lines p.blk).ipc = (s.lm.lines p.blk).ipc + 1 ∧
      (s1.lm.lines p.blk).vpc + 1 = (s.lm.lines p.blk).vpc ∧
      (s1.lm.lines p.blk).vpc + (s1.lm.lines p.blk).ipc =
        (s.lm.lines p.blk).vpc + (s.lm.lines p.blk).ipc ∧
      (∀ j, j ≠ p.blk → (s1.lm.lines j).ipc = (s.lm.lines j).ipc ∧
        (s1.lm.lines j).vpc = (s.lm.lines j).vpc) := by
  have hk := hooks_line_hooks hhooks
  have hpos : (s.lm.lines p.blk).pos ≠ 0 →
      pq_member s.lm p.blk ∧ (s.lm.lines p.blk).vpc ≠ s.ssd.sp.pgs_per_line := by
    intro hp
    rcases hstate with ⟨a, _, c⟩ | ⟨_, _, c⟩ | ⟨c, _⟩
    · exact ⟨a, by omega⟩
    · exact absurd c hp
    · exact absurd c hp
  obtain ⟨s1, h⟩ := mark_page_invalid_total now hk hh hids hacct (ftl_geometry_line hgeo) hv
    hlt hpos
  obtain ⟨_, m2, _, _, m5⟩ := mark_page_invalid_spec h
  obtain ⟨b1, b2, b3⟩ := mark_page_invalid_blk h
  obtain ⟨_, _, l3⟩ := mark_page_invalid_line_spec hk m5
  obtain ⟨_, c2, c3⟩ := mark_page_invalid_line_counts hk m5
  have i1 : (s1.lm.lines p.blk).ipc = (s.lm.lines p.blk).ipc + 1 := by
    rw [(l3 p.blk).2, if_pos rfl]
  have v1 : (s1.lm.lines p.blk).vpc = (s.lm.lines p.blk).vpc - 1 := by
    rw [c3 p.blk, if_pos rfl]
  refine ⟨s1, h, ?_, ?_, b1, b2, b3, i1, by omega, by omega, ?_⟩
  · rw [m2 p, if_pos (same_page_refl p)]
  · intro q hq
    rw [m2 q, if_neg hq]
  · intro j hj
    refine ⟨?_, ?_⟩
    · rw [(l3 j).2, if_neg hj]
    · rw [c3 j, if_neg hj]

theorem mark_page_invalid_effect_witness :
    page_status one_victim_state { ch := 0, lun := 0, pl := 0, blk := 0, pg := 1, rsv := 0 } =
      some PG_VALID ∧
    (one_victim_state.lm.lines 0).pos = 1 ∧ (one_victim_state.lm.lines 0).vpc = 1 ∧
    (one_victim_state.lm.lines 0).ipc = 1 ∧
    ∃ s1, mark_page_invalid one_victim_state 9
        { ch := 0, lun := 0, pl := 0, blk := 0, pg := 1, rsv := 0 } = some s1 ∧
      page_status s1 { ch := 0, lun := 0, pl := 0, blk := 0, pg := 1, rsv := 0 } =
        some PG_INVALID ∧
      (s1.lm.lines 0).ipc = 2 ∧ (s1.lm.lines 0).vpc = 0 := by
  have hI := reachable_wf (by decide) reachable_one_victim
  obtain ⟨s1, h1, h2, _, _, _, _, h7, h8, _⟩ :=
    mark_page_invalid_effect one_victim_state 9
      { ch := 0, lun := 0, pl := 0, blk := 0, pg := 1, rsv := 0 }
      (Or.inl one_victim_state_hooks) one_victim_state_handles hI.ids (wf_inv_accounting hI)
      (by decide) (by decide) (by decide)
      (Or.inl ⟨⟨1, by decide, by decide, by decide⟩, by decide, by decide⟩)
  have e1 : (one_victim_state.lm.lines 0).ipc = 1 := by decide
  have e2 : (one_victim_state.lm.lines 0).vpc = 1 := by decide
  refine ⟨by decide, by decide, e2, e1, s1, h1, h2, ?_, ?_⟩
  · have : (s1.lm.lines 0).ipc = (one_victim_state.lm.lines 0).ipc + 1 := h7
    rw [this, e1]
  · have : (s1.lm.lines 0).vpc + 1 = (one_victim_state.lm.lines 0).vpc := h8
    rw [e2] at this
    omega

/-! ## The move of a full line to the victim heap -/

theorem not_member_of_pos_zero {lm : line_mgmt} {k : Nat} (hh : pq_handles lm)
    (hp : (lm.lines k).pos = 0) : ¬ pq_member lm k := by
  rintro ⟨i, h1, h2, h3⟩
  obtain ⟨j, hj1, hj2⟩ := hh i h1 h2
  rw [h3] at hj1
  have : k = j := Option.some.inj hj1
  subst this
  omega

/-- Heap order depends on the lines through the priorities of the members only. -/
theorem pq_valid_lines_congr {lm lm2 : line_mgmt}
    (hq : lm2.victim_line_pq = lm.victim_line_pq)
    (hp : ∀ j, pq_member lm j →
      lm.victim_line_pq.getpri (lm2.lines j) = lm.victim_line_pq.getpri (lm.lines j))
    (hv : pq_valid lm) : pq_valid lm2 := by
  intro i a b h1 h2 ha hb
  rw [hq] at h2 ha hb ⊢
  have ma : pq_member lm a := ⟨i / 2, by omega, by omega, ha⟩
  have mb : pq_member lm b := ⟨i, by omega, h2, hb⟩
  rw [hp a ma, hp b mb]
  exact hv i a b h1 h2 ha hb

/-- The line part of `mark_page_invalid` on a line with `vpc = pgs_per_line` and `pos = 0`:
the line is unlinked from the full-line list and inserted into the victim heap. -/
theorem mark_page_invalid_line_full {spp : ssdparams} {lm lm2 : line_mgmt} {now k : Nat}
    (hk : line_hooks lm.victim_line_pq) (hh : pq_handles lm)
    (hs : 1 ≤ lm.victim_line_pq.size)
    (hvpc : (lm.lines k).vpc = spp.pgs_per_line) (hpos : (lm.lines k).pos = 0)
    (h : mark_page_invalid_line spp lm now k = some lm2) :
    lm2.full_line_list = lm.full_line_list.erase k ∧
    lm2.free_line_list = lm.free_line_list.erase k ∧
    lm2.full_line_cnt = dec_u32 lm.full_line_cnt ∧
    lm2.victim_line_cnt = lm.victim_line_cnt + 1 ∧
    lm2.free_line_cnt = lm.free_line_cnt ∧
    (∀ j, pq_member lm2 j ↔ (pq_member lm j ∨ j = k)) ∧ pq_handles lm2 ∧
    lm2.victim_line_pq.size = lm.victim_line_pq.size + 1 ∧
    (greedy_hooks lm.victim_line_pq → pq_valid lm →
      greedy_hooks lm2.victim_line_pq ∧ pq_valid lm2) := by
  have hnm : ¬ pq_member lm k := not_member_of_pos_zero hh hpos
  simp only [mark_page_invalid_line, bind, Option.bind_eq_some, NVMEV_ASSERT_eq_some, pure,
    exists_const, Option.some.injEq] at h
  obtain ⟨_h1, _h2, _h3, lmb, hlmb, lmc, hlmc, hfin⟩ := h
  -- the decrement of `vpc` is direct
  unfold mark_page_invalid_vpc at hlmb
  rw [if_neg (by simp [line_set_ipc_time, hpos])] at hlmb
  simp only [Option.some.injEq] at hlmb
  -- the move
  rw [if_pos (by simp [hvpc])] at hlmc
  simp only [mark_page_invalid_move, bind, Option.bind_eq_some, pure, Option.some.injEq] at hlmc
  obtain ⟨⟨lmi, rc⟩, hins, hlmc⟩ := hlmc
  have hqb : lmb.victim_line_pq = lm.victim_line_pq := by rw [← hlmb]; rfl
  have hposb : ∀ j, (lmb.lines j).pos = (lm.lines j).pos := by
    intro j
    rw [← hlmb]
    by_cases hj : j = k
    · subst hj; simp [line_set_ipc_time]
    · simp [line_set_ipc_time, Function.update_noteq hj]
  have hlinesb : ∀ j, j ≠ k → lmb.lines j = lm.lines j := by
    intro j hj
    rw [← hlmb]
    simp [line_set_ipc_time, Function.update_noteq hj]
  have hhb : pq_handles lmb := by
    intro i i1 i2
    rw [hqb] at i2 ⊢
    obtain ⟨j, hj1, hj2⟩ := hh i i1 i2
    exact ⟨j, hj1, by rw [hposb]; exact hj2⟩
  have hmb : ∀ j, pq_member lmb j ↔ pq_member lm j := by
    intro j
    unfold pq_member
    rw [hqb]
  -- the state handed to `pqueue_insert`
  generalize hd : ({ lmb with free_line_list := lmb.free_line_list.erase k,
                              full_line_list := lmb.full_line_list.erase k,
                              full_line_cnt := dec_u32 lmb.full_line_cnt } : line_mgmt) = lmd
    at hins
  have hqd : lmd.victim_line_pq = lm.victim_line_pq := by rw [← hd]; exact hqb
  have hld : lmd.lines = lmb.lines := by rw [← hd]
  have hkd : line_hooks lmd.victim_line_pq := by rw [hqd]; exact hk
  have hhd : pq_handles lmd := by
    intro i i1 i2
    rw [hqd] at i2 ⊢
    obtain ⟨j, hj1, hj2⟩ := hh i i1 i2
    exact ⟨j, hj1, by rw [hld, hposb]; exact hj2⟩
  have hmd : ∀ j, pq_member lmd j ↔ pq_member lm j := by
    intro j
    unfold pq_member
    rw [hqd]
  have hnmd : ¬ pq_member lmd k := fun hm => hnm ((hmd k).mp hm)
  obtain ⟨_, e1, _, _⟩ := pqueue_insert_spec hkd hins
  have hmi := pqueue_insert_member hkd (by rw [hqd]; exact hs) hins
  have hhi := pqueue_insert_handles hkd hhd hnmd hins
  -- the result
  have hq2 : lm2.victim_line_pq = lmi.victim_line_pq := by rw [← hfin, ← hlmc]; rfl
  have hpos2 : ∀ j, (lm2.lines j).pos = (lmi.lines j).pos := by
    intro j
    rw [← hfin, ← hlmc]
    by_cases hj : j = k
    · subst hj; simp [line_set_ipc_time]
    · simp [line_set_ipc_time, Function.update_noteq hj]
  have hm2 : ∀ j, pq_member lm2 j ↔ pq_member lmi j := by
    intro j
    unfold pq_member
    rw [hq2]
  refine ⟨?_, ?_, ?_, ?_, ?_, ?_, ?_, ?_, ?_⟩
  · rw [← hfin, ← hlmc]
    show lmi.full_line_list = _
    rw [e1, ← hd, ← hlmb]
    rfl
  · rw [← hfin, ← hlmc]
    show lmi.free_line_list = _
    rw [e1, ← hd, ← hlmb]
    rfl
  · rw [← hfin, ← hlmc]
    show lmi.full_line_cnt = _
    rw [e1, ← hd, ← hlmb]
    rfl
  · rw [← hfin, ← hlmc]
    show lmi.victim_line_cnt + 1 = _
    rw [e1, ← hd, ← hlmb]
    rfl
  · rw [← hfin, ← hlmc]
    show lmi.free_line_cnt = _
    rw [e1, ← hd, ← hlmb]
    rfl
  · intro j
    rw [hm2 j, hmi j, hmd j]
  · intro i i1 i2
    rw [hq2] at i2 ⊢
    obtain ⟨j, hj1, hj2⟩ := hhi i i1 i2
    exact ⟨j, hj1, by rw [hpos2]; exact hj2⟩
  · rw [hq2, e1, ← hd, ← hlmb]
    rfl
  · intro hg hv
    have hgd : greedy_hooks lmd.victim_line_pq := by rw [hqd]; exact hg
    have hvd : pq_valid lmd := by
      refine pq_valid_lines_congr hqd (fun j hj => ?_) hv
      have hjk : j ≠ k := fun e => hnm (e ▸ hj)
      rw [hld, hlinesb j hjk]
    have hvi := pqueue_insert_valid hgd hvd (by rw [hqd]; exact hs) hins
    have hgi : greedy_hooks lmi.victim_line_pq := by
      obtain ⟨f1, _⟩ := pqueue_insert_frame hkd hins
      obtain ⟨a1, a2, a3, a4, a5⟩ := f1
      obtain ⟨⟨g1, g2, g3⟩, g4, g5⟩ := hgd
      exact ⟨⟨a3.trans g1, a4.trans g2, a5.trans g3⟩, a1.trans g4, a2.trans g5⟩
    refine ⟨by rw [hq2]; exact hgi, pq_valid_lines_congr hq2 (fun j _ => ?_) hvi⟩
    rw [hgi.2.2]
    show (lm2.lines j).vpc = (lmi.lines j).vpc
    rw [← hfin, ← hlmc]
    by_cases hj : j = k
    · subst hj; simp [line_set_ipc_time]
    · simp [line_set_ipc_time, Function.update_noteq hj]

/-- C32: `mark_page_invalid` on a VALID page of a line that is on the full-line list
(`vpc = pgs_per_line`, `pos = 0`; `ipc = 0` follows from line accounting) returns; it takes
the line off the full-line list, inserts it into the victim heap, so that afterwards
`pos ≠ 0` and `d[pos]` is that line, `full_line_cnt` is one less and `victim_line_cnt` one
more; the other members of the heap stay, and with the Greedy hooks a valid heap remains
valid, the priority of the line being `pgs_per_line - 1`. -/
theorem full_line_demoted (s : conv_ftl) (now : Nat) (p : ppa)
    (hhooks : greedy_hooks s.lm.victim_line_pq ∨ dummy_hooks s.lm.victim_line_pq)
    (hh : pq_handles s.lm) (hs : 1 ≤ s.lm.victim_line_pq.size) (hids : line_ids s.lm)
    (hacct : line_accounting s) (hgeo : ftl_geometry s.ssd.sp)
    (hv : page_status s p = some PG_VALID) (hlt : p.blk < s.lm.tt_lines)
    (hfull : p.blk ∈ s.lm.full_line_list) (hnd : s.lm.full_line_list.Nodup)
    (hcnt : s.lm.full_line_cnt = s.lm.full_line_list.length)
    (hvpc : (s.lm.lines p.blk).vpc = s.ssd.sp.pgs_per_line)
    (hpos : (s.lm.lines p.blk).pos = 0) :
    ∃ s1, mark_page_invalid s now p = some s1 ∧
      p.blk ∉ s1.lm.full_line_list ∧
      (∀ j, j ∈ s1.lm.full_line_list ↔ (j ∈ s.lm.full_line_list ∧ j ≠ p.blk)) ∧
      (∀ j, pq_member s1.lm j ↔ (pq_member s.lm j ∨ j = p.blk)) ∧
      (s1.lm.lines p.blk).pos ≠ 0 ∧
      s1.lm.victim_line_pq.d (s1.lm.lines p.blk).pos = some p.blk ∧
      s1.lm.full_line_cnt + 1 = s.lm.full_line_cnt ∧
      s1.lm.victim_line_cnt = s.lm.victim_line_cnt + 1 ∧
      pqueue_size s1.lm.victim_line_pq = pqueue_size s.lm.victim_line_pq + 1 ∧
      (greedy_hooks s.lm.victim_line_pq → pq_valid s.lm →
        pq_valid s1.lm ∧
        s1.lm.victim_line_pq.getpri (s1.lm.lines p.blk) = s.ssd.sp.pgs_per_line - 1) := by
  have hk := hooks_line_hooks hhooks
  obtain ⟨s1, h⟩ := mark_page_invalid_total now hk hh hids hacct (ftl_geometry_line hgeo) hv
    hlt (fun hp => absurd hpos hp)
  obtain ⟨_, _, _, _, m5⟩ := mark_page_invalid_spec h
  obtain ⟨f1, _, f3, f4, _, f6, f7, f8, f9⟩ := mark_page_invalid_line_full hk hh hs hvpc hpos m5
  obtain ⟨_, _, c3⟩ := mark_page_invalid_line_counts hk m5
  have hmem : pq_member s1.lm p.blk := (f6 p.blk).mpr (Or.inr rfl)
  obtain ⟨p1, p2, _⟩ := pq_handles_positions f7 p.blk hmem
  have hlen : 0 < s.lm.full_line_list.length := List.length_pos_of_mem hfull
  refine ⟨s1, h, ?_, ?_, f6, by omega, p1, ?_, f4, ?_, ?_⟩
  · rw [f1]
    exact fun hm => ((hnd.mem_erase_iff).mp hm).1 rfl
  · intro j
    rw [f1, hnd.mem_erase_iff]
    tauto
  · rw [f3]
    unfold dec_u32
    rw [if_neg (by omega)]
    omega
  · unfold pqueue_size
    rw [f8]
    omega
  · intro hg hv0
    obtain ⟨g1, g2⟩ := f9 hg hv0
    refine ⟨g2, ?_⟩
    rw [g1.2.2]
    show (s1.lm.lines p.blk).vpc = _
    rw [c3 p.blk, if_pos rfl, hvpc]

theorem full_line_demoted_witness :
    full_line_state.lm.full_line_list = [0] ∧ (full_line_state.lm.lines 0).vpc = 2 ∧
    (full_line_state.lm.lines 0).pos = 0 ∧
    ∃ s1, mark_page_invalid full_line_state 200
        { ch := 0, lun := 0, pl := 0, blk := 0, pg := 0, rsv := 0 } = some s1 ∧
      0 ∉ s1.lm.full_line_list ∧ (s1.lm.lines 0).pos ≠ 0 ∧
      s1.lm.victim_line_pq.d (s1.lm.lines 0).pos = some 0 ∧
      s1.lm.full_line_cnt + 1 = full_line_state.lm.full_line_cnt ∧
      s1.lm.victim_line_cnt = full_line_state.lm.victim_line_cnt + 1 := by
  have he : full_line_run = some full_line_state := getD_of_isSome blank_ftl (by decide)
  have hr : host_reachable conv_params (tiny_params 6) 0 false (fun _ => none)
      full_line_state := by
    unfold full_line_run tiny_ftl at he
    simp only [Option.bind_eq_some] at he
    obtain ⟨s0, h0, h1⟩ := he
    exact host_reachable_write_lpns _ _ _ _ _ _ (host_reachable.init h0) h1
  have hI := reachable_wf (by decide) (host_reachable_reachable hr)
  have hsz : full_line_state.lm.victim_line_pq.size = 1 := by decide
  obtain ⟨s1, h1, h2, _, _, h5, h6, h7, h8, _⟩ :=
    full_line_demoted full_line_state 200
      { ch := 0, lun := 0, pl := 0, blk := 0, pg := 0, rsv := 0 }
      (Or.inl ⟨⟨rfl, rfl, rfl⟩, rfl, rfl⟩)
      (by
        intro i i1 i2
        rw [hsz] at i2
        omega)
      (by decide) hI.ids (wf_inv_accounting hI) (by decide) (by decide) (by decide)
      (by decide) (by decide) (by decide) (by decide) (by decide)
  exact ⟨by decide, by decide, by decide, s1, h1, h2, h5, h6, h7, h8⟩

/-! ## Closing a line -/

theorem count_upto_add_eq {f g : Nat → Bool} :
    ∀ n, (∀ i, i < n → (f i = true ∧ g i = false) ∨ (f i = false ∧ g i = true)) →
      count_upto f n + count_upto g n = n := by
  intro n
  induction n with
  | zero => intro _; simp [count_upto]
  | succ n ih =>
    intro h
    simp only [count_upto]
    have h1 := ih (fun i hi => h i (by omega))
    rcases h n (by omega) with ⟨a, b⟩ | ⟨a, b⟩
    · rw [a, b]
      simp only [if_true, Bool.false_eq_true, if_false]
      omega
    · rw [a, b]
      simp only [if_true, Bool.false_eq_true, if_false]
      omega

theorem sum_upto_eq_mul {g : Nat → Nat} {B : Nat} :
    ∀ n, (∀ i, i < n → g i = B) → sum_upto g n = n * B := by
  intro n
  induction n with
  | zero => intro _; simp [sum_upto]
  | succ n ih =>
    intro h
    simp only [sum_upto, Nat.succ_mul]
    rw [ih (fun i hi => h i (by omega)), h n (by omega)]

/-- In a line without a FREE page the VALID and the INVALID pages are all its pages. -/
theorem line_count_written (d : ssd) (k : Nat)
    (hw : ∀ c l pl g, c < d.sp.nchs → l < d.sp.luns_per_ch → pl < d.sp.pls_per_lun →
      g < d.sp.pgs_per_blk → ((d.blk c l pl k).pg g).status ≠ PG_FREE) :
    line_count d k PG_VALID + line_count d k PG_INVALID =
      d.sp.nchs * (d.sp.luns_per_ch * (d.sp.pls_per_lun * d.sp.pgs_per_blk)) := by
  unfold line_count
  rw [← sum_upto_add]
  apply sum_upto_eq_mul
  intro c hc
  rw [← sum_upto_add]
  apply sum_upto_eq_mul
  intro l hl
  rw [← sum_upto_add]
  apply sum_upto_eq_mul
  intro pl hpl
  unfold blk_count
  apply count_upto_add_eq
  intro g hg
  have := hw c l pl g hc hl hpl hg
  cases hst : ((d.blk c l pl k).pg g).status with
  | PG_FREE => exact absurd hst this
  | PG_VALID => left; simp
  | PG_INVALID => right; simp

/-- `advance_write_pointer` from the last position of a line, once the line is closed and a
free line is left: the cursor moves to the first page of the head of the free-line list. -/
theorem advance_write_pointer_last_of_close {s : conv_ftl} {io : Nat} {w : write_pointer}
    {lm1 : line_mgmt} {cur : Nat} {rest : List Nat} (hw : __get_wp s io = some w)
    (hone : (w.pg + 1) % s.ssd.sp.pgs_per_oneshotpg = 0)
    (hP : s.ssd.sp.pgs_per_oneshotpg ≠ 0)
    (hpg : w.pg + 1 = s.ssd.sp.pgs_per_blk) (hch : w.ch + 1 = s.ssd.sp.nchs)
    (hlun : w.lun + 1 = s.ssd.sp.luns_per_ch) (hpl : w.pl = 0)
    (hblk : w.blk < s.ssd.sp.blks_per_pl)
    (hclose : advance_write_pointer_close s.ssd.sp s.lm w.curline = some lm1)
    (hfree : lm1.free_line_list = cur :: rest)
    (hid : (lm1.lines cur).id < s.ssd.sp.blks_per_pl) :
    advance_write_pointer s io =
      some (set_wp { s with lm :=
          { lm1 with free_line_list := rest,
                     free_line_cnt := dec_u32 lm1.free_line_cnt } } io
        { curline := cur, ch := 0, lun := 0, pg := 0, blk := (lm1.lines cur).id, pl := 0 }) := by
  have h1 : w.pg < s.ssd.sp.pgs_per_blk := by omega
  have h2 : w.ch < s.ssd.sp.nchs := by omega
  have h3 : w.lun < s.ssd.sp.luns_per_ch := by omega
  have hnew : advance_write_pointer_newline s io
      { curline := w.curline, ch := 0, lun := 0,
        pg := w.pg + 1 - s.ssd.sp.pgs_per_oneshotpg + s.ssd.sp.pgs_per_oneshotpg,
        blk := w.blk, pl := w.pl } =
      some (set_wp { s with lm :=
          { lm1 with free_line_list := rest,
                     free_line_cnt := dec_u32 lm1.free_line_cnt } } io
        { curline := cur, ch := 0, lun := 0, pg := 0, blk := (lm1.lines cur).id, pl := 0 }) := by
    unfold advance_write_pointer_newline
    simp only [hclose, bind, Option.bind, check_addr, NVMEV_ASSERT, if_pos hblk,
      get_next_free_line, hfree, if_pos hid, if_true, pure, hpl]
  unfold advance_write_pointer
  simp only [hw, bind, Option.bind, check_addr, NVMEV_ASSERT, if_pos h1, if_pos hP, pure,
    hone, ne_eq, not_true_eq_false, if_false, if_pos h2, hch, if_pos h3, hlun]
  have hpg2 : w.pg + 1 - s.ssd.sp.pgs_per_oneshotpg + s.ssd.sp.pgs_per_oneshotpg =
      s.ssd.sp.pgs_per_blk := by
    have : s.ssd.sp.pgs_per_oneshotpg ≤ w.pg + 1 := by
      have hle := Nat.le_of_dvd (by omega) (Nat.dvd_of_mod_eq_zero hone)
      exact hle
    omega
  simp only [hpg2, not_true_eq_false, if_false]
  rw [← hpg2]
  exact hnew

/-- The close of a line with fewer than `pgs_per_line` VALID pages and an INVALID page: the
line is inserted into the victim heap. -/
theorem advance_write_pointer_close_victim {spp : ssdparams} {lm : line_mgmt} {c : Nat}
    (hk : line_hooks lm.victim_line_pq) (hh : pq_handles lm)
    (hs : 1 ≤ lm.victim_line_pq.size)
    (hvpc : (lm.lines c).vpc < spp.pgs_per_line) (hipc : 0 < (lm.lines c).ipc) :
    ∃ lm1, advance_write_pointer_close spp lm c = some lm1 ∧
      lm1.free_line_list = lm.free_line_list ∧ lm1.free_line_cnt = lm.free_line_cnt ∧
      lm1.full_line_list = lm.full_line_list ∧ lm1.full_line_cnt = lm.full_line_cnt ∧
      lm1.victim_line_cnt = lm.victim_line_cnt + 1 ∧
      (∀ j, pq_member lm1 j ↔ (pq_member lm j ∨ j = c)) ∧
      lm1.victim_line_pq.size = lm.victim_line_pq.size + 1 ∧
      same_but_pos lm.lines lm1.lines := by
  obtain ⟨lmi, hi⟩ := pqueue_insert_total (pq_handles_filled hh) c
  obtain ⟨_, e1, _, e3⟩ := pqueue_insert_spec hk hi
  have hmi := pqueue_insert_member hk hs hi
  obtain ⟨_, _, _, _, _, hsb⟩ := pqueue_insert_frame hk hi
  refine ⟨{ lmi with victim_line_cnt := lmi.victim_line_cnt + 1 }, ?_, ?_, ?_, ?_, ?_, ?_,
    hmi, ?_, hsb⟩
  · unfold advance_write_pointer_close
    rw [if_neg (by omega)]
    simp only [bind, Option.bind, NVMEV_ASSERT, if_pos hvpc, if_pos hipc, hi, pure]
  · show lmi.free_line_list = _
    rw [e1]; rfl
  · show lmi.free_line_cnt = _
    rw [e1]; rfl
  · show lmi.full_line_list = _
    rw [e1]; rfl
  · show lmi.full_line_cnt = _
    rw [e1]; rfl
  · show lmi.victim_line_cnt + 1 = _
    rw [e1]; rfl
  · show lmi.victim_line_pq.size = _
    rw [e1]; rfl

/-- C33: with the cursor of `io` on the last page of its open line (`ch = nchs - 1`,
`lun = luns_per_ch - 1`, `pg = pgs_per_blk - 1`), no FREE page left in that line, its counters
those of its pages, and a free line `cur` at the head of the free-line list,
`advance_write_pointer` returns: a line with `vpc = pgs_per_line` is appended to the
full-line list (`full_line_cnt + 1`, heap and `victim_line_cnt` as before); any other line has
`ipc > 0` and becomes a member of the victim heap (`victim_line_cnt + 1`, full-line list as
before); `cur` leaves the free-line list (`free_line_cnt - 1`) and the cursor is set to
`curline = cur`, `blk` the id of `cur`, `pg = ch = lun = pl = 0`; the other write pointer is
unchanged. -/
theorem advance_write_pointer_closes_line (s : conv_ftl) (io : Nat) (w : write_pointer)
    (cur : Nat) (rest : List Nat) (hio : io = USER_IO ∨ io = GC_IO)
    (hw : __get_wp s io = some w) (hgeo : ftl_geometry s.ssd.sp)
    (hch : w.ch + 1 = s.ssd.sp.nchs) (hlun : w.lun + 1 = s.ssd.sp.luns_per_ch)
    (hpg : w.pg + 1 = s.ssd.sp.pgs_per_blk) (hpl : w.pl = 0)
    (hblk : w.blk < s.ssd.sp.blks_per_pl)
    (hhooks : greedy_hooks s.lm.victim_line_pq ∨ dummy_hooks s.lm.victim_line_pq)
    (hh : pq_handles s.lm) (hs : 1 ≤ s.lm.victim_line_pq.size)
    (hacct : line_acct s w.curline)
    (hwritten : ∀ c, c < s.ssd.sp.nchs → ∀ l, l < s.ssd.sp.luns_per_ch →
      ∀ g, g < s.ssd.sp.pgs_per_blk →
        ((s.ssd.blk c l 0 (s.lm.lines w.curline).id).pg g).status ≠ PG_FREE)
    (hfree : s.lm.free_line_list = cur :: rest)
    (hcur : (s.lm.lines cur).id < s.ssd.sp.blks_per_pl)
    (hfc : 0 < s.lm.free_line_cnt) :
    ∃ s1, advance_write_pointer s io = some s1 ∧
      ((s.lm.lines w.curline).vpc = s.ssd.sp.pgs_per_line →
        s1.lm.full_line_list = s.lm.full_line_list ++ [w.curline] ∧
        s1.lm.full_line_cnt = s.lm.full_line_cnt + 1 ∧
        s1.lm.victim_line_cnt = s.lm.victim_line_cnt ∧
        s1.lm.victim_line_pq = s.lm.victim_line_pq ∧
        ∀ j, pq_member s1.lm j ↔ pq_member s.lm j) ∧
      ((s.lm.lines w.curline).vpc ≠ s.ssd.sp.pgs_per_line →
        0 < (s.lm.lines w.curline).ipc ∧
        (∀ j, pq_member s1.lm j ↔ (pq_member s.lm j ∨ j = w.curline)) ∧
        s1.lm.victim_line_pq.size = s.lm.victim_line_pq.size + 1 ∧
        s1.lm.victim_line_cnt = s.lm.victim_line_cnt + 1 ∧
        s1.lm.full_line_list = s.lm.full_line_list ∧
        s1.lm.full_line_cnt = s.lm.full_line_cnt) ∧
      s1.lm.free_line_list = rest ∧
      s1.lm.free_line_cnt + 1 = s.lm.free_line_cnt ∧
      __get_wp s1 io = some { curline := cur, ch := 0, lun := 0, pg := 0,
                              blk := (s.lm.lines cur).id, pl := 0 } ∧
      (io = USER_IO → s1.gc_wp = s.gc_wp) ∧ (io = GC_IO → s1.wp = s.wp) ∧
      s1.ssd = s.ssd ∧ s1.maptbl = s.maptbl := by
  have hk := hooks_line_hooks hhooks
  have hline := ftl_geometry_line hgeo
  obtain ⟨⟨hone0, _, _, hblkeq, _⟩, ⟨hpl1, _⟩, _⟩ := hgeo
  have hP : s.ssd.sp.pgs_per_oneshotpg ≠ 0 := by omega
  have hone : (w.pg + 1) % s.ssd.sp.pgs_per_oneshotpg = 0 := by
    rw [hpg, hblkeq]
    exact Nat.mul_mod_right _ _
  have hsum : (s.lm.lines w.curline).vpc + (s.lm.lines w.curline).ipc =
      s.ssd.sp.pgs_per_line := by
    rw [hacct.1, hacct.2, hline]
    apply line_count_written
    intro c l pl g hc hl hp hg
    have : pl = 0 := by omega
    subst this
    exact hwritten c hc l hl g hg
  have hdec : dec_u32 s.lm.free_line_cnt + 1 = s.lm.free_line_cnt := by
    rw [dec_u32_pos hfc]
    omega
  have hgw : ∀ (t : conv_ftl) (x : write_pointer), __get_wp (set_wp t io x) io = some x := by
    intro t x
    rcases hio with e | e
    · subst e
      rw [set_wp_user, get_wp_user]
    · subst e
      rw [set_wp_gc, get_wp_gc]
  have hgu : ∀ (t : conv_ftl) (x : write_pointer), io = USER_IO →
      (set_wp t io x).gc_wp = t.gc_wp := by
    intro t x e
    subst e
    rw [set_wp_user]
  have hgg : ∀ (t : conv_ftl) (x : write_pointer), io = GC_IO →
      (set_wp t io x).wp = t.wp := by
    intro t x e
    subst e
    rw [set_wp_gc]
  have hlm : ∀ (t : conv_ftl) (x : write_pointer), (set_wp t io x).lm = t.lm ∧
      (set_wp t io x).ssd = t.ssd ∧ (set_wp t io x).maptbl = t.maptbl := by
    intro t x
    unfold set_wp
    split <;> exact ⟨rfl, rfl, rfl⟩
  by_cases hvpc : (s.lm.lines w.curline).vpc = s.ssd.sp.pgs_per_line
  · have hipc : (s.lm.lines w.curline).ipc = 0 := by omega
    have h := advance_write_pointer_last_total hw hone hP hpg hch hlun hpl hblk hvpc hipc hfree
      hcur
    refine ⟨_, h, ?_, fun hne => absurd hvpc hne, ?_, ?_, hgw _ _, hgu _ _, hgg _ _, ?_, ?_⟩
    · intro _
      rw [(hlm _ _).1]
      exact ⟨rfl, rfl, rfl, rfl, fun j => Iff.rfl⟩
    · rw [(hlm _ _).1]
    · rw [(hlm _ _).1]
      exact hdec
    · rw [(hlm _ _).2.1]
    · rw [(hlm _ _).2.2]
  · have hlt : (s.lm.lines w.curline).vpc < s.ssd.sp.pgs_per_line := by omega
    have hipc : 0 < (s.lm.lines w.curline).ipc := by omega
    obtain ⟨lm1, hc, c1, c2, c3, c4, c5, c6, c7, c8⟩ :=
      advance_write_pointer_close_victim hk hh hs hlt hipc
    have hid : (lm1.lines cur).id = (s.lm.lines cur).id := by
      rw [c8 cur]
    have h := advance_write_pointer_last_of_close hw hone hP hpg hch hlun hpl hblk hc
      (c1.trans hfree) (by rw [hid]; exact hcur)
    rw [hid] at h
    refine ⟨_, h, fun he => absurd he hvpc, ?_, ?_, ?_, hgw _ _, hgu _ _, hgg _ _, ?_, ?_⟩
    · intro _
      rw [(hlm _ _).1]
      exact ⟨hipc, c6, c7, c5, c3, c4⟩
    · rw [(hlm _ _).1]
    · rw [(hlm _ _).1]
      show dec_u32 lm1.free_line_cnt + 1 = _
      rw [c2]
      exact hdec
    · rw [(hlm _ _).2.1]
    · rw [(hlm _ _).2.2]

theorem advance_write_pointer_closes_line_witness :
    closing_state.wp = { curline := 0, ch := 0, lun := 0, pg := 1, blk := 0, pl := 0 } ∧
    (closing_state.lm.lines 0).vpc = 1 ∧ (closing_state.lm.lines 0).ipc = 1 ∧
    closing_state.lm.free_line_list = [2, 3, 4, 5] ∧
    ∃ s1, advance_write_pointer closing_state USER_IO = some s1 ∧
      pq_member s1.lm 0 ∧
      s1.lm.victim_line_cnt = closing_state.lm.victim_line_cnt + 1 ∧
      s1.lm.free_line_list = [3, 4, 5] ∧
      s1.lm.free_line_cnt + 1 = closing_state.lm.free_line_cnt ∧
      s1.wp = { curline := 2, ch := 0, lun := 0, pg := 0, blk := 2, pl := 0 } ∧
      s1.gc_wp = closing_state.gc_wp := by
  have hsz : closing_state.lm.victim_line_pq.size = 1 := by decide
  obtain ⟨s1, h1, _, h3, h4, h5, h6, h7, _⟩ :=
    advance_write_pointer_closes_line closing_state USER_IO
      { curline := 0, ch := 0, lun := 0, pg := 1, blk := 0, pl := 0 } 2 [3, 4, 5]
      (Or.inl rfl) (by decide) (by decide) (by decide) (by decide) (by decide) (by decide)
      (by decide) (Or.inl ⟨⟨rfl, rfl, rfl⟩, rfl, rfl⟩)
      (by
        intro i i1 i2
        rw [hsz] at i2
        omega)
      (by decide) (by unfold line_acct; decide) (by decide) (by decide) (by decide)
      (by decide)
  obtain ⟨_, m, _, v, _⟩ := h3 (by decide)
  rw [get_wp_user] at h6
  exact ⟨by decide, by decide, by decide, by decide, s1, h1, (m 0).2 (Or.inr rfl), v, h4, h5,
    Option.some.inj h6, h7 rfl⟩

/-! ## The invalid pages of the members of the victim heap -/

theorem pq_member_congr {lm lm2 : line_mgmt} (h : lm2.victim_line_pq = lm.victim_line_pq)
    (j : Nat) : pq_member lm2 j ↔ pq_member lm j := by
  unfold pq_member
  rw [h]

/-- The members of the heap after the line part of `mark_page_invalid` on line `k` are the
members before, and possibly `k`. -/
theorem mark_page_invalid_line_members {spp : ssdparams} {lm lm2 : line_mgmt} {now k : Nat}
    (hk : line_hooks lm.victim_line_pq) (hh : pq_handles lm)
    (hs : 1 ≤ lm.victim_line_pq.size)
    (hpos0 : ∀ j, ¬ pq_member lm j → (lm.lines j).pos = 0)
    (h : mark_page_invalid_line spp lm now k = some lm2) :
    ∀ j, pq_member lm2 j → pq_member lm j ∨ j = k := by
  simp only [mark_page_invalid_line, bind, Option.bind_eq_some, NVMEV_ASSERT_eq_some, pure,
    exists_const, Option.some.injEq] at h
  obtain ⟨_h1, _h2, _h3, lmb, hlmb, lmc, hlmc, hfin⟩ := h
  have hh1 := line_set_ipc_time_handles k ((lm.lines k).ipc + 1)
    (lm.lines k).last_modified_time hh
  have hk1 : line_hooks (line_set_ipc_time lm k ((lm.lines k).ipc + 1)
      (lm.lines k).last_modified_time).victim_line_pq := hk
  have hp1 : ((line_set_ipc_time lm k ((lm.lines k).ipc + 1)
      (lm.lines k).last_modified_time).lines k).pos = (lm.lines k).pos := by
    simp [line_set_ipc_time]
  -- the decrement of `vpc`
  have hB : (∀ j, pq_member lmb j ↔ pq_member lm j) ∧ line_hooks lmb.victim_line_pq ∧
      lmb.victim_line_pq.size = lm.victim_line_pq.size := by
    unfold mark_page_invalid_vpc at hlmb
    split_ifs at hlmb with hpos
    · have hmem : pq_member (line_set_ipc_time lm k ((lm.lines k).ipc + 1)
          (lm.lines k).last_modified_time) k := by
        by_contra hno
        apply hpos
        rw [hp1]
        exact hpos0 k hno
      obtain ⟨m1, _, m3⟩ := pqueue_change_priority_member hk1 hh1 hmem hlmb
      obtain ⟨e1, _, _⟩ := pqueue_change_priority_spec hk1 hlmb
      exact ⟨m1, line_hooks_of_same hk1 (same_hooks_pq_with0 e1), m3⟩
    · simp only [Option.some.injEq] at hlmb
      have hq : lmb.victim_line_pq = lm.victim_line_pq := by rw [← hlmb]; rfl
      exact ⟨pq_member_congr hq, by rw [hq]; exact hk, by rw [hq]⟩
  obtain ⟨hmb, hkb, hsb⟩ := hB
  -- the move
  have hC : ∀ j, pq_member lmc j → pq_member lm j ∨ j = k := by
    split_ifs at hlmc with hfull
    · simp only [mark_page_invalid_move, bind, Option.bind_eq_some, pure,
        Option.some.injEq] at hlmc
      obtain ⟨⟨lmi, rc⟩, hins, hlmc⟩ := hlmc
      generalize hd : ({ lmb with free_line_list := lmb.free_line_list.erase k,
                                  full_line_list := lmb.full_line_list.erase k,
                                  full_line_cnt := dec_u32 lmb.full_line_cnt } : line_mgmt) = lmd
        at hins
      have hqd : lmd.victim_line_pq = lmb.victim_line_pq := by rw [← hd]
      have hmi := pqueue_insert_member (by rw [hqd]; exact hkb)
        (by rw [hqd, hsb]; exact hs) hins
      intro j hj
      have hj2 : pq_member lmi j := by
        rw [← hlmc] at hj
        exact hj
      rcases (hmi j).mp hj2 with a | a
      · exact Or.inl ((hmb j).mp ((pq_member_congr hqd j).mp a))
      · exact Or.inr a
    · simp only [Option.some.injEq] at hlmc
      intro j hj
      rw [← hlmc] at hj
      exact Or.inl ((hmb j).mp hj)
  intro j hj
  rw [← hfin] at hj
  exact hC j hj

/-- The members of the heap after the close of line `c` are the members before, and possibly
`c` with an invalid page; no `id` or `ipc` changes. -/
theorem advance_write_pointer_close_members {spp : ssdparams} {lm lm1 : line_mgmt} {c : Nat}
    (hk : line_hooks lm.victim_line_pq) (hs : 1 ≤ lm.victim_line_pq.size)
    (h : advance_write_pointer_close spp lm c = some lm1) :
    ∀ j, pq_member lm1 j → pq_member lm j ∨ (j = c ∧ 0 < (lm.lines c).ipc) := by
  unfold advance_write_pointer_close at h
  split_ifs at h with hfull
  · simp only [bind, Option.bind_eq_some, NVMEV_ASSERT_eq_some, pure, exists_const,
      Option.some.injEq] at h
    obtain ⟨_, h⟩ := h
    subst h
    intro j hj
    exact Or.inl hj
  · simp only [bind, Option.bind_eq_some, NVMEV_ASSERT_eq_some, pure, exists_const,
      Option.some.injEq] at h
    obtain ⟨_, hipc, ⟨lmi, rc⟩, hins, h⟩ := h
    have hmi := pqueue_insert_member hk hs hins
    subst h
    intro j hj
    rcases (hmi j).mp hj with a | a
    · exact Or.inl a
    · exact Or.inr ⟨a, hipc⟩

/-- `advance_write_pointer` keeps `heap_ipc`: a line inserted into the heap at its close has
passed the assertion `ipc > 0`. -/
theorem heap_ipc_advance {s s1 : conv_ftl} {io : Nat} {v : Option Nat}
    (hk : line_hooks s.lm.victim_line_pq) (hs : 1 ≤ s.lm.victim_line_pq.size)
    (hK : heap_ipc s.lm v) (h : advance_write_pointer s io = some s1) :
    heap_ipc s1.lm v := by
  obtain ⟨w2, lm2, e, hlm⟩ := advance_write_pointer_spec h
  obtain ⟨_, _, _, h4⟩ := set_wp_fields { s with lm := lm2 } io w2
  have hl : s1.lm = lm2 := by rw [e]; exact h4
  rw [hl]
  rcases hlm with rfl | ⟨c, lm1, cur, hc, hg⟩
  · exact hK
  · obtain ⟨_, a2⟩ := advance_write_pointer_close_spec hk hc
    have hm := advance_write_pointer_close_members hk hs hc
    obtain ⟨b1, b2, _⟩ := get_next_free_line_spec hg
    intro j hv hj
    rw [b2, (a2 j).2]
    rcases hm j ((pq_member_congr b1 j).mp hj) with a | ⟨a, b⟩
    · exact hK j hv a
    · rw [a]
      exact b

/-- `mark_page_valid` keeps `heap_ipc`, the heap and its hooks. -/
theorem heap_ipc_mark_page_valid {s s1 : conv_ftl} {p : ppa} {v : Option Nat}
    (hK : heap_ipc s.lm v) (h : mark_page_valid s p = some s1) :
    heap_ipc s1.lm v ∧ s1.lm.victim_line_pq = s.lm.victim_line_pq ∧ s1.wfc = s.wfc := by
  obtain ⟨_, _, _, d4, d5, _⟩ := mark_page_valid_spec h
  have hq : s1.lm.victim_line_pq = s.lm.victim_line_pq := by rw [d4]
  have hw : s1.wfc = s.wfc := by rw [d4]
  refine ⟨?_, hq, hw⟩
  intro j hv hj
  have hl : same_id_ipc s.lm.lines s1.lm.lines := by
    rw [d5]
    exact same_id_ipc_update rfl rfl
  rw [(hl j).2]
  exact hK j hv ((pq_member_congr hq j).mp hj)

/-! ## `heap_ipc` over a page write and a GC run -/

theorem set_wp_wfc (s : conv_ftl) (io : Nat) (w : write_pointer) :
    (set_wp s io w).wfc = s.wfc := by
  unfold set_wp
  split_ifs <;> rfl

theorem advance_write_pointer_wfc {s s1 : conv_ftl} {io : Nat}
    (h : advance_write_pointer s io = some s1) : s1.wfc = s.wfc := by
  obtain ⟨w2, lm2, e, _⟩ := advance_write_pointer_spec h
  rw [e, set_wp_wfc]

/-- `mark_page_invalid` keeps `heap_ipc`: the `ipc` of the line of the page goes up, and no
other line enters the heap. -/
theorem heap_ipc_invalid {s s1 : conv_ftl} {now : Nat} {p : ppa} {v : Option Nat}
    (hk : line_hooks s.lm.victim_line_pq) (hh : pq_handles s.lm)
    (hs : 1 ≤ s.lm.victim_line_pq.size)
    (hpos0 : ∀ j, ¬ pq_member s.lm j → (s.lm.lines j).pos = 0)
    (hK : heap_ipc s.lm v) (h : mark_page_invalid s now p = some s1) :
    heap_ipc s1.lm v := by
  obtain ⟨_, _, _, _, _, _, _, hline, _⟩ := mark_page_invalid_eq_some h
  have hm := mark_page_invalid_line_members hk hh hs hpos0 hline
  obtain ⟨_, _, l3⟩ := mark_page_invalid_line_spec hk hline
  intro j hv hj
  rw [(l3 j).2]
  by_cases hjk : j = p.blk
  · rw [if_pos hjk]
    omega
  · rw [if_neg hjk]
    exact hK j hv ((hm j hj).resolve_right hjk)

/-- A page write (`conv_write_map`) keeps `heap_ipc` and the write credits. -/
theorem heap_ipc_conv_write_map {sp : ssdparams} (hgeo : ftl_geometry sp) {tag : Nat → Nat}
    {s s2 : conv_ftl} {now L : Nat} {p : ppa} (hI : ftl_inv sp none tag s)
    (hK : heap_ipc s.lm none) (h : conv_write_map s now L = some (s2, p)) :
    heap_ipc s2.lm none := by
  obtain ⟨s1, sa, sb, s4, h1, h2, h3, h4, h5, h6⟩ := conv_write_map_spec h
  have hI1 : (∃ tag1, ftl_inv sp none tag1 s1) ∧ heap_ipc s1.lm none := by
    rcases conv_write_invalidate_spec h1 with ⟨_, e⟩ | ⟨_, a, ha, hr⟩
    · rw [e]; exact ⟨⟨tag, hI⟩, hK⟩
    · obtain ⟨tag1, hIa⟩ := ftl_inv_invalid hgeo hI (by simp) ha
      obtain ⟨_, er⟩ := set_rmap_ent_spec hr
      have hKa : heap_ipc a.lm none := by
        unfold ftl_inv at hI
        exact heap_ipc_invalid hI.lm_ok.hooks hI.lm_ok.handles hI.lm_ok.size_pos
          hI.lm_ok.pos0 hK ha
      refine ⟨⟨tag1, ftl_inv_congr (s := a) ?_ ?_ ?_ ?_ hIa⟩, ?_⟩ <;> rw [er]
      exact hKa
  obtain ⟨⟨tag1, hI1⟩, hK1⟩ := hI1
  obtain ⟨_, e3⟩ := set_maptbl_ent_spec h3
  obtain ⟨_, e4⟩ := set_rmap_ent_spec h4
  have hlb : sb.lm = s1.lm := by rw [e4, e3]
  have hKb : heap_ipc sb.lm none := by rw [hlb]; exact hK1
  obtain ⟨hK4, hq4, _⟩ := heap_ipc_mark_page_valid hKb h5
  unfold ftl_inv at hI1
  have hk4 : line_hooks s4.lm.victim_line_pq := by
    rw [hq4, hlb]; exact hI1.lm_ok.hooks
  have hs4 : 1 ≤ s4.lm.victim_line_pq.size := by
    rw [hq4, hlb]; exact hI1.lm_ok.size_pos
  exact heap_ipc_advance hk4 hs4 hK4 h6

/-- `gc_write_page` keeps `heap_ipc` and the write credits. -/
theorem heap_ipc_gc_write_page {sp : ssdparams} {v : Nat} {tag : Nat → Nat}
    {t t2 : conv_ftl} {old : ppa} (hI : ftl_inv sp (some v) tag t)
    (hK : heap_ipc t.lm (some v)) (h : gc_write_page t old = some t2) :
    heap_ipc t2.lm (some v) ∧ t2.wfc = t.wfc := by
  obtain ⟨lpn, new, s1, s2, s3, _h1, _h2, _h3, h4, h5, h6, h7⟩ := gc_write_page_spec h
  obtain ⟨_, e1⟩ := set_maptbl_ent_spec h4
  obtain ⟨_, e2⟩ := set_rmap_ent_spec h5
  have hl2 : s2.lm = t.lm := by rw [e2, e1]
  have hw2 : s2.wfc = t.wfc := by rw [e2, e1]
  have hK2 : heap_ipc s2.lm (some v) := by rw [hl2]; exact hK
  obtain ⟨hK3, hq3, hw3⟩ := heap_ipc_mark_page_valid hK2 h6
  unfold ftl_inv at hI
  have hk3 : line_hooks
      ({ s3 with gc_copied_pages := s3.gc_copied_pages + 1 } : conv_ftl).lm.victim_line_pq := by
    show line_hooks s3.lm.victim_line_pq
    rw [hq3, hl2]; exact hI.lm_ok.hooks
  have hs3 : 1 ≤
      ({ s3 with gc_copied_pages := s3.gc_copied_pages + 1 } : conv_ftl).lm.victim_line_pq.size := by
    show 1 ≤ s3.lm.victim_line_pq.size
    rw [hq3, hl2]; exact hI.lm_ok.size_pos
  refine ⟨heap_ipc_advance hk3 hs3 hK3 h7, ?_⟩
  rw [advance_write_pointer_wfc h7]
  show s3.wfc = _
  rw [hw3, hw2]

/-- A GC run keeps `heap_ipc` and the write credits; the refill amount either stays or
becomes the `ipc` of the collected victim, which is at least 1 and at most
`pgs_per_line`. -/
theorem heap_ipc_do_gc {sp : ssdparams} (hgeo : ftl_geometry sp) {tag : Nat → Nat}
    {s s2 : conv_ftl} {now r : Nat} {force : Bool} {rc : Int}
    (hI : ftl_inv sp none tag s) (hK : heap_ipc s.lm none)
    (h : do_gc s now r force = some (s2, rc)) :
    heap_ipc s2.lm none ∧ s2.wfc.write_credits = s.wfc.write_credits ∧
    (s2.wfc.credits_to_refill = s.wfc.credits_to_refill ∨
      (1 ≤ s2.wfc.credits_to_refill ∧ s2.wfc.credits_to_refill ≤ sp.pgs_per_line)) := by
  obtain ⟨tag2, hI2⟩ := ftl_inv_do_gc hgeo hI h
  have hIc := hI
  unfold ftl_inv at hIc
  rcases do_gc_eq_some h with ⟨s1, hsel, e, _⟩ | ⟨s1, v, sg, s5, hsel, eg, hsw, e, _⟩
  · have hsel2 := hsel
    unfold select_victim at hsel2
    rw [hIc.lm_ok.mode] at hsel2
    simp only at hsel2
    rcases select_victim_greedy_eq_some hsel2 with ⟨_, e2⟩ | ⟨v, _, _, e1, _⟩
    · rw [e, e2]
      exact ⟨hK, rfl, Or.inl rfl⟩
    · exact absurd e1 (by simp)
  · have hsel2 := hsel
    unfold select_victim at hsel2
    rw [hIc.lm_ok.mode] at hsel2
    simp only at hsel2
    rcases select_victim_greedy_eq_some hsel2 with ⟨e1, _⟩ |
      ⟨v2, lm1, vo1, e1, hs, hd, hpop, hlm, hs1⟩
    · exact absurd e1 (by simp)
    · have hvv : v2 = v := (Option.some.inj e1).symm
      subst hvv
      obtain ⟨_, hsb, hvm⟩ := lm_inv_select hIc.lm_ok hs hd hpop
      have hs2 : 2 ≤ s.lm.victim_line_pq.size := by
        have := hIc.lm_ok.size_pos
        omega
      have hmem := pqueue_pop_member hIc.lm_ok.hooks hIc.lm_ok.handles hs2 hd hpop
      have hlines : s1.lm.lines = (clear_pos lm1 v2).lines := by rw [hlm]
      have hq1 : s1.lm.victim_line_pq = lm1.victim_line_pq := by rw [hlm]; rfl
      have hf : ∀ j, (s1.lm.lines j).id = (s.lm.lines j).id ∧
          (s1.lm.lines j).ipc = (s.lm.lines j).ipc := by
        intro j
        rw [hlines]
        have q := same_but_pos_fields hsb j
        exact ⟨q.1, q.2.1⟩
      have hidv : (s1.lm.lines v2).id = v2 := by
        rw [(hf v2).1]
        exact hIc.lm_ok.ids v2
      rw [hidv] at hsw e
      -- the victim
      have hv3 : tag v2 = 3 := (hIc.lm_ok.t_heap v2).mp hvm
      have hvn : v2 < sp.blks_per_pl := (hIc.lm_ok.t_range v2).mpr (by omega)
      have hipc1 : 1 ≤ (s1.lm.lines v2).ipc := by
        rw [(hf v2).2]
        exact hK v2 (by simp) hvm
      have hipc2 : (s1.lm.lines v2).ipc ≤ sp.pgs_per_line := by
        rw [(hf v2).2]
        obtain ⟨a1, a2⟩ := hIc.acct v2 hvn (by simp)
        have hle := line_count_add_le s.ssd (s.lm.lines v2).id
        have hline := ftl_geometry_line hgeo
        rw [hIc.sp_eq] at hle
        rw [a2, hline]
        omega
      -- the state after the selection
      have hK1 : heap_ipc s1.lm (some v2) := by
        intro j _ hj
        rw [(hf j).2]
        have hj2 : pq_member lm1 j := (pq_member_congr hq1 j).mp hj
        exact hK j (by simp) ((hmem j).mp hj2).1
      obtain ⟨hv, _⟩ | ⟨v3, hv, a⟩ := ftl_inv_select hI hsel
      · exact absurd hv (by simp)
      have hvv : v3 = v2 := (Option.some.inj hv).symm
      subst hvv
      have h0 : ftl_inv sp (some v3) (Function.update tag v3 6)
          { sg with gc_count := sg.gc_count + 1,
                    wfc := { sg.wfc with credits_to_refill := (s1.lm.lines v3).ipc } } := by
        refine ftl_inv_congr (s := s1) ?_ ?_ ?_ ?_ a
        · show sg.ssd = _
          rw [eg]
        · show sg.lm = _
          rw [eg]
        · show sg.wp = _
          rw [eg]
        · show sg.gc_wp = _
          rw [eg]
      have hwg : sg.wfc = s.wfc := by
        rw [eg, hs1]
      have hlg : sg.lm = s1.lm := by rw [eg]
      have key := do_gc_sweep_rule sp v3
        (fun t => (∃ tg, ftl_inv sp (some v3) tg t) ∧ heap_ipc t.lm (some v3) ∧
          t.wfc = { s.wfc with credits_to_refill := (s1.lm.lines v3).ipc })
        (fun _ _ _ => True) hgeo.2.1.2.1
        (fun t ht => by
          obtain ⟨⟨tg, ht⟩, _⟩ := ht
          unfold ftl_inv at ht
          exact ht.sp_eq)
        (fun t t' old hJ _ _ _ hg => by
          obtain ⟨⟨tg, ht⟩, hKt, hwt⟩ := hJ
          obtain ⟨a1, _⟩ := ftl_inv_gc_write_page hgeo ht hg
          obtain ⟨b1, b2⟩ := heap_ipc_gc_write_page ht hKt hg
          exact ⟨⟨a1, b1, b2.trans hwt⟩, fun _ _ _ => trivial⟩)
        (fun t t' fp ch lun hJ hch hlun hm => by
          obtain ⟨⟨tg, ht⟩, hKt, hwt⟩ := hJ
          obtain ⟨a1, _, _⟩ := ftl_inv_block_free hgeo ht hch hlun hm
          obtain ⟨blk, b2, _, e, _⟩ := mark_block_free_spec hm
          refine ⟨⟨⟨tg, a1⟩, ?_, ?_⟩, trivial, fun _ _ _ => trivial⟩
          · rw [e]
            exact hKt
          · rw [e]
            exact hwt)
        _ s5 ⟨⟨_, h0⟩, by
          show heap_ipc sg.lm (some v3)
          rw [hlg]
          exact hK1, by
          show ({ sg.wfc with credits_to_refill := (s1.lm.lines v3).ipc } : write_flow_control)
            = _
          rw [hwg]⟩ hsw
      obtain ⟨⟨_, hK5, hw5⟩, _⟩ := key
      have hpb : (gc_ppa s5.ssd.sp v3 (s5.ssd.sp.flashpgs_per_blk - 1) (s5.ssd.sp.nchs - 1)
          (s5.ssd.sp.luns_per_ch - 1)).blk = v3 := by
        show v3 % 65536 = v3
        exact Nat.mod_eq_of_lt (by have := hgeo.2.1.2.2.2.2; omega)
      have hlm2 : s2.lm =
          { s5.lm with lines := Function.update s5.lm.lines v3
                         { s5.lm.lines v3 with ipc := 0, vpc := 0 },
                       free_line_list := s5.lm.free_line_list ++ [v3],
                       free_line_cnt := s5.lm.free_line_cnt + 1 } := by
        rw [e]
        unfold mark_line_free get_line
        rw [hpb]
      have hw2 : s2.wfc = s5.wfc := by rw [e]; rfl
      unfold ftl_inv at hI2
      have hvfree : v3 ∈ s2.lm.free_line_list := by
        rw [hlm2]
        exact List.mem_append_right _ (List.mem_singleton_self v3)
      have hvnot : ¬ pq_member s2.lm v3 := by
        intro hm
        have a1 := (hI2.lm_ok.t_free v3).mp hvfree
        have a3 := (hI2.lm_ok.t_heap v3).mp hm
        omega
      refine ⟨?_, ?_, ?_⟩
      · intro j _ hj
        have hjv : j ≠ v3 := fun e => hvnot (e ▸ hj)
        have hj5 : pq_member s5.lm j := by
          rw [hlm2] at hj
          exact hj
        have hl : s2.lm.lines j = s5.lm.lines j := by
          rw [hlm2]
          exact Function.update_noteq hjv _ _
        rw [hl]
        exact hK5 j (fun e => hjv (Option.some.inj e).symm) hj5
      · rw [hw2, hw5]
      · right
        rw [hw2, hw5]
        exact ⟨hipc1, hipc2⟩

/-! ## The write credits of the Greedy mode -/

/-- In every state reached by host writes in the Greedy mode the members of the victim heap
have an invalid page, the refill amount is between 1 and `pgs_per_line`, and a write credit
is left. -/
theorem host_credit_bounds {cpp : convparams} {spp : ssdparams} {gc_mode : Nat} {dbg : Bool}
    {d0 : Nat → Option Nat} {s : conv_ftl} (hgeo : ftl_geometry spp)
    (hmode : gc_mode ≠ 1 ∧ gc_mode ≠ 2) (hP : spp.pgs_per_line < 4294967296)
    (hr : host_reachable cpp spp gc_mode dbg d0 s) :
    heap_ipc s.lm none ∧ 1 ≤ s.wfc.credits_to_refill ∧
    s.wfc.credits_to_refill ≤ spp.pgs_per_line ∧ 1 ≤ s.wfc.write_credits ∧
    s.wfc.write_credits ≤ spp.pgs_per_line := by
  induction hr with
  | @init s0 h =>
    obtain ⟨a1, _⟩ := conv_init_ftl_fields h
    obtain ⟨lm, c1, c2, rest, hlm, _, _, _, _, _, _, hl⟩ := conv_init_ftl_eq_some h
    obtain ⟨_, _, _, _, _, _, _, _, i9, _⟩ := init_lines_eq_some hlm
    have hpos := pgs_per_line_pos hgeo
    have hsize : s0.lm.victim_line_pq.size = 1 := by rw [hl]; exact i9
    rw [a1]
    refine ⟨?_, hpos, le_refl _, hpos, le_refl _⟩
    rintro j _ ⟨i, hi1, hi2, _⟩
    rw [hsize] at hi2
    omega
  | @write s s2 now r lpn hr0 hw ih =>
    obtain ⟨hK, hr1, hr2, hc1, hc2⟩ := ih
    have hreach := host_reachable_reachable hr0
    obtain ⟨tag, hI⟩ := reachable_inv hgeo hmode hreach
    simp only [conv_write_lpn, bind, Option.bind_eq_some] at hw
    obtain ⟨m, hm, hc⟩ := hw
    obtain ⟨f1, _⟩ := conv_write_map_frame (p := m.2) hm
    have hKm : heap_ipc m.1.lm none := heap_ipc_conv_write_map hgeo hI hK (p := m.2) hm
    obtain ⟨tagc, hIc⟩ := reachable_inv hgeo hmode
      (reachable.credit (reachable.write hreach (p := m.2) hm))
    have hcw : (consume_write_credit m.1).wfc.write_credits = s.wfc.write_credits - 1 := by
      show dec_u32 m.1.wfc.write_credits = _
      rw [f1, dec_u32_pos (by omega)]
    have hcr : (consume_write_credit m.1).wfc.credits_to_refill = s.wfc.credits_to_refill := by
      show m.1.wfc.credits_to_refill = _
      rw [f1]
    have hKc : heap_ipc (consume_write_credit m.1).lm none := hKm
    unfold check_and_refill_write_credit at hc
    split_ifs at hc with hz
    · cases hf : foreground_gc (consume_write_credit m.1) now r with
      | none => simp [hf] at hc
      | some s1 =>
        simp only [hf, Option.some.injEq] at hc
        have hfg : heap_ipc s1.lm none ∧
            s1.wfc.write_credits = (consume_write_credit m.1).wfc.write_credits ∧
            1 ≤ s1.wfc.credits_to_refill ∧ s1.wfc.credits_to_refill ≤ spp.pgs_per_line := by
          unfold foreground_gc at hf
          split_ifs at hf with hg
          · cases hd : do_gc (consume_write_credit m.1) now r true with
            | none => simp [hd] at hf
            | some r1 =>
              obtain ⟨sa, rc⟩ := r1
              simp only [hd, Option.some.injEq] at hf
              obtain ⟨g1, g2, g3⟩ := heap_ipc_do_gc hgeo hIc hKc hd
              rw [← hf]
              refine ⟨g1, g2, ?_⟩
              rcases g3 with e | e
              · rw [e, hcr]
                exact ⟨hr1, hr2⟩
              · exact e
          · rw [← Option.some.inj hf]
            refine ⟨hKc, rfl, ?_⟩
            rw [hcr]
            exact ⟨hr1, hr2⟩
        obtain ⟨g1, g2, g3, g4⟩ := hfg
        have hz0 : s1.wfc.write_credits = 0 := by
          rw [g2]
          omega
        rw [← hc]
        have he : (s1.wfc.write_credits + s1.wfc.credits_to_refill) % 4294967296 =
            s1.wfc.credits_to_refill := by
          rw [hz0, Nat.zero_add, Nat.mod_eq_of_lt (by omega)]
        refine ⟨g1, g3, g4, ?_, ?_⟩
        · show 1 ≤ (s1.wfc.write_credits + s1.wfc.credits_to_refill) % 4294967296
          rw [he]
          exact g3
        · show (s1.wfc.write_credits + s1.wfc.credits_to_refill) % 4294967296 ≤ _
          rw [he]
          exact g4
    · rw [← Option.some.inj hc]
      refine ⟨hKc, ?_, ?_, ?_, ?_⟩
      · rw [hcr]; exact hr1
      · rw [hcr]; exact hr2
      · omega
      · omega

/-- C37: in the Greedy mode, on a geometry with `pgs_per_line < 2^32`, in every state `s`
reached from `conv_init_ftl` by host page writes (each followed by `consume_write_credit` and
`check_and_refill_write_credit`): `credits_to_refill` is at least 1 and the 32-bit
`write_credits` is at least 1; every member of the victim heap has `ipc ≥ 1`; and in the next
host write, the counter `consume_write_credit` is applied to is not zero (it goes down by one
without wrapping) and a victim the GC run of that write collects has `ipc ≥ 1`. -/
theorem write_credits_never_wrap (cpp : convparams) (spp : ssdparams) (gc_mode : Nat)
    (dbg : Bool) (d0 : Nat → Option Nat) (s : conv_ftl) (hgeo : ftl_geometry spp)
    (hmode : gc_mode ≠ 1 ∧ gc_mode ≠ 2) (hP : spp.pgs_per_line < 4294967296)
    (hr : host_reachable cpp spp gc_mode dbg d0 s) :
    1 ≤ s.wfc.credits_to_refill ∧ 1 ≤ s.wfc.write_credits ∧
    s.wfc.write_credits < 4294967296 ∧
    (∀ j, pq_member s.lm j → 1 ≤ (s.lm.lines j).ipc) ∧
    (∀ now lpn m, conv_write_map s now lpn = some m →
      1 ≤ m.1.wfc.write_credits ∧
      (consume_write_credit m.1).wfc.write_credits + 1 = m.1.wfc.write_credits ∧
      ∀ r s1 v, select_victim (consume_write_credit m.1) now r true = some (s1, some v) →
        1 ≤ ((consume_write_credit m.1).lm.lines v).ipc) := by
  obtain ⟨hK, h1, _, h3, h4⟩ := host_credit_bounds hgeo hmode hP hr
  obtain ⟨tag, hI⟩ := reachable_inv hgeo hmode (host_reachable_reachable hr)
  have hlt : s.wfc.write_credits < 4294967296 := by omega
  refine ⟨h1, h3, hlt, fun j hj => hK j (by simp) hj, ?_⟩
  intro now lpn m hm
  obtain ⟨f1, _⟩ := conv_write_map_frame (p := m.2) hm
  have hKm : heap_ipc m.1.lm none := heap_ipc_conv_write_map hgeo hI hK (p := m.2) hm
  obtain ⟨tagc, hIc⟩ := reachable_inv hgeo hmode
    (reachable.credit (reachable.write (host_reachable_reachable hr) (p := m.2) hm))
  refine ⟨by rw [f1]; exact h3, ?_, ?_⟩
  · show dec_u32 m.1.wfc.write_credits + 1 = _
    rw [f1, dec_u32_pos (by omega)]
    omega
  · intro r s1 v hsel
    unfold ftl_inv at hIc
    unfold select_victim at hsel
    rw [hIc.lm_ok.mode] at hsel
    simp only at hsel
    rcases select_victim_greedy_eq_some hsel with ⟨e1, _⟩ | ⟨v2, _, _, e1, hs, hd, _⟩
    · exact absurd e1 (by simp)
    · have hvv : v2 = v := (Option.some.inj e1).symm
      subst hvv
      have hsz : 1 ≤ m.1.lm.victim_line_pq.size := hIc.lm_ok.size_pos
      have hs2 : m.1.lm.victim_line_pq.size ≠ 1 := hs
      exact hKm v2 (by simp) ⟨1, le_refl _, by omega, hd⟩

theorem write_credits_never_wrap_witness :
    0 < credit_overrun_state.gc_count ∧
    1 ≤ credit_overrun_state.wfc.credits_to_refill ∧
    1 ≤ credit_overrun_state.wfc.write_credits ∧
    ∀ j, pq_member credit_overrun_state.lm j → 1 ≤ (credit_overrun_state.lm.lines j).ipc := by
  obtain ⟨h1, h2, _, h4, _⟩ :=
    write_credits_never_wrap conv_params (tri_params 4) 0 false (fun _ => none)
      credit_overrun_state (by decide) (by decide) (by decide) credit_overrun_reachable
  exact ⟨by decide, h1, h2, h4⟩

/-! ## Counting the pages of a line flash page by flash page -/

theorem sum_upto_swap (g : Nat → Nat → Nat) (m : Nat) :
    ∀ n, sum_upto (fun a => sum_upto (fun b => g a b) m) n =
      sum_upto (fun b => sum_upto (fun a => g a b) n) m := by
  intro n
  induction n with
  | zero =>
    symm
    exact sum_upto_zero m (fun _ _ => rfl)
  | succ n ih =>
    show sum_upto (fun a => sum_upto (fun b => g a b) m) n + sum_upto (fun b => g n b) m = _
    rw [ih, ← sum_upto_add]
    rfl

theorem count_upto_add_index (f : Nat → Bool) (a : Nat) :
    ∀ b, count_upto f (a + b) = count_upto f a + count_upto (fun i => f (a + i)) b := by
  intro b
  induction b with
  | zero => rfl
  | succ b ih =>
    show count_upto f (a + b) + (if f (a + b) then 1 else 0) =
      count_upto f a + (count_upto (fun i => f (a + i)) b + (if f (a + b) then 1 else 0))
    rw [ih]
    omega

theorem count_upto_front (f : Nat → Bool) (n : Nat) :
    count_upto f (n + 1) = (if f 0 then 1 else 0) + count_upto (fun i => f (i + 1)) n := by
  rw [Nat.add_comm n 1, count_upto_add_index f 1 n]
  have h1 : count_upto f 1 = (if f 0 then 1 else 0) := by
    show 0 + (if f 0 then 1 else 0) = _
    rw [Nat.zero_add]
  rw [h1]
  congr 1
  apply count_upto_congr
  intro i _
  rw [Nat.add_comm]

theorem count_upto_mul (f : Nat → Bool) (k : Nat) :
    ∀ n, count_upto f (n * k) = sum_upto (fun j => count_upto (fun i => f (j * k + i)) k) n := by
  intro n
  induction n with
  | zero =>
    rw [Nat.zero_mul]
    rfl
  | succ n ih =>
    rw [Nat.succ_mul, count_upto_add_index, ih]
    rfl

/-- The VALID pages of a block are those of its flash pages. -/
theorem blk_count_flashpgs {sp : ssdparams} (b : nand_block)
    (hg : sp.pgs_per_blk = sp.flashpgs_per_blk * sp.pgs_per_flashpg) :
    blk_count sp b PG_VALID = sum_upto (fun f => flashpg_valid sp b f) sp.flashpgs_per_blk := by
  unfold blk_count flashpg_valid
  rw [hg, count_upto_mul]

/-- After the last flash page the sweep of `do_gc` has passed every VALID page of the line. -/
theorem swept_valid_total (d : ssd) (v : Nat) (hpl : d.sp.pls_per_lun = 1)
    (hg : d.sp.pgs_per_blk = d.sp.flashpgs_per_blk * d.sp.pgs_per_flashpg) :
    swept_valid d v d.sp.flashpgs_per_blk 0 0 = line_count d v PG_VALID := by
  unfold swept_valid line_count
  show _ + 0 + 0 = _
  simp only [Nat.add_zero]
  rw [sum_upto_swap (fun f c => sum_upto (fun l =>
    flashpg_valid d.sp (d.blk c l 0 v) f) d.sp.luns_per_ch)]
  apply sum_upto_congr
  intro c _
  rw [sum_upto_swap (fun f l => flashpg_valid d.sp (d.blk c l 0 v) f)]
  apply sum_upto_congr
  intro l _
  rw [hpl]
  show _ = 0 + blk_count d.sp (d.blk c l 0 v) PG_VALID
  rw [Nat.zero_add, blk_count_flashpgs _ hg]

theorem swept_valid_lun (d : ssd) (v fp ch lun : Nat) :
    swept_valid d v fp ch (lun + 1) =
      swept_valid d v fp ch lun + flashpg_valid d.sp (d.blk ch lun 0 v) fp := by
  unfold swept_valid
  simp only [sum_upto]
  omega

theorem swept_valid_ch (d : ssd) (v fp ch : Nat) :
    swept_valid d v fp (ch + 1) 0 = swept_valid d v fp ch d.sp.luns_per_ch := by
  unfold swept_valid
  simp only [sum_upto]
  omega

theorem swept_valid_fp (d : ssd) (v fp : Nat) :
    swept_valid d v (fp + 1) 0 0 = swept_valid d v fp d.sp.nchs 0 := by
  unfold swept_valid
  simp only [sum_upto]

/-! ## The copies of one call of `clean_one_flashpg` -/

theorem set_wp_counters (s : conv_ftl) (io : Nat) (w : write_pointer) :
    (set_wp s io w).gc_copied_pages = s.gc_copied_pages ∧
    (set_wp s io w).gc_count = s.gc_count ∧ (set_wp s io w).wfc = s.wfc := by
  unfold set_wp
  split_ifs <;> exact ⟨rfl, rfl, rfl⟩

/-- One `gc_write_page` counts one copied page and leaves `gc_count` and the write credits. -/
theorem gc_write_page_counters {t t2 : conv_ftl} {old : ppa}
    (h : gc_write_page t old = some t2) :
    t2.gc_copied_pages = t.gc_copied_pages + 1 ∧ t2.gc_count = t.gc_count ∧
    t2.wfc = t.wfc := by
  obtain ⟨lpn, new, s1, s2, s3, _h1, _h2, _h3, h4, h5, h6, h7⟩ := gc_write_page_spec h
  obtain ⟨_, e1⟩ := set_maptbl_ent_spec h4
  obtain ⟨_, e2⟩ := set_rmap_ent_spec h5
  obtain ⟨_, _, _, d4, _, _⟩ := mark_page_valid_spec h6
  obtain ⟨w2, lm2, e, _⟩ := advance_write_pointer_spec h7
  obtain ⟨c1, c2, c3⟩ := set_wp_counters
    { ({ s3 with gc_copied_pages := s3.gc_copied_pages + 1 } : conv_ftl) with lm := lm2 }
    GC_IO w2
  rw [e]
  refine ⟨?_, ?_, ?_⟩
  · rw [c1]
    show s3.gc_copied_pages + 1 = _
    rw [d4, e2, e1]
  · rw [c2]
    show s3.gc_count = _
    rw [d4, e2, e1]
  · rw [c3]
    show s3.wfc = _
    rw [d4, e2, e1]

theorem ppa_next_pg_fields (p : ppa) :
    (ppa_next_pg p).ch = p.ch ∧ (ppa_next_pg p).lun = p.lun ∧ (ppa_next_pg p).pl = p.pl ∧
    (ppa_next_pg p).blk = p.blk ∧ (ppa_next_pg p).pg = (p.pg + 1) % 65536 :=
  ⟨rfl, rfl, rfl, rfl, rfl⟩

/-- The counting loop of `clean_one_flashpg` adds the number of VALID pages it reads. -/
theorem clean_one_flashpg_count_eq (s : conv_ftl) :
    ∀ (n : Nat) (p : ppa) (cnt r : Nat), p.pg + n ≤ 65536 →
      clean_one_flashpg_count s n p cnt = some r →
      r = cnt + count_upto (fun i =>
        decide (((s.ssd.blk p.ch p.lun p.pl p.blk).pg (p.pg + i)).status = PG_VALID)) n := by
  intro n
  induction n with
  | zero =>
    intro p cnt r _ h
    simp only [clean_one_flashpg_count, Option.some.injEq] at h
    rw [← h]
    rfl
  | succ n ih =>
    intro p cnt r hle h
    unfold clean_one_flashpg_count at h
    cases hpg : get_pg s.ssd p with
    | none => simp [hpg] at h
    | some pg =>
      simp only [hpg] at h
      by_cases hfree : pg.status = PG_FREE
      · simp [hfree] at h
      rw [if_neg hfree] at h
      obtain ⟨b, hb, _, hpe⟩ := get_pg_eq_some hpg
      obtain ⟨_, hbe⟩ := get_blk_eq_some hb
      obtain ⟨n1, n2, n3, n4, n5⟩ := ppa_next_pg_fields p
      have hle2 : (ppa_next_pg p).pg + n ≤ 65536 := by
        rw [n5]
        have := Nat.mod_le (p.pg + 1) 65536
        by_cases hn : n = 0
        · subst hn
          have := Nat.mod_lt (p.pg + 1) (show 0 < 65536 by decide)
          omega
        · rw [Nat.mod_eq_of_lt (by omega)]
          omega
      have key := ih (ppa_next_pg p) _ r hle2 h
      rw [n1, n2, n3, n4] at key
      rw [key, count_upto_front]
      have hc : count_upto (fun i => decide (((s.ssd.blk p.ch p.lun p.pl p.blk).pg
          ((ppa_next_pg p).pg + i)).status = PG_VALID)) n =
          count_upto (fun i => decide (((s.ssd.blk p.ch p.lun p.pl p.blk).pg
            (p.pg + (i + 1))).status = PG_VALID)) n := by
        apply count_upto_congr
        intro i hi
        rw [n5, Nat.mod_eq_of_lt (by omega)]
        have : p.pg + 1 + i = p.pg + (i + 1) := by omega
        rw [this]
      rw [hc]
      have hst : pg.status = ((s.ssd.blk p.ch p.lun p.pl p.blk).pg (p.pg + 0)).status := by
        rw [hpe, hbe]
        rfl
      rw [hst]
      by_cases hv : ((s.ssd.blk p.ch p.lun p.pl p.blk).pg (p.pg + 0)).status = PG_VALID
      · simp only [hv, if_true, decide_True]
        omega
      · simp only [hv, if_false, decide_False, Bool.false_eq_true]
        omega

/-- The copy loop of `clean_one_flashpg` on a block of the victim line `v` calls
`gc_write_page` once for every VALID page it reads: it keeps the sweep invariant of line
accounting, does not touch the blocks numbered `v`, and counts one copied page per VALID
page. -/
theorem clean_one_flashpg_copy_count {sp : ssdparams} {v nl : Nat}
    (hfit : sp.blks_per_pl ≤ 65536) :
    ∀ (n : Nat) (t : conv_ftl) (p : ppa) (t2 : conv_ftl), gc_acct sp v nl t → p.blk = v →
      p.pl = 0 → p.pg + n ≤ 65536 → clean_one_flashpg_copy n t p = some t2 →
      gc_acct sp v nl t2 ∧ (∀ c l pl, t2.ssd.blk c l pl v = t.ssd.blk c l pl v) ∧
      t2.gc_copied_pages = t.gc_copied_pages + count_upto (fun i =>
        decide (((t.ssd.blk p.ch p.lun 0 v).pg (p.pg + i)).status = PG_VALID)) n ∧
      t2.gc_count = t.gc_count ∧ t2.wfc = t.wfc := by
  intro n
  induction n with
  | zero =>
    intro t p t2 hJ _ _ _ h
    simp only [clean_one_flashpg_copy, Option.some.injEq] at h
    subst h
    exact ⟨hJ, fun _ _ _ => rfl, rfl, rfl, rfl⟩
  | succ n ih =>
    intro t p t2 hJ hb hpl hle h
    unfold clean_one_flashpg_copy at h
    cases hpg : get_pg t.ssd p with
    | none => simp [hpg] at h
    | some pg =>
      simp only [hpg] at h
      obtain ⟨b, hbk, _, hpe⟩ := get_pg_eq_some hpg
      obtain ⟨_, hbe⟩ := get_blk_eq_some hbk
      obtain ⟨n1, n2, n3, n4, n5⟩ := ppa_next_pg_fields p
      have hle2 : (ppa_next_pg p).pg + n ≤ 65536 := by
        rw [n5]
        by_cases hn : n = 0
        · subst hn
          have := Nat.mod_lt (p.pg + 1) (show 0 < 65536 by decide)
          omega
        · rw [Nat.mod_eq_of_lt (by omega)]
          omega
      have hst : pg.status = ((t.ssd.blk p.ch p.lun 0 v).pg (p.pg + 0)).status := by
        rw [hpe, hbe, hpl, hb]
        rfl
      have hc : ∀ (d : ssd), count_upto (fun i => decide (((d.blk p.ch p.lun 0 v).pg
          ((ppa_next_pg p).pg + i)).status = PG_VALID)) n =
          count_upto (fun i => decide (((d.blk p.ch p.lun 0 v).pg
            (p.pg + (i + 1))).status = PG_VALID)) n := by
        intro d
        apply count_upto_congr
        intro i hi
        rw [n5, Nat.mod_eq_of_lt (by omega)]
        have : p.pg + 1 + i = p.pg + (i + 1) := by omega
        rw [this]
      rw [count_upto_front]
      by_cases hv : pg.status = PG_VALID
      · rw [if_pos hv] at h
        cases hg : gc_write_page t p with
        | none => simp [hg] at h
        | some t1 =>
          simp only [hg] at h
          obtain ⟨a1, a2⟩ := gc_write_page_acct hfit hJ hg
          obtain ⟨c1, c2, c3⟩ := gc_write_page_counters hg
          obtain ⟨k1, k2, k3, k4, k5⟩ := ih t1 (ppa_next_pg p) t2 a1 (n4.trans hb)
            (n3.trans hpl) hle2 h
          rw [n1, n2, hc, a2] at k3
          rw [hst] at hv
          refine ⟨k1, fun c l pl => (k2 c l pl).trans (a2 c l pl), ?_, k4.trans c2,
            k5.trans c3⟩
          rw [k3, c1]
          simp only [hv, if_true, decide_True]
          omega
      · rw [if_neg hv] at h
        obtain ⟨k1, k2, k3, k4, k5⟩ := ih t (ppa_next_pg p) t2 hJ (n4.trans hb)
          (n3.trans hpl) hle2 h
        rw [n1, n2, hc] at k3
        rw [hst] at hv
        refine ⟨k1, k2, ?_, k4, k5⟩
        rw [k3]
        simp only [hv, if_false, decide_False, Bool.false_eq_true]
        omega

/-- One call of `clean_one_flashpg` on the flash page `fp` of the block of the victim line
`v` at channel `ch`, LUN `lun` copies the VALID pages of that flash page. -/
theorem clean_one_flashpg_count_copies {sp : ssdparams} {v nl fp ch lun : Nat}
    {t t2 : conv_ftl} (hgeo : sweep_geometry sp) (hv : v < sp.blks_per_pl)
    (hfp : fp < sp.flashpgs_per_blk) (hch : ch < sp.nchs) (hlun : lun < sp.luns_per_ch)
    (hJ : gc_acct sp v nl t)
    (h : clean_one_flashpg t (gc_ppa sp v fp ch lun) = some t2) :
    gc_acct sp v nl t2 ∧ (∀ c l pl, t2.ssd.blk c l pl v = t.ssd.blk c l pl v) ∧
    t2.gc_copied_pages = t.gc_copied_pages + flashpg_valid sp (t.ssd.blk ch lun 0 v) fp ∧
    t2.gc_count = t.gc_count ∧ t2.wfc = t.wfc := by
  have hfit : sp.blks_per_pl ≤ 65536 := hgeo.1.2.1.2.2.2.2
  have hvm : v % 65536 = v := Nat.mod_eq_of_lt (by omega)
  have hp := gc_ppa_eq hgeo (b := v) hfp hch hlun
  rw [hvm] at hp
  have hsp : t.ssd.sp = sp := hJ.1
  have hle : fp * sp.pgs_per_flashpg + sp.pgs_per_flashpg ≤ 65536 := by
    have h1 : sp.pgs_per_blk ≤ 65536 := hgeo.1.2.2.2
    have h2 : (fp + 1) * sp.pgs_per_flashpg ≤ sp.flashpgs_per_blk * sp.pgs_per_flashpg :=
      Nat.mul_le_mul_right _ (by omega)
    rw [← hgeo.2, Nat.succ_mul] at h2
    omega
  rw [hp] at h
  unfold clean_one_flashpg at h
  rw [hsp] at h
  cases hc : clean_one_flashpg_count t sp.pgs_per_flashpg
      { ch := ch, lun := lun, pl := 0, blk := v, pg := fp * sp.pgs_per_flashpg, rsv := 0 }
      0 with
  | none => simp [hc] at h
  | some cnt =>
    simp only [hc] at h
    have hcnt := clean_one_flashpg_count_eq t _ _ _ _ hle hc
    rw [Nat.zero_add] at hcnt
    split_ifs at h with h0
    · rw [← Option.some.inj h]
      refine ⟨hJ, fun _ _ _ => rfl, ?_, rfl, rfl⟩
      unfold flashpg_valid
      rw [← hcnt, h0]
      rfl
    · obtain ⟨k1, k2, k3, k4, k5⟩ := clean_one_flashpg_copy_count hfit _ t _ t2 hJ rfl rfl
        hle h
      exact ⟨k1, k2, k3, k4, k5⟩

/-! ## The sweep of `do_gc`: copies and erased blocks -/

/-- The sweep of `do_gc` over the victim line `v`, started in a state `s` of the sweep
invariant of line accounting: it copies as many pages as the line has VALID pages, leaves
`gc_count` and the write credits, and erases every block of the line once. -/
theorem do_gc_sweep_work {sp : ssdparams} {v nl : Nat} {s s2 : conv_ftl}
    (hgeo : sweep_geometry sp) (hv : v < sp.blks_per_pl) (hJ : gc_acct sp v nl s)
    (h : do_gc_sweep v s = some s2) :
    gc_acct sp v nl s2 ∧
    s2.gc_copied_pages = s.gc_copied_pages + line_count s.ssd v PG_VALID ∧
    s2.gc_count = s.gc_count ∧ s2.wfc = s.wfc ∧
    ∀ c l, c < sp.nchs → l < sp.luns_per_ch →
      blk_erased sp (s.ssd.blk c l 0 v) (s2.ssd.blk c l 0 v) := by
  have hsp : s.ssd.sp = sp := hJ.1
  have hFP : 0 < sp.flashpgs_per_blk := hgeo.1.2.1.2.1
  have hpl : sp.pls_per_lun = 1 := hgeo.1.2.1.1
  have key := do_gc_sweep_inv sp v
    (fun fp ch lun t => gc_acct sp v nl t ∧
      t.gc_copied_pages = s.gc_copied_pages + swept_valid s.ssd v fp ch lun ∧
      t.gc_count = s.gc_count ∧ t.wfc = s.wfc ∧
      (∀ c l, c < sp.nchs → l < sp.luns_per_ch →
        (fp + 1 < sp.flashpgs_per_blk ∨
          (fp + 1 = sp.flashpgs_per_blk ∧ ¬(c < ch ∨ (c = ch ∧ l < lun)))) →
        t.ssd.blk c l 0 v = s.ssd.blk c l 0 v) ∧
      (∀ c l, c < sp.nchs → l < sp.luns_per_ch →
        (sp.flashpgs_per_blk ≤ fp ∨
          (fp + 1 = sp.flashpgs_per_blk ∧ (c < ch ∨ (c = ch ∧ l < lun)))) →
        blk_erased sp (s.ssd.blk c l 0 v) (t.ssd.blk c l 0 v)))
    (fun _ _ _ t hK => hK.1.1) ?_ ?_ ?_ s s2 ?_ h
  · obtain ⟨k1, k2, k3, k4, _, k6⟩ := key
    refine ⟨k1, ?_, k3, k4, fun c l hc hl => k6 c l hc hl (Or.inl (le_refl _))⟩
    rw [k2]
    have := swept_valid_total s.ssd v (by rw [hsp]; exact hpl) (by rw [hsp]; exact hgeo.2)
    rw [hsp] at this
    rw [this]
  · -- one call of the loop body
    intro fp ch lun t t2 hfp hch hlun hK hb
    obtain ⟨k1, k2, k3, k4, k5, k6⟩ := hK
    have hspt : t.ssd.sp = sp := k1.1
    simp only [do_gc_lun, bind, Option.bind_eq_some] at hb
    obtain ⟨s1, hclean, hb⟩ := hb
    rw [hspt] at hclean hb
    obtain ⟨a1, a2, a3, a4, a5⟩ :=
      clean_one_flashpg_count_copies hgeo hv hfp hch hlun k1 hclean
    have hsame : t.ssd.blk ch lun 0 v = s.ssd.blk ch lun 0 v := by
      apply k5 ch lun hch hlun
      by_cases hl : fp + 1 < sp.flashpgs_per_blk
      · exact Or.inl hl
      · exact Or.inr ⟨by omega, by omega⟩
    have hcount : s1.gc_copied_pages =
        s.gc_copied_pages + swept_valid s.ssd v fp ch (lun + 1) := by
      rw [a3, k2, swept_valid_lun, hsame, hsp]
      omega
    split_ifs at hb with hlast
    · obtain ⟨m1, _, _⟩ := mark_block_free_acct hgeo.1.2.1 hv a1 hch hlun hb
      obtain ⟨blk, b2, hblk, e, hfree, hv0, hi0, he⟩ := mark_block_free_spec hb
      have hp := gc_ppa_eq hgeo (b := v) hfp hch hlun
      rw [Nat.mod_eq_of_lt (show v < 65536 by have := hgeo.1.2.1.2.2.2.2; omega)] at hp
      rw [hp] at e hblk
      obtain ⟨_, hbe⟩ := get_blk_eq_some hblk
      have hblk0 : blk = s.ssd.blk ch lun 0 v := by
        rw [hbe]
        show s1.ssd.blk ch lun 0 v = _
        rw [a2, hsame]
      refine ⟨m1, ?_, ?_, ?_, ?_, ?_⟩
      · rw [e]
        exact hcount
      · rw [e]
        exact a4.trans k3
      · rw [e]
        exact a5.trans k4
      · intro c l hc hl hcond
        have hne : ¬(c = ch ∧ l = lun ∧ (0 : Nat) = 0 ∧ v = v) := by
          rintro ⟨e1, e2, _, _⟩
          subst e1 e2
          rcases hcond with hcond | ⟨_, hcond⟩
          · omega
          · exact hcond (Or.inr ⟨rfl, by omega⟩)
        rw [e]
        show (set_blk s1.ssd _ b2).blk c l 0 v = _
        rw [set_blk_other _ _ _ _ _ _ _ hne, a2]
        apply k5 c l hc hl
        rcases hcond with hcond | ⟨h1, hcond⟩
        · exact Or.inl hcond
        · refine Or.inr ⟨h1, ?_⟩
          intro hx
          apply hcond
          rcases hx with hx | ⟨hx1, hx2⟩
          · exact Or.inl hx
          · exact Or.inr ⟨hx1, by omega⟩
      · intro c l hc hl hcond
        by_cases hcl : c = ch ∧ l = lun
        · obtain ⟨e1, e2⟩ := hcl
          subst e1 e2
          rw [e]
          show blk_erased sp _ ((set_blk s1.ssd _ b2).blk c l 0 v)
          have hs := set_blk_same s1.ssd
            { ch := c, lun := l, pl := 0, blk := v, pg := fp * sp.pgs_per_flashpg, rsv := 0 } b2
          rw [hs]
          refine ⟨?_, hv0, hi0, ?_⟩
          · intro i hi
            apply hfree
            rw [a1.1]
            exact hi
          · rw [he, hblk0]
        · have hne : ¬(c = ch ∧ l = lun ∧ (0 : Nat) = 0 ∧ v = v) := by
            rintro ⟨e1, e2, _, _⟩
            exact hcl ⟨e1, e2⟩
          rw [e]
          show blk_erased sp _ ((set_blk s1.ssd _ b2).blk c l 0 v)
          rw [set_blk_other _ _ _ _ _ _ _ hne, a2]
          apply k6 c l hc hl
          rcases hcond with hcond | ⟨h1, hcond⟩
          · omega
          · refine Or.inr ⟨h1, ?_⟩
            rcases hcond with hx | ⟨hx1, hx2⟩
            · exact Or.inl hx
            · refine Or.inr ⟨hx1, ?_⟩
              by_contra hno
              exact hcl ⟨hx1, by omega⟩
    · simp only [pure, Option.some.injEq] at hb
      subst hb
      refine ⟨a1, hcount, a4.trans k3, a5.trans k4, ?_, ?_⟩
      · intro c l hc hl hcond
        rw [a2]
        apply k5 c l hc hl
        exact Or.inl (by omega)
      · intro c l hc hl hcond
        exfalso
        omega
  · -- the end of the loop over the LUNs
    intro fp ch t hK
    obtain ⟨k1, k2, k3, k4, k5, k6⟩ := hK
    refine ⟨k1, ?_, k3, k4, ?_, ?_⟩
    · rw [k2, swept_valid_ch, hsp]
    · intro c l hc hl hcond
      apply k5 c l hc hl
      rcases hcond with hcond | ⟨h1, hcond⟩
      · exact Or.inl hcond
      · refine Or.inr ⟨h1, ?_⟩
        intro hx
        apply hcond
        rcases hx with hx | ⟨hx1, _⟩
        · exact Or.inl (by omega)
        · exact Or.inl (by omega)
    · intro c l hc hl hcond
      apply k6 c l hc hl
      rcases hcond with hcond | ⟨h1, hcond⟩
      · exact Or.inl hcond
      · refine Or.inr ⟨h1, ?_⟩
        rcases hcond with hx | ⟨_, hx2⟩
        · by_cases hcc : c < ch
          · exact Or.inl hcc
          · exact Or.inr ⟨by omega, hl⟩
        · omega
  · -- the end of the loop over the channels
    intro fp t hK
    obtain ⟨k1, k2, k3, k4, k5, k6⟩ := hK
    refine ⟨k1, ?_, k3, k4, ?_, ?_⟩
    · rw [k2, swept_valid_fp, hsp]
    · intro c l hc hl hcond
      apply k5 c l hc hl
      exact Or.inl (by omega)
    · intro c l hc hl hcond
      apply k6 c l hc hl
      rcases hcond with hcond | ⟨_, hcond⟩
      · by_cases hle : sp.flashpgs_per_blk ≤ fp
        · exact Or.inl hle
        · exact Or.inr ⟨by omega, Or.inl hc⟩
      · omega
  · -- the start of the sweep
    refine ⟨hJ, ?_, rfl, rfl, fun _ _ _ _ _ => rfl, ?_⟩
    · show _ = _ + (0 + 0 + 0)
      omega
    · intro c l _ _ hcond
      exfalso
      omega

/-! ## The victim line during a GC run -/

theorem cmppri_irrefl {q : pqueue_t} (h : greedy_hooks q ∨ dummy_hooks q) :
    ∀ a, q.cmppri a a = false := by
  intro a
  rcases h with h | h
  · rw [h.2.1]
    simp [cmp_pri_greedy]
  · rw [h.2.1]
    rfl

theorem pqueue_remove_size {lm lm2 : line_mgmt} {k rc : Nat}
    (hk : line_hooks lm.victim_line_pq) (hm : pq_member lm k)
    (h : pqueue_remove lm (some k) = some (lm2, rc)) :
    1 ≤ lm2.victim_line_pq.size := by
  obtain ⟨_, e1, _, _⟩ := pqueue_remove_spec hk h
  obtain ⟨i, h1, h2, _⟩ := hm
  rw [e1]
  show 1 ≤ dec_u64 lm.victim_line_pq.size
  rw [dec_u64_pos (by omega)]
  omega

/-- A victim that `select_victim` takes from among the members of the heap is out of the heap
afterwards, with `pos = 0`. -/
theorem select_victim_removed {s s1 : conv_ftl} {now r v : Nat} {force : Bool}
    (hhooks : greedy_hooks s.lm.victim_line_pq ∨ dummy_hooks s.lm.victim_line_pq)
    (hh : pq_handles s.lm) (hm : pq_member s.lm v)
    (hsel : select_victim s now r force = some (s1, some v)) :
    ¬ pq_member s1.lm v ∧ (s1.lm.lines v).pos = 0 ∧ 1 ≤ s1.lm.victim_line_pq.size := by
  have hk := hooks_line_hooks hhooks
  have hs2 : 2 ≤ s.lm.victim_line_pq.size := by
    obtain ⟨i, h1, h2, _⟩ := hm
    omega
  have fin : ∀ lm1 : line_mgmt, (∀ j, pq_member lm1 j ↔ (pq_member s.lm j ∧ j ≠ v)) →
      1 ≤ lm1.victim_line_pq.size →
      s1.lm = { clear_pos lm1 v with
                victim_line_cnt := dec_u32 (clear_pos lm1 v).victim_line_cnt } →
      ¬ pq_member s1.lm v ∧ (s1.lm.lines v).pos = 0 ∧ 1 ≤ s1.lm.victim_line_pq.size := by
    intro lm1 hmem hsz hlm
    have hq : s1.lm.victim_line_pq = lm1.victim_line_pq := by rw [hlm]; rfl
    refine ⟨?_, ?_, ?_⟩
    · intro hx
      exact ((hmem v).mp ((pq_member_congr hq v).mp hx)).2 rfl
    · rw [hlm]
      simp [clear_pos]
    · rw [hq]
      exact hsz
  unfold select_victim at hsel
  cases hmode : s.lm.select_victim with
  | GC_MODE_GREEDY =>
    rw [hmode] at hsel
    simp only at hsel
    rcases select_victim_greedy_eq_some hsel with ⟨e1, _⟩ |
      ⟨v2, lm1, vo1, e1, hs, hd, hpop, hlm, _⟩
    · exact absurd e1 (by simp)
    · have hvv : v2 = v := (Option.some.inj e1).symm
      subst hvv
      obtain ⟨_, hsz, _, _⟩ := pqueue_pop_frame hk hh hs2 hd hpop
      exact fin lm1 (pqueue_pop_member hk hh hs2 hd hpop) (by omega) hlm
  | GC_MODE_COST_BENEFIT =>
    rw [hmode] at hsel
    simp only [select_victim_cb] at hsel
    rw [if_neg (by omega)] at hsel
    cases hb : ((List.range' 1 s.lm.victim_line_pq.size).foldl
        (select_victim_cb_step s.lm now)
        { best_victim := none, max_score := 0, victim_age := 0 }).best_victim with
    | none => simp [hb] at hsel
    | some b =>
      simp only [hb] at hsel
      cases hr : pqueue_remove s.lm (some b) with
      | none => simp [hr] at hsel
      | some r1 =>
        obtain ⟨lm1, rc⟩ := r1
        simp only [hr, Option.some.injEq, Prod.mk.injEq] at hsel
        obtain ⟨e1, e2⟩ := hsel
        subst e2
        have hlm : s1.lm = { clear_pos lm1 b with
            victim_line_cnt := dec_u32 (clear_pos lm1 b).victim_line_cnt } := by
          rw [← e1]
        exact fin lm1 (pqueue_remove_member hk hh (cmppri_irrefl hhooks) hm hr)
          (pqueue_remove_size hk hm hr) hlm
  | GC_MODE_RANDOM =>
    rw [hmode] at hsel
    simp only [select_victim_random] at hsel
    rw [if_neg (by omega)] at hsel
    cases hd : s.lm.victim_line_pq.d (r % s.lm.victim_line_pq.size + 1) with
    | none =>
      simp only [hd] at hsel
      cases hr : pqueue_remove s.lm none with
      | none => simp [hr] at hsel
      | some r1 => simp [hr] at hsel
    | some b =>
      simp only [hd] at hsel
      cases hr : pqueue_remove s.lm (some b) with
      | none => simp [hr] at hsel
      | some r1 =>
        obtain ⟨lm1, rc⟩ := r1
        simp only [hr, Option.some.injEq, Prod.mk.injEq] at hsel
        obtain ⟨e1, e2⟩ := hsel
        subst e2
        have hlm : s1.lm = { clear_pos lm1 b with
            victim_line_cnt := dec_u32 (clear_pos lm1 b).victim_line_cnt } := by
          rw [← e1]
        exact fin lm1 (pqueue_remove_member hk hh (cmppri_irrefl hhooks) hm hr)
          (pqueue_remove_size hk hm hr) hlm

/-- The close of line `c` leaves the record of every other line outside the heap, and the
size word of the heap does not shrink. -/
theorem advance_write_pointer_close_other {spp : ssdparams} {lm lm1 : line_mgmt} {c : Nat}
    (hk : line_hooks lm.victim_line_pq)
    (h : advance_write_pointer_close spp lm c = some lm1) :
    lm.victim_line_pq.size ≤ lm1.victim_line_pq.size ∧
    ∀ k, k ≠ c → ¬ pq_member lm k → lm1.lines k = lm.lines k := by
  unfold advance_write_pointer_close at h
  split_ifs at h with hfull
  · simp only [bind, Option.bind_eq_some, NVMEV_ASSERT_eq_some, pure, exists_const,
      Option.some.injEq] at h
    obtain ⟨_, h⟩ := h
    subst h
    exact ⟨le_refl _, fun _ _ _ => rfl⟩
  · simp only [bind, Option.bind_eq_some, NVMEV_ASSERT_eq_some, pure, exists_const,
      Option.some.injEq] at h
    obtain ⟨_, _, ⟨lmi, rc⟩, hins, h⟩ := h
    obtain ⟨_, e1, _, _⟩ := pqueue_insert_spec hk hins
    obtain ⟨_, _, _, _, f5, _⟩ := pqueue_insert_frame hk hins
    subst h
    refine ⟨?_, f5⟩
    show _ ≤ lmi.victim_line_pq.size
    rw [e1]
    show _ ≤ lm.victim_line_pq.size + 1
    omega

/-- `gc_write_page` during the GC run on `v` keeps `v` out of the heap and off the GC
cursor. -/
theorem gc_write_page_limbo {sp : ssdparams} {v nl : Nat} {fl0 : List Nat} {t t2 : conv_ftl}
    {old : ppa} (hJ : gc_acct sp v nl t) (hL : gc_limbo v fl0 t)
    (h : gc_write_page t old = some t2) : gc_limbo v fl0 t2 := by
  obtain ⟨j1, j2, j3, j4, j5, j6, j7, j8⟩ := hJ
  obtain ⟨l1, l2, l3, l4, ⟨k, l5⟩, l6⟩ := hL
  obtain ⟨lpn, new, s1, s2, s3, _h1, _h2, h3, h4, h5, h6, h7⟩ := gc_write_page_spec h
  obtain ⟨w, hw, hnew⟩ := get_new_page_eq_some h3
  rw [get_wp_gc] at hw
  have hwe : w = t.gc_wp := (Option.some.inj hw).symm
  subst hwe
  have hnb : new.blk = t.gc_wp.blk % 65536 := by rw [hnew]
  obtain ⟨_, e1⟩ := set_maptbl_ent_spec h4
  obtain ⟨_, e2⟩ := set_rmap_ent_spec h5
  obtain ⟨_, _, _, d4, d5, _⟩ := mark_page_valid_spec h6
  have hl2 : s2.lm = t.lm := by rw [e2, e1]
  have hg2 : s2.gc_wp = t.gc_wp := by rw [e2, e1]
  have hq3 : s3.lm.victim_line_pq = t.lm.victim_line_pq := by rw [d4, hl2]
  have hfl3 : s3.lm.free_line_list = t.lm.free_line_list := by rw [d4, hl2]
  have hfc3 : s3.lm.free_line_cnt = t.lm.free_line_cnt := by rw [d4, hl2]
  have hg3 : s3.gc_wp = t.gc_wp := by rw [d4, hg2]
  have hlv3 : s3.lm.lines v = t.lm.lines v := by
    rw [d5, hl2]
    exact Function.update_noteq (by rw [hnb]; exact fun e => j8 e.symm) _ _
  have hk3 : line_hooks s3.lm.victim_line_pq := by rw [hq3]; exact j2
  have hm3 : ¬ pq_member s3.lm v := fun hx => l2 ((pq_member_congr hq3 v).mp hx)
  obtain ⟨wpp, hwpp, _, hcase⟩ := advance_write_pointer_cases h7
  rw [get_wp_gc] at hwpp
  have hwe : wpp = t.gc_wp := by
    rw [← Option.some.inj hwpp]
    exact hg3
  subst hwe
  rcases hcase with ⟨w2, e, hc, _, _⟩ | ⟨lm1, cur, rest, hclose, hfree, _, _, _, e⟩
  · rw [set_wp_gc] at e
    rw [e]
    refine ⟨?_, ?_, ?_, ?_, ⟨k, ?_⟩, ?_⟩
    · show 1 ≤ s3.lm.victim_line_pq.size
      rw [hq3]; exact l1
    · exact hm3
    · show (s3.lm.lines v).pos = 0
      rw [hlv3]; exact l3
    · show w2.curline ≠ v
      rw [hc]; exact l4
    · show s3.lm.free_line_list = _
      rw [hfl3]; exact l5
    · show s3.lm.free_line_cnt = s3.lm.free_line_list.length
      rw [hfl3, hfc3]; exact l6
  · have hclose2 : advance_write_pointer_close s3.ssd.sp s3.lm t.gc_wp.curline = some lm1 :=
      hclose
    have hmem := advance_write_pointer_close_members hk3 (by rw [hq3]; exact l1) hclose2
    obtain ⟨o1, o2⟩ := advance_write_pointer_close_other hk3 hclose2
    obtain ⟨_, _, _, c4, c5, _⟩ := advance_write_pointer_close_frame hk3 hclose2
    have hfl1 : cur :: rest = t.lm.free_line_list := by
      rw [← hfree, c4, hfl3]
    rw [set_wp_gc] at e
    rw [e]
    refine ⟨?_, ?_, ?_, ?_, ⟨k + 1, ?_⟩, ?_⟩
    · show 1 ≤ lm1.victim_line_pq.size
      rw [hq3] at o1
      omega
    · show ¬ pq_member lm1 v
      intro hx
      rcases hmem v hx with a | ⟨a, _⟩
      · exact hm3 a
      · exact l4 a.symm
    · show (lm1.lines v).pos = 0
      rw [o2 v (fun e => l4 e.symm) hm3, hlv3]
      exact l3
    · show cur ≠ v
      intro e
      apply j7
      rw [← hfl1, e]
      exact List.mem_cons_self _ _
    · show rest = _
      have : (fl0.drop k).drop 1 = fl0.drop (k + 1) := by
        rw [List.drop_drop, Nat.add_comm]
      rw [← this, ← l5, ← hfl1]
      rfl
    · show dec_u32 lm1.free_line_cnt = rest.length
      rw [c5, hfc3, l6, ← hfl1]
      show dec_u32 (rest.length + 1) = _
      rw [dec_u32_pos (by omega)]
      omega

/-! ## A complete GC run -/

/-- A `do_gc` that selects the victim `v`: it returns 0; its sweep over the blocks numbered
`v` starts from the state after the selection, with `gc_count` incremented and the refill
amount set to the `ipc` of `v`, and `mark_line_free` on `v` ends it. -/
theorem do_gc_victim {s s2 : conv_ftl} {now r v : Nat} {force : Bool} {rc : Int}
    (hid : line_ids s.lm) (hk : line_hooks s.lm.victim_line_pq) (hv : v < 65536)
    (hsel : (select_victim s now r force).map (fun x => x.2) = some (some v))
    (h : do_gc s now r force = some (s2, rc)) :
    rc = 0 ∧ ∃ s1 sg s5, select_victim s now r force = some (s1, some v) ∧
      sg.ssd = s.ssd ∧ sg.lm = s1.lm ∧ sg.gc_wp = s.gc_wp ∧ sg.wp = s.wp ∧
      sg.gc_copied_pages = s.gc_copied_pages ∧ sg.gc_count = s.gc_count + 1 ∧
      sg.wfc = { s.wfc with credits_to_refill := (s.lm.lines v).ipc } ∧
      same_outside_heap s.lm s1.lm ∧
      do_gc_sweep v sg = some s5 ∧
      s2.lm = { s5.lm with
        lines := Function.update s5.lm.lines v { s5.lm.lines v with ipc := 0, vpc := 0 },
        free_line_list := s5.lm.free_line_list ++ [v],
        free_line_cnt := s5.lm.free_line_cnt + 1 } ∧
      s2.ssd = s5.ssd ∧ s2.wfc = s5.wfc ∧ s2.gc_copied_pages = s5.gc_copied_pages ∧
      s2.gc_count = s5.gc_count := by
  rcases do_gc_eq_some h with ⟨s1, hs1, _, _⟩ | ⟨s1, v2, sg, s5, hs1, eg, hsw, e, erc⟩
  · rw [hs1] at hsel
    simp at hsel
  · rw [hs1] at hsel
    simp only [Option.map_some', Option.some.injEq] at hsel
    subst hsel
    obtain ⟨f1, _, f3⟩ := select_victim_frame hk hs1
    have hl := same_but_pos_fields f3.2.2.2.2.2.2.2 v2
    have hidv : (s1.lm.lines v2).id = v2 := hl.1.trans (hid v2)
    rw [hidv] at hsw e
    rw [hl.2.1] at hsw
    have hpb : (gc_ppa s5.ssd.sp v2 (s5.ssd.sp.flashpgs_per_blk - 1) (s5.ssd.sp.nchs - 1)
        (s5.ssd.sp.luns_per_ch - 1)).blk = v2 := by
      show v2 % 65536 = v2
      exact Nat.mod_eq_of_lt hv
    refine ⟨erc, s1, _, s5, hs1, ?_, ?_, ?_, ?_, ?_, ?_, ?_, f3, hsw, ?_, ?_, ?_, ?_, ?_⟩
    · show sg.ssd = _
      rw [eg, f1]
    · show sg.lm = _
      rw [eg]
    · show sg.gc_wp = _
      rw [eg, f1]
    · show sg.wp = _
      rw [eg, f1]
    · show sg.gc_copied_pages = _
      rw [eg, f1]
    · show sg.gc_count + 1 = _
      rw [eg, f1]
    · show ({ sg.wfc with credits_to_refill := (s.lm.lines v2).ipc } : write_flow_control) = _
      rw [eg, f1]
    · rw [e]
      unfold mark_line_free get_line
      rw [hpb]
    · rw [e]; rfl
    · rw [e]; rfl
    · rw [e]; rfl
    · rw [e]; rfl

/-- A GC run on the victim `v` of an accounted state, `v` being a line of the device that is
neither on the free-line list nor the line of the GC cursor: the refill amount becomes the
`ipc` of `v`, as many pages are copied as `v` has VALID pages, `gc_count` goes up by one,
every block of `v` is erased once, and the counters of `v` are reset. -/
theorem do_gc_effect {s s2 : conv_ftl} {now r v : Nat} {force : Bool} {rc : Int}
    (hgeo : sweep_geometry s.ssd.sp) (hid : line_ids s.lm)
    (hk : line_hooks s.lm.victim_line_pq) (hP : line_accounting s)
    (hvt : v < s.lm.tt_lines)
    (hsel : (select_victim s now r force).map (fun x => x.2) = some (some v))
    (hv : v < s.ssd.sp.blks_per_pl) (hvf : v ∉ s.lm.free_line_list)
    (hvg : s.gc_wp.blk % 65536 ≠ v)
    (h : do_gc s now r force = some (s2, rc)) :
    rc = 0 ∧ s2.wfc.credits_to_refill = (s.lm.lines v).ipc ∧
    s2.wfc.write_credits = s.wfc.write_credits ∧
    s2.gc_copied_pages = s.gc_copied_pages + (s.lm.lines v).vpc ∧
    s2.gc_count = s.gc_count + 1 ∧
    (∀ c l, c < s.ssd.sp.nchs → l < s.ssd.sp.luns_per_ch →
      blk_erased s.ssd.sp (s.ssd.blk c l 0 v) (s2.ssd.blk c l 0 v)) ∧
    (s2.lm.lines v).vpc = 0 ∧ (s2.lm.lines v).ipc = 0 := by
  have hfit : s.ssd.sp.blks_per_pl ≤ 65536 := hgeo.1.2.1.2.2.2.2
  obtain ⟨hrc, s1, sg, s5, hs1, g1, g2, g3, _, g5, g6, g7, f3, hsw, e1, e2, e3, e4, e5⟩ :=
    do_gc_victim hid hk (by omega) hsel h
  obtain ⟨ffree, _, _, _, ftt, _, fh, fl⟩ := f3
  have h0 : gc_acct s.ssd.sp v s.lm.tt_lines sg := by
    refine ⟨by rw [g1], ?_, ?_, ?_, ?_, ?_, ?_, ?_⟩
    · rw [g2]
      exact line_hooks_of_same hk fh
    · intro k
      rw [g2, (same_but_pos_fields fl k).1]
      exact hid k
    · rw [g2]
      exact ftt
    · intro k hk2 _
      have q := same_but_pos_fields fl k
      have a := hP.1 k hk2
      unfold line_acct
      rw [g2, g1, q.1, q.2.1, q.2.2.1]
      exact a
    · exact blks_acct_congr (s := s) g1 hP.2
    · rw [g2, ffree]
      exact hvf
    · rw [g3]
      exact hvg
  obtain ⟨_, w2, w3, w4, w5⟩ := do_gc_sweep_work hgeo hv h0 hsw
  obtain ⟨a1, _⟩ := hP.1 v hvt
  rw [hid v] at a1
  refine ⟨hrc, ?_, ?_, ?_, ?_, ?_, ?_, ?_⟩
  · rw [e3, w4, g7]
  · rw [e3, w4, g7]
  · rw [e4, w2, g5, g1, a1]
  · rw [e5, w3, g6]
  · intro c l hc hl
    rw [e2]
    have := w5 c l hc hl
    rw [g1] at this
    exact this
  · rw [e1]
    simp
  · rw [e1]
    simp

/-- A GC run on a victim `v` taken from among the members of the heap, neither on the
free-line list nor under the GC cursor: afterwards `v` is not a member of the heap, its `pos`
is 0, and it is the last entry of the free-line list, which otherwise is what the run left of
the list before; `free_line_cnt` counts the list. -/
theorem do_gc_limbo {s s2 : conv_ftl} {now r v : Nat} {force : Bool} {rc : Int}
    (hgeo : sweep_geometry s.ssd.sp) (hid : line_ids s.lm)
    (hhooks : greedy_hooks s.lm.victim_line_pq ∨ dummy_hooks s.lm.victim_line_pq)
    (hh : pq_handles s.lm) (hm : pq_member s.lm v) (hP : line_accounting s)
    (hfc : s.lm.free_line_cnt = s.lm.free_line_list.length)
    (hsel : (select_victim s now r force).map (fun x => x.2) = some (some v))
    (hv : v < s.ssd.sp.blks_per_pl) (hvf : v ∉ s.lm.free_line_list)
    (hvg : s.gc_wp.blk % 65536 ≠ v) (hvc : s.gc_wp.curline ≠ v)
    (h : do_gc s now r force = some (s2, rc)) :
    ¬ pq_member s2.lm v ∧ (s2.lm.lines v).pos = 0 ∧
    (∃ k, s2.lm.free_line_list = s.lm.free_line_list.drop k ++ [v]) ∧
    s2.lm.free_line_cnt = s2.lm.free_line_list.length := by
  have hk := hooks_line_hooks hhooks
  have hfit : s.ssd.sp.blks_per_pl ≤ 65536 := hgeo.1.2.1.2.2.2.2
  obtain ⟨_, s1, sg, s5, hs1, g1, g2, g3, _, _, _, _, f3, hsw, e1, _⟩ :=
    do_gc_victim hid hk (by omega) hsel h
  obtain ⟨r1, r2, r3⟩ := select_victim_removed hhooks hh hm hs1
  obtain ⟨ffree, _, ffc, _, ftt, _, fh, fl⟩ := f3
  have h0 : gc_acct s.ssd.sp v s.lm.tt_lines sg := by
    refine ⟨by rw [g1], ?_, ?_, ?_, ?_, ?_, ?_, ?_⟩
    · rw [g2]
      exact line_hooks_of_same hk fh
    · intro k
      rw [g2, (same_but_pos_fields fl k).1]
      exact hid k
    · rw [g2]
      exact ftt
    · intro k hk2 _
      have q := same_but_pos_fields fl k
      have a := hP.1 k hk2
      unfold line_acct
      rw [g2, g1, q.1, q.2.1, q.2.2.1]
      exact a
    · exact blks_acct_congr (s := s) g1 hP.2
    · rw [g2, ffree]
      exact hvf
    · rw [g3]
      exact hvg
  have hL0 : gc_limbo v s.lm.free_line_list sg := by
    refine ⟨?_, ?_, ?_, ?_, ⟨0, ?_⟩, ?_⟩
    · rw [g2]; exact r3
    · rw [g2]; exact r1
    · rw [g2]; exact r2
    · rw [g3]; exact hvc
    · rw [g2, ffree]
      rfl
    · rw [g2, ffree, ffc]
      exact hfc
  have key := do_gc_sweep_rule s.ssd.sp v
    (fun t => gc_acct s.ssd.sp v s.lm.tt_lines t ∧ gc_limbo v s.lm.free_line_list t)
    (fun _ _ _ => True) hgeo.1.2.1.2.1 (fun t ht => ht.1.1)
    (fun t t2 old hJ _ _ _ hg => by
      obtain ⟨a, _⟩ := gc_write_page_acct hfit hJ.1 hg
      exact ⟨⟨a, gc_write_page_limbo hJ.1 hJ.2 hg⟩, fun _ _ _ => trivial⟩)
    (fun t t2 fp ch lun hJ hch hlun hmf => by
      obtain ⟨a, _, _⟩ := mark_block_free_acct hgeo.1.2.1 hv hJ.1 hch hlun hmf
      obtain ⟨blk, b2, _, e, _⟩ := mark_block_free_spec hmf
      refine ⟨⟨a, ?_⟩, trivial, fun _ _ _ => trivial⟩
      rw [e]
      exact hJ.2)
    _ s5 ⟨h0, hL0⟩ hsw
  obtain ⟨⟨_, l1, l2, l3, l4, ⟨k, l5⟩, l6⟩, _⟩ := key
  have hq : s2.lm.victim_line_pq = s5.lm.victim_line_pq := by rw [e1]
  refine ⟨fun hx => l2 ((pq_member_congr hq v).mp hx), ?_, ⟨k, ?_⟩, ?_⟩
  · rw [e1]
    simp only [Function.update_same]
    exact l3
  · rw [e1]
    show s5.lm.free_line_list ++ [v] = _
    rw [l5]
  · rw [e1]
    show s5.lm.free_line_cnt + 1 = (s5.lm.free_line_list ++ [v]).length
    rw [l6, List.length_append]
    rfl

/-- C6: in an accounted state (line and block counters equal to the page counts, line ids
equal to the indices, the geometry of `ssd_init_params`) in which `select_victim` returns the
line `v`, a line of the device that is neither on the free-line list nor under the GC cursor,
a `do_gc` that returns has returned 0, has set `credits_to_refill` to the `ipc` the victim had
at selection time, has raised `gc_copied_pages` by exactly its `vpc` (one `gc_write_page`,
with one page taken from the GC write pointer, per VALID page of the line), has incremented
`gc_count` by 1 and has left `write_credits`; in particular a victim with
`ipc = vpc = pgs_per_line / 2` causes `pgs_per_line / 2` copies and a refill amount of
`pgs_per_line / 2`. -/
theorem do_gc_work (s s2 : conv_ftl) (now r v : Nat) (force : Bool) (rc : Int)
    (hgeo : sweep_geometry s.ssd.sp) (hid : line_ids s.lm)
    (hk : line_hooks s.lm.victim_line_pq) (hP : line_accounting s)
    (hvt : v < s.lm.tt_lines)
    (hsel : (select_victim s now r force).map (fun x => x.2) = some (some v))
    (hv : v < s.ssd.sp.blks_per_pl) (hvf : v ∉ s.lm.free_line_list)
    (hvg : s.gc_wp.blk % 65536 ≠ v)
    (h : do_gc s now r force = some (s2, rc)) :
    rc = 0 ∧ s2.wfc.credits_to_refill = (s.lm.lines v).ipc ∧
    s2.gc_copied_pages = s.gc_copied_pages + (s.lm.lines v).vpc ∧
    s2.gc_count = s.gc_count + 1 ∧ s2.wfc.write_credits = s.wfc.write_credits ∧
    ((s.lm.lines v).ipc = s.ssd.sp.pgs_per_line / 2 →
      (s.lm.lines v).vpc = s.ssd.sp.pgs_per_line / 2 →
      s2.gc_copied_pages = s.gc_copied_pages + s.ssd.sp.pgs_per_line / 2 ∧
      s2.wfc.credits_to_refill = s.ssd.sp.pgs_per_line / 2) := by
  obtain ⟨a1, a2, a3, a4, a5, _⟩ := do_gc_effect hgeo hid hk hP hvt hsel hv hvf hvg h
  refine ⟨a1, a2, a4, a5, a3, ?_⟩
  intro hi hvp
  rw [a4, a2, hi, hvp]
  exact ⟨rfl, rfl⟩

theorem do_gc_work_witness :
    (one_victim_state.lm.lines 0).vpc = 1 ∧ (one_victim_state.lm.lines 0).ipc = 1 ∧
    one_victim_state.ssd.sp.pgs_per_line / 2 = 1 ∧
    ∃ s2, do_gc one_victim_state 9 0 true = some (s2, 0) ∧
      s2.wfc.credits_to_refill = 1 ∧
      s2.gc_copied_pages = one_victim_state.gc_copied_pages + 1 ∧
      s2.gc_count = one_victim_state.gc_count + 1 := by
  have hI := reachable_wf (by decide) reachable_one_victim
  obtain ⟨x, hx⟩ := Option.isSome_iff_exists.mp
    (show (do_gc one_victim_state 9 0 true).isSome = true by decide)
  obtain ⟨s2, rc⟩ := x
  obtain ⟨h1, h2, h3, h4, _, _⟩ :=
    do_gc_work one_victim_state s2 9 0 0 true rc (by decide) hI.ids one_victim_state_hooks.1
      (wf_inv_accounting hI) (by decide) (by decide) (by decide) (by decide) (by decide) hx
  subst h1
  exact ⟨by decide, by decide, by decide, s2, hx, h2, h3, h4⟩

/-- C5: in an accounted state in which `select_victim` returns the line `v`, a member of the
victim heap (positional handles, Greedy or dummy hooks) that is neither on the free-line
list nor under the GC cursor, after `do_gc` has returned (with 0): line `v` has
`vpc = ipc = 0` and is the last entry of the free-line list, behind what the run left of the
list, with `free_line_cnt` counting it; in every block numbered `v` (the `id` of the line)
on every channel and LUN of plane 0 every page is FREE, `vpc = ipc = 0` and `erase_cnt` is
exactly 1 more than before the call; `v` is not a member of the victim heap and its `pos`
is 0. -/
theorem do_gc_frees_victim (s s2 : conv_ftl) (now r v : Nat) (force : Bool) (rc : Int)
    (hgeo : sweep_geometry s.ssd.sp) (hid : line_ids s.lm)
    (hhooks : greedy_hooks s.lm.victim_line_pq ∨ dummy_hooks s.lm.victim_line_pq)
    (hh : pq_handles s.lm) (hm : pq_member s.lm v) (hP : line_accounting s)
    (hvt : v < s.lm.tt_lines) (hfc : s.lm.free_line_cnt = s.lm.free_line_list.length)
    (hsel : (select_victim s now r force).map (fun x => x.2) = some (some v))
    (hv : v < s.ssd.sp.blks_per_pl) (hvf : v ∉ s.lm.free_line_list)
    (hvg : s.gc_wp.blk % 65536 ≠ v) (hvc : s.gc_wp.curline ≠ v)
    (h : do_gc s now r force = some (s2, rc)) :
    rc = 0 ∧ (s2.lm.lines v).id = v ∧ (s2.lm.lines v).vpc = 0 ∧ (s2.lm.lines v).ipc = 0 ∧
    (∃ k, s2.lm.free_line_list = s.lm.free_line_list.drop k ++ [v]) ∧
    s2.lm.free_line_cnt = s2.lm.free_line_list.length ∧
    (∀ c l, c < s.ssd.sp.nchs → l < s.ssd.sp.luns_per_ch →
      (∀ i, i < s.ssd.sp.pgs_per_blk → ((s2.ssd.blk c l 0 v).pg i).status = PG_FREE) ∧
      (s2.ssd.blk c l 0 v).vpc = 0 ∧ (s2.ssd.blk c l 0 v).ipc = 0 ∧
      (s2.ssd.blk c l 0 v).erase_cnt = (s.ssd.blk c l 0 v).erase_cnt + 1) ∧
    ¬ pq_member s2.lm v ∧ (s2.lm.lines v).pos = 0 := by
  have hk := hooks_line_hooks hhooks
  obtain ⟨a1, _, _, _, _, a6, a7, a8⟩ := do_gc_effect hgeo hid hk hP hvt hsel hv hvf hvg h
  obtain ⟨b1, b2, b3, b4⟩ :=
    do_gc_limbo hgeo hid hhooks hh hm hP hfc hsel hv hvf hvg hvc h
  have hid2 : (s2.lm.lines v).id = v := by
    have hgg : gc_geometry s.ssd.sp := hgeo.1.2.1
    have hv2 : ∀ s1 v2, select_victim s now r force = some (s1, some v2) →
        v2 < s.ssd.sp.blks_per_pl ∧ v2 ∉ s.lm.free_line_list ∧ s.gc_wp.blk % 65536 ≠ v2 := by
      intro s1 v2 hs
      rw [hs] at hsel
      simp only [Option.map_some', Option.some.injEq] at hsel
      subst hsel
      exact ⟨hv, hvf, hvg⟩
    exact (do_gc_acct hgg hid hk hP hv2 h).2.1 v
  exact ⟨a1, hid2, a7, a8, b3, b4, fun c l hc hl => a6 c l hc hl, b1, b2⟩

theorem do_gc_frees_victim_witness :
    one_victim_state.lm.victim_line_pq.d 1 = some 0 ∧
    one_victim_state.lm.free_line_list = [3, 4, 5] ∧
    ∃ s2, do_gc one_victim_state 9 0 true = some (s2, 0) ∧
      (s2.lm.lines 0).vpc = 0 ∧ (s2.lm.lines 0).ipc = 0 ∧
      (∃ k, s2.lm.free_line_list = ([3, 4, 5] : List Nat).drop k ++ [0]) ∧
      ((s2.ssd.blk 0 0 0 0).pg 0).status = PG_FREE ∧
      ((s2.ssd.blk 0 0 0 0).pg 1).status = PG_FREE ∧
      (s2.ssd.blk 0 0 0 0).erase_cnt = (one_victim_state.ssd.blk 0 0 0 0).erase_cnt + 1 ∧
      ¬ pq_member s2.lm 0 ∧ (s2.lm.lines 0).pos = 0 := by
  have hI := reachable_wf (by decide) reachable_one_victim
  obtain ⟨x, hx⟩ := Option.isSome_iff_exists.mp
    (show (do_gc one_victim_state 9 0 true).isSome = true by decide)
  obtain ⟨s2, rc⟩ := x
  obtain ⟨h1, _, h3, h4, h5, _, h7, h8, h9⟩ :=
    do_gc_frees_victim one_victim_state s2 9 0 0 true rc (by decide) hI.ids
      (Or.inl one_victim_state_hooks) one_victim_state_handles
      ⟨1, by decide, by decide, by decide⟩ (wf_inv_accounting hI) (by decide) (by decide)
      (by decide) (by decide) (by decide) (by decide) (by decide) hx
  subst h1
  obtain ⟨p1, _, _, p4⟩ := h7 0 0 (by decide) (by decide)
  have hfl : one_victim_state.lm.free_line_list = [3, 4, 5] := by decide
  rw [hfl] at h5
  exact ⟨by decide, hfl, s2, hx, h3, h4, h5, p1 0 (by decide), p1 1 (by decide), p4, h8, h9⟩

/-! ## One `gc_write_page` and one `mark_block_free` on the mapping tables -/

theorem page_status_eq_some {s : conv_ftl} {p : ppa} {st : pg_status} :
    page_status s p = some st ↔
      ((p.ch < s.ssd.sp.nchs ∧ p.lun < s.ssd.sp.luns_per_ch ∧ p.pl < s.ssd.sp.pls_per_lun ∧
        p.blk < s.ssd.sp.blks_per_pl) ∧ p.pg < s.ssd.sp.pgs_per_blk ∧
        ((s.ssd.blk p.ch p.lun p.pl p.blk).pg p.pg).status = st) := by
  unfold page_status get_pg get_blk
  by_cases h1 : p.ch < s.ssd.sp.nchs ∧ p.lun < s.ssd.sp.luns_per_ch ∧
      p.pl < s.ssd.sp.pls_per_lun ∧ p.blk < s.ssd.sp.blks_per_pl
  · by_cases h2 : p.pg < s.ssd.sp.pgs_per_blk
    · simp [h1, h2]
    · simp [h1, h2]
  · simp [h1]

theorem same_page_trans {p q r : ppa} (h1 : same_page p q) (h2 : same_page q r) :
    same_page p r :=
  ⟨h1.1.trans h2.1, h1.2.1.trans h2.2.1, h1.2.2.1.trans h2.2.2.1,
    h1.2.2.2.1.trans h2.2.2.2.1, h1.2.2.2.2.trans h2.2.2.2.2⟩

/-- What one `gc_write_page` changes outside the line manager and the cursor: the forward
entry of the LPN in the reverse map at the old page, the reverse entry at the new page, the
status of the new page. -/
theorem gc_write_page_effect {t t2 : conv_ftl} {old : ppa}
    (h : gc_write_page t old = some t2) :
    ∃ lpn new, get_rmap_ent t old = some lpn ∧ lpn < t.ssd.sp.tt_pgs ∧
      new.blk = t.gc_wp.blk % 65536 ∧ new.rsv = 0 ∧
      page_status t new = some PG_FREE ∧ pgidx_of t.ssd.sp new < t.ssd.sp.tt_pgs ∧
      t2.ssd.sp = t.ssd.sp ∧
      t2.maptbl = Function.update t.maptbl lpn new ∧
      t2.rmap = Function.update t.rmap (pgidx_of t.ssd.sp new) lpn ∧
      (∀ q, page_status t2 q = if same_page q new then some PG_VALID else page_status t q) ∧
      get_new_page t GC_IO = some new := by
  obtain ⟨lpn, new, s1, s2, s3, h1, h2, h3, h4, h5, h6, h7⟩ := gc_write_page_spec h
  obtain ⟨w, hw, hnew⟩ := get_new_page_eq_some h3
  rw [get_wp_gc] at hw
  have hwe : w = t.gc_wp := (Option.some.inj hw).symm
  subst hwe
  obtain ⟨_, e1⟩ := set_maptbl_ent_spec h4
  obtain ⟨r1, e2⟩ := set_rmap_ent_spec h5
  obtain ⟨m1, m2, m3, m4, _, _⟩ := mark_page_valid_spec h6
  obtain ⟨f1, f2, f3⟩ := advance_write_pointer_frame h7
  have hs1 : s1.ssd = t.ssd := by rw [e1]
  have hs2 : s2.ssd = t.ssd := by rw [e2, hs1]
  have hst2 : ∀ q, page_status s2 q = page_status t q := by
    intro q
    unfold page_status
    rw [hs2]
  rw [hs1] at r1 e2
  refine ⟨lpn, new, h1, h2, by rw [hnew], by rw [hnew], ?_, r1, ?_, ?_, ?_, ?_, h3⟩
  · rw [← hst2]
    exact m1
  · rw [f1]
    show s3.ssd.sp = _
    rw [m3, hs2]
  · rw [f2]
    show s3.maptbl = _
    rw [m4, e2, e1]
  · rw [f3]
    show s3.rmap = _
    rw [m4, e2, e1]
  · intro q
    have : page_status t2 q = page_status s3 q := by
      unfold page_status
      rw [f1]
    rw [this, m2 q, hst2]

/-- `gc_write_page` on a VALID page of the victim line keeps the invariant of the mapping
tables, keeps every moved LPN moved, and moves the LPN that was mapped to the page. -/
theorem gc_write_page_map {sp : ssdparams} {s t t2 : conv_ftl} {v nl : Nat} {old : ppa}
    (hc : params_consistent sp) (hgeo : gc_geometry sp) (hsp : s.ssd.sp = sp)
    (hP : map_consistent s) (hV : victim_mapped s v)
    (hJ : gc_map_inv sp s v nl t) (hob : old.blk = v)
    (hst : page_status t old = some PG_VALID)
    (h : gc_write_page t old = some t2) :
    gc_map_inv sp s v nl t2 ∧ (∀ L, lpn_moved v t L → lpn_moved v t2 L) ∧
    (∀ L, L < sp.tt_pgs → mapped_ppa (s.maptbl L) = true → same_page (s.maptbl L) old →
      lpn_moved v t2 L) ∧
    ∀ c l pl, t2.ssd.blk c l pl v = t.ssd.blk c l pl v := by
  subst hsp
  have hspt : t.ssd.sp = s.ssd.sp := hJ.acct.1
  obtain ⟨a1, a2⟩ := gc_write_page_acct hgeo.2.2.2.2 hJ.acct h
  obtain ⟨lpn, new, e1, e2, e3, e4, e5, e6, e7, e8, e9, e10, _⟩ := gc_write_page_effect h
  rw [hspt] at e2 e6 e7 e9
  have hnv : new.blk ≠ v := by
    rw [e3]
    exact hJ.acct.2.2.2.2.2.2.2
  have hnr := page_status_in_range e5
  rw [hspt] at hnr
  -- the LPN of the old page
  have hor := page_status_in_range hst
  rw [hspt] at hor
  have hopl : old.pl = 0 := by
    have := hor.2.2.1
    rw [hgeo.1] at this
    omega
  have hso : page_status s old = some PG_VALID := hJ.vstat old hob hst
  obtain ⟨_, _, hsb⟩ := page_status_eq_some.mp hso
  rw [hopl, hob] at hsb
  unfold victim_mapped at hV
  have hcan : same_page old
      { ch := old.ch, lun := old.lun, pl := 0, blk := v, pg := old.pg, rsv := 0 } :=
    ⟨rfl, rfl, hopl, hob, rfl⟩
  have hV0 := hV old.ch hor.1 old.lun hor.2.1 old.pg hor.2.2.2.2 hsb
  rw [← pgidx_of_same_page hcan] at hV0
  obtain ⟨_, hl1, hl2⟩ := hV0
  have hlpn : lpn = s.rmap (pgidx_of s.ssd.sp old) := by
    obtain ⟨_, r2⟩ := get_rmap_ent_eq_some.mp e1
    rw [hspt] at r2
    rw [← r2]
    exact hJ.vrmap old hob hor.1 hor.2.1 hor.2.2.1 hor.2.2.2.2
  rw [← hlpn] at hl1 hl2
  have hl3 : same_page (s.maptbl lpn) old := same_page_trans hl2 (same_page_symm hcan)
  -- pages other than the new page keep reverse entry and status
  have hkeep : ∀ q : ppa, page_status t q = some PG_VALID →
      page_status t2 q = some PG_VALID ∧
      t2.rmap (pgidx_of s.ssd.sp q) = t.rmap (pgidx_of s.ssd.sp q) := by
    intro q hq
    have hqr := page_status_in_range hq
    rw [hspt] at hqr
    have hne : ¬ same_page q new := by
      intro hs
      rw [page_status_same_page hs, e5] at hq
      exact absurd hq (by decide)
    refine ⟨by rw [e10, if_neg hne]; exact hq, ?_⟩
    rw [e9, Function.update_noteq]
    exact fun he => hne (pgidx_of_inj hc hqr hnr he)
  have hmoved : ∀ L, lpn_moved v t L → lpn_moved v t2 L := by
    intro L ⟨m1, m2, m3, m4⟩
    by_cases hL : L = lpn
    · subst hL
      refine ⟨?_, ?_, ?_, ?_⟩
      · rw [e8, Function.update_same]
        exact mapped_ppa_of_rsv e4
      · rw [e8, Function.update_same]
        exact hnv
      · rw [e8, Function.update_same, get_rmap_ent_eq_some, e7, e9, Function.update_same]
        exact ⟨e6, rfl⟩
      · rw [e8, Function.update_same, e10, if_pos (same_page_refl new)]
    · have hm : t2.maptbl L = t.maptbl L := by
        rw [e8, Function.update_noteq hL]
      obtain ⟨k1, k2⟩ := hkeep (t.maptbl L) m4
      obtain ⟨r1, r2⟩ := get_rmap_ent_eq_some.mp m3
      rw [hspt] at r1 r2
      refine ⟨by rw [hm]; exact m1, by rw [hm]; exact m2, ?_, by rw [hm]; exact k1⟩
      rw [hm, get_rmap_ent_eq_some, e7, k2]
      exact ⟨r1, r2⟩
  have hnew : lpn_moved v t2 lpn := by
    refine ⟨?_, ?_, ?_, ?_⟩
    · rw [e8, Function.update_same]
      exact mapped_ppa_of_rsv e4
    · rw [e8, Function.update_same]
      exact hnv
    · rw [e8, Function.update_same, get_rmap_ent_eq_some, e7, e9, Function.update_same]
      exact ⟨e6, rfl⟩
    · rw [e8, Function.update_same, e10, if_pos (same_page_refl new)]
  refine ⟨?_, hmoved, ?_, a2⟩
  · refine ⟨a1, ?_, ?_, ?_, ?_, ?_⟩
    · intro p hp hpv
      have hne : ¬ same_page p new := fun hs => hnv (hs.2.2.2.1 ▸ hp)
      rw [e10, if_neg hne] at hpv
      exact hJ.vstat p hp hpv
    · intro p hp r1 r2 r3 r5
      have hne : ¬ same_page p new := fun hs => hnv (hs.2.2.2.1 ▸ hp)
      have hp4 : p.blk < s.ssd.sp.blks_per_pl := by
        rw [hp]
        have := hor.2.2.2.1
        rw [hob] at this
        exact this
      rw [e9, Function.update_noteq
        (fun he => hne (pgidx_of_inj hc ⟨r1, r2, r3, hp4, r5⟩ hnr he))]
      exact hJ.vrmap p hp r1 r2 r3 r5
    · intro L hL hu
      have hne : L ≠ lpn := by
        intro e
        rw [e, hl1] at hu
        exact absurd hu (by decide)
      rw [e8, Function.update_noteq hne]
      exact hJ.unm L hL hu
    · intro L hL hm hb
      have hne : L ≠ lpn := by
        intro e
        apply hb
        rw [e, hl3.2.2.2.1]
        exact hob
      obtain ⟨k1, k2, k3⟩ := hJ.out L hL hm hb
      obtain ⟨q1, q2⟩ := hkeep (s.maptbl L) k3
      obtain ⟨r1, r2⟩ := get_rmap_ent_eq_some.mp k2
      rw [hspt] at r1 r2
      refine ⟨by rw [e8, Function.update_noteq hne]; exact k1, ?_, q1⟩
      rw [get_rmap_ent_eq_some, e7, q2]
      exact ⟨r1, r2⟩
    · intro L hL hm hb
      by_cases hne : L = lpn
      · rw [hne]
        exact Or.inr hnew
      · rcases hJ.inn L hL hm hb with k | k
        · left
          rw [e8, Function.update_noteq hne]
          exact k
        · exact Or.inr (hmoved L k)
  · intro L hL hm hs
    have hL2 : L = lpn := by
      rcases hP L hL with hu | ⟨hr, _⟩
      · rw [hm] at hu
        exact absurd hu (by decide)
      · obtain ⟨_, r2⟩ := get_rmap_ent_eq_some.mp hr
        rw [pgidx_of_same_page hs] at r2
        rw [hlpn, r2]
    rw [hL2]
    exact hnew

/-- `mark_block_free` on a block of the victim line keeps the invariant of the mapping tables
and every moved LPN moved. -/
theorem mark_block_free_map {sp : ssdparams} {s t t2 : conv_ftl} {v nl fp ch lun : Nat}
    (hgeo : gc_geometry sp) (hv : v < sp.blks_per_pl) (hJ : gc_map_inv sp s v nl t)
    (hch : ch < sp.nchs) (hlun : lun < sp.luns_per_ch)
    (h : mark_block_free t (gc_ppa sp v fp ch lun) = some t2) :
    gc_map_inv sp s v nl t2 ∧ (∀ L, lpn_moved v t L → lpn_moved v t2 L) := by
  have hspt : t.ssd.sp = sp := hJ.acct.1
  obtain ⟨a1, _, _⟩ := mark_block_free_acct hgeo hv hJ.acct hch hlun h
  obtain ⟨blk, b2, _, e, hfree, _, _, _⟩ := mark_block_free_spec h
  have hpb : (gc_ppa sp v fp ch lun).blk = v := by
    show v % 65536 = v
    exact Nat.mod_eq_of_lt (by have := hgeo.2.2.2.2; omega)
  have hm : t2.maptbl = t.maptbl := by rw [e]
  have hr : t2.rmap = t.rmap := by rw [e]
  have hsp2 : t2.ssd.sp = t.ssd.sp := by rw [e]; rfl
  have hout : ∀ q : ppa, q.blk ≠ v → page_status t2 q = page_status t q := by
    intro q hq
    unfold page_status get_pg get_blk
    rw [hsp2]
    have : t2.ssd.blk q.ch q.lun q.pl q.blk = t.ssd.blk q.ch q.lun q.pl q.blk := by
      rw [e]
      apply set_blk_other
      rintro ⟨_, _, _, e4⟩
      exact hq (e4.trans hpb)
    rw [this]
  have hrm : ∀ q, get_rmap_ent t2 q = get_rmap_ent t q := by
    intro q
    unfold get_rmap_ent ppa2pgidx
    rw [hsp2, hr]
  have hmoved : ∀ L, lpn_moved v t L → lpn_moved v t2 L := by
    intro L ⟨m1, m2, m3, m4⟩
    refine ⟨by rw [hm]; exact m1, by rw [hm]; exact m2, ?_, ?_⟩
    · rw [hm, hrm]; exact m3
    · rw [hm, hout _ m2]; exact m4
  refine ⟨⟨a1, ?_, ?_, ?_, ?_, ?_⟩, hmoved⟩
  · intro p hp hpv
    apply hJ.vstat p hp
    obtain ⟨r1, r2, r3⟩ := page_status_eq_some.mp hpv
    rw [hsp2] at r1 r2
    rw [page_status_eq_some]
    refine ⟨r1, r2, ?_⟩
    by_cases hk : p.ch = (gc_ppa sp v fp ch lun).ch ∧ p.lun = (gc_ppa sp v fp ch lun).lun ∧
        p.pl = (gc_ppa sp v fp ch lun).pl ∧ p.blk = (gc_ppa sp v fp ch lun).blk
    · exfalso
      have hb : t2.ssd.blk p.ch p.lun p.pl p.blk = b2 := by
        rw [e, hk.1, hk.2.1, hk.2.2.1, hk.2.2.2]
        exact set_blk_same _ _ _
      rw [hb, hfree p.pg r2] at r3
      exact absurd r3 (by decide)
    · have hb : t2.ssd.blk p.ch p.lun p.pl p.blk = t.ssd.blk p.ch p.lun p.pl p.blk := by
        rw [e]
        exact set_blk_other _ _ _ _ _ _ _ hk
      rw [← hb]
      exact r3
  · intro p hp r1 r2 r3 r5
    rw [hr]
    exact hJ.vrmap p hp r1 r2 r3 r5
  · intro L hL hu
    rw [hm]
    exact hJ.unm L hL hu
  · intro L hL hmp hb
    obtain ⟨k1, k2, k3⟩ := hJ.out L hL hmp hb
    exact ⟨by rw [hm]; exact k1, by rw [hrm]; exact k2, by rw [hout _ hb]; exact k3⟩
  · intro L hL hmp hb
    rcases hJ.inn L hL hmp hb with k | k
    · exact Or.inl (by rw [hm]; exact k)
    · exact Or.inr (hmoved L k)

/-! ## The sweep of `do_gc` on the mapping tables -/

/-- An LPN mapped in a map-consistent state is mapped to a VALID page of plane 0 inside the
geometry. -/
theorem mapped_in_range {s : conv_ftl} (hpl : s.ssd.sp.pls_per_lun = 1) (hP : map_consistent s)
    {L : Nat} (hL : L < s.ssd.sp.tt_pgs) (hm : mapped_ppa (s.maptbl L) = true) :
    page_status s (s.maptbl L) = some PG_VALID ∧ (s.maptbl L).pl = 0 ∧
    (s.maptbl L).ch < s.ssd.sp.nchs ∧ (s.maptbl L).lun < s.ssd.sp.luns_per_ch ∧
    (s.maptbl L).pg < s.ssd.sp.pgs_per_blk := by
  rcases hP L hL with hu | ⟨_, hv⟩
  · rw [hm] at hu
    exact absurd hu (by decide)
  · obtain ⟨r1, r2, r3, _, r5⟩ := page_status_in_range hv
    rw [hpl] at r3
    exact ⟨hv, by omega, r1, r2, r5⟩

/-- The copy loop of `clean_one_flashpg` on a block of the victim line that is still as in
`s`: it keeps the invariant of the mapping tables and moves every LPN that `s` maps to one
of the pages it reads. -/
theorem clean_one_flashpg_copy_map {sp : ssdparams} {s : conv_ftl} {v nl : Nat}
    (hc : params_consistent sp) (hgeo : gc_geometry sp) (hsp : s.ssd.sp = sp)
    (hP : map_consistent s) (hV : victim_mapped s v) :
    ∀ (n : Nat) (t : conv_ftl) (p : ppa) (t2 : conv_ftl), gc_map_inv sp s v nl t →
      p.blk = v → p.pl = 0 → p.pg + n ≤ 65536 →
      t.ssd.blk p.ch p.lun 0 v = s.ssd.blk p.ch p.lun 0 v →
      clean_one_flashpg_copy n t p = some t2 →
      gc_map_inv sp s v nl t2 ∧ (∀ L, lpn_moved v t L → lpn_moved v t2 L) ∧
      (∀ c l pl, t2.ssd.blk c l pl v = t.ssd.blk c l pl v) ∧
      ∀ L, L < sp.tt_pgs → mapped_ppa (s.maptbl L) = true → (s.maptbl L).blk = v →
        (s.maptbl L).ch = p.ch → (s.maptbl L).lun = p.lun → p.pg ≤ (s.maptbl L).pg →
        (s.maptbl L).pg < p.pg + n → lpn_moved v t2 L := by
  have hpl : s.ssd.sp.pls_per_lun = 1 := by rw [hsp]; exact hgeo.1
  intro n
  induction n with
  | zero =>
    intro t p t2 hJ _ _ _ _ h
    simp only [clean_one_flashpg_copy, Option.some.injEq] at h
    subst h
    refine ⟨hJ, fun _ hm => hm, fun _ _ _ => rfl, ?_⟩
    intro L _ _ _ _ _ h1 h2
    omega
  | succ n ih =>
    intro t p t2 hJ hb hppl hle hblk h
    have hspt : t.ssd.sp = sp := hJ.acct.1
    unfold clean_one_flashpg_copy at h
    cases hpg : get_pg t.ssd p with
    | none => simp [hpg] at h
    | some pg =>
      simp only [hpg] at h
      obtain ⟨b, hbk, hpv, hpe⟩ := get_pg_eq_some hpg
      obtain ⟨hrange, hbe⟩ := get_blk_eq_some hbk
      obtain ⟨n1, n2, n3, n4, n5⟩ := ppa_next_pg_fields p
      have hle2 : (ppa_next_pg p).pg + n ≤ 65536 := by
        rw [n5]
        by_cases hn : n = 0
        · subst hn
          have := Nat.mod_lt (p.pg + 1) (show 0 < 65536 by decide)
          omega
        · rw [Nat.mod_eq_of_lt (by omega)]
          omega
      have hstt : page_status t p = some pg.status := by
        unfold page_status
        rw [hpg]
        rfl
      have hpst : pg.status = ((t.ssd.blk p.ch p.lun 0 v).pg p.pg).status := by
        rw [hpe, hbe, hppl, hb]
      -- an LPN that `s` maps to the page `p`
      have hat : ∀ L, L < sp.tt_pgs → mapped_ppa (s.maptbl L) = true →
          (s.maptbl L).blk = v → (s.maptbl L).ch = p.ch → (s.maptbl L).lun = p.lun →
          (s.maptbl L).pg = p.pg → same_page (s.maptbl L) p ∧ pg.status = PG_VALID := by
        intro L hL hm q1 q2 q3 q4
        obtain ⟨hv, qpl, _⟩ := mapped_in_range hpl hP (by rw [hsp]; exact hL) hm
        refine ⟨⟨q2, q3, qpl.trans hppl.symm, q1.trans hb.symm, q4⟩, ?_⟩
        obtain ⟨_, _, hs3⟩ := page_status_eq_some.mp hv
        rw [q2, q3, qpl, q1, q4, ← hblk] at hs3
        rw [hpst]
        exact hs3
      -- the pages behind `p`
      have hrest : ∀ (t1 : conv_ftl), (∀ L, lpn_moved v t L → lpn_moved v t1 L) →
          (∀ L, L < sp.tt_pgs → mapped_ppa (s.maptbl L) = true → same_page (s.maptbl L) p →
            lpn_moved v t1 L) →
          (∀ c l pl, t1.ssd.blk c l pl v = t.ssd.blk c l pl v) →
          gc_map_inv sp s v nl t1 →
          clean_one_flashpg_copy n t1 (ppa_next_pg p) = some t2 →
          gc_map_inv sp s v nl t2 ∧ (∀ L, lpn_moved v t L → lpn_moved v t2 L) ∧
          (∀ c l pl, t2.ssd.blk c l pl v = t.ssd.blk c l pl v) ∧
          ∀ L, L < sp.tt_pgs → mapped_ppa (s.maptbl L) = true → (s.maptbl L).blk = v →
            (s.maptbl L).ch = p.ch → (s.maptbl L).lun = p.lun → p.pg ≤ (s.maptbl L).pg →
            (s.maptbl L).pg < p.pg + (n + 1) → lpn_moved v t2 L := by
        intro t1 hm1 hp1 hb1 hJ1 h1
        have hblk1 : t1.ssd.blk (ppa_next_pg p).ch (ppa_next_pg p).lun 0 v =
            s.ssd.blk (ppa_next_pg p).ch (ppa_next_pg p).lun 0 v := by
          rw [n1, n2, hb1, hblk]
        obtain ⟨k1, k2, k3, k4⟩ := ih t1 (ppa_next_pg p) t2 hJ1 (n4.trans hb)
          (n3.trans hppl) hle2 hblk1 h1
        refine ⟨k1, fun L hm => k2 L (hm1 L hm), fun c l pl => (k3 c l pl).trans (hb1 c l pl),
          ?_⟩
        intro L hL hm q1 q2 q3 q4 q5
        by_cases hq : (s.maptbl L).pg = p.pg
        · exact k2 L (hp1 L hL hm (hat L hL hm q1 q2 q3 hq).1)
        · have hn : n ≠ 0 := by omega
          apply k4 L hL hm q1 (q2.trans n1.symm) (q3.trans n2.symm)
          · rw [n5, Nat.mod_eq_of_lt (by omega)]
            omega
          · rw [n5, Nat.mod_eq_of_lt (by omega)]
            omega
      by_cases hv : pg.status = PG_VALID
      · rw [if_pos hv] at h
        cases hg : gc_write_page t p with
        | none => simp [hg] at h
        | some t1 =>
          simp only [hg] at h
          rw [hv] at hstt
          obtain ⟨a1, a2, a3, a4⟩ := gc_write_page_map hc hgeo hsp hP hV hJ hb hstt hg
          exact hrest t1 a2 a3 a4 a1 h
      · rw [if_neg hv] at h
        refine hrest t (fun _ hm => hm) ?_ (fun _ _ _ => rfl) hJ h
        intro L hL hm hs
        exact absurd (hat L hL hm (hs.2.2.2.1.trans hb) hs.1 hs.2.1 hs.2.2.2.2).2 hv

/-- One call of `clean_one_flashpg` on the flash page `fp` of the block of the victim line at
channel `ch`, LUN `lun`, that block being still as in `s`: it keeps the invariant of the
mapping tables and moves every LPN that `s` maps into the flash page. -/
theorem clean_one_flashpg_map {sp : ssdparams} {s t t2 : conv_ftl} {v nl fp ch lun : Nat}
    (hc : params_consistent sp) (hgeo : sweep_geometry sp) (hsp : s.ssd.sp = sp)
    (hP : map_consistent s) (hV : victim_mapped s v) (hv : v < sp.blks_per_pl)
    (hfp : fp < sp.flashpgs_per_blk) (hch : ch < sp.nchs) (hlun : lun < sp.luns_per_ch)
    (hJ : gc_map_inv sp s v nl t)
    (hblk : t.ssd.blk ch lun 0 v = s.ssd.blk ch lun 0 v)
    (h : clean_one_flashpg t (gc_ppa sp v fp ch lun) = some t2) :
    gc_map_inv sp s v nl t2 ∧ (∀ L, lpn_moved v t L → lpn_moved v t2 L) ∧
    (∀ c l pl, t2.ssd.blk c l pl v = t.ssd.blk c l pl v) ∧
    ∀ L, L < sp.tt_pgs → mapped_ppa (s.maptbl L) = true → (s.maptbl L).blk = v →
      (s.maptbl L).ch = ch → (s.maptbl L).lun = lun →
      (s.maptbl L).pg / sp.pgs_per_flashpg = fp → lpn_moved v t2 L := by
  have hgg : gc_geometry sp := hgeo.1.2.1
  have hpl : s.ssd.sp.pls_per_lun = 1 := by rw [hsp]; exact hgg.1
  have hvm : v % 65536 = v := Nat.mod_eq_of_lt (by have := hgg.2.2.2.2; omega)
  have hp := gc_ppa_eq hgeo (b := v) hfp hch hlun
  rw [hvm] at hp
  have hspt : t.ssd.sp = sp := hJ.acct.1
  have hle : fp * sp.pgs_per_flashpg + sp.pgs_per_flashpg ≤ 65536 := by
    have h1 : sp.pgs_per_blk ≤ 65536 := hgeo.1.2.2.2
    have h2 : (fp + 1) * sp.pgs_per_flashpg ≤ sp.flashpgs_per_blk * sp.pgs_per_flashpg :=
      Nat.mul_le_mul_right _ (by omega)
    rw [← hgeo.2, Nat.succ_mul] at h2
    omega
  have hppf : 0 < sp.pgs_per_flashpg := by
    have h1 : 0 < sp.pgs_per_blk := hgeo.1.2.2.1
    rw [hgeo.2] at h1
    rcases Nat.eq_zero_or_pos sp.pgs_per_flashpg with h0 | h0
    · rw [h0, Nat.mul_zero] at h1
      exact absurd h1 (by decide)
    · exact h0
  have hrange : ∀ q : ppa, q.pg / sp.pgs_per_flashpg = fp →
      fp * sp.pgs_per_flashpg ≤ q.pg ∧ q.pg < fp * sp.pgs_per_flashpg + sp.pgs_per_flashpg := by
    intro q hq
    have h1 := Nat.div_mul_le_self q.pg sp.pgs_per_flashpg
    have h2 := Nat.lt_div_mul_add (a := q.pg) hppf
    rw [hq] at h1 h2
    exact ⟨h1, h2⟩
  rw [hp] at h
  unfold clean_one_flashpg at h
  rw [hspt] at h
  cases hcn : clean_one_flashpg_count t sp.pgs_per_flashpg
      { ch := ch, lun := lun, pl := 0, blk := v, pg := fp * sp.pgs_per_flashpg, rsv := 0 }
      0 with
  | none => simp [hcn] at h
  | some cnt =>
    simp only [hcn] at h
    split_ifs at h with h0
    · rw [← Option.some.inj h]
      refine ⟨hJ, fun _ hm => hm, fun _ _ _ => rfl, ?_⟩
      intro L hL hm q1 q2 q3 q4
      exfalso
      have hcnt := clean_one_flashpg_count_eq t _ _ _ _ hle hcn
      rw [Nat.zero_add, h0] at hcnt
      obtain ⟨r1, r2⟩ := hrange _ q4
      have hz := count_upto_eq_zero _ hcnt.symm ((s.maptbl L).pg - fp * sp.pgs_per_flashpg)
        (by omega)
      simp only [decide_eq_false_iff_not] at hz
      apply hz
      have : fp * sp.pgs_per_flashpg + ((s.maptbl L).pg - fp * sp.pgs_per_flashpg) =
          (s.maptbl L).pg := by omega
      rw [this, hblk]
      obtain ⟨hvv, qpl, _⟩ := mapped_in_range hpl hP (by rw [hsp]; exact hL) hm
      obtain ⟨_, _, hs3⟩ := page_status_eq_some.mp hvv
      rw [q2, q3, qpl, q1] at hs3
      exact hs3
    · obtain ⟨k1, k2, k3, k4⟩ := clean_one_flashpg_copy_map hc hgg hsp hP hV _ t _ t2 hJ rfl
        rfl hle hblk h
      refine ⟨k1, k2, k3, ?_⟩
      intro L hL hm q1 q2 q3 q4
      obtain ⟨r1, r2⟩ := hrange _ q4
      exact k4 L hL hm q1 q2 q3 r1 r2

/-- The sweep of `do_gc` over the victim line `v`, started in a map-consistent state `s` of
the sweep invariant of line accounting whose VALID pages of `v` are all mapped: it keeps the
invariant of the mapping tables and moves every LPN mapped into `v`. -/
theorem do_gc_sweep_map {sp : ssdparams} {v nl : Nat} {s s2 : conv_ftl}
    (hc : params_consistent sp) (hgeo : sweep_geometry sp) (hv : v < sp.blks_per_pl)
    (hJ : gc_acct sp v nl s) (hP : map_consistent s) (hV : victim_mapped s v)
    (h : do_gc_sweep v s = some s2) :
    gc_map_inv sp s v nl s2 ∧
    ∀ L, L < sp.tt_pgs → mapped_ppa (s.maptbl L) = true → (s.maptbl L).blk = v →
      lpn_moved v s2 L := by
  have hsp : s.ssd.sp = sp := hJ.1
  have hFP : 0 < sp.flashpgs_per_blk := hgeo.1.2.1.2.1
  have hpl : s.ssd.sp.pls_per_lun = 1 := by rw [hsp]; exact hgeo.1.2.1.1
  have hppf : 0 < sp.pgs_per_flashpg := by
    have h1 : 0 < sp.pgs_per_blk := hgeo.1.2.2.1
    rw [hgeo.2] at h1
    rcases Nat.eq_zero_or_pos sp.pgs_per_flashpg with h0 | h0
    · rw [h0, Nat.mul_zero] at h1
      exact absurd h1 (by decide)
    · exact h0
  have hin : ∀ L, L < sp.tt_pgs → mapped_ppa (s.maptbl L) = true →
      (s.maptbl L).ch < sp.nchs ∧ (s.maptbl L).lun < sp.luns_per_ch ∧
      (s.maptbl L).pg < sp.pgs_per_blk := by
    intro L hL hm
    obtain ⟨_, _, r1, r2, r3⟩ := mapped_in_range hpl hP (by rw [hsp]; exact hL) hm
    rw [hsp] at r1 r2 r3
    exact ⟨r1, r2, r3⟩
  have key := do_gc_sweep_inv sp v
    (fun fp ch lun t => gc_map_inv sp s v nl t ∧
      (∀ c l, c < sp.nchs → l < sp.luns_per_ch →
        (fp + 1 < sp.flashpgs_per_blk ∨
          (fp + 1 = sp.flashpgs_per_blk ∧ ¬(c < ch ∨ (c = ch ∧ l < lun)))) →
        t.ssd.blk c l 0 v = s.ssd.blk c l 0 v) ∧
      (∀ L, L < sp.tt_pgs → mapped_ppa (s.maptbl L) = true → (s.maptbl L).blk = v →
        swept_before sp fp ch lun (s.maptbl L) → lpn_moved v t L))
    (fun _ _ _ t hK => hK.1.acct.1) ?_ ?_ ?_ s s2 ?_ h
  · obtain ⟨k1, _, k3⟩ := key
    refine ⟨k1, ?_⟩
    intro L hL hm hb
    apply k3 L hL hm hb
    left
    obtain ⟨_, _, r3⟩ := hin L hL hm
    rw [hgeo.2] at r3
    exact (Nat.div_lt_iff_lt_mul hppf).mpr r3
  · -- one call of the loop body
    intro fp ch lun t t2 hfp hch hlun hK hb
    obtain ⟨k1, k5, k3⟩ := hK
    have hspt : t.ssd.sp = sp := k1.acct.1
    simp only [do_gc_lun, bind, Option.bind_eq_some] at hb
    obtain ⟨s1, hclean, hb⟩ := hb
    rw [hspt] at hclean hb
    have hsame : t.ssd.blk ch lun 0 v = s.ssd.blk ch lun 0 v := by
      apply k5 ch lun hch hlun
      by_cases hl : fp + 1 < sp.flashpgs_per_blk
      · exact Or.inl hl
      · exact Or.inr ⟨by omega, by omega⟩
    obtain ⟨a1, a2, a3, a4⟩ :=
      clean_one_flashpg_map hc hgeo hsp hP hV hv hfp hch hlun k1 hsame hclean
    have hmoved : ∀ L, L < sp.tt_pgs → mapped_ppa (s.maptbl L) = true →
        (s.maptbl L).blk = v → swept_before sp fp ch (lun + 1) (s.maptbl L) →
        lpn_moved v s1 L := by
      intro L hL hm hbl hsw
      by_cases hold : swept_before sp fp ch lun (s.maptbl L)
      · exact a2 L (k3 L hL hm hbl hold)
      · apply a4 L hL hm hbl
        · rcases hsw with hsw | ⟨hsw1, hsw | ⟨hsw2, hsw3⟩⟩
          · exact absurd (Or.inl hsw) hold
          · exact absurd (Or.inr ⟨hsw1, Or.inl hsw⟩) hold
          · exact hsw2
        · rcases hsw with hsw | ⟨hsw1, hsw | ⟨hsw2, hsw3⟩⟩
          · exact absurd (Or.inl hsw) hold
          · exact absurd (Or.inr ⟨hsw1, Or.inl hsw⟩) hold
          · by_contra hne
            exact hold (Or.inr ⟨hsw1, Or.inr ⟨hsw2, by omega⟩⟩)
        · rcases hsw with hsw | ⟨hsw1, _⟩
          · exact absurd (Or.inl hsw) hold
          · exact hsw1
    split_ifs at hb with hlast
    · obtain ⟨m1, m2⟩ := mark_block_free_map hgeo.1.2.1 hv a1 hch hlun hb
      obtain ⟨blk, b2, hblk, e, _, _, _, _⟩ := mark_block_free_spec hb
      have hp := gc_ppa_eq hgeo (b := v) hfp hch hlun
      rw [Nat.mod_eq_of_lt (show v < 65536 by have := hgeo.1.2.1.2.2.2.2; omega)] at hp
      rw [hp] at e
      refine ⟨m1, ?_, fun L hL hm hbl hsw => m2 L (hmoved L hL hm hbl hsw)⟩
      intro c l hcc hl hcond
      have hne : ¬(c = ch ∧ l = lun ∧ (0 : Nat) = 0 ∧ v = v) := by
        rintro ⟨e1, e2, _, _⟩
        subst e1 e2
        rcases hcond with hcond | ⟨_, hcond⟩
        · omega
        · exact hcond (Or.inr ⟨rfl, by omega⟩)
      rw [e]
      show (set_blk s1.ssd _ b2).blk c l 0 v = _
      rw [set_blk_other _ _ _ _ _ _ _ hne, a3]
      apply k5 c l hcc hl
      rcases hcond with hcond | ⟨h1, hcond⟩
      · exact Or.inl hcond
      · refine Or.inr ⟨h1, ?_⟩
        intro hx
        apply hcond
        rcases hx with hx | ⟨hx1, hx2⟩
        · exact Or.inl hx
        · exact Or.inr ⟨hx1, by omega⟩
    · simp only [pure, Option.some.injEq] at hb
      subst hb
      refine ⟨a1, ?_, hmoved⟩
      intro c l hcc hl hcond
      rw [a3]
      apply k5 c l hcc hl
      exact Or.inl (by omega)
  · -- the end of the loop over the LUNs
    intro fp ch t hK
    obtain ⟨k1, k5, k3⟩ := hK
    refine ⟨k1, ?_, ?_⟩
    · intro c l hcc hl hcond
      apply k5 c l hcc hl
      rcases hcond with hcond | ⟨h1, hcond⟩
      · exact Or.inl hcond
      · refine Or.inr ⟨h1, ?_⟩
        intro hx
        apply hcond
        rcases hx with hx | ⟨hx1, _⟩
        · exact Or.inl (by omega)
        · exact Or.inl (by omega)
    · intro L hL hm hbl hsw
      apply k3 L hL hm hbl
      obtain ⟨_, r2, _⟩ := hin L hL hm
      rcases hsw with hsw | ⟨hsw1, hsw | ⟨_, hsw3⟩⟩
      · exact Or.inl hsw
      · refine Or.inr ⟨hsw1, ?_⟩
        by_cases hcc : (s.maptbl L).ch < ch
        · exact Or.inl hcc
        · exact Or.inr ⟨by omega, r2⟩
      · omega
  · -- the end of the loop over the channels
    intro fp t hK
    obtain ⟨k1, k5, k3⟩ := hK
    refine ⟨k1, ?_, ?_⟩
    · intro c l hcc hl hcond
      apply k5 c l hcc hl
      exact Or.inl (by omega)
    · intro L hL hm hbl hsw
      apply k3 L hL hm hbl
      obtain ⟨r1, _, _⟩ := hin L hL hm
      rcases hsw with hsw | ⟨_, hsw | ⟨_, hsw3⟩⟩
      · by_cases hlt : (s.maptbl L).pg / sp.pgs_per_flashpg < fp
        · exact Or.inl hlt
        · exact Or.inr ⟨by omega, Or.inl r1⟩
      · omega
      · omega
  · -- the start of the sweep
    refine ⟨?_, fun _ _ _ _ _ => rfl, ?_⟩
    · refine ⟨hJ, fun _ _ hs => hs, fun _ _ _ _ _ _ => rfl, fun _ _ hm => hm, ?_,
        fun _ _ _ _ => Or.inl rfl⟩
      intro L hL hm _
      rcases hP L (by rw [hsp]; exact hL) with hu | ⟨hr, hvv⟩
      · rw [hm] at hu
        exact absurd hu (by decide)
      · exact ⟨rfl, hr, hvv⟩
    · intro L _ _ _ hsw
      exfalso
      rcases hsw with hsw | ⟨_, hsw | ⟨_, hsw⟩⟩
      · exact Nat.not_lt_zero _ hsw
      · exact Nat.not_lt_zero _ hsw
      · exact Nat.not_lt_zero _ hsw

/-! ## A complete GC run on the mapping tables -/

/-- A `do_gc` that selects the victim `v` in an accounted state: it returns 0; its sweep
starts from a state of the sweep invariant with the device and the mapping tables of `s`, and
the run ends with the device and the mapping tables the sweep leaves. -/
theorem do_gc_victim_tables {s s2 : conv_ftl} {now r v : Nat} {force : Bool} {rc : Int}
    (hid : line_ids s.lm) (hk : line_hooks s.lm.victim_line_pq) (hP : line_accounting s)
    (hv : v < 65536) (hvf : v ∉ s.lm.free_line_list) (hvg : s.gc_wp.blk % 65536 ≠ v)
    (hsel : (select_victim s now r force).map (fun x => x.2) = some (some v))
    (h : do_gc s now r force = some (s2, rc)) :
    rc = 0 ∧ ∃ sg s5, sg.ssd = s.ssd ∧ sg.maptbl = s.maptbl ∧ sg.rmap = s.rmap ∧
      gc_acct s.ssd.sp v s.lm.tt_lines sg ∧ do_gc_sweep v sg = some s5 ∧
      s2.ssd = s5.ssd ∧ s2.maptbl = s5.maptbl ∧ s2.rmap = s5.rmap := by
  rcases do_gc_eq_some h with ⟨s1, hs1, _, _⟩ | ⟨s1, v2, sg, s5, hs1, eg, hsw, e, erc⟩
  · rw [hs1] at hsel
    simp at hsel
  · rw [hs1] at hsel
    simp only [Option.map_some', Option.some.injEq] at hsel
    subst hsel
    obtain ⟨f1, _, f3⟩ := select_victim_frame hk hs1
    have hl := same_but_pos_fields f3.2.2.2.2.2.2.2 v2
    have hidv : (s1.lm.lines v2).id = v2 := hl.1.trans (hid v2)
    rw [hidv] at hsw e
    obtain ⟨ffree, _, _, _, ftt, _, fh, fl⟩ := f3
    have g1 : sg.ssd = s.ssd := by rw [eg, f1]
    have g2 : sg.lm = s1.lm := by rw [eg]
    have g3 : sg.gc_wp = s.gc_wp := by rw [eg, f1]
    refine ⟨erc, _, s5, ?_, ?_, ?_, ?_, hsw, ?_, ?_, ?_⟩
    · exact g1
    · show sg.maptbl = _
      rw [eg, f1]
    · show sg.rmap = _
      rw [eg, f1]
    · refine ⟨?_, ?_, ?_, ?_, ?_, ?_, ?_, ?_⟩
      · show sg.ssd.sp = s.ssd.sp
        rw [g1]
      · show line_hooks sg.lm.victim_line_pq
        rw [g2]
        exact line_hooks_of_same hk fh
      · intro k
        show (sg.lm.lines k).id = k
        rw [g2, (same_but_pos_fields fl k).1]
        exact hid k
      · show sg.lm.tt_lines = _
        rw [g2]
        exact ftt
      · intro k hk2 _
        have q := same_but_pos_fields fl k
        have a := hP.1 k hk2
        unfold line_acct
        show (sg.lm.lines k).vpc = line_count sg.ssd (sg.lm.lines k).id PG_VALID ∧
          (sg.lm.lines k).ipc = line_count sg.ssd (sg.lm.lines k).id PG_INVALID
        rw [g2, g1, q.1, q.2.1, q.2.2.1]
        exact a
      · exact blks_acct_congr (s := s) g1 hP.2
      · show v2 ∉ sg.lm.free_line_list
        rw [g2, ffree]
        exact hvf
      · show sg.gc_wp.blk % 65536 ≠ v2
        rw [g3]
        exact hvg
    · rw [e]; rfl
    · rw [e]; rfl
    · rw [e]; rfl

/-- Map consistency read on another state with the same device and mapping tables. -/
theorem map_consistent_congr {s t : conv_ftl} (h1 : t.ssd = s.ssd) (h2 : t.maptbl = s.maptbl)
    (h3 : t.rmap = s.rmap) (hP : map_consistent s) : map_consistent t := by
  intro L hL
  rw [h1] at hL
  have := hP L hL
  unfold get_rmap_ent ppa2pgidx page_status at this ⊢
  rw [h1, h2, h3]
  exact this

/-- The second half of the map invariant on the blocks numbered `v`, read on another state
with the same device and mapping tables. -/
theorem victim_mapped_congr {s t : conv_ftl} {v : Nat} (h1 : t.ssd = s.ssd)
    (h2 : t.maptbl = s.maptbl) (h3 : t.rmap = s.rmap) (hV : victim_mapped s v) :
    victim_mapped t v := by
  unfold victim_mapped at hV ⊢
  rw [h1, h2, h3]
  exact hV

/-- A GC run on the victim `v` of a map-consistent, accounted state whose VALID pages of `v`
are all mapped: it returns 0, every mapped LPN stays mapped, an LPN mapped outside `v` keeps
its address, an LPN mapped into `v` is moved to a VALID page outside `v` whose reverse-map
entry is the LPN, and the state is map-consistent again. -/
theorem do_gc_map {s s2 : conv_ftl} {now r v : Nat} {force : Bool} {rc : Int}
    (hc : params_consistent s.ssd.sp) (hgeo : sweep_geometry s.ssd.sp) (hid : line_ids s.lm)
    (hk : line_hooks s.lm.victim_line_pq) (hA : line_accounting s)
    (hP : map_consistent s) (hV : victim_mapped s v)
    (hsel : (select_victim s now r force).map (fun x => x.2) = some (some v))
    (hv : v < s.ssd.sp.blks_per_pl) (hvf : v ∉ s.lm.free_line_list)
    (hvg : s.gc_wp.blk % 65536 ≠ v)
    (h : do_gc s now r force = some (s2, rc)) :
    rc = 0 ∧
    (∀ L, L < s.ssd.sp.tt_pgs → mapped_ppa (s.maptbl L) = true →
      mapped_ppa (s2.maptbl L) = true) ∧
    (∀ L, L < s.ssd.sp.tt_pgs → mapped_ppa (s.maptbl L) = true → (s.maptbl L).blk ≠ v →
      s2.maptbl L = s.maptbl L) ∧
    (∀ L, L < s.ssd.sp.tt_pgs → mapped_ppa (s.maptbl L) = true → (s.maptbl L).blk = v →
      lpn_moved v s2 L) ∧
    map_consistent s2 := by
  have hfit : s.ssd.sp.blks_per_pl ≤ 65536 := hgeo.1.2.1.2.2.2.2
  obtain ⟨hrc, sg, s5, g1, g2, g3, h0, hsw, e1, e2, e3⟩ :=
    do_gc_victim_tables hid hk hA (by omega) hvf hvg hsel h
  have hPg := map_consistent_congr g1 g2 g3 hP
  have hVg := victim_mapped_congr g1 g2 g3 hV
  obtain ⟨hJ, hmv⟩ := do_gc_sweep_map hc hgeo hv h0 hPg hVg hsw
  rw [g2] at hmv
  have hsp5 : s5.ssd.sp = s.ssd.sp := hJ.acct.1
  have hmoved : ∀ L, lpn_moved v s5 L → lpn_moved v s2 L := by
    intro L hm
    unfold lpn_moved get_rmap_ent ppa2pgidx page_status at hm ⊢
    rw [e1, e2, e3]
    exact hm
  have hout : ∀ L, L < s.ssd.sp.tt_pgs → mapped_ppa (s.maptbl L) = true →
      (s.maptbl L).blk ≠ v → lpn_kept s s2 L := by
    intro L hL hm hb
    have := hJ.out L hL (by rw [g2]; exact hm) (by rw [g2]; exact hb)
    unfold lpn_kept get_rmap_ent ppa2pgidx page_status at this ⊢
    rw [e1, e2, e3]
    rw [g2] at this
    exact this
  refine ⟨hrc, ?_, fun L hL hm hb => (hout L hL hm hb).1, fun L hL hm hb =>
    hmoved L (hmv L hL hm hb), ?_⟩
  · intro L hL hm
    by_cases hb : (s.maptbl L).blk = v
    · exact (hmoved L (hmv L hL hm hb)).1
    · rw [(hout L hL hm hb).1]
      exact hm
  · intro L hL
    rw [e1, hsp5] at hL
    cases hm : mapped_ppa (s.maptbl L) with
    | false =>
      left
      rw [e2]
      exact hJ.unm L hL (by rw [g2]; exact hm)
    | true =>
      right
      by_cases hb : (s.maptbl L).blk = v
      · have := hmoved L (hmv L hL hm hb)
        exact ⟨this.2.2.1, this.2.2.2⟩
      · obtain ⟨k1, k2, k3⟩ := hout L hL hm hb
        rw [k1]
        exact ⟨k2, k3⟩

/-! ## C19: free-line exhaustion -/

/-- `advance_write_pointer` from the last position of a line does not return when the close
of the line leaves a manager without a free line: `get_next_free_line` returns `NULL`, which
is dereferenced. -/
theorem advance_write_pointer_null {s : conv_ftl} {io : Nat} {w : write_pointer}
    {lm1 : line_mgmt} (hw : __get_wp s io = some w)
    (hone : (w.pg + 1) % s.ssd.sp.pgs_per_oneshotpg = 0)
    (hpg : w.pg + 1 = s.ssd.sp.pgs_per_blk) (hch : w.ch + 1 = s.ssd.sp.nchs)
    (hlun : w.lun + 1 = s.ssd.sp.luns_per_ch)
    (hclose : advance_write_pointer_close s.ssd.sp s.lm w.curline = some lm1)
    (hfree : lm1.free_line_list = []) :
    advance_write_pointer s io = none := by
  cases hres : advance_write_pointer s io with
  | none => rfl
  | some s1 =>
    exfalso
    simp only [advance_write_pointer, hw, bind, Option.bind_eq_some, NVMEV_ASSERT_eq_some,
      check_addr_eq_some, pure, exists_const, Option.some.injEq, exists_eq_left'] at hres
    obtain ⟨_a1, a2, h⟩ := hres
    have hP : 0 < s.ssd.sp.pgs_per_oneshotpg := Nat.pos_of_ne_zero a2
    have hle : s.ssd.sp.pgs_per_oneshotpg ≤ w.pg + 1 :=
      Nat.le_of_dvd (by omega) (Nat.dvd_of_mod_eq_zero hone)
    rw [if_neg (by simpa using hone)] at h
    simp only [Option.bind_eq_some, check_addr_eq_some, exists_const] at h
    obtain ⟨_, h⟩ := h
    rw [if_neg (by simpa using hch)] at h
    simp only [Option.bind_eq_some, check_addr_eq_some, exists_const] at h
    obtain ⟨_, h⟩ := h
    rw [if_neg (by simpa using hlun)] at h
    rw [if_neg (by simp only [ne_eq, not_not]; omega)] at h
    simp only [advance_write_pointer_newline, bind, Option.bind_eq_some, NVMEV_ASSERT_eq_some,
      check_addr_eq_some, pure, exists_const] at h
    obtain ⟨lm2, hlm2, _hb, h⟩ := h
    rw [hclose] at hlm2
    have e : lm2 = lm1 := (Option.some.inj hlm2).symm
    subst e
    have hg : get_next_free_line lm2 = (lm2, none) := by
      unfold get_next_free_line
      rw [hfree]
    rw [hg] at h
    simp at h

/-- C19: free-line exhaustion. In every state whose free-line list is empty and whose cursor
(of either kind) has just consumed the last page of its open line (the cursor stands on the
last page of the block on the last channel and LUN, no page of the line is FREE and the
counters of the line are those of its pages), every step of `advance_write_pointer` before
`get_next_free_line` succeeds: the four address checks pass (`check_addr` on `pg`, `ch`,
`lun` and `blk`) and the open line is closed, into the full-line list or the victim heap,
with the manager `lm1` as result. `get_next_free_line` on `lm1` then returns `NULL` and leaves
`lm1` as it is, and `advance_write_pointer` does not return: the `NULL` is dereferenced
(`wpp->curline->id`), no current line is bound and no state results. -/
theorem advance_write_pointer_out_of_space (s : conv_ftl) (io : Nat) (w : write_pointer)
    (hw : __get_wp s io = some w) (hgeo : ftl_geometry s.ssd.sp)
    (hch : w.ch + 1 = s.ssd.sp.nchs) (hlun : w.lun + 1 = s.ssd.sp.luns_per_ch)
    (hpg : w.pg + 1 = s.ssd.sp.pgs_per_blk) (hblk : w.blk < s.ssd.sp.blks_per_pl)
    (hhooks : greedy_hooks s.lm.victim_line_pq ∨ dummy_hooks s.lm.victim_line_pq)
    (hh : pq_handles s.lm) (hs : 1 ≤ s.lm.victim_line_pq.size)
    (hacct : line_acct s w.curline)
    (hwritten : ∀ c, c < s.ssd.sp.nchs → ∀ l, l < s.ssd.sp.luns_per_ch →
      ∀ g, g < s.ssd.sp.pgs_per_blk →
        ((s.ssd.blk c l 0 (s.lm.lines w.curline).id).pg g).status ≠ PG_FREE)
    (hfree : s.lm.free_line_list = []) :
    check_addr w.pg s.ssd.sp.pgs_per_blk = some () ∧
    check_addr w.ch s.ssd.sp.nchs = some () ∧
    check_addr w.lun s.ssd.sp.luns_per_ch = some () ∧
    ∃ lm1, advance_write_pointer_close s.ssd.sp s.lm w.curline = some lm1 ∧
      ((s.lm.lines w.curline).vpc = s.ssd.sp.pgs_per_line →
        lm1.full_line_list = s.lm.full_line_list ++ [w.curline]) ∧
      ((s.lm.lines w.curline).vpc ≠ s.ssd.sp.pgs_per_line → pq_member lm1 w.curline) ∧
      check_addr w.blk s.ssd.sp.blks_per_pl = some () ∧
      get_next_free_line lm1 = (lm1, none) ∧
      advance_write_pointer s io = none := by
  have hk := hooks_line_hooks hhooks
  have hline := ftl_geometry_line hgeo
  obtain ⟨⟨hone0, _, _, hblkeq, _⟩, ⟨hpl1, _⟩, _⟩ := hgeo
  have hone : (w.pg + 1) % s.ssd.sp.pgs_per_oneshotpg = 0 := by
    rw [hpg, hblkeq]
    exact Nat.mul_mod_right _ _
  have hsum : (s.lm.lines w.curline).vpc + (s.lm.lines w.curline).ipc =
      s.ssd.sp.pgs_per_line := by
    rw [hacct.1, hacct.2, hline]
    apply line_count_written
    intro c l pl g hc hl hp hg
    have : pl = 0 := by omega
    subst this
    exact hwritten c hc l hl g hg
  have hnull : ∀ lm1 : line_mgmt, lm1.free_line_list = [] →
      get_next_free_line lm1 = (lm1, none) := by
    intro lm1 h1
    unfold get_next_free_line
    rw [h1]
  have hcb := (check_addr_eq_some ()).mpr hblk
  refine ⟨(check_addr_eq_some ()).mpr (by omega), (check_addr_eq_some ()).mpr (by omega),
    (check_addr_eq_some ()).mpr (by omega), ?_⟩
  by_cases hvpc : (s.lm.lines w.curline).vpc = s.ssd.sp.pgs_per_line
  · have hipc : (s.lm.lines w.curline).ipc = 0 := by omega
    have hc : advance_write_pointer_close s.ssd.sp s.lm w.curline =
        some { s.lm with full_line_list := s.lm.full_line_list ++ [w.curline],
                         full_line_cnt := s.lm.full_line_cnt + 1 } := by
      unfold advance_write_pointer_close
      rw [if_pos hvpc]
      simp only [bind, Option.bind, NVMEV_ASSERT, if_pos hipc, pure]
    exact ⟨_, hc, fun _ => rfl, fun hne => absurd hvpc hne, hcb, hnull _ hfree,
      advance_write_pointer_null hw hone hpg hch hlun hc hfree⟩
  · have hlt : (s.lm.lines w.curline).vpc < s.ssd.sp.pgs_per_line := by omega
    have hipc : 0 < (s.lm.lines w.curline).ipc := by omega
    obtain ⟨lm1, hc, c1, _, _, _, _, c6, _, _⟩ :=
      advance_write_pointer_close_victim hk hh hs hlt hipc
    exact ⟨lm1, hc, fun he => absurd he hvpc, fun _ => (c6 w.curline).2 (Or.inr rfl), hcb,
      hnull lm1 (c1.trans hfree),
      advance_write_pointer_null hw hone hpg hch hlun hc (c1.trans hfree)⟩

/-- C19, witness: `out_of_space_state` has no free line and its user cursor is on the second,
last page of line 0, whose first page is INVALID and whose second page was just written; the
line is closed into the victim heap before `NULL` is met. -/
theorem advance_write_pointer_out_of_space_witness :
    out_of_space_state.lm.free_line_list = [] ∧
    out_of_space_state.wp = { curline := 0, ch := 0, lun := 0, pg := 1, blk := 0, pl := 0 } ∧
    ((out_of_space_state.ssd.blk 0 0 0 0).pg 0).status = PG_INVALID ∧
    ((out_of_space_state.ssd.blk 0 0 0 0).pg 1).status = PG_VALID ∧
    (out_of_space_state.lm.lines 0).vpc = 1 ∧ (out_of_space_state.lm.lines 0).ipc = 1 ∧
    ∃ lm1, advance_write_pointer_close out_of_space_state.ssd.sp out_of_space_state.lm 0 =
        some lm1 ∧ pq_member lm1 0 ∧
      get_next_free_line lm1 = (lm1, none) ∧
      advance_write_pointer out_of_space_state USER_IO = none := by
  have hsz : out_of_space_state.lm.victim_line_pq.size = 1 := by decide
  obtain ⟨_, _, _, lm1, h1, _, h3, _, h4, h5⟩ :=
    advance_write_pointer_out_of_space out_of_space_state USER_IO
      { curline := 0, ch := 0, lun := 0, pg := 1, blk := 0, pl := 0 }
      (by decide) (by decide) (by decide) (by decide) (by decide) (by decide)
      (Or.inl ⟨⟨rfl, rfl, rfl⟩, rfl, rfl⟩)
      (by
        intro i i1 i2
        rw [hsz] at i2
        omega)
      (by decide) (by unfold line_acct; decide) (by decide) (by decide)
  exact ⟨by decide, by decide, by decide, by decide, by decide, by decide, lm1, h1,
    h3 (by decide), h4, h5⟩

/-! ## The map invariant under the steps of a GC run -/

/-- The map invariant on `A` is the map invariant on every set `A2` with the same VALID
pages. -/
theorem map_inv_on_mono {sp : ssdparams} {A A2 : ppa → Prop} {t : conv_ftl}
    (hI : map_inv_on sp A t) (h1 : ∀ q, page_status t q = some PG_VALID → A2 q → A q)
    (h2 : ∀ q, page_status t q = some PG_VALID → A q → A2 q) : map_inv_on sp A2 t :=
  ⟨fun L hL => (hI.fwd L hL).imp id (fun h => ⟨h.1, h.2.1, h2 _ h.2.1 h.2.2⟩),
    fun q hq ha => hI.rev q hq (h1 q hq ha)⟩

/-- The map invariant read on another state with the same device and mapping tables. -/
theorem map_inv_on_congr {sp : ssdparams} {A : ppa → Prop} {s t : conv_ftl}
    (h1 : t.ssd = s.ssd) (h2 : t.maptbl = s.maptbl) (h3 : t.rmap = s.rmap)
    (hI : map_inv_on sp A s) : map_inv_on sp A t := by
  obtain ⟨hf, hr⟩ := hI
  constructor
  · intro L hL
    have := hf L hL
    unfold get_rmap_ent ppa2pgidx page_status at this ⊢
    rw [h1, h2, h3]
    exact this
  · intro q hq ha
    have hq2 : page_status s q = some PG_VALID := by
      unfold page_status at hq ⊢
      rw [← h1]
      exact hq
    rw [h2, h3]
    exact hr q hq2 ha

/-- `gc_write_page` on a VALID page `old` of `A`, with the page of the GC cursor in `A`, keeps
the map invariant on the pages of `A` other than `old`. -/
theorem gc_write_page_map_inv {sp : ssdparams} {A : ppa → Prop} {t t2 : conv_ftl} {old : ppa}
    (hc : params_consistent sp) (hsp : t.ssd.sp = sp) (hI : map_inv_on sp A t)
    (hst : page_status t old = some PG_VALID) (hAo : A old)
    (hAn : ∀ n, get_new_page t GC_IO = some n → A n)
    (h : gc_write_page t old = some t2) :
    map_inv_on sp (fun q => A q ∧ ¬ same_page q old) t2 := by
  subst hsp
  obtain ⟨lpn, new, e1, e2, _, e4, e5, e6, e7, e8, e9, e10, e11⟩ := gc_write_page_effect h
  have hnr := page_status_in_range e5
  have hor := page_status_in_range hst
  obtain ⟨_, ho2⟩ := get_rmap_ent_eq_some.mp e1
  obtain ⟨_, _, hro⟩ := hI.rev old hst hAo
  rw [ho2] at hro
  have hnew_old : ¬ same_page new old := by
    intro hs
    rw [page_status_same_page hs, hst] at e5
    exact absurd e5 (by decide)
  constructor
  · intro L hL
    by_cases hLl : L = lpn
    · subst hLl
      right
      rw [e8, Function.update_same]
      refine ⟨?_, ?_, hAn new e11, hnew_old⟩
      · rw [get_rmap_ent_eq_some, e7, e9, Function.update_same]
        exact ⟨e6, rfl⟩
      · rw [e10 new, if_pos (same_page_refl new)]
    · rw [e8, Function.update_noteq hLl]
      rcases hI.fwd L hL with hu | ⟨hr, hv, ha⟩
      · exact Or.inl hu
      · right
        obtain ⟨hr1, hr2⟩ := get_rmap_ent_eq_some.mp hr
        have hqr := page_status_in_range hv
        have hnp : ¬ same_page (t.maptbl L) new := by
          intro hs
          rw [page_status_same_page hs, e5] at hv
          exact absurd hv (by decide)
        have hip : pgidx_of t.ssd.sp (t.maptbl L) ≠ pgidx_of t.ssd.sp new :=
          fun he => hnp (pgidx_of_inj hc hqr hnr he)
        refine ⟨?_, ?_, ha, ?_⟩
        · rw [get_rmap_ent_eq_some, e7, e9, Function.update_noteq hip]
          exact ⟨hr1, hr2⟩
        · rw [e10, if_neg hnp]
          exact hv
        · intro hs
          rw [pgidx_of_same_page hs, ho2] at hr2
          exact hLl hr2.symm
  · rintro q hq ⟨ha, hno⟩
    rw [e10] at hq
    by_cases hs : same_page q new
    · rw [e9, pgidx_of_same_page hs, Function.update_same, e8, Function.update_same]
      exact ⟨e2, mapped_ppa_of_rsv e4, same_page_symm hs⟩
    · rw [if_neg hs] at hq
      obtain ⟨r1, r2, r3⟩ := hI.rev q hq ha
      have hqr := page_status_in_range hq
      have hip : pgidx_of t.ssd.sp q ≠ pgidx_of t.ssd.sp new :=
        fun he => hs (pgidx_of_inj hc hqr hnr he)
      have hne : t.rmap (pgidx_of t.ssd.sp q) ≠ lpn := by
        intro he
        rw [he] at r3
        exact hno (same_page_trans (same_page_symm r3) hro)
      rw [e9, Function.update_noteq hip, e8, Function.update_noteq hne]
      exact ⟨r1, r2, r3⟩

/-- `mark_block_free` on a block without a VALID page of `A` keeps the map invariant on
`A`. -/
theorem mark_block_free_map_inv {sp : ssdparams} {A : ppa → Prop} {t t2 : conv_ftl} {p0 : ppa}
    (hI : map_inv_on sp A t)
    (hno : ∀ q, page_status t q = some PG_VALID → A q →
      ¬(q.ch = p0.ch ∧ q.lun = p0.lun ∧ q.pl = p0.pl ∧ q.blk = p0.blk))
    (h : mark_block_free t p0 = some t2) : map_inv_on sp A t2 := by
  obtain ⟨blk, b2, _, e, hfree, _, _, _⟩ := mark_block_free_spec h
  have hm : t2.maptbl = t.maptbl := by rw [e]
  have hr : t2.rmap = t.rmap := by rw [e]
  have hsp2 : t2.ssd.sp = t.ssd.sp := by rw [e]; rfl
  have hout : ∀ q : ppa, ¬(q.ch = p0.ch ∧ q.lun = p0.lun ∧ q.pl = p0.pl ∧ q.blk = p0.blk) →
      page_status t2 q = page_status t q := by
    intro q hq
    unfold page_status get_pg get_blk
    rw [hsp2]
    have : t2.ssd.blk q.ch q.lun q.pl q.blk = t.ssd.blk q.ch q.lun q.pl q.blk := by
      rw [e]
      exact set_blk_other _ _ _ _ _ _ _ hq
    rw [this]
  have hin : ∀ q : ppa, page_status t2 q = some PG_VALID →
      ¬(q.ch = p0.ch ∧ q.lun = p0.lun ∧ q.pl = p0.pl ∧ q.blk = p0.blk) := by
    rintro q hq ⟨q1, q2, q3, q4⟩
    obtain ⟨_, hpg, hs⟩ := page_status_eq_some.mp hq
    rw [hsp2] at hpg
    have : t2.ssd.blk q.ch q.lun q.pl q.blk = b2 := by
      rw [e, q1, q2, q3, q4]
      exact set_blk_same _ _ _
    rw [this, hfree q.pg hpg] at hs
    exact absurd hs (by decide)
  have hrm : ∀ q, get_rmap_ent t2 q = get_rmap_ent t q := by
    intro q
    unfold get_rmap_ent ppa2pgidx
    rw [hsp2, hr]
  constructor
  · intro L hL
    rw [hm]
    rcases hI.fwd L hL with hu | ⟨h1, h2, h3⟩
    · exact Or.inl hu
    · right
      refine ⟨by rw [hrm]; exact h1, ?_, h3⟩
      rw [hout _ (hno _ h2 h3)]
      exact h2
  · intro q hq ha
    have hq2 : page_status t q = some PG_VALID := by
      rw [← hout q (hin q hq)]
      exact hq
    rw [hm, hr]
    exact hI.rev q hq2 ha

/-! ## The map invariant along the sweep of `do_gc` -/

/-- A page index inside the flash page `fp`. -/
theorem flashpg_of_range {n g fp : Nat} (h1 : fp * n ≤ g) (h2 : g < fp * n + n) :
    g / n = fp :=
  Nat.div_eq_of_lt_le h1 (by rw [Nat.succ_mul]; exact h2)

/-- The page indices of the flash page `fp`. -/
theorem flashpg_range {n g : Nat} (hn : 0 < n) : g / n * n ≤ g ∧ g < g / n * n + n :=
  ⟨Nat.div_mul_le_self g n, Nat.lt_div_mul_add hn⟩

/-- Before the copy loop of a flash page the pages alive are those the sweep has not
passed. -/
theorem alive_start {sp : ssdparams} {v fp ch lun g0 : Nat} (q : ppa) :
    alive sp v fp ch lun g0 g0 q ↔ alive sp v fp ch lun 0 0 q := by
  unfold alive
  constructor
  · intro h hb
    exact ⟨(h hb).1, fun hx => absurd hx.2.2.2 (Nat.not_lt_zero _)⟩
  · intro h hb
    exact ⟨(h hb).1, fun hx => by omega⟩

/-- After the copy loop of the flash page `fp` at `(ch, lun)` the pages alive are those the
sweep has not passed at the next LUN. -/
theorem alive_end {sp : ssdparams} {v fp ch lun : Nat} (hn : 0 < sp.pgs_per_flashpg)
    (q : ppa) :
    alive sp v fp ch lun (fp * sp.pgs_per_flashpg)
      (fp * sp.pgs_per_flashpg + sp.pgs_per_flashpg) q ↔
    alive sp v fp ch (lun + 1) 0 0 q := by
  unfold alive swept_before
  have hr := @flashpg_range sp.pgs_per_flashpg q.pg hn
  constructor
  · intro h hb
    obtain ⟨a, b⟩ := h hb
    refine ⟨?_, fun hx => absurd hx.2.2.2 (Nat.not_lt_zero _)⟩
    rintro (hs | ⟨hs1, hs | ⟨hs2, hs3⟩⟩)
    · exact a (Or.inl hs)
    · exact a (Or.inr ⟨hs1, Or.inl hs⟩)
    · by_cases hl : q.lun < lun
      · exact a (Or.inr ⟨hs1, Or.inr ⟨hs2, hl⟩⟩)
      · rw [hs1] at hr
        exact b ⟨hs2, by omega, hr.1, hr.2⟩
  · intro h hb
    obtain ⟨a, _⟩ := h hb
    refine ⟨?_, ?_⟩
    · rintro (hs | ⟨hs1, hs | ⟨hs2, hs3⟩⟩)
      · exact a (Or.inl hs)
      · exact a (Or.inr ⟨hs1, Or.inl hs⟩)
      · exact a (Or.inr ⟨hs1, Or.inr ⟨hs2, by omega⟩⟩)
    · rintro ⟨x1, x2, x3, x4⟩
      exact a (Or.inr ⟨flashpg_of_range x3 x4, Or.inr ⟨x1, by omega⟩⟩)

/-- The copy loop of `clean_one_flashpg` inside the sweep of `do_gc`, from the page `p` of the
flash page `fp` of the block at `(ch, lun)`: it keeps the invariant inside the loop body of
the sweep, and the map invariant on the pages alive moves with the loop. -/
theorem clean_one_flashpg_copy_map_inv {sp : ssdparams} {v fp ch lun : Nat}
    (hc : params_consistent sp) (hgeo : sweep_geometry sp)
    (hle : fp * sp.pgs_per_flashpg + sp.pgs_per_flashpg ≤ 65536) :
    ∀ (n : Nat) (t : conv_ftl) (p : ppa) (t2 : conv_ftl),
      p.ch = ch → p.lun = lun → p.pl = 0 → p.blk = v →
      fp * sp.pgs_per_flashpg ≤ p.pg →
      p.pg + n ≤ fp * sp.pgs_per_flashpg + sp.pgs_per_flashpg →
      sweep_mid sp v fp ch lun t →
      map_inv_on sp (alive sp v fp ch lun (fp * sp.pgs_per_flashpg) p.pg) t →
      clean_one_flashpg_copy n t p = some t2 →
      sweep_mid sp v fp ch lun t2 ∧
      map_inv_on sp (alive sp v fp ch lun (fp * sp.pgs_per_flashpg) (p.pg + n)) t2 := by
  have hppf := flashpg_pos hgeo
  have hpl1 : sp.pls_per_lun = 1 := hgeo.1.2.1.1
  intro n
  induction n with
  | zero =>
    intro t p t2 _ _ _ _ _ _ hJ hI h
    simp only [clean_one_flashpg_copy, Option.some.injEq] at h
    subst h
    exact ⟨hJ, hI⟩
  | succ n ih =>
    intro t p t2 hpc hpu hpp hpb hlo hhi hJ hI h
    have hsp : t.ssd.sp = sp := hJ.1.sp_eq
    unfold clean_one_flashpg_copy at h
    cases hpg : get_pg t.ssd p with
    | none => simp [hpg] at h
    | some pg =>
      simp only [hpg] at h
      obtain ⟨_, _, _, _, n5⟩ := ppa_next_pg_fields p
      obtain ⟨n1, n2, n3, n4, _⟩ := ppa_next_pg_fields p
      have hstt : page_status t p = some pg.status := by
        unfold page_status
        rw [hpg]
        rfl
      -- the pages alive once the loop has passed `p`
      have hdown : ∀ q, alive sp v fp ch lun (fp * sp.pgs_per_flashpg) (p.pg + 1) q →
          alive sp v fp ch lun (fp * sp.pgs_per_flashpg) p.pg q ∧ ¬ same_page q p := by
        intro q hq
        refine ⟨fun hb => ⟨(hq hb).1, fun hx => (hq hb).2 ⟨hx.1, hx.2.1, hx.2.2.1, by omega⟩⟩,
          ?_⟩
        intro hs
        have hb : q.blk = v := hs.2.2.2.1.trans hpb
        refine (hq hb).2 ⟨hs.1.trans hpc, hs.2.1.trans hpu, ?_, ?_⟩
        · rw [hs.2.2.2.2]
          exact hlo
        · rw [hs.2.2.2.2]
          omega
      have hup : ∀ (u : conv_ftl) (q : ppa), u.ssd.sp = sp →
          page_status u q = some PG_VALID →
          alive sp v fp ch lun (fp * sp.pgs_per_flashpg) p.pg q → ¬ same_page q p →
          alive sp v fp ch lun (fp * sp.pgs_per_flashpg) (p.pg + 1) q := by
        intro u q hu hq ha hns hb
        refine ⟨(ha hb).1, ?_⟩
        rintro ⟨x1, x2, x3, x4⟩
        by_cases hlt : q.pg < p.pg
        · exact (ha hb).2 ⟨x1, x2, x3, hlt⟩
        · have hr := page_status_in_range hq
          rw [hu, hpl1] at hr
          exact hns ⟨x1.trans hpc.symm, x2.trans hpu.symm, by omega, hb.trans hpb.symm,
            by omega⟩
      -- the pages behind `p`
      have hrest : ∀ (t1 : conv_ftl), sweep_mid sp v fp ch lun t1 →
          map_inv_on sp (alive sp v fp ch lun (fp * sp.pgs_per_flashpg) (p.pg + 1)) t1 →
          clean_one_flashpg_copy n t1 (ppa_next_pg p) = some t2 →
          sweep_mid sp v fp ch lun t2 ∧
          map_inv_on sp (alive sp v fp ch lun (fp * sp.pgs_per_flashpg) (p.pg + (n + 1)))
            t2 := by
        intro t1 hJ1 hI1 h1
        by_cases hn : n = 0
        · subst hn
          simp only [clean_one_flashpg_copy, Option.some.injEq] at h1
          subst h1
          exact ⟨hJ1, hI1⟩
        · have hnpg : (ppa_next_pg p).pg = p.pg + 1 := by
            rw [n5]
            exact Nat.mod_eq_of_lt (by omega)
          have hI2 : map_inv_on sp
              (alive sp v fp ch lun (fp * sp.pgs_per_flashpg) (ppa_next_pg p).pg) t1 := by
            rw [hnpg]
            exact hI1
          obtain ⟨k1, k2⟩ := ih t1 (ppa_next_pg p) t2 (n1.trans hpc) (n2.trans hpu)
            (n3.trans hpp) (n4.trans hpb) (by rw [hnpg]; omega) (by rw [hnpg]; omega) hJ1 hI2 h1
          rw [hnpg, Nat.add_assoc, Nat.add_comm 1 n] at k2
          exact ⟨k1, k2⟩
      by_cases hv : pg.status = PG_VALID
      · rw [if_pos hv] at h
        cases hg : gc_write_page t p with
        | none => simp [hg] at h
        | some t1 =>
          simp only [hg] at h
          rw [hv] at hstt
          have hJ1 := sweep_mid_gc_write_page hgeo hJ hg
          have hAo : alive sp v fp ch lun (fp * sp.pgs_per_flashpg) p.pg p := by
            intro _
            have hd : p.pg / sp.pgs_per_flashpg = fp := flashpg_of_range hlo (by omega)
            refine ⟨?_, fun hx => by omega⟩
            unfold swept_before
            omega
          have hAn : ∀ x, get_new_page t GC_IO = some x →
              alive sp v fp ch lun (fp * sp.pgs_per_flashpg) p.pg x := by
            intro x hx
            have hxe := wf_cursor_page hgeo.1 hJ.1 (get_wp_gc t) hx
            subst hxe
            intro hb
            obtain ⟨_, _, _, k, hk, hkw, _⟩ := hJ.1.this_open
            have hnr := hJ.2.2.2.1 hb k k hk hkw (le_refl _) hk
            rw [hkw] at hnr
            unfold not_read at hnr
            unfold swept_before
            have hr := @flashpg_range sp.pgs_per_flashpg t.gc_wp.pg hppf
            refine ⟨by simp only; omega, ?_⟩
            rintro ⟨x1, x2, x3, x4⟩
            simp only at x1 x2 x3 x4
            rcases hnr with hnr | ⟨_, hnr⟩
            · have : (fp + 1) * sp.pgs_per_flashpg ≤
                  t.gc_wp.pg / sp.pgs_per_flashpg * sp.pgs_per_flashpg :=
                Nat.mul_le_mul_right _ hnr
              rw [Nat.succ_mul] at this
              omega
            · omega
          have hI1 := gc_write_page_map_inv hc hsp hI hstt hAo hAn hg
          exact hrest t1 hJ1 (map_inv_on_mono hI1 (fun q _ hq => hdown q hq)
            (fun q hq ha => hup t1 q hJ1.1.sp_eq hq ha.1 ha.2)) h
      · rw [if_neg hv] at h
        refine hrest t hJ (map_inv_on_mono hI (fun q _ hq => (hdown q hq).1) ?_) h
        intro q hq ha
        apply hup t q hsp hq ha
        intro hs
        rw [page_status_same_page hs, hstt] at hq
        exact hv (Option.some.inj hq)

/-- One call of `clean_one_flashpg` inside the sweep of `do_gc`, on the flash page `fp` of the
block of the line `v` at `(ch, lun)`: the map invariant on the pages the sweep has not passed
is kept. -/
theorem clean_one_flashpg_map_inv {sp : ssdparams} {v fp ch lun : Nat} {t t2 : conv_ftl}
    (hc : params_consistent sp) (hgeo : sweep_geometry sp)
    (hle : fp * sp.pgs_per_flashpg + sp.pgs_per_flashpg ≤ 65536)
    (hJ : sweep_mid sp v fp ch lun t)
    (hI : map_inv_on sp (alive sp v fp ch lun 0 0) t)
    (h : clean_one_flashpg t
      { ch := ch, lun := lun, pl := 0, blk := v, pg := fp * sp.pgs_per_flashpg, rsv := 0 } =
        some t2) :
    sweep_mid sp v fp ch lun t2 ∧ map_inv_on sp (alive sp v fp ch (lun + 1) 0 0) t2 := by
  have hppf := flashpg_pos hgeo
  have hpl1 : sp.pls_per_lun = 1 := hgeo.1.2.1.1
  have hsp : t.ssd.sp = sp := hJ.1.sp_eq
  have hI0 : map_inv_on sp (alive sp v fp ch lun (fp * sp.pgs_per_flashpg)
      (fp * sp.pgs_per_flashpg)) t :=
    map_inv_on_mono hI (fun q _ hq => (alive_start q).mp hq)
      (fun q _ hq => (alive_start q).mpr hq)
  unfold clean_one_flashpg at h
  rw [hsp] at h
  cases hcn : clean_one_flashpg_count t sp.pgs_per_flashpg
      { ch := ch, lun := lun, pl := 0, blk := v, pg := fp * sp.pgs_per_flashpg, rsv := 0 }
      0 with
  | none => simp [hcn] at h
  | some cnt =>
    simp only [hcn] at h
    split_ifs at h with h0
    · rw [← Option.some.inj h]
      refine ⟨hJ, map_inv_on_mono hI0 (fun q _ hq hb => ?_) (fun q hq ha => ?_)⟩
      · have := (@alive_end sp v fp ch lun hppf q).mpr hq hb
        exact ⟨this.1, fun hx => by omega⟩
      · apply (alive_end hppf q).mp
        intro hb
        refine ⟨(ha hb).1, ?_⟩
        rintro ⟨x1, x2, x3, x4⟩
        have hcnt := clean_one_flashpg_count_eq t _ _ _ _ hle hcn
        rw [Nat.zero_add, h0] at hcnt
        have hz := count_upto_eq_zero _ hcnt.symm (q.pg - fp * sp.pgs_per_flashpg) (by omega)
        simp only [decide_eq_false_iff_not] at hz
        apply hz
        have e : fp * sp.pgs_per_flashpg + (q.pg - fp * sp.pgs_per_flashpg) = q.pg := by omega
        rw [e]
        have hr := page_status_in_range hq
        rw [hsp, hpl1] at hr
        obtain ⟨_, _, hs3⟩ := page_status_eq_some.mp hq
        have hqp : q.pl = 0 := by omega
        rw [x1, x2, hqp, hb] at hs3
        exact hs3
    · obtain ⟨k1, k2⟩ := clean_one_flashpg_copy_map_inv hc hgeo hle _ t _ t2 rfl rfl rfl rfl
        (le_refl _) (le_refl _) hJ hI0 h
      exact ⟨k1, map_inv_on_mono k2 (fun q _ hq => (alive_end hppf q).mpr hq)
        (fun q _ hq => (alive_end hppf q).mp hq)⟩

/-! ## The map invariant over a complete GC run -/

/-- One call of the loop body of the sweep of `do_gc` keeps the map invariant on the pages
the sweep has not passed. -/
theorem do_gc_lun_map_inv {sp : ssdparams} (hc : params_consistent sp)
    (hgeo : sweep_geometry sp) {blk fp ch lun : Nat} {t t2 : conv_ftl}
    (hfp : fp < sp.flashpgs_per_blk) (hch : ch < sp.nchs) (hlun : lun < sp.luns_per_ch)
    (hK : sweep_inv sp (blk % 65536) fp ch lun t)
    (hI : map_inv_on sp (alive sp (blk % 65536) fp ch lun 0 0) t)
    (h : do_gc_lun blk fp ch lun t = some t2) :
    map_inv_on sp (alive sp (blk % 65536) fp ch (lun + 1) 0 0) t2 := by
  have hpos := flashpg_pos hgeo
  have hpl1 : sp.pls_per_lun = 1 := hgeo.1.2.1.1
  obtain ⟨hW, _hfirst, hug, huu, her, _⟩ := hK
  have hsp := hW.sp_eq
  simp only [do_gc_lun, bind, Option.bind_eq_some] at h
  obtain ⟨s1, hclean, hrest⟩ := h
  rw [hsp, gc_ppa_eq hgeo hfp hch hlun] at hclean
  rw [hsp] at hrest
  have hle : fp * sp.pgs_per_flashpg + sp.pgs_per_flashpg ≤ 65536 := by
    have h1 : (fp + 1) * sp.pgs_per_flashpg ≤ sp.flashpgs_per_blk * sp.pgs_per_flashpg :=
      Nat.mul_le_mul_right _ hfp
    have h2 := hgeo.2
    have h3 := hgeo.1.2.2.2
    rw [Nat.add_mul, Nat.one_mul] at h1
    omega
  -- the counting loop
  have hmid : sweep_mid sp (blk % 65536) fp ch lun t := by
    have hclean2 := hclean
    unfold clean_one_flashpg at hclean2
    cases hcn : clean_one_flashpg_count t t.ssd.sp.pgs_per_flashpg
        { ch := ch, lun := lun, pl := 0, blk := blk % 65536, pg := fp * sp.pgs_per_flashpg,
          rsv := 0 } 0 with
    | none => simp [hcn] at hclean2
    | some cnt =>
      have hcount := clean_one_flashpg_count_some t t.ssd.sp.pgs_per_flashpg _ 0 cnt
        (by rw [hsp]; exact hle) hcn
      rw [hsp] at hcount
      have hvn : blk % 65536 < sp.blks_per_pl := (hcount 0 hpos).2.2.2.1
      have hread : ∀ i, i < sp.pgs_per_flashpg →
          ((t.ssd.blk ch lun 0 (blk % 65536)).pg (fp * sp.pgs_per_flashpg + i)).status ≠
            PG_FREE := fun i hi => (hcount i hi).2.2.2.2.2
      have hvf : blk % 65536 ∉ t.lm.free_line_list := by
        intro hm
        have := hW.free_pages _ hm ch hch lun hlun _ (hcount 0 hpos).2.2.2.2.1
        exact hread 0 hpos this
      exact ⟨hW, hvf, hvn, unread_ahead_next hgeo hW.this_open hread hug,
        unread_ahead_next hgeo hW.other_open hread huu, her⟩
  obtain ⟨hmid1, hI1⟩ := clean_one_flashpg_map_inv hc hgeo hle hmid hI hclean
  by_cases hlast : fp = sp.flashpgs_per_blk - 1
  · rw [if_pos hlast, gc_ppa_eq hgeo hfp hch hlun] at hrest
    refine mark_block_free_map_inv hI1 ?_ hrest
    rintro q hq ha ⟨x1, x2, _, x4⟩
    simp only at x1 x2 x4
    have hr := page_status_in_range hq
    rw [hmid1.1.sp_eq, hgeo.2] at hr
    have hfl : q.pg / sp.pgs_per_flashpg < sp.flashpgs_per_blk :=
      (Nat.div_lt_iff_lt_mul hpos).mpr hr.2.2.2.2
    apply (ha x4).1
    unfold swept_before
    omega
  · rw [if_neg hlast] at hrest
    simp only [pure, Option.some.injEq] at hrest
    subst hrest
    exact hI1

/-- The sweep of `do_gc` from a well-formed state with the map invariant (M1): afterwards the
map invariant holds on every page again. -/
theorem do_gc_sweep_map_inv {sp : ssdparams} (hc : params_consistent sp)
    (hgeo : sweep_geometry sp) {blk : Nat} {s s2 : conv_ftl}
    (hW : wf_inv sp none s) (hI : map_inv sp s) (h : do_gc_sweep blk s = some s2) :
    map_inv sp s2 := by
  have hsg := hgeo.1.1
  obtain ⟨_, hC, hU, _, _⟩ := hgeo.1.1
  have hF := hgeo.1.2.1.2.1
  have h0 : sweep_inv sp (blk % 65536) 0 0 0 s := by
    unfold wf_inv at hW
    have hS := wf_core_swap hW
    refine ⟨{ hS with acct := fun k hk _ => hS.acct k hk (by simp) }, fun hh => ?_, ?_, ?_,
      fun _ c l _ _ hcl => by omega, fun hh => by
        have := hgeo.1.2.1.2.1
        omega⟩
    · exact absurd ⟨rfl, rfl, rfl⟩ hh
    · intro _ k j _ _ _ _
      unfold not_read
      rcases Nat.eq_zero_or_pos ((stripe_pos sp s.gc_wp j).pg / sp.pgs_per_flashpg) with h | h
      · exact Or.inr ⟨h.symm, by omega⟩
      · exact Or.inl h
    · intro _ k j _ _ _ _
      unfold not_read
      rcases Nat.eq_zero_or_pos ((stripe_pos sp s.wp j).pg / sp.pgs_per_flashpg) with h | h
      · exact Or.inr ⟨h.symm, by omega⟩
      · exact Or.inl h
  have key := do_gc_sweep_inv sp blk
    (fun a b c t => sweep_inv sp (blk % 65536) a b c t ∧
      map_inv_on sp (alive sp (blk % 65536) a b c 0 0) t)
    (fun _ _ _ t hK => hK.1.1.sp_eq)
    (fun fp ch lun t t' hfp hch hlun hK hb =>
      ⟨sweep_inv_step hgeo hfp hch hlun hK.1 hb,
        do_gc_lun_map_inv hc hgeo hfp hch hlun hK.1 hK.2 hb⟩)
    ?_ ?_ s s2 ⟨h0, ?_⟩ h
  · obtain ⟨⟨k1, _, _, _, _, k6⟩, kI⟩ := key
    refine map_inv_on_mono kI ?_ (fun _ _ _ => trivial)
    intro q hq _ hb
    exfalso
    have hr := page_status_in_range hq
    rw [k1.sp_eq, hgeo.1.2.1.1] at hr
    obtain ⟨_, _, hs3⟩ := page_status_eq_some.mp hq
    have hqp : q.pl = 0 := by omega
    rw [hqp, hb, k6 (le_refl _) q.ch q.lun hr.1 hr.2.1 q.pg hr.2.2.2.2] at hs3
    exact absurd hs3 (by decide)
  · -- the end of the loop over the LUNs
    intro fp ch t hK
    obtain ⟨⟨k1, k2, k3, k4, k5, k6⟩, kI⟩ := hK
    refine ⟨⟨k1, fun _ => k2 (fun hh => by omega), unread_ahead_lun hsg k3,
      unread_ahead_lun hsg k4, ?_, k6⟩, ?_⟩
    · intro hl c l hc2 hl2 hcl
      exact k5 hl c l hc2 hl2 (by omega)
    · refine map_inv_on_mono kI ?_ ?_
      · intro q _ hq hb
        refine ⟨fun hs => (hq hb).1 ?_, fun hx => absurd hx.2.2.2 (Nat.not_lt_zero _)⟩
        unfold swept_before at hs ⊢
        omega
      · intro q hv hq hb
        have hr := page_status_in_range hv
        rw [k1.sp_eq] at hr
        refine ⟨fun hs => (hq hb).1 ?_, fun hx => absurd hx.2.2.2 (Nat.not_lt_zero _)⟩
        unfold swept_before at hs ⊢
        omega
  · -- the end of the loop over the channels
    intro fp t hK
    obtain ⟨⟨k1, k2, k3, k4, k5, k6⟩, kI⟩ := hK
    refine ⟨⟨k1, fun _ => k2 (fun hh => by omega), unread_ahead_ch hsg k3,
      unread_ahead_ch hsg k4, fun _ c l _ _ hcl => by omega, ?_⟩, ?_⟩
    · intro hge c l hc2 hl2
      by_cases hlt : sp.flashpgs_per_blk ≤ fp
      · exact k6 hlt c l hc2 hl2
      · exact k5 (by omega) c l hc2 hl2 (by omega)
    · refine map_inv_on_mono kI ?_ ?_
      · intro q _ hq hb
        refine ⟨fun hs => (hq hb).1 ?_, fun hx => absurd hx.2.2.2 (Nat.not_lt_zero _)⟩
        unfold swept_before at hs ⊢
        omega
      · intro q hv hq hb
        have hr := page_status_in_range hv
        rw [k1.sp_eq] at hr
        refine ⟨fun hs => (hq hb).1 ?_, fun hx => absurd hx.2.2.2 (Nat.not_lt_zero _)⟩
        unfold swept_before at hs ⊢
        omega
  · -- the start of the sweep
    refine map_inv_on_mono hI (fun _ _ _ => trivial) ?_
    intro q _ _ hb
    refine ⟨?_, fun hx => absurd hx.2.2.2 (Nat.not_lt_zero _)⟩
    unfold swept_before
    rintro (hs | ⟨_, hs | ⟨_, hs⟩⟩)
    · exact Nat.not_lt_zero _ hs
    · exact Nat.not_lt_zero _ hs
    · exact Nat.not_lt_zero _ hs

/-- A complete `do_gc` from a well-formed state keeps the map invariant (M1), in every GC
mode and for every victim it is given. -/
theorem do_gc_map_inv {sp : ssdparams} (hc : params_consistent sp) (hgeo : sweep_geometry sp)
    {s s2 : conv_ftl} {now r : Nat} {force : Bool} {rc : Int}
    (hW : wf_inv sp none s) (hI : map_inv sp s)
    (h : do_gc s now r force = some (s2, rc)) : map_inv sp s2 := by
  have hsel1 : ∀ s1 vo, select_victim s now r force = some (s1, vo) →
      wf_inv sp none s1 ∧ map_inv sp s1 := by
    intro s1 vo hsel
    obtain ⟨f1, _, f3⟩ := select_victim_frame hW.hooks hsel
    have hssd : s1.ssd = s.ssd := by rw [f1]
    have hwp : s1.wp = s.wp := by rw [f1]
    have hgw : s1.gc_wp = s.gc_wp := by rw [f1]
    refine ⟨?_, map_inv_on_congr hssd (by rw [f1]) (by rw [f1]) hI⟩
    unfold wf_inv at hW ⊢
    rw [hwp, hgw]
    exact wf_core_frame hssd f3 hW
  rcases do_gc_eq_some h with ⟨s1, hsel, e, _⟩ | ⟨s1, v, sg, s5, hsel, e2, hsw, e, _⟩
  · rw [e]
    exact (hsel1 s1 none hsel).2
  · obtain ⟨hW1, hI1⟩ := hsel1 s1 (some v) hsel
    have hX : wf_inv sp none
        { sg with gc_count := sg.gc_count + 1,
                  wfc := { sg.wfc with credits_to_refill := (s1.lm.lines v).ipc } } := by
      refine wf_inv_congr (s := s1) ?_ ?_ ?_ ?_ hW1
      · show sg.ssd = s1.ssd
        rw [e2]
      · show sg.lm = s1.lm
        rw [e2]
      · show sg.wp = s1.wp
        rw [e2]
      · show sg.gc_wp = s1.gc_wp
        rw [e2]
    have hY : map_inv sp
        { sg with gc_count := sg.gc_count + 1,
                  wfc := { sg.wfc with credits_to_refill := (s1.lm.lines v).ipc } } := by
      refine map_inv_on_congr (s := s1) ?_ ?_ ?_ hI1
      · show sg.ssd = s1.ssd
        rw [e2]
      · show sg.maptbl = s1.maptbl
        rw [e2]
      · show sg.rmap = s1.rmap
        rw [e2]
    have h5 := do_gc_sweep_map_inv hc hgeo hX hY hsw
    rw [e]
    exact map_inv_on_congr (s := s5) rfl rfl rfl h5

/-- The refill step `check_and_refill_write_credit`, with its foreground GC, keeps the map
invariant (M1). -/
theorem refill_map_inv {sp : ssdparams} (hc : params_consistent sp) (hgeo : sweep_geometry sp)
    {s s2 : conv_ftl} {now r : Nat} (hW : wf_inv sp none s) (hI : map_inv sp s)
    (h : check_and_refill_write_credit s now r = some s2) : map_inv sp s2 := by
  unfold check_and_refill_write_credit at h
  split_ifs at h with hcr
  · cases hf : foreground_gc s now r with
    | none => simp [hf] at h
    | some s1 =>
      simp only [hf, Option.some.injEq] at h
      have hI1 : map_inv sp s1 := by
        unfold foreground_gc at hf
        split_ifs at hf with hg
        · cases hd : do_gc s now r true with
          | none => simp [hd] at hf
          | some r1 =>
            obtain ⟨sa, rc⟩ := r1
            simp only [hd, Option.some.injEq] at hf
            rw [← hf]
            exact do_gc_map_inv hc hgeo hW hI hd
        · rw [← Option.some.inj hf]
          exact hI
      rw [← h]
      exact map_inv_on_congr (s := s1) rfl rfl rfl hI1
  · rw [← Option.some.inj h]
    exact hI

/-! ## The map invariant in the reachable states -/

/-- The write step of `conv_write` for one local LPN keeps the map invariant (M1), both
halves. -/
theorem conv_write_map_map_inv {sp : ssdparams} (hc : params_consistent sp) {s s2 : conv_ftl}
    {now L : Nat} {p : ppa} (hsp : s.ssd.sp = sp) (hI : map_inv sp s)
    (h : conv_write_map s now L = some (s2, p)) : map_inv sp s2 := by
  subst hsp
  obtain ⟨a1, a2, a3, a4, a5, a6, a7, a8, _a9, a10⟩ := conv_write_map_effect h
  have hpr := page_status_in_range a8
  obtain ⟨w, _, hpw⟩ := get_new_page_eq_some a10
  have hprsv : p.rsv = 0 := by rw [hpw]
  constructor
  · intro K hK
    by_cases hKL : K = L
    · subst hKL
      right
      rw [a3, Function.update_same]
      refine ⟨?_, ?_, trivial⟩
      · rw [get_rmap_ent_eq_some, a1, a5, Function.update_same]
        exact ⟨a4, rfl⟩
      · rw [a6 p, if_pos (same_page_refl p)]
    · rw [a3, Function.update_noteq hKL]
      rcases hI.fwd K hK with hu | ⟨hr, hv, _⟩
      · exact Or.inl hu
      · right
        obtain ⟨hr1, hr2⟩ := get_rmap_ent_eq_some.mp hr
        have hqr := page_status_in_range hv
        have hnp : ¬ same_page (s.maptbl K) p := by
          intro hs
          rw [page_status_same_page hs, a8] at hv
          exact absurd hv (by decide)
        have hip : pgidx_of s.ssd.sp (s.maptbl K) ≠ pgidx_of s.ssd.sp p :=
          fun he => hnp (pgidx_of_inj hc hqr hpr he)
        have hold : mapped_ppa (s.maptbl L) = true →
            pgidx_of s.ssd.sp (s.maptbl K) ≠ pgidx_of s.ssd.sp (s.maptbl L) := by
          intro hm he
          rcases hI.fwd L a2 with hu | ⟨hrL, _, _⟩
          · rw [hm] at hu
            exact absurd hu (by decide)
          · obtain ⟨_, hrL2⟩ := get_rmap_ent_eq_some.mp hrL
            rw [he] at hr2
            exact hKL (hr2.symm.trans hrL2)
        refine ⟨?_, ?_, trivial⟩
        · rw [get_rmap_ent_eq_some, a1, a5, Function.update_noteq hip]
          refine ⟨hr1, ?_⟩
          by_cases hm : mapped_ppa (s.maptbl L) = true
          · rw [if_pos hm, Function.update_noteq (hold hm)]
            exact hr2
          · rw [if_neg hm]
            exact hr2
        · rw [a6, if_neg hnp]
          by_cases hm : mapped_ppa (s.maptbl L) = true
          · have hns : ¬ same_page (s.maptbl K) (s.maptbl L) :=
              fun hs => hold hm (pgidx_of_same_page hs)
            rw [if_neg (fun hh => hns hh.2)]
            exact hv
          · rw [if_neg (fun hh => hm hh.1)]
            exact hv
  · intro q hq _
    rw [a6] at hq
    by_cases hs : same_page q p
    · rw [a5, pgidx_of_same_page hs, Function.update_same, a3, Function.update_same]
      exact ⟨a2, mapped_ppa_of_rsv hprsv, same_page_symm hs⟩
    · rw [if_neg hs] at hq
      by_cases ho : mapped_ppa (s.maptbl L) = true ∧ same_page q (s.maptbl L)
      · rw [if_pos ho] at hq
        exact absurd hq (by decide)
      · rw [if_neg ho] at hq
        obtain ⟨r1, r2, r3⟩ := hI.rev q hq trivial
        have hqr := page_status_in_range hq
        have hip : pgidx_of s.ssd.sp q ≠ pgidx_of s.ssd.sp p :=
          fun he => hs (pgidx_of_inj hc hqr hpr he)
        have hne : s.rmap (pgidx_of s.ssd.sp q) ≠ L := by
          intro he
          rw [he] at r2 r3
          exact ho ⟨r2, same_page_symm r3⟩
        have hrq : (if mapped_ppa (s.maptbl L) = true then
            Function.update s.rmap (pgidx_of s.ssd.sp (s.maptbl L)) INVALID_LPN else s.rmap)
            (pgidx_of s.ssd.sp q) = s.rmap (pgidx_of s.ssd.sp q) := by
          by_cases hm : mapped_ppa (s.maptbl L) = true
          · rw [if_pos hm]
            apply Function.update_noteq
            intro he
            exact ho ⟨hm, pgidx_of_inj hc hqr (page_status_in_range (a7 hm).1) he⟩
          · rw [if_neg hm]
        rw [a5, Function.update_noteq hip, hrq, a3, Function.update_noteq hne]
        exact ⟨r1, r2, r3⟩

/-- On the state `conv_init_ftl` builds on a fresh device the map invariant (M1) holds: no LPN
is mapped and no page is VALID. -/
theorem conv_init_ftl_map_inv {cpp : convparams} {spp : ssdparams} {gc_mode : Nat}
    {dbg : Bool} {d0 : Nat → Option Nat} {s : conv_ftl}
    (h : conv_init_ftl cpp (ssd_init spp) gc_mode dbg d0 = some s) : map_inv spp s := by
  obtain ⟨lm, c1, c2, rest, _, _, hssd, hm, _, _, _, _⟩ := conv_init_ftl_eq_some h
  constructor
  · intro L _
    left
    rw [hm]
    rfl
  · intro q hq _
    exfalso
    obtain ⟨_, _, hs⟩ := page_status_eq_some.mp hq
    rw [hssd] at hs
    have hf : (((ssd_init spp).blk q.ch q.lun q.pl q.blk).pg q.pg).status = PG_FREE := rfl
    rw [hf] at hs
    exact absurd hs (by decide)

/-- Every reachable state satisfies the map invariant (M1), both halves, in every GC mode. -/
theorem reachable_map_inv {cpp : convparams} {spp : ssdparams} {gc_mode : Nat} {dbg : Bool}
    {d0 : Nat → Option Nat} {s : conv_ftl} (hc : params_consistent spp)
    (hgeo : sweep_geometry spp) (hr : reachable cpp spp gc_mode dbg d0 s) : map_inv spp s := by
  induction hr with
  | init h => exact conv_init_ftl_map_inv h
  | write hp h ih => exact conv_write_map_map_inv hc (reachable_wf hgeo hp).sp_eq ih h
  | gc hp h ih => exact do_gc_map_inv hc hgeo (reachable_wf hgeo hp) ih h
  | credit _ ih => exact map_inv_on_congr (by rfl) (by rfl) (by rfl) ih
  | refill hp h ih => exact refill_map_inv hc hgeo (reachable_wf hgeo hp) ih h

/-- The forward half of the map invariant is map consistency (P1). -/
theorem map_inv_consistent {s : conv_ftl} (hI : map_inv s.ssd.sp s) : map_consistent s :=
  fun L hL => (hI.fwd L hL).imp id (fun h => ⟨h.1, h.2.1⟩)

/-- The reverse half of the map invariant on the blocks numbered `v`. -/
theorem map_inv_victim_mapped {s : conv_ftl} {v : Nat} (hpl : 0 < s.ssd.sp.pls_per_lun)
    (hv : v < s.ssd.sp.blks_per_pl) (hI : map_inv s.ssd.sp s) : victim_mapped s v := by
  intro c hc l hl g hg hst
  apply hI.rev _ _ trivial
  rw [page_status_eq_some]
  exact ⟨⟨hc, hl, hpl, hv⟩, hg, hst⟩

/-! ## C4: GC loses no data -/

/-- C4: GC loses no data. In every state reachable from `conv_init_ftl` by page writes,
complete GC runs and the write-credit steps, in every GC mode, map consistency (P1) holds;
and if `do_gc` selects a line `v` of the device whose pages are all VALID or INVALID (none is
FREE) and returns, then it returns 0, every LPN that was mapped is still mapped, every LPN
whose address lay outside `v` keeps its address, every LPN whose address lay inside `v` is
mapped to a VALID page of a line other than `v` whose reverse-map entry is the LPN, and map
consistency (P1) holds again. -/
theorem do_gc_loses_no_data (cpp : convparams) (spp : ssdparams) (gc_mode : Nat) (dbg : Bool)
    (d0 : Nat → Option Nat) (s s2 : conv_ftl) (now r v : Nat) (force : Bool) (rc : Int)
    (hc : params_consistent spp) (hgeo : sweep_geometry spp)
    (hr : reachable cpp spp gc_mode dbg d0 s)
    (hsel : (select_victim s now r force).map (fun x => x.2) = some (some v))
    (hv : v < spp.blks_per_pl)
    (hwritten : ∀ c, c < spp.nchs → ∀ l, l < spp.luns_per_ch → ∀ g, g < spp.pgs_per_blk →
      ((s.ssd.blk c l 0 v).pg g).status ≠ PG_FREE)
    (h : do_gc s now r force = some (s2, rc)) :
    map_consistent s ∧ rc = 0 ∧
    (∀ L, L < spp.tt_pgs → mapped_ppa (s.maptbl L) = true →
      mapped_ppa (s2.maptbl L) = true) ∧
    (∀ L, L < spp.tt_pgs → mapped_ppa (s.maptbl L) = true → (s.maptbl L).blk ≠ v →
      s2.maptbl L = s.maptbl L) ∧
    (∀ L, L < spp.tt_pgs → mapped_ppa (s.maptbl L) = true → (s.maptbl L).blk = v →
      mapped_ppa (s2.maptbl L) = true ∧ (s2.maptbl L).blk ≠ v ∧
      get_rmap_ent s2 (s2.maptbl L) = some L ∧
      page_status s2 (s2.maptbl L) = some PG_VALID) ∧
    map_consistent s2 := by
  have hW := reachable_wf hgeo hr
  have hI := reachable_map_inv hc hgeo hr
  have hsp : s.ssd.sp = spp := hW.sp_eq
  obtain ⟨_, hC, hU, _, _⟩ := hgeo.1.1
  have hpb : 0 < spp.pgs_per_blk := hgeo.1.2.2.1
  have hfit : spp.blks_per_pl ≤ 65536 := hgeo.1.2.1.2.2.2.2
  have hpl : spp.pls_per_lun = 1 := hgeo.1.2.1.1
  have hvf : v ∉ s.lm.free_line_list := fun hm =>
    hwritten 0 hC 0 hU 0 hpb (hW.free_pages v hm 0 hC 0 hU 0 hpb)
  have hvg : s.gc_wp.blk % 65536 ≠ v := by
    intro he
    obtain ⟨b1, b2, b3, b4⟩ := open_free_bounds hgeo.1.1 hW.other_open
    have hlt : s.gc_wp.blk < spp.blks_per_pl := by
      rw [hW.other_open.2.1]
      exact hW.other_open.2.2.1
    rw [Nat.mod_eq_of_lt (by omega)] at he
    rw [he] at b4
    exact hwritten _ b1 _ b2 _ b3 b4
  subst hsp
  have hP := map_inv_consistent hI
  have hV : victim_mapped s v := map_inv_victim_mapped (by omega) hv hI
  exact ⟨hP, do_gc_map hc hgeo hW.ids hW.hooks (wf_inv_accounting hW) hP hV hsel hv hvf hvg h⟩

theorem do_gc_loses_no_data_witness :
    one_victim_state.maptbl 0 = { ch := 0, lun := 0, pl := 0, blk := 0, pg := 1, rsv := 0 } ∧
    ((one_victim_state.ssd.blk 0 0 0 0).pg 0).status = PG_INVALID ∧
    ((one_victim_state.ssd.blk 0 0 0 0).pg 1).status = PG_VALID ∧
    one_victim_state.lm.free_line_list = [3, 4, 5] ∧
    map_consistent one_victim_state ∧
    ∃ s2, do_gc one_victim_state 9 0 true = some (s2, 0) ∧
      mapped_ppa (s2.maptbl 0) = true ∧ (s2.maptbl 0).blk ≠ 0 ∧
      get_rmap_ent s2 (s2.maptbl 0) = some 0 ∧
      page_status s2 (s2.maptbl 0) = some PG_VALID ∧ map_consistent s2 := by
  obtain ⟨x, hx⟩ := Option.isSome_iff_exists.mp
    (show (do_gc one_victim_state 9 0 true).isSome = true by decide)
  obtain ⟨s2, rc⟩ := x
  obtain ⟨h0, h1, _, _, h4, h5⟩ :=
    do_gc_loses_no_data conv_params (tiny_params 6) 0 false (fun _ => none) one_victim_state s2
      9 0 0 true rc (by decide) (by decide) reachable_one_victim (by decide) (by decide)
      (by decide) hx
  subst h1
  obtain ⟨m1, m2, m3, m4⟩ := h4 0 (by decide) (by decide) (by decide)
  exact ⟨by decide, by decide, by decide, by decide, h0, s2, hx, m1, m2, m3, m4, h5⟩

end NVMeVirt
